import Mathlib

/-!
# CryptoMiniSat search core: a shallow embedding

The definitions below follow `src/src/searcher.cpp` (class `Searcher`).  Vectors indexed by a
variable or by a literal (`assigns`, `varData`, `seen`, `permDiff`, `watches`, the clause
allocator) are total functions; sequences that the code grows, shrinks or walks (`trail`,
`trail_lim`, `learnt_clause`, `toClear`, ...) are lists.  Code that would read a vector below
index 0, or that runs into a failing `assert(false)`, returns `none`.

Statistics, SQL/DRAT output, activities (floating point) and everything behind `USE_GAUSS`,
`STATS_NEEDED`, `FINAL_PREDICTOR`, `USE_GPU`, `VMTF_NEEDED` are left out: they do not influence the
quantities modelled here.
-/

namespace CMSat

/-! ## Literals, truth values, reasons -/

/-- A literal, encoded as `2*var + sign` (solvertypes.h, `Lit::x`). -/
structure Lit where
  x : Nat
deriving DecidableEq, Repr

namespace Lit

/-- Embeds `Lit(var, is_inverted)`. -/
def mkLit (v : Nat) (is_inverted : Bool) : Lit := ⟨2 * v + (if is_inverted then 1 else 0)⟩

/-- Embeds `Lit::var()`. -/
def var (l : Lit) : Nat := l.x / 2

/-- Embeds `Lit::sign()`: true for a negated variable. -/
def sign (l : Lit) : Bool := l.x % 2 == 1

/-- Embeds `Lit::toInt()`. -/
def toInt (l : Lit) : Nat := l.x

/-- Embeds `operator~`: flips the lowest bit. -/
def neg (l : Lit) : Lit := ⟨if l.x % 2 = 0 then l.x + 1 else l.x - 1⟩

end Lit

/-- Embeds `var_Undef` is `0xffffffffU >> 4`. -/
def var_Undef : Nat := 268435455

/-- Embeds `lit_Undef` is `Lit(var_Undef, false)`. -/
def lit_Undef : Lit := Lit.mkLit var_Undef false

/-- Embeds `lit_Error` is `Lit(var_Undef, true)`. -/
def lit_Error : Lit := Lit.mkLit var_Undef true

/-- Three-valued truth value. -/
inductive lbool where
  | l_True
  | l_False
  | l_Undef
deriving DecidableEq, Repr

open lbool

/-- Embeds `lbool ^ bool`: flips a defined value when the flag is set. -/
def lbool.xor (v : lbool) (b : Bool) : lbool :=
  match v, b with
  | l_True, true => l_False
  | l_False, true => l_True
  | v, _ => v

/-- Embeds `PropBy`: the antecedent of a propagation or the conflicting constraint. -/
inductive PropBy where
  | null_clause_t
  | binary_t (lit2 : Lit) (red : Bool)
  | clause_t (offset : Nat)
deriving DecidableEq, Repr

/-- Embeds `PropBy::isNULL()`. -/
def PropBy.isNULL : PropBy → Bool
  | .null_clause_t => true
  | _ => false

/-- One watch-list entry: a binary clause stored inline, or a long clause with its blocker. -/
inductive Watched where
  | bin (lit2 : Lit) (red : Bool)
  | long (offset : Nat) (blocker : Lit)
deriving DecidableEq, Repr

/-- Embeds `Watched::isBin()`. -/
def Watched.isBin : Watched → Bool
  | .bin _ _ => true
  | _ => false

/-- The statistics of a long clause (`ClauseStats`) that the search core reads or writes. -/
structure ClauseStats where
  glue : Nat
  which_red_array : Nat
  ttl : Nat
  last_touched : Nat
  is_ternary_resolvent : Bool
  locked_for_data_gen : Bool
  is_decision : Bool
deriving DecidableEq, Repr

/-- A long clause in the clause allocator. -/
structure Clause where
  lits : List Lit
  isRed : Bool
  stats : ClauseStats
deriving DecidableEq, Repr

instance : Inhabited ClauseStats := ⟨⟨0, 0, 0, 0, false, false, false⟩⟩

instance : Inhabited Clause := ⟨⟨[], false, default⟩⟩

/-- One trail entry (`Trail`): the literal and the level it was enqueued at. -/
structure Trail where
  lit : Lit
  lev : Nat
deriving DecidableEq, Repr

/-- The part of `VarData` the search core reads here. -/
structure VarData where
  level : Nat
  reason : PropBy
deriving DecidableEq, Repr

/-- The branching strategies (`branch`). -/
inductive branch where
  | vsids
  | maple
  | rand
deriving DecidableEq, Repr

/-- The restart types (`Restart`). -/
inductive Restart where
  | glue
  | geom
  | glue_geom
  | luby
  | never
deriving DecidableEq, Repr

/-- A configuration key of type `double`, kept as an exact fraction `num / den`. -/
structure Frac where
  num : Nat
  den : Nat
deriving DecidableEq, Repr

/-- The product `x * r` of a counter with a `double` key, cut to an integer as the assignment to
an integer variable does (taken over the rationals: rounding of `double` is not modelled). -/
def Frac.scale (x : Nat) (r : Frac) : Nat := x * r.num / r.den

/-- The keys of `SolverConf` read by the modelled functions. -/
structure SolverConf where
  doRecursiveMinim : Bool
  doMinimRedMore : Bool
  doMinimRedMoreMore : Nat
  max_size_more_minim : Nat
  max_glue_more_minim : Nat
  max_num_lits_more_more_red_min : Nat
  more_red_minim_limit_binary : Int
  glue_put_lev0_if_below_or_eq : Nat
  glue_put_lev1_if_below_or_eq : Nat
  update_glues_on_analyze : Bool
  protect_cl_if_improved_glue_below_this_glue_for_one_turn : Nat
  diff_declev_for_chrono : Int
  do_decision_based_cl : Bool
  decision_based_cl_min_learned_size : Nat
  decision_based_cl_max_levels : Nat
  maxTime : Nat
  every_lev1_reduce : Nat
  every_lev2_reduce : Nat
  max_temp_lev2_learnt_clauses : Nat
  restart_first : Nat
  restartType : Restart
  restart_inc : Frac
  ratio_glue_geom : Frac
  inc_max_temp_lev2_red_cls : Frac
  branch_strategy_setup : String
  do_distill_clauses : Bool
  distill_increase_conf_ratio : Frac
  distill_min_confl : Nat
deriving Repr

/-- Embeds `SearchParams`: the per-restart parameters of the search loop. -/
structure SearchParams where
  needToStopSearch : Bool
  conflictsDoneThisRestart : Nat
  max_confl_to_do : Nat
  rest_type : Restart
deriving DecidableEq, Repr

/-! ## Solver state -/

/-- The members of `Searcher` (and of its bases `HyperEngine`, `PropEngine`, `CNF`) that conflict
analysis, backtracking and the search loop use. -/
structure Searcher where
  conf : SolverConf
  ok : Bool
  assigns : Nat → lbool
  varData : Nat → VarData
  trail : List Trail
  trail_lim : List Nat
  qhead : Nat
  cl_alloc : Nat → Clause
  sumConflicts : Nat
  watches : Lit → List Watched
  seen : Nat → Bool
  permDiff : Nat → Nat
  MYFLAG : Nat
  learnt_clause : List Lit
  decision_clause : List Lit
  toClear : List Lit
  pathC : Nat
  failBinLit : Lit
  branch_strategy : branch
  more_red_minim_limit_binary_actual : Int
  conflict : List Lit
  model : Nat → lbool
  assumptions : List Lit
  order_heap_vsids : List Nat
  order_heap_maple : List Nat
  order_heap_rand : List Nat
  longRedCls : Nat → List Nat
  longIrredCls : List Nat
  xorclauses : List (List Nat × Bool)
  cl_alloc_size : Nat
  numConflicts : Nat
  params : SearchParams
  max_confl_this_restart : Int
  max_confl_per_search_solve_call : Nat
  cur_rest_type : Restart
  branch_strategy_num : Nat
  env_reads : Nat
  nVars : Nat
  var_removed : Nat → Bool
  lastCleanZeroDepthAssigns : Nat
  simpDB_props : Int
  litStats_lits : Nat
  next_lev1_reduce : Nat
  next_lev2_reduce : Nat
  cur_max_temp_red_lev2_cls : Nat
  increasing_phase_size : Nat
  luby_loop_num : Nat
  next_distill : Nat
  glueHist : List Nat
  trailDepthHistLonger : List Nat
  fast_backw_on : Bool
  fast_backw_cur_max_confl : Nat
  fast_backw_max_confl : Nat
  mtrand : Nat

namespace Searcher

/-- Embeds `value(Lit)`: `assigns[p.var()] ^ p.sign()`. -/
def value (s : Searcher) (p : Lit) : lbool := (s.assigns p.var).xor p.sign

/-- Embeds `level(Lit)`, i.e. `varData[l.var()].level`. -/
def level (s : Searcher) (l : Lit) : Nat := (s.varData l.var).level

/-- Embeds `decisionLevel()`: `trail_lim.size()`. -/
def decisionLevel (s : Searcher) : Nat := s.trail_lim.length


/-- Writing one slot of a vector: `v[i] = x`. -/
def upd {β : Type} (f : Nat → β) (i : Nat) (x : β) : Nat → β :=
  fun j => if j = i then x else f j

/-- Embeds `std::swap(v[i], v[j])` on a vector. -/
def swapAt (v : List Lit) (i j : Nat) : List Lit :=
  (v.set i (v.getD j lit_Undef)).set j (v.getD i lit_Undef)

/-! ## Conflict analysis -/

/-- Embeds `Searcher::add_lit_to_learnt`: a literal of level 0 or with `seen` set is skipped; otherwise
its variable is marked and the literal is counted in `pathC` (level at least `nDecisionLevel`)
or appended to `learnt_clause`.  The activity bumps of the branching heuristics are left out. -/
def add_lit_to_learnt (s : Searcher) (lit : Lit) (nDecisionLevel : Nat) : Searcher :=
  if s.seen lit.var || (s.varData lit.var).level == 0 then s
  else
    let s1 := { s with seen := upd s.seen lit.var true }
    if (s1.varData lit.var).level ≥ nDecisionLevel then { s1 with pathC := s1.pathC + 1 }
    else { s1 with learnt_clause := s1.learnt_clause ++ [lit] }

/-- Modelled from the spec: `calc_glue` (defined in a header that is not among the sources) is the
glue of §4.6, the number of distinct non-zero decision levels among the literals. -/
def calc_glue (s : Searcher) (ps : List Lit) : Nat :=
  ((ps.map s.level).filter (fun l => l != 0)).dedup.length

/-- Embeds `Searcher::update_glue_from_analysis`, on the clause at `offset`. -/
def update_glue_from_analysis (s : Searcher) (offset : Nat) : Searcher :=
  let cl := s.cl_alloc offset
  if cl.stats.is_ternary_resolvent then s
  else
    let new_glue := calc_glue s cl.lits
    if new_glue < cl.stats.glue then
      let st1 : ClauseStats :=
        if cl.stats.glue ≤ s.conf.protect_cl_if_improved_glue_below_this_glue_for_one_turn
        then { cl.stats with ttl := 1 } else cl.stats
      let st2 : ClauseStats := { st1 with glue := new_glue }
      let st3 : ClauseStats :=
        if st2.locked_for_data_gen then st2
        else if new_glue ≤ s.conf.glue_put_lev0_if_below_or_eq then { st2 with which_red_array := 0 }
        else if new_glue ≤ s.conf.glue_put_lev1_if_below_or_eq
            && s.conf.glue_put_lev1_if_below_or_eq != 0 then { st2 with which_red_array := 1 }
        else st2
      let cl1 : Clause := { cl with stats := st3 }
      { s with cl_alloc := upd s.cl_alloc offset cl1 }
    else s

/-- The bookkeeping `add_literals_from_confl_to_learnt` does on a long antecedent: glue update and
`last_touched` of a redundant clause outside tier 0 (the activity bump is left out). -/
def touch_antecedent (update_bogoprops : Bool) (s : Searcher) (offset : Nat) : Searcher :=
  let cl := s.cl_alloc offset
  if !update_bogoprops && cl.isRed && cl.stats.which_red_array != 0 then
    let s1 := if s.conf.update_glues_on_analyze then update_glue_from_analysis s offset else s
    let cl1 := s1.cl_alloc offset
    if cl1.stats.which_red_array == 1 then
      let st1 : ClauseStats := { cl1.stats with last_touched := s1.sumConflicts }
      let cl2 : Clause := { cl1 with stats := st1 }
      { s1 with cl_alloc := upd s1.cl_alloc offset cl2 }
    else s1
  else s

/-- Embeds `Searcher::add_literals_from_confl_to_learnt`: the literals of the constraint `confl` are passed
to `add_lit_to_learnt`, the first one only when `p == lit_Undef` (the conflict itself).  A null
`confl` runs into `assert(false)`, an empty long clause is read out of bounds: both give `none`. -/
def add_literals_from_confl_to_learnt (update_bogoprops : Bool) (s : Searcher) (confl : PropBy)
    (p : Lit) (nDecisionLevel : Nat) : Option Searcher :=
  match confl with
  | .null_clause_t => none
  | .binary_t lit2 _ =>
    let s1 := if p = lit_Undef then add_lit_to_learnt s s.failBinLit nDecisionLevel else s
    some (add_lit_to_learnt s1 lit2 nDecisionLevel)
  | .clause_t offset =>
    match (s.cl_alloc offset).lits with
    | [] => none
    | x0 :: rest =>
      let s0 := touch_antecedent update_bogoprops s offset
      let s1 := if p = lit_Undef then add_lit_to_learnt s0 x0 nDecisionLevel else s0
      some (rest.foldl (fun t x => add_lit_to_learnt t x nDecisionLevel) s1)

/-- The nested loops
`do { while (!seen[trail[index--].lit.var()]); p = trail[index+1].lit; } while (trail[index+1].lev < nDecisionLevel);`
of `create_learnt_clause`.  The argument is `index + 1`, the result is the position `index + 1` of
the selected `p`; reading `trail[-1]` gives `none`. -/
def select_next_implication (s : Searcher) (nDecisionLevel : Nat) : Nat → Option Nat
  | 0 => none
  | n + 1 =>
    match s.trail[n]? with
    | none => none
    | some t =>
      if !s.seen t.lit.var then select_next_implication s nDecisionLevel n
      else if t.lev < nDecisionLevel then select_next_implication s nDecisionLevel n
      else some n

/-- The outer `do ... while (pathC > 0)` loop of `create_learnt_clause`, with the current `confl`,
`p` and `index + 1`.  Every round lowers `index`, so `trail.size() + 1` rounds of fuel are never
used up.  Decrementing `pathC` at 0 (excluded by the `assert(pathC == 0)` that follows the loop)
gives `none`. -/
def create_learnt_clause_loop (update_bogoprops : Bool) (nDecisionLevel : Nat) :
    Nat → Searcher → PropBy → Lit → Nat → Option (Searcher × Lit)
  | 0, _, _, _, _ => none
  | fuel + 1, s, confl, p, index1 =>
    match add_literals_from_confl_to_learnt update_bogoprops s confl p nDecisionLevel with
    | none => none
    | some s1 =>
      match select_next_implication s1 nDecisionLevel index1 with
      | none => none
      | some n =>
        let p1 := (s1.trail.getD n ⟨lit_Undef, 0⟩).lit
        let confl1 := (s1.varData p1.var).reason
        let s2 := { s1 with seen := upd s1.seen p1.var false }
        if s2.pathC = 0 then none
        else
          let s3 := { s2 with pathC := s2.pathC - 1 }
          if s3.pathC > 0 then
            create_learnt_clause_loop update_bogoprops nDecisionLevel fuel s3 confl1 p1 n
          else some (s3, p1)

/-- The first literal of the conflicting constraint (`lit0` in `create_learnt_clause`). -/
def confl_lit0 (s : Searcher) : PropBy → Option Lit
  | .null_clause_t => none
  | .binary_t _ _ => some s.failBinLit
  | .clause_t offset => some ((s.cl_alloc offset).lits.getD 0 lit_Undef)

/-- Embeds `Searcher::create_learnt_clause`: first-UIP resolution over the trail. -/
def create_learnt_clause (update_bogoprops : Bool) (s : Searcher) (confl : PropBy) :
    Option Searcher :=
  match confl_lit0 s confl with
  | none => none
  | some lit0 =>
    let nDecisionLevel := (s.varData lit0.var).level
    let s1 := { s with pathC := 0, learnt_clause := s.learnt_clause ++ [lit_Undef] }
    match create_learnt_clause_loop update_bogoprops nDecisionLevel (s1.trail.length + 1) s1 confl
        lit_Undef s1.trail.length with
    | none => none
    | some (s2, p) => some { s2 with learnt_clause := s2.learnt_clause.set 0 p.neg }

/-- Modelled from the spec: `abstractLevel` (defined in a header that is not among the sources),
the level-abstraction bitmask of §4.6: bit `level mod 32`. -/
def abstractLevel (s : Searcher) (x : Nat) : Nat := 1 <<< ((s.varData x).level % 32)

/-- The literals of the reason of a propagated literal other than the literal itself, as
`litRedundant` and `normalClMinim` walk them: `lit2` of a binary reason, `lits[1..]` of a long
one.  `none` for a null reason (`release_assert(false)`) and for an empty long clause. -/
def reason_other_lits (s : Searcher) : PropBy → Option (List Lit)
  | .null_clause_t => none
  | .binary_t lit2 _ => some [lit2]
  | .clause_t offset =>
    match (s.cl_alloc offset).lits with
    | [] => none
    | _ :: rest => some rest

/-- Clearing `seen` on the variables of a list of literals. -/
def clear_seen_vars (seen : Nat → Bool) (ls : List Lit) : Nat → Bool :=
  ls.foldl (fun sn l => upd sn l.var false) seen

/-- The `for` loop of `litRedundant` over the other literals of one reason.  The Boolean is false
when the function bailed out (`return false`), after undoing its marks from `top` on. -/
def litRedundant_lits (abstract_levels top : Nat) :
    List Lit → List Lit → Searcher → Bool × List Lit × Searcher
  | [], stack, s => (true, stack, s)
  | p2 :: rest, stack, s =>
    if !s.seen p2.var && (s.varData p2.var).level > 0 then
      if !(s.varData p2.var).reason.isNULL
          && (abstractLevel s p2.var &&& abstract_levels) != 0 then
        litRedundant_lits abstract_levels top rest (p2 :: stack)
          { s with seen := upd s.seen p2.var true, toClear := s.toClear ++ [p2] }
      else
        (false, stack,
          { s with seen := clear_seen_vars s.seen (s.toClear.drop top),
                   toClear := s.toClear.take top })
    else litRedundant_lits abstract_levels top rest stack s

/-- The `while (!analyze_stack.empty())` loop of `litRedundant`; the head of the list is the top
of the stack. -/
def litRedundant_loop (abstract_levels top : Nat) :
    Nat → List Lit → Searcher → Option (Bool × Searcher)
  | 0, _, _ => none
  | _ + 1, [], s => some (true, s)
  | fuel + 1, q :: stack, s =>
    match reason_other_lits s (s.varData q.var).reason with
    | none => none
    | some lits =>
      match litRedundant_lits abstract_levels top lits stack s with
      | (false, _, s1) => some (false, s1)
      | (true, stack1, s1) => litRedundant_loop abstract_levels top fuel stack1 s1

/-- Embeds `Searcher::litRedundant`.  A variable is pushed only when it is propagated (has a reason) and
its `seen` flag is clear, so `trail.size() + 2` rounds suffice on a consistent trail. -/
def litRedundant (s : Searcher) (p : Lit) (abstract_levels : Nat) : Option (Bool × Searcher) :=
  litRedundant_loop abstract_levels s.toClear.length (s.trail.length + 2) [p] s

/-- The compaction loop of `recursiveConfClauseMin` over `learnt_clause[1..]`; returns the kept
literals. -/
def recursiveConfClauseMin_loop (abstract_level : Nat) :
    List Lit → Searcher → Option (List Lit × Searcher)
  | [], s => some ([], s)
  | l :: rest, s =>
    if (s.varData l.var).reason.isNULL then
      match recursiveConfClauseMin_loop abstract_level rest s with
      | none => none
      | some (kept, s1) => some (l :: kept, s1)
    else
      match litRedundant s l abstract_level with
      | none => none
      | some (red, s1) =>
        match recursiveConfClauseMin_loop abstract_level rest s1 with
        | none => none
        | some (kept, s2) => some (if red then kept else l :: kept, s2)

/-- Embeds `Searcher::recursiveConfClauseMin`.  On an empty vector `resize(1)` creates one `lit_Undef`. -/
def recursiveConfClauseMin (s : Searcher) : Option Searcher :=
  match s.learnt_clause with
  | [] => some { s with learnt_clause := [lit_Undef] }
  | l0 :: rest =>
    let abstract_level := rest.foldl (fun a l => a ||| abstractLevel s l.var) 0
    match recursiveConfClauseMin_loop abstract_level rest s with
    | none => none
    | some (kept, s1) => some { s1 with learnt_clause := l0 :: kept }

/-- The test of `normalClMinim` on `learnt_clause[i]`: the literal is kept when it has no reason or
some other literal of its reason is unseen and above level 0. -/
def normalClMinim_keep (s : Searcher) (l : Lit) : Option Bool :=
  match (s.varData l.var).reason with
  | .null_clause_t => some true
  | r =>
    match reason_other_lits s r with
    | none => none
    | some lits => some (lits.any (fun p => !s.seen p.var && (s.varData p.var).level > 0))

/-- The compaction loop of `normalClMinim` over `learnt_clause[1..]`. -/
def normalClMinim_loop (s : Searcher) : List Lit → Option (List Lit)
  | [] => some []
  | l :: rest =>
    match normalClMinim_keep s l, normalClMinim_loop s rest with
    | some k, some kept => some (if k then l :: kept else kept)
    | _, _ => none

/-- Embeds `Searcher::normalClMinim`. -/
def normalClMinim (s : Searcher) : Option Searcher :=
  match s.learnt_clause with
  | [] => some { s with learnt_clause := [lit_Undef] }
  | l0 :: rest =>
    match normalClMinim_loop s rest with
    | none => none
    | some kept => some { s with learnt_clause := l0 :: kept }

/-- Embeds `Searcher::minimize_learnt_clause`. -/
def minimize_learnt_clause (s : Searcher) : Option Searcher :=
  let s1 := { s with toClear := s.learnt_clause }
  match (if s1.conf.doRecursiveMinim then recursiveConfClauseMin s1 else normalClMinim s1) with
  | none => none
  | some s2 => some { s2 with seen := clear_seen_vars s2.seen s2.toClear, toClear := [] }

/-- The loop of `minimize_using_bins` over the binary watches at the front of `ws`: counts in `nb`
the implied literals that are marked `MYFLAG` and True, and re-marks them `MYFLAG - 1`. -/
def minimize_using_bins_mark (s : Searcher) : List Watched → Nat → Searcher → Nat × Searcher
  | [], nb, t => (nb, t)
  | .long _ _ :: _, nb, t => (nb, t)
  | .bin imp _ :: ws, nb, t =>
    if t.permDiff imp.var = t.MYFLAG ∧ s.value imp = l_True then
      minimize_using_bins_mark s ws (nb + 1) { t with permDiff := upd t.permDiff imp.var (t.MYFLAG - 1) }
    else minimize_using_bins_mark s ws nb t

/-- The swap loop of `minimize_using_bins`
(`for (i = 1; i < size - nb; i++) if (permDiff[...] != MYFLAG) { swap(L[l], L[i]); l--; i--; }`).
Each round raises `i` or lowers `l`; an index outside the vector gives `none`. -/
def minimize_using_bins_swap (permDiff : Nat → Nat) (MYFLAG nb : Nat) :
    Nat → Nat → Nat → List Lit → Option (List Lit)
  | 0, _, _, _ => none
  | fuel + 1, i, l, L =>
    if i < L.length - nb then
      if permDiff (L.getD i lit_Undef).var ≠ MYFLAG then
        if l < L.length then
          minimize_using_bins_swap permDiff MYFLAG nb fuel i
            (if l = 0 then 4294967295 else l - 1) (swapAt L l i)
        else none
      else minimize_using_bins_swap permDiff MYFLAG nb fuel (i + 1) l L
    else some L

/-- Embeds `Searcher::minimize_using_bins`. -/
def minimize_using_bins (s : Searcher) : Option Searcher :=
  if s.conf.doMinimRedMore && s.learnt_clause.length > 1 then
    let s1 := { s with MYFLAG := s.MYFLAG + 1 }
    let ws := s1.watches (s1.learnt_clause.getD 0 lit_Undef).neg
    let (nb, s2) := minimize_using_bins_mark s1 ws 0 s1
    if nb > 0 then
      if nb > s2.learnt_clause.length then none
      else
        match minimize_using_bins_swap s2.permDiff s2.MYFLAG nb (2 * s2.learnt_clause.length + 1) 1
            (s2.learnt_clause.length - 1) s2.learnt_clause with
        | none => none
        | some L => some { s2 with learnt_clause := L.take (L.length - nb) }
    else some s2
  else some s

/-- The inner loop of `binary_based_morem_minim` over one watch list, with the remaining `limit`:
a binary watch `(lit ∨ lit2)` clears the mark of `~lit2`; the first long watch ends the scan. -/
def binary_based_morem_minim_ws : List Watched → (Nat → Bool) → Int → (Nat → Bool) × Int
  | [], seen, limit => (seen, limit)
  | w :: ws, seen, limit =>
    if limit > 0 then
      match w with
      | .bin lit2 _ =>
        binary_based_morem_minim_ws ws
          (if seen lit2.neg.toInt then upd seen lit2.neg.toInt false else seen) (limit - 1)
      | .long _ _ => (seen, limit - 1)
    else (seen, limit)

/-- Embeds `Searcher::binary_based_morem_minim`, on the marks `seen` (indexed by `toInt` here). -/
def binary_based_morem_minim (s : Searcher) (cl : List Lit) : Nat → Bool :=
  let first_n_lits_of_cl := min s.conf.max_num_lits_more_more_red_min cl.length
  ((cl.take first_n_lits_of_cl).foldl
    (fun (st : (Nat → Bool) × Int) lit =>
      if st.1 lit.toInt = false then st
      else binary_based_morem_minim_ws (s.watches lit) st.1 st.2)
    (s.seen, s.more_red_minim_limit_binary_actual)).1

/-- The final loop of `minimise_redundant_more_more`: keeps the literals still marked and clears
every mark it visits. -/
def minimise_redundant_more_more_filter : List Lit → (Nat → Bool) → List Lit × (Nat → Bool)
  | [], seen => ([], seen)
  | l :: ls, seen =>
    let r := minimise_redundant_more_more_filter ls (upd seen l.toInt false)
    (if seen l.toInt then l :: r.1 else r.1, r.2)

/-- Embeds `Searcher::minimise_redundant_more_more`, applied to `learnt_clause`.  An empty clause is read
out of bounds (`cl[0]`): `none`. -/
def minimise_redundant_more_more (s : Searcher) : Option Searcher :=
  match s.learnt_clause with
  | [] => none
  | l0 :: rest =>
    let cl := l0 :: rest
    let s1 := { s with seen := cl.foldl (fun sn l => upd sn l.toInt true) s.seen }
    let seen2 := binary_based_morem_minim s1 cl
    let seen3 := upd seen2 l0.toInt true
    let r := minimise_redundant_more_more_filter cl seen3
    some { s1 with seen := r.2, learnt_clause := r.1 }

/-- The loop of `find_backtrack_level_of_learnt`: `i` runs over the given indices and `max_i`
follows the first position of strictly greatest level. -/
def find_backtrack_max_i (s : Searcher) : List Nat → Nat → Nat
  | [], max_i => max_i
  | i :: is, max_i =>
    if s.level (s.learnt_clause.getD i lit_Undef) > s.level (s.learnt_clause.getD max_i lit_Undef)
    then find_backtrack_max_i s is i
    else find_backtrack_max_i s is max_i

/-- Embeds `Searcher::find_backtrack_level_of_learnt`: returns the backtrack level and the state with
`learnt_clause[1]` swapped with the literal of greatest level among positions `1..`. -/
def find_backtrack_level_of_learnt (s : Searcher) : Nat × Searcher :=
  if s.learnt_clause.length ≤ 1 then (0, s)
  else
    let max_i := find_backtrack_max_i s (List.range' 2 (s.learnt_clause.length - 2)) 1
    let s1 := { s with learnt_clause := swapAt s.learnt_clause max_i 1 }
    ((s1.varData (s1.learnt_clause.getD 1 lit_Undef).var).level, s1)

/-- Marking an unseen literal in the Maple bump of `analyze_conflict`
(`if (!seen[l.var()]) { seen[l.var()] = true; toClear.push_back(l); ... }`). -/
def maple_mark (s : Searcher) (l : Lit) : Searcher :=
  if !s.seen l.var then { s with seen := upd s.seen l.var true, toClear := s.toClear ++ [l] }
  else s

/-- The Maple branch at the end of `analyze_conflict`: marks the variables of the reasons of the
learnt literals, then clears all marks again (the `maple_conflicted` counters are left out). -/
def analyze_conflict_maple (s : Searcher) : Searcher :=
  let p := s.learnt_clause.getD 0 lit_Undef
  let s1 := { s with seen := upd s.seen p.var true, toClear := s.toClear ++ [p] }
  let s2 := s1.learnt_clause.reverse.foldl
    (fun t li =>
      match (t.varData li.var).reason with
      | .clause_t offs => (t.cl_alloc offs).lits.foldl maple_mark t
      | .binary_t l _ => maple_mark (maple_mark t l) (Lit.mkLit li.var false)
      | .null_clause_t => t) s1
  { s2 with seen := clear_seen_vars s2.seen s2.toClear, toClear := [] }

/-- Embeds `std::numeric_limits<uint32_t>::max()`. -/
def uint32_max : Nat := 4294967295

/-- Embeds `Searcher::analyze_conflict`: returns the state together with `out_btlevel` and `glue`. -/
def analyze_conflict (update_bogoprops : Bool) (s : Searcher) (confl : PropBy) :
    Option (Searcher × Nat × Nat) :=
  let s0 := { s with learnt_clause := [] }
  match create_learnt_clause update_bogoprops s0 confl with
  | none => none
  | some s1 =>
    match minimize_learnt_clause s1 with
    | none => none
    | some s2 =>
      let glue0 := uint32_max
      let r3 : Option (Searcher × Nat) :=
        if s2.learnt_clause.length ≤ s2.conf.max_size_more_minim then
          let glue := calc_glue s2 s2.learnt_clause
          if glue ≤ s2.conf.max_glue_more_minim then
            (minimize_using_bins s2).map (fun t => (t, glue))
          else some (s2, glue)
        else some (s2, glue0)
      match r3 with
      | none => none
      | some (s3, glue1) =>
        let glue := if glue1 = uint32_max then calc_glue s3 s3.learnt_clause else glue1
        let doit : Bool :=
          (s3.conf.doMinimRedMoreMore == 1 && s3.learnt_clause.length ≤ s3.conf.max_size_more_minim)
          || (s3.conf.doMinimRedMoreMore == 2 && s3.learnt_clause.length > s3.conf.max_size_more_minim)
          || s3.conf.doMinimRedMoreMore == 3
        let r4 : Option Searcher :=
          if glue ≤ s3.conf.glue_put_lev0_if_below_or_eq + 2 && doit then
            minimise_redundant_more_more s3
          else some s3
        match r4 with
        | none => none
        | some s4 =>
          let (out_btlevel, s5) := find_backtrack_level_of_learnt s4
          let s6 :=
            if !update_bogoprops && s5.branch_strategy = branch.maple then analyze_conflict_maple s5
            else s5
          some (s6, out_btlevel, glue)

/-! ## Backtracking -/

/-- Embeds `vector::resize(n)`: truncates, or pads with default entries. -/
def resize {α : Type} (v : List α) (n : Nat) (d : α) : List α :=
  v.take n ++ List.replicate (n - v.length) d

/-- Modelled from the spec: `insert_var_order` (a header that is not among the sources) puts a
variable back among the candidates of the active branching heap (§4.7) unless it is there already.
The order of the list stands for the activity order, which is not modelled. -/
def insert_var_order (s : Searcher) (x : Nat) : Searcher :=
  match s.branch_strategy with
  | .vsids =>
    if x ∈ s.order_heap_vsids then s else { s with order_heap_vsids := s.order_heap_vsids ++ [x] }
  | .maple =>
    if x ∈ s.order_heap_maple then s else { s with order_heap_maple := s.order_heap_maple ++ [x] }
  | .rand =>
    if x ∈ s.order_heap_rand then s else { s with order_heap_rand := s.order_heap_rand ++ [x] }

/-- One round of the main loop of `cancelUntil` on the entry `trail[sublevel]`: an entry of level
at most `blevel` is saved in `add_tmp_canceluntil`, any other is unassigned and handed back to the
branching heap (the Maple reward update is left out). -/
def cancelUntil_step (blevel : Nat) (st : Searcher × List Trail) (e : Trail) :
    Searcher × List Trail :=
  if e.lev ≤ blevel then (st.1, st.2 ++ [e])
  else (insert_var_order { st.1 with assigns := upd st.1.assigns e.lit.var l_Undef } e.lit.var, st.2)

/-- Embeds `Searcher::cancelUntil<true, false>`: the entries from `trail_lim[blevel]` on are visited from
the last one down; the kept ones are appended again in their old order. -/
def cancelUntil (s : Searcher) (blevel : Nat) : Searcher :=
  if s.decisionLevel > blevel then
    let lim := s.trail_lim.getD blevel 0
    let r := (s.trail.drop lim).reverse.foldl (cancelUntil_step blevel) (s, [])
    { r.1 with
      qhead := lim
      trail := resize s.trail lim ⟨lit_Undef, 0⟩ ++ r.2.reverse
      trail_lim := s.trail_lim.take blevel }
  else s

/-! ## Handling a conflict -/

/-- The scan of `find_conflict_level` over `clause[1..]` for the largest level
(`highestId`, `nHighestLevel`). -/
def find_conflict_level_scan (s : Searcher) (clause : List Lit) :
    List Nat → Nat × Nat → Nat × Nat
  | [], r => r
  | nLitId :: is, (highestId, nHighestLevel) =>
    let nLevel := (s.varData (clause.getD nLitId lit_Undef).var).level
    if nLevel > nHighestLevel then find_conflict_level_scan s clause is (nLitId, nLevel)
    else find_conflict_level_scan s clause is (highestId, nHighestLevel)

/-- Embeds `removeWCl` (watchalgos.h): drops the long watch of the clause at `offset` from a watch list. -/
def removeWCl (ws : List Watched) (offset : Nat) : List Watched :=
  ws.eraseP (fun w => match w with
    | .long o _ => o == offset
    | .bin _ _ => false)

/-- Writing one watch list: `watches[l] = ws`. -/
def updW (f : Lit → List Watched) (l : Lit) (ws : List Watched) : Lit → List Watched :=
  fun k => if k = l then ws else f k

/-- The swap at the end of `find_conflict_level` for a long clause: `clause[highestId]` comes to
the front, and when it was not watched (`highestId > 1`) the watch of the old first literal is
handed over to it. -/
def find_conflict_level_swap (s : Searcher) (offs highestId : Nat) : Searcher :=
  let conflCl := s.cl_alloc offs
  let clause1 := swapAt conflCl.lits 0 highestId
  let cl1 : Clause := { conflCl with lits := clause1 }
  let s1 := { s with cl_alloc := upd s.cl_alloc offs cl1 }
  if highestId > 1 then
    let w1 := updW s1.watches (clause1.getD highestId lit_Undef)
      (removeWCl (s1.watches (clause1.getD highestId lit_Undef)) offs)
    let w2 := updW w1 (clause1.getD 0 lit_Undef)
      (w1 (clause1.getD 0 lit_Undef) ++ [Watched.long offs (clause1.getD 1 lit_Undef)])
    { s1 with watches := w2 }
  else s1

/-- Embeds `Searcher::find_conflict_level`: returns `nHighestLevel`, the possibly rewritten `pb` and the
state, in which a literal of the highest level stands first in the conflicting constraint.  A null
`pb` dereferences a null clause: `none`. -/
def find_conflict_level (s : Searcher) (pb : PropBy) : Option (Nat × PropBy × Searcher) :=
  match pb with
  | .null_clause_t => none
  | .binary_t lit2 red =>
    let nHighestLevel := (s.varData s.failBinLit.var).level
    if nHighestLevel = s.decisionLevel ∧ (s.varData lit2.var).level = s.decisionLevel then
      some (nHighestLevel, pb, s)
    else
      let nLevel := (s.varData lit2.var).level
      if nLevel > nHighestLevel then
        some (nLevel, .binary_t s.failBinLit red, { s with failBinLit := lit2 })
      else some (nHighestLevel, pb, s)
  | .clause_t offs =>
    let clause := (s.cl_alloc offs).lits
    let nHighestLevel := (s.varData (clause.getD 0 lit_Undef).var).level
    if nHighestLevel = s.decisionLevel
        ∧ (s.varData (clause.getD 1 lit_Undef).var).level = s.decisionLevel then
      some (nHighestLevel, pb, s)
    else
      let r := find_conflict_level_scan s clause (List.range' 1 (clause.length - 1)) (0, nHighestLevel)
      if r.1 ≠ 0 then some (r.2, pb, find_conflict_level_swap s offs r.1)
      else some (r.2, pb, s)

/-- The first loop that builds `decision_clause` in `handle_conflict`: over `trail_lim` from the
top level down, the negated literal at the start of each level, without repetitions (`seen` is
indexed by `toInt` here).  A level that starts at the end of the trail is read out of bounds. -/
def build_decision_clause (s : Searcher) : List Nat → Searcher → Option Searcher
  | [], t => some t
  | lim :: lims, t =>
    match s.trail[lim]? with
    | none => none
    | some e =>
      let l := e.lit.neg
      if !t.seen l.toInt then
        build_decision_clause s lims
          { t with decision_clause := t.decision_clause ++ [l], seen := upd t.seen l.toInt true }
      else build_decision_clause s lims t

/-- The counters that `handle_conflict` advances on entry. -/
def note_conflict (s : Searcher) : Searcher :=
  { s with
    numConflicts := s.numConflicts + 1
    sumConflicts := s.sumConflicts + 1
    params := { s.params with conflictsDoneThisRestart := s.params.conflictsDoneThisRestart + 1 } }

/-- The block of `handle_conflict` headed "Add decision-based clause in case it's short":
`decision_clause` is cleared and, under the configured conditions, filled with the negated
decisions; the marks set on the way are cleared again. -/
def collect_decision_clause (s : Searcher) : Option Searcher :=
  let s3 := { s with decision_clause := [] }
  if s3.conf.do_decision_based_cl
      && s3.learnt_clause.length > s3.conf.decision_based_cl_min_learned_size
      && s3.decisionLevel ≤ s3.conf.decision_based_cl_max_levels
      && s3.decisionLevel ≥ 2 then
    (build_decision_clause s3 s3.trail_lim.reverse s3).map (fun t =>
      { t with seen := t.decision_clause.foldl (fun sn l => upd sn l.toInt false) t.seen })
  else some s3

/-- The backtrack of `handle_conflict` ("check chrono backtrack condition"): to
`nHighestLevel - 1` when chronological backtracking applies, to `backtrack_level` otherwise. -/
def backtrack_after_conflict (s : Searcher) (nHighestLevel backtrack_level : Nat) : Searcher :=
  if s.conf.diff_declev_for_chrono > -1
      ∧ ((s.decisionLevel : Int) - (backtrack_level : Int)) ≥ s.conf.diff_declev_for_chrono then
    cancelUntil s (nHighestLevel - 1)
  else cancelUntil s backtrack_level

/-- Embeds `Searcher::update_history_stats`: of the histories it feeds only the glue window is kept
(as the list of the values pushed); it reads `trail_lim[backtrack_level]`, which has to exist. -/
def update_history_stats (s : Searcher) (backtrack_level glue : Nat) : Option Searcher :=
  if backtrack_level < s.trail_lim.length then some { s with glueHist := s.glueHist ++ [glue] }
  else none

/-- What `handle_conflict` has computed when it is about to add the learnt clause. -/
structure ConflictOutcome where
  st : Searcher
  nHighestLevel : Nat
  backtrack_level : Nat
  glue : Nat
  old_decision_level : Nat

/-- The first part of `Searcher::handle_conflict`, up to and including the backtrack.  The left
alternative stands for `return false` (conflict at level 0, `ok` cleared). -/
def handle_conflict_backtrack (s : Searcher) (confl : PropBy) :
    Option (Searcher ⊕ ConflictOutcome) :=
  match find_conflict_level (note_conflict s) confl with
  | none => none
  | some (nHighestLevel, confl1, s1) =>
    if nHighestLevel = 0 then some (.inl { s1 with ok := false })
    else
      match analyze_conflict false s1 confl1 with
      | none => none
      | some (s2, backtrack_level, glue) =>
        match update_history_stats s2 backtrack_level glue with
        | none => none
        | some s3 =>
          match collect_decision_clause s3 with
          | none => none
          | some s4 =>
            some (.inr ⟨backtrack_after_conflict s4 nHighestLevel backtrack_level, nHighestLevel,
              backtrack_level, glue, s3.decisionLevel⟩)

/-! ## Adding the learnt clause -/

/-- Modelled from the spec: `enqueue` (propengine.h, not among the sources) extends the trail by
the literal `p`, made True at `level` with the reason `fromWhom`. -/
def enqueue (s : Searcher) (p : Lit) (level : Nat) (fromWhom : PropBy) : Searcher :=
  { s with
    assigns := upd s.assigns p.var (if p.sign then l_False else l_True)
    varData := upd s.varData p.var ⟨level, fromWhom⟩
    trail := s.trail ++ [⟨p, level⟩] }

/-- Modelled from the spec: `new_decision_level` (propengine.h, not among the sources) opens a
decision level that starts at the current end of the trail. -/
def new_decision_level (s : Searcher) : Searcher :=
  { s with trail_lim := s.trail_lim ++ [s.trail.length] }

/-- Modelled from the spec: `attach_bin_clause` (not among the sources) stores a binary clause
inline in the watch lists of its two literals (§3, binary clause). -/
def attach_bin_clause (s : Searcher) (lit1 lit2 : Lit) (red : Bool) : Searcher :=
  let w1 := updW s.watches lit1 (s.watches lit1 ++ [Watched.bin lit2 red])
  { s with watches := updW w1 lit2 (w1 lit2 ++ [Watched.bin lit1 red]) }

/-- Modelled from the spec: `attachClause` (not among the sources) puts a long clause on the watch
lists of its first two literals (§3, watch list), with the third literal as blocker. -/
def attachClause (s : Searcher) (offset : Nat) : Searcher :=
  let c := (s.cl_alloc offset).lits
  let w1 := updW s.watches (c.getD 0 lit_Undef)
    (s.watches (c.getD 0 lit_Undef) ++ [Watched.long offset (c.getD 2 lit_Undef)])
  let w2 := updW w1 (c.getD 1 lit_Undef)
    (w1 (c.getD 1 lit_Undef) ++ [Watched.long offset (c.getD 2 lit_Undef)])
  { s with watches := w2 }

/-- Modelled from the spec: `Clause_new` of the clause allocator (not among the sources) stores a
fresh clause object at the next free offset. -/
def Clause_new (s : Searcher) (lits : List Lit) : Nat × Searcher :=
  (s.cl_alloc_size,
    { s with cl_alloc := upd s.cl_alloc s.cl_alloc_size ⟨lits, false, default⟩
             cl_alloc_size := s.cl_alloc_size + 1 })

/-- The tier `which_arr` that `handle_last_confl` chooses for a new clause. -/
def which_arr (conf : SolverConf) (locked_for_data_gen : Bool) (glue : Nat) : Nat :=
  if locked_for_data_gen then 0
  else if glue ≤ conf.glue_put_lev0_if_below_or_eq then 0
  else if glue ≤ conf.glue_put_lev1_if_below_or_eq ∧ conf.glue_put_lev1_if_below_or_eq ≠ 0 then 1
  else 2

/-- Embeds `Searcher::handle_last_confl`: makes the clause object for `learnt_clause` when it has more
than two literals and files it under its tier; returns its offset (`none` stands for `NULL`). -/
def handle_last_confl (s : Searcher) (glue : Nat) (is_decision : Bool) : Option Nat × Searcher :=
  if s.learnt_clause.length ≤ 2 then (none, s)
  else
    let (offset, s1) := Clause_new s s.learnt_clause
    let cl := s1.cl_alloc offset
    let arr := which_arr s1.conf cl.stats.locked_for_data_gen glue
    let cl1 : Clause :=
      { cl with isRed := true
                stats := { cl.stats with glue := glue, which_red_array := arr,
                                         is_decision := is_decision } }
    (some offset,
      { s1 with cl_alloc := upd s1.cl_alloc offset cl1
                longRedCls := upd s1.longRedCls arr (s1.longRedCls arr ++ [offset]) })

/-- Embeds `Searcher::attach_and_enqueue_learnt_clause`: by the size of `learnt_clause`, a unit is only
enqueued, a binary is attached inline, a long clause is attached through its object `cl`.  An
empty `learnt_clause` is `assert(false)`; a long one without its object dereferences `NULL`. -/
def attach_and_enqueue_learnt_clause (s : Searcher) (cl : Option Nat) (level : Nat) (enq : Bool) :
    Option Searcher :=
  match s.learnt_clause with
  | [] => none
  | [l0] => some (if enq then enqueue s l0 level .null_clause_t else s)
  | [l0, l1] =>
    let s1 := attach_bin_clause s l0 l1 true
    some (if enq then enqueue s1 l0 level (.binary_t l1 true) else s1)
  | l0 :: _ :: _ :: _ =>
    match cl with
    | none => none
    | some offset =>
      let s1 := attachClause s offset
      some (if enq then enqueue s1 l0 level (.clause_t offset) else s1)

/-- The backward scan `while(--i >= 0)` of `handle_conflict` over `decision_clause`: the largest
index below `i` whose literal is True or unassigned; `none` when the scan passes index 0. -/
def decision_clause_scan (s : Searcher) : Nat → Option Nat
  | 0 => none
  | i + 1 =>
    if s.value (s.decision_clause.getD i lit_Undef) = l_True
        ∨ s.value (s.decision_clause.getD i lit_Undef) = l_Undef then some i
    else decision_clause_scan s i

/-- The block "Add decision-based clause" at the end of `handle_conflict`. -/
def add_decision_clause (s : Searcher) (backtrack_level : Nat) : Option Searcher :=
  if s.decision_clause.length > 0 then
    match decision_clause_scan s s.decision_clause.length with
    | none => none
    | some i =>
      let s1 := { s with decision_clause := swapAt s.decision_clause 0 i }
      let s2 := { s1 with learnt_clause := s1.decision_clause }
      let r := handle_last_confl s2 s2.learnt_clause.length true
      attach_and_enqueue_learnt_clause r.2 r.1 backtrack_level false
  else some s

/-- Embeds `Searcher::handle_conflict`: the returned flag is its `bool` result.  The activity decay at
its end concerns the branching order only, which is not modelled. -/
def handle_conflict (s : Searcher) (confl : PropBy) : Option (Bool × Searcher) :=
  match handle_conflict_backtrack s confl with
  | none => none
  | some (.inl s1) => some (false, s1)
  | some (.inr o) =>
    let r := handle_last_confl o.st (min o.glue uint32_max) false
    match attach_and_enqueue_learnt_clause r.2 r.1 o.backtrack_level true with
    | none => none
    | some s6 => (add_decision_clause s6 o.backtrack_level).map (fun s7 => (true, s7))

/-! ## Decisions and assumptions -/

/-- The marking of the literals of a reason in `analyze_final_confl_with_assumptions`:
`if (varData[lit.var()].level > 0) seen[lit.var()] = 1`. -/
def analyze_final_mark (s : Searcher) (seen : Nat → Bool) (lit : Lit) : Nat → Bool :=
  if (s.varData lit.var).level > 0 then upd seen lit.var true else seen

/-- One round of the sweep of `analyze_final_confl_with_assumptions` on the trail entry `e`
(`out_conflict` is the member `conflict`, as in the call from `new_decision`). -/
def analyze_final_step (s : Searcher) (e : Trail) : Searcher :=
  let x := e.lit.var
  if s.seen x then
    let s1 :=
      match (s.varData x).reason with
      | .null_clause_t => { s with conflict := s.conflict ++ [e.lit.neg] }
      | .clause_t offset =>
        { s with seen := (s.cl_alloc offset).lits.foldl (analyze_final_mark s) s.seen }
      | .binary_t lit _ => { s with seen := analyze_final_mark s s.seen lit }
    { s1 with seen := upd s1.seen x false }
  else s

/-- The sweep of `analyze_final_confl_with_assumptions` over the trail, from its end down to
`trail_lim[0]`, between the marking and the unmarking of `p`. -/
def analyze_final_sweep (s : Searcher) (p : Lit) : Searcher :=
  let s2 := { s with seen := upd s.seen p.var true }
  let s3 := (s2.trail.drop (s2.trail_lim.getD 0 0)).reverse.foldl analyze_final_step s2
  { s3 with seen := upd s3.seen p.var false }

/-- Embeds `Searcher::analyze_final_confl_with_assumptions(p, conflict)`. -/
def analyze_final_confl_with_assumptions (s : Searcher) (p : Lit) : Option Searcher :=
  let s1 := { s with conflict := [p] }
  if s1.decisionLevel = 0 then some s1
  else if (s1.varData p.var).level = 0 then some s1
  else
    let s4 := analyze_final_sweep s1 p
    (minimize_using_bins { s4 with learnt_clause := s4.conflict }).map
      (fun s6 => { s6 with conflict := s6.learnt_clause })

/-- The parts of the solver whose code is not in the modelled sources, taken as parameters: the
propagation engine, the inter-solver synchronisation, the clause-database maintenance, the
clause distiller, the polarity choice, the random generator, the tests on the float averages
of the history windows, and the fast-backward decision mode (it works through the variable
replacer and buffers of the caller). -/
structure Collab where
  propagate_any_order_fast : Searcher → PropBy × Searcher
  propagate_any_order : Searcher → PropBy × Searcher
  syncData : Searcher → Bool × Searcher
  remove_and_clean_all : Searcher → Searcher
  consolidate : Searcher → Searcher
  handle_lev1 : Searcher → Searcher
  handle_lev2 : Searcher → Searcher
  distill : Searcher → Bool × Searcher
  pick_polarity : Searcher → Nat → Bool
  randInt : Nat → Nat × Nat
  glue_restart : Searcher → Bool
  blocking_restart : Searcher → Bool
  new_decision_fast_backw : Searcher → Option (lbool × Searcher)

/-- What the solver reads from outside during a run: the `n`-th reading of the clock `cpuTime()`
(in the unit of `maxTime`) and of the flag `must_interrupt_asap()`.  The state counts the readings
in `env_reads`; readings of the clock that only feed statistics are left out. -/
structure Env where
  cpuTime : Nat → Nat
  must_interrupt_asap : Nat → Bool

/-- The loop of `pick_var_vsids_maple` over the heap, best variable first (heap.h is not among the
sources: the list order stands for the activity order, `removeMin` takes the head): returns the
variable found (`var_Undef` when the heap runs empty) and what is left of the heap. -/
def pick_var_loop (s : Searcher) : List Nat → Nat × List Nat
  | [] => (var_Undef, [])
  | v :: heap =>
    if v = var_Undef ∨ s.assigns v ≠ l_Undef then pick_var_loop s heap else (v, heap)

/-- Embeds `Searcher::pick_var_vsids_maple` (the ageing of the Maple activities is left out). -/
def pick_var_vsids_maple (s : Searcher) : Nat × Searcher :=
  if s.branch_strategy = .vsids then
    let r := pick_var_loop s s.order_heap_vsids
    (r.1, { s with order_heap_vsids := r.2 })
  else
    let r := pick_var_loop s s.order_heap_maple
    (r.1, { s with order_heap_maple := r.2 })

/-- Modelled from the spec: `get_random_element` of the heap (heap.h is not among the sources)
takes out of `order_heap_rand` the element at a position drawn from the generator `mtrand`
(§4.7, random strategy); `var_Undef` when the heap is empty. -/
def get_random_element (c : Collab) (s : Searcher) : Nat × Searcher :=
  if s.order_heap_rand.length = 0 then (var_Undef, s)
  else
    let r := c.randInt s.mtrand
    let i := r.1 % s.order_heap_rand.length
    (s.order_heap_rand.getD i var_Undef,
      { s with order_heap_rand := s.order_heap_rand.eraseIdx i, mtrand := r.2 })

/-- The loop of the `branch::rand` case of `pickBranchLit`:
`while (v != var_Undef && value(v) != l_Undef) v = get_random_element()`. -/
def pick_var_rand (c : Collab) : Nat → Nat × Searcher → Option (Nat × Searcher)
  | 0, _ => none
  | fuel + 1, (v, s) =>
    if v ≠ var_Undef ∧ s.assigns v ≠ l_Undef then pick_var_rand c fuel (get_random_element c s)
    else some (v, s)

/-- Embeds `Searcher::pickBranchLit`. -/
def pickBranchLit (c : Collab) (s : Searcher) : Option (Lit × Searcher) :=
  let r :=
    match s.branch_strategy with
    | .vsids => some (pick_var_vsids_maple s)
    | .maple => some (pick_var_vsids_maple s)
    | .rand => pick_var_rand c (s.order_heap_rand.length + 1) (get_random_element c s)
  r.map (fun vs =>
    if vs.1 ≠ var_Undef then (Lit.mkLit vs.1 (!c.pick_polarity vs.2 vs.1), vs.2)
    else (lit_Undef, vs.2))

/-- The outcome of the assumption loop of `new_decision`. -/
inductive AssumptionStep where
  | failed (s : Searcher)
  | next (p : Lit) (s : Searcher)

/-- The loop `while (decisionLevel() < assumptions.size())` of `new_decision` (the assumptions
are kept in inner numbering): an assumption that is True opens a dummy level, one that is False
ends the search for this call with the final conflict, an unassigned one is the next decision;
the loop may also end with `next == lit_Undef`. -/
def new_decision_assumptions : Nat → Searcher → Option AssumptionStep
  | 0, _ => none
  | fuel + 1, s =>
    if s.decisionLevel < s.assumptions.length then
      let p := s.assumptions.getD s.decisionLevel lit_Undef
      if s.value p = l_True then new_decision_assumptions fuel (new_decision_level s)
      else if s.value p = l_False then
        (analyze_final_confl_with_assumptions s p.neg).map AssumptionStep.failed
      else some (.next p s)
    else some (.next lit_Undef s)

/-- Embeds `Searcher::new_decision`. -/
def new_decision (c : Collab) (s : Searcher) : Option (lbool × Searcher) :=
  match new_decision_assumptions (s.assumptions.length + 1) s with
  | none => none
  | some (.failed s1) => some (l_False, s1)
  | some (.next next s1) =>
    if next = lit_Undef then
      match pickBranchLit c s1 with
      | none => none
      | some (next1, s2) =>
        if next1 = lit_Undef then some (l_True, s2)
        else
          let s3 := new_decision_level s2
          some (l_Undef, enqueue s3 next1 s3.decisionLevel .null_clause_t)
    else
      let s3 := new_decision_level s1
      some (l_Undef, enqueue s3 next s3.decisionLevel .null_clause_t)

/-! ## The search loop -/

/-- The assignment `params.needToStopSearch = true`. -/
def stop_search (s : Searcher) : Searcher :=
  { s with params := { s.params with needToStopSearch := true } }

/-- One reading of the clock: the value read and the state that has counted the reading. -/
def read_cpuTime (env : Env) (s : Searcher) : Nat × Searcher :=
  (env.cpuTime s.env_reads, { s with env_reads := s.env_reads + 1 })

/-- One reading of the interrupt flag. -/
def read_must_interrupt_asap (env : Env) (s : Searcher) : Bool × Searcher :=
  (env.must_interrupt_asap s.env_reads, { s with env_reads := s.env_reads + 1 })

/-- Embeds `Searcher::check_blocking_restart`: when the (float) test on the trail-depth average holds,
the glue window is cleared. -/
def check_blocking_restart (c : Collab) (s : Searcher) : Searcher :=
  if c.blocking_restart s then { s with glueHist := [] } else s

/-- The first block of `check_need_restart`, entered every 256 conflicts: the time limit and the
interrupt flag. -/
def check_need_restart_limits (env : Env) (s : Searcher) : Searcher :=
  if s.numConflicts % 256 = 255 then
    let t := read_cpuTime env s
    let s1 := if t.1 > t.2.conf.maxTime then stop_search t.2 else t.2
    let i := read_must_interrupt_asap env s1
    if i.1 then stop_search i.2 else i.2
  else s

/-- Embeds `Searcher::check_need_restart`. -/
def check_need_restart (c : Collab) (env : Env) (s : Searcher) : Searcher :=
  let s1 := check_need_restart_limits env s
  let s2 :=
    if s1.params.rest_type = .glue then
      let b := check_blocking_restart c s1
      if c.glue_restart b then stop_search b else b
    else s1
  let s3 :=
    if (s2.params.conflictsDoneThisRestart : Int) > s2.max_confl_this_restart then stop_search s2
    else s2
  if s3.params.conflictsDoneThisRestart > s3.params.max_confl_to_do then stop_search s3 else s3

/-- Embeds `Searcher::reduce_db_if_needed` (the build without the clause predictor). -/
def reduce_db_if_needed (c : Collab) (s : Searcher) : Searcher :=
  let s1 :=
    if s.conf.every_lev1_reduce ≠ 0 ∧ s.sumConflicts ≥ s.next_lev1_reduce then
      let t := c.handle_lev1 s
      { t with next_lev1_reduce := t.sumConflicts + t.conf.every_lev1_reduce }
    else s
  if s1.conf.every_lev2_reduce ≠ 0 then
    if s1.sumConflicts ≥ s1.next_lev2_reduce then
      let t := c.consolidate (c.handle_lev2 s1)
      { t with next_lev2_reduce := t.sumConflicts + t.conf.every_lev2_reduce }
    else s1
  else
    if (s1.longRedCls 2).length > s1.cur_max_temp_red_lev2_cls then
      let t := c.handle_lev2 s1
      c.consolidate
        { t with cur_max_temp_red_lev2_cls :=
                   Frac.scale t.cur_max_temp_red_lev2_cls t.conf.inc_max_temp_lev2_red_cls }
    else s1

/-- Embeds `Searcher::rebuildOrderHeap`: all three heaps are rebuilt from the variables that are neither
removed nor assigned at level 0. -/
def rebuildOrderHeap (s : Searcher) : Searcher :=
  let vs := (List.range s.nVars).filter (fun v =>
    !(s.var_removed v || (s.assigns v != l_Undef && (s.varData v).level == 0)))
  { s with order_heap_vsids := vs, order_heap_maple := vs, order_heap_rand := vs }

/-- Embeds `Searcher::clean_clauses_if_needed`: `newZeroDepthAss` is a `size_t` difference; its
comparison with `nVars() * 0.05` is taken over the rationals. -/
def clean_clauses_if_needed (c : Collab) (s : Searcher) : Searcher :=
  let newZeroDepthAss := (s.trail.length + 2 ^ 64 - s.lastCleanZeroDepthAssigns) % 2 ^ 64
  if newZeroDepthAss > 0 ∧ s.simpDB_props < 0 ∧ 20 * newZeroDepthAss > s.nVars then
    let s1 := { s with lastCleanZeroDepthAssigns := s.trail.length }
    let s2 := rebuildOrderHeap (c.consolidate (c.remove_and_clean_all s1))
    { s2 with simpDB_props := (s2.litStats_lits : Int) * 32 }
  else s

/-- Embeds `Searcher::propagate<false>`: the propagation engine, followed by proof output only. -/
def propagate (c : Collab) (s : Searcher) : PropBy × Searcher := c.propagate_any_order s

/-- The decision taken in the conflict-free branch of the loop of `search`. -/
def search_decide (c : Collab) (s : Searcher) : Option (lbool × Searcher) :=
  if s.fast_backw_on then c.new_decision_fast_backw s else new_decision c s

/-- The loop `while (!params.needToStopSearch || !confl.isNULL())` of `search`; `confl` is the
conflict of the round before.  The result `some r` is a `goto end` with the status `r` to return,
the result `none` the regular end of the loop.  Without fuel, or at an undefined step, the loop
itself gives `none`. -/
def search_loop (c : Collab) (env : Env) :
    Nat → Searcher → PropBy → Option (Option lbool × Searcher)
  | 0, _, _ => none
  | fuel + 1, s, confl =>
    if !s.params.needToStopSearch || !confl.isNULL then
      if !s.ok then some (some l_False, s)
      else
        let r := c.propagate_any_order_fast s
        if !r.1.isNULL then
          let s1 := { r.2 with trailDepthHistLonger := r.2.trailDepthHistLonger ++ [r.2.trail.length] }
          match handle_conflict s1 r.1 with
          | none => none
          | some (false, s2) => some (some l_False, s2)
          | some (true, s2) => search_loop c env fuel (check_need_restart c env s2) r.1
        else
          let s1 := if r.2.decisionLevel = 0 then clean_clauses_if_needed c r.2 else r.2
          let s2 := reduce_db_if_needed c s1
          match search_decide c s2 with
          | none => none
          | some (dec_ret, s3) =>
            if dec_ret ≠ l_Undef then some (some dec_ret, s3)
            else search_loop c env fuel s3 r.1
    else some (none, s)

/-- The statement `max_confl_this_restart -= (int64_t)params.conflictsDoneThisRestart` of
`search`. -/
def charge_restart_budget (s : Searcher) : Searcher :=
  { s with max_confl_this_restart :=
      s.max_confl_this_restart - (s.params.conflictsDoneThisRestart : Int) }

/-- The end of `search` after the regular end of its loop: the restart budget is charged, the
solver backtracks to level 0 and propagates, and the synchronisation is run. -/
def search_finish (c : Collab) (s : Searcher) : lbool × Searcher :=
  let r := propagate c (cancelUntil (charge_restart_budget s) 0)
  if !r.1.isNULL then (l_False, { r.2 with ok := false })
  else
    let y := c.syncData r.2
    if !y.1 then (l_False, y.2) else (l_Undef, y.2)

/-- Embeds `Searcher::search`, with `fuel` bounding the rounds of its loop: `none` when the fuel runs out
or a step is undefined. -/
def search (c : Collab) (env : Env) (fuel : Nat) (s : Searcher) : Option (lbool × Searcher) :=
  match search_loop c env fuel { s with glueHist := [], trailDepthHistLonger := [] }
      .null_clause_t with
  | none => none
  | some (some search_ret, s1) => some (search_ret, s1)
  | some (none, s1) => some (search_finish c s1)

/-! ## Restart and branching strategies -/

/-- The first loop of `luby`: `for (seq = 0; size < x + 1; seq++) size = 2 * size + 1`, on the
pair `(size, seq)`. -/
def luby_grow (x : Int) : Nat → Int × Int → Option (Int × Int)
  | 0, _ => none
  | fuel + 1, (size, seq) =>
    if size < x + 1 then luby_grow x fuel (2 * size + 1, seq + 1) else some (size, seq)

/-- The second loop of `luby`: `while (size - 1 != x) { size = (size - 1) >> 1; seq--;
x = x % size; }`; it returns the final `seq`.  A remainder by zero is undefined. -/
def luby_shrink : Nat → Int × Int × Int → Option Int
  | 0, _ => none
  | fuel + 1, (size, seq, x) =>
    if size - 1 ≠ x then
      let size1 := (size - 1) / 2
      if size1 = 0 then none else luby_shrink fuel (size1, seq - 1, Int.tmod x size1)
    else some seq

/-- Embeds `Searcher::luby(y, x)` for an integral base `y`: `pow(y, seq)` (overflow of `int` is not
modelled). -/
def luby (y : Nat) (x : Int) : Option Nat :=
  match luby_grow x (x.toNat + 2) (1, 0) with
  | none => none
  | some (size, seq) =>
    (luby_shrink (x.toNat + 2) (size, seq, x)).map (fun q => y ^ q.toNat)

/-- Embeds `Searcher::setup_restart_strategy`. -/
def setup_restart_strategy (s : Searcher) : Searcher :=
  { s with
    increasing_phase_size := s.conf.restart_first
    max_confl_this_restart := (s.conf.restart_first : Int)
    params := { s.params with
      rest_type :=
        match s.cur_rest_type with
        | .glue => .glue
        | .geom => .geom
        | .glue_geom => .glue
        | .luby => .luby
        | .never => .never } }

/-- The first `switch` of `adjust_restart_strategy`: the next `params.rest_type`. -/
def next_rest_type (cur_rest_type rest_type : Restart) : Restart :=
  match cur_rest_type with
  | .never => .never
  | .glue => .glue
  | .geom => .geom
  | .luby => .luby
  | .glue_geom => if rest_type = .glue then .geom else .glue

/-- Embeds `Searcher::adjust_restart_strategy`; the `default` branch of its second `switch` is
`release_assert(false)`. -/
def adjust_restart_strategy (s : Searcher) : Option Searcher :=
  if s.max_confl_this_restart > 0 then some s
  else
    let s1 := { s with params := { s.params with
                  rest_type := next_rest_type s.cur_rest_type s.params.rest_type } }
    match s1.params.rest_type with
    | .luby =>
      (luby 2 (s1.luby_loop_num : Int)).map (fun l =>
        { s1 with max_confl_this_restart := ((l * s1.conf.restart_first : Nat) : Int)
                  luby_loop_num := s1.luby_loop_num + 1 })
    | .geom =>
      let phase := Frac.scale s1.increasing_phase_size s1.conf.restart_inc
      some { s1 with increasing_phase_size := phase, max_confl_this_restart := (phase : Int) }
    | .glue =>
      some { s1 with max_confl_this_restart :=
                       (Frac.scale s1.increasing_phase_size s1.conf.ratio_glue_geom : Int) }
    | .never => some { s1 with max_confl_this_restart := 1000 * 1000 * 1000 }
    | .glue_geom => none

/-- Embeds `std::string::find(pat, start)`: the first position from `start` on at which `pat` occurs;
`none` stands for `npos`. -/
def str_find (hay pat : List Char) (start : Nat) : Option Nat :=
  (List.range' start (hay.length + 1 - start)).find? (fun i => pat.isPrefixOf (hay.drop i))

/-- Embeds `std::min` on positions, `npos` being the largest value. -/
def npos_min : Option Nat → Option Nat → Option Nat
  | none, b => b
  | a, none => a
  | some x, some y => some (min x y)

/-- The entries of `select` in `set_branch_strategy` (the decay values, which concern the
activities only, are left out). -/
structure branch_type_total where
  branch : branch
  descr : String
deriving DecidableEq, Repr

/-- The parsing loop of `set_branch_strategy`: the names found in `setup` from `start` on, in
their order.  No match for `smallest` is `assert(false)`. -/
def set_branch_strategy_select (setup : List Char) :
    Nat → Nat → List branch_type_total → Option (List branch_type_total)
  | 0, _, _ => none
  | fuel + 1, start, select =>
    let vsidsx_once := str_find setup "vsidsx_once".data start
    let vsidsx := str_find setup "vsidsx".data start
    let vsids1 := str_find setup "vsids1".data start
    let vsids2 := str_find setup "vsids2".data start
    let maple1 := str_find setup "maple1".data start
    let maple2 := str_find setup "maple2".data start
    let rand := str_find setup "rand".data start
    let smallest := npos_min rand (npos_min maple2 (npos_min maple1 (npos_min vsids2
      (npos_min vsids1 (npos_min vsidsx (npos_min vsidsx_once none))))))
    match smallest with
    | none => some select
    | some pos =>
      let e : Option branch_type_total :=
        if smallest = vsidsx_once then some ⟨.vsids, "VSIDSXONCE"⟩
        else if smallest = vsidsx then some ⟨.vsids, "VSIDSX"⟩
        else if smallest = vsids1 then some ⟨.vsids, "VSIDS1"⟩
        else if smallest = vsids2 then some ⟨.vsids, "VSIDS2"⟩
        else if smallest = maple1 then some ⟨.maple, "MAPLE1"⟩
        else if smallest = maple2 then some ⟨.maple, "MAPLE2"⟩
        else if smallest = rand then some ⟨.rand, "RAND"⟩
        else none
      match e with
      | none => none
      | some b => set_branch_strategy_select setup fuel (pos + 3) (select ++ [b])

/-- The loop "deal with systems that are only meant to be done once" of `set_branch_strategy`,
on the pair of the entries kept and `iteration_num` (a `uint32_t`). -/
def drop_once (st : List branch_type_total × Nat) (b : branch_type_total) :
    List branch_type_total × Nat :=
  if b.descr ≠ "VSIDSXONCE" then (st.1 ++ [b], st.2)
  else (st.1, (st.2 + 4294967296 - 1) % 4294967296)

/-- Embeds `Searcher::set_branch_strategy`: an empty `select` makes `iteration_num % select.size()` a
division by zero. -/
def set_branch_strategy (s : Searcher) (iteration_num : Nat) : Option Searcher :=
  match set_branch_strategy_select s.conf.branch_strategy_setup.data
      (s.conf.branch_strategy_setup.data.length + 1) 0 [] with
  | none => none
  | some select =>
    let r := if iteration_num ≥ select.length then select.foldl drop_once ([], iteration_num)
             else (select, iteration_num)
    if r.1.length = 0 then none
    else
      match r.1[r.2 % r.1.length]? with
      | none => none
      | some b =>
        some { s with branch_strategy := b.branch
                      cur_rest_type := if b.branch = .maple then .luby else s.conf.restartType }

/-! ## `solve` -/

/-- Embeds `Searcher::must_abort`: the flag returned and the state that has counted the readings of the
clock and of the interrupt flag. -/
def must_abort (env : Env) (status : lbool) (s : Searcher) : Bool × Searcher :=
  if status ≠ l_Undef then (true, s)
  else if s.numConflicts ≥ s.max_confl_per_search_solve_call then (true, s)
  else
    let t := read_cpuTime env s
    if t.1 ≥ t.2.conf.maxTime then (true, t.2)
    else read_must_interrupt_asap env t.2

/-- Embeds `Searcher::distill_clauses_if_needed`. -/
def distill_clauses_if_needed (c : Collab) (s : Searcher) : lbool × Searcher :=
  if s.conf.do_distill_clauses ∧ s.sumConflicts > s.next_distill then
    let d := c.distill s
    if !d.1 then (l_False, d.2)
    else
      let nd := min
        (d.2.sumConflicts + Frac.scale d.2.sumConflicts d.2.conf.distill_increase_conf_ratio + 7000)
        (d.2.sumConflicts + d.2.conf.distill_min_confl)
      (l_Undef, { d.2 with next_distill := nd })
  else (l_Undef, s)

/-- Embeds `Searcher::resetStats`: the statistics of the call, of which the conflict counter is
modelled, are cleared. -/
def resetStats (s : Searcher) : Searcher :=
  { s with numConflicts := 0, lastCleanZeroDepthAssigns := s.trail.length }

/-- Embeds `Searcher::finish_up_solve`. -/
def finish_up_solve (c : Collab) (status : lbool) (s : Searcher) : Searcher :=
  match status with
  | l_True => (propagate c (cancelUntil { s with model := s.assigns } 0)).2
  | l_False =>
    let s1 := if s.conflict.length = 0 then { s with ok := false } else s
    let s2 := cancelUntil s1 0
    if s2.ok then (propagate c s2).2 else s2
  | l_Undef => s

/-- Embeds `SearchParams::clear` followed by the setting of `max_confl_to_do` at the head of the loop of
`solve`. -/
def params_clear (s : Searcher) : Searcher :=
  { s with params := { s.params with
      needToStopSearch := false
      conflictsDoneThisRestart := 0
      max_confl_to_do := s.max_confl_per_search_solve_call - s.numConflicts } }

/-- The loop of `solve`, with `fuel` bounding its rounds and `sfuel` those of each `search`. -/
def solve_loop (c : Collab) (env : Env) (sfuel : Nat) :
    Nat → Searcher → lbool → Option (lbool × Searcher)
  | 0, _, _ => none
  | fuel + 1, s, status =>
    if s.numConflicts < s.max_confl_per_search_solve_call ∧ status = l_Undef then
      match search c env sfuel (params_clear s) with
      | none => none
      | some (status1, s2) =>
        match (if status1 = l_Undef then adjust_restart_strategy s2 else some s2) with
        | none => none
        | some s3 =>
          let a := must_abort env status1 s3
          if a.1 then some (status1, a.2)
          else if status1 = l_Undef then
            let d := distill_clauses_if_needed c a.2
            if d.1 = l_False then some (l_False, d.2) else solve_loop c env sfuel fuel d.2 status1
          else solve_loop c env sfuel fuel a.2 status1
    else some (status, s)

/-- Embeds `Searcher::solve(_max_confls)`.  The entry assertions `assert(ok)` and
`assert(qhead == trail.size())` are kept: a call in a state that fails one of them has no
result. -/
def solve (c : Collab) (env : Env) (sfuel fuel : Nat) (s : Searcher) (_max_confls : Nat) :
    Option (lbool × Searcher) :=
  if s.ok = true ∧ s.qhead = s.trail.length then
    let s1 := { s with max_confl_per_search_solve_call := _max_confls }
    let s2 :=
      if s1.fast_backw_on ∧ s1.fast_backw_cur_max_confl = 0 then
        { s1 with fast_backw_cur_max_confl := s1.sumConflicts + s1.fast_backw_max_confl }
      else s1
    let s3 := resetStats s2
    match set_branch_strategy s3 s3.branch_strategy_num with
    | none => none
    | some s4 =>
      match solve_loop c env sfuel fuel (setup_restart_strategy s4) l_Undef with
      | none => none
      | some (status, s6) =>
        let s7 := finish_up_solve c status s6
        some (status,
          if status = l_Undef then { s7 with branch_strategy_num := s7.branch_strategy_num + 1 }
          else s7)
  else none

/-- The default configuration used by the examples: recursive minimisation on, the binary
minimisations and the decision-based clauses off, chronological backtracking disabled,
tier thresholds 3 and 6. -/
def SolverConf.example : SolverConf :=
  { doRecursiveMinim := true
    doMinimRedMore := false
    doMinimRedMoreMore := 0
    max_size_more_minim := 30
    max_glue_more_minim := 6
    max_num_lits_more_more_red_min := 1
    more_red_minim_limit_binary := 200
    glue_put_lev0_if_below_or_eq := 3
    glue_put_lev1_if_below_or_eq := 6
    update_glues_on_analyze := true
    protect_cl_if_improved_glue_below_this_glue_for_one_turn := 30
    diff_declev_for_chrono := -1
    do_decision_based_cl := false
    decision_based_cl_min_learned_size := 50
    decision_based_cl_max_levels := 9
    maxTime := 1000000
    every_lev1_reduce := 10000
    every_lev2_reduce := 15000
    max_temp_lev2_learnt_clauses := 30000
    restart_first := 100
    restartType := .glue_geom
    restart_inc := ⟨11, 10⟩
    ratio_glue_geom := ⟨5, 1⟩
    inc_max_temp_lev2_red_cls := ⟨1, 1⟩
    branch_strategy_setup := "vsids1"
    do_distill_clauses := false
    distill_increase_conf_ratio := ⟨2, 25⟩
    distill_min_confl := 10000 }

/-- A solver without variables, clauses or assignments, as it is right after construction. -/
def fresh (conf : SolverConf) : Searcher :=
  { conf := conf
    ok := true
    assigns := fun _ => l_Undef
    varData := fun _ => ⟨0, .null_clause_t⟩
    trail := []
    trail_lim := []
    qhead := 0
    cl_alloc := fun _ => default
    sumConflicts := 0
    watches := fun _ => []
    seen := fun _ => false
    permDiff := fun _ => 0
    MYFLAG := 0
    learnt_clause := []
    decision_clause := []
    toClear := []
    pathC := 0
    failBinLit := lit_Undef
    branch_strategy := .vsids
    more_red_minim_limit_binary_actual := conf.more_red_minim_limit_binary
    conflict := []
    model := fun _ => l_Undef
    assumptions := []
    order_heap_vsids := []
    order_heap_maple := []
    order_heap_rand := []
    longRedCls := fun _ => []
    longIrredCls := []
    xorclauses := []
    cl_alloc_size := 0
    numConflicts := 0
    params := ⟨false, 0, 0, .never⟩
    max_confl_this_restart := 0
    max_confl_per_search_solve_call := 0
    cur_rest_type := .glue_geom
    branch_strategy_num := 0
    env_reads := 0
    nVars := 0
    var_removed := fun _ => false
    lastCleanZeroDepthAssigns := 0
    simpDB_props := 0
    litStats_lits := 0
    next_lev1_reduce := 0
    next_lev2_reduce := 0
    cur_max_temp_red_lev2_cls := conf.max_temp_lev2_learnt_clauses
    increasing_phase_size := 0
    luby_loop_num := 0
    next_distill := 0
    glueHist := []
    trailDepthHistLonger := []
    fast_backw_on := false
    fast_backw_cur_max_confl := 0
    fast_backw_max_confl := 0
    mtrand := 0 }

/-! ## Semantics of clauses and consistency of the trail -/

/-- Truth of a literal under a total assignment `M` of the variables. -/
def lit_true (M : Nat → Bool) (l : Lit) : Bool := M l.var != l.sign

/-- A clause, as a list of literals, is satisfied by the total assignment `M`. -/
def clause_sat (M : Nat → Bool) (c : List Lit) : Prop := ∃ l ∈ c, lit_true M l = true

/-- The literals of a conflicting constraint: `failBinLit` and `lit2` for a binary one, the
literals of the clause for a long one. -/
def confl_lits (s : Searcher) : PropBy → List Lit
  | .null_clause_t => []
  | .binary_t lit2 _ => [s.failBinLit, lit2]
  | .clause_t offset => (s.cl_alloc offset).lits

/-- The reason clause of the trail literal `p`, if it was propagated. -/
def reason_lits (s : Searcher) (p : Lit) : Option (List Lit) :=
  match (s.varData p.var).reason with
  | .null_clause_t => none
  | .binary_t lit2 _ => some [p, lit2]
  | .clause_t offset => some (s.cl_alloc offset).lits

/-- The literal `q` is False by one of the first `i` trail entries. -/
def false_before (s : Searcher) (i : Nat) (q : Lit) : Prop := ∃ t ∈ s.trail.take i, t.lit = q.neg

/-- The trail entry `t` at position `i` is justified: a propagated literal stands first in its
reason, whose other literals are False by earlier entries of no higher level; an entry without
reason above level 0 is a decision, the first entry of its level or higher. -/
def reason_ok (s : Searcher) (i : Nat) (t : Trail) : Prop :=
  match (s.varData t.lit.var).reason with
  | .null_clause_t => 0 < t.lev → ∀ u ∈ s.trail.take i, u.lev < t.lev
  | .binary_t q _ => false_before s i q ∧ s.level q ≤ t.lev
  | .clause_t offset =>
    (s.cl_alloc offset).lits.head? = some t.lit
      ∧ ∀ q ∈ (s.cl_alloc offset).lits.tail, false_before s i q ∧ s.level q ≤ t.lev

/-- A well-formed trail: no variable occurs twice; every entry is True, is a proper literal and
carries the level recorded for its variable, which is at most the decision level; every entry is
justified; and the entries before the start of level `b + 1` have level at most `b`. -/
def trail_ok (s : Searcher) : Prop :=
  (s.trail.map (fun t => t.lit.var)).Nodup
  ∧ (∀ t ∈ s.trail, (s.varData t.lit.var).level = t.lev ∧ s.value t.lit = l_True
      ∧ t.lit.var < var_Undef ∧ t.lev ≤ s.decisionLevel)
  ∧ (∀ i < s.trail.length, reason_ok s i (s.trail.getD i ⟨lit_Undef, 0⟩))
  ∧ (∀ b < s.trail_lim.length, s.trail_lim.getD b 0 ≤ s.trail.length
      ∧ ∀ u ∈ s.trail.take (s.trail_lim.getD b 0), u.lev ≤ b)

/-- A conflict: every literal of the conflicting constraint is False on the trail. -/
def is_conflict (s : Searcher) (confl : PropBy) : Prop :=
  confl_lits s confl ≠ [] ∧ ∀ q ∈ confl_lits s confl, ∃ t ∈ s.trail, t.lit = q.neg

/-- A conflict whose first literal has the highest level `d > 0` of the constraint, as
`find_conflict_level` leaves it. -/
def is_conflict_at (s : Searcher) (confl : PropBy) (d : Nat) : Prop :=
  is_conflict s confl ∧ 0 < d ∧ s.level ((confl_lits s confl).headD lit_Undef) = d
    ∧ ∀ q ∈ confl_lits s confl, s.level q ≤ d

/-- The premises of clause learning as the claim words them: the conflicting constraint and the
reason clauses of the trail literals hold under `M`. -/
def premises (s : Searcher) (confl : PropBy) (M : Nat → Bool) : Prop :=
  clause_sat M (confl_lits s confl)
    ∧ ∀ t ∈ s.trail, ∀ c ∈ reason_lits s t.lit, clause_sat M c

/-- The premises together with the facts of level 0: every trail literal of level 0 holds. -/
def premises0 (s : Searcher) (confl : PropBy) (M : Nat → Bool) : Prop :=
  premises s confl M ∧ ∀ t ∈ s.trail, t.lev = 0 → lit_true M t.lit = true

instance (s : Searcher) (i : Nat) (q : Lit) : Decidable (false_before s i q) := by
  unfold false_before; infer_instance

instance (s : Searcher) (i : Nat) (t : Trail) : Decidable (reason_ok s i t) := by
  unfold reason_ok; split <;> infer_instance

instance (s : Searcher) : Decidable (trail_ok s) := by
  unfold trail_ok; infer_instance

instance (s : Searcher) (confl : PropBy) : Decidable (is_conflict s confl) := by
  unfold is_conflict; infer_instance

instance (s : Searcher) (confl : PropBy) (d : Nat) : Decidable (is_conflict_at s confl d) := by
  unfold is_conflict_at; infer_instance

instance (M : Nat → Bool) (c : List Lit) : Decidable (clause_sat M c) := by
  unfold clause_sat; infer_instance

instance (s : Searcher) (confl : PropBy) (M : Nat → Bool) : Decidable (premises s confl M) := by
  unfold premises; infer_instance

instance (s : Searcher) (confl : PropBy) (M : Nat → Bool) : Decidable (premises0 s confl M) := by
  unfold premises0; infer_instance

/-! ## Invariants used in the proofs -/

/-- What resolution and minimisation may change: the marks, the learnt clause, `pathC`,
`toClear` and the statistics of clauses (never their literals). -/
def analysis_frame (s0 s : Searcher) : Prop :=
  s = { s0 with seen := s.seen, learnt_clause := s.learnt_clause, pathC := s.pathC,
                toClear := s.toClear, cl_alloc := s.cl_alloc }
    ∧ ∀ o, (s.cl_alloc o).lits = (s0.cl_alloc o).lits

/-- A trail entry still to be resolved: its variable is marked and its level is not below the
conflict level. -/
def pend (seen : Nat → Bool) (nDecisionLevel : Nat) (t : Trail) : Bool :=
  seen t.lit.var && decide (nDecisionLevel ≤ t.lev)

/-- The loop invariant of `create_learnt_clause` at trail position `k` (all entries still to be
resolved lie below `k`), relative to the state `s0` at the call. -/
structure cl_inv (s0 : Searcher) (nDecisionLevel : Nat) (s : Searcher) (k : Nat) : Prop where
  frame : analysis_frame s0 s
  learnt : s.learnt_clause.head? = some lit_Undef
  added : ∀ q ∈ s.learnt_clause.tail, s.seen q.var = true ∧ 0 < s0.level q
    ∧ s0.level q < nDecisionLevel ∧ ∃ t ∈ s0.trail, t.lit = q.neg
  seen_ok : ∀ v, s.seen v = true → (∃ q ∈ s.learnt_clause.tail, q.var = v)
    ∨ (∃ t ∈ s0.trail.take k, t.lit.var = v ∧ nDecisionLevel ≤ t.lev)
  pathC_eq : s.pathC = (s0.trail.take k).countP (pend s.seen nDecisionLevel)
  lev_le : ∀ t ∈ s0.trail.take k, s.seen t.lit.var = true → t.lev ≤ nDecisionLevel

/-- The resolvent kept implicitly by `create_learnt_clause` holds under `M`: a literal already
appended to the learnt clause, or the negation of an entry still to be resolved, is true. -/
def resolvent_true (s0 : Searcher) (nDecisionLevel : Nat) (s : Searcher) (k : Nat)
    (M : Nat → Bool) : Prop :=
  (∃ q ∈ s.learnt_clause.tail, lit_true M q = true)
    ∨ (∃ t ∈ s0.trail.take k, pend s.seen nDecisionLevel t = true ∧ lit_true M t.lit.neg = true)

/-- The literals that `add_literals_from_confl_to_learnt` hands to `add_lit_to_learnt`. -/
def lits_to_add (s : Searcher) (confl : PropBy) (p : Lit) : Option (List Lit) :=
  match confl with
  | .null_clause_t => none
  | .binary_t lit2 _ => some (if p = lit_Undef then [s.failBinLit, lit2] else [lit2])
  | .clause_t offset =>
    match (s.cl_alloc offset).lits with
    | [] => none
    | x0 :: rest => some (if p = lit_Undef then x0 :: rest else rest)

/-- Monotone growth of the marks, of the learnt clause and of `pathC`. -/
def grows (s s1 : Searcher) : Prop :=
  (∀ v, s.seen v = true → s1.seen v = true)
    ∧ (∀ q ∈ s.learnt_clause.tail, q ∈ s1.learnt_clause.tail)
    ∧ s.pathC ≤ s1.pathC

/-- The state in which `add_literals_from_confl_to_learnt` starts adding literals: a long
antecedent has had its statistics touched. -/
def touched (update_bogoprops : Bool) (s : Searcher) : PropBy → Searcher
  | .clause_t offset => touch_antecedent update_bogoprops s offset
  | _ => s

/-- What the resolution loop of `create_learnt_clause` has established when it ends with the
pivot `p`, relative to the state `s0` at the call and to premises `P`. -/
structure cl_post (s0 : Searcher) (nDecisionLevel : Nat) (P : (Nat → Bool) → Prop)
    (s : Searcher) (p : Lit) : Prop where
  frame : analysis_frame s0 s
  pathC_zero : s.pathC = 0
  learnt : s.learnt_clause.head? = some lit_Undef
  added : ∀ q ∈ s.learnt_clause.tail, s.seen q.var = true ∧ 0 < s0.level q
    ∧ s0.level q < nDecisionLevel ∧ ∃ t ∈ s0.trail, t.lit = q.neg
  seen_ok : ∀ v, s.seen v = true → ∃ q ∈ s.learnt_clause.tail, q.var = v
  pivot : ∃ t ∈ s0.trail, t.lit = p ∧ t.lev = nDecisionLevel
  pivot_unseen : s.seen p.var = false
  entail : ∀ M, P M → lit_true M p.neg = true ∨ ∃ q ∈ s.learnt_clause.tail, lit_true M q = true

/-- A literal that `litRedundant` may have on its stack: False on the trail and propagated. -/
def lr_valid (s0 : Searcher) (q : Lit) : Prop :=
  (∃ t ∈ s0.trail, t.lit = q.neg) ∧ (s0.varData q.var).reason ≠ PropBy.null_clause_t

/-- The number of trail entries whose variable is not marked. -/
def unseen_count (s0 : Searcher) (seen : Nat → Bool) : Nat :=
  s0.trail.countP (fun t => !seen t.lit.var)

/-- What `analyze_conflict` has established when it returns the state `s1` with `out_btlevel`
and `glue`, on a conflict of level `d` in the state `s`: the learnt clause is the negated pivot of
level `d` followed by False literals of levels strictly between 0 and `d`, the one of greatest
level first, and `out_btlevel` is that greatest level (0 for a unit clause). -/
structure analyzed (s : Searcher) (d : Nat) (s1 : Searcher) (out_btlevel glue : Nat) : Prop where
  frame : analysis_frame { s with MYFLAG := s1.MYFLAG } s1
  myflag : s.MYFLAG ≤ s1.MYFLAG
  shape : ∃ p rest, s1.learnt_clause = p.neg :: rest
    ∧ (∃ t ∈ s.trail, t.lit = p ∧ t.lev = d)
    ∧ (∀ q ∈ rest, 0 < s.level q ∧ s.level q < d ∧ ∃ t ∈ s.trail, t.lit = q.neg)
    ∧ (rest = [] → out_btlevel = 0)
    ∧ (∀ q0 rest1, rest = q0 :: rest1 →
        out_btlevel = s.level q0 ∧ ∀ q ∈ rest, s.level q ≤ out_btlevel)
  glue_le : s.conf.doMinimRedMoreMore = 0 → glue ≤ s1.learnt_clause.length

/-- What `find_conflict_level` has established when it returns `nHighestLevel`, the constraint
`confl1` and the state `s1` for the conflict `confl` of the state `s`: the same conflict, with a
literal of the highest level `nHighestLevel` in front. -/
structure conflict_found (s : Searcher) (confl : PropBy) (nHighestLevel : Nat) (confl1 : PropBy)
    (s1 : Searcher) : Prop where
  same : s1 = { s with failBinLit := s1.failBinLit, cl_alloc := s1.cl_alloc,
                       watches := s1.watches }
  ok : trail_ok s1
  still : is_conflict s1 confl1
  head : s1.level ((confl_lits s1 confl1).headD lit_Undef) = nHighestLevel
  max : ∀ q ∈ confl_lits s1 confl1, s1.level q ≤ nHighestLevel
  perm : (confl_lits s1 confl1).Perm (confl_lits s confl)
  zero : nHighestLevel = 0 → s1 = s ∧ confl1 = confl

/-- The state without the parts that backtracking may change (assignment, branching heaps,
`qhead`, trail and `trail_lim`): two states with the same image differ in those parts only. -/
def backtrack_core (s : Searcher) : Searcher :=
  { s with assigns := fun _ => l_Undef, order_heap_vsids := [], order_heap_maple := [],
           order_heap_rand := [], qhead := 0, trail := [], trail_lim := [] }

/-- The state without `decision_clause` and the marks: what building the decision-based clause
may change. -/
def decision_core (s : Searcher) : Searcher :=
  { s with decision_clause := [], seen := fun _ => false }

/-- The state a conflict is handled in: the trail is well-formed, the constraint is conflicting
with a literal above level 0, no mark is set, no `permDiff` entry exceeds `MYFLAG`, and every
decision level starts inside the trail. -/
def conflict_state (s : Searcher) (confl : PropBy) : Prop :=
  trail_ok s ∧ is_conflict s confl ∧ (∃ q ∈ confl_lits s confl, 0 < s.level q)
    ∧ (∀ v, s.seen v = false) ∧ (∀ v, s.permDiff v ≤ s.MYFLAG)
    ∧ (∀ lim ∈ s.trail_lim, lim < s.trail.length)

/-! ## Example states -/

/-- Example: `x0` is a fact of level 0 without reason, `x1` the decision of level 1, `x2` implied
by the binary clause `(x2 ∨ ¬x1)`; the long clause `(¬x2 ∨ ¬x1 ∨ ¬x0)` at offset 0 is
conflicting. -/
def ex_unit : Searcher :=
  { fresh SolverConf.example with
    assigns := fun v => if v < 3 then l_True else l_Undef
    varData := fun v =>
      if v = 1 then ⟨1, .null_clause_t⟩
      else if v = 2 then ⟨1, .binary_t ⟨3⟩ false⟩
      else ⟨0, .null_clause_t⟩
    trail := [⟨⟨0⟩, 0⟩, ⟨⟨2⟩, 1⟩, ⟨⟨4⟩, 1⟩]
    trail_lim := [1]
    cl_alloc := fun o => if o = 0 then ⟨[⟨5⟩, ⟨3⟩, ⟨1⟩], false, default⟩ else default }

/-- The total assignment `x0 = false`, `x1 = x2 = true`. -/
def ex_unit_model : Nat → Bool := fun v => v == 1 || v == 2

/-- An example learnt clause with literals of levels 3, 1, 2, 1 (variables 0..3). -/
def ex_learnt : Searcher :=
  { fresh SolverConf.example with
    varData := fun v =>
      if v = 0 then ⟨3, .null_clause_t⟩
      else if v = 1 then ⟨1, .null_clause_t⟩
      else if v = 2 then ⟨2, .null_clause_t⟩
      else ⟨1, .null_clause_t⟩
    learnt_clause := [⟨1⟩, ⟨3⟩, ⟨5⟩, ⟨7⟩] }

/-- Every decision on the trail is an assumption: a trail literal without reason at a level above
0 is one of the assumption literals. -/
def decisions_assumed (s : Searcher) : Prop :=
  ∀ t ∈ s.trail, (s.varData t.lit.var).reason = .null_clause_t →
    0 < (s.varData t.lit.var).level → t.lit ∈ s.assumptions

instance (s : Searcher) : Decidable (decisions_assumed s) := by
  unfold decisions_assumed; infer_instance

/-- What the sweep of `analyze_final_confl_with_assumptions` keeps true of the running state `t`,
started from `s0` with the literal `p`. -/
structure final_inv (s0 : Searcher) (p : Lit) (t : Searcher) : Prop where
  varData : t.varData = s0.varData
  cl_alloc : t.cl_alloc = s0.cl_alloc
  permDiff : t.permDiff = s0.permDiff
  myflag : t.MYFLAG = s0.MYFLAG
  trail_lim : t.trail_lim = s0.trail_lim
  assigns : t.assigns = s0.assigns
  seen : ∀ v, t.seen v = true → 0 < (s0.varData v).level
  confl : ∃ rest, t.conflict = p :: rest
    ∧ ∀ q ∈ rest, ∃ e ∈ s0.trail, q = e.lit.neg
        ∧ (s0.varData e.lit.var).reason = .null_clause_t ∧ 0 < (s0.varData e.lit.var).level

/-- What a failed assumption leaves behind: `s1` is the state returned when the assumption loop
started in `s` meets an assumption that is False. -/
def final_conflict_of (s s1 : Searcher) : Prop :=
  ∃ p, s1.decisionLevel < s.assumptions.length
    ∧ p = s.assumptions.getD s1.decisionLevel lit_Undef
    ∧ s.value p = l_False
    ∧ ∃ rest, s1.conflict = p.neg :: rest
      ∧ (∀ q ∈ rest, ∃ e ∈ s.trail, q = e.lit.neg
          ∧ (s.varData e.lit.var).reason = .null_clause_t ∧ 0 < (s.varData e.lit.var).level)
      ∧ (s1.decisionLevel = 0 ∨ (s.varData p.var).level = 0 → rest = [])

/-- Collaborators that do nothing: propagation finds no conflict and changes nothing, the
synchronisation and the distiller succeed, the polarity is always positive. -/
def Collab.idle : Collab :=
  { propagate_any_order_fast := fun s => (.null_clause_t, s)
    propagate_any_order := fun s => (.null_clause_t, s)
    syncData := fun s => (true, s)
    remove_and_clean_all := fun s => s
    consolidate := fun s => s
    handle_lev1 := fun s => s
    handle_lev2 := fun s => s
    distill := fun s => (true, s)
    pick_polarity := fun _ _ => true
    randInt := fun m => (m, m + 1)
    glue_restart := fun _ => false
    blocking_restart := fun _ => false
    new_decision_fast_backw := fun _ => none }

/-- Example with assumptions `x0`, `x1`: `x0` is the decision of level 1 and `¬x1` is implied at
level 1 by the binary clause `(¬x1 ∨ ¬x0)`, so the second assumption is False. -/
def ex_assump : Searcher :=
  { fresh SolverConf.example with
    assigns := fun v => if v = 0 then l_True else if v = 1 then l_False else l_Undef
    varData := fun v =>
      if v = 0 then ⟨1, .null_clause_t⟩
      else if v = 1 then ⟨1, .binary_t ⟨1⟩ false⟩
      else ⟨0, .null_clause_t⟩
    trail := [⟨⟨0⟩, 1⟩, ⟨⟨3⟩, 1⟩]
    trail_lim := [0]
    assumptions := [⟨0⟩, ⟨2⟩] }

/-- Example after scenario 5 of the spec (formula `(x0 ∨ x1) ∧ (¬x0 ∨ x1)`, assumption `¬x1`): the
unit `x1` has been learnt and stands on the trail at level 0. -/
def ex_assump0 : Searcher :=
  { fresh SolverConf.example with
    assigns := fun v => if v = 1 then l_True else l_Undef
    trail := [⟨⟨2⟩, 0⟩]
    assumptions := [⟨3⟩] }

/-- The collaborators leave the configuration alone. -/
structure Collab.keeps_conf (c : Collab) : Prop where
  propagate_any_order_fast : ∀ s, (c.propagate_any_order_fast s).2.conf = s.conf
  propagate_any_order : ∀ s, (c.propagate_any_order s).2.conf = s.conf
  syncData : ∀ s, (c.syncData s).2.conf = s.conf
  remove_and_clean_all : ∀ s, (c.remove_and_clean_all s).conf = s.conf
  consolidate : ∀ s, (c.consolidate s).conf = s.conf
  handle_lev1 : ∀ s, (c.handle_lev1 s).conf = s.conf
  handle_lev2 : ∀ s, (c.handle_lev2 s).conf = s.conf
  distill : ∀ s, (c.distill s).2.conf = s.conf
  new_decision_fast_backw : ∀ s r, c.new_decision_fast_backw s = some r → r.2.conf = s.conf

/-- During the run the clock stays below `maxTime` and no interrupt is requested. -/
def Env.quiet (env : Env) (maxTime : Nat) : Prop :=
  ∀ n, env.cpuTime n < maxTime ∧ env.must_interrupt_asap n = false

/-- Example for the glue: decisions `x0`, `x1`, `x2` of levels 1, 2, 3, and `x3` implied at level 3
by the clause `(x3 ∨ ¬x2 ∨ ¬x0)` at offset 1; the clause `(¬x3 ∨ ¬x2 ∨ ¬x1)` at offset 0 is
conflicting, and the binary clause `(¬x2 ∨ x1)` is on the watch list of `¬x2`.  The last
minimisation is switched on (`doMinimRedMoreMore = 3`). -/
def ex_glue : Searcher :=
  { fresh { SolverConf.example with doMinimRedMoreMore := 3 } with
    assigns := fun v => if v < 4 then l_True else l_Undef
    varData := fun v =>
      if v = 0 then ⟨1, .null_clause_t⟩
      else if v = 1 then ⟨2, .null_clause_t⟩
      else if v = 2 then ⟨3, .null_clause_t⟩
      else if v = 3 then ⟨3, .clause_t 1⟩
      else ⟨0, .null_clause_t⟩
    trail := [⟨⟨0⟩, 1⟩, ⟨⟨2⟩, 2⟩, ⟨⟨4⟩, 3⟩, ⟨⟨6⟩, 3⟩]
    trail_lim := [0, 1, 2]
    cl_alloc := fun o =>
      if o = 0 then ⟨[⟨7⟩, ⟨5⟩, ⟨3⟩], false, default⟩
      else if o = 1 then ⟨[⟨6⟩, ⟨5⟩, ⟨1⟩], false, default⟩
      else default
    cl_alloc_size := 2
    watches := fun l => if l = ⟨5⟩ then [.bin ⟨2⟩ false] else []
    more_red_minim_limit_binary_actual := 200 }

/-- A clock that stands at 0 and an interrupt flag that is never set. -/
def Env.calm : Env :=
  { cpuTime := fun _ => 0
    must_interrupt_asap := fun _ => false }

/-- A clock that stands just below the time limit of `SolverConf.example`. -/
def Env.busy : Env :=
  { cpuTime := fun _ => 999999
    must_interrupt_asap := fun _ => false }

/-- A clock that is already past the time limit of `SolverConf.example`. -/
def Env.late : Env :=
  { cpuTime := fun _ => 2000000
    must_interrupt_asap := fun _ => false }

/-- Collaborators for the run from `ex_glue`: the propagation reports the conflicting clause at
offset 0 before the first conflict and no conflict afterwards, and the polarity is always
negative (after the first conflict `¬x2` is on the trail or decided first, which satisfies every
clause of the example, so nothing is left to propagate). -/
def Collab.script : Collab :=
  { Collab.idle with
    propagate_any_order_fast := fun s =>
      if s.sumConflicts = 0 then (.clause_t 0, s) else (.null_clause_t, s)
    pick_polarity := fun _ _ => false }

/-- Example of a conflict at level 0: `x0`, `x1`, `x2` are facts of level 0 and the clause
`(¬x0 ∨ ¬x1 ∨ ¬x2)` at offset 0 is conflicting. -/
def ex_level0 : Searcher :=
  { fresh SolverConf.example with
    assigns := fun v => if v < 3 then l_True else l_Undef
    trail := [⟨⟨0⟩, 0⟩, ⟨⟨2⟩, 0⟩, ⟨⟨4⟩, 0⟩]
    cl_alloc := fun o => if o = 0 then ⟨[⟨1⟩, ⟨3⟩, ⟨5⟩], false, default⟩ else default
    cl_alloc_size := 1 }

/-- The state `ex_glue` with a restart after every conflict (`restart_first = 0`). -/
def ex_run : Searcher :=
  { ex_glue with conf := { ex_glue.conf with restart_first := 0 } }

end Searcher

end CMSat

open CMSat CMSat.Searcher CMSat.lbool

namespace CMSat
namespace Searcher

/-! ## The model on SAT -/

/-- A variable that takes part in the search: it exists and has not been removed. -/
def is_active (s : Searcher) (v : Nat) : Prop := v < s.nVars ∧ s.var_removed v = false

/-- The heap of the branching strategy in use. -/
def active_heap (s : Searcher) : List Nat :=
  match s.branch_strategy with
  | .vsids => s.order_heap_vsids
  | .maple => s.order_heap_maple
  | .rand => s.order_heap_rand

/-- The original (irredundant) ordinary clauses that the solver holds: the binary ones inline on
the watch lists of the literals of existing variables, the long ones listed in `longIrredCls`. -/
def irred_clause (s : Searcher) (C : List Lit) : Prop :=
  (∃ l l2, l.var < s.nVars ∧ Watched.bin l2 false ∈ s.watches l ∧ C = [l, l2])
    ∨ (∃ o ∈ s.longIrredCls, C = (s.cl_alloc o).lits)

/-- The parity `x1 ⊕ x2 ⊕ …` of the variables of an XOR clause under an assignment. -/
def xor_parity (a : Nat → lbool) (vars : List Nat) : Bool :=
  vars.foldl (fun b v => b != (a v == l_True)) false

/-- Modelled from the spec: the propagator (propengine, not among the sources) ends in a conflict
or in a fully propagated state (§4.5 contract, I2).  In a fully propagated state no original
clause is falsified: every ordinary one has a literal that is not False, and no XOR clause with
all its variables assigned has the wrong parity. -/
def no_falsified (s : Searcher) : Prop :=
  (∀ C, irred_clause s C → ∃ l ∈ C, s.value l ≠ l_False)
    ∧ (∀ x ∈ s.xorclauses, (∀ v ∈ x.1, s.assigns v ≠ l_Undef) → xor_parity s.assigns x.1 = x.2)

/-- The assignment `a` satisfies every original clause that the solver holds: every ordinary
clause has a literal that is True under `a`, every XOR clause has all its variables assigned and
the required parity. -/
def satisfies (s : Searcher) (a : Nat → lbool) : Prop :=
  (∀ C, irred_clause s C → ∃ l ∈ C, (a l.var).xor l.sign = l_True)
    ∧ (∀ x ∈ s.xorclauses, (∀ v ∈ x.1, a v ≠ l_Undef) ∧ xor_parity a x.1 = x.2)

/-- The recorded model satisfies every original clause. -/
def model_sat (s : Searcher) : Prop := satisfies s s.model

/-- What the search keeps true of the branching heap and the original clauses: the
fast-backward mode is off and the strategy is a heap strategy, every unassigned active variable
is in the heap in use, the original clauses are over active variables, and the long ones lie
below the end of the clause store. -/
structure search_inv (s : Searcher) : Prop where
  fast_backw_off : s.fast_backw_on = false
  heap_strategy : s.branch_strategy ≠ .rand
  nVars_le : s.nVars ≤ var_Undef
  heap : ∀ v, is_active s v → s.assigns v = l_Undef → v ∈ active_heap s
  clause_vars : ∀ C, irred_clause s C → ∀ l ∈ C, is_active s l.var
  xor_vars : ∀ x ∈ s.xorclauses, ∀ v ∈ x.1, is_active s v
  offsets : ∀ o ∈ s.longIrredCls, o < s.cl_alloc_size

/-- What `solve` expects of the state it is called in (by `check_order_heap_sanity` and the
set-up of the solver): the fast-backward mode is off, no random branching is configured, the
VSIDS and the Maple heap hold every unassigned active variable, the original clauses are over
active variables, and the long ones lie below the end of the clause store. -/
structure solve_pre (s : Searcher) : Prop where
  fast_backw_off : s.fast_backw_on = false
  no_rand : str_find s.conf.branch_strategy_setup.data "rand".data 0 = none
  nVars_le : s.nVars ≤ var_Undef
  heap_vsids : ∀ v, is_active s v → s.assigns v = l_Undef → v ∈ s.order_heap_vsids
  heap_maple : ∀ v, is_active s v → s.assigns v = l_Undef → v ∈ s.order_heap_maple
  clause_vars : ∀ C, irred_clause s C → ∀ l ∈ C, is_active s l.var
  xor_vars : ∀ x ∈ s.xorclauses, ∀ v ∈ x.1, is_active s v
  offsets : ∀ o ∈ s.longIrredCls, o < s.cl_alloc_size

/-- The facts of the solver, that is the trail literals of level 0, which no backtracking
removes, are True under the assignment `a`. -/
def facts_hold (s : Searcher) (a : Nat → lbool) : Prop :=
  ∀ e ∈ s.trail, e.lev = 0 → (a e.lit.var).xor e.lit.sign = l_True

/-- The assignment `a` satisfies the formula that the solver holds: its original clauses and its
facts. -/
def holds (s : Searcher) (a : Nat → lbool) : Prop := satisfies s a ∧ facts_hold s a

/-- The state `s1` holds at least the formula of the state `s`: every assignment that satisfies
the original clauses and the facts of `s1` satisfies those of `s`.  A step that removes an
original clause which a fact satisfies, or a literal which a fact falsifies (§4.10), keeps this;
a step that drops an original clause otherwise does not. -/
def upholds (s s1 : Searcher) : Prop := ∀ a, holds s1 a → holds s a

/-- Modelled from the spec: the interfaces of the collaborators whose code is not among the
sources.  The propagator keeps its contract (§4.5: without conflict the state is fully
propagated, and the trail is the record of the assigned literals, §3) and, like the
synchronisation and the distiller, leaves the heap discipline intact; clause cleaning and
database reduction (§4.9, §4.10) run on fully propagated states and keep them so.  None of them
weakens the formula: the state a collaborator returns holds at least the formula of the state
it was called in (`upholds`).  The propagation after the model was recorded leaves the model
alone and keeps the original clauses satisfied by it. -/
structure Collab.sound (c : Collab) : Prop where
  propagate_fast_contract : ∀ s, (c.propagate_any_order_fast s).1.isNULL = true →
    no_falsified (c.propagate_any_order_fast s).2
  propagate_fast_facts : ∀ s, (c.propagate_any_order_fast s).1.isNULL = true →
    facts_hold (c.propagate_any_order_fast s).2 (c.propagate_any_order_fast s).2.assigns
  propagate_fast_inv : ∀ s, search_inv s → search_inv (c.propagate_any_order_fast s).2
  propagate_fast_upholds : ∀ s, upholds s (c.propagate_any_order_fast s).2
  propagate_inv : ∀ s, search_inv s → search_inv (c.propagate_any_order s).2
  propagate_upholds : ∀ s, upholds s (c.propagate_any_order s).2
  propagate_model : ∀ s, model_sat s → model_sat (c.propagate_any_order s).2
  propagate_keeps_model : ∀ s, (c.propagate_any_order s).2.model = s.model
  syncData_inv : ∀ s, search_inv s → search_inv (c.syncData s).2
  syncData_upholds : ∀ s, upholds s (c.syncData s).2
  distill_inv : ∀ s, search_inv s → search_inv (c.distill s).2
  distill_upholds : ∀ s, upholds s (c.distill s).2
  remove_and_clean_all : ∀ s, search_inv s → no_falsified s →
    search_inv (c.remove_and_clean_all s) ∧ no_falsified (c.remove_and_clean_all s)
  remove_and_clean_all_formula : ∀ s, facts_hold s s.assigns →
    upholds s (c.remove_and_clean_all s)
      ∧ facts_hold (c.remove_and_clean_all s) (c.remove_and_clean_all s).assigns
  consolidate : ∀ s, search_inv s → no_falsified s →
    search_inv (c.consolidate s) ∧ no_falsified (c.consolidate s)
  consolidate_formula : ∀ s, facts_hold s s.assigns →
    upholds s (c.consolidate s) ∧ facts_hold (c.consolidate s) (c.consolidate s).assigns
  handle_lev1 : ∀ s, search_inv s → no_falsified s →
    search_inv (c.handle_lev1 s) ∧ no_falsified (c.handle_lev1 s)
  handle_lev1_formula : ∀ s, facts_hold s s.assigns →
    upholds s (c.handle_lev1 s) ∧ facts_hold (c.handle_lev1 s) (c.handle_lev1 s).assigns
  handle_lev2 : ∀ s, search_inv s → no_falsified s →
    search_inv (c.handle_lev2 s) ∧ no_falsified (c.handle_lev2 s)
  handle_lev2_formula : ∀ s, facts_hold s s.assigns →
    upholds s (c.handle_lev2 s) ∧ facts_hold (c.handle_lev2 s) (c.handle_lev2 s).assigns

/-- The part of the state that the heap discipline and the original clauses depend on: the
assignment, the literals of the stored clauses, the watch lists, the branching strategy and its
heaps, the lists of original clauses, the variables, and the recorded model.  Two states with the
same image differ in the book-keeping of the search only. -/
@[reducible] def search_core (s : Searcher) : Searcher :=
  { fresh SolverConf.example with
    assigns := s.assigns
    cl_alloc := fun o => ⟨(s.cl_alloc o).lits, false, default⟩
    watches := s.watches
    branch_strategy := s.branch_strategy
    order_heap_vsids := s.order_heap_vsids
    order_heap_maple := s.order_heap_maple
    order_heap_rand := s.order_heap_rand
    longIrredCls := s.longIrredCls
    xorclauses := s.xorclauses
    cl_alloc_size := s.cl_alloc_size
    nVars := s.nVars
    var_removed := s.var_removed
    fast_backw_on := s.fast_backw_on
    model := s.model }

/-- A variable is accounted for when it is assigned or waits in the heap in use. -/
def covered (s : Searcher) (v : Nat) : Prop := v ∈ active_heap s ∨ s.assigns v ≠ l_Undef

/-- What every step of the search keeps: the variables, the strategy, the lists of original
clauses, the literals of the clauses stored so far, the original binary clauses on the watch
lists, and that a variable accounted for stays so. -/
structure keeps (s s1 : Searcher) : Prop where
  nVars : s1.nVars = s.nVars
  var_removed : s1.var_removed = s.var_removed
  fast_backw_on : s1.fast_backw_on = s.fast_backw_on
  branch_strategy : s1.branch_strategy = s.branch_strategy
  longIrredCls : s1.longIrredCls = s.longIrredCls
  xorclauses : s1.xorclauses = s.xorclauses
  cl_alloc_size : s.cl_alloc_size ≤ s1.cl_alloc_size
  lits : ∀ o, o < s.cl_alloc_size → ∀ l, l ∈ (s1.cl_alloc o).lits ↔ l ∈ (s.cl_alloc o).lits
  bins : ∀ l l2, Watched.bin l2 false ∈ s1.watches l ↔ Watched.bin l2 false ∈ s.watches l
  covered : ∀ v, v ≠ var_Undef → covered s v → covered s1 v

/-! ## A checking propagator and a satisfiable example -/

/-- Some original binary clause on the watch lists has both literals False. -/
def falsified_bin (s : Searcher) : Bool :=
  (List.range (2 * s.nVars)).any (fun x =>
    s.value ⟨x⟩ == l_False && (s.watches ⟨x⟩).any (fun w =>
      match w with
      | .bin l2 false => s.value l2 == l_False
      | _ => false))

/-- Some original long clause has all its literals False. -/
def falsified_long (s : Searcher) : Bool :=
  s.longIrredCls.any (fun o => (s.cl_alloc o).lits.all (fun l => s.value l == l_False))

/-- Some XOR clause has all its variables assigned and the wrong parity. -/
def falsified_xor (s : Searcher) : Bool :=
  s.xorclauses.any (fun x =>
    x.1.all (fun v => s.assigns v != l_Undef) && xor_parity s.assigns x.1 != x.2)

/-- Some fact (a trail literal of level 0) is not True. -/
def untrue_fact (s : Searcher) : Bool :=
  s.trail.any (fun e => e.lev == 0 && s.value e.lit != l_True)

/-- Collaborators with a propagator that only checks: it reports a conflict when an original
clause is falsified or a fact is not True, and changes nothing; the polarity is negative for
`x2` and positive for the other variables. -/
def Collab.checker : Collab :=
  { Collab.idle with
    propagate_any_order_fast := fun s =>
      (if falsified_bin s || falsified_long s || falsified_xor s || untrue_fact s then .clause_t 0
       else .null_clause_t, s)
    pick_polarity := fun _ v => v != 2 }

/-- Example formula over `x0`, `x1`, `x2`: the long clause `(x0 ∨ x1 ∨ x2)` at offset 0, the
binary clause `(¬x0 ∨ x1)` on the watch lists, and the XOR clause `x1 ⊕ x2 = true`; nothing is
assigned and every variable is in the heaps. -/
def ex_sat : Searcher :=
  { fresh SolverConf.example with
    nVars := 3
    cl_alloc := fun o => if o = 0 then ⟨[⟨0⟩, ⟨2⟩, ⟨4⟩], false, default⟩ else default
    cl_alloc_size := 1
    longIrredCls := [0]
    watches := fun l =>
      if l = ⟨1⟩ then [.bin ⟨2⟩ false]
      else if l = ⟨2⟩ then [.bin ⟨1⟩ false, .long 0 ⟨4⟩]
      else if l = ⟨0⟩ then [.long 0 ⟨4⟩]
      else []
    xorclauses := [([1, 2], true)]
    order_heap_vsids := [0, 1, 2]
    order_heap_maple := [0, 1, 2]
    order_heap_rand := [0, 1, 2] }

end Searcher
end CMSat

namespace CMSat
namespace Searcher

/-! ## Backtracking and the learnt-clause tiers: examples -/

/-- Example for chronological backtracking: the state `ex_glue` (decision level 3) with the
threshold `diff_declev_for_chrono` set to 2. -/
def ex_chrono : Searcher :=
  { ex_glue with conf := { ex_glue.conf with diff_declev_for_chrono := 2 } }

/-- The first block of `Searcher::reduce_db_if_needed`: the tier-1 reduction, run when
`every_lev1_reduce` is not 0 and the conflict count has reached `next_lev1_reduce`. -/
def reduce_db_lev1 (c : Collab) (s : Searcher) : Searcher :=
  if s.conf.every_lev1_reduce ≠ 0 ∧ s.sumConflicts ≥ s.next_lev1_reduce then
    let t := c.handle_lev1 s
    { t with next_lev1_reduce := t.sumConflicts + t.conf.every_lev1_reduce }
  else s

/-- Collaborators that do nothing, except that the tier-2 reduction keeps the first half of the
tier-2 list. -/
def Collab.halver : Collab :=
  { Collab.idle with
    handle_lev2 := fun s =>
      { s with longRedCls :=
                 upd s.longRedCls 2 ((s.longRedCls 2).take ((s.longRedCls 2).length / 2)) } }

/-- Example for the database reduction: no conflict yet, `every_lev2_reduce` is 15000 and the
next reduction point is 15000 conflicts away, while tier 2 holds three clauses and
`cur_max_temp_red_lev2_cls` is 2. -/
def ex_tier2 : Searcher :=
  { fresh SolverConf.example with
    longRedCls := fun k => if k = 2 then [0, 1, 2] else []
    cl_alloc_size := 3
    cur_max_temp_red_lev2_cls := 2
    next_lev1_reduce := 10000
    next_lev2_reduce := 15000 }

end Searcher

/-! ## The clause cleaner (`ClauseCleaner.cpp`) -/

namespace ClauseCleaner

/-- Modelled from the spec: an ordinary clause of the solver (Clause.h is not among the
sources): its literals, whether it is learnt, and the strengthened flag. -/
structure Clause where
  lits : List Lit
  learnt : Bool
  strenghtened : Bool
deriving DecidableEq, Repr

/-- Modelled from the spec: an XOR clause (XorClause.h is not among the sources): its literals,
of which only the variables count, the parity bit `xor_clause_inverted`, the strengthened flag
and the group. -/
structure XorClause where
  lits : List Lit
  xor_clause_inverted : Bool
  strenghtened : Bool
  group : Nat
deriving DecidableEq, Repr

/-- Modelled from the spec: the enumeration `ClauseSetType` (ClauseCleaner.h is not among the
sources) indexes the five entries of `lastNumUnitarySat` and `lastNumUnitaryClean`; the source
names `binaryClauses` only, the other four are numbered. -/
inductive ClauseSetType where
  | binaryClauses
  | other (i : Fin 4)
deriving DecidableEq, Repr

/-- The part of `Solver` that the cleaner reads and writes.  `unitary_learnts_num` is the value
of `get_unitary_learnts_num()`, the number of unit assignments of level 0; `becameBinary` is
taken without a bound, the two literal counters are 64-bit. -/
structure Solver where
  assigns : Nat → lbool
  ok : Bool
  decisionLevel : Nat
  qhead : Nat
  trail : List Lit
  unitary_learnts_num : Nat
  binaryClauses : List Clause
  becameBinary : Nat
  learnts_literals : Nat
  clauses_literals : Nat
  freeLater : List XorClause

/-- The functions of `Solver` and `VarReplacer` that the cleaner calls and that are not among
the sources.  Each one takes the solver to the solver after the call; the clause handed over is
the clause as it stands in memory at the call. -/
structure Collab where
  detachModifiedClause : Solver → Lit → Lit → Nat → Clause → Solver
  detachModifiedXorClause : Solver → Nat → Nat → Nat → XorClause → Solver
  attachClause : Solver → Clause → Solver
  removeClause : Solver → Clause → Solver
  replace : Solver → List Lit → Bool → Nat → Solver

end ClauseCleaner

/-- The fields of `ClauseCleaner`: for each clause set the number of units at the last
`removeSatisfied` and at the last `cleanClauses`, and the solver. -/
structure ClauseCleaner where
  lastNumUnitarySat : ClauseCleaner.ClauseSetType → Nat
  lastNumUnitaryClean : ClauseCleaner.ClauseSetType → Nat
  solver : ClauseCleaner.Solver

namespace ClauseCleaner

/-- Modelled from the spec: `Solver::value(Lit)` is `assigns[p.var()] ^ p.sign()`. -/
def value (s : Solver) (p : Lit) : lbool := (s.assigns p.var).xor p.sign

/-- Modelled from the spec: `lbool::getBool()` is true for `l_True`. -/
def getBool (v : lbool) : Bool := v == l_True

/-- Modelled from the spec: `Lit::unsign()` is the literal of the same variable without
negation. -/
def unsign (l : Lit) : Lit := Lit.mkLit l.var false

/-- Writing one entry of an array indexed by the clause set. -/
def setAt (f : ClauseSetType → Nat) (type : ClauseSetType) (x : Nat) : ClauseSetType → Nat :=
  fun t => if t = type then x else f t

/-- A 64-bit counter after `counter -= d`. -/
def sub64 (counter d : Nat) : Nat := (counter + 2 ^ 64 - d % 2 ^ 64) % 2 ^ 64

/-- Embeds `ClauseCleaner::satisfied(const Clause&)`: some literal is True. -/
def satisfied (s : Solver) (c : Clause) : Bool :=
  c.lits.any (fun l => decide (value s l = l_True))

/-- The loop of `ClauseCleaner::satisfied(const XorClause&)` from the running value `final`. -/
def satisfied_xor_loop (s : Solver) (final : Bool) : List Lit → Bool
  | [] => final
  | l :: rest =>
    if s.assigns l.var = l_Undef then false
    else satisfied_xor_loop s (xor final (getBool (s.assigns l.var))) rest

/-- Embeds `ClauseCleaner::satisfied(const XorClause&)`. -/
def satisfied_xor (s : Solver) (c : XorClause) : Bool :=
  satisfied_xor_loop s c.xor_clause_inverted c.lits

/-- The loop of `cleanClause(Clause&)` over the literals not yet visited; `kept` is what has
been written to the front of the clause.  It stops at the first True literal (first component
true), or runs to the end. -/
def cleanClause_loop (s : Solver) (kept : List Lit) : List Lit → Bool × List Lit
  | [] => (false, kept)
  | l :: rest =>
    if value s l = l_Undef then cleanClause_loop s (kept ++ [l]) rest
    else if value s l = l_True then (true, kept)
    else cleanClause_loop s kept rest

/-- The clause in memory once `kept` has been written to its front: the size is as before. -/
def overwritten (c : Clause) (kept : List Lit) : Clause :=
  { c with lits := kept ++ c.lits.drop kept.length }

/-- Embeds `ClauseCleaner::cleanClause(Clause&)`: the return value, the solver and the clause
afterwards.  Reading `c[0]` and `c[1]` needs a clause of at least two literals. -/
def cleanClause (f : Collab) (s : Solver) (c : Clause) : Option (Bool × Solver × Clause) :=
  match c.lits with
  | origLit1 :: origLit2 :: _ =>
    let origSize := c.lits.length
    let r := cleanClause_loop s [] c.lits
    if r.1 then
      some (true, f.detachModifiedClause s origLit1 origLit2 origSize (overwritten c r.2),
        overwritten c r.2)
    else
      let d := origSize - r.2.length
      if origSize > 2 ∧ origSize - d = 2 then
        let s1 := f.detachModifiedClause s origLit1 origLit2 origSize (overwritten c r.2)
        let c1 : Clause := { c with lits := r.2, strenghtened := true }
        some (false, f.attachClause s1 c1, c1)
      else if d ≠ 0 then
        let c1 : Clause := { c with lits := r.2, strenghtened := true }
        some (false,
          if c.learnt then { s with learnts_literals := sub64 s.learnts_literals d }
          else { s with clauses_literals := sub64 s.clauses_literals d },
          c1)
      else some (false, s, c)
  | _ => none

/-- The loop of `cleanClauses(vec<Clause*>&, ...)`: the solver afterwards and the clauses left
in the set (`clauseFree` releases memory only). -/
def cleanClauses_loop (f : Collab) (type : ClauseSetType) (s : Solver) :
    List Clause → Option (Solver × List Clause)
  | [] => some (s, [])
  | c :: rest =>
    match cleanClause f s c with
    | none => none
    | some (true, s1, _) => cleanClauses_loop f type s1 rest
    | some (false, s1, c1) =>
      if type ≠ .binaryClauses ∧ c1.lits.length = 2 then
        cleanClauses_loop f type
          { s1 with binaryClauses := s1.binaryClauses ++ [c1]
                    becameBinary := s1.becameBinary + 1 } rest
      else
        match cleanClauses_loop f type s1 rest with
        | none => none
        | some (s2, cs) => some (s2, c1 :: cs)

/-- Embeds `ClauseCleaner::cleanClauses(vec<Clause*>&, ClauseSetType, uint)`: the two assertions, the
guard on the number of units (the sum is taken in 32 bits), the loop and the new record. -/
def cleanClauses (f : Collab) (cc : ClauseCleaner) (cs : List Clause) (type : ClauseSetType)
    (limit : Nat) : Option (ClauseCleaner × List Clause) :=
  if cc.solver.decisionLevel = 0 ∧ cc.solver.qhead = cc.solver.trail.length then
    if (cc.lastNumUnitaryClean type + limit) % 2 ^ 32 ≥ cc.solver.unitary_learnts_num then
      some (cc, cs)
    else
      match cleanClauses_loop f type cc.solver cs with
      | none => none
      | some (s1, cs1) =>
        some ({ cc with solver := s1
                        lastNumUnitaryClean :=
                          setAt cc.lastNumUnitaryClean type s1.unitary_learnts_num }, cs1)
  else none

/-- The loop of `removeSatisfied(vec<Clause*>&, ...)`. -/
def removeSatisfied_loop (f : Collab) (s : Solver) : List Clause → Solver × List Clause
  | [] => (s, [])
  | c :: rest =>
    if satisfied s c then removeSatisfied_loop f (f.removeClause s c) rest
    else
      let r := removeSatisfied_loop f s rest
      (r.1, c :: r.2)

/-- Embeds `ClauseCleaner::removeSatisfied(vec<Clause*>&, ClauseSetType, uint)`. -/
def removeSatisfied (f : Collab) (cc : ClauseCleaner) (cs : List Clause) (type : ClauseSetType)
    (limit : Nat) : ClauseCleaner × List Clause :=
  if (cc.lastNumUnitarySat type + limit) % 2 ^ 32 ≥ cc.solver.unitary_learnts_num then (cc, cs)
  else
    let r := removeSatisfied_loop f cc.solver cs
    ({ cc with solver := r.1
               lastNumUnitarySat := setAt cc.lastNumUnitarySat type r.1.unitary_learnts_num },
      r.2)

/-- One round of the loop of `cleanClause(XorClause&)`: an unassigned variable is kept, an
assigned one is dropped and `c.invert(val.getBool())` flips the parity bit when it is True
(modelled from the spec: XorClause.h is not among the sources). -/
def cleanClause_xor_step (s : Solver) (st : List Lit × Bool) (l : Lit) : List Lit × Bool :=
  if s.assigns l.var = l_Undef then (st.1 ++ [l], st.2)
  else (st.1, xor st.2 (getBool (s.assigns l.var)))

/-- Embeds `ClauseCleaner::cleanClause(XorClause&)`: the return value, the solver and the clause
afterwards.  Reading `c[0]` and `c[1]` needs a clause of at least two literals. -/
def cleanClause_xor (f : Collab) (s : Solver) (c : XorClause) :
    Option (Bool × Solver × XorClause) :=
  match c.lits with
  | orig1 :: orig2 :: _ =>
    let origSize := c.lits.length
    let r := c.lits.foldl (cleanClause_xor_step s) ([], c.xor_clause_inverted)
    let d := origSize - r.1.length
    let c1 : XorClause := { c with lits := r.1, xor_clause_inverted := r.2 }
    match r.1 with
    | [] => some (true, f.detachModifiedXorClause s orig1.var orig2.var origSize c1, c1)
    | [a, b] =>
      let s1 := f.replace s [unsign a, unsign b] c1.xor_clause_inverted c1.group
      some (true, f.detachModifiedXorClause s1 orig1.var orig2.var origSize c1, c1)
    | _ =>
      if d > 0 then
        some (false, { s with clauses_literals := sub64 s.clauses_literals d },
          { c1 with strenghtened := true })
      else some (false, s, c1)
  | _ => none

/-- The loop of `cleanClauses(vec<XorClause*>&, ...)`: a clause for which `cleanClause` returns
true is pushed to `freeLater` and leaves the set. -/
def cleanClauses_xor_loop (f : Collab) (s : Solver) :
    List XorClause → Option (Solver × List XorClause)
  | [] => some (s, [])
  | c :: rest =>
    match cleanClause_xor f s c with
    | none => none
    | some (true, s1, c1) =>
      cleanClauses_xor_loop f { s1 with freeLater := s1.freeLater ++ [c1] } rest
    | some (false, s1, c1) =>
      match cleanClauses_xor_loop f s1 rest with
      | none => none
      | some (s2, cs) => some (s2, c1 :: cs)

/-- Embeds `ClauseCleaner::cleanClauses(vec<XorClause*>&, ClauseSetType, uint)`. -/
def cleanClauses_xor (f : Collab) (cc : ClauseCleaner) (cs : List XorClause)
    (type : ClauseSetType) (limit : Nat) : Option (ClauseCleaner × List XorClause) :=
  if cc.solver.decisionLevel = 0 ∧ cc.solver.qhead = cc.solver.trail.length then
    if (cc.lastNumUnitaryClean type + limit) % 2 ^ 32 ≥ cc.solver.unitary_learnts_num then
      some (cc, cs)
    else
      match cleanClauses_xor_loop f cc.solver cs with
      | none => none
      | some (s1, cs1) =>
        some ({ cc with solver := s1
                        lastNumUnitaryClean :=
                          setAt cc.lastNumUnitaryClean type s1.unitary_learnts_num }, cs1)
  else none

/-! ### What the cleaner is measured against -/

/-- The clause the spec describes for a clause without True literal: the unassigned literals in
their order; the strengthened flag is set when a literal was dropped. -/
def dropped_false (s : Solver) (c : Clause) : Clause :=
  if c.lits.all (fun l => decide (value s l = l_Undef)) then c
  else { c with lits := c.lits.filter (fun l => decide (value s l = l_Undef))
                strenghtened := true }

/-- The clauses the spec describes for a set after cleaning, before the binary ones are moved:
the clauses without True literal, each without its False literals, in their order. -/
def cleaned_set (s : Solver) (cs : List Clause) : List Clause :=
  (cs.filter (fun c => !satisfied s c)).map (dropped_false s)

/-- Whether an odd number of the literals have a variable whose value is True. -/
def odd_true (s : Solver) (lits : List Lit) : Bool :=
  decide ((lits.filter (fun l => decide (s.assigns l.var = l_True))).length % 2 = 1)

/-- The assignment `a2` extends the assignment `a`: every variable assigned in `a` has the same
value in `a2`. -/
def extends_assigns (a a2 : Nat → lbool) : Prop := ∀ v, a v ≠ l_Undef → a2 v = a v

/-- Contract for the collaborators: they leave the assignment, `binaryClauses`, `becameBinary`
and the number of units as they are. -/
structure Collab.frame (f : Collab) : Prop where
  detachModifiedClause : ∀ s l1 l2 n c,
    (f.detachModifiedClause s l1 l2 n c).assigns = s.assigns
      ∧ (f.detachModifiedClause s l1 l2 n c).binaryClauses = s.binaryClauses
      ∧ (f.detachModifiedClause s l1 l2 n c).becameBinary = s.becameBinary
      ∧ (f.detachModifiedClause s l1 l2 n c).unitary_learnts_num = s.unitary_learnts_num
  attachClause : ∀ s c,
    (f.attachClause s c).assigns = s.assigns
      ∧ (f.attachClause s c).binaryClauses = s.binaryClauses
      ∧ (f.attachClause s c).becameBinary = s.becameBinary
      ∧ (f.attachClause s c).unitary_learnts_num = s.unitary_learnts_num

/-- Collaborators that leave the modelled part of the solver as it is. -/
def Collab.idle : Collab :=
  { detachModifiedClause := fun s _ _ _ _ => s
    detachModifiedXorClause := fun s _ _ _ _ => s
    attachClause := fun s _ => s
    removeClause := fun s _ => s
    replace := fun s _ _ _ => s }

/-- Example solver at level 0: `x0` is True, `x1` is False, every other variable is unassigned;
two units are on the trail and have been propagated. -/
def ex_solver : Solver :=
  { assigns := fun v => if v = 0 then l_True else if v = 1 then l_False else l_Undef
    ok := true
    decisionLevel := 0
    qhead := 2
    trail := [⟨0⟩, ⟨3⟩]
    unitary_learnts_num := 2
    binaryClauses := []
    becameBinary := 0
    learnts_literals := 0
    clauses_literals := 10
    freeLater := [] }

/-- Example cleaner on `ex_solver`: every set was last cleaned when one unit was known. -/
def ex_cleaner : ClauseCleaner :=
  { lastNumUnitarySat := fun _ => 1
    lastNumUnitaryClean := fun _ => 1
    solver := ex_solver }

/-- Example clause `(x0 ∨ x2 ∨ x3)`: under `ex_solver` its first literal is True. -/
def ex_clause_sat : Clause := ⟨[⟨0⟩, ⟨4⟩, ⟨6⟩], false, false⟩

/-- Example clause `(x1 ∨ x2 ∨ x3 ∨ x4)`: under `ex_solver` its first literal is False, the
others are unassigned. -/
def ex_clause_long : Clause := ⟨[⟨2⟩, ⟨4⟩, ⟨6⟩, ⟨8⟩], false, false⟩

/-- Example clauses: `ex_clause_sat` has a True literal; `(x1 ∨ x2 ∨ x3)` loses `x1` and becomes
binary; `ex_clause_long` loses `x1` and stays long; the learnt clause `(x2 ∨ x3 ∨ x4)` has no
assigned literal. -/
def ex_clauses : List Clause :=
  [ex_clause_sat, ⟨[⟨2⟩, ⟨4⟩, ⟨6⟩], false, false⟩, ex_clause_long,
   ⟨[⟨4⟩, ⟨6⟩, ⟨8⟩], true, false⟩]

/-- Example XOR clause over `x0`, `x2`, `x3`, `x4` with the parity bit clear. -/
def ex_xor : XorClause := ⟨[⟨0⟩, ⟨4⟩, ⟨6⟩, ⟨8⟩], false, false, 0⟩

/-- Example XOR clause over the assigned variables `x0` and `x1` with the parity bit set: it is
not satisfied. -/
def ex_xor_false : XorClause := ⟨[⟨0⟩, ⟨2⟩], true, false, 0⟩

end ClauseCleaner
end CMSat

namespace CMSat

/-! ## The command line front end (`Main.cpp`): result output and exit code -/

namespace Main

/-- How `Main::correctReturnValue` ends: by `exit(code)` or by returning `code`. -/
inductive Outcome where
  | exit (code : Int)
  | ret (code : Int)
deriving DecidableEq, Repr

/-- The exit code of the process for an outcome, when `main` hands the returned value on. -/
def Outcome.code : Outcome → Int
  | .exit c => c
  | .ret c => c

/-- Embeds `Main::correctReturnValue`; `NDEBUG` says whether the macro is defined.  The last `else`
writes a message and calls `exit(-1)`. -/
def correctReturnValue (NDEBUG : Bool) (ret : lbool) : Outcome :=
  let retval : Int :=
    if ret = l_True then 10
    else if ret = l_False then 20
    else if ret = l_Undef then 15
    else -1
  if ¬ (ret = l_True ∨ ret = l_False ∨ ret = l_Undef) then .exit (-1)
  else if NDEBUG then .exit retval
  else .ret retval

/-- The part of `MTSolver` that `printResultFunc` reads (MTSolver.h is not among the sources):
`nVars()` and the vector `model`. -/
structure MTSolver where
  nVars : Nat
  model : Nat → lbool

/-- What one call of `printResultFunc` writes: the text sent to standard output, the text sent
to the result file, and whether the file was closed. -/
structure Written where
  stdout : String
  file : String
  closed : Bool
deriving DecidableEq, Repr

/-- The decimal text of `var + 1` as `operator<<` writes the unsigned value. -/
def show_unsigned (n : Nat) : String := toString (n % 2 ^ 32)

/-- The decimal text of `var + 1` as `fprintf` with `%d` writes it: the 32 bits are read as a
signed number. -/
def show_signed (n : Nat) : String :=
  if n % 2 ^ 32 < 2 ^ 31 then toString (n % 2 ^ 32) else "-" ++ toString (2 ^ 32 - n % 2 ^ 32)

/-- The loop `for (Var var = 0; var != S.nVars(); var++) if (S.model[var] != l_Undef) ...` of
`printResultFunc`, appending to the text `acc`; `render` writes `var + 1`. -/
def print_model (render : Nat → String) (S : MTSolver) (acc : String) : String :=
  (List.range S.nVars).foldl
    (fun acc var =>
      if S.model var ≠ l_Undef then
        acc ++ (if S.model var = l_True then "" else "-") ++ render (var + 1) ++ " "
      else acc)
    acc

/-- Embeds `Main::printResultFunc`; `res` says whether a result file is open (`res != NULL`), and
`printResult` is the flag of `Main`. -/
def printResultFunc (printResult : Bool) (S : MTSolver) (ret : lbool) (res : Bool) : Written :=
  if res then
    if ret = l_True then
      { stdout := "c SAT" ++ "\n"
        file := if printResult then print_model show_signed S ("SAT\n") ++ "0\n" else "SAT\n"
        closed := true }
    else if ret = l_False then
      { stdout := "c UNSAT" ++ "\n", file := "UNSAT\n", closed := true }
    else
      { stdout := "c INCONCLUSIVE" ++ "\n", file := "INCONCLUSIVE\n", closed := true }
  else
    let status : String :=
      if ret = l_True then "s SATISFIABLE" ++ "\n"
      else if ret = l_False then "s UNSATISFIABLE" ++ "\n"
      else ""
    if ret = l_True ∧ printResult then
      { stdout := status ++ (print_model show_unsigned S "v " ++ "0" ++ "\n")
        file := "", closed := false }
    else { stdout := status, file := "", closed := false }

/-- The signed integers the claim puts on the `v` line: for each variable whose model value is
not undefined, in increasing order, whether it is negated (its value is not True) and the
1-based number. -/
def v_numbers (S : MTSolver) : List (Bool × Nat) :=
  ((List.range S.nVars).filter (fun var => decide (S.model var ≠ l_Undef))).map
    (fun var => (decide (S.model var ≠ l_True), var + 1))

/-- The text of one signed integer followed by a blank. -/
def show_number (render : Nat → String) (t : Bool × Nat) : String :=
  (if t.1 then "-" else "") ++ render t.2 ++ " "

/-- The texts of a list one after the other. -/
def concat_all (l : List String) : String := l.foldr (fun a b => a ++ b) ""

/-- Example: three variables with the model True, False, True. -/
def ex_model : MTSolver := { nVars := 3, model := fun v => if v = 1 then l_False else l_True }

/-- Example: two variables, the first True, the second without a value in the model. -/
def ex_partial : MTSolver := { nVars := 2, model := fun v => if v = 0 then l_True else l_Undef }

end Main

namespace Searcher

/-! ## Restarts, minimisation and glue updates: examples and the Luby sequence -/

/-- Example for the restart phases: a fresh solver whose restart type is `glue_geom`. -/
def ex_glue_geom : Searcher :=
  { fresh SolverConf.example with cur_rest_type := .glue_geom }

/-- Example for `minimize_using_bins`: the state `ex_glue` with the learnt clause
`(¬x2 ∨ ¬x1 ∨ ¬x0)` and, on the watch list of `x2`, which is `~L[0]`, a binary watch whose other
literal `x1` is True and has the variable of `L[1]`. -/
def ex_bins : Searcher :=
  { ex_glue with
    conf := { ex_glue.conf with doMinimRedMore := true }
    learnt_clause := [⟨5⟩, ⟨3⟩, ⟨1⟩]
    watches := fun l => if l = ⟨4⟩ then [.bin ⟨2⟩ false] else [] }

/-- Example for the glue update: the state `ex_glue` in which the clause `(x3 ∨ ¬x2 ∨ ¬x0)` at
offset 1 is redundant, in tier 2, with the stored glue 5 (its literals have the levels 3, 3
and 1). -/
def ex_red : Searcher :=
  { ex_glue with
    cl_alloc := upd ex_glue.cl_alloc 1
      ⟨[⟨6⟩, ⟨5⟩, ⟨1⟩], true, ⟨5, 2, 0, 0, false, false, false⟩⟩ }

/-- The Luby sequence as the claim describes it, looked up from the exponent `k` downwards:
term `i` is `2^(k-1)` when `i = 2^k - 1`, the term `i - 2^(k-1) + 1` when
`2^(k-1) <= i < 2^k - 1`, and is looked up with a smaller `k` when `i < 2^(k-1)`. -/
def luby_term_at : Nat → Nat → Nat
  | 0, _ => 1
  | k + 1, i =>
    if i + 1 = 2 ^ (k + 1) then 2 ^ k
    else if 2 ^ k ≤ i then luby_term_at k (i + 1 - 2 ^ k)
    else luby_term_at k i

/-- The `i`-th term of the Luby sequence 1, 1, 2, 1, 1, 2, 4, ... (`i` counts from 1). -/
def luby_term (i : Nat) : Nat := luby_term_at i i

/-- A variable is redundant for the minimisation, relative to the marks `seen0`: it has a
reason, and every other literal of that reason above level 0 is marked or has a redundant
variable itself. -/
inductive redundant (s : Searcher) (seen0 : Nat → Bool) : Nat → Prop where
  | intro (v : Nat) (lits : List Lit) :
      reason_other_lits s (s.varData v).reason = some lits →
      (∀ y ∈ lits, 0 < (s.varData y.var).level → seen0 y.var = false →
        redundant s seen0 y.var) →
      redundant s seen0 v

/-- The marks during one call of `litRedundant` that started with the marks `seenS` and with
`toClear = tc0`: the literals `new` have been appended to `toClear`, and the marked variables
are those of the start and those of `new`, which were not marked at the start. -/
structure lr_marks (seenS : Nat → Bool) (tc0 : List Lit) (s : Searcher) (new : List Lit) :
    Prop where
  toClear : s.toClear = tc0 ++ new
  seen : ∀ v, s.seen v = true ↔ (seenS v = true ∨ ∃ x ∈ new, x.var = v)
  unmarked : ∀ x ∈ new, seenS x.var = false

/-- The reason of the variable of `x` has been walked through by `litRedundant`: each of its
other literals is at level 0 or marked. -/
def lr_done (s : Searcher) (seen : Nat → Bool) (x : Lit) : Prop :=
  ∃ lits, reason_other_lits s (s.varData x.var).reason = some lits
    ∧ ∀ y ∈ lits, (s.varData y.var).level = 0 ∨ seen y.var = true

/-- Example for the minimisation: `x0` is a fact of level 0, `x1` the decision of level 1, `x2`
implied at level 1 by the clause `(x2 ∨ ¬x1 ∨ ¬x0)` at offset 0, `x3` the decision of level 2;
the learnt clause is `(¬x3 ∨ ¬x2 ∨ ¬x1)` and its literals behind the first are marked. -/
def ex_min : Searcher :=
  { fresh SolverConf.example with
    assigns := fun v => if v < 4 then l_True else l_Undef
    varData := fun v =>
      if v = 1 then ⟨1, .null_clause_t⟩
      else if v = 2 then ⟨1, .clause_t 0⟩
      else if v = 3 then ⟨2, .null_clause_t⟩
      else ⟨0, .null_clause_t⟩
    trail := [⟨⟨0⟩, 0⟩, ⟨⟨2⟩, 1⟩, ⟨⟨4⟩, 1⟩, ⟨⟨6⟩, 2⟩]
    trail_lim := [1, 3]
    cl_alloc := fun o => if o = 0 then ⟨[⟨4⟩, ⟨3⟩, ⟨1⟩], false, default⟩ else default
    cl_alloc_size := 1
    learnt_clause := [⟨7⟩, ⟨5⟩, ⟨3⟩]
    seen := fun v => v == 1 || v == 2 }

/-- The total assignment `x1 = x3 = true`, `x0 = x2 = false`. -/
def ex_min_model : Nat → Bool := fun v => v == 1 || v == 3

/-- The strategy names a set-up string may hold, `vsidsx_once` apart. -/
inductive BranchName where
  | vsidsx
  | vsids1
  | vsids2
  | maple1
  | maple2
  | rand
deriving DecidableEq, Repr

/-- The name as it is written in `branch_strategy_setup`. -/
def BranchName.text : BranchName → List Char
  | .vsidsx => "vsidsx".data
  | .vsids1 => "vsids1".data
  | .vsids2 => "vsids2".data
  | .maple1 => "maple1".data
  | .maple2 => "maple2".data
  | .rand => "rand".data

/-- The entry of `select` that `set_branch_strategy` pushes for a name. -/
def BranchName.entry : BranchName → branch_type_total
  | .vsidsx => ⟨.vsids, "VSIDSX"⟩
  | .vsids1 => ⟨.vsids, "VSIDS1"⟩
  | .vsids2 => ⟨.vsids, "VSIDS2"⟩
  | .maple1 => ⟨.maple, "MAPLE1"⟩
  | .maple2 => ⟨.maple, "MAPLE2"⟩
  | .rand => ⟨.rand, "RAND"⟩

/-- A set-up string: the names joined by `+`. -/
def branch_setup_text : List BranchName → List Char
  | [] => []
  | [n] => n.text
  | n :: m :: rest => n.text ++ '+' :: branch_setup_text (m :: rest)

/-- The names `set_branch_strategy` searches for. -/
def branch_patterns : List (List Char) :=
  ["vsidsx_once".data, "vsidsx".data, "vsids1".data, "vsids2".data, "maple1".data,
   "maple2".data, "rand".data]

/-- None of the names `set_branch_strategy` searches for starts at the front of `w`. -/
def no_name_starts (w : List Char) : Prop :=
  ∀ pat ∈ branch_patterns, pat.isPrefixOf w = false

/-- A position found by `find` that lies behind `p`, `npos` included. -/
def behind (p : Nat) (o : Option Nat) : Prop := ∀ q, o = some q → p < q

/-- Example for the rotation of strategies: the set-up string `vsids1+maple2+rand`. -/
def ex_rotate : Searcher :=
  { fresh { SolverConf.example with branch_strategy_setup := "vsids1+maple2+rand" } with
    cur_rest_type := .glue }

end Searcher

end CMSat

namespace CMSat

namespace Searcher

/-! ## Restart phases and the once-only strategy: reachable states and examples -/

/-- The states reached from a call of `setup_restart_strategy` by calls of
`adjust_restart_strategy` and by steps of any other code, none of which writes
`params.rest_type` (`SearchParams::clear` leaves it alone as well). -/
inductive restart_reachable : Searcher → Prop where
  | setup (s : Searcher) : restart_reachable (setup_restart_strategy s)
  | adjust (s s1 : Searcher) :
      restart_reachable s → adjust_restart_strategy s = some s1 → restart_reachable s1
  | other (s s1 : Searcher) :
      restart_reachable s → s1.params.rest_type = s.params.rest_type → restart_reachable s1

/-- Example for the restart phases: `ex_glue_geom` after `setup_restart_strategy`, with the
budget of the phase used up. -/
def ex_phase_over : Searcher :=
  { setup_restart_strategy ex_glue_geom with max_confl_this_restart := 0 }

/-- The long clause at `offs` is watched by the literal `l`: the watch list of `l` holds a long
watch with that offset. -/
def watched_by (s : Searcher) (offs : Nat) (l : Lit) : Prop :=
  ∃ b, Watched.long offs b ∈ s.watches l

/-- What `find_conflict_level` has done when it returns `nHighestLevel`, the constraint `confl1`
and the state `s1` on the constraint `confl` of the state `s`: `nHighestLevel` is the greatest
level among the literals of the constraint; the levels are untouched; the first literal of the
constraint (`failBinLit` for a binary one) now has that level; the literals are the same up to
their order.  For a long clause the literal of some index `h` was swapped to the front, and only
for `h > 1` the watch lists were changed: the old first literal `lits[0]` lost its watch of the
clause, the new one `lits[h]` got a watch with the blocker `lits[1]`; a clause that was watched
by its first two literals, if they are different, is so again. -/
structure highest_found (s : Searcher) (confl : PropBy) (nHighestLevel : Nat) (confl1 : PropBy)
    (s1 : Searcher) : Prop where
  bound : ∀ q ∈ confl_lits s confl, s.level q ≤ nHighestLevel
  attained : ∃ q ∈ confl_lits s confl, s.level q = nHighestLevel
  levels : s1.varData = s.varData
  head : s1.level ((confl_lits s1 confl1).headD lit_Undef) = nHighestLevel
  perm : (confl_lits s1 confl1).Perm (confl_lits s confl)
  binary : ∀ lit2 red, confl = PropBy.binary_t lit2 red →
    (confl_lits s1 confl1).headD lit_Undef = s1.failBinLit ∧ s1.watches = s.watches
      ∧ s1.cl_alloc = s.cl_alloc
  long : ∀ offs, confl = PropBy.clause_t offs →
    confl1 = confl ∧ ∃ h, h < (s.cl_alloc offs).lits.length
      ∧ (s1.cl_alloc offs).lits = swapAt (s.cl_alloc offs).lits 0 h
      ∧ (h ≤ 1 → s1.watches = s.watches)
      ∧ (1 < h →
          s1.watches ((s.cl_alloc offs).lits.getD 0 lit_Undef)
              = removeWCl (s.watches ((s.cl_alloc offs).lits.getD 0 lit_Undef)) offs
          ∧ s1.watches ((s.cl_alloc offs).lits.getD h lit_Undef)
              = s.watches ((s.cl_alloc offs).lits.getD h lit_Undef)
                  ++ [Watched.long offs ((s.cl_alloc offs).lits.getD 1 lit_Undef)]
          ∧ ∀ l, l ≠ (s.cl_alloc offs).lits.getD 0 lit_Undef →
              l ≠ (s.cl_alloc offs).lits.getD h lit_Undef → s1.watches l = s.watches l)
      ∧ ((s.cl_alloc offs).lits.getD 0 lit_Undef ≠ (s.cl_alloc offs).lits.getD 1 lit_Undef →
          watched_by s offs ((s.cl_alloc offs).lits.getD 0 lit_Undef) →
          watched_by s offs ((s.cl_alloc offs).lits.getD 1 lit_Undef) →
          watched_by s1 offs ((s1.cl_alloc offs).lits.getD 0 lit_Undef)
            ∧ watched_by s1 offs ((s1.cl_alloc offs).lits.getD 1 lit_Undef))

/-- Example for `find_conflict_level`: `x1` is the decision of level 1, `x2` follows from it by
the binary clause `(x2 ∨ ¬x1)`, `x3` is the decision of level 2, and
the clause `(¬x1 ∨ ¬x2 ∨ ¬x3)` at offset 0, watched by its first two literals, is conflicting;
its literal of the highest level stands at index 2. -/
def ex_confl : Searcher :=
  { fresh SolverConf.example with
    assigns := fun v => if 1 ≤ v ∧ v ≤ 3 then l_True else l_Undef
    varData := fun v =>
      if v = 3 then ⟨2, .null_clause_t⟩
      else if v = 2 then ⟨1, .binary_t ⟨3⟩ false⟩
      else ⟨1, .null_clause_t⟩
    trail := [⟨⟨2⟩, 1⟩, ⟨⟨4⟩, 1⟩, ⟨⟨6⟩, 2⟩]
    trail_lim := [0, 2]
    cl_alloc := fun o => if o = 0 then ⟨[⟨3⟩, ⟨5⟩, ⟨7⟩], false, default⟩ else default
    cl_alloc_size := 1
    watches := fun l =>
      if l = ⟨3⟩ then [.long 0 ⟨7⟩] else if l = ⟨5⟩ then [.long 0 ⟨7⟩] else []
    nVars := 4 }

/-- The state after `k` empty decision levels have been opened by `new_decision_level`. -/
def open_levels (s : Searcher) : Nat → Searcher
  | 0 => s
  | k + 1 => open_levels (new_decision_level s) k

/-- The pick of a branching variable changes the branching heaps and the state of the random
generator only. -/
def heaps_only (s s1 : Searcher) : Prop :=
  s1 = { s with order_heap_vsids := s1.order_heap_vsids
                order_heap_maple := s1.order_heap_maple
                order_heap_rand := s1.order_heap_rand
                mtrand := s1.mtrand }

/-- What `new_decision` has done when it returns `st` and the state `s1` on the state `s`, with
`k` the number of assumptions from index `decisionLevel()` on that it found True: each of them
opened an empty decision level; if the next assumption is False the result is `l_False` and the
state is that of `analyze_final_confl_with_assumptions`, with the trail and the levels as they
were after the `k` empty levels; if it is unassigned, it is enqueued as the decision of a new
level; in both cases the result is the same whatever `pickBranchLit` would do.  Only when the
assumptions are used up is `pickBranchLit` called: `lit_Undef` gives `l_True`, another literal
is enqueued as the decision of a new level.  On `l_Undef` the trail has grown by exactly one
literal, at the new highest level. -/
structure decision_made (c : Collab) (s : Searcher) (k : Nat) (st : lbool) (s1 : Searcher) :
    Prop where
  opened : ∀ i < k, s.decisionLevel + i < s.assumptions.length
    ∧ s.value (s.assumptions.getD (s.decisionLevel + i) lit_Undef) = l_True
  not_true : s.decisionLevel + k < s.assumptions.length →
    s.value (s.assumptions.getD (s.decisionLevel + k) lit_Undef) ≠ l_True
  failed : s.decisionLevel + k < s.assumptions.length →
    s.value (s.assumptions.getD (s.decisionLevel + k) lit_Undef) = l_False →
    st = l_False
      ∧ analyze_final_confl_with_assumptions (open_levels s k)
          (s.assumptions.getD (s.decisionLevel + k) lit_Undef).neg = some s1
      ∧ s1.trail = s.trail ∧ s1.trail_lim = (open_levels s k).trail_lim
      ∧ s1.assigns = s.assigns
  assumed : s.decisionLevel + k < s.assumptions.length →
    s.value (s.assumptions.getD (s.decisionLevel + k) lit_Undef) = l_Undef →
    st = l_Undef
      ∧ s1 = enqueue (new_decision_level (open_levels s k))
          (s.assumptions.getD (s.decisionLevel + k) lit_Undef) (s.decisionLevel + k + 1)
          PropBy.null_clause_t
  unasked : s.decisionLevel + k < s.assumptions.length →
    ∀ c1 : Collab, new_decision c1 s = some (st, s1)
  picked : s.assumptions.length ≤ s.decisionLevel + k →
    ∃ next s2, pickBranchLit c (open_levels s k) = some (next, s2)
      ∧ heaps_only (open_levels s k) s2
      ∧ (next = lit_Undef → st = l_True ∧ s1 = s2)
      ∧ (next ≠ lit_Undef → st = l_Undef
          ∧ s1 = enqueue (new_decision_level s2) next (s.decisionLevel + k + 1)
              PropBy.null_clause_t)
  sat : st = l_True → s.assumptions.length ≤ s.decisionLevel + k
    ∧ pickBranchLit c (open_levels s k) = some (lit_Undef, s1)
  enqueued : st = l_Undef → ∃ p, s1.trail = s.trail ++ [⟨p, s.decisionLevel + k + 1⟩]
    ∧ s1.trail_lim = s.trail_lim ++ List.replicate (k + 1) s.trail.length
    ∧ s1.decisionLevel = s.decisionLevel + k + 1
    ∧ (s1.varData p.var).level = s.decisionLevel + k + 1
    ∧ s1.assigns = upd s.assigns p.var (if p.sign then l_False else l_True)

/-- The marks `sn` during `binary_based_morem_minim` on the clause `cl`, with the watch lists
`W` and the marks `seen1` at its start: marks are only cleared; a literal of `cl` whose mark is
cleared is the negation of the other literal of a binary watch of a literal of `cl`; and when
the binary watches of the literals of `cl` are proper binary clauses (the other literal is not
the negation of the watching one), a model of these clauses that satisfies a literal of `cl`
satisfies one that is still marked. -/
structure morem_inv (W : Lit → List Watched) (cl : List Lit) (seen1 sn : Nat → Bool) :
    Prop where
  only_cleared : ∀ i, sn i = true → seen1 i = true
  justified : ∀ r ∈ cl, sn r.toInt = false →
    ∃ l ∈ cl, ∃ lit2 red, Watched.bin lit2 red ∈ W l ∧ r = lit2.neg
  entailed : ∀ M : Nat → Bool,
    (∀ l ∈ cl, ∀ lit2 red, Watched.bin lit2 red ∈ W l →
      lit2 ≠ l.neg ∧ clause_sat M [l, lit2]) →
    (∃ x ∈ cl, lit_true M x = true) → ∃ y ∈ cl, sn y.toInt = true ∧ lit_true M y = true

/-- Example for `minimise_redundant_more_more`: the learnt clause `(¬x3 ∨ ¬x2 ∨ ¬x1)` and, on the
watch list of its first literal `¬x3`, the binary clause `(¬x3 ∨ x2)`. -/
def ex_more : Searcher :=
  { fresh { SolverConf.example with doMinimRedMoreMore := 3 } with
    learnt_clause := [⟨7⟩, ⟨5⟩, ⟨3⟩]
    watches := fun l => if l = ⟨7⟩ then [.bin ⟨4⟩ false] else [] }

/-- Example for the order of the assumptions: `x0` is a fact of level 0 and the assumptions are
`x0`, `x1`; no decision has been made. -/
def ex_assume_order : Searcher :=
  { fresh SolverConf.example with
    assigns := fun v => if v = 0 then l_True else l_Undef
    trail := [⟨⟨0⟩, 0⟩]
    assumptions := [⟨0⟩, ⟨2⟩]
    nVars := 2 }

/-- Example for the rounds of `litRedundant`: the state `ex_min` with its four variables
declared. -/
def ex_min_vars : Searcher := { ex_min with nVars := 4 }

/-- Example for the once-only strategy: the set-up string names `vsidsx_once` and nothing
else. -/
def ex_once : Searcher :=
  fresh { SolverConf.example with branch_strategy_setup := "vsidsx_once" }

/-- Every level that a literal of the trail carries starts with a literal of that level: the
entry of the trail at `trail_lim[lev - 1]` has the level `lev`.  A decision is enqueued at the
start of its level, propagation and the enqueue of a learnt clause give a literal the level of
literals already on the trail, and `cancelUntil(b)` removes the literals above `b` without moving
an entry below `trail_lim[b]`. -/
def levels_rooted (s : Searcher) : Prop :=
  ∀ t ∈ s.trail, 0 < t.lev →
    (s.trail[s.trail_lim.getD (t.lev - 1) 0]?).map (fun e => e.lev) = some t.lev

instance (s : Searcher) : Decidable (levels_rooted s) := by
  unfold levels_rooted; infer_instance

/-- Example for the decision-based clause: the conflict of `ex_confl` with the decision-based
clauses switched on for learnt clauses of any size. -/
def ex_decision : Searcher :=
  { ex_confl with
    conf := { ex_confl.conf with do_decision_based_cl := true
                                 decision_based_cl_min_learned_size := 0 } }

/-- Example of a trail whose second level does not start with a literal of its own: the state
`ex_decision` with `trail_lim[1]` pointing at `x2`, a literal of level 1, and the binary conflict
`(¬x3 ∨ ¬x2)`.  A decision is enqueued at the start of its level, so `new_decision` does not
build such a trail. -/
def ex_unrooted : Searcher :=
  { ex_decision with
    trail_lim := [0, 1]
    failBinLit := ⟨7⟩ }

/-- Every fact of `s`, that is every trail entry of level 0, is still on the trail of `s1`. -/
def facts_kept (s s1 : Searcher) : Prop := ∀ e ∈ s.trail, e.lev = 0 → e ∈ s1.trail

/-! ## A propagator for binary clauses and a state at the entry of `solve` -/

/-- Modelled from the spec: the visit of the watch list of `¬p` by the propagator (§4.5; the
propagation engine is not among the sources) for the binary clauses (§3: stored inline as the
other literal and the redundant flag).  An unassigned other literal is enqueued at the level
`lev` of `p` with the reason `(¬p, red)`; one that is False is a conflict, reported as the
constraint `(¬p, red)` with the literal in `failBinLit`, and the propagation is over
(`qhead = trail.size()`). -/
def propagate_bin_ws (p : Lit) (lev : Nat) : List Watched → Searcher → PropBy × Searcher
  | [], s => (.null_clause_t, s)
  | .bin lit2 red :: ws, s =>
    if s.value lit2 = l_Undef then
      propagate_bin_ws p lev ws (enqueue s lit2 lev (.binary_t p.neg red))
    else if s.value lit2 = l_False then
      (.binary_t p.neg red, { s with failBinLit := lit2, qhead := s.trail.length })
    else propagate_bin_ws p lev ws s
  | _ :: ws, s => propagate_bin_ws p lev ws s

/-- Modelled from the spec: unit propagation over the binary clauses (§4.5): the trail entries
from `qhead` on are visited in their order, each with the watch list of its negation, until a
conflict is met or the trail is used up; `fuel` bounds the number of entries visited. -/
def propagate_bin : Nat → Searcher → PropBy × Searcher
  | 0, s => (.null_clause_t, s)
  | fuel + 1, s =>
    match s.trail[s.qhead]? with
    | none => (.null_clause_t, s)
    | some e =>
      let r := propagate_bin_ws e.lit e.lev (s.watches e.lit.neg) { s with qhead := s.qhead + 1 }
      if r.1.isNULL then propagate_bin fuel r.2 else r

/-- Collaborators with unit propagation over the binary clauses (a trail holds every variable at
most once, so `nVars + 1` rounds visit all of it); the others do nothing and the polarity is
always positive. -/
def Collab.binary : Collab :=
  { Collab.idle with
    propagate_any_order_fast := fun s => propagate_bin (s.nVars + 1) s
    propagate_any_order := fun s => propagate_bin (s.nVars + 1) s }

/-- Example of a state at the entry of `solve`: the formula `(¬x0 ∨ x1) ∧ (¬x0 ∨ ¬x1)` over `x0`,
`x1` as binary clauses on the watch lists, nothing assigned, an empty trail with `qhead = 0`,
`ok` set, both variables in the heaps, and a restart after every conflict
(`restart_first = 0`). -/
def ex_entry : Searcher :=
  { fresh { SolverConf.example with restart_first := 0 } with
    nVars := 2
    watches := fun l =>
      if l = ⟨1⟩ then [.bin ⟨2⟩ false, .bin ⟨3⟩ false]
      else if l = ⟨2⟩ then [.bin ⟨1⟩ false]
      else if l = ⟨3⟩ then [.bin ⟨1⟩ false]
      else []
    order_heap_vsids := [0, 1]
    order_heap_maple := [0, 1]
    order_heap_rand := [0, 1] }

end Searcher

end CMSat

namespace CMSat

/-! ## Basic facts on literals and vector updates -/

theorem Lit.neg_neg (l : Lit) : l.neg.neg = l := by
  cases l with
  | mk x =>
    simp only [Lit.neg, Lit.mk.injEq]
    split <;> split <;> omega

theorem Lit.var_neg (l : Lit) : l.neg.var = l.var := by
  simp only [Lit.neg, Lit.var]
  split <;> omega

theorem Lit.neg_ne (l : Lit) : l.neg ≠ l := by
  cases l with
  | mk x =>
    simp only [Lit.neg, ne_eq, Lit.mk.injEq]
    split <;> omega

theorem Lit.sign_neg (l : Lit) : l.neg.sign = !l.sign := by
  simp only [Lit.neg, Lit.sign]
  split
  · rename_i h
    have h1 : (l.x + 1) % 2 = 1 := by omega
    simp [h, h1]
  · rename_i h
    have h0 : l.x % 2 = 1 := by omega
    have h1 : (l.x - 1) % 2 = 0 := by omega
    simp [h0, h1]

theorem Lit.neg_inj {a b : Lit} (h : a.neg = b.neg) : a = b := by
  have := congrArg Lit.neg h
  simpa [Lit.neg_neg] using this

theorem Lit.eq_of_var_sign {a b : Lit} (hv : a.var = b.var) (hs : a.sign = b.sign) : a = b := by
  cases a with
  | mk x =>
    cases b with
    | mk y =>
      simp only [Lit.var, Lit.sign] at hv hs
      simp only [Lit.mk.injEq]
      by_cases hx : x % 2 = 1
      · have : y % 2 = 1 := by simpa [hx] using hs
        omega
      · have hy : ¬ y % 2 = 1 := by
          intro hy
          simp [hx, hy] at hs
        omega

theorem Lit.eq_or_eq_neg_of_var {a b : Lit} (hv : a.var = b.var) : a = b ∨ a = b.neg := by
  by_cases hs : a.sign = b.sign
  · exact Or.inl (Lit.eq_of_var_sign hv hs)
  · right
    apply Lit.eq_of_var_sign
    · rw [Lit.var_neg]; exact hv
    · rw [Lit.sign_neg]
      cases h1 : a.sign <;> cases h2 : b.sign <;> simp_all

namespace Searcher

theorem lit_true_neg (M : Nat → Bool) (l : Lit) : lit_true M l.neg = !lit_true M l := by
  simp only [lit_true, Lit.var_neg, Lit.sign_neg]
  cases M l.var <;> cases l.sign <;> rfl

theorem upd_same {β : Type} (f : Nat → β) (i : Nat) (x : β) : upd f i x i = x := by
  simp [upd]

theorem upd_other {β : Type} (f : Nat → β) (i j : Nat) (x : β) (h : j ≠ i) :
    upd f i x j = f j := by
  simp [upd, h]

theorem value_neg_of_true (s : Searcher) (l : Lit) (h : s.value l = l_True) :
    s.value l.neg = l_False := by
  simp only [value, Lit.var_neg, Lit.sign_neg] at *
  cases h1 : s.assigns l.var <;> cases h2 : l.sign <;> simp_all [lbool.xor]

end Searcher
end CMSat

namespace CMSat
namespace Searcher

/-! ## `find_backtrack_level_of_learnt` -/

theorem cons_set_perm (b : Lit) : ∀ (L : List Lit) (k : Nat), k < L.length →
    (L.getD k lit_Undef :: L.set k b).Perm (b :: L)
  | [], _, h => absurd h (by simp)
  | a :: L, 0, _ => by
    simp only [List.getD_cons_zero, List.set_cons_zero]
    exact List.Perm.swap b a L
  | a :: L, k + 1, h => by
    simp only [List.getD_cons_succ, List.set_cons_succ]
    have ih := cons_set_perm b L k (by simpa using h)
    exact ((List.Perm.swap a _ _).trans (ih.cons a)).trans (List.Perm.swap b a L)

theorem swapAt_perm : ∀ (L : List Lit) (i j : Nat), i < L.length → j < L.length →
    (swapAt L i j).Perm L
  | [], _, _, h, _ => absurd h (by simp)
  | a :: L, 0, 0, _, _ => by simp [swapAt]
  | a :: L, 0, j + 1, _, hj => by
    simp only [swapAt, List.getD_cons_succ, List.set_cons_zero, List.set_cons_succ,
      List.getD_cons_zero]
    exact cons_set_perm a L j (by simpa using hj)
  | a :: L, i + 1, 0, hi, _ => by
    simp only [swapAt, List.getD_cons_succ, List.set_cons_zero, List.set_cons_succ,
      List.getD_cons_zero]
    exact cons_set_perm a L i (by simpa using hi)
  | a :: L, i + 1, j + 1, hi, hj => by
    simp only [swapAt, List.getD_cons_succ, List.set_cons_succ]
    exact (swapAt_perm L i j (by simpa using hi) (by simpa using hj)).cons a

theorem swapAt_length (L : List Lit) (i j : Nat) : (swapAt L i j).length = L.length := by
  simp [swapAt]

theorem swapAt_getD_right (L : List Lit) (i j : Nat) (hj : j < L.length) :
    (swapAt L i j).getD j lit_Undef = L.getD i lit_Undef := by
  simp [swapAt, List.getD_eq_getElem?_getD, List.getElem?_set, hj]

theorem swapAt_getD_other (L : List Lit) (i j k : Nat) (hi : k ≠ i) (hj : k ≠ j) :
    (swapAt L i j).getD k lit_Undef = L.getD k lit_Undef := by
  simp [swapAt, List.getD_eq_getElem?_getD, List.getElem?_set, Ne.symm hi, Ne.symm hj]

theorem find_backtrack_max_i_spec (s : Searcher) : ∀ (is : List Nat) (m0 : Nat),
    (find_backtrack_max_i s is m0 = m0 ∨ find_backtrack_max_i s is m0 ∈ is)
    ∧ s.level (s.learnt_clause.getD m0 lit_Undef)
        ≤ s.level (s.learnt_clause.getD (find_backtrack_max_i s is m0) lit_Undef)
    ∧ ∀ i ∈ is, s.level (s.learnt_clause.getD i lit_Undef)
        ≤ s.level (s.learnt_clause.getD (find_backtrack_max_i s is m0) lit_Undef)
  | [], m0 => by simp [find_backtrack_max_i]
  | i :: is, m0 => by
    unfold find_backtrack_max_i
    split
    · rename_i h
      obtain ⟨h1, h2, h3⟩ := find_backtrack_max_i_spec s is i
      refine ⟨?_, ?_, ?_⟩
      · rcases h1 with h1 | h1
        · right; rw [h1]; simp
        · right; simp [h1]
      · omega
      · intro k hk
        rcases List.mem_cons.1 hk with rfl | hk
        · exact h2
        · exact h3 k hk
    · rename_i h
      obtain ⟨h1, h2, h3⟩ := find_backtrack_max_i_spec s is m0
      refine ⟨?_, h2, ?_⟩
      · rcases h1 with h1 | h1
        · left; exact h1
        · right; simp [h1]
      · intro k hk
        rcases List.mem_cons.1 hk with rfl | hk
        · omega
        · exact h3 k hk

theorem mem_tail_iff_getD (L : List Lit) (l : Lit) :
    l ∈ L.tail ↔ ∃ i, 1 ≤ i ∧ i < L.length ∧ L.getD i lit_Undef = l := by
  cases L with
  | nil => simp
  | cons a L =>
    simp only [List.tail_cons, List.length_cons]
    constructor
    · intro h
      obtain ⟨n, hn, rfl⟩ := List.getElem_of_mem h
      exact ⟨n + 1, by omega, by omega, by simp [List.getD_eq_getElem?_getD, hn]⟩
    · rintro ⟨i, h1, h2, rfl⟩
      obtain ⟨k, rfl⟩ : ∃ k, i = k + 1 := ⟨i - 1, by omega⟩
      have hk : k < L.length := by omega
      simp [List.getD_eq_getElem?_getD, hk]

/-- The content of `find_backtrack_level_of_learnt`, stated once for all uses. -/
theorem find_backtrack_level_of_learnt_facts (s : Searcher) (h : 1 < s.learnt_clause.length) :
    (∀ l ∈ s.learnt_clause.tail, s.level l ≤ (find_backtrack_level_of_learnt s).1)
    ∧ (∃ l ∈ s.learnt_clause.tail, s.level l = (find_backtrack_level_of_learnt s).1)
    ∧ (find_backtrack_level_of_learnt s).2.level
        ((find_backtrack_level_of_learnt s).2.learnt_clause.getD 1 lit_Undef)
        = (find_backtrack_level_of_learnt s).1
    ∧ (find_backtrack_level_of_learnt s).2.learnt_clause.head? = s.learnt_clause.head?
    ∧ (find_backtrack_level_of_learnt s).2.learnt_clause.Perm s.learnt_clause
    ∧ (find_backtrack_level_of_learnt s).2
        = { s with learnt_clause := (find_backtrack_level_of_learnt s).2.learnt_clause } := by
  have hn : ¬ s.learnt_clause.length ≤ 1 := by omega
  obtain ⟨h1, h2, h3⟩ :=
    find_backtrack_max_i_spec s (List.range' 2 (s.learnt_clause.length - 2)) 1
  set m := find_backtrack_max_i s (List.range' 2 (s.learnt_clause.length - 2)) 1 with hm
  have hm1 : 1 ≤ m ∧ m < s.learnt_clause.length := by
    rcases h1 with h1 | h1
    · omega
    · have := List.mem_range'_1.1 h1
      omega
  have hres : find_backtrack_level_of_learnt s
      = ((s.varData ((swapAt s.learnt_clause m 1).getD 1 lit_Undef).var).level,
          { s with learnt_clause := swapAt s.learnt_clause m 1 }) := by
    simp only [find_backtrack_level_of_learnt, hn, if_false, hm]
  have hL1 : (swapAt s.learnt_clause m 1).getD 1 lit_Undef = s.learnt_clause.getD m lit_Undef :=
    swapAt_getD_right _ _ _ h
  rw [hres]
  simp only [hL1]
  refine ⟨?_, ?_, ?_, ?_, ?_, trivial⟩
  · intro l hl
    obtain ⟨i, hi1, hi2, rfl⟩ := (mem_tail_iff_getD _ _).1 hl
    by_cases hi : i = 1
    · subst hi; exact h2
    · exact h3 i (List.mem_range'_1.2 (by omega))
  · exact ⟨_, (mem_tail_iff_getD _ _).2 ⟨m, hm1.1, hm1.2, rfl⟩, rfl⟩
  · simp only [level, hL1]
  · have h0 : (swapAt s.learnt_clause m 1).getD 0 lit_Undef = s.learnt_clause.getD 0 lit_Undef :=
      swapAt_getD_other _ _ _ _ (by omega) (by omega)
    have hlen := swapAt_length s.learnt_clause m 1
    cases hA : s.learnt_clause with
    | nil => simp [hA] at h
    | cons a L =>
      rw [hA] at h0 hlen
      cases hB : swapAt (a :: L) m 1 with
      | nil => simp [hB] at hlen
      | cons b L2 =>
        rw [hB] at h0
        simp at h0
        simp [h0]
  · exact swapAt_perm _ _ _ hm1.2 h

end Searcher
end CMSat

namespace CMSat
namespace Searcher

/-! ## Projections of `trail_ok` and of the frame -/

theorem trail_ok.nodup {s : Searcher} (h : trail_ok s) :
    (s.trail.map (fun t => t.lit.var)).Nodup := h.1

theorem trail_ok.entry {s : Searcher} (h : trail_ok s) {t : Trail} (ht : t ∈ s.trail) :
    (s.varData t.lit.var).level = t.lev ∧ s.value t.lit = l_True
      ∧ t.lit.var < var_Undef ∧ t.lev ≤ s.decisionLevel := h.2.1 t ht

theorem trail_ok.level_eq {s : Searcher} (h : trail_ok s) {t : Trail} (ht : t ∈ s.trail) :
    s.level t.lit = t.lev := (h.entry ht).1

theorem trail_ok.reason {s : Searcher} (h : trail_ok s) {i : Nat} (hi : i < s.trail.length) :
    reason_ok s i (s.trail.getD i ⟨lit_Undef, 0⟩) := h.2.2.1 i hi

theorem trail_ok.lim {s : Searcher} (h : trail_ok s) {b : Nat} (hb : b < s.trail_lim.length) :
    s.trail_lim.getD b 0 ≤ s.trail.length
      ∧ ∀ u ∈ s.trail.take (s.trail_lim.getD b 0), u.lev ≤ b := h.2.2.2 b hb

theorem trail_ok.same_var {s : Searcher} (h : trail_ok s) {t u : Trail} (ht : t ∈ s.trail)
    (hu : u ∈ s.trail) (hv : t.lit.var = u.lit.var) : t = u :=
  List.inj_on_of_nodup_map h.nodup ht hu hv

theorem trail_ok.lit_ne_undef {s : Searcher} (h : trail_ok s) {t : Trail} (ht : t ∈ s.trail) :
    t.lit ≠ lit_Undef := by
  intro hc
  have := (h.entry ht).2.2.1
  rw [hc] at this
  simp [lit_Undef, Lit.mkLit, Lit.var, var_Undef] at this

/-- The level of a literal that is False on the trail is the level of its entry. -/
theorem trail_ok.level_of_false {s : Searcher} (h : trail_ok s) {t : Trail} (ht : t ∈ s.trail)
    {q : Lit} (hq : t.lit = q.neg) : s.level q = t.lev := by
  have := h.level_eq ht
  simp only [level] at *
  rw [hq, Lit.var_neg] at this
  exact this

/-- Two literals over one variable that are both False on the trail are equal. -/
theorem trail_ok.false_unique {s : Searcher} (h : trail_ok s) {t u : Trail} (ht : t ∈ s.trail)
    (hu : u ∈ s.trail) {q r : Lit} (hq : t.lit = q.neg) (hr : u.lit = r.neg)
    (hv : q.var = r.var) : q = r ∧ t = u := by
  have htu : t = u := h.same_var ht hu (by rw [hq, hr, Lit.var_neg, Lit.var_neg, hv])
  subst htu
  exact ⟨Lit.neg_inj (hq.symm.trans hr), rfl⟩

theorem analysis_frame.frame_refl (s : Searcher) : analysis_frame s s := ⟨rfl, fun _ => rfl⟩

theorem analysis_frame.frame_trans {a b c : Searcher} (h1 : analysis_frame a b)
    (h2 : analysis_frame b c) : analysis_frame a c := by
  refine ⟨?_, fun o => (h2.2 o).trans (h1.2 o)⟩
  have e1 := h1.1
  have e2 := h2.1
  rw [e2]
  conv => lhs; rw [e1]

theorem analysis_frame.trail {a b : Searcher} (h : analysis_frame a b) : b.trail = a.trail := by
  have := congrArg Searcher.trail h.1; exact this

theorem analysis_frame.varData {a b : Searcher} (h : analysis_frame a b) :
    b.varData = a.varData := by
  have := congrArg Searcher.varData h.1; exact this

theorem analysis_frame.failBinLit {a b : Searcher} (h : analysis_frame a b) :
    b.failBinLit = a.failBinLit := by
  have := congrArg Searcher.failBinLit h.1; exact this

theorem analysis_frame.assigns {a b : Searcher} (h : analysis_frame a b) :
    b.assigns = a.assigns := by
  have := congrArg Searcher.assigns h.1; exact this

theorem analysis_frame.trail_lim {a b : Searcher} (h : analysis_frame a b) :
    b.trail_lim = a.trail_lim := by
  have := congrArg Searcher.trail_lim h.1; exact this

theorem analysis_frame.conf {a b : Searcher} (h : analysis_frame a b) : b.conf = a.conf := by
  have := congrArg Searcher.conf h.1; exact this

theorem analysis_frame.watches {a b : Searcher} (h : analysis_frame a b) :
    b.watches = a.watches := by
  have := congrArg Searcher.watches h.1; exact this

theorem analysis_frame.branch_strategy {a b : Searcher} (h : analysis_frame a b) :
    b.branch_strategy = a.branch_strategy := by
  have := congrArg Searcher.branch_strategy h.1; exact this

theorem analysis_frame.level {a b : Searcher} (h : analysis_frame a b) (l : Lit) :
    b.level l = a.level l := by
  simp only [Searcher.level, h.varData]

theorem analysis_frame.value {a b : Searcher} (h : analysis_frame a b) (l : Lit) :
    b.value l = a.value l := by
  simp only [Searcher.value, h.assigns]

end Searcher
end CMSat

namespace CMSat
namespace Searcher

/-! ## `add_lit_to_learnt` keeps the loop invariant -/

theorem countP_pend_upd_true (nDL v : Nat) (seen : Nat → Bool) (hs : seen v = false) :
    ∀ (T : List Trail), (T.map (fun t => t.lit.var)).Nodup →
      ∀ t0 ∈ T, t0.lit.var = v → nDL ≤ t0.lev →
      T.countP (pend (upd seen v true) nDL) = T.countP (pend seen nDL) + 1
  | [], _, t0, h0, _, _ => absurd h0 (by simp)
  | a :: T, hnd, t0, h0, hv, hl => by
    simp only [List.map_cons, List.nodup_cons, List.mem_map, not_exists, not_and] at hnd
    rcases List.mem_cons.1 h0 with rfl | h0
    · have hT : T.countP (pend (upd seen v true) nDL) = T.countP (pend seen nDL) := by
        apply List.countP_congr
        intro t ht
        have hne : t.lit.var ≠ v := by
          intro hc
          exact hnd.1 t ht (by rw [hc, hv])
        simp [pend, upd, hne]
      have h1 : pend (upd seen v true) nDL t0 = true := by simp [pend, upd, hv, hl]
      have h2 : pend seen nDL t0 = false := by simp [pend, hv, hs]
      rw [List.countP_cons_of_pos _ _ h1, List.countP_cons_of_neg _ _ (by simp [h2]), hT]
    · have hne : a.lit.var ≠ v := by
        intro hc
        exact hnd.1 t0 h0 (by rw [hc, hv])
      have ha : pend (upd seen v true) nDL a = pend seen nDL a := by simp [pend, upd, hne]
      have ih := countP_pend_upd_true nDL v seen hs T hnd.2 t0 h0 hv hl
      simp only [List.countP_cons, ha, ih]
      omega

theorem take_nodup {s : Searcher} (h : trail_ok s) (k : Nat) :
    ((s.trail.take k).map (fun t => t.lit.var)).Nodup :=
  h.nodup.sublist ((List.take_sublist k s.trail).map _)

theorem grows.grows_refl (s : Searcher) : grows s s := ⟨fun _ h => h, fun _ h => h, le_refl _⟩

theorem grows.grows_trans {a b c : Searcher} (h1 : grows a b) (h2 : grows b c) : grows a c :=
  ⟨fun v h => h2.1 v (h1.1 v h), fun q h => h2.2.1 q (h1.2.1 q h), le_trans h1.2.2 h2.2.2⟩

theorem add_lit_to_learnt_inv {s0 s : Searcher} {nDL k : Nat} (h0 : trail_ok s0)
    (hinv : cl_inv s0 nDL s k) {x : Lit} (hx : ∃ t ∈ s0.trail.take k, t.lit = x.neg)
    (hlev : s0.level x ≤ nDL) :
    cl_inv s0 nDL (add_lit_to_learnt s x nDL) k
      ∧ grows s (add_lit_to_learnt s x nDL)
      ∧ (s0.level x = 0 ∨ (add_lit_to_learnt s x nDL).seen x.var = true)
      ∧ (nDL ≤ s0.level x → 0 < s0.level x → 0 < (add_lit_to_learnt s x nDL).pathC) := by
  obtain ⟨t, htk, htx⟩ := hx
  have ht : t ∈ s0.trail := List.mem_of_mem_take htk
  have htv : t.lit.var = x.var := by rw [htx, Lit.var_neg]
  have htl : t.lev = s0.level x := (h0.level_of_false ht htx).symm
  have hvd : s.varData = s0.varData := hinv.frame.varData
  have hlx : (s.varData x.var).level = s0.level x := by simp [Searcher.level, hvd]
  unfold add_lit_to_learnt
  by_cases hc : (s.seen x.var || (s.varData x.var).level == 0) = true
  · rw [if_pos hc]
    refine ⟨hinv, grows.grows_refl s, ?_, ?_⟩
    · simp only [Bool.or_eq_true, beq_iff_eq] at hc
      rcases hc with hc | hc
      · exact Or.inr hc
      · exact Or.inl (by rw [← hlx]; exact hc)
    · intro h1 h2
      simp only [Bool.or_eq_true, beq_iff_eq] at hc
      rcases hc with hc | hc
      · rw [hinv.pathC_eq]
        apply List.countP_pos_iff.2
        exact ⟨t, htk, by simp [pend, htv, hc, htl, h1]⟩
      · omega
  · rw [if_neg hc]
    simp only [Bool.or_eq_true, beq_iff_eq, not_or] at hc
    obtain ⟨hns, hl0⟩ := hc
    have hns : s.seen x.var = false := by simpa using hns
    have hpos : 0 < s0.level x := by
      rw [← hlx]; omega
    by_cases hge : (s.varData x.var).level ≥ nDL
    · simp only [hge, if_true]
      have hge' : nDL ≤ t.lev := by rw [htl, ← hlx]; exact hge
      refine ⟨⟨?_, hinv.learnt, ?_, ?_, ?_, ?_⟩, ⟨?_, fun q h => h, ?_⟩, ?_, ?_⟩
      · exact ⟨by
          have e := hinv.frame.1
          conv => lhs; rw [e], hinv.frame.2⟩
      · intro q hq
        obtain ⟨a, b, c, d⟩ := hinv.added q hq
        refine ⟨?_, b, c, d⟩
        simp only [upd]
        split
        · rfl
        · exact a
      · intro v hv
        simp only [upd] at hv
        by_cases hvx : v = x.var
        · right
          exact ⟨t, htk, by rw [htv, hvx], hge'⟩
        · rw [if_neg hvx] at hv
          exact hinv.seen_ok v hv
      · show s.pathC + 1 = _
        rw [hinv.pathC_eq]
        exact (countP_pend_upd_true nDL x.var s.seen hns _ (take_nodup h0 k) t htk htv hge').symm
      · intro u hu hsu
        simp only [upd] at hsu
        by_cases hux : u.lit.var = x.var
        · have : u = t := h0.same_var (List.mem_of_mem_take hu) ht (by rw [hux, htv])
          rw [this, htl]; exact hlev
        · rw [if_neg hux] at hsu
          exact hinv.lev_le u hu hsu
      · intro v hv
        simp only [upd]
        split
        · rfl
        · exact hv
      · show s.pathC ≤ s.pathC + 1
        omega
      · right
        simp [upd]
      · intro _ _
        show 0 < s.pathC + 1
        omega
    · simp only [hge, if_false]
      have hlt : s0.level x < nDL := by rw [← hlx]; omega
      obtain ⟨l0, L, hL⟩ : ∃ l0 L, s.learnt_clause = l0 :: L := by
        cases hA : s.learnt_clause with
        | nil => have := hinv.learnt; simp [hA] at this
        | cons a L => exact ⟨a, L, rfl⟩
      have htail : (s.learnt_clause ++ [x]).tail = s.learnt_clause.tail ++ [x] := by
        rw [hL]; rfl
      refine ⟨⟨?_, ?_, ?_, ?_, ?_, ?_⟩, ⟨?_, ?_, le_refl _⟩, ?_, ?_⟩
      · exact ⟨by
          have e := hinv.frame.1
          conv => lhs; rw [e], hinv.frame.2⟩
      · show (s.learnt_clause ++ [x]).head? = _
        have := hinv.learnt
        rw [hL] at this ⊢
        simpa using this
      · intro q hq
        change q ∈ (s.learnt_clause ++ [x]).tail at hq
        rw [htail] at hq
        show upd s.seen x.var true q.var = true ∧ _
        rcases List.mem_append.1 hq with hq | hq
        · obtain ⟨a, b, c, d⟩ := hinv.added q hq
          refine ⟨?_, b, c, d⟩
          simp only [upd]
          split
          · rfl
          · exact a
        · have : q = x := by simpa using hq
          subst this
          exact ⟨by simp [upd], hpos, hlt, t, ht, htx⟩
      · intro v hv
        change upd s.seen x.var true v = true at hv
        show (∃ q ∈ (s.learnt_clause ++ [x]).tail, _) ∨ _
        rw [htail]
        simp only [upd] at hv
        by_cases hvx : v = x.var
        · left
          exact ⟨x, by simp, hvx.symm⟩
        · rw [if_neg hvx] at hv
          rcases hinv.seen_ok v hv with ⟨q, hq, hqv⟩ | h
          · exact Or.inl ⟨q, List.mem_append_left _ hq, hqv⟩
          · exact Or.inr h
      · show s.pathC = _
        rw [hinv.pathC_eq]
        apply List.countP_congr
        intro u hu
        show pend s.seen nDL u = true ↔ pend (upd s.seen x.var true) nDL u = true
        by_cases hux : u.lit.var = x.var
        · have : u = t := h0.same_var (List.mem_of_mem_take hu) ht (by rw [hux, htv])
          have hul : ¬ nDL ≤ u.lev := by rw [this, htl]; omega
          simp [pend, hul]
        · simp [pend, upd, hux]
      · intro u hu hsu
        change upd s.seen x.var true u.lit.var = true at hsu
        simp only [upd] at hsu
        by_cases hux : u.lit.var = x.var
        · have : u = t := h0.same_var (List.mem_of_mem_take hu) ht (by rw [hux, htv])
          rw [this, htl]; exact hlev
        · rw [if_neg hux] at hsu
          exact hinv.lev_le u hu hsu
      · intro v hv
        show upd s.seen x.var true v = true
        simp only [upd]
        split
        · rfl
        · exact hv
      · intro q hq
        show q ∈ (s.learnt_clause ++ [x]).tail
        rw [htail]
        exact List.mem_append_left _ hq
      · right
        show upd s.seen x.var true x.var = true
        simp [upd]
      · intro h1 _
        omega

end Searcher
end CMSat

namespace CMSat
namespace Searcher

/-! ## Adding the literals of one antecedent -/

theorem add_lits_fold_inv {s0 : Searcher} {nDL k : Nat} (h0 : trail_ok s0) :
    ∀ (X : List Lit) (s : Searcher), cl_inv s0 nDL s k →
      (∀ x ∈ X, (∃ t ∈ s0.trail.take k, t.lit = x.neg) ∧ s0.level x ≤ nDL) →
      cl_inv s0 nDL (X.foldl (fun t x => add_lit_to_learnt t x nDL) s) k
        ∧ grows s (X.foldl (fun t x => add_lit_to_learnt t x nDL) s)
        ∧ (∀ x ∈ X, s0.level x = 0
            ∨ (X.foldl (fun t x => add_lit_to_learnt t x nDL) s).seen x.var = true)
        ∧ (∀ x ∈ X, nDL ≤ s0.level x → 0 < s0.level x →
            0 < (X.foldl (fun t x => add_lit_to_learnt t x nDL) s).pathC)
  | [], s, hinv, _ => ⟨hinv, grows.grows_refl s, by simp, by simp⟩
  | x :: X, s, hinv, hX => by
    obtain ⟨hx1, hx2⟩ := hX x (List.mem_cons_self _ _)
    obtain ⟨i1, g1, c1, p1⟩ := add_lit_to_learnt_inv h0 hinv hx1 hx2
    obtain ⟨i2, g2, c2, p2⟩ := add_lits_fold_inv h0 X (add_lit_to_learnt s x nDL) i1
      (fun y hy => hX y (List.mem_cons_of_mem _ hy))
    simp only [List.foldl_cons]
    refine ⟨i2, g1.grows_trans g2, ?_, ?_⟩
    · intro y hy
      rcases List.mem_cons.1 hy with rfl | hy
      · rcases c1 with c1 | c1
        · exact Or.inl c1
        · exact Or.inr (g2.1 _ c1)
      · exact c2 y hy
    · intro y hy h1 h2
      rcases List.mem_cons.1 hy with rfl | hy
      · exact lt_of_lt_of_le (p1 h1 h2) g2.2.2
      · exact p2 y hy h1 h2

theorem update_glue_from_analysis_eq (s : Searcher) (offset : Nat) :
    ∃ ca, update_glue_from_analysis s offset = { s with cl_alloc := ca }
      ∧ ∀ o, (ca o).lits = (s.cl_alloc o).lits := by
  unfold update_glue_from_analysis
  simp only
  split
  · exact ⟨s.cl_alloc, rfl, fun _ => rfl⟩
  · split
    · refine ⟨_, rfl, ?_⟩
      intro o
      simp only [upd]
      split
      · rename_i h; rw [h]
      · rfl
    · exact ⟨s.cl_alloc, rfl, fun _ => rfl⟩

theorem touch_antecedent_eq (ub : Bool) (s : Searcher) (offset : Nat) :
    ∃ ca, touch_antecedent ub s offset = { s with cl_alloc := ca }
      ∧ ∀ o, (ca o).lits = (s.cl_alloc o).lits := by
  unfold touch_antecedent
  simp only
  split
  · obtain ⟨ca, h1, h2⟩ : ∃ ca, (if s.conf.update_glues_on_analyze = true
        then update_glue_from_analysis s offset else s) = { s with cl_alloc := ca }
        ∧ ∀ o, (ca o).lits = (s.cl_alloc o).lits := by
      split
      · exact update_glue_from_analysis_eq s offset
      · exact ⟨s.cl_alloc, rfl, fun _ => rfl⟩
    rw [h1]
    split
    · refine ⟨_, rfl, ?_⟩
      intro o
      simp only [upd]
      split
      · rename_i h; rw [h]; exact h2 offset
      · exact h2 o
    · exact ⟨ca, rfl, h2⟩
  · exact ⟨s.cl_alloc, rfl, fun _ => rfl⟩

theorem touched_eq (ub : Bool) (s : Searcher) (confl : PropBy) :
    ∃ ca, touched ub s confl = { s with cl_alloc := ca }
      ∧ ∀ o, (ca o).lits = (s.cl_alloc o).lits := by
  cases confl with
  | null_clause_t => exact ⟨s.cl_alloc, rfl, fun _ => rfl⟩
  | binary_t l r => exact ⟨s.cl_alloc, rfl, fun _ => rfl⟩
  | clause_t o => exact touch_antecedent_eq ub s o

theorem touched_inv {s0 s : Searcher} {nDL k : Nat} (ub : Bool) (confl : PropBy)
    (hinv : cl_inv s0 nDL s k) :
    cl_inv s0 nDL (touched ub s confl) k ∧ grows s (touched ub s confl) := by
  obtain ⟨ca, h1, h2⟩ := touched_eq ub s confl
  rw [h1]
  refine ⟨⟨⟨?_, ?_⟩, hinv.learnt, hinv.added, hinv.seen_ok, hinv.pathC_eq, hinv.lev_le⟩,
    ⟨fun _ h => h, fun _ h => h, le_refl _⟩⟩
  · have e := hinv.frame.1
    conv => lhs; rw [e]
  · intro o
    exact (h2 o).trans (hinv.frame.2 o)

theorem add_literals_eq (ub : Bool) (s : Searcher) (confl : PropBy) (p : Lit) (nDL : Nat) :
    add_literals_from_confl_to_learnt ub s confl p nDL
      = (lits_to_add s confl p).map
          (fun X => X.foldl (fun t x => add_lit_to_learnt t x nDL) (touched ub s confl)) := by
  cases confl with
  | null_clause_t => rfl
  | binary_t l r =>
    simp only [add_literals_from_confl_to_learnt, lits_to_add, touched, Option.map_some']
    split <;> rfl
  | clause_t o =>
    simp only [add_literals_from_confl_to_learnt, lits_to_add, touched]
    cases h : (s.cl_alloc o).lits with
    | nil => rfl
    | cons x0 rest =>
      simp only [Option.map_some']
      split <;> rfl

/-! ## Selecting the next implication on the trail -/

theorem select_next_spec (s0 s : Searcher) (nDL : Nat) (htr : s.trail = s0.trail) :
    ∀ k, k ≤ s0.trail.length → 0 < (s0.trail.take k).countP (pend s.seen nDL) →
      ∃ n t, n < k ∧ select_next_implication s nDL k = some n ∧ s0.trail[n]? = some t
        ∧ pend s.seen nDL t = true
        ∧ (s0.trail.take n).countP (pend s.seen nDL) + 1
            = (s0.trail.take k).countP (pend s.seen nDL)
        ∧ (∀ u ∈ s0.trail.take k, pend s.seen nDL u = true → u = t ∨ u ∈ s0.trail.take n)
  | 0, _, h => by simp at h
  | k + 1, hk, h => by
    have hk' : k < s0.trail.length := hk
    have hget : s0.trail[k]? = some s0.trail[k] := List.getElem?_eq_getElem hk'
    have htake : s0.trail.take (k + 1) = s0.trail.take k ++ [s0.trail[k]] := by
      rw [List.take_succ, hget]; rfl
    unfold select_next_implication
    rw [htr, hget]
    simp only
    by_cases hp : pend s.seen nDL s0.trail[k] = true
    · have hp' := hp
      simp only [pend, Bool.and_eq_true, decide_eq_true_eq] at hp'
      have h1 : (!s.seen s0.trail[k].lit.var) = false := by simp [hp'.1]
      have h2 : ¬ s0.trail[k].lev < nDL := by omega
      rw [h1]
      simp only [Bool.false_eq_true, if_false, h2]
      refine ⟨k, s0.trail[k], by omega, rfl, hget, hp, ?_, ?_⟩
      · rw [htake, List.countP_append]
        simp [hp]
      · intro u hu _
        rw [htake] at hu
        rcases List.mem_append.1 hu with hu | hu
        · exact Or.inr hu
        · exact Or.inl (by simpa using hu)
    · have hcnt : (s0.trail.take (k + 1)).countP (pend s.seen nDL)
          = (s0.trail.take k).countP (pend s.seen nDL) := by
        rw [htake, List.countP_append]
        simp [hp]
      rw [hcnt] at h
      obtain ⟨n, t, hn, hsel, hnt, hpt, hc, hall⟩ := select_next_spec s0 s nDL htr k (by omega) h
      have hstep : (if (!s.seen s0.trail[k].lit.var) = true then select_next_implication s nDL k
          else if s0.trail[k].lev < nDL then select_next_implication s nDL k else some k)
          = select_next_implication s nDL k := by
        by_cases hs : s.seen s0.trail[k].lit.var = true
        · have hl : s0.trail[k].lev < nDL := by
            by_contra hl
            apply hp
            simp [pend, hs]
            omega
          simp [hs, hl]
        · simp [hs]
      rw [hstep]
      refine ⟨n, t, by omega, hsel, hnt, hpt, by rw [hcnt]; exact hc, ?_⟩
      intro u hu hpu
      rw [htake] at hu
      rcases List.mem_append.1 hu with hu | hu
      · exact hall u hu hpu
      · have : u = s0.trail[k] := by simpa using hu
        rw [this] at hpu
        exact absurd hpu hp

theorem take_var_ne {s : Searcher} (h : trail_ok s) {n : Nat} {t : Trail}
    (hn : s.trail[n]? = some t) {u : Trail} (hu : u ∈ s.trail.take n) :
    u.lit.var ≠ t.lit.var := by
  have hnd := take_nodup h (n + 1)
  rw [List.take_succ, hn] at hnd
  simp only [Option.toList_some, List.map_append, List.map_cons, List.map_nil] at hnd
  have := (List.nodup_append.1 hnd).2.2
  intro hc
  exact this (List.mem_map_of_mem _ hu) (by simp [hc])

theorem mem_of_getElem? {α : Type} {l : List α} {n : Nat} {t : α} (h : l[n]? = some t) :
    t ∈ l := by
  obtain ⟨hn, rfl⟩ := List.getElem?_eq_some_iff.1 h
  exact List.getElem_mem hn

end Searcher
end CMSat

namespace CMSat
namespace Searcher

/-! ## One resolution step, and the whole loop -/

theorem mem_take_of_getElem? {α : Type} {l : List α} {n k : Nat} {t : α} (h : l[n]? = some t)
    (hnk : n < k) : t ∈ l.take k := by
  apply mem_of_getElem? (n := n)
  rw [List.getElem?_take_of_lt hnk]
  exact h

theorem take_subset_take {α : Type} (l : List α) {n k : Nat} (hnk : n ≤ k) {u : α}
    (hu : u ∈ l.take n) : u ∈ l.take k := by
  have : l.take n = (l.take k).take n := by
    rw [List.take_take, Nat.min_eq_left hnk]
  rw [this] at hu
  exact List.mem_of_mem_take hu

theorem select_step {s0 s1 : Searcher} {nDL k n : Nat} {t : Trail} (h0 : trail_ok s0)
    (hinv : cl_inv s0 nDL s1 k) (hn : s0.trail[n]? = some t) (hlt : n < k)
    (hpt : pend s1.seen nDL t = true)
    (hc : (s0.trail.take n).countP (pend s1.seen nDL) + 1
            = (s0.trail.take k).countP (pend s1.seen nDL))
    (hall : ∀ u ∈ s0.trail.take k, pend s1.seen nDL u = true → u = t ∨ u ∈ s0.trail.take n) :
    cl_inv s0 nDL { s1 with seen := upd s1.seen t.lit.var false, pathC := s1.pathC - 1 } n
      ∧ t.lev = nDL
      ∧ (∀ M, resolvent_true s0 nDL s1 k M →
          resolvent_true s0 nDL
            { s1 with seen := upd s1.seen t.lit.var false, pathC := s1.pathC - 1 } n M
          ∨ lit_true M t.lit.neg = true) := by
  have htk : t ∈ s0.trail.take k := mem_take_of_getElem? hn hlt
  have ht : t ∈ s0.trail := mem_of_getElem? hn
  have hpt' := hpt
  simp only [pend, Bool.and_eq_true, decide_eq_true_eq] at hpt'
  have hlev : t.lev = nDL := le_antisymm (hinv.lev_le t htk hpt'.1) hpt'.2
  have hne : ∀ u ∈ s0.trail.take n, u.lit.var ≠ t.lit.var := fun u hu => take_var_ne h0 hn hu
  have hpend : ∀ u ∈ s0.trail.take n,
      pend (upd s1.seen t.lit.var false) nDL u = pend s1.seen nDL u := by
    intro u hu
    simp [pend, upd, hne u hu]
  refine ⟨⟨?_, hinv.learnt, ?_, ?_, ?_, ?_⟩, hlev, ?_⟩
  · exact ⟨by
      have e := hinv.frame.1
      conv => lhs; rw [e], hinv.frame.2⟩
  · intro q hq
    obtain ⟨a, b, c, u, hu, huq⟩ := hinv.added q hq
    refine ⟨?_, b, c, u, hu, huq⟩
    show upd s1.seen t.lit.var false q.var = true
    have hqv : q.var ≠ t.lit.var := by
      intro hcv
      have h1 : s0.level q = s0.level t.lit := by simp [Searcher.level, hcv]
      rw [h0.level_eq ht] at h1
      omega
    simp [upd, hqv, a]
  · intro v hv
    change upd s1.seen t.lit.var false v = true at hv
    simp only [upd] at hv
    by_cases hvt : v = t.lit.var
    · simp [hvt] at hv
    · rw [if_neg hvt] at hv
      rcases hinv.seen_ok v hv with h | ⟨u, hu, huv, hul⟩
      · exact Or.inl h
      · right
        rcases hall u hu (by simp [pend, huv, hv, hul]) with rfl | hu'
        · exact absurd huv.symm hvt
        · exact ⟨u, hu', huv, hul⟩
  · show s1.pathC - 1 = (s0.trail.take n).countP (pend (upd s1.seen t.lit.var false) nDL)
    rw [List.countP_congr (fun u hu => by rw [hpend u hu]), hinv.pathC_eq, ← hc]
    omega
  · intro u hu hsu
    change upd s1.seen t.lit.var false u.lit.var = true at hsu
    simp only [upd, hne u hu, if_false] at hsu
    exact hinv.lev_le u (take_subset_take _ (le_of_lt hlt) hu) hsu
  · intro M hM
    rcases hM with hM | ⟨u, hu, hpu, hMu⟩
    · exact Or.inl (Or.inl hM)
    · rcases hall u hu hpu with rfl | hu'
      · exact Or.inr hMu
      · exact Or.inl (Or.inr ⟨u, hu', by rw [hpend u hu']; exact hpu, hMu⟩)

/-- After the literals `X` of an antecedent were added, the resolvent still holds under every
model of the premises in which the resolvent held before or `X` is satisfied. -/
theorem resolvent_after_add {s0 s s1 : Searcher} {nDL k : Nat} (h0 : trail_ok s0)
    (hinv1 : cl_inv s0 nDL s1 k) (hg : grows s s1) {X : List Lit}
    (hX : ∀ x ∈ X, (∃ t ∈ s0.trail.take k, t.lit = x.neg) ∧ s0.level x ≤ nDL)
    (hcov : ∀ x ∈ X, s0.level x = 0 ∨ s1.seen x.var = true) {M : Nat → Bool}
    (hM0 : ∀ t ∈ s0.trail, t.lev = 0 → lit_true M t.lit = true)
    (h : resolvent_true s0 nDL s k M ∨ clause_sat M X) : resolvent_true s0 nDL s1 k M := by
  rcases h with (⟨q, hq, hMq⟩ | ⟨u, hu, hpu, hMu⟩) | ⟨x, hx, hMx⟩
  · exact Or.inl ⟨q, hg.2.1 q hq, hMq⟩
  · refine Or.inr ⟨u, hu, ?_, hMu⟩
    simp only [pend, Bool.and_eq_true, decide_eq_true_eq] at hpu ⊢
    exact ⟨hg.1 _ hpu.1, hpu.2⟩
  · obtain ⟨⟨t, htk, htx⟩, _⟩ := hX x hx
    have ht : t ∈ s0.trail := List.mem_of_mem_take htk
    have htl : s0.level x = t.lev := h0.level_of_false ht htx
    rcases hcov x hx with hl0 | hseen
    · have := hM0 t ht (by omega)
      rw [htx, lit_true_neg, hMx] at this
      simp at this
    · rcases hinv1.seen_ok _ hseen with ⟨q, hq, hqv⟩ | ⟨u, hu, huv, hul⟩
      · obtain ⟨_, _, _, t', ht', htq⟩ := hinv1.added q hq
        have := (h0.false_unique ht' ht htq htx hqv).1
        exact Or.inl ⟨q, hq, by rw [this]; exact hMx⟩
      · have hut : u = t :=
          h0.same_var (List.mem_of_mem_take hu) ht (by rw [huv, htx, Lit.var_neg])
        refine Or.inr ⟨u, hu, ?_, ?_⟩
        · simp only [pend, Bool.and_eq_true, decide_eq_true_eq]
          exact ⟨by rw [huv]; exact hseen, hul⟩
        · rw [hut, htx, Lit.neg_neg]; exact hMx

theorem create_learnt_clause_loop_spec (ub : Bool) {s0 : Searcher} {nDL : Nat}
    (h0 : trail_ok s0) (hd : 0 < nDL) (P : (Nat → Bool) → Prop)
    (hP0 : ∀ M, P M → ∀ t ∈ s0.trail, t.lev = 0 → lit_true M t.lit = true)
    (hPr : ∀ M, P M → ∀ t ∈ s0.trail, ∀ c, reason_lits s0 t.lit = some c → clause_sat M c) :
    ∀ (fuel : Nat) (s : Searcher) (confl : PropBy) (p : Lit) (k : Nat) (X : List Lit),
      k < fuel → k ≤ s0.trail.length → cl_inv s0 nDL s k →
      lits_to_add s confl p = some X →
      (∀ x ∈ X, (∃ t ∈ s0.trail.take k, t.lit = x.neg) ∧ s0.level x ≤ nDL) →
      (0 < s.pathC ∨ ∃ x ∈ X, nDL ≤ s0.level x ∧ 0 < s0.level x) →
      (∀ M, P M → resolvent_true s0 nDL s k M ∨ clause_sat M X) →
      ∃ s1 p1, create_learnt_clause_loop ub nDL fuel s confl p k = some (s1, p1)
        ∧ cl_post s0 nDL P s1 p1
  | 0, _, _, _, _, _, hk, _, _, _, _, _, _ => absurd hk (by omega)
  | fuel + 1, s, confl, p, k, X, hk, hkl, hinv, hadd, hX, hpos, hent => by
    obtain ⟨it, gt⟩ := touched_inv ub confl hinv
    obtain ⟨i1, g1, c1, p1⟩ := add_lits_fold_inv h0 X (touched ub s confl) it hX
    set s1 := X.foldl (fun t x => add_lit_to_learnt t x nDL) (touched ub s confl) with hs1
    have hg : grows s s1 := gt.grows_trans g1
    have hpc : 0 < s1.pathC := by
      rcases hpos with h | ⟨x, hx, h1, h2⟩
      · exact lt_of_lt_of_le h hg.2.2
      · exact p1 x hx h1 h2
    have htr : s1.trail = s0.trail := i1.frame.trail
    have hcnt : 0 < (s0.trail.take k).countP (pend s1.seen nDL) := by
      rw [← i1.pathC_eq]; exact hpc
    obtain ⟨n, t, hn, hsel, hnt, hpt, hc, hall⟩ := select_next_spec s0 s1 nDL htr k hkl hcnt
    obtain ⟨i3, hlev, hres⟩ := select_step h0 i1 hnt hn hpt hc hall
    have ht : t ∈ s0.trail := mem_of_getElem? hnt
    have hnl : n < s0.trail.length := (List.getElem?_eq_some_iff.1 hnt).1
    have hgetD : s1.trail.getD n ⟨lit_Undef, 0⟩ = t := by
      rw [htr, List.getD_eq_getElem?_getD, hnt]; rfl
    have hent1 : ∀ M, P M → resolvent_true s0 nDL s1 k M := fun M hM =>
      resolvent_after_add h0 i1 hg hX c1 (hP0 M hM) (hent M hM)
    have hunf : create_learnt_clause_loop ub nDL (fuel + 1) s confl p k
        = if (s1.pathC - 1) > 0 then
            create_learnt_clause_loop ub nDL fuel
              { s1 with seen := upd s1.seen t.lit.var false, pathC := s1.pathC - 1 }
              (s1.varData t.lit.var).reason t.lit n
          else some ({ s1 with seen := upd s1.seen t.lit.var false, pathC := s1.pathC - 1 },
                      t.lit) := by
      rw [create_learnt_clause_loop, add_literals_eq, hadd]
      simp only [Option.map_some', ← hs1, hsel, hgetD]
      have : ¬ s1.pathC = 0 := by omega
      simp only [this, if_false]
    rw [hunf]
    set s3 : Searcher := { s1 with seen := upd s1.seen t.lit.var false, pathC := s1.pathC - 1 }
      with hs3
    by_cases hmore : s1.pathC - 1 > 0
    · rw [if_pos hmore]
      have hp3 : 0 < s3.pathC := hmore
      have hvd : s1.varData = s0.varData := i1.frame.varData
      have hro := h0.reason hnl
      have hgetD0 : s0.trail.getD n ⟨lit_Undef, 0⟩ = t := by
        rw [List.getD_eq_getElem?_getD, hnt]; rfl
      rw [hgetD0] at hro
      have hpne : t.lit ≠ lit_Undef := h0.lit_ne_undef ht
      have hcnt3 : 0 < (s0.trail.take n).countP (pend s3.seen nDL) := by
        rw [← i3.pathC_eq]; exact hp3
      obtain ⟨u, hu, hpu⟩ := List.countP_pos_iff.1 hcnt3
      have hul : nDL ≤ u.lev := by
        simp only [pend, Bool.and_eq_true, decide_eq_true_eq] at hpu
        exact hpu.2
      -- the literals of the reason of `t`
      have hX1 : ∃ X1, lits_to_add s3 (s1.varData t.lit.var).reason t.lit = some X1
          ∧ reason_lits s0 t.lit = some (t.lit :: X1)
          ∧ ∀ x ∈ X1, (∃ t' ∈ s0.trail.take n, t'.lit = x.neg) ∧ s0.level x ≤ nDL := by
        rw [hvd]
        unfold reason_ok at hro
        cases hr : (s0.varData t.lit.var).reason with
        | null_clause_t =>
          rw [hr] at hro
          have := hro (by omega) u hu
          omega
        | binary_t q r =>
          rw [hr] at hro
          refine ⟨[q], by simp [lits_to_add, hpne], by simp [reason_lits, hr], ?_⟩
          intro x hx
          have : x = q := by simpa using hx
          subst this
          exact ⟨hro.1, by omega⟩
        | clause_t o =>
          rw [hr] at hro
          dsimp only at hro
          have hl3 : (s1.cl_alloc o).lits = (s0.cl_alloc o).lits := i1.frame.2 o
          cases hlits : (s0.cl_alloc o).lits with
          | nil => rw [hlits] at hro; simp at hro
          | cons x0 rest =>
            rw [hlits] at hro
            simp only [List.head?_cons, Option.some.injEq, List.tail_cons] at hro
            refine ⟨rest, by simp [lits_to_add, hl3, hlits, hpne],
              by simp [reason_lits, hr, hlits, hro.1], ?_⟩
            intro x hx
            exact ⟨(hro.2 x hx).1, by have := (hro.2 x hx).2; omega⟩
      obtain ⟨X1, hadd1, hreason, hXok⟩ := hX1
      refine create_learnt_clause_loop_spec ub h0 hd P hP0 hPr fuel s3 _ t.lit n X1
        (by omega) (by omega) i3 hadd1 hXok (Or.inl hp3) ?_
      intro M hM
      rcases hres M (hent1 M hM) with h | h
      · exact Or.inl h
      · right
        obtain ⟨l, hl, hMl⟩ := hPr M hM t ht _ hreason
        rcases List.mem_cons.1 hl with rfl | hl
        · rw [lit_true_neg, hMl] at h
          simp at h
        · exact ⟨l, hl, hMl⟩
    · rw [if_neg hmore]
      have hz : s3.pathC = 0 := by
        show s1.pathC - 1 = 0
        omega
      have hcz : (s0.trail.take n).countP (pend s3.seen nDL) = 0 := by
        rw [← i3.pathC_eq]; exact hz
      have hnone : ∀ u ∈ s0.trail.take n, ¬ pend s3.seen nDL u = true := by
        intro u hu hpu
        have := List.countP_pos_iff.2 ⟨u, hu, hpu⟩
        omega
      refine ⟨s3, t.lit, rfl, ⟨i3.frame, hz, i3.learnt, i3.added, ?_, ⟨t, ht, rfl, hlev⟩, ?_, ?_⟩⟩
      · intro v hv
        rcases i3.seen_ok v hv with h | ⟨u, hu, huv, hul⟩
        · exact h
        · have hv1 : s3.seen u.lit.var = true := by rw [huv]; exact hv
          have hp1 : pend s3.seen nDL u = true := by
            simp only [pend, Bool.and_eq_true, decide_eq_true_eq]
            exact ⟨hv1, hul⟩
          exact absurd hp1 (hnone u hu)
      · show upd s1.seen t.lit.var false t.lit.var = false
        simp [upd]
      · intro M hM
        rcases hres M (hent1 M hM) with (h | ⟨u, hu, hpu, _⟩) | h
        · exact Or.inr h
        · exact absurd hpu (hnone u hu)
        · exact Or.inl h

end Searcher
end CMSat

namespace CMSat
namespace Searcher

/-! ## `create_learnt_clause` -/

theorem confl_lit0_eq {s : Searcher} {confl : PropBy} (h : confl_lits s confl ≠ []) :
    confl_lit0 s confl = some ((confl_lits s confl).headD lit_Undef)
      ∧ lits_to_add s confl lit_Undef = some (confl_lits s confl) := by
  cases confl with
  | null_clause_t => simp [confl_lits] at h
  | binary_t l r => simp [confl_lit0, confl_lits, lits_to_add]
  | clause_t o =>
    simp only [confl_lits] at h
    cases hl : (s.cl_alloc o).lits with
    | nil => exact absurd hl h
    | cons x0 rest => simp [confl_lit0, confl_lits, lits_to_add, hl]

theorem create_learnt_clause_spec (ub : Bool) {s : Searcher} {confl : PropBy} {d : Nat}
    (h0 : trail_ok s) (hc : is_conflict_at s confl d) (hseen : ∀ v, s.seen v = false)
    (hl : s.learnt_clause = []) :
    ∃ s2 p, create_learnt_clause ub s confl
        = some { s2 with learnt_clause := p.neg :: s2.learnt_clause.tail }
      ∧ cl_post s d (premises0 s confl) s2 p := by
  obtain ⟨⟨hne, hfalse⟩, hd, hlev0, hlevs⟩ := hc
  obtain ⟨hlit0, hadd⟩ := confl_lit0_eq hne
  set s1 : Searcher := { s with pathC := 0, learnt_clause := s.learnt_clause ++ [lit_Undef] }
    with hs1
  have hinv : cl_inv s d s1 s.trail.length := by
    refine ⟨⟨rfl, fun _ => rfl⟩, ?_, ?_, ?_, ?_, ?_⟩
    · show (s.learnt_clause ++ [lit_Undef]).head? = _
      rw [hl]; rfl
    · intro q hq
      change q ∈ (s.learnt_clause ++ [lit_Undef]).tail at hq
      rw [hl] at hq
      simp at hq
    · intro v hv
      change s.seen v = true at hv
      rw [hseen v] at hv
      exact absurd hv (by simp)
    · show 0 = _
      symm
      apply List.countP_eq_zero.2
      intro t _
      show ¬ pend s.seen d t = true
      simp [pend, hseen]
    · intro t _ hst
      change s.seen t.lit.var = true at hst
      rw [hseen] at hst
      exact absurd hst (by simp)
  have hadd1 : lits_to_add s1 confl lit_Undef = some (confl_lits s confl) := by
    rw [← hadd]
    cases confl <;> rfl
  have hX : ∀ x ∈ confl_lits s confl,
      (∃ t ∈ s.trail.take s.trail.length, t.lit = x.neg) ∧ s.level x ≤ d := by
    intro x hx
    rw [List.take_length]
    exact ⟨hfalse x hx, hlevs x hx⟩
  have hhead : (confl_lits s confl).headD lit_Undef ∈ confl_lits s confl := by
    cases hcl : confl_lits s confl with
    | nil => exact absurd hcl hne
    | cons a l => simp
  obtain ⟨s2, p, hloop, hpost⟩ := create_learnt_clause_loop_spec ub h0 hd (premises0 s confl)
    (fun M hM => hM.2) (fun M hM => hM.1.2) (s.trail.length + 1) s1 confl lit_Undef
    s.trail.length (confl_lits s confl) (by omega) (le_refl _) hinv hadd1 hX
    (Or.inr ⟨_, hhead, by rw [hlev0], by rw [hlev0]; exact hd⟩)
    (fun M hM => Or.inr hM.1.1)
  refine ⟨s2, p, ?_, hpost⟩
  unfold create_learnt_clause
  rw [hlit0]
  simp only
  have hd' : (s.varData ((confl_lits s confl).headD lit_Undef).var).level = d := hlev0
  rw [hd']
  have : create_learnt_clause_loop ub d (s1.trail.length + 1) s1 confl lit_Undef s1.trail.length
      = some (s2, p) := hloop
  rw [this]
  simp only
  have hl2 := hpost.learnt
  cases hL : s2.learnt_clause with
  | nil => rw [hL] at hl2; simp at hl2
  | cons a L => simp

/-- The learnt clause of `create_learnt_clause` at a glance: the negated pivot of level `d`
followed by False literals of levels strictly between 0 and `d`, implied by the premises. -/
theorem create_learnt_clause_result (ub : Bool) {s : Searcher} {confl : PropBy} {d : Nat}
    (h0 : trail_ok s) (hc : is_conflict_at s confl d) (hseen : ∀ v, s.seen v = false)
    (hl : s.learnt_clause = []) :
    ∃ s1 p rest, create_learnt_clause ub s confl = some s1
      ∧ analysis_frame s s1 ∧ s1.pathC = 0 ∧ s1.learnt_clause = p.neg :: rest
      ∧ (∃ t ∈ s.trail, t.lit = p ∧ t.lev = d)
      ∧ (∀ q ∈ rest, s1.seen q.var = true ∧ 0 < s.level q ∧ s.level q < d
          ∧ ∃ t ∈ s.trail, t.lit = q.neg)
      ∧ (∀ v, s1.seen v = true → ∃ q ∈ rest, q.var = v)
      ∧ s1.seen p.var = false
      ∧ (∀ M, premises0 s confl M → clause_sat M s1.learnt_clause) := by
  obtain ⟨s2, p, heq, hpost⟩ := create_learnt_clause_spec ub h0 hc hseen hl
  refine ⟨_, p, s2.learnt_clause.tail, heq, ?_, hpost.pathC_zero, rfl, hpost.pivot,
    hpost.added, hpost.seen_ok, hpost.pivot_unseen, ?_⟩
  · exact ⟨by
      have e := hpost.frame.1
      conv => lhs; rw [e], hpost.frame.2⟩
  · intro M hM
    rcases hpost.entail M hM with h | ⟨q, hq, hMq⟩
    · exact ⟨p.neg, by simp, h⟩
    · exact ⟨q, by simp [hq], hMq⟩

end Searcher
end CMSat

namespace CMSat
namespace Searcher

/-! ## Minimisation of the learnt clause: it returns, and only drops literals after the first -/

theorem countP_succ_le_of_imp {α : Type} (p q : α → Bool) :
    ∀ (T : List α), (∀ t ∈ T, p t = true → q t = true) →
      (∃ t ∈ T, q t = true ∧ p t = false) → T.countP p + 1 ≤ T.countP q
  | [], _, h => by simp at h
  | a :: T, himp, ⟨t, ht, hq, hp⟩ => by
    have hle : T.countP p ≤ T.countP q := by
      apply List.countP_mono_left
      intro x hx
      exact himp x (List.mem_cons_of_mem _ hx)
    rcases List.mem_cons.1 ht with rfl | ht
    · rw [List.countP_cons_of_pos _ _ hq, List.countP_cons_of_neg _ _ (by simp [hp])]
      omega
    · have ih := countP_succ_le_of_imp p q T
        (fun x hx => himp x (List.mem_cons_of_mem _ hx)) ⟨t, ht, hq, hp⟩
      simp only [List.countP_cons]
      have := himp a (List.mem_cons_self _ _)
      by_cases hpa : p a = true
      · simp [hpa, this hpa]; omega
      · simp [hpa]; omega

theorem frame_step {s0 s s1 : Searcher} (h : analysis_frame s0 s)
    (h1 : s1 = { s with seen := s1.seen, toClear := s1.toClear }) : analysis_frame s0 s1 := by
  refine h.frame_trans ⟨?_, fun o => ?_⟩
  · have e1 := congrArg Searcher.cl_alloc h1
    have e2 := congrArg Searcher.learnt_clause h1
    have e3 := congrArg Searcher.pathC h1
    simp only at e1 e2 e3
    rw [e1, e2, e3]
    exact h1
  · rw [h1]

theorem reason_other_lits_of_valid {s0 s : Searcher} (h0 : trail_ok s0)
    (hf : analysis_frame s0 s) {q : Lit} (hq : lr_valid s0 q) :
    ∃ lits, reason_other_lits s (s.varData q.var).reason = some lits
      ∧ ∀ x ∈ lits, ∃ t ∈ s0.trail, t.lit = x.neg := by
  obtain ⟨⟨t, ht, htq⟩, hr⟩ := hq
  obtain ⟨i, hi, rfl⟩ := List.getElem_of_mem ht
  have hro := h0.reason hi
  have hgetD : s0.trail.getD i ⟨lit_Undef, 0⟩ = s0.trail[i] := by
    simp [List.getD_eq_getElem?_getD, hi]
  rw [hgetD] at hro
  unfold reason_ok at hro
  rw [htq, Lit.var_neg] at hro
  rw [hf.varData]
  cases hre : (s0.varData q.var).reason with
  | null_clause_t => exact absurd hre hr
  | binary_t l r =>
    rw [hre] at hro
    refine ⟨[l], rfl, ?_⟩
    intro x hx
    have : x = l := by simpa using hx
    subst this
    obtain ⟨u, hu, hux⟩ := hro.1
    exact ⟨u, List.mem_of_mem_take hu, hux⟩
  | clause_t o =>
    rw [hre] at hro
    dsimp only at hro
    have hl : (s.cl_alloc o).lits = (s0.cl_alloc o).lits := hf.2 o
    cases hlits : (s0.cl_alloc o).lits with
    | nil => rw [hlits] at hro; simp at hro
    | cons x0 rest =>
      rw [hlits] at hro
      refine ⟨rest, by simp [reason_other_lits, hl, hlits], ?_⟩
      intro x hx
      obtain ⟨u, hu, hux⟩ := (hro.2 x (by simpa using hx)).1
      exact ⟨u, List.mem_of_mem_take hu, hux⟩

theorem litRedundant_lits_spec {s0 : Searcher} (al top : Nat) :
    ∀ (lits stack : List Lit) (s : Searcher), analysis_frame s0 s →
      (∀ x ∈ lits, ∃ t ∈ s0.trail, t.lit = x.neg) → (∀ q ∈ stack, lr_valid s0 q) →
      analysis_frame s0 (litRedundant_lits al top lits stack s).2.2
        ∧ ((litRedundant_lits al top lits stack s).1 = true →
            (litRedundant_lits al top lits stack s).2.1.length
                + unseen_count s0 (litRedundant_lits al top lits stack s).2.2.seen
              ≤ stack.length + unseen_count s0 s.seen
            ∧ ∀ q ∈ (litRedundant_lits al top lits stack s).2.1, lr_valid s0 q)
  | [], stack, s, hf, _, hst => by
    simp only [litRedundant_lits]
    exact ⟨hf, fun _ => ⟨le_refl _, hst⟩⟩
  | p2 :: rest, stack, s, hf, hl, hst => by
    unfold litRedundant_lits
    have hrest : ∀ x ∈ rest, ∃ t ∈ s0.trail, t.lit = x.neg :=
      fun x hx => hl x (List.mem_cons_of_mem _ hx)
    split
    · rename_i hc1
      split
      · rename_i hc2
        simp only [Bool.and_eq_true, Bool.not_eq_true', decide_eq_true_eq] at hc1 hc2
        have hf1 : analysis_frame s0
            { s with seen := upd s.seen p2.var true, toClear := s.toClear ++ [p2] } :=
          frame_step hf rfl
        have hv : lr_valid s0 p2 := by
          refine ⟨hl p2 (List.mem_cons_self _ _), ?_⟩
          intro hnull
          rw [hf.varData, hnull] at hc2
          simp [PropBy.isNULL] at hc2
        obtain ⟨i1, i2⟩ := litRedundant_lits_spec al top rest (p2 :: stack) _ hf1 hrest
          (by
            intro q hq
            rcases List.mem_cons.1 hq with rfl | hq
            · exact hv
            · exact hst q hq)
        refine ⟨i1, fun hb => ?_⟩
        obtain ⟨j1, j2⟩ := i2 hb
        refine ⟨?_, j2⟩
        have hdec : unseen_count s0 (upd s.seen p2.var true) + 1 ≤ unseen_count s0 s.seen := by
          obtain ⟨t, ht, htp⟩ := hv.1
          apply countP_succ_le_of_imp
          · intro u _ hu
            simp only [upd, Bool.not_eq_true'] at hu ⊢
            split at hu
            · simp at hu
            · exact hu
          · refine ⟨t, ht, ?_, ?_⟩
            · simp [htp, Lit.var_neg, hc1.1]
            · simp [upd, htp, Lit.var_neg]
        simp only [List.length_cons] at j1
        change _ + unseen_count s0 _ ≤ _ + unseen_count s0 (upd s.seen p2.var true) at j1
        omega
      · refine ⟨frame_step hf rfl, fun hb => ?_⟩
        simp at hb
    · exact litRedundant_lits_spec al top rest stack s hf hrest hst

theorem litRedundant_loop_spec {s0 : Searcher} (h0 : trail_ok s0) (al top : Nat) :
    ∀ (fuel : Nat) (stack : List Lit) (s : Searcher), analysis_frame s0 s →
      (∀ q ∈ stack, lr_valid s0 q) → stack.length + unseen_count s0 s.seen < fuel →
      ∃ b s1, litRedundant_loop al top fuel stack s = some (b, s1) ∧ analysis_frame s0 s1
  | 0, _, _, _, _, h => absurd h (by omega)
  | fuel + 1, [], s, hf, _, _ => ⟨true, s, rfl, hf⟩
  | fuel + 1, q :: stack, s, hf, hst, hfuel => by
    obtain ⟨lits, hlits, hfalse⟩ := reason_other_lits_of_valid h0 hf (hst q (List.mem_cons_self _ _))
    obtain ⟨i1, i2⟩ := litRedundant_lits_spec al top lits stack s hf hfalse
      (fun x hx => hst x (List.mem_cons_of_mem _ hx))
    unfold litRedundant_loop
    rw [hlits]
    simp only
    rcases hr : litRedundant_lits al top lits stack s with ⟨b, stack1, s1⟩
    rw [hr] at i1 i2
    cases b with
    | false => exact ⟨false, s1, rfl, i1⟩
    | true =>
      obtain ⟨j1, j2⟩ := i2 rfl
      simp only [List.length_cons] at hfuel
      exact litRedundant_loop_spec h0 al top fuel stack1 s1 i1 j2 (by simp only at j1; omega)

theorem litRedundant_spec {s0 s : Searcher} (h0 : trail_ok s0) (hf : analysis_frame s0 s)
    {p : Lit} (hp : lr_valid s0 p) (al : Nat) :
    ∃ b s1, litRedundant s p al = some (b, s1) ∧ analysis_frame s0 s1 := by
  unfold litRedundant
  rw [hf.trail]
  apply litRedundant_loop_spec h0 al _ _ _ _ hf
  · intro q hq
    have : q = p := by simpa using hq
    rw [this]; exact hp
  · have : unseen_count s0 s.seen ≤ s0.trail.length := List.countP_le_length _
    simp only [List.length_singleton]
    omega

theorem recursiveConfClauseMin_loop_spec {s0 : Searcher} (h0 : trail_ok s0) (al : Nat) :
    ∀ (rest : List Lit) (s : Searcher), analysis_frame s0 s →
      (∀ q ∈ rest, ∃ t ∈ s0.trail, t.lit = q.neg) →
      ∃ kept s1, recursiveConfClauseMin_loop al rest s = some (kept, s1)
        ∧ analysis_frame s0 s1 ∧ kept.Sublist rest
  | [], s, hf, _ => ⟨[], s, rfl, hf, List.Sublist.refl _⟩
  | l :: rest, s, hf, hfalse => by
    have hrest : ∀ q ∈ rest, ∃ t ∈ s0.trail, t.lit = q.neg :=
      fun q hq => hfalse q (List.mem_cons_of_mem _ hq)
    unfold recursiveConfClauseMin_loop
    split
    · obtain ⟨kept, s1, h1, h2, h3⟩ := recursiveConfClauseMin_loop_spec h0 al rest s hf hrest
      rw [h1]
      exact ⟨l :: kept, s1, rfl, h2, h3.cons₂ l⟩
    · rename_i hnn
      have hv : lr_valid s0 l := by
        refine ⟨hfalse l (List.mem_cons_self _ _), ?_⟩
        intro hnull
        rw [hf.varData, hnull] at hnn
        simp [PropBy.isNULL] at hnn
      obtain ⟨b, s1, hb, hf1⟩ := litRedundant_spec h0 hf hv al
      rw [hb]
      simp only
      obtain ⟨kept, s2, h1, h2, h3⟩ := recursiveConfClauseMin_loop_spec h0 al rest s1 hf1 hrest
      rw [h1]
      refine ⟨_, s2, rfl, h2, ?_⟩
      cases b with
      | true => exact h3.cons l
      | false => exact h3.cons₂ l

theorem normalClMinim_loop_spec {s0 s : Searcher} (h0 : trail_ok s0)
    (hf : analysis_frame s0 s) :
    ∀ (rest : List Lit), (∀ q ∈ rest, ∃ t ∈ s0.trail, t.lit = q.neg) →
      ∃ kept, normalClMinim_loop s rest = some kept ∧ kept.Sublist rest
  | [], _ => ⟨[], rfl, List.Sublist.refl _⟩
  | l :: rest, hfalse => by
    obtain ⟨kept, h1, h2⟩ := normalClMinim_loop_spec h0 hf rest
      (fun q hq => hfalse q (List.mem_cons_of_mem _ hq))
    have hk : ∃ k, normalClMinim_keep s l = some k := by
      unfold normalClMinim_keep
      cases hr : (s.varData l.var).reason with
      | null_clause_t => exact ⟨true, rfl⟩
      | binary_t a b => exact ⟨_, rfl⟩
      | clause_t o =>
        have hv : lr_valid s0 l := by
          refine ⟨hfalse l (List.mem_cons_self _ _), ?_⟩
          rw [← hf.varData, hr]
          simp
        obtain ⟨lits, hl, _⟩ := reason_other_lits_of_valid h0 hf hv
        rw [hr] at hl
        simp only [hl]
        exact ⟨_, rfl⟩
    obtain ⟨k, hk⟩ := hk
    unfold normalClMinim_loop
    rw [hk, h1]
    refine ⟨_, rfl, ?_⟩
    cases k with
    | true => exact h2.cons₂ l
    | false => exact h2.cons l

theorem recursiveConfClauseMin_spec {s0 s : Searcher} (h0 : trail_ok s0)
    (hf : analysis_frame s0 s) {l0 : Lit} {rest : List Lit} (hL : s.learnt_clause = l0 :: rest)
    (hfalse : ∀ q ∈ rest, ∃ t ∈ s0.trail, t.lit = q.neg) :
    ∃ s1 kept, recursiveConfClauseMin s = some s1 ∧ analysis_frame s0 s1
      ∧ s1.learnt_clause = l0 :: kept ∧ kept.Sublist rest := by
  unfold recursiveConfClauseMin
  rw [hL]
  simp only
  obtain ⟨kept, s1, h1, h2, h3⟩ := recursiveConfClauseMin_loop_spec h0
    (rest.foldl (fun a l => a ||| abstractLevel s l.var) 0) rest s hf hfalse
  rw [h1]
  exact ⟨_, kept, rfl, h2.frame_trans ⟨rfl, fun _ => rfl⟩, rfl, h3⟩

theorem normalClMinim_spec {s0 s : Searcher} (h0 : trail_ok s0)
    (hf : analysis_frame s0 s) {l0 : Lit} {rest : List Lit} (hL : s.learnt_clause = l0 :: rest)
    (hfalse : ∀ q ∈ rest, ∃ t ∈ s0.trail, t.lit = q.neg) :
    ∃ s1 kept, normalClMinim s = some s1 ∧ analysis_frame s0 s1
      ∧ s1.learnt_clause = l0 :: kept ∧ kept.Sublist rest := by
  unfold normalClMinim
  rw [hL]
  simp only
  obtain ⟨kept, h1, h2⟩ := normalClMinim_loop_spec h0 hf rest hfalse
  rw [h1]
  exact ⟨_, kept, rfl, hf.frame_trans ⟨rfl, fun _ => rfl⟩, rfl, h2⟩

/-- About `minimize_learnt_clause` returns, keeps the first literal and a sublist of the others. -/
theorem minimize_learnt_clause_spec {s0 s : Searcher} (h0 : trail_ok s0)
    (hf : analysis_frame s0 s) {l0 : Lit} {rest : List Lit} (hL : s.learnt_clause = l0 :: rest)
    (hfalse : ∀ q ∈ rest, ∃ t ∈ s0.trail, t.lit = q.neg) :
    ∃ s1 kept, minimize_learnt_clause s = some s1 ∧ analysis_frame s0 s1
      ∧ s1.learnt_clause = l0 :: kept ∧ kept.Sublist rest := by
  have hf1 : analysis_frame s0 { s with toClear := s.learnt_clause } :=
    hf.frame_trans ⟨rfl, fun _ => rfl⟩
  have hL1 : ({ s with toClear := s.learnt_clause } : Searcher).learnt_clause = l0 :: rest := hL
  have hmin : ∃ s1 kept, (if ({ s with toClear := s.learnt_clause } : Searcher).conf.doRecursiveMinim
        then recursiveConfClauseMin { s with toClear := s.learnt_clause }
        else normalClMinim { s with toClear := s.learnt_clause }) = some s1
      ∧ analysis_frame s0 s1 ∧ s1.learnt_clause = l0 :: kept ∧ kept.Sublist rest := by
    split
    · exact recursiveConfClauseMin_spec h0 hf1 hL1 hfalse
    · exact normalClMinim_spec h0 hf1 hL1 hfalse
  obtain ⟨s1, kept, h1, h2, h3, h4⟩ := hmin
  unfold minimize_learnt_clause
  simp only
  rw [h1]
  exact ⟨_, kept, rfl, h2.frame_trans ⟨rfl, fun _ => rfl⟩, h3, h4⟩

end Searcher
end CMSat

namespace CMSat
namespace Searcher

/-! ## The binary minimisations and `analyze_conflict` -/

theorem minimize_using_bins_mark_none (s : Searcher) :
    ∀ (ws : List Watched) (nb : Nat) (t : Searcher), (∀ v, t.permDiff v ≠ t.MYFLAG) →
      minimize_using_bins_mark s ws nb t = (nb, t)
  | [], _, _, _ => rfl
  | .long _ _ :: _, _, _, _ => rfl
  | .bin imp _ :: ws, nb, t, h => by
    unfold minimize_using_bins_mark
    have : ¬ (t.permDiff imp.var = t.MYFLAG ∧ s.value imp = l_True) := fun hc => h _ hc.1
    rw [if_neg this]
    exact minimize_using_bins_mark_none s ws nb t h

/-- With every `permDiff` entry at most `MYFLAG`, `minimize_using_bins` finds no marked literal:
it only advances `MYFLAG`. -/
theorem minimize_using_bins_spec (s : Searcher) (hperm : ∀ v, s.permDiff v ≤ s.MYFLAG) :
    ∃ s1, minimize_using_bins s = some s1 ∧ s1 = { s with MYFLAG := s1.MYFLAG }
      ∧ s.MYFLAG ≤ s1.MYFLAG := by
  unfold minimize_using_bins
  split
  · have hne : ∀ v, ({ s with MYFLAG := s.MYFLAG + 1 } : Searcher).permDiff v
        ≠ ({ s with MYFLAG := s.MYFLAG + 1 } : Searcher).MYFLAG := by
      intro v
      have := hperm v
      show s.permDiff v ≠ s.MYFLAG + 1
      omega
    simp only
    rw [minimize_using_bins_mark_none _ _ _ _ hne]
    simp only [gt_iff_lt, lt_self_iff_false, if_false]
    exact ⟨_, rfl, rfl, by show s.MYFLAG ≤ s.MYFLAG + 1; omega⟩
  · exact ⟨s, rfl, rfl, le_refl _⟩

theorem minimise_redundant_more_more_filter_sublist :
    ∀ (L : List Lit) (seen : Nat → Bool), (minimise_redundant_more_more_filter L seen).1.Sublist L
  | [], _ => List.Sublist.refl _
  | l :: ls, seen => by
    unfold minimise_redundant_more_more_filter
    simp only
    have ih := minimise_redundant_more_more_filter_sublist ls (upd seen l.toInt false)
    split
    · exact ih.cons₂ l
    · exact ih.cons l

theorem minimise_redundant_more_more_filter_head (l0 : Lit) (rest : List Lit)
    (seen : Nat → Bool) (h : seen l0.toInt = true) :
    ∃ kept, (minimise_redundant_more_more_filter (l0 :: rest) seen).1 = l0 :: kept
      ∧ kept.Sublist rest := by
  refine ⟨(minimise_redundant_more_more_filter rest (upd seen l0.toInt false)).1, ?_,
    minimise_redundant_more_more_filter_sublist _ _⟩
  rw [minimise_redundant_more_more_filter]
  simp [h]

theorem minimise_redundant_more_more_spec {s0 s : Searcher} (hf : analysis_frame s0 s)
    {l0 : Lit} {rest : List Lit} (hL : s.learnt_clause = l0 :: rest) :
    ∃ s1 kept, minimise_redundant_more_more s = some s1 ∧ analysis_frame s0 s1
      ∧ s1.learnt_clause = l0 :: kept ∧ kept.Sublist rest := by
  unfold minimise_redundant_more_more
  rw [hL]
  simp only
  obtain ⟨kept, hk1, hk2⟩ := minimise_redundant_more_more_filter_head l0 rest
    (upd (binary_based_morem_minim
      { s with seen := (l0 :: rest).foldl (fun sn l => upd sn l.toInt true) s.seen }
      (l0 :: rest)) l0.toInt true) (by simp [upd])
  exact ⟨_, kept, rfl, hf.frame_trans ⟨rfl, fun _ => rfl⟩, hk1, hk2⟩

theorem maple_mark_frame {s0 s : Searcher} (hf : analysis_frame s0 s) (l : Lit) :
    analysis_frame s0 (maple_mark s l) := by
  unfold maple_mark
  split
  · exact hf.frame_trans ⟨rfl, fun _ => rfl⟩
  · exact hf

theorem foldl_maple_mark_frame {s0 : Searcher} :
    ∀ (ls : List Lit) (s : Searcher), analysis_frame s0 s →
      analysis_frame s0 (ls.foldl maple_mark s)
  | [], _, hf => hf
  | l :: ls, s, hf => foldl_maple_mark_frame ls (maple_mark s l) (maple_mark_frame hf l)

theorem analyze_conflict_maple_frame {s0 s : Searcher} (hf : analysis_frame s0 s) :
    analysis_frame s0 (analyze_conflict_maple s)
      ∧ (analyze_conflict_maple s).learnt_clause = s.learnt_clause := by
  unfold analyze_conflict_maple
  simp only
  have key : ∀ (ls : List Lit) (t : Searcher), analysis_frame s0 t →
      analysis_frame s0 (ls.foldl (fun t li =>
        match (t.varData li.var).reason with
        | .clause_t offs => (t.cl_alloc offs).lits.foldl maple_mark t
        | .binary_t l _ => maple_mark (maple_mark t l) (Lit.mkLit li.var false)
        | .null_clause_t => t) t)
      ∧ (ls.foldl (fun t li =>
        match (t.varData li.var).reason with
        | .clause_t offs => (t.cl_alloc offs).lits.foldl maple_mark t
        | .binary_t l _ => maple_mark (maple_mark t l) (Lit.mkLit li.var false)
        | .null_clause_t => t) t).learnt_clause = t.learnt_clause := by
    intro ls
    induction ls with
    | nil => intro t ht; exact ⟨ht, rfl⟩
    | cons li ls ih =>
      intro t ht
      simp only [List.foldl_cons]
      have hstep : analysis_frame s0 (match (t.varData li.var).reason with
          | .clause_t offs => (t.cl_alloc offs).lits.foldl maple_mark t
          | .binary_t l _ => maple_mark (maple_mark t l) (Lit.mkLit li.var false)
          | .null_clause_t => t)
          ∧ (match (t.varData li.var).reason with
          | .clause_t offs => (t.cl_alloc offs).lits.foldl maple_mark t
          | .binary_t l _ => maple_mark (maple_mark t l) (Lit.mkLit li.var false)
          | .null_clause_t => t).learnt_clause = t.learnt_clause := by
        have hlc : ∀ (ls : List Lit) (u : Searcher),
            (ls.foldl maple_mark u).learnt_clause = u.learnt_clause := by
          intro ls
          induction ls with
          | nil => intro u; rfl
          | cons a ls ih2 =>
            intro u
            simp only [List.foldl_cons]
            rw [ih2]
            unfold maple_mark
            split <;> rfl
        split
        · exact ⟨foldl_maple_mark_frame _ _ ht, hlc _ _⟩
        · rename_i l r _
          refine ⟨maple_mark_frame (maple_mark_frame ht _) _, ?_⟩
          have := hlc [l, Lit.mkLit li.var false] t
          simpa using this
        · exact ⟨ht, rfl⟩
      obtain ⟨h1, h2⟩ := ih _ hstep.1
      exact ⟨h1, h2.trans hstep.2⟩
  obtain ⟨h1, h2⟩ := key s.learnt_clause.reverse
    { s with seen := upd s.seen (s.learnt_clause.getD 0 lit_Undef).var true,
             toClear := s.toClear ++ [s.learnt_clause.getD 0 lit_Undef] }
    (hf.frame_trans ⟨rfl, fun _ => rfl⟩)
  exact ⟨h1.frame_trans ⟨rfl, fun _ => rfl⟩, h2⟩

theorem calc_glue_le_length (s : Searcher) (ps : List Lit) : calc_glue s ps ≤ ps.length := by
  unfold calc_glue
  calc ((ps.map s.level).filter (fun l => l != 0)).dedup.length
      ≤ ((ps.map s.level).filter (fun l => l != 0)).length :=
        (List.dedup_sublist _).length_le
    _ ≤ (ps.map s.level).length := List.length_filter_le _ _
    _ = ps.length := List.length_map _ _

theorem calc_glue_frame {s0 s : Searcher} (hf : analysis_frame s0 s) (ps : List Lit) :
    calc_glue s ps = calc_glue s0 ps := by
  unfold calc_glue
  have : s.level = s0.level := funext (fun l => hf.level l)
  rw [this]

end Searcher
end CMSat

namespace CMSat
namespace Searcher

/-! ## `analyze_conflict` -/

theorem analysis_frame.permDiff {a b : Searcher} (h : analysis_frame a b) :
    b.permDiff = a.permDiff := by
  have := congrArg Searcher.permDiff h.1; exact this

theorem analysis_frame.MYFLAG {a b : Searcher} (h : analysis_frame a b) :
    b.MYFLAG = a.MYFLAG := by
  have := congrArg Searcher.MYFLAG h.1; exact this

theorem analysis_frame.myflag_step {a b c : Searcher} (h : analysis_frame a b)
    (hc : c = { b with MYFLAG := c.MYFLAG }) : analysis_frame { a with MYFLAG := c.MYFLAG } c := by
  refine ⟨?_, fun o => ?_⟩
  · have e := h.1
    have e1 := congrArg Searcher.cl_alloc hc
    have e2 := congrArg Searcher.learnt_clause hc
    have e3 := congrArg Searcher.pathC hc
    have e4 := congrArg Searcher.seen hc
    have e5 := congrArg Searcher.toClear hc
    simp only at e1 e2 e3 e4 e5
    rw [e1, e2, e3, e4, e5]
    conv => lhs; rw [hc, e]
  · have e1 := congrArg Searcher.cl_alloc hc
    simp only at e1
    rw [e1]
    exact h.2 o

/-- The steps of `analyze_conflict` between the minimisation and the backtrack level: glue and
the two binary minimisations. -/
theorem analyze_conflict_bins {s2 : Searcher} (hperm : ∀ v, s2.permDiff v ≤ s2.MYFLAG) :
    ∃ s3 glue1,
      (if s2.learnt_clause.length ≤ s2.conf.max_size_more_minim then
          (if calc_glue s2 s2.learnt_clause ≤ s2.conf.max_glue_more_minim then
            (minimize_using_bins s2).map (fun t => (t, calc_glue s2 s2.learnt_clause))
          else some (s2, calc_glue s2 s2.learnt_clause))
        else some (s2, uint32_max)) = some (s3, glue1)
      ∧ s3 = { s2 with MYFLAG := s3.MYFLAG } ∧ s2.MYFLAG ≤ s3.MYFLAG
      ∧ (glue1 = uint32_max ∨ glue1 = calc_glue s2 s2.learnt_clause) := by
  obtain ⟨sb, hb1, hb2, hb3⟩ := minimize_using_bins_spec s2 hperm
  split
  · split
    · rw [hb1]
      exact ⟨sb, _, rfl, hb2, hb3, Or.inr rfl⟩
    · exact ⟨s2, _, rfl, rfl, le_refl _, Or.inr rfl⟩
  · exact ⟨s2, _, rfl, rfl, le_refl _, Or.inl rfl⟩

theorem more_more_step {s s3 : Searcher} {l0 : Lit} {kept : List Lit}
    (hL3 : s3.learnt_clause = l0 :: kept) (cond : Bool)
    (hz : s.conf.doMinimRedMoreMore = 0 → cond = false) :
    ∃ s4 kept4, (if cond = true then minimise_redundant_more_more s3 else some s3) = some s4
      ∧ analysis_frame s3 s4 ∧ s4.learnt_clause = l0 :: kept4 ∧ kept4.Sublist kept
      ∧ (s.conf.doMinimRedMoreMore = 0 → kept4 = kept) := by
  cases cond with
  | true =>
    obtain ⟨s4, kept4, h1, h2, h3, h4⟩ :=
      minimise_redundant_more_more_spec (analysis_frame.frame_refl s3) hL3
    refine ⟨s4, kept4, by simpa using h1, h2, h3, h4, ?_⟩
    intro h
    have := hz h
    simp at this
  | false =>
    exact ⟨s3, kept, by simp, analysis_frame.frame_refl s3, hL3, List.Sublist.refl _, fun _ => rfl⟩

theorem analyze_conflict_spec (ub : Bool) {s : Searcher} {confl : PropBy} {d : Nat}
    (h0 : trail_ok s) (hc : is_conflict_at s confl d) (hseen : ∀ v, s.seen v = false)
    (hperm : ∀ v, s.permDiff v ≤ s.MYFLAG) :
    ∃ s1 out_btlevel glue, analyze_conflict ub s confl = some (s1, out_btlevel, glue)
      ∧ analyzed s d s1 out_btlevel glue := by
  -- resolution
  have hfr0 : analysis_frame s { s with learnt_clause := [] } := ⟨rfl, fun _ => rfl⟩
  obtain ⟨s1, p, rest, hcl, hf1, _, hL1, hpiv, hadd, _, _, _⟩ :=
    @create_learnt_clause_result ub { s with learnt_clause := [] } confl d h0 hc hseen rfl
  have hf1' : analysis_frame s s1 := hfr0.frame_trans hf1
  have hadd' : ∀ q ∈ rest, 0 < s.level q ∧ s.level q < d ∧ ∃ t ∈ s.trail, t.lit = q.neg :=
    fun q hq => (hadd q hq).2
  -- minimisation
  obtain ⟨s2, kept, hmin, hf2, hL2, hsub2⟩ := minimize_learnt_clause_spec h0 hf1' hL1
    (fun q hq => (hadd' q hq).2.2)
  have hperm2 : ∀ v, s2.permDiff v ≤ s2.MYFLAG := by
    intro v
    rw [hf2.permDiff, hf2.MYFLAG]
    exact hperm v
  -- glue and binary minimisation
  obtain ⟨s3, glue1, hr3, hs3, hm3, hg3⟩ := analyze_conflict_bins hperm2
  have hf3 : analysis_frame { s with MYFLAG := s3.MYFLAG } s3 := hf2.myflag_step hs3
  have hL3 : s3.learnt_clause = p.neg :: kept := by
    have := congrArg Searcher.learnt_clause hs3
    simp only at this
    rw [this, hL2]
  have hglue : (if glue1 = uint32_max then calc_glue s3 s3.learnt_clause else glue1)
      = calc_glue s (p.neg :: kept) := by
    have e1 : calc_glue s3 s3.learnt_clause = calc_glue s (p.neg :: kept) := by
      rw [hL3]
      exact calc_glue_frame hf3 _
    have e2 : calc_glue s2 s2.learnt_clause = calc_glue s (p.neg :: kept) := by
      rw [hL2]
      exact calc_glue_frame hf2 _
    split
    · exact e1
    · rcases hg3 with h | h
      · rename_i hne; exact absurd h hne
      · rw [h, e2]
  -- the third minimisation
  have hconf3 : s3.conf = s.conf := hf3.conf
  have hcond0 : s.conf.doMinimRedMoreMore = 0 →
      (decide ((if glue1 = uint32_max then calc_glue s3 s3.learnt_clause else glue1)
            ≤ s3.conf.glue_put_lev0_if_below_or_eq + 2)
          && ((s3.conf.doMinimRedMoreMore == 1
                && decide (s3.learnt_clause.length ≤ s3.conf.max_size_more_minim))
              || (s3.conf.doMinimRedMoreMore == 2
                && decide (s3.learnt_clause.length > s3.conf.max_size_more_minim))
              || s3.conf.doMinimRedMoreMore == 3)) = false := by
    intro hz
    rw [hconf3, hz]
    simp
  obtain ⟨s4, kept4, hr4, hf4, hL4, hsub4, hsame4⟩ :=
    @more_more_step s s3 _ _ hL3 _ hcond0
  have hf4' : analysis_frame { s with MYFLAG := s3.MYFLAG } s4 := hf3.frame_trans hf4
  have hadd4 : ∀ q ∈ kept4, 0 < s.level q ∧ s.level q < d ∧ ∃ t ∈ s.trail, t.lit = q.neg :=
    fun q hq => hadd' q (hsub2.subset (hsub4.subset hq))
  have hlev4 : ∀ l, s4.level l = s.level l := fun l => hf4'.level l
  -- backtrack level
  obtain ⟨s5, β, rest5, hfb, hf5, hL5, hperm5, hβ0, hβ1⟩ : ∃ s5 β rest5,
      find_backtrack_level_of_learnt s4 = (β, s5) ∧ analysis_frame s4 s5
      ∧ s5.learnt_clause = p.neg :: rest5 ∧ rest5.Perm kept4
      ∧ (rest5 = [] → β = 0)
      ∧ (∀ q0 rest1, rest5 = q0 :: rest1 → β = s.level q0 ∧ ∀ q ∈ rest5, s.level q ≤ β) := by
    cases hk : kept4 with
    | nil =>
      refine ⟨s4, 0, [], ?_, analysis_frame.frame_refl s4, by rw [hL4, hk], List.Perm.refl _,
        fun _ => rfl, fun _ _ h => by simp at h⟩
      unfold find_backtrack_level_of_learnt
      rw [hL4, hk]
      simp
    | cons k0 krest =>
      have hlen : 1 < s4.learnt_clause.length := by rw [hL4, hk]; simp
      obtain ⟨g1, g2, g3, g4, g5, g6⟩ := find_backtrack_level_of_learnt_facts s4 hlen
      rcases hfb : find_backtrack_level_of_learnt s4 with ⟨β, s5⟩
      rw [hfb] at g1 g2 g3 g4 g5 g6
      simp only at g1 g2 g3 g4 g5 g6
      have hf5 : analysis_frame s4 s5 := by
        rw [g6]; exact ⟨rfl, fun _ => rfl⟩
      rw [hL4] at g4 g5 g1 g2
      cases hL5 : s5.learnt_clause with
      | nil => rw [hL5] at g4; simp at g4
      | cons a rest5 =>
        rw [hL5] at g4 g5 g3
        simp only [List.head?_cons, Option.some.injEq] at g4
        subst g4
        have hp5 : rest5.Perm kept4 := (List.perm_cons _).1 g5
        refine ⟨s5, β, rest5, rfl, hf5, hL5, by rw [← hk]; exact hp5, ?_, ?_⟩
        · intro hnil
          rw [hnil] at hp5
          have := hp5.symm.eq_nil
          rw [hk] at this
          simp at this
        · intro q0 rest1 hq
          rw [hq] at g3
          simp only [List.getD_cons_succ, List.getD_cons_zero] at g3
          refine ⟨?_, ?_⟩
          · rw [← g3, hf5.level, hlev4]
          · intro q hqm
            have := g1 q (by
              simp only [List.tail_cons]
              exact hp5.subset hqm)
            rw [hlev4] at this
            exact this
  have hf5' : analysis_frame { s with MYFLAG := s3.MYFLAG } s5 := hf4'.frame_trans hf5
  -- the Maple bump
  obtain ⟨s6, hs6, hf6, hL6⟩ : ∃ s6,
      (if (!ub && decide (s5.branch_strategy = branch.maple)) = true
        then analyze_conflict_maple s5 else s5) = s6
      ∧ analysis_frame { s with MYFLAG := s3.MYFLAG } s6
      ∧ s6.learnt_clause = s5.learnt_clause := by
    split
    · obtain ⟨h1, h2⟩ := analyze_conflict_maple_frame hf5'
      exact ⟨_, rfl, h1, h2⟩
    · exact ⟨_, rfl, hf5', rfl⟩
  refine ⟨s6, β, calc_glue s (p.neg :: kept), ?_, ?_⟩
  · unfold analyze_conflict
    simp only
    rw [hcl]
    simp only
    rw [hmin]
    simp only
    rw [hr3]
    simp only
    rw [hr4]
    simp only
    rw [hfb]
    simp only [hglue]
    rw [← hs6]
  · have hm6 : s6.MYFLAG = s3.MYFLAG := hf6.MYFLAG
    refine ⟨by rw [hm6]; exact hf6, ?_, ⟨p, rest5, by rw [hL6, hL5], hpiv, ?_, hβ0, hβ1⟩, ?_⟩
    · rw [hm6]
      have : s2.MYFLAG = s.MYFLAG := hf2.MYFLAG
      omega
    · intro q hq
      exact hadd4 q (hperm5.subset hq)
    · intro hz
      rw [hL6, hL5]
      have hk := hsame4 hz
      have hlen : rest5.length = kept.length := by rw [hperm5.length_eq, hk]
      have := calc_glue_le_length s (p.neg :: kept)
      simp only [List.length_cons] at this ⊢
      omega

end Searcher
end CMSat

namespace CMSat
namespace Searcher

/-! ## `find_conflict_level` -/

/-- The well-formedness of the trail depends only on the trail, the levels and reasons, the
assignment, `trail_lim` and the literals of the reason clauses. -/
theorem trail_ok_congr {s s1 : Searcher} (h0 : trail_ok s) (ht : s1.trail = s.trail)
    (hv : s1.varData = s.varData) (ha : s1.assigns = s.assigns)
    (hl : s1.trail_lim = s.trail_lim)
    (hc : ∀ t ∈ s.trail, ∀ o, (s.varData t.lit.var).reason = PropBy.clause_t o →
      (s1.cl_alloc o).lits = (s.cl_alloc o).lits) : trail_ok s1 := by
  obtain ⟨a, b, c, d⟩ := h0
  refine ⟨by rw [ht]; exact a, ?_, ?_, ?_⟩
  · intro t htm
    rw [ht] at htm
    have := b t htm
    simp only [Searcher.value, Searcher.decisionLevel, hv, ha, hl] at this ⊢
    exact this
  · intro i hi
    rw [ht] at hi ⊢
    have hr := c i hi
    have hmem : s.trail.getD i ⟨lit_Undef, 0⟩ ∈ s.trail := by
      rw [List.getD_eq_getElem?_getD, List.getElem?_eq_getElem hi]
      exact List.getElem_mem hi
    unfold reason_ok at hr ⊢
    rw [hv]
    cases hre : (s.varData (s.trail.getD i ⟨lit_Undef, 0⟩).lit.var).reason with
    | null_clause_t =>
      rw [hre] at hr
      simp only [ht]
      exact hr
    | binary_t q r =>
      rw [hre] at hr
      simp only [false_before, Searcher.level, hv, ht] at hr ⊢
      exact hr
    | clause_t o =>
      rw [hre] at hr
      have := hc _ hmem o hre
      simp only [false_before, Searcher.level, hv, ht, this] at hr ⊢
      exact hr
  · intro b hb
    rw [hl] at hb ⊢
    rw [ht]
    exact d b hb

theorem swapAt_getD_left (L : List Lit) (i j : Nat) (hi : i < L.length) :
    (swapAt L i j).getD i lit_Undef = L.getD j lit_Undef := by
  by_cases hij : i = j
  · subst hij
    simp [swapAt, List.getD_eq_getElem?_getD, List.getElem?_set, hi]
  · simp [swapAt, List.getD_eq_getElem?_getD, List.getElem?_set, hi, hij, Ne.symm hij]

theorem headD_eq_getD (L : List Lit) : L.headD lit_Undef = L.getD 0 lit_Undef := by
  cases L <;> rfl

theorem find_conflict_level_scan_spec (s : Searcher) (clause : List Lit) :
    ∀ (is : List Nat) (hid nH : Nat),
      nH = (s.varData (clause.getD hid lit_Undef).var).level →
      ((find_conflict_level_scan s clause is (hid, nH)).1 = hid
          ∧ (find_conflict_level_scan s clause is (hid, nH)).2 = nH
        ∨ (find_conflict_level_scan s clause is (hid, nH)).1 ∈ is
          ∧ nH < (find_conflict_level_scan s clause is (hid, nH)).2)
      ∧ (find_conflict_level_scan s clause is (hid, nH)).2
          = (s.varData (clause.getD
              (find_conflict_level_scan s clause is (hid, nH)).1 lit_Undef).var).level
      ∧ nH ≤ (find_conflict_level_scan s clause is (hid, nH)).2
      ∧ ∀ i ∈ is, (s.varData (clause.getD i lit_Undef).var).level
          ≤ (find_conflict_level_scan s clause is (hid, nH)).2
  | [], hid, nH, h => by simp [find_conflict_level_scan, h]
  | i :: is, hid, nH, h => by
    unfold find_conflict_level_scan
    simp only
    split
    · rename_i hgt
      obtain ⟨h1, h2, h3, h4⟩ := find_conflict_level_scan_spec s clause is i
        (s.varData (clause.getD i lit_Undef).var).level rfl
      refine ⟨Or.inr ?_, h2, by omega, ?_⟩
      · rcases h1 with ⟨h1, h1'⟩ | ⟨h1, h1'⟩
        · rw [h1, h1']; exact ⟨List.mem_cons_self _ _, hgt⟩
        · exact ⟨List.mem_cons_of_mem _ h1, by omega⟩
      · intro k hk
        rcases List.mem_cons.1 hk with rfl | hk
        · exact h3
        · exact h4 k hk
    · rename_i hgt
      obtain ⟨h1, h2, h3, h4⟩ := find_conflict_level_scan_spec s clause is hid nH h
      refine ⟨?_, h2, h3, ?_⟩
      · rcases h1 with h1 | ⟨h1, h1'⟩
        · exact Or.inl h1
        · exact Or.inr ⟨List.mem_cons_of_mem _ h1, h1'⟩
      · intro k hk
        rcases List.mem_cons.1 hk with rfl | hk
        · omega
        · exact h4 k hk

/-- The literals of a conflict have levels at most the decision level. -/
theorem is_conflict.level_le {s : Searcher} {confl : PropBy} (h0 : trail_ok s)
    (hc : is_conflict s confl) {q : Lit} (hq : q ∈ confl_lits s confl) :
    s.level q ≤ s.decisionLevel := by
  obtain ⟨t, ht, htq⟩ := hc.2 q hq
  rw [h0.level_of_false ht htq]
  exact (h0.entry ht).2.2.2

/-- A conflicting long clause is not the reason of a trail literal. -/
theorem conflict_not_reason {s : Searcher} {offs : Nat} (h0 : trail_ok s)
    (hc : is_conflict s (.clause_t offs)) {t : Trail} (ht : t ∈ s.trail) :
    (s.varData t.lit.var).reason ≠ PropBy.clause_t offs := by
  intro hr
  obtain ⟨i, hi, rfl⟩ := List.getElem_of_mem ht
  have hro := h0.reason hi
  have hgetD : s.trail.getD i ⟨lit_Undef, 0⟩ = s.trail[i] := by
    simp [List.getD_eq_getElem?_getD, hi]
  rw [hgetD] at hro
  unfold reason_ok at hro
  rw [hr] at hro
  dsimp only at hro
  have hmem : s.trail[i].lit ∈ confl_lits s (.clause_t offs) := by
    simp only [confl_lits]
    exact List.mem_of_mem_head? hro.1
  obtain ⟨u, hu, huq⟩ := hc.2 _ hmem
  have := h0.same_var hu ht (by rw [huq, Lit.var_neg])
  rw [this] at huq
  exact Lit.neg_ne _ huq.symm

end Searcher
end CMSat

namespace CMSat
namespace Searcher

theorem find_conflict_level_binary {s : Searcher} {lit2 : Lit} {red : Bool}
    (h0 : trail_ok s) (hc : is_conflict s (.binary_t lit2 red)) :
    ∃ nH confl1 s1, find_conflict_level s (.binary_t lit2 red) = some (nH, confl1, s1)
      ∧ conflict_found s (.binary_t lit2 red) nH confl1 s1 := by
  have hle1 : s.level s.failBinLit ≤ s.decisionLevel :=
    hc.level_le h0 (by simp [confl_lits])
  have hle2 : s.level lit2 ≤ s.decisionLevel := hc.level_le h0 (by simp [confl_lits])
  simp only [Searcher.level] at hle1 hle2
  unfold find_conflict_level
  simp only
  split
  · rename_i h
    refine ⟨_, _, _, rfl, ⟨rfl, h0, hc, rfl, ?_, List.Perm.refl _, fun _ => ⟨rfl, rfl⟩⟩⟩
    intro q hq
    simp only [confl_lits, List.mem_cons, List.mem_singleton, List.not_mem_nil, or_false] at hq
    rcases hq with rfl | rfl
    · exact le_refl _
    · simp only [Searcher.level]; omega
  · split
    · rename_i h1 h2
      refine ⟨_, _, _, rfl, ⟨rfl, ?_, ?_, rfl, ?_, ?_, ?_⟩⟩
      · exact trail_ok_congr h0 rfl rfl rfl rfl (fun _ _ _ _ => rfl)
      · refine ⟨by simp [confl_lits], ?_⟩
        intro q hq
        simp only [confl_lits, List.mem_cons, List.mem_singleton, List.not_mem_nil,
          or_false] at hq
        apply hc.2
        simp only [confl_lits, List.mem_cons, List.mem_singleton, List.not_mem_nil, or_false]
        tauto
      · intro q hq
        simp only [confl_lits, List.mem_cons, List.mem_singleton, List.not_mem_nil,
          or_false] at hq
        rcases hq with rfl | rfl
        · exact le_refl _
        · simp only [Searcher.level]; omega
      · simp only [confl_lits]
        exact List.Perm.swap _ _ _
      · intro hz
        omega
    · rename_i h1 h2
      refine ⟨_, _, _, rfl, ⟨rfl, h0, hc, rfl, ?_, List.Perm.refl _, fun _ => ⟨rfl, rfl⟩⟩⟩
      intro q hq
      simp only [confl_lits, List.mem_cons, List.mem_singleton, List.not_mem_nil, or_false] at hq
      rcases hq with rfl | rfl
      · exact le_refl _
      · simp only [Searcher.level]; omega

theorem find_conflict_level_swap_eq (s : Searcher) (offs highestId : Nat) :
    find_conflict_level_swap s offs highestId
        = { s with failBinLit := (find_conflict_level_swap s offs highestId).failBinLit,
                   cl_alloc := (find_conflict_level_swap s offs highestId).cl_alloc,
                   watches := (find_conflict_level_swap s offs highestId).watches }
      ∧ (find_conflict_level_swap s offs highestId).cl_alloc
          = upd s.cl_alloc offs
              { (s.cl_alloc offs) with lits := swapAt (s.cl_alloc offs).lits 0 highestId } := by
  unfold find_conflict_level_swap
  simp only
  split <;> exact ⟨rfl, rfl⟩

theorem find_conflict_level_long {s : Searcher} {offs : Nat}
    (h0 : trail_ok s) (hc : is_conflict s (.clause_t offs)) :
    ∃ nH confl1 s1, find_conflict_level s (.clause_t offs) = some (nH, confl1, s1)
      ∧ conflict_found s (.clause_t offs) nH confl1 s1 := by
  have hlits : confl_lits s (.clause_t offs) = (s.cl_alloc offs).lits := rfl
  have hne : (s.cl_alloc offs).lits ≠ [] := hc.1
  have hlen : 0 < (s.cl_alloc offs).lits.length := List.length_pos.2 hne
  have hle : ∀ q ∈ (s.cl_alloc offs).lits, (s.varData q.var).level ≤ s.decisionLevel :=
    fun q hq => hc.level_le h0 hq
  have hmemi : ∀ i, i < (s.cl_alloc offs).lits.length →
      (s.cl_alloc offs).lits.getD i lit_Undef ∈ (s.cl_alloc offs).lits := by
    intro i hi
    rw [List.getD_eq_getElem?_getD, List.getElem?_eq_getElem hi]
    exact List.getElem_mem hi
  have hall : ∀ q ∈ (s.cl_alloc offs).lits, ∃ i, i < (s.cl_alloc offs).lits.length
      ∧ (s.cl_alloc offs).lits.getD i lit_Undef = q := by
    intro q hq
    obtain ⟨i, hi, rfl⟩ := List.getElem_of_mem hq
    exact ⟨i, hi, by simp [List.getD_eq_getElem?_getD, hi]⟩
  unfold find_conflict_level
  simp only
  split
  · rename_i h
    refine ⟨_, _, _, rfl, ⟨rfl, h0, hc, ?_, ?_, List.Perm.refl _, fun _ => ⟨rfl, rfl⟩⟩⟩
    · simp only [confl_lits, Searcher.level, headD_eq_getD]
    · intro q hq
      rw [h.1]
      exact hle q hq
  · obtain ⟨h1, h2, h3, h4⟩ := find_conflict_level_scan_spec s (s.cl_alloc offs).lits
      (List.range' 1 ((s.cl_alloc offs).lits.length - 1)) 0
      (s.varData ((s.cl_alloc offs).lits.getD 0 lit_Undef).var).level rfl
    set r := find_conflict_level_scan s (s.cl_alloc offs).lits
      (List.range' 1 ((s.cl_alloc offs).lits.length - 1))
      (0, (s.varData ((s.cl_alloc offs).lits.getD 0 lit_Undef).var).level) with hr
    have hmax : ∀ q ∈ (s.cl_alloc offs).lits, (s.varData q.var).level ≤ r.2 := by
      intro q hq
      obtain ⟨i, hi, rfl⟩ := hall q hq
      by_cases hi0 : i = 0
      · subst hi0; exact h3
      · exact h4 i (List.mem_range'_1.2 (by omega))
    by_cases hid : r.1 = 0
    · rw [if_neg (by simpa using hid)]
      refine ⟨_, _, _, rfl, ⟨rfl, h0, hc, ?_, hmax, List.Perm.refl _, fun _ => ⟨rfl, rfl⟩⟩⟩
      simp only [confl_lits, Searcher.level, headD_eq_getD]
      rw [h2, hid]
    · rw [if_pos hid]
      have hrange : r.1 < (s.cl_alloc offs).lits.length := by
        rcases h1 with ⟨h1, _⟩ | ⟨h1, _⟩
        · exact absurd h1 hid
        · have := List.mem_range'_1.1 h1
          omega
      have hpos : 0 < r.2 := by
        rcases h1 with ⟨h1, _⟩ | ⟨_, h1⟩
        · exact absurd h1 hid
        · omega
      set clause1 := swapAt (s.cl_alloc offs).lits 0 r.1 with hc1
      have hperm : clause1.Perm (s.cl_alloc offs).lits := swapAt_perm _ _ _ hlen hrange
      have hhead : clause1.getD 0 lit_Undef = (s.cl_alloc offs).lits.getD r.1 lit_Undef :=
        swapAt_getD_left _ _ _ hlen
      obtain ⟨hs1, hca⟩ := find_conflict_level_swap_eq s offs r.1
      set s1 := find_conflict_level_swap s offs r.1 with hs1d
      have htr : s1.trail = s.trail := by
        have := congrArg Searcher.trail hs1; exact this
      have hvd : s1.varData = s.varData := by
        have := congrArg Searcher.varData hs1; exact this
      have has : s1.assigns = s.assigns := by
        have := congrArg Searcher.assigns hs1; exact this
      have htl : s1.trail_lim = s.trail_lim := by
        have := congrArg Searcher.trail_lim hs1; exact this
      have hl1 : confl_lits s1 (.clause_t offs) = clause1 := by
        simp [confl_lits, hca, upd, hc1]
      refine ⟨r.2, .clause_t offs, s1, rfl, ⟨hs1, ?_, ?_, ?_, ?_, ?_, ?_⟩⟩
      · apply trail_ok_congr h0 htr hvd has htl
        intro t ht o hro
        have hoo : o ≠ offs := by
          intro he
          rw [he] at hro
          exact conflict_not_reason h0 hc ht hro
        simp [hca, upd, hoo]
      · rw [is_conflict, hl1, htr]
        refine ⟨?_, ?_⟩
        · intro he
          have := hperm.length_eq
          rw [he] at this
          simp at this
          omega
        · intro q hq
          exact hc.2 q (hperm.subset hq)
      · rw [hl1, headD_eq_getD, hhead]
        simp only [Searcher.level, hvd]
        exact h2.symm
      · rw [hl1]
        intro q hq
        simp only [Searcher.level, hvd]
        exact hmax q (hperm.subset hq)
      · rw [hl1]; exact hperm
      · intro hz; omega

/-- On a conflict, `find_conflict_level` returns the highest level among the literals of the
conflicting constraint and leaves a literal of that level in front. -/
theorem find_conflict_level_spec {s : Searcher} {confl : PropBy}
    (h0 : trail_ok s) (hc : is_conflict s confl) :
    ∃ nH confl1 s1, find_conflict_level s confl = some (nH, confl1, s1)
      ∧ conflict_found s confl nH confl1 s1 := by
  cases confl with
  | null_clause_t => exact absurd rfl hc.1
  | binary_t l r => exact find_conflict_level_binary h0 hc
  | clause_t o => exact find_conflict_level_long h0 hc

end Searcher
end CMSat

namespace CMSat
namespace Searcher

/-! ## `cancelUntil` -/

theorem insert_var_order_core (s : Searcher) (x : Nat) :
    backtrack_core (insert_var_order s x) = backtrack_core s
      ∧ (insert_var_order s x).assigns = s.assigns := by
  unfold insert_var_order
  split <;> split <;> exact ⟨rfl, rfl⟩

theorem cancelUntil_fold_spec (b : Nat) :
    ∀ (E : List Trail) (st : Searcher) (tmp : List Trail),
      backtrack_core (E.foldl (cancelUntil_step b) (st, tmp)).1 = backtrack_core st
      ∧ (∀ v, (E.foldl (cancelUntil_step b) (st, tmp)).1.assigns v
          = if (∃ e ∈ E, b < e.lev ∧ e.lit.var = v) then l_Undef else st.assigns v)
      ∧ (E.foldl (cancelUntil_step b) (st, tmp)).2 = tmp ++ E.filter (fun e => decide (e.lev ≤ b))
  | [], st, tmp => by simp
  | e :: E, st, tmp => by
    simp only [List.foldl_cons]
    by_cases he : e.lev ≤ b
    · have hstep : cancelUntil_step b (st, tmp) e = (st, tmp ++ [e]) := by
        simp [cancelUntil_step, he]
      rw [hstep]
      obtain ⟨h1, h2, h3⟩ := cancelUntil_fold_spec b E st (tmp ++ [e])
      refine ⟨h1, ?_, ?_⟩
      · intro v
        rw [h2 v]
        have : (∃ e' ∈ e :: E, b < e'.lev ∧ e'.lit.var = v) ↔ (∃ e' ∈ E, b < e'.lev ∧ e'.lit.var = v) := by
          constructor
          · rintro ⟨e', he', h⟩
            rcases List.mem_cons.1 he' with rfl | he'
            · omega
            · exact ⟨e', he', h⟩
          · rintro ⟨e', he', h⟩
            exact ⟨e', List.mem_cons_of_mem _ he', h⟩
        simp only [this]
      · rw [h3]
        simp [List.filter_cons, he]
    · have hstep : cancelUntil_step b (st, tmp) e
          = (insert_var_order { st with assigns := upd st.assigns e.lit.var l_Undef } e.lit.var,
              tmp) := by
        simp [cancelUntil_step, he]
      rw [hstep]
      obtain ⟨h1, h2, h3⟩ := cancelUntil_fold_spec b E
        (insert_var_order { st with assigns := upd st.assigns e.lit.var l_Undef } e.lit.var) tmp
      obtain ⟨hio, hia⟩ := insert_var_order_core
        { st with assigns := upd st.assigns e.lit.var l_Undef } e.lit.var
      refine ⟨?_, ?_, ?_⟩
      · rw [h1, hio]; rfl
      · intro v
        rw [h2 v, hia]
        by_cases hv : ∃ e' ∈ E, b < e'.lev ∧ e'.lit.var = v
        · have : ∃ e' ∈ e :: E, b < e'.lev ∧ e'.lit.var = v := by
            obtain ⟨e', he', h⟩ := hv
            exact ⟨e', List.mem_cons_of_mem _ he', h⟩
          simp only [hv, this, if_true]
        · rw [if_neg hv]
          by_cases hve : e.lit.var = v
          · have : ∃ e' ∈ e :: E, b < e'.lev ∧ e'.lit.var = v :=
              ⟨e, List.mem_cons_self _ _, by omega, hve⟩
            rw [if_pos this]
            simp [upd, hve]
          · have : ¬ ∃ e' ∈ e :: E, b < e'.lev ∧ e'.lit.var = v := by
              rintro ⟨e', he', h⟩
              rcases List.mem_cons.1 he' with rfl | he'
              · exact hve h.2
              · exact hv ⟨e', he', h⟩
            rw [if_neg this]
            simp [upd, Ne.symm hve]
      · rw [h3]
        simp [List.filter_cons, he]

/-- Backtracking changes the assignment, the branching heaps, `qhead`, the trail and
`trail_lim` only. -/
theorem cancelUntil_core (s : Searcher) (b : Nat) :
    backtrack_core (cancelUntil s b) = backtrack_core s := by
  unfold cancelUntil
  split
  · obtain ⟨h1, _, _⟩ := cancelUntil_fold_spec b
      (s.trail.drop (s.trail_lim.getD b 0)).reverse s []
    rw [← h1]
    rfl
  · rfl

theorem cancelUntil_decisionLevel (s : Searcher) (b : Nat) (hb : b < s.decisionLevel) :
    (cancelUntil s b).decisionLevel = b := by
  unfold cancelUntil
  rw [if_pos hb]
  simp only [Searcher.decisionLevel, List.length_take]
  simp only [Searcher.decisionLevel] at hb
  omega

/-- After `cancelUntil(b)` the variables of the trail entries of level at most `b` keep their
value, those of the other entries are unassigned. -/
theorem cancelUntil_assigns {s : Searcher} (h0 : trail_ok s) {b : Nat}
    (hb : b < s.decisionLevel) {t : Trail} (ht : t ∈ s.trail) :
    (t.lev ≤ b → (cancelUntil s b).assigns t.lit.var = s.assigns t.lit.var)
      ∧ (b < t.lev → (cancelUntil s b).assigns t.lit.var = l_Undef) := by
  obtain ⟨_, h2, _⟩ := cancelUntil_fold_spec b
    (s.trail.drop (s.trail_lim.getD b 0)).reverse s []
  have hassign : (cancelUntil s b).assigns
      = ((s.trail.drop (s.trail_lim.getD b 0)).reverse.foldl (cancelUntil_step b) (s, [])).1.assigns := by
    unfold cancelUntil
    rw [if_pos hb]
  rw [hassign, h2]
  obtain ⟨_, hlim⟩ := h0.lim (b := b) hb
  constructor
  · intro hle
    rw [if_neg]
    rintro ⟨e, he, hlt, hv⟩
    have hem : e ∈ s.trail := List.mem_of_mem_drop (List.mem_reverse.1 he)
    have := h0.same_var hem ht hv
    rw [this] at hlt
    omega
  · intro hlt
    rw [if_pos]
    refine ⟨t, List.mem_reverse.2 ?_, hlt, rfl⟩
    have hsplit := List.take_append_drop (s.trail_lim.getD b 0) s.trail
    rw [← hsplit] at ht
    rcases List.mem_append.1 ht with h | h
    · have := hlim t h
      omega
    · exact h

end Searcher
end CMSat

namespace CMSat
namespace Searcher

/-! ## `handle_conflict` up to the backtrack -/

theorem build_decision_clause_spec (s : Searcher) :
    ∀ (lims : List Nat) (t : Searcher), (∀ lim ∈ lims, lim < s.trail.length) →
      ∃ t1, build_decision_clause s lims t = some t1 ∧ decision_core t1 = decision_core t
  | [], t, _ => ⟨t, rfl, rfl⟩
  | lim :: lims, t, h => by
    have hl : lim < s.trail.length := h lim (List.mem_cons_self _ _)
    unfold build_decision_clause
    rw [List.getElem?_eq_getElem hl]
    simp only
    split
    · obtain ⟨t1, h1, h2⟩ := build_decision_clause_spec s lims
        { t with decision_clause := t.decision_clause ++ [s.trail[lim].lit.neg],
                 seen := upd t.seen s.trail[lim].lit.neg.toInt true }
        (fun l hl => h l (List.mem_cons_of_mem _ hl))
      exact ⟨t1, h1, h2.trans rfl⟩
    · exact build_decision_clause_spec s lims t (fun l hl => h l (List.mem_cons_of_mem _ hl))

theorem build_decision_clause_core (s : Searcher) :
    ∀ (lims : List Nat) (t t1 : Searcher), build_decision_clause s lims t = some t1 →
      decision_core t1 = decision_core t
  | [], t, t1, h => by
    simp only [build_decision_clause, Option.some.injEq] at h
    rw [← h]
  | lim :: lims, t, t1, h => by
    unfold build_decision_clause at h
    split at h
    · cases h
    · simp only at h
      split at h
      · exact (build_decision_clause_core s lims _ t1 h).trans rfl
      · exact build_decision_clause_core s lims t t1 h

theorem collect_decision_clause_spec (s : Searcher)
    (h : ∀ lim ∈ s.trail_lim, lim < s.trail.length) :
    ∃ s4, collect_decision_clause s = some s4 ∧ decision_core s4 = decision_core s := by
  unfold collect_decision_clause
  simp only
  split
  · obtain ⟨t1, h1, h2⟩ := build_decision_clause_spec { s with decision_clause := [] }
      s.trail_lim.reverse { s with decision_clause := [] }
      (fun l hl => h l (List.mem_reverse.1 hl))
    rw [h1]
    exact ⟨_, rfl, h2.trans rfl⟩
  · exact ⟨_, rfl, rfl⟩

theorem collect_decision_clause_off (s : Searcher) (h : s.conf.do_decision_based_cl = false) :
    collect_decision_clause s = some { s with decision_clause := [] } := by
  unfold collect_decision_clause
  simp only [h, Bool.false_and, Bool.false_eq_true, if_false]

/-- The literals of the learnt clause after the backtrack of `handle_conflict`. -/
theorem backtrack_after_conflict_spec (s4 : Searcher) {d β : Nat}
    (hd : 0 < d) (hβ : β < d) :
    ∃ b, backtrack_after_conflict s4 d β = cancelUntil s4 b ∧ β ≤ b ∧ b < d := by
  unfold backtrack_after_conflict
  split
  · exact ⟨d - 1, rfl, by omega, by omega⟩
  · exact ⟨β, rfl, le_refl _, hβ⟩

theorem note_conflict_ok {s : Searcher} {confl : PropBy} (h : conflict_state s confl) :
    conflict_state (note_conflict s) confl := h

theorem handle_conflict_backtrack_spec {s : Searcher} {confl : PropBy}
    (h : conflict_state s confl) :
    ∃ o, handle_conflict_backtrack s confl = some (.inr o)
      ∧ 0 < o.nHighestLevel
      ∧ (∀ q ∈ confl_lits s confl, s.level q ≤ o.nHighestLevel)
      ∧ (∃ q ∈ confl_lits s confl, s.level q = o.nHighestLevel)
      ∧ ∃ l0 rest, o.st.learnt_clause = l0 :: rest
        ∧ o.st.value l0 = l_Undef
        ∧ (∀ q ∈ rest, o.st.value q = l_False)
        ∧ (rest = [] → o.backtrack_level = 0)
        ∧ (∀ q0 r, rest = q0 :: r → o.backtrack_level = o.st.level q0)
        ∧ o.backtrack_level < o.nHighestLevel
        ∧ o.st.decisionLevel < s.decisionLevel
        ∧ o.backtrack_level ≤ o.st.decisionLevel
        ∧ (s.conf.do_decision_based_cl = false → o.st.decision_clause = []) := by
  obtain ⟨h0, hc, ⟨qpos, hqm, hqpos⟩, hseen, hperm, hlim⟩ := note_conflict_ok h
  obtain ⟨nH, confl1, s1, hfc, hcf⟩ := find_conflict_level_spec h0 hc
  have hs1 := hcf.same
  have hvd1 : s1.varData = (note_conflict s).varData := by
    have := congrArg Searcher.varData hs1; exact this
  have hseen1 : ∀ v, s1.seen v = false := by
    have := congrArg Searcher.seen hs1
    intro v; rw [this]; exact hseen v
  have hperm1 : ∀ v, s1.permDiff v ≤ s1.MYFLAG := by
    have e1 := congrArg Searcher.permDiff hs1
    have e2 := congrArg Searcher.MYFLAG hs1
    intro v; rw [e1, e2]; exact hperm v
  have htr1 : s1.trail = s.trail := by
    have := congrArg Searcher.trail hs1; exact this
  have htl1 : s1.trail_lim = s.trail_lim := by
    have := congrArg Searcher.trail_lim hs1; exact this
  have has1 : s1.assigns = s.assigns := by
    have := congrArg Searcher.assigns hs1; exact this
  have hlev1 : ∀ q, s1.level q = s.level q := by
    intro q; simp only [Searcher.level, hvd1]; rfl
  have hqpos1 : 0 < s.level qpos := hqpos
  have hnH : 0 < nH := by
    have := hcf.max qpos (hcf.perm.symm.subset hqm)
    rw [hlev1] at this
    omega
  have hmaxs : ∀ q ∈ confl_lits s confl, s.level q ≤ nH := by
    intro q hq
    have := hcf.max q (hcf.perm.symm.subset hq)
    rw [hlev1] at this
    exact this
  have hexs : ∃ q ∈ confl_lits s confl, s.level q = nH := by
    have hne := hcf.still.1
    cases hL : confl_lits s1 confl1 with
    | nil => exact absurd hL hne
    | cons a L =>
      have hh := hcf.head
      rw [hL] at hh
      simp only [List.headD_cons] at hh
      refine ⟨a, hcf.perm.subset (by rw [hL]; simp), ?_⟩
      rw [← hlev1]; exact hh
  have hcat : is_conflict_at s1 confl1 nH := ⟨hcf.still, hnH, hcf.head, hcf.max⟩
  obtain ⟨s2, β, glue, han, hand⟩ := analyze_conflict_spec false hcf.ok hcat hseen1 hperm1
  obtain ⟨p, rest, hL2, ⟨tp, htp, htpl, htplev⟩, hrest, hβ0, hβ1⟩ := hand.shape
  have hf2 := hand.frame
  have htr2 : s2.trail = s.trail := hf2.trail.trans htr1
  have htl2 : s2.trail_lim = s.trail_lim := hf2.trail_lim.trans htl1
  obtain ⟨s4, hdc, hcore4⟩ := collect_decision_clause_spec
    { s2 with glueHist := s2.glueHist ++ [glue] }
    (by show ∀ lim ∈ s2.trail_lim, lim < s2.trail.length
        rw [htr2, htl2]; exact hlim)
  have htr4 : s4.trail = s.trail := by
    have := congrArg Searcher.trail hcore4; exact this.trans htr2
  have htl4 : s4.trail_lim = s.trail_lim := by
    have := congrArg Searcher.trail_lim hcore4; exact this.trans htl2
  have hvd4 : s4.varData = s1.varData := by
    have := congrArg Searcher.varData hcore4; exact this.trans hf2.varData
  have has4 : s4.assigns = s1.assigns := by
    have := congrArg Searcher.assigns hcore4; exact this.trans hf2.assigns
  have hL4 : s4.learnt_clause = p.neg :: rest := by
    have := congrArg Searcher.learnt_clause hcore4; exact this.trans hL2
  have hca4 : ∀ o, (s4.cl_alloc o).lits = (s1.cl_alloc o).lits := by
    intro o
    have := congrArg Searcher.cl_alloc hcore4
    simp only [decision_core] at this
    rw [this]
    exact hf2.2 o
  have h04 : trail_ok s4 := trail_ok_congr hcf.ok (htr4.trans htr1.symm) hvd4 has4
    (htl4.trans htl1.symm) (fun _ _ o _ => hca4 o)
  have hdl : nH ≤ s4.decisionLevel := by
    have := (hcf.ok.entry htp).2.2.2
    simp only [Searcher.decisionLevel, htl4, htl1] at this ⊢
    omega
  have hβlt : β < nH := by
    cases hr : rest with
    | nil => rw [hβ0 hr]; exact hnH
    | cons q0 r =>
      rw [(hβ1 q0 r hr).1]
      exact (hrest q0 (by rw [hr]; simp)).2.1
  obtain ⟨b, hbt, hβb, hbd⟩ := backtrack_after_conflict_spec s4 hnH hβlt
  have hbdl : b < s4.decisionLevel := by omega
  have hcore5 := cancelUntil_core s4 b
  have hL5 : (cancelUntil s4 b).learnt_clause = p.neg :: rest := by
    have := congrArg Searcher.learnt_clause hcore5; exact this.trans hL4
  have hvd5 : (cancelUntil s4 b).varData = s4.varData := by
    have := congrArg Searcher.varData hcore5; exact this
  have htp4 : tp ∈ s4.trail := by rw [htr4, ← htr1]; exact htp
  refine ⟨⟨backtrack_after_conflict s4 nH β, nH, β, glue, s2.decisionLevel⟩, ?_, hnH, hmaxs,
    hexs, p.neg, rest, ?_, ?_, ?_, hβ0, ?_, hβlt, ?_, ?_, ?_⟩
  · unfold handle_conflict_backtrack
    rw [hfc]
    simp only
    rw [if_neg (by omega), han]
    simp only
    rw [update_history_stats, if_pos (by
      simp only [Searcher.decisionLevel, htl4, htl2] at hdl ⊢; omega)]
    simp only
    rw [hdc]
    rfl
  · show (backtrack_after_conflict s4 nH β).learnt_clause = _
    rw [hbt]; exact hL5
  · show (backtrack_after_conflict s4 nH β).value p.neg = l_Undef
    rw [hbt]
    have := (cancelUntil_assigns h04 hbdl htp4).2 (by omega)
    simp only [Searcher.value, Lit.var_neg]
    rw [← htpl, this]
    cases tp.lit.neg.sign <;> rfl
  · intro q hq
    show (backtrack_after_conflict s4 nH β).value q = l_False
    rw [hbt]
    obtain ⟨_, hq2, t, ht, htq⟩ := hrest q hq
    have ht4 : t ∈ s4.trail := by rw [htr4, ← htr1]; exact ht
    have hlq : t.lev ≤ b := by
      have e1 : s1.level q = t.lev := hcf.ok.level_of_false ht htq
      cases hr : rest with
      | nil => rw [hr] at hq; simp at hq
      | cons q0 r =>
        have := (hβ1 q0 r hr).2 q hq
        omega
    have hkeep := (cancelUntil_assigns h04 hbdl ht4).1 hlq
    have htrue : s4.value t.lit = l_True := (h04.entry ht4).2.1
    have hfalse := value_neg_of_true s4 t.lit htrue
    rw [htq, Lit.neg_neg] at hfalse
    simp only [Searcher.value] at hfalse ⊢
    rw [htq, Lit.var_neg] at hkeep
    rw [hkeep]
    exact hfalse
  · intro q0 r hr
    show β = (backtrack_after_conflict s4 nH β).level q0
    rw [hbt]
    simp only [Searcher.level, hvd5, hvd4]
    exact (hβ1 q0 r hr).1
  · show (backtrack_after_conflict s4 nH β).decisionLevel < s.decisionLevel
    rw [hbt, cancelUntil_decisionLevel s4 b hbdl]
    simp only [Searcher.decisionLevel, htl4] at hbdl
    exact hbdl
  · show β ≤ (backtrack_after_conflict s4 nH β).decisionLevel
    rw [hbt, cancelUntil_decisionLevel s4 b hbdl]
    exact hβb
  · intro hoff
    show (backtrack_after_conflict s4 nH β).decision_clause = []
    rw [hbt]
    have e5 : (cancelUntil s4 b).decision_clause = s4.decision_clause := by
      have := congrArg Searcher.decision_clause hcore5; exact this
    rw [e5]
    have hconf2 : s2.conf = s.conf := by
      have e1 := congrArg Searcher.conf hs1
      exact hf2.conf.trans e1
    have hoff3 : ({ s2 with glueHist := s2.glueHist ++ [glue] } : Searcher).conf.do_decision_based_cl
        = false := by
      show s2.conf.do_decision_based_cl = false
      rw [hconf2]; exact hoff
    rw [collect_decision_clause_off _ hoff3] at hdc
    have e4 := Option.some.inj hdc
    rw [← e4]

end Searcher
end CMSat

namespace CMSat
namespace Searcher

/-! ## The final conflict under assumptions -/

theorem analyze_final_mark_pos (s : Searcher) (seen : Nat → Bool) (lit : Lit)
    (h : ∀ v, seen v = true → 0 < (s.varData v).level) :
    ∀ v, analyze_final_mark s seen lit v = true → 0 < (s.varData v).level := by
  intro v hv
  unfold analyze_final_mark at hv
  split at hv
  · rename_i hl
    by_cases hvl : v = lit.var
    · rw [hvl]; exact hl
    · rw [upd_other _ _ _ _ hvl] at hv
      exact h v hv
  · exact h v hv

theorem analyze_final_mark_foldl (s : Searcher) :
    ∀ (ls : List Lit) (seen : Nat → Bool), (∀ v, seen v = true → 0 < (s.varData v).level) →
      ∀ v, ls.foldl (analyze_final_mark s) seen v = true → 0 < (s.varData v).level
  | [], _, h => h
  | l :: ls, seen, h => by
    simp only [List.foldl_cons]
    exact analyze_final_mark_foldl s ls _ (analyze_final_mark_pos s seen l h)

theorem upd_false_pos {s0 : Searcher} {seen : Nat → Bool} (x : Nat)
    (h : ∀ v, seen v = true → 0 < (s0.varData v).level) :
    ∀ v, upd seen x false v = true → 0 < (s0.varData v).level := by
  intro v hv
  by_cases hvx : v = x
  · rw [hvx, upd_same] at hv; exact absurd hv (by simp)
  · rw [upd_other _ _ _ _ hvx] at hv; exact h v hv

theorem analyze_final_step_inv {s0 : Searcher} {p : Lit} {t : Searcher} {e : Trail}
    (he : e ∈ s0.trail) (h : final_inv s0 p t) : final_inv s0 p (analyze_final_step t e) := by
  unfold analyze_final_step
  simp only
  split
  · rename_i hsx
    have hpos : 0 < (s0.varData e.lit.var).level := h.seen _ hsx
    cases hr : (t.varData e.lit.var).reason with
    | null_clause_t =>
      simp only
      obtain ⟨rest, hc, hrest⟩ := h.confl
      refine ⟨h.varData, h.cl_alloc, h.permDiff, h.myflag, h.trail_lim, h.assigns,
        upd_false_pos _ h.seen, rest ++ [e.lit.neg], ?_, ?_⟩
      · show t.conflict ++ [e.lit.neg] = _
        rw [hc]; rfl
      · intro q hq
        rcases List.mem_append.1 hq with hq | hq
        · exact hrest q hq
        · rw [List.mem_singleton] at hq
          refine ⟨e, he, hq, ?_, hpos⟩
          rw [← h.varData]; exact hr
    | clause_t offset =>
      simp only
      refine ⟨h.varData, h.cl_alloc, h.permDiff, h.myflag, h.trail_lim, h.assigns,
        upd_false_pos _ ?_, h.confl⟩
      intro v hv
      have := analyze_final_mark_foldl t (t.cl_alloc offset).lits t.seen
        (by intro w hw; rw [h.varData]; exact h.seen w hw) v hv
      rw [h.varData] at this
      exact this
    | binary_t lit red =>
      simp only
      refine ⟨h.varData, h.cl_alloc, h.permDiff, h.myflag, h.trail_lim, h.assigns,
        upd_false_pos _ ?_, h.confl⟩
      intro v hv
      have := analyze_final_mark_pos t t.seen lit
        (by intro w hw; rw [h.varData]; exact h.seen w hw) v hv
      rw [h.varData] at this
      exact this
  · exact h

theorem analyze_final_foldl_inv {s0 : Searcher} {p : Lit} :
    ∀ (es : List Trail) (t : Searcher), (∀ e ∈ es, e ∈ s0.trail) → final_inv s0 p t →
      final_inv s0 p (es.foldl analyze_final_step t)
  | [], _, _, h => h
  | e :: es, t, hes, h => by
    simp only [List.foldl_cons]
    exact analyze_final_foldl_inv es _ (fun x hx => hes x (List.mem_cons_of_mem _ hx))
      (analyze_final_step_inv (hes e (List.mem_cons_self _ _)) h)

theorem analyze_final_sweep_inv (s : Searcher) (p : Lit)
    (hseen : ∀ v, s.seen v = false) (hc : s.conflict = [p])
    (hl : (s.varData p.var).level ≠ 0) : final_inv s p (analyze_final_sweep s p) := by
  have hstart : final_inv s p { s with seen := upd s.seen p.var true } := by
    refine ⟨rfl, rfl, rfl, rfl, rfl, rfl, ?_, [], hc, by simp⟩
    intro v hv
    by_cases hvp : v = p.var
    · rw [hvp]; omega
    · have : upd s.seen p.var true v = s.seen v := upd_other _ _ _ _ hvp
      have hv1 : upd s.seen p.var true v = true := hv
      rw [this, hseen v] at hv1
      exact absurd hv1 (by simp)
  have hfin := @analyze_final_foldl_inv s p
    (s.trail.drop (s.trail_lim.getD 0 0)).reverse
    { s with seen := upd s.seen p.var true }
    (fun e he => List.mem_of_mem_drop (List.mem_reverse.1 he)) hstart
  unfold analyze_final_sweep
  exact ⟨hfin.varData, hfin.cl_alloc, hfin.permDiff, hfin.myflag, hfin.trail_lim, hfin.assigns,
    upd_false_pos _ hfin.seen, hfin.confl⟩

/-- The conflict vector that `analyze_final_confl_with_assumptions` leaves: `p` followed by
negations of trail literals that have no reason and a level above 0. -/
theorem analyze_final_spec (s : Searcher) (p : Lit)
    (hseen : ∀ v, s.seen v = false) (hperm : ∀ v, s.permDiff v ≤ s.MYFLAG) :
    ∃ s1, analyze_final_confl_with_assumptions s p = some s1
      ∧ s1.trail_lim = s.trail_lim ∧ s1.assigns = s.assigns
      ∧ ∃ rest, s1.conflict = p :: rest
        ∧ (∀ q ∈ rest, ∃ e ∈ s.trail, q = e.lit.neg
            ∧ (s.varData e.lit.var).reason = .null_clause_t ∧ 0 < (s.varData e.lit.var).level)
        ∧ (s.decisionLevel = 0 ∨ (s.varData p.var).level = 0 → rest = []) := by
  unfold analyze_final_confl_with_assumptions
  simp only
  by_cases hd : s.decisionLevel = 0
  · have hd1 : ({ s with conflict := [p] } : Searcher).decisionLevel = 0 := hd
    rw [if_pos hd1]
    exact ⟨_, rfl, rfl, rfl, [], rfl, by simp, fun _ => rfl⟩
  · have hd1 : ¬ ({ s with conflict := [p] } : Searcher).decisionLevel = 0 := hd
    rw [if_neg hd1]
    by_cases hl : (s.varData p.var).level = 0
    · rw [if_pos hl]
      exact ⟨_, rfl, rfl, rfl, [], rfl, by simp, fun _ => rfl⟩
    · rw [if_neg hl]
      have hfin := analyze_final_sweep_inv { s with conflict := [p] } p hseen rfl hl
      generalize analyze_final_sweep { s with conflict := [p] } p = s4 at hfin ⊢
      obtain ⟨rest, hc, hrest⟩ := hfin.confl
      have hperm5 : ∀ v, ({ s4 with learnt_clause := s4.conflict } : Searcher).permDiff v
          ≤ ({ s4 with learnt_clause := s4.conflict } : Searcher).MYFLAG := by
        intro v
        show s4.permDiff v ≤ s4.MYFLAG
        rw [hfin.permDiff, hfin.myflag]; exact hperm v
      obtain ⟨s6, h6, h6eq, _⟩ := minimize_using_bins_spec _ hperm5
      rw [h6]
      refine ⟨_, rfl, ?_, ?_, rest, ?_, hrest, ?_⟩
      · show s6.trail_lim = s.trail_lim
        rw [h6eq]; exact hfin.trail_lim
      · show s6.assigns = s.assigns
        rw [h6eq]; exact hfin.assigns
      · show s6.learnt_clause = p :: rest
        rw [h6eq]; exact hc
      · intro h; rcases h with h | h
        · exact absurd h hd
        · exact absurd h hl

end Searcher
end CMSat

namespace CMSat
namespace Searcher

/-! ## `new_decision` -/

theorem new_decision_assumptions_spec :
    ∀ (fuel : Nat) (s : Searcher), (∀ v, s.seen v = false) → (∀ v, s.permDiff v ≤ s.MYFLAG) →
      0 < fuel → s.assumptions.length < fuel + s.decisionLevel →
      ∃ r, new_decision_assumptions fuel s = some r
        ∧ ∀ s1, r = .failed s1 → final_conflict_of s s1
  | 0, s, _, _, h0, _ => by omega
  | fuel + 1, s, hseen, hperm, _, hf => by
    unfold new_decision_assumptions
    by_cases hlt : s.decisionLevel < s.assumptions.length
    · rw [if_pos hlt]
      simp only
      by_cases ht : s.value (s.assumptions.getD s.decisionLevel lit_Undef) = l_True
      · rw [if_pos ht]
        obtain ⟨r, hr, hspec⟩ := new_decision_assumptions_spec fuel (new_decision_level s)
          hseen hperm (by omega) (by
            show s.assumptions.length < fuel + (s.trail_lim ++ [s.trail.length]).length
            simp only [List.length_append, List.length_singleton]
            simp only [Searcher.decisionLevel] at hf
            omega)
        refine ⟨r, hr, ?_⟩
        intro s1 hs1
        exact hspec s1 hs1
      · rw [if_neg ht]
        by_cases hfl : s.value (s.assumptions.getD s.decisionLevel lit_Undef) = l_False
        · rw [if_pos hfl]
          obtain ⟨s1, h1, htl, _, rest, hc, hrest, hz⟩ :=
            analyze_final_spec s (s.assumptions.getD s.decisionLevel lit_Undef).neg hseen hperm
          rw [h1]
          refine ⟨_, rfl, ?_⟩
          intro s2 hs2
          simp only [Option.map_some', AssumptionStep.failed.injEq] at hs2
          subst hs2
          have hdl : s1.decisionLevel = s.decisionLevel := by
            simp only [Searcher.decisionLevel, htl]
          refine ⟨s.assumptions.getD s.decisionLevel lit_Undef, ?_, ?_, hfl, rest, hc, hrest, ?_⟩
          · rw [hdl]; exact hlt
          · rw [hdl]
          · intro h
            apply hz
            rw [Lit.var_neg]
            rw [hdl] at h
            exact h
        · rw [if_neg hfl]
          exact ⟨_, rfl, fun s1 h => by cases h⟩
    · rw [if_neg hlt]
      exact ⟨_, rfl, fun s1 h => by cases h⟩

theorem get_random_element_length (c : Collab) (s : Searcher) :
    (s.order_heap_rand.length = 0 ∧ get_random_element c s = (var_Undef, s))
    ∨ (0 < s.order_heap_rand.length
        ∧ (get_random_element c s).2.order_heap_rand.length + 1 = s.order_heap_rand.length) := by
  unfold get_random_element
  by_cases h : s.order_heap_rand.length = 0
  · left; rw [if_pos h]; exact ⟨h, rfl⟩
  · right
    rw [if_neg h]
    have hpos : 0 < s.order_heap_rand.length := Nat.pos_of_ne_zero h
    refine ⟨hpos, ?_⟩
    simp only
    have hi : (c.randInt s.mtrand).1 % s.order_heap_rand.length < s.order_heap_rand.length :=
      Nat.mod_lt _ hpos
    rw [List.length_eraseIdx, if_pos hi]
    omega

/-- The random pick ends within the given number of rounds. -/
theorem pick_var_rand_total (c : Collab) :
    ∀ (fuel v : Nat) (s : Searcher),
      (s.order_heap_rand.length + 2 ≤ fuel ∨ (v = var_Undef ∧ 1 ≤ fuel)) →
      ∃ r, pick_var_rand c fuel (v, s) = some r
  | 0, _, _, h => by omega
  | fuel + 1, v, s, h => by
    unfold pick_var_rand
    by_cases hv : v ≠ var_Undef ∧ s.assigns v ≠ l_Undef
    · rw [if_pos hv]
      have hf : s.order_heap_rand.length + 2 ≤ fuel + 1 := by
        rcases h with h | h
        · exact h
        · exact absurd h.1 hv.1
      rcases get_random_element_length c s with ⟨h0, he⟩ | ⟨_, hl⟩
      · rw [he]
        exact pick_var_rand_total c fuel var_Undef s (Or.inr ⟨rfl, by omega⟩)
      · have := pick_var_rand_total c fuel (get_random_element c s).1 (get_random_element c s).2
          (Or.inl (by omega))
        exact this
    · rw [if_neg hv]
      exact ⟨_, rfl⟩

theorem pickBranchLit_total (c : Collab) (s : Searcher) : ∃ r, pickBranchLit c s = some r := by
  unfold pickBranchLit
  cases hb : s.branch_strategy with
  | vsids => exact ⟨_, rfl⟩
  | maple => exact ⟨_, rfl⟩
  | rand =>
    simp only
    have : ∃ r, pick_var_rand c (s.order_heap_rand.length + 1)
        ((get_random_element c s).1, (get_random_element c s).2) = some r := by
      rcases get_random_element_length c s with ⟨h0, he⟩ | ⟨_, hl⟩
      · rw [he]
        exact pick_var_rand_total c _ var_Undef s (Or.inr ⟨rfl, by omega⟩)
      · exact pick_var_rand_total c _ _ _ (Or.inl (by omega))
    obtain ⟨r, hr⟩ := this
    rw [hr]
    exact ⟨_, rfl⟩

/-- About `new_decision` returns, and when it returns `l_False` it has met a False assumption and left
the final conflict. -/
theorem new_decision_spec (c : Collab) (s : Searcher)
    (hseen : ∀ v, s.seen v = false) (hperm : ∀ v, s.permDiff v ≤ s.MYFLAG) :
    ∃ st s1, new_decision c s = some (st, s1) ∧ (st = l_False → final_conflict_of s s1) := by
  obtain ⟨r, hr, hspec⟩ := new_decision_assumptions_spec (s.assumptions.length + 1) s hseen hperm
    (by omega) (by omega)
  unfold new_decision
  rw [hr]
  cases r with
  | failed s1 => exact ⟨_, _, rfl, fun _ => hspec s1 rfl⟩
  | next next s1 =>
    simp only
    by_cases hn : next = lit_Undef
    · rw [if_pos hn]
      obtain ⟨⟨nx, s2⟩, hp⟩ := pickBranchLit_total c s1
      rw [hp]
      simp only
      by_cases hn1 : nx = lit_Undef
      · rw [if_pos hn1]
        exact ⟨_, _, rfl, fun h => by cases h⟩
      · rw [if_neg hn1]
        exact ⟨_, _, rfl, fun h => by cases h⟩
    · rw [if_neg hn]
      exact ⟨_, _, rfl, fun h => by cases h⟩

end Searcher
end CMSat

namespace CMSat
namespace Searcher

/-! ## The end of `handle_conflict` and the search loop -/

theorem handle_last_confl_facts (s : Searcher) (glue : Nat) (is_decision : Bool) :
    (handle_last_confl s glue is_decision).2.learnt_clause = s.learnt_clause
      ∧ (handle_last_confl s glue is_decision).2.decision_clause = s.decision_clause
      ∧ (2 < s.learnt_clause.length →
          ∃ offset, (handle_last_confl s glue is_decision).1 = some offset) := by
  unfold handle_last_confl
  by_cases h : s.learnt_clause.length ≤ 2
  · rw [if_pos h]
    exact ⟨rfl, rfl, fun h2 => by omega⟩
  · rw [if_neg h]
    exact ⟨rfl, rfl, fun _ => ⟨_, rfl⟩⟩

theorem attach_and_enqueue_total (s : Searcher) (cl : Option Nat) (level : Nat) (enq : Bool)
    (hne : s.learnt_clause ≠ []) (hcl : 2 < s.learnt_clause.length → ∃ offset, cl = some offset) :
    ∃ s1, attach_and_enqueue_learnt_clause s cl level enq = some s1
      ∧ s1.decision_clause = s.decision_clause := by
  unfold attach_and_enqueue_learnt_clause
  cases hL : s.learnt_clause with
  | nil => exact absurd hL hne
  | cons l0 r =>
    cases r with
    | nil =>
      simp only
      cases enq
      · exact ⟨_, rfl, rfl⟩
      · exact ⟨_, rfl, rfl⟩
    | cons l1 r =>
      cases r with
      | nil =>
        simp only
        cases enq
        · exact ⟨_, rfl, rfl⟩
        · exact ⟨_, rfl, rfl⟩
      | cons l2 r =>
        simp only
        obtain ⟨offset, ho⟩ := hcl (by rw [hL]; simp)
        rw [ho]
        simp only
        cases enq
        · exact ⟨_, rfl, rfl⟩
        · exact ⟨_, rfl, rfl⟩

/-- A conflict whose literals are all of level 0: `handle_conflict` returns false, and has only
advanced the conflict counters and cleared `ok`. -/
theorem handle_conflict_level0 {s : Searcher} {confl : PropBy} (h0 : trail_ok s)
    (hc : is_conflict s confl) (hz : ∀ q ∈ confl_lits s confl, s.level q = 0) :
    handle_conflict s confl = some (false, { note_conflict s with ok := false }) := by
  have h0n : trail_ok (note_conflict s) := h0
  have hcn : is_conflict (note_conflict s) confl := hc
  obtain ⟨nH, confl1, s1, hfc, hcf⟩ := find_conflict_level_spec h0n hcn
  have hvd1 : s1.varData = s.varData := by
    have := congrArg Searcher.varData hcf.same; exact this
  have hnH : nH = 0 := by
    have hne := hcf.still.1
    cases hL : confl_lits s1 confl1 with
    | nil => exact absurd hL hne
    | cons a L =>
      have hh := hcf.head
      rw [hL] at hh
      simp only [List.headD_cons] at hh
      have ha : a ∈ confl_lits s confl := hcf.perm.subset (by rw [hL]; simp)
      have := hz a ha
      simp only [Searcher.level, hvd1] at hh this
      omega
  obtain ⟨e1, _⟩ := hcf.zero hnH
  unfold handle_conflict handle_conflict_backtrack
  rw [hfc]
  simp only
  rw [if_pos hnH, e1]

theorem handle_conflict_not_false {s : Searcher} {confl : PropBy} (h : conflict_state s confl)
    (r : Bool × Searcher) (hr : handle_conflict s confl = some r) : r.1 = true := by
  obtain ⟨o, h1, _⟩ := handle_conflict_backtrack_spec h
  unfold handle_conflict at hr
  rw [h1] at hr
  simp only at hr
  split at hr
  · cases hr
  · rename_i s6 _
    cases hadd : add_decision_clause s6 o.backtrack_level with
    | none => rw [hadd] at hr; cases hr
    | some s7 =>
      rw [hadd] at hr
      simp only [Option.map_some', Option.some.injEq] at hr
      rw [← hr]

/-- A conflict above level 0, with the decision-based clauses off: `handle_conflict` returns
true. -/
theorem handle_conflict_returns {s : Searcher} {confl : PropBy} (h : conflict_state s confl)
    (hoff : s.conf.do_decision_based_cl = false) :
    ∃ s1, handle_conflict s confl = some (true, s1) := by
  obtain ⟨o, h1, _, _, _, l0, rest, hL, _, _, _, _, _, _, _, hdc⟩ :=
    handle_conflict_backtrack_spec h
  obtain ⟨f1, f2, f3⟩ := handle_last_confl_facts o.st (min o.glue uint32_max) false
  obtain ⟨s6, h6, h6d⟩ := attach_and_enqueue_total
    (handle_last_confl o.st (min o.glue uint32_max) false).2
    (handle_last_confl o.st (min o.glue uint32_max) false).1 o.backtrack_level true
    (by rw [f1, hL]; simp) (by rw [f1]; exact f3)
  have hd6 : s6.decision_clause = [] := by rw [h6d, f2]; exact hdc hoff
  unfold handle_conflict
  rw [h1]
  simp only
  rw [h6]
  simp only
  unfold add_decision_clause
  rw [hd6]
  exact ⟨_, rfl⟩

theorem cancelUntil_zero (s : Searcher) : (cancelUntil s 0).decisionLevel = 0 := by
  by_cases h : 0 < s.decisionLevel
  · exact cancelUntil_decisionLevel s 0 h
  · unfold cancelUntil
    rw [if_neg (by omega)]
    omega

/-- The rounds of `search_loop` that end the search at once: a state that is not `ok`. -/
theorem search_finish_undef (c : Collab) (s s1 : Searcher)
    (h : search_finish c s = (l_Undef, s1)) :
    (cancelUntil (charge_restart_budget s) 0).decisionLevel = 0
      ∧ (propagate c (cancelUntil (charge_restart_budget s) 0)).1.isNULL = true
      ∧ c.syncData (propagate c (cancelUntil (charge_restart_budget s) 0)).2 = (true, s1) := by
  unfold search_finish at h
  simp only at h
  split at h
  · cases h
  · rename_i hnull
    split at h
    · cases h
    · rename_i hsync
      refine ⟨cancelUntil_zero _, ?_, ?_⟩
      · simpa using hnull
      · simp only [Prod.mk.injEq, true_and] at h
        rw [← h]
        simp only [Bool.not_eq_true', Bool.not_eq_false] at hsync
        exact Prod.ext hsync rfl

/-- A `goto end` of the loop of `search` never carries the status `l_Undef`. -/
theorem search_loop_goto_ne_undef (c : Collab) (env : Env) :
    ∀ (fuel : Nat) (s : Searcher) (confl : PropBy) (r : lbool) (s1 : Searcher),
      search_loop c env fuel s confl = some (some r, s1) → r ≠ l_Undef
  | 0, _, _, _, _, h => by simp [search_loop] at h
  | fuel + 1, s, confl, r, s1, h => by
    unfold search_loop at h
    split at h
    · split at h
      · simp only [Option.some.injEq, Prod.mk.injEq] at h
        rw [← h.1]; simp
      · simp only at h
        split at h
        · split at h
          · cases h
          · simp only [Option.some.injEq, Prod.mk.injEq] at h
            rw [← h.1]; simp
          · exact search_loop_goto_ne_undef c env fuel _ _ r s1 h
        · split at h
          · cases h
          · split at h
            · rename_i hne
              simp only [Option.some.injEq, Prod.mk.injEq] at h
              rw [← h.1]; exact hne
            · exact search_loop_goto_ne_undef c env fuel _ _ r s1 h
    · cases h

theorem search_loop_conflict_level0 (c : Collab) (env : Env) (fuel : Nat) (t u : Searcher)
    (confl : PropBy) (hok : t.ok = true) (hgo : t.params.needToStopSearch = false)
    (hp : c.propagate_any_order_fast t = (confl, u))
    (h0 : trail_ok u) (hc : is_conflict u confl)
    (hz : ∀ q ∈ confl_lits u confl, u.level q = 0) :
    search_loop c env (fuel + 1) t .null_clause_t
      = some (some l_False, { note_conflict
          { u with trailDepthHistLonger := u.trailDepthHistLonger ++ [u.trail.length] }
          with ok := false }) := by
  have hnn : confl.isNULL = false := by
    cases confl with
    | null_clause_t => exact absurd rfl hc.1
    | binary_t _ _ => rfl
    | clause_t _ => rfl
  have hh := handle_conflict_level0
    (s := { u with trailDepthHistLonger := u.trailDepthHistLonger ++ [u.trail.length] }) h0 hc hz
  unfold search_loop
  simp only [hgo, hok, hp, hnn, Bool.not_false, Bool.true_or, if_true, Bool.not_true,
    Bool.false_eq_true, if_false]
  rw [hh]

/-- When the propagation at the head of `search` reports a conflict of level 0, `search` returns
`l_False` at once, in the state that `handle_conflict` left. -/
theorem search_conflict_level0 (c : Collab) (env : Env) (fuel : Nat) (t u : Searcher)
    (confl : PropBy) (hok : t.ok = true) (hgo : t.params.needToStopSearch = false)
    (hp : c.propagate_any_order_fast { t with glueHist := [], trailDepthHistLonger := [] }
      = (confl, u))
    (h0 : trail_ok u) (hc : is_conflict u confl)
    (hz : ∀ q ∈ confl_lits u confl, u.level q = 0) :
    search c env (fuel + 1) t = some (l_False, { note_conflict
        { u with trailDepthHistLonger := u.trailDepthHistLonger ++ [u.trail.length] }
        with ok := false }) := by
  have hloop := search_loop_conflict_level0 c env fuel
    { t with glueHist := [], trailDepthHistLonger := [] } u confl hok hgo hp h0 hc hz
  unfold search
  rw [hloop]

end Searcher
end CMSat

namespace CMSat
namespace Searcher

/-! ## The configuration is never written -/

theorem add_lit_to_learnt_conf (s : Searcher) (lit : Lit) (d : Nat) :
    (add_lit_to_learnt s lit d).conf = s.conf := by
  unfold add_lit_to_learnt
  split
  · rfl
  · simp only
    split <;> rfl

theorem foldl_conf {α : Type} (f : Searcher → α → Searcher)
    (hf : ∀ t x, (f t x).conf = t.conf) :
    ∀ (X : List α) (s : Searcher), (X.foldl f s).conf = s.conf
  | [], _ => rfl
  | x :: X, s => by
    simp only [List.foldl_cons]
    rw [foldl_conf f hf X, hf]

theorem touch_antecedent_conf (ub : Bool) (s : Searcher) (offset : Nat) :
    (touch_antecedent ub s offset).conf = s.conf := by
  obtain ⟨ca, h, _⟩ := touch_antecedent_eq ub s offset
  rw [h]

theorem add_literals_conf (ub : Bool) (s : Searcher) (confl : PropBy) (p : Lit) (d : Nat)
    (s1 : Searcher) (h : add_literals_from_confl_to_learnt ub s confl p d = some s1) :
    s1.conf = s.conf := by
  unfold add_literals_from_confl_to_learnt at h
  cases confl with
  | null_clause_t => cases h
  | binary_t lit2 red =>
    simp only [Option.some.injEq] at h
    rw [← h, add_lit_to_learnt_conf]
    split
    · exact add_lit_to_learnt_conf _ _ _
    · rfl
  | clause_t offset =>
    simp only at h
    split at h
    · cases h
    · simp only [Option.some.injEq] at h
      rw [← h, foldl_conf _ (fun t x => add_lit_to_learnt_conf t x d)]
      split
      · rw [add_lit_to_learnt_conf, touch_antecedent_conf]
      · exact touch_antecedent_conf _ _ _

theorem create_learnt_clause_loop_conf (ub : Bool) (d : Nat) :
    ∀ (fuel : Nat) (s : Searcher) (confl : PropBy) (p : Lit) (index1 : Nat)
      (r : Searcher × Lit),
      create_learnt_clause_loop ub d fuel s confl p index1 = some r → r.1.conf = s.conf
  | 0, _, _, _, _, _, h => by simp [create_learnt_clause_loop] at h
  | fuel + 1, s, confl, p, index1, r, h => by
    unfold create_learnt_clause_loop at h
    split at h
    · cases h
    · rename_i s1 h1
      have e1 := add_literals_conf ub s confl p d s1 h1
      split at h
      · cases h
      · simp only at h
        split at h
        · cases h
        · split at h
          · have := create_learnt_clause_loop_conf ub d fuel _ _ _ _ r h
            rw [this]; exact e1
          · simp only [Option.some.injEq] at h
            rw [← h]; exact e1

theorem create_learnt_clause_conf (ub : Bool) (s : Searcher) (confl : PropBy) (s1 : Searcher)
    (h : create_learnt_clause ub s confl = some s1) : s1.conf = s.conf := by
  unfold create_learnt_clause at h
  split at h
  · cases h
  · simp only at h
    split at h
    · cases h
    · rename_i s2 p hl
      simp only [Option.some.injEq] at h
      rw [← h]
      exact create_learnt_clause_loop_conf ub _ _ _ _ _ _ _ hl

theorem litRedundant_lits_conf (al top : Nat) :
    ∀ (lits stack : List Lit) (s : Searcher),
      (litRedundant_lits al top lits stack s).2.2.conf = s.conf
  | [], _, _ => rfl
  | p2 :: rest, stack, s => by
    unfold litRedundant_lits
    split
    · split
      · rw [litRedundant_lits_conf al top rest]
      · rfl
    · exact litRedundant_lits_conf al top rest stack s

theorem litRedundant_loop_conf (al top : Nat) :
    ∀ (fuel : Nat) (stack : List Lit) (s : Searcher) (r : Bool × Searcher),
      litRedundant_loop al top fuel stack s = some r → r.2.conf = s.conf
  | 0, _, _, _, h => by simp [litRedundant_loop] at h
  | _ + 1, [], s, r, h => by
    simp only [litRedundant_loop, Option.some.injEq] at h
    rw [← h]
  | fuel + 1, q :: stack, s, r, h => by
    unfold litRedundant_loop at h
    split at h
    · cases h
    · rename_i lits _
      have e := litRedundant_lits_conf al top lits stack s
      split at h
      · rename_i st1 s1 hl
        simp only [Option.some.injEq] at h
        rw [← h]
        rw [hl] at e
        exact e
      · rename_i st1 s1 hl
        rw [hl] at e
        have := litRedundant_loop_conf al top fuel st1 s1 r h
        rw [this]; exact e

theorem litRedundant_conf (s : Searcher) (p : Lit) (al : Nat) (r : Bool × Searcher)
    (h : litRedundant s p al = some r) : r.2.conf = s.conf :=
  litRedundant_loop_conf al _ _ _ _ r h

theorem recursiveConfClauseMin_loop_conf (al : Nat) :
    ∀ (rest : List Lit) (s : Searcher) (r : List Lit × Searcher),
      recursiveConfClauseMin_loop al rest s = some r → r.2.conf = s.conf
  | [], s, r, h => by
    simp only [recursiveConfClauseMin_loop, Option.some.injEq] at h
    rw [← h]
  | l :: rest, s, r, h => by
    unfold recursiveConfClauseMin_loop at h
    split at h
    · split at h
      · cases h
      · rename_i kept s1 hl
        simp only [Option.some.injEq] at h
        rw [← h]
        exact recursiveConfClauseMin_loop_conf al rest s (kept, s1) hl
    · split at h
      · cases h
      · rename_i red s1 hl
        have e1 := litRedundant_conf s l al _ hl
        split at h
        · cases h
        · rename_i kept s2 hl2
          simp only [Option.some.injEq] at h
          rw [← h]
          have := recursiveConfClauseMin_loop_conf al rest s1 (kept, s2) hl2
          exact this.trans e1

theorem minimize_learnt_clause_conf (s s1 : Searcher) (h : minimize_learnt_clause s = some s1) :
    s1.conf = s.conf := by
  unfold minimize_learnt_clause at h
  simp only at h
  split at h
  · cases h
  · rename_i s2 hm
    simp only [Option.some.injEq] at h
    rw [← h]
    show s2.conf = s.conf
    split at hm
    · unfold recursiveConfClauseMin at hm
      split at hm
      · simp only [Option.some.injEq] at hm
        rw [← hm]
      · simp only at hm
        split at hm
        · cases hm
        · rename_i kept s3 hl
          simp only [Option.some.injEq] at hm
          rw [← hm]
          exact recursiveConfClauseMin_loop_conf _ _ _ _ hl
    · unfold normalClMinim at hm
      split at hm
      · simp only [Option.some.injEq] at hm
        rw [← hm]
      · split at hm
        · cases hm
        · simp only [Option.some.injEq] at hm
          rw [← hm]

theorem minimize_using_bins_mark_conf (s : Searcher) :
    ∀ (ws : List Watched) (nb : Nat) (t : Searcher),
      (minimize_using_bins_mark s ws nb t).2.conf = t.conf
  | [], _, _ => rfl
  | .long _ _ :: _, _, _ => rfl
  | .bin imp _ :: ws, nb, t => by
    unfold minimize_using_bins_mark
    split
    · rw [minimize_using_bins_mark_conf s ws]
    · exact minimize_using_bins_mark_conf s ws nb t

theorem minimize_using_bins_conf (s s1 : Searcher) (h : minimize_using_bins s = some s1) :
    s1.conf = s.conf := by
  unfold minimize_using_bins at h
  split at h
  · simp only at h
    have e := minimize_using_bins_mark_conf { s with MYFLAG := s.MYFLAG + 1 }
      (s.watches (s.learnt_clause.getD 0 lit_Undef).neg) 0 { s with MYFLAG := s.MYFLAG + 1 }
    split at h
    · split at h
      · cases h
      · split at h
        · cases h
        · simp only [Option.some.injEq] at h
          rw [← h]; exact e
    · simp only [Option.some.injEq] at h
      rw [← h]; exact e
  · simp only [Option.some.injEq] at h
    rw [← h]

theorem minimise_redundant_more_more_conf (s s1 : Searcher)
    (h : minimise_redundant_more_more s = some s1) : s1.conf = s.conf := by
  unfold minimise_redundant_more_more at h
  split at h
  · cases h
  · simp only [Option.some.injEq] at h
    rw [← h]

theorem find_backtrack_level_of_learnt_conf (s : Searcher) :
    (find_backtrack_level_of_learnt s).2.conf = s.conf := by
  unfold find_backtrack_level_of_learnt
  split <;> rfl

theorem maple_mark_conf (s : Searcher) (l : Lit) : (maple_mark s l).conf = s.conf := by
  unfold maple_mark
  split <;> rfl

theorem analyze_conflict_maple_conf (s : Searcher) : (analyze_conflict_maple s).conf = s.conf := by
  unfold analyze_conflict_maple
  simp only
  rw [foldl_conf]
  intro t li
  split
  · exact foldl_conf _ maple_mark_conf _ _
  · rw [maple_mark_conf, maple_mark_conf]
  · rfl

theorem ite_some_conf {c : Prop} [Decidable c] (f : Option Searcher) (s3 s4 : Searcher)
    (h : (if c then f else some s3) = some s4) (hf : ∀ t, f = some t → t.conf = s3.conf) :
    s4.conf = s3.conf := by
  split at h
  · exact hf s4 h
  · simp only [Option.some.injEq] at h
    rw [← h]

theorem analyze_conflict_conf (ub : Bool) (s : Searcher) (confl : PropBy)
    (r : Searcher × Nat × Nat) (h : analyze_conflict ub s confl = some r) : r.1.conf = s.conf := by
  unfold analyze_conflict at h
  simp only at h
  split at h
  · cases h
  · rename_i s1 h1
    have e1 : s1.conf = s.conf :=
      create_learnt_clause_conf ub { s with learnt_clause := [] } confl s1 h1
    split at h
    · cases h
    · rename_i s2 h2
      have e2 : s2.conf = s.conf := (minimize_learnt_clause_conf s1 s2 h2).trans e1
      split at h
      · cases h
      · rename_i s3 glue1 h3
        have e3 : s3.conf = s.conf := by
          split at h3
          · split at h3
            · cases hb : minimize_using_bins s2 with
              | none => rw [hb] at h3; cases h3
              | some t =>
                rw [hb] at h3
                simp only [Option.map_some', Option.some.injEq, Prod.mk.injEq] at h3
                rw [← h3.1]
                exact (minimize_using_bins_conf s2 t hb).trans e2
            · simp only [Option.some.injEq, Prod.mk.injEq] at h3
              rw [← h3.1]; exact e2
          · simp only [Option.some.injEq, Prod.mk.injEq] at h3
            rw [← h3.1]; exact e2
        split at h
        · cases h
        · rename_i s4 h4
          have e4 : s4.conf = s.conf :=
            (ite_some_conf _ s3 s4 h4 (minimise_redundant_more_more_conf s3)).trans e3
          have e5 := find_backtrack_level_of_learnt_conf s4
          cases hfb : find_backtrack_level_of_learnt s4 with
          | mk out s5 =>
            rw [hfb] at h e5
            simp only [Option.some.injEq] at h
            rw [← h]
            simp only
            split
            · rw [analyze_conflict_maple_conf]; exact e5.trans e4
            · exact e5.trans e4

theorem find_conflict_level_conf (s : Searcher) (pb : PropBy) (r : Nat × PropBy × Searcher)
    (h : find_conflict_level s pb = some r) : r.2.2.conf = s.conf := by
  unfold find_conflict_level at h
  cases pb with
  | null_clause_t => cases h
  | binary_t lit2 red =>
    simp only at h
    split at h
    · simp only [Option.some.injEq] at h; rw [← h]
    · split at h
      · simp only [Option.some.injEq] at h; rw [← h]
      · simp only [Option.some.injEq] at h; rw [← h]
  | clause_t offs =>
    simp only at h
    split at h
    · simp only [Option.some.injEq] at h; rw [← h]
    · split at h
      · simp only [Option.some.injEq] at h
        rw [← h]
        show (find_conflict_level_swap s offs _).conf = s.conf
        unfold find_conflict_level_swap
        simp only
        split <;> rfl
      · simp only [Option.some.injEq] at h; rw [← h]

theorem cancelUntil_conf (s : Searcher) (b : Nat) : (cancelUntil s b).conf = s.conf := by
  have := congrArg Searcher.conf (cancelUntil_core s b)
  exact this

theorem handle_conflict_backtrack_conf (s : Searcher) (confl : PropBy)
    (r : Searcher ⊕ ConflictOutcome) (h : handle_conflict_backtrack s confl = some r) :
    (∀ s1, r = .inl s1 → s1.conf = s.conf) ∧ (∀ o, r = .inr o → o.st.conf = s.conf) := by
  unfold handle_conflict_backtrack at h
  split at h
  · cases h
  · rename_i nH confl1 s1 h1
    have e1 : s1.conf = s.conf := find_conflict_level_conf _ _ _ h1
    split at h
    · simp only [Option.some.injEq] at h
      rw [← h]
      exact ⟨fun t ht => by cases ht; exact e1, fun o ho => by cases ho⟩
    · split at h
      · cases h
      · rename_i s2 β glue h2
        have e2 : s2.conf = s.conf := (analyze_conflict_conf false s1 confl1 _ h2).trans e1
        split at h
        · cases h
        · rename_i s3 h3
          have e3 : s3.conf = s.conf := by
            unfold update_history_stats at h3
            split at h3
            · simp only [Option.some.injEq] at h3
              rw [← h3]; exact e2
            · cases h3
          split at h
          · cases h
          · rename_i s4 h4
            have e4 : s4.conf = s.conf := by
              have hc4 : decision_core s4 = decision_core s3 := by
                unfold collect_decision_clause at h4
                simp only at h4
                split at h4
                · cases hb : build_decision_clause { s3 with decision_clause := [] }
                    s3.trail_lim.reverse { s3 with decision_clause := [] } with
                  | none =>
                    have h4' : (build_decision_clause { s3 with decision_clause := [] }
                      s3.trail_lim.reverse { s3 with decision_clause := [] }).map _ = some s4 := h4
                    rw [hb] at h4'; cases h4'
                  | some t =>
                    have h4' : (build_decision_clause { s3 with decision_clause := [] }
                      s3.trail_lim.reverse { s3 with decision_clause := [] }).map _ = some s4 := h4
                    rw [hb] at h4'
                    simp only [Option.map_some', Option.some.injEq] at h4'
                    rw [← h4']
                    have := build_decision_clause_core _ _ _ _ hb
                    exact this.trans rfl
                · simp only [Option.some.injEq] at h4
                  rw [← h4]; rfl
              have := congrArg Searcher.conf hc4
              exact this.trans e3
            simp only [Option.some.injEq] at h
            rw [← h]
            refine ⟨fun t ht => (by cases ht), fun o ho => ?_⟩
            cases ho
            show (backtrack_after_conflict s4 nH β).conf = s.conf
            unfold backtrack_after_conflict
            split
            · rw [cancelUntil_conf]; exact e4
            · rw [cancelUntil_conf]; exact e4

end Searcher
end CMSat

namespace CMSat
namespace Searcher

/-! ## `solve` reads the clock and the interrupt flag in two places only -/

theorem handle_last_confl_conf (s : Searcher) (glue : Nat) (b : Bool) :
    (handle_last_confl s glue b).2.conf = s.conf := by
  unfold handle_last_confl
  split <;> rfl

theorem attach_and_enqueue_conf (s : Searcher) (cl : Option Nat) (level : Nat) (enq : Bool)
    (s1 : Searcher) (h : attach_and_enqueue_learnt_clause s cl level enq = some s1) :
    s1.conf = s.conf := by
  unfold attach_and_enqueue_learnt_clause at h
  split at h
  · cases h
  · simp only [Option.some.injEq] at h
    rw [← h]; split <;> rfl
  · simp only [Option.some.injEq] at h
    rw [← h]; split <;> rfl
  · split at h
    · cases h
    · simp only [Option.some.injEq] at h
      rw [← h]; split <;> rfl

theorem add_decision_clause_conf (s : Searcher) (β : Nat) (s1 : Searcher)
    (h : add_decision_clause s β = some s1) : s1.conf = s.conf := by
  unfold add_decision_clause at h
  split at h
  · split at h
    · cases h
    · simp only at h
      have := attach_and_enqueue_conf _ _ _ _ _ h
      rw [this, handle_last_confl_conf]
  · simp only [Option.some.injEq] at h
    rw [← h]

theorem handle_conflict_conf (s : Searcher) (confl : PropBy) (r : Bool × Searcher)
    (h : handle_conflict s confl = some r) : r.2.conf = s.conf := by
  unfold handle_conflict at h
  split at h
  · cases h
  · rename_i s1 hb
    simp only [Option.some.injEq] at h
    rw [← h]
    exact (handle_conflict_backtrack_conf s confl _ hb).1 s1 rfl
  · rename_i o hb
    have e1 := (handle_conflict_backtrack_conf s confl _ hb).2 o rfl
    simp only at h
    split at h
    · cases h
    · rename_i s6 h6
      have e6 := attach_and_enqueue_conf _ _ _ _ _ h6
      rw [handle_last_confl_conf] at e6
      cases ha : add_decision_clause s6 o.backtrack_level with
      | none => rw [ha] at h; cases h
      | some s7 =>
        rw [ha] at h
        simp only [Option.map_some', Option.some.injEq] at h
        rw [← h]
        exact (add_decision_clause_conf s6 _ s7 ha).trans (e6.trans e1)

theorem analyze_final_step_conf (s : Searcher) (e : Trail) :
    (analyze_final_step s e).conf = s.conf := by
  unfold analyze_final_step
  simp only
  split
  · split <;> rfl
  · rfl

theorem analyze_final_conf (s : Searcher) (p : Lit) (s1 : Searcher)
    (h : analyze_final_confl_with_assumptions s p = some s1) : s1.conf = s.conf := by
  unfold analyze_final_confl_with_assumptions at h
  simp only at h
  split at h
  · simp only [Option.some.injEq] at h; rw [← h]
  · split at h
    · simp only [Option.some.injEq] at h; rw [← h]
    · have e4 : (analyze_final_sweep { s with conflict := [p] } p).conf = s.conf := by
        unfold analyze_final_sweep
        simp only
        exact foldl_conf _ analyze_final_step_conf _ _
      generalize analyze_final_sweep { s with conflict := [p] } p = s4 at h e4
      cases hm : minimize_using_bins { s4 with learnt_clause := s4.conflict } with
      | none => rw [hm] at h; cases h
      | some s6 =>
        rw [hm] at h
        simp only [Option.map_some', Option.some.injEq] at h
        rw [← h]
        exact (minimize_using_bins_conf _ s6 hm).trans e4

theorem new_decision_assumptions_conf :
    ∀ (fuel : Nat) (s : Searcher) (r : AssumptionStep),
      new_decision_assumptions fuel s = some r →
      (∀ s1, r = .failed s1 → s1.conf = s.conf) ∧ (∀ p s1, r = .next p s1 → s1.conf = s.conf)
  | 0, _, _, h => by simp [new_decision_assumptions] at h
  | fuel + 1, s, r, h => by
    unfold new_decision_assumptions at h
    split at h
    · simp only at h
      split at h
      · exact new_decision_assumptions_conf fuel (new_decision_level s) r h
      · split at h
        · cases ha : analyze_final_confl_with_assumptions s
            (s.assumptions.getD s.decisionLevel lit_Undef).neg with
          | none => rw [ha] at h; cases h
          | some s1 =>
            rw [ha] at h
            simp only [Option.map_some', Option.some.injEq] at h
            rw [← h]
            exact ⟨fun t ht => by cases ht; exact analyze_final_conf _ _ _ ha,
              fun p t ht => by cases ht⟩
        · simp only [Option.some.injEq] at h
          rw [← h]
          exact ⟨fun t ht => (by cases ht), fun p t ht => (by cases ht; rfl)⟩
    · simp only [Option.some.injEq] at h
      rw [← h]
      exact ⟨fun t ht => (by cases ht), fun p t ht => (by cases ht; rfl)⟩

theorem get_random_element_conf (c : Collab) (s : Searcher) :
    (get_random_element c s).2.conf = s.conf := by
  unfold get_random_element
  split <;> rfl

theorem pick_var_rand_conf (c : Collab) :
    ∀ (fuel : Nat) (vs r : Nat × Searcher), pick_var_rand c fuel vs = some r →
      r.2.conf = vs.2.conf
  | 0, _, _, h => by simp [pick_var_rand] at h
  | fuel + 1, (v, s), r, h => by
    unfold pick_var_rand at h
    split at h
    · have := pick_var_rand_conf c fuel _ r h
      rw [this]; exact get_random_element_conf c s
    · simp only [Option.some.injEq] at h
      rw [← h]

theorem pickBranchLit_conf (c : Collab) (s : Searcher) (r : Lit × Searcher)
    (h : pickBranchLit c s = some r) : r.2.conf = s.conf := by
  unfold pickBranchLit at h
  simp only at h
  have hv : (pick_var_vsids_maple s).2.conf = s.conf := by
    unfold pick_var_vsids_maple
    split <;> rfl
  cases hb : s.branch_strategy with
  | vsids =>
    rw [hb] at h
    simp only [Option.map_some', Option.some.injEq] at h
    rw [← h]
    split <;> exact hv
  | maple =>
    rw [hb] at h
    simp only [Option.map_some', Option.some.injEq] at h
    rw [← h]
    split <;> exact hv
  | rand =>
    rw [hb] at h
    simp only at h
    cases hp : pick_var_rand c (s.order_heap_rand.length + 1) (get_random_element c s) with
    | none => rw [hp] at h; cases h
    | some vs =>
      rw [hp] at h
      simp only [Option.map_some', Option.some.injEq] at h
      have e := pick_var_rand_conf c _ _ vs hp
      rw [get_random_element_conf] at e
      rw [← h]
      split <;> exact e

theorem new_decision_conf (c : Collab) (s : Searcher) (r : lbool × Searcher)
    (h : new_decision c s = some r) : r.2.conf = s.conf := by
  unfold new_decision at h
  split at h
  · cases h
  · rename_i s1 ha
    simp only [Option.some.injEq] at h
    rw [← h]
    exact (new_decision_assumptions_conf _ _ _ ha).1 s1 rfl
  · rename_i nx s1 ha
    have e1 := (new_decision_assumptions_conf _ _ _ ha).2 nx s1 rfl
    split at h
    · split at h
      · cases h
      · rename_i nx1 s2 hp
        have e2 := pickBranchLit_conf c s1 _ hp
        split at h
        · simp only [Option.some.injEq] at h
          rw [← h]; exact e2.trans e1
        · simp only [Option.some.injEq] at h
          rw [← h]; exact e2.trans e1
    · simp only [Option.some.injEq] at h
      rw [← h]; exact e1

theorem stop_search_conf (s : Searcher) : (stop_search s).conf = s.conf := rfl

theorem ite_conf_eq (p : Prop) [Decidable p] (a b : Searcher) (x : SolverConf)
    (ha : a.conf = x) (hb : b.conf = x) : (if p then a else b).conf = x := by
  split <;> assumption

theorem check_need_restart_limits_conf (env : Env) (s : Searcher) :
    (check_need_restart_limits env s).conf = s.conf := by
  unfold check_need_restart_limits
  split
  · have e1 : (if (read_cpuTime env s).1 > (read_cpuTime env s).2.conf.maxTime then
        stop_search (read_cpuTime env s).2 else (read_cpuTime env s).2).conf = s.conf :=
      ite_conf_eq _ _ _ _ rfl rfl
    exact ite_conf_eq _ _ _ _ e1 e1
  · rfl

theorem check_need_restart_conf (c : Collab) (env : Env) (s : Searcher) :
    (check_need_restart c env s).conf = s.conf := by
  unfold check_need_restart
  simp only
  have e1 := check_need_restart_limits_conf env s
  generalize check_need_restart_limits env s = s1 at e1 ⊢
  have e2 : (if s1.params.rest_type = Restart.glue then
      if c.glue_restart (check_blocking_restart c s1) = true then
        stop_search (check_blocking_restart c s1)
      else check_blocking_restart c s1
    else s1).conf = s.conf := by
    have eb : (check_blocking_restart c s1).conf = s1.conf := by
      unfold check_blocking_restart
      split <;> rfl
    split
    · split
      · exact (eb).trans e1
      · exact eb.trans e1
    · exact e1
  generalize (if s1.params.rest_type = Restart.glue then
      if c.glue_restart (check_blocking_restart c s1) = true then
        stop_search (check_blocking_restart c s1)
      else check_blocking_restart c s1
    else s1) = s2 at e2 ⊢
  split <;> split <;> exact e2

end Searcher
end CMSat

namespace CMSat
namespace Searcher

theorem check_need_restart_limits_quiet (env : Env) (s : Searcher)
    (hq : env.quiet s.conf.maxTime) :
    check_need_restart_limits env s
      = if s.numConflicts % 256 = 255 then { s with env_reads := s.env_reads + 1 + 1 } else s := by
  unfold check_need_restart_limits
  split
  · simp only [read_cpuTime, read_must_interrupt_asap]
    have h1 : ¬ env.cpuTime s.env_reads > s.conf.maxTime := by
      have := (hq s.env_reads).1; omega
    rw [if_neg h1]
    simp only [(hq (s.env_reads + 1)).2, Bool.false_eq_true, if_false]
  · rfl

theorem check_need_restart_quiet (c : Collab) (env1 env2 : Env) (s : Searcher)
    (h1 : env1.quiet s.conf.maxTime) (h2 : env2.quiet s.conf.maxTime) :
    check_need_restart c env1 s = check_need_restart c env2 s := by
  unfold check_need_restart
  rw [check_need_restart_limits_quiet env1 s h1, check_need_restart_limits_quiet env2 s h2]

theorem must_abort_quiet (env : Env) (status : lbool) (s : Searcher)
    (hq : env.quiet s.conf.maxTime) :
    must_abort env status s
      = if status ≠ l_Undef then (true, s)
        else if s.numConflicts ≥ s.max_confl_per_search_solve_call then (true, s)
        else (false, { s with env_reads := s.env_reads + 1 + 1 }) := by
  unfold must_abort
  split
  · rfl
  · split
    · rfl
    · simp only [read_cpuTime, read_must_interrupt_asap]
      have h1 : ¬ env.cpuTime s.env_reads ≥ s.conf.maxTime := by
        have := (hq s.env_reads).1; omega
      rw [if_neg h1, (hq (s.env_reads + 1)).2]

theorem must_abort_conf (env : Env) (status : lbool) (s : Searcher) :
    (must_abort env status s).2.conf = s.conf := by
  unfold must_abort
  split
  · rfl
  · split
    · rfl
    · simp only
      split <;> rfl

theorem reduce_db_if_needed_conf (c : Collab) (hc : c.keeps_conf) (s : Searcher) :
    (reduce_db_if_needed c s).conf = s.conf := by
  unfold reduce_db_if_needed
  simp only
  have e1 : (if s.conf.every_lev1_reduce ≠ 0 ∧ s.sumConflicts ≥ s.next_lev1_reduce then
      { c.handle_lev1 s with
        next_lev1_reduce := (c.handle_lev1 s).sumConflicts + (c.handle_lev1 s).conf.every_lev1_reduce }
    else s).conf = s.conf := by
    split
    · exact hc.handle_lev1 s
    · rfl
  generalize (if s.conf.every_lev1_reduce ≠ 0 ∧ s.sumConflicts ≥ s.next_lev1_reduce then
      { c.handle_lev1 s with
        next_lev1_reduce := (c.handle_lev1 s).sumConflicts + (c.handle_lev1 s).conf.every_lev1_reduce }
    else s) = s1 at e1 ⊢
  split
  · split
    · show (c.consolidate (c.handle_lev2 s1)).conf = s.conf
      rw [hc.consolidate, hc.handle_lev2]; exact e1
    · exact e1
  · split
    · rw [hc.consolidate]
      show (c.handle_lev2 s1).conf = s.conf
      rw [hc.handle_lev2]; exact e1
    · exact e1

theorem clean_clauses_if_needed_conf (c : Collab) (hc : c.keeps_conf) (s : Searcher) :
    (clean_clauses_if_needed c s).conf = s.conf := by
  unfold clean_clauses_if_needed
  simp only
  split
  · show (rebuildOrderHeap (c.consolidate (c.remove_and_clean_all _))).conf = s.conf
    unfold rebuildOrderHeap
    show (c.consolidate (c.remove_and_clean_all _)).conf = s.conf
    rw [hc.consolidate, hc.remove_and_clean_all]
  · rfl

theorem search_decide_conf (c : Collab) (hc : c.keeps_conf) (s : Searcher)
    (r : lbool × Searcher) (h : search_decide c s = some r) : r.2.conf = s.conf := by
  unfold search_decide at h
  split at h
  · exact hc.new_decision_fast_backw s r h
  · exact new_decision_conf c s r h

theorem search_finish_conf (c : Collab) (hc : c.keeps_conf) (s : Searcher) :
    (search_finish c s).2.conf = s.conf := by
  unfold search_finish
  simp only
  have ep : (propagate c (cancelUntil (charge_restart_budget s) 0)).2.conf = s.conf := by
    unfold propagate
    rw [hc.propagate_any_order, cancelUntil_conf]; rfl
  split
  · exact ep
  · split
    · rw [hc.syncData]; exact ep
    · rw [hc.syncData]; exact ep

/-- Two quiet environments give the same run of the loop of `search`, and the loop keeps the
configuration. -/
theorem search_loop_quiet (c : Collab) (hc : c.keeps_conf) (env1 env2 : Env) (M : Nat)
    (h1 : env1.quiet M) (h2 : env2.quiet M) :
    ∀ (fuel : Nat) (s : Searcher) (confl : PropBy), s.conf.maxTime = M →
      search_loop c env1 fuel s confl = search_loop c env2 fuel s confl
      ∧ ∀ r, search_loop c env1 fuel s confl = some r → r.2.conf = s.conf
  | 0, _, _, _ => ⟨rfl, fun r h => by simp [search_loop] at h⟩
  | fuel + 1, s, confl, hM => by
    unfold search_loop
    split
    · split
      · exact ⟨rfl, fun r h => by cases h; rfl⟩
      · simp only
        have ep := hc.propagate_any_order_fast s
        generalize c.propagate_any_order_fast s = pr at ep ⊢
        split
        · cases hh : handle_conflict
            { pr.2 with trailDepthHistLonger := pr.2.trailDepthHistLonger ++ [pr.2.trail.length] }
            pr.1 with
          | none => exact ⟨rfl, fun r h => by cases h⟩
          | some bs =>
            obtain ⟨b, s2⟩ := bs
            have e2 : s2.conf = s.conf := by
              have := handle_conflict_conf _ _ _ hh
              exact this.trans ep
            cases b with
            | false => exact ⟨rfl, fun r h => by cases h; exact e2⟩
            | true =>
              simp only
              have eq12 : check_need_restart c env1 s2 = check_need_restart c env2 s2 :=
                check_need_restart_quiet c env1 env2 s2 (by rw [e2, hM]; exact h1)
                  (by rw [e2, hM]; exact h2)
              have e3 : (check_need_restart c env1 s2).conf = s.conf :=
                (check_need_restart_conf c env1 s2).trans e2
              obtain ⟨ih1, ih2⟩ := search_loop_quiet c hc env1 env2 M h1 h2 fuel
                (check_need_restart c env1 s2) pr.1 (by rw [e3]; exact hM)
              rw [← eq12]
              exact ⟨ih1, fun r h => (ih2 r h).trans e3⟩
        · have e1 : (if pr.2.decisionLevel = 0 then clean_clauses_if_needed c pr.2 else pr.2).conf
              = s.conf := by
            split
            · rw [clean_clauses_if_needed_conf c hc]; exact ep
            · exact ep
          generalize (if pr.2.decisionLevel = 0 then clean_clauses_if_needed c pr.2 else pr.2)
            = s1 at e1 ⊢
          have e2 : (reduce_db_if_needed c s1).conf = s.conf :=
            (reduce_db_if_needed_conf c hc s1).trans e1
          generalize reduce_db_if_needed c s1 = s2 at e2 ⊢
          cases hd : search_decide c s2 with
          | none => exact ⟨rfl, fun r h => by cases h⟩
          | some ds =>
            obtain ⟨dec_ret, s3⟩ := ds
            have e3 : s3.conf = s.conf := (search_decide_conf c hc s2 _ hd).trans e2
            simp only
            split
            · exact ⟨rfl, fun r h => by cases h; exact e3⟩
            · obtain ⟨ih1, ih2⟩ := search_loop_quiet c hc env1 env2 M h1 h2 fuel s3 pr.1
                (by rw [e3]; exact hM)
              exact ⟨ih1, fun r h => (ih2 r h).trans e3⟩
    · exact ⟨rfl, fun r h => by cases h; rfl⟩

theorem search_quiet (c : Collab) (hc : c.keeps_conf) (env1 env2 : Env) (M : Nat)
    (h1 : env1.quiet M) (h2 : env2.quiet M) (fuel : Nat) (s : Searcher)
    (hM : s.conf.maxTime = M) :
    search c env1 fuel s = search c env2 fuel s
      ∧ ∀ r, search c env1 fuel s = some r → r.2.conf = s.conf := by
  obtain ⟨e1, e2⟩ := search_loop_quiet c hc env1 env2 M h1 h2 fuel
    { s with glueHist := [], trailDepthHistLonger := [] } .null_clause_t hM
  unfold search
  rw [← e1]
  refine ⟨rfl, ?_⟩
  intro r h
  split at h
  · cases h
  · rename_i st s1 hl
    cases h
    exact e2 _ hl
  · rename_i s1 hl
    cases h
    exact (search_finish_conf c hc s1).trans (e2 _ hl)

theorem adjust_restart_strategy_conf (s s1 : Searcher)
    (h : adjust_restart_strategy s = some s1) : s1.conf = s.conf := by
  unfold adjust_restart_strategy at h
  split at h
  · cases h; rfl
  · simp only at h
    split at h
    · cases hl : luby 2 (s.luby_loop_num : Int) with
      | none => rw [hl] at h; cases h
      | some l =>
        rw [hl] at h
        simp only [Option.map_some', Option.some.injEq] at h
        rw [← h]
    · cases h; rfl
    · cases h; rfl
    · cases h; rfl
    · cases h

theorem distill_clauses_if_needed_conf (c : Collab) (hc : c.keeps_conf) (s : Searcher) :
    (distill_clauses_if_needed c s).2.conf = s.conf := by
  unfold distill_clauses_if_needed
  split
  · simp only
    split
    · exact hc.distill s
    · exact hc.distill s
  · rfl

/-- Two quiet environments give the same run of the loop of `solve`. -/
theorem solve_loop_quiet (c : Collab) (hc : c.keeps_conf) (env1 env2 : Env) (M : Nat)
    (h1 : env1.quiet M) (h2 : env2.quiet M) (sfuel : Nat) :
    ∀ (fuel : Nat) (s : Searcher) (status : lbool), s.conf.maxTime = M →
      solve_loop c env1 sfuel fuel s status = solve_loop c env2 sfuel fuel s status
  | 0, _, _, _ => rfl
  | fuel + 1, s, status, hM => by
    unfold solve_loop
    split
    · obtain ⟨es, ec⟩ := search_quiet c hc env1 env2 M h1 h2 sfuel (params_clear s) hM
      rw [← es]
      cases hs : search c env1 sfuel (params_clear s) with
      | none => rfl
      | some r =>
        obtain ⟨status1, s2⟩ := r
        have e2 : s2.conf = s.conf := ec _ hs
        simp only
        cases ha : (if status1 = l_Undef then adjust_restart_strategy s2 else some s2) with
        | none => rfl
        | some s3 =>
          have e3 : s3.conf = s.conf := by
            split at ha
            · exact (adjust_restart_strategy_conf s2 s3 ha).trans e2
            · cases ha; exact e2
          simp only
          have hq1 : env1.quiet s3.conf.maxTime := by rw [e3, hM]; exact h1
          have hq2 : env2.quiet s3.conf.maxTime := by rw [e3, hM]; exact h2
          have em : must_abort env1 status1 s3 = must_abort env2 status1 s3 := by
            rw [must_abort_quiet env1 status1 s3 hq1, must_abort_quiet env2 status1 s3 hq2]
          have e4 : (must_abort env1 status1 s3).2.conf = s.conf :=
            (must_abort_conf env1 status1 s3).trans e3
          rw [← em]
          generalize must_abort env1 status1 s3 = a at e4 ⊢
          split
          · rfl
          · split
            · have e5 : (distill_clauses_if_needed c a.2).2.conf = s.conf :=
                (distill_clauses_if_needed_conf c hc a.2).trans e4
              split
              · rfl
              · exact solve_loop_quiet c hc env1 env2 M h1 h2 sfuel fuel _ _
                  (by rw [e5]; exact hM)
            · exact solve_loop_quiet c hc env1 env2 M h1 h2 sfuel fuel _ _
                (by rw [e4]; exact hM)
    · rfl

theorem set_branch_strategy_conf (s : Searcher) (n : Nat) (s1 : Searcher)
    (h : set_branch_strategy s n = some s1) : s1.conf = s.conf := by
  unfold set_branch_strategy at h
  split at h
  · exact absurd h (by simp)
  · rename_i select _
    simp only at h
    generalize (if n ≥ select.length then select.foldl drop_once ([], n) else (select, n)) = r at h
    by_cases hl : r.1.length = 0
    · rw [if_pos hl] at h
      exact absurd h (by simp)
    · rw [if_neg hl] at h
      cases hb : r.1[r.2 % r.1.length]? with
      | none => rw [hb] at h; exact absurd h (by simp)
      | some b =>
        rw [hb] at h
        simp only [Option.some.injEq] at h
        rw [← h]

/-- Two quiet environments give the same result of `solve`. -/
theorem solve_quiet (c : Collab) (hc : c.keeps_conf) (env1 env2 : Env) (sfuel fuel : Nat)
    (s : Searcher) (m : Nat)
    (h1 : env1.quiet s.conf.maxTime) (h2 : env2.quiet s.conf.maxTime) :
    solve c env1 sfuel fuel s m = solve c env2 sfuel fuel s m := by
  unfold solve
  simp only
  generalize hs3 : resetStats (if
      ({ s with max_confl_per_search_solve_call := m } : Searcher).fast_backw_on = true
        ∧ ({ s with max_confl_per_search_solve_call := m } : Searcher).fast_backw_cur_max_confl = 0
      then _ else _) = s3
  have e3 : s3.conf = s.conf := by
    rw [← hs3]
    unfold resetStats
    simp only
    split <;> rfl
  cases hb : set_branch_strategy s3 s3.branch_strategy_num with
  | none => rfl
  | some s4 =>
    have e4 : s4.conf = s.conf := (set_branch_strategy_conf s3 _ s4 hb).trans e3
    simp only
    rw [solve_loop_quiet c hc env1 env2 s.conf.maxTime h1 h2 sfuel fuel
      (setup_restart_strategy s4) l_Undef (by
        show s4.conf.maxTime = s.conf.maxTime
        rw [e4])]

theorem script_keeps_conf : Collab.script.keeps_conf := by
  refine ⟨?_, fun _ => rfl, fun _ => rfl, fun _ => rfl, fun _ => rfl, fun _ => rfl, fun _ => rfl,
    fun _ => rfl, fun _ r h => by cases h⟩
  intro s
  show (if s.sumConflicts = 0 then (PropBy.clause_t 0, s) else (PropBy.null_clause_t, s)).2.conf
    = s.conf
  split <;> rfl

end Searcher
end CMSat

namespace CMSat
namespace Searcher

/-! ## Conflict analysis leaves assignment, heaps, watches and clause literals alone -/

theorem add_lit_to_learnt_score (s : Searcher) (lit : Lit) (d : Nat) :
    search_core (add_lit_to_learnt s lit d) = search_core s := by
  unfold add_lit_to_learnt
  split
  · rfl
  · simp only
    split <;> rfl

theorem foldl_score {α : Type} (f : Searcher → α → Searcher)
    (hf : ∀ t x, search_core (f t x) = search_core t) :
    ∀ (X : List α) (s : Searcher), search_core (X.foldl f s) = search_core s
  | [], _ => rfl
  | x :: X, s => by
    simp only [List.foldl_cons]
    rw [foldl_score f hf X, hf]

theorem touch_antecedent_score (ub : Bool) (s : Searcher) (offset : Nat) :
    search_core (touch_antecedent ub s offset) = search_core s := by
  obtain ⟨ca, h, hl⟩ := touch_antecedent_eq ub s offset
  rw [h]
  have e : (fun o => (⟨(ca o).lits, false, default⟩ : Clause))
      = fun o => ⟨(s.cl_alloc o).lits, false, default⟩ := by
    funext o
    rw [hl o]
  show ({ (search_core s) with cl_alloc := fun o => ⟨(ca o).lits, false, default⟩ } : Searcher)
      = search_core s
  rw [e]

theorem add_literals_score (ub : Bool) (s : Searcher) (confl : PropBy) (p : Lit) (d : Nat)
    (s1 : Searcher) (h : add_literals_from_confl_to_learnt ub s confl p d = some s1) :
    search_core s1 = search_core s := by
  unfold add_literals_from_confl_to_learnt at h
  cases confl with
  | null_clause_t => cases h
  | binary_t lit2 red =>
    simp only [Option.some.injEq] at h
    rw [← h, add_lit_to_learnt_score]
    split
    · exact add_lit_to_learnt_score _ _ _
    · rfl
  | clause_t offset =>
    simp only at h
    split at h
    · cases h
    · simp only [Option.some.injEq] at h
      rw [← h, foldl_score _ (fun t x => add_lit_to_learnt_score t x d)]
      split
      · rw [add_lit_to_learnt_score, touch_antecedent_score]
      · exact touch_antecedent_score _ _ _

theorem create_learnt_clause_loop_score (ub : Bool) (d : Nat) :
    ∀ (fuel : Nat) (s : Searcher) (confl : PropBy) (p : Lit) (index1 : Nat)
      (r : Searcher × Lit),
      create_learnt_clause_loop ub d fuel s confl p index1 = some r → search_core r.1 = search_core s
  | 0, _, _, _, _, _, h => by simp [create_learnt_clause_loop] at h
  | fuel + 1, s, confl, p, index1, r, h => by
    unfold create_learnt_clause_loop at h
    split at h
    · cases h
    · rename_i s1 h1
      have e1 := add_literals_score ub s confl p d s1 h1
      split at h
      · cases h
      · simp only at h
        split at h
        · cases h
        · split at h
          · have := create_learnt_clause_loop_score ub d fuel _ _ _ _ r h
            rw [this]; exact e1
          · simp only [Option.some.injEq] at h
            rw [← h]; exact e1

theorem create_learnt_clause_score (ub : Bool) (s : Searcher) (confl : PropBy) (s1 : Searcher)
    (h : create_learnt_clause ub s confl = some s1) : search_core s1 = search_core s := by
  unfold create_learnt_clause at h
  split at h
  · cases h
  · simp only at h
    split at h
    · cases h
    · rename_i s2 p hl
      simp only [Option.some.injEq] at h
      rw [← h]
      exact create_learnt_clause_loop_score ub _ _ _ _ _ _ _ hl

theorem litRedundant_lits_score (al top : Nat) :
    ∀ (lits stack : List Lit) (s : Searcher),
      search_core (litRedundant_lits al top lits stack s).2.2 = search_core s
  | [], _, _ => rfl
  | p2 :: rest, stack, s => by
    unfold litRedundant_lits
    split
    · split
      · rw [litRedundant_lits_score al top rest]
      · rfl
    · exact litRedundant_lits_score al top rest stack s

theorem litRedundant_loop_score (al top : Nat) :
    ∀ (fuel : Nat) (stack : List Lit) (s : Searcher) (r : Bool × Searcher),
      litRedundant_loop al top fuel stack s = some r → search_core r.2 = search_core s
  | 0, _, _, _, h => by simp [litRedundant_loop] at h
  | _ + 1, [], s, r, h => by
    simp only [litRedundant_loop, Option.some.injEq] at h
    rw [← h]
  | fuel + 1, q :: stack, s, r, h => by
    unfold litRedundant_loop at h
    split at h
    · cases h
    · rename_i lits _
      have e := litRedundant_lits_score al top lits stack s
      split at h
      · rename_i st1 s1 hl
        simp only [Option.some.injEq] at h
        rw [← h]
        rw [hl] at e
        exact e
      · rename_i st1 s1 hl
        rw [hl] at e
        have := litRedundant_loop_score al top fuel st1 s1 r h
        rw [this]; exact e

theorem litRedundant_score (s : Searcher) (p : Lit) (al : Nat) (r : Bool × Searcher)
    (h : litRedundant s p al = some r) : search_core r.2 = search_core s :=
  litRedundant_loop_score al _ _ _ _ r h

theorem recursiveConfClauseMin_loop_score (al : Nat) :
    ∀ (rest : List Lit) (s : Searcher) (r : List Lit × Searcher),
      recursiveConfClauseMin_loop al rest s = some r → search_core r.2 = search_core s
  | [], s, r, h => by
    simp only [recursiveConfClauseMin_loop, Option.some.injEq] at h
    rw [← h]
  | l :: rest, s, r, h => by
    unfold recursiveConfClauseMin_loop at h
    split at h
    · split at h
      · cases h
      · rename_i kept s1 hl
        simp only [Option.some.injEq] at h
        rw [← h]
        exact recursiveConfClauseMin_loop_score al rest s (kept, s1) hl
    · split at h
      · cases h
      · rename_i red s1 hl
        have e1 := litRedundant_score s l al _ hl
        split at h
        · cases h
        · rename_i kept s2 hl2
          simp only [Option.some.injEq] at h
          rw [← h]
          have := recursiveConfClauseMin_loop_score al rest s1 (kept, s2) hl2
          exact this.trans e1

theorem minimize_learnt_clause_score (s s1 : Searcher) (h : minimize_learnt_clause s = some s1) :
    search_core s1 = search_core s := by
  unfold minimize_learnt_clause at h
  simp only at h
  split at h
  · cases h
  · rename_i s2 hm
    simp only [Option.some.injEq] at h
    rw [← h]
    show search_core s2 = search_core s
    split at hm
    · unfold recursiveConfClauseMin at hm
      split at hm
      · simp only [Option.some.injEq] at hm
        rw [← hm]
      · simp only at hm
        split at hm
        · cases hm
        · rename_i kept s3 hl
          simp only [Option.some.injEq] at hm
          rw [← hm]
          exact recursiveConfClauseMin_loop_score _ _ _ _ hl
    · unfold normalClMinim at hm
      split at hm
      · simp only [Option.some.injEq] at hm
        rw [← hm]
      · split at hm
        · cases hm
        · simp only [Option.some.injEq] at hm
          rw [← hm]

theorem minimize_using_bins_mark_score (s : Searcher) :
    ∀ (ws : List Watched) (nb : Nat) (t : Searcher),
      search_core (minimize_using_bins_mark s ws nb t).2 = search_core t
  | [], _, _ => rfl
  | .long _ _ :: _, _, _ => rfl
  | .bin imp _ :: ws, nb, t => by
    unfold minimize_using_bins_mark
    split
    · rw [minimize_using_bins_mark_score s ws]
    · exact minimize_using_bins_mark_score s ws nb t

theorem minimize_using_bins_score (s s1 : Searcher) (h : minimize_using_bins s = some s1) :
    search_core s1 = search_core s := by
  unfold minimize_using_bins at h
  split at h
  · simp only at h
    have e := minimize_using_bins_mark_score { s with MYFLAG := s.MYFLAG + 1 }
      (s.watches (s.learnt_clause.getD 0 lit_Undef).neg) 0 { s with MYFLAG := s.MYFLAG + 1 }
    split at h
    · split at h
      · cases h
      · split at h
        · cases h
        · simp only [Option.some.injEq] at h
          rw [← h]; exact e
    · simp only [Option.some.injEq] at h
      rw [← h]; exact e
  · simp only [Option.some.injEq] at h
    rw [← h]

theorem minimise_redundant_more_more_score (s s1 : Searcher)
    (h : minimise_redundant_more_more s = some s1) : search_core s1 = search_core s := by
  unfold minimise_redundant_more_more at h
  split at h
  · cases h
  · simp only [Option.some.injEq] at h
    rw [← h]

theorem find_backtrack_level_of_learnt_score (s : Searcher) :
    search_core (find_backtrack_level_of_learnt s).2 = search_core s := by
  unfold find_backtrack_level_of_learnt
  split <;> rfl

theorem maple_mark_score (s : Searcher) (l : Lit) : search_core (maple_mark s l) = search_core s := by
  unfold maple_mark
  split <;> rfl

theorem analyze_conflict_maple_score (s : Searcher) : search_core (analyze_conflict_maple s) = search_core s := by
  unfold analyze_conflict_maple
  simp only
  rw [foldl_score]
  intro t li
  split
  · exact foldl_score _ maple_mark_score _ _
  · rw [maple_mark_score, maple_mark_score]
  · rfl

theorem ite_some_score {c : Prop} [Decidable c] (f : Option Searcher) (s3 s4 : Searcher)
    (h : (if c then f else some s3) = some s4) (hf : ∀ t, f = some t → search_core t = search_core s3) :
    search_core s4 = search_core s3 := by
  split at h
  · exact hf s4 h
  · simp only [Option.some.injEq] at h
    rw [← h]

theorem analyze_conflict_score (ub : Bool) (s : Searcher) (confl : PropBy)
    (r : Searcher × Nat × Nat) (h : analyze_conflict ub s confl = some r) : search_core r.1 = search_core s := by
  unfold analyze_conflict at h
  simp only at h
  split at h
  · cases h
  · rename_i s1 h1
    have e1 : search_core s1 = search_core s :=
      create_learnt_clause_score ub { s with learnt_clause := [] } confl s1 h1
    split at h
    · cases h
    · rename_i s2 h2
      have e2 : search_core s2 = search_core s := (minimize_learnt_clause_score s1 s2 h2).trans e1
      split at h
      · cases h
      · rename_i s3 glue1 h3
        have e3 : search_core s3 = search_core s := by
          split at h3
          · split at h3
            · cases hb : minimize_using_bins s2 with
              | none => rw [hb] at h3; cases h3
              | some t =>
                rw [hb] at h3
                simp only [Option.map_some', Option.some.injEq, Prod.mk.injEq] at h3
                rw [← h3.1]
                exact (minimize_using_bins_score s2 t hb).trans e2
            · simp only [Option.some.injEq, Prod.mk.injEq] at h3
              rw [← h3.1]; exact e2
          · simp only [Option.some.injEq, Prod.mk.injEq] at h3
            rw [← h3.1]; exact e2
        split at h
        · cases h
        · rename_i s4 h4
          have e4 : search_core s4 = search_core s :=
            (ite_some_score _ s3 s4 h4 (minimise_redundant_more_more_score s3)).trans e3
          have e5 := find_backtrack_level_of_learnt_score s4
          cases hfb : find_backtrack_level_of_learnt s4 with
          | mk out s5 =>
            rw [hfb] at h e5
            simp only [Option.some.injEq] at h
            rw [← h]
            simp only
            split
            · rw [analyze_conflict_maple_score]; exact e5.trans e4
            · exact e5.trans e4

end Searcher
end CMSat

namespace CMSat
namespace Searcher

/-! ## What the steps of the search keep -/

theorem keeps_refl (s : Searcher) : keeps s s :=
  ⟨rfl, rfl, rfl, rfl, rfl, rfl, Nat.le_refl _, fun _ _ _ => Iff.rfl, fun _ _ => Iff.rfl,
    fun _ _ h => h⟩

theorem keeps_trans {s s1 s2 : Searcher} (h1 : keeps s s1) (h2 : keeps s1 s2) : keeps s s2 :=
  ⟨h2.nVars.trans h1.nVars, h2.var_removed.trans h1.var_removed,
    h2.fast_backw_on.trans h1.fast_backw_on, h2.branch_strategy.trans h1.branch_strategy,
    h2.longIrredCls.trans h1.longIrredCls, h2.xorclauses.trans h1.xorclauses,
    Nat.le_trans h1.cl_alloc_size h2.cl_alloc_size,
    fun o ho l => (h2.lits o (Nat.lt_of_lt_of_le ho h1.cl_alloc_size) l).trans (h1.lits o ho l),
    fun l l2 => (h2.bins l l2).trans (h1.bins l l2),
    fun v hv hc => h2.covered v hv (h1.covered v hv hc)⟩

theorem core_assigns {s s1 : Searcher} (h : search_core s1 = search_core s) :
    s1.assigns = s.assigns := by
  have e := congrArg Searcher.assigns h
  exact e

theorem core_watches {s s1 : Searcher} (h : search_core s1 = search_core s) :
    s1.watches = s.watches := by
  have e := congrArg Searcher.watches h
  exact e

theorem core_nVars {s s1 : Searcher} (h : search_core s1 = search_core s) :
    s1.nVars = s.nVars := by
  have e := congrArg Searcher.nVars h
  exact e

theorem core_var_removed {s s1 : Searcher} (h : search_core s1 = search_core s) :
    s1.var_removed = s.var_removed := by
  have e := congrArg Searcher.var_removed h
  exact e

theorem core_fast_backw_on {s s1 : Searcher} (h : search_core s1 = search_core s) :
    s1.fast_backw_on = s.fast_backw_on := by
  have e := congrArg Searcher.fast_backw_on h
  exact e

theorem core_branch_strategy {s s1 : Searcher} (h : search_core s1 = search_core s) :
    s1.branch_strategy = s.branch_strategy := by
  have e := congrArg Searcher.branch_strategy h
  exact e

theorem core_order_heap_vsids {s s1 : Searcher} (h : search_core s1 = search_core s) :
    s1.order_heap_vsids = s.order_heap_vsids := by
  have e := congrArg Searcher.order_heap_vsids h
  exact e

theorem core_order_heap_maple {s s1 : Searcher} (h : search_core s1 = search_core s) :
    s1.order_heap_maple = s.order_heap_maple := by
  have e := congrArg Searcher.order_heap_maple h
  exact e

theorem core_order_heap_rand {s s1 : Searcher} (h : search_core s1 = search_core s) :
    s1.order_heap_rand = s.order_heap_rand := by
  have e := congrArg Searcher.order_heap_rand h
  exact e

theorem core_longIrredCls {s s1 : Searcher} (h : search_core s1 = search_core s) :
    s1.longIrredCls = s.longIrredCls := by
  have e := congrArg Searcher.longIrredCls h
  exact e

theorem core_xorclauses {s s1 : Searcher} (h : search_core s1 = search_core s) :
    s1.xorclauses = s.xorclauses := by
  have e := congrArg Searcher.xorclauses h
  exact e

theorem core_cl_alloc_size {s s1 : Searcher} (h : search_core s1 = search_core s) :
    s1.cl_alloc_size = s.cl_alloc_size := by
  have e := congrArg Searcher.cl_alloc_size h
  exact e

theorem core_model {s s1 : Searcher} (h : search_core s1 = search_core s) :
    s1.model = s.model := by
  have e := congrArg Searcher.model h
  exact e

theorem core_lits {s s1 : Searcher} (h : search_core s1 = search_core s) (o : Nat) :
    (s1.cl_alloc o).lits = (s.cl_alloc o).lits := by
  have e := congrArg Clause.lits (congrFun (congrArg Searcher.cl_alloc h) o)
  exact e

theorem core_active_heap {s s1 : Searcher} (h : search_core s1 = search_core s) :
    active_heap s1 = active_heap s := by
  unfold active_heap
  rw [core_branch_strategy h, core_order_heap_vsids h, core_order_heap_maple h,
    core_order_heap_rand h]

theorem keeps_of_core {s s1 : Searcher} (h : search_core s1 = search_core s) : keeps s s1 := by
  refine ⟨core_nVars h, core_var_removed h, core_fast_backw_on h, core_branch_strategy h,
    core_longIrredCls h, core_xorclauses h, Nat.le_of_eq (core_cl_alloc_size h).symm,
    ?_, ?_, ?_⟩
  · intro o _ l
    rw [core_lits h o]
  · intro l l2
    rw [core_watches h]
  · intro v _ hc
    unfold covered at hc ⊢
    rw [core_active_heap h, core_assigns h]
    exact hc

theorem irred_clause_congr {s s1 : Searcher} (hn : s1.nVars = s.nVars)
    (hw : s1.watches = s.watches) (hc : ∀ o, (s1.cl_alloc o).lits = (s.cl_alloc o).lits)
    (hl : s1.longIrredCls = s.longIrredCls) (C : List Lit) :
    irred_clause s1 C ↔ irred_clause s C := by
  unfold irred_clause
  rw [hn, hw, hl]
  simp only [hc]

theorem no_falsified_congr {s s1 : Searcher} (ha : s1.assigns = s.assigns)
    (hn : s1.nVars = s.nVars)
    (hw : s1.watches = s.watches) (hc : ∀ o, (s1.cl_alloc o).lits = (s.cl_alloc o).lits)
    (hl : s1.longIrredCls = s.longIrredCls) (hx : s1.xorclauses = s.xorclauses)
    (h : no_falsified s) : no_falsified s1 := by
  unfold no_falsified at h ⊢
  simp only [irred_clause_congr hn hw hc hl, Searcher.value, ha, hx]
  exact h

theorem satisfies_congr {s s1 : Searcher} (a : Nat → lbool)
    (hn : s1.nVars = s.nVars)
    (hw : s1.watches = s.watches) (hc : ∀ o, (s1.cl_alloc o).lits = (s.cl_alloc o).lits)
    (hl : s1.longIrredCls = s.longIrredCls) (hx : s1.xorclauses = s.xorclauses)
    (h : satisfies s a) : satisfies s1 a := by
  unfold satisfies at h ⊢
  simp only [irred_clause_congr hn hw hc hl, hx]
  exact h

theorem no_falsified_of_core {s s1 : Searcher} (h : search_core s1 = search_core s)
    (hf : no_falsified s) : no_falsified s1 :=
  no_falsified_congr (core_assigns h) (core_nVars h) (core_watches h) (core_lits h)
    (core_longIrredCls h) (core_xorclauses h) hf

/-- The heap discipline and the shape of the original clauses pass along every step that
`keeps` describes. -/
theorem search_inv_of_keeps {s s1 : Searcher} (hi : search_inv s) (hk : keeps s s1) :
    search_inv s1 := by
  have hact : ∀ v, is_active s1 v ↔ is_active s v := by
    intro v
    unfold is_active
    rw [hk.nVars, hk.var_removed]
  refine ⟨hk.fast_backw_on.trans hi.fast_backw_off, ?_, ?_, ?_, ?_, ?_, ?_⟩
  · rw [hk.branch_strategy]; exact hi.heap_strategy
  · rw [hk.nVars]; exact hi.nVars_le
  · intro v hv hu
    have hv0 : is_active s v := (hact v).1 hv
    have hne : v ≠ var_Undef := by
      have h1 := hv0.1
      have h2 := hi.nVars_le
      omega
    have hc : covered s v := by
      by_cases hva : s.assigns v = l_Undef
      · exact Or.inl (hi.heap v hv0 hva)
      · exact Or.inr hva
    rcases hk.covered v hne hc with h | h
    · exact h
    · exact absurd hu h
  · intro C hC l hl
    rw [hact]
    rcases hC with ⟨l1, l2, hl1, hb, rfl⟩ | ⟨o, ho, rfl⟩
    · rw [hk.nVars] at hl1
      exact hi.clause_vars _ (Or.inl ⟨l1, l2, hl1, (hk.bins l1 l2).1 hb, rfl⟩) l hl
    · rw [hk.longIrredCls] at ho
      have hlt := hi.offsets o ho
      exact hi.clause_vars _ (Or.inr ⟨o, ho, rfl⟩) l ((hk.lits o hlt l).1 hl)
  · intro x hx v hv
    rw [hact]
    rw [hk.xorclauses] at hx
    exact hi.xor_vars x hx v hv
  · intro o ho
    rw [hk.longIrredCls] at ho
    exact Nat.lt_of_lt_of_le (hi.offsets o ho) hk.cl_alloc_size

/-! ### Assigning and unassigning -/

theorem keeps_enqueue (s : Searcher) (p : Lit) (level : Nat) (fromWhom : PropBy) :
    keeps s (enqueue s p level fromWhom) := by
  refine ⟨rfl, rfl, rfl, rfl, rfl, rfl, Nat.le_refl _, fun _ _ _ => Iff.rfl,
    fun _ _ => Iff.rfl, ?_⟩
  intro v _ hc
  rcases hc with h | h
  · exact Or.inl h
  · right
    show upd s.assigns p.var (if p.sign then l_False else l_True) v ≠ l_Undef
    unfold upd
    split
    · split <;> simp
    · exact h

theorem enqueue_assigned (s : Searcher) (p : Lit) (level : Nat) (fromWhom : PropBy) :
    (enqueue s p level fromWhom).assigns p.var ≠ l_Undef := by
  show upd s.assigns p.var (if p.sign then l_False else l_True) p.var ≠ l_Undef
  unfold upd
  rw [if_pos rfl]
  split <;> simp

theorem insert_var_order_mem (s : Searcher) (x : Nat) :
    x ∈ active_heap (insert_var_order s x)
      ∧ (∀ v, v ∈ active_heap s → v ∈ active_heap (insert_var_order s x))
      ∧ (insert_var_order s x).branch_strategy = s.branch_strategy := by
  unfold insert_var_order
  cases hb : s.branch_strategy <;> simp only <;> split <;> simp [active_heap, hb, *] <;>
    exact fun _ h => Or.inl h

theorem keeps_unassign (s : Searcher) (x : Nat) :
    keeps s (insert_var_order { s with assigns := upd s.assigns x l_Undef } x) := by
  obtain ⟨hc, ha⟩ := insert_var_order_core { s with assigns := upd s.assigns x l_Undef } x
  obtain ⟨hm, hg, hb⟩ := insert_var_order_mem { s with assigns := upd s.assigns x l_Undef } x
  generalize insert_var_order { s with assigns := upd s.assigns x l_Undef } x = t at hc ha hm hg hb
  have e1 : t.nVars = s.nVars := by have e := congrArg Searcher.nVars hc; exact e
  have e2 : t.var_removed = s.var_removed := by
    have e := congrArg Searcher.var_removed hc; exact e
  have e3 : t.fast_backw_on = s.fast_backw_on := by
    have e := congrArg Searcher.fast_backw_on hc; exact e
  have e4 : t.longIrredCls = s.longIrredCls := by
    have e := congrArg Searcher.longIrredCls hc; exact e
  have e5 : t.xorclauses = s.xorclauses := by
    have e := congrArg Searcher.xorclauses hc; exact e
  have e6 : t.cl_alloc_size = s.cl_alloc_size := by
    have e := congrArg Searcher.cl_alloc_size hc; exact e
  have e7 : t.cl_alloc = s.cl_alloc := by have e := congrArg Searcher.cl_alloc hc; exact e
  have e8 : t.watches = s.watches := by have e := congrArg Searcher.watches hc; exact e
  refine ⟨e1, e2, e3, hb, e4, e5, Nat.le_of_eq e6.symm, ?_, ?_, ?_⟩
  · intro o _ l
    rw [e7]
  · intro l l2
    rw [e8]
  · intro v _ hv
    rcases hv with h | h
    · exact Or.inl (hg v h)
    · by_cases hvx : v = x
      · subst hvx
        exact Or.inl hm
      · right
        rw [ha]
        show upd s.assigns x l_Undef v ≠ l_Undef
        unfold upd
        rw [if_neg hvx]
        exact h

theorem keeps_cancelUntil_fold (b : Nat) :
    ∀ (E : List Trail) (st : Searcher) (tmp : List Trail),
      keeps st (E.foldl (cancelUntil_step b) (st, tmp)).1
  | [], st, _ => keeps_refl st
  | e :: E, st, tmp => by
    simp only [List.foldl_cons]
    by_cases he : e.lev ≤ b
    · have hstep : cancelUntil_step b (st, tmp) e = (st, tmp ++ [e]) := by
        simp [cancelUntil_step, he]
      rw [hstep]
      exact keeps_cancelUntil_fold b E st _
    · have hstep : cancelUntil_step b (st, tmp) e
          = (insert_var_order { st with assigns := upd st.assigns e.lit.var l_Undef } e.lit.var,
              tmp) := by
        simp [cancelUntil_step, he]
      rw [hstep]
      exact keeps_trans (keeps_unassign st e.lit.var) (keeps_cancelUntil_fold b E _ _)

theorem keeps_cancelUntil (s : Searcher) (b : Nat) : keeps s (cancelUntil s b) := by
  unfold cancelUntil
  split
  · have h := keeps_cancelUntil_fold b (s.trail.drop (s.trail_lim.getD b 0)).reverse s []
    exact keeps_trans h (keeps_of_core rfl)
  · exact keeps_refl s

end Searcher
end CMSat

namespace CMSat
namespace Searcher

/-! ### Handling a conflict keeps the heap discipline and the original clauses -/

theorem updW_bin_iff (f : Lit → List Watched) (k : Lit) (ws : List Watched)
    (h : ∀ l2, Watched.bin l2 false ∈ ws ↔ Watched.bin l2 false ∈ f k) (l l2 : Lit) :
    Watched.bin l2 false ∈ updW f k ws l ↔ Watched.bin l2 false ∈ f l := by
  unfold updW
  split
  · rename_i hk
    rw [hk]
    exact h l2
  · exact Iff.rfl

theorem removeWCl_bin_iff (ws : List Watched) (offset : Nat) (l2 : Lit) :
    Watched.bin l2 false ∈ removeWCl ws offset ↔ Watched.bin l2 false ∈ ws := by
  unfold removeWCl
  apply List.mem_eraseP_of_neg
  simp

theorem append_long_bin_iff (ws : List Watched) (o : Nat) (b l2 : Lit) :
    Watched.bin l2 false ∈ ws ++ [Watched.long o b] ↔ Watched.bin l2 false ∈ ws := by
  simp

theorem append_red_bin_iff (ws : List Watched) (b l2 : Lit) :
    Watched.bin l2 false ∈ ws ++ [Watched.bin b true] ↔ Watched.bin l2 false ∈ ws := by
  simp

theorem keeps_of_fields {s s1 : Searcher} (h1 : s1.nVars = s.nVars)
    (h2 : s1.var_removed = s.var_removed) (h3 : s1.fast_backw_on = s.fast_backw_on)
    (h4 : s1.branch_strategy = s.branch_strategy) (h5 : s1.longIrredCls = s.longIrredCls)
    (h6 : s1.xorclauses = s.xorclauses) (h7 : s.cl_alloc_size ≤ s1.cl_alloc_size)
    (h8 : s1.order_heap_vsids = s.order_heap_vsids)
    (h9 : s1.order_heap_maple = s.order_heap_maple)
    (h10 : s1.order_heap_rand = s.order_heap_rand) (h11 : s1.assigns = s.assigns)
    (hl : ∀ o, o < s.cl_alloc_size → ∀ l, l ∈ (s1.cl_alloc o).lits ↔ l ∈ (s.cl_alloc o).lits)
    (hb : ∀ l l2, Watched.bin l2 false ∈ s1.watches l ↔ Watched.bin l2 false ∈ s.watches l) :
    keeps s s1 := by
  refine ⟨h1, h2, h3, h4, h5, h6, h7, hl, hb, ?_⟩
  intro v _ hc
  unfold covered active_heap at hc ⊢
  rw [h4, h8, h9, h10, h11]
  exact hc

theorem keeps_find_conflict_level_swap (s : Searcher) (offs highestId : Nat)
    (h0 : 0 < (s.cl_alloc offs).lits.length) (hh : highestId < (s.cl_alloc offs).lits.length) :
    keeps s (find_conflict_level_swap s offs highestId) := by
  have hp := swapAt_perm (s.cl_alloc offs).lits 0 highestId h0 hh
  have hlits : ∀ o l, l ∈ ((upd s.cl_alloc offs
      { (s.cl_alloc offs) with lits := swapAt (s.cl_alloc offs).lits 0 highestId }) o).lits
      ↔ l ∈ (s.cl_alloc o).lits := by
    intro o l
    unfold upd
    split
    · rename_i ho
      rw [ho]
      exact hp.mem_iff
    · exact Iff.rfl
  unfold find_conflict_level_swap
  simp only
  split
  · refine keeps_of_fields rfl rfl rfl rfl rfl rfl (Nat.le_refl _) rfl rfl rfl rfl ?_ ?_
    · intro o _ l
      exact hlits o l
    · intro l l2
      refine (updW_bin_iff _ _ _ ?_ l l2).trans (updW_bin_iff _ _ _ ?_ l l2)
      · intro l3
        exact append_long_bin_iff _ _ _ _
      · intro l3
        exact removeWCl_bin_iff _ _ _
  · refine keeps_of_fields rfl rfl rfl rfl rfl rfl (Nat.le_refl _) rfl rfl rfl rfl ?_ ?_
    · intro o _ l
      exact hlits o l
    · intro l l2
      exact Iff.rfl

theorem keeps_find_conflict_level (s : Searcher) (pb : PropBy) (r : Nat × PropBy × Searcher)
    (h : find_conflict_level s pb = some r) : keeps s r.2.2 := by
  unfold find_conflict_level at h
  cases pb with
  | null_clause_t => cases h
  | binary_t lit2 red =>
    simp only at h
    split at h
    · simp only [Option.some.injEq] at h
      rw [← h]
      exact keeps_refl s
    · split at h
      · simp only [Option.some.injEq] at h
        rw [← h]
        exact keeps_of_core rfl
      · simp only [Option.some.injEq] at h
        rw [← h]
        exact keeps_refl s
  | clause_t offs =>
    simp only at h
    split at h
    · simp only [Option.some.injEq] at h
      rw [← h]
      exact keeps_refl s
    · split at h
      · rename_i hne
        simp only [Option.some.injEq] at h
        rw [← h]
        have hs := (find_conflict_level_scan_spec s (s.cl_alloc offs).lits
          (List.range' 1 ((s.cl_alloc offs).lits.length - 1)) 0
          (s.varData ((s.cl_alloc offs).lits.getD 0 lit_Undef).var).level rfl).1
        rcases hs with ⟨h1, _⟩ | ⟨h1, _⟩
        · exact absurd h1 hne
        · have hm := List.mem_range'_1.1 h1
          exact keeps_find_conflict_level_swap s offs _ (by omega) (by omega)
      · simp only [Option.some.injEq] at h
        rw [← h]
        exact keeps_refl s

theorem build_decision_clause_score (s : Searcher) :
    ∀ (lims : List Nat) (t t1 : Searcher), build_decision_clause s lims t = some t1 →
      search_core t1 = search_core t
  | [], t, t1, h => by
    simp only [build_decision_clause, Option.some.injEq] at h
    rw [← h]
  | lim :: lims, t, t1, h => by
    unfold build_decision_clause at h
    split at h
    · cases h
    · simp only at h
      split at h
      · exact (build_decision_clause_score s lims _ t1 h).trans rfl
      · exact build_decision_clause_score s lims t t1 h

theorem collect_decision_clause_score (s s1 : Searcher) (h : collect_decision_clause s = some s1) :
    search_core s1 = search_core s := by
  unfold collect_decision_clause at h
  simp only at h
  split at h
  · cases hb : build_decision_clause { s with decision_clause := [] } s.trail_lim.reverse
        { s with decision_clause := [] } with
    | none => rw [hb] at h; cases h
    | some t =>
      rw [hb] at h
      simp only [Option.map_some', Option.some.injEq] at h
      rw [← h]
      exact (build_decision_clause_score _ _ _ _ hb).trans rfl
  · simp only [Option.some.injEq] at h
    rw [← h]

theorem update_history_stats_score (s s1 : Searcher) (b g : Nat)
    (h : update_history_stats s b g = some s1) : search_core s1 = search_core s := by
  unfold update_history_stats at h
  split at h
  · simp only [Option.some.injEq] at h
    rw [← h]
  · cases h

theorem keeps_backtrack_after_conflict (s : Searcher) (nH b : Nat) :
    keeps s (backtrack_after_conflict s nH b) := by
  unfold backtrack_after_conflict
  split <;> exact keeps_cancelUntil _ _

theorem keeps_handle_conflict_backtrack (s : Searcher) (confl : PropBy)
    (r : Searcher ⊕ ConflictOutcome) (h : handle_conflict_backtrack s confl = some r) :
    (∀ s1, r = .inl s1 → keeps s s1) ∧ (∀ o, r = .inr o → keeps s o.st) := by
  unfold handle_conflict_backtrack at h
  split at h
  · cases h
  · rename_i nH confl1 s1 h1
    have k1 : keeps s s1 :=
      keeps_trans (@keeps_of_core s (note_conflict s) rfl)
        (keeps_find_conflict_level _ _ _ h1)
    split at h
    · simp only [Option.some.injEq] at h
      rw [← h]
      refine ⟨?_, fun o ho => (by cases ho)⟩
      intro t ht
      simp only [Sum.inl.injEq] at ht
      rw [← ht]
      exact keeps_trans k1 (keeps_of_core rfl)
    · split at h
      · cases h
      · rename_i s2 bl glue h2
        have k2 : keeps s s2 :=
          keeps_trans k1 (keeps_of_core (analyze_conflict_score false s1 confl1 _ h2))
        split at h
        · cases h
        · rename_i s3 h3
          have k3 : keeps s s3 :=
            keeps_trans k2 (keeps_of_core (update_history_stats_score _ _ _ _ h3))
          split at h
          · cases h
          · rename_i s4 h4
            have k4 : keeps s s4 :=
              keeps_trans k3 (keeps_of_core (collect_decision_clause_score _ _ h4))
            simp only [Option.some.injEq] at h
            rw [← h]
            refine ⟨fun t ht => (by cases ht), ?_⟩
            intro o ho
            simp only [Sum.inr.injEq] at ho
            rw [← ho]
            exact keeps_trans k4 (keeps_backtrack_after_conflict _ _ _)

/-! ### Adding the learnt clause -/

theorem keeps_handle_last_confl (s : Searcher) (glue : Nat) (is_decision : Bool) :
    keeps s (handle_last_confl s glue is_decision).2 := by
  unfold handle_last_confl
  split
  · exact keeps_refl s
  · simp only [Clause_new]
    refine keeps_of_fields rfl rfl rfl rfl rfl rfl (Nat.le_succ _) rfl rfl rfl rfl ?_ ?_
    · intro o ho l
      have hne : o ≠ s.cl_alloc_size := Nat.ne_of_lt ho
      simp only [upd, if_neg hne]
    · intro l l2
      exact Iff.rfl

theorem keeps_attach_bin_clause (s : Searcher) (l1 l2 : Lit) :
    keeps s (attach_bin_clause s l1 l2 true) := by
  unfold attach_bin_clause
  refine keeps_of_fields rfl rfl rfl rfl rfl rfl (Nat.le_refl _) rfl rfl rfl rfl ?_ ?_
  · intro o _ l
    exact Iff.rfl
  · intro l l3
    refine (updW_bin_iff _ _ _ ?_ l l3).trans (updW_bin_iff _ _ _ ?_ l l3)
    · intro l4
      exact append_red_bin_iff _ _ _
    · intro l4
      exact append_red_bin_iff _ _ _

theorem keeps_attachClause (s : Searcher) (offset : Nat) : keeps s (attachClause s offset) := by
  unfold attachClause
  refine keeps_of_fields rfl rfl rfl rfl rfl rfl (Nat.le_refl _) rfl rfl rfl rfl ?_ ?_
  · intro o _ l
    exact Iff.rfl
  · intro l l3
    refine (updW_bin_iff _ _ _ ?_ l l3).trans (updW_bin_iff _ _ _ ?_ l l3)
    · intro l4
      exact append_long_bin_iff _ _ _ _
    · intro l4
      exact append_long_bin_iff _ _ _ _

theorem keeps_ite_enqueue (s : Searcher) (enq : Bool) (p : Lit) (level : Nat) (w : PropBy) :
    keeps s (if enq then enqueue s p level w else s) := by
  split
  · exact keeps_enqueue _ _ _ _
  · exact keeps_refl s

theorem keeps_attach_and_enqueue (s : Searcher) (cl : Option Nat) (level : Nat) (enq : Bool)
    (s1 : Searcher) (h : attach_and_enqueue_learnt_clause s cl level enq = some s1) :
    keeps s s1 := by
  unfold attach_and_enqueue_learnt_clause at h
  split at h
  · cases h
  · simp only [Option.some.injEq] at h
    rw [← h]
    exact keeps_ite_enqueue _ _ _ _ _
  · simp only [Option.some.injEq] at h
    rw [← h]
    exact keeps_trans (keeps_attach_bin_clause _ _ _) (keeps_ite_enqueue _ _ _ _ _)
  · split at h
    · cases h
    · simp only [Option.some.injEq] at h
      rw [← h]
      exact keeps_trans (keeps_attachClause _ _) (keeps_ite_enqueue _ _ _ _ _)

theorem keeps_add_decision_clause (s : Searcher) (b : Nat) (s1 : Searcher)
    (h : add_decision_clause s b = some s1) : keeps s s1 := by
  unfold add_decision_clause at h
  split at h
  · split at h
    · cases h
    · simp only at h
      refine keeps_trans (keeps_of_core ?_)
        (keeps_trans (keeps_handle_last_confl _ _ _) (keeps_attach_and_enqueue _ _ _ _ _ h))
      rfl
  · simp only [Option.some.injEq] at h
    rw [← h]
    exact keeps_refl s

theorem keeps_handle_conflict (s : Searcher) (confl : PropBy) (r : Bool × Searcher)
    (h : handle_conflict s confl = some r) : keeps s r.2 := by
  unfold handle_conflict at h
  split at h
  · cases h
  · rename_i s1 hb
    simp only [Option.some.injEq] at h
    rw [← h]
    exact (keeps_handle_conflict_backtrack s confl _ hb).1 s1 rfl
  · rename_i o hb
    have k1 := (keeps_handle_conflict_backtrack s confl _ hb).2 o rfl
    simp only at h
    split at h
    · cases h
    · rename_i s6 h6
      have k2 : keeps s s6 :=
        keeps_trans k1 (keeps_trans (keeps_handle_last_confl _ _ _)
          (keeps_attach_and_enqueue _ _ _ _ _ h6))
      cases h7 : add_decision_clause s6 o.backtrack_level with
      | none => rw [h7] at h; cases h
      | some s7 =>
        rw [h7] at h
        simp only [Option.map_some', Option.some.injEq] at h
        rw [← h]
        exact keeps_trans k2 (keeps_add_decision_clause _ _ _ h7)

end Searcher
end CMSat

namespace CMSat
namespace Searcher

/-! ### Decisions: the heap runs empty only when every active variable is assigned -/

theorem mkLit_var (v : Nat) (b : Bool) : (Lit.mkLit v b).var = v := by
  unfold Lit.mkLit Lit.var
  cases b <;> simp
  omega

theorem mkLit_eq_lit_Undef (v : Nat) (b : Bool) (h : Lit.mkLit v b = lit_Undef) :
    v = var_Undef := by
  unfold lit_Undef Lit.mkLit at h
  simp only [Lit.mk.injEq] at h
  cases b <;> simp at h <;> omega

theorem pick_var_loop_spec (s : Searcher) :
    ∀ heap : List Nat,
      ((pick_var_loop s heap).1 = var_Undef → ∀ v ∈ heap, v = var_Undef ∨ s.assigns v ≠ l_Undef)
      ∧ ((pick_var_loop s heap).1 ≠ var_Undef → s.assigns (pick_var_loop s heap).1 = l_Undef)
      ∧ (∀ v ∈ heap, v ∈ (pick_var_loop s heap).2 ∨ v = (pick_var_loop s heap).1
          ∨ v = var_Undef ∨ s.assigns v ≠ l_Undef)
  | [] => by
    refine ⟨fun _ v hv => ?_, fun h => ?_, fun v hv => ?_⟩
    · cases hv
    · exact absurd rfl h
    · cases hv
  | x :: heap => by
    obtain ⟨h1, h2, h3⟩ := pick_var_loop_spec s heap
    unfold pick_var_loop
    split
    · rename_i hx
      refine ⟨fun hu v hv => ?_, h2, fun v hv => ?_⟩
      · rcases List.mem_cons.1 hv with rfl | hv
        · exact hx
        · exact h1 hu v hv
      · rcases List.mem_cons.1 hv with rfl | hv
        · exact Or.inr (Or.inr hx)
        · exact h3 v hv
    · rename_i hx
      have hx1 : x ≠ var_Undef := fun e => hx (Or.inl e)
      have hx2 : s.assigns x = l_Undef := by
        by_contra e
        exact hx (Or.inr e)
      refine ⟨fun hu => absurd hu hx1, fun _ => hx2, fun v hv => ?_⟩
      rcases List.mem_cons.1 hv with rfl | hv
      · exact Or.inr (Or.inl rfl)
      · exact Or.inl hv

theorem pick_var_vsids_maple_spec (s : Searcher) (hs : s.branch_strategy ≠ .rand) :
    (∃ hv hm, (pick_var_vsids_maple s).2
        = { s with order_heap_vsids := hv, order_heap_maple := hm })
    ∧ ((pick_var_vsids_maple s).1 = var_Undef →
        ∀ v ∈ active_heap s, v = var_Undef ∨ s.assigns v ≠ l_Undef)
    ∧ ((pick_var_vsids_maple s).1 ≠ var_Undef →
        s.assigns (pick_var_vsids_maple s).1 = l_Undef)
    ∧ (∀ v ∈ active_heap s, v ∈ active_heap (pick_var_vsids_maple s).2
        ∨ v = (pick_var_vsids_maple s).1 ∨ v = var_Undef ∨ s.assigns v ≠ l_Undef) := by
  unfold pick_var_vsids_maple
  split
  · rename_i hb
    obtain ⟨h1, h2, h3⟩ := pick_var_loop_spec s s.order_heap_vsids
    have ea : active_heap s = s.order_heap_vsids := by unfold active_heap; rw [hb]
    refine ⟨⟨_, s.order_heap_maple, rfl⟩, ?_, h2, ?_⟩
    · rw [ea]; exact h1
    · rw [ea]
      intro v hv
      rcases h3 v hv with h | h
      · left
        unfold active_heap
        simp only [hb]
        exact h
      · exact Or.inr h
  · rename_i hb
    have hm : s.branch_strategy = .maple := by
      cases hq : s.branch_strategy
      · exact absurd hq hb
      · rfl
      · exact absurd hq hs
    obtain ⟨h1, h2, h3⟩ := pick_var_loop_spec s s.order_heap_maple
    have ea : active_heap s = s.order_heap_maple := by unfold active_heap; rw [hm]
    refine ⟨⟨s.order_heap_vsids, _, rfl⟩, ?_, h2, ?_⟩
    · rw [ea]; exact h1
    · rw [ea]
      intro v hv
      rcases h3 v hv with h | h
      · left
        unfold active_heap
        simp only [hm]
        exact h
      · exact Or.inr h

theorem pickBranchLit_spec (c : Collab) (s : Searcher) (r : Lit × Searcher)
    (hs : s.branch_strategy ≠ .rand) (h : pickBranchLit c s = some r) :
    (∃ hv hm, r.2 = { s with order_heap_vsids := hv, order_heap_maple := hm })
    ∧ (r.1 = lit_Undef → ∀ v ∈ active_heap s, v = var_Undef ∨ s.assigns v ≠ l_Undef)
    ∧ (r.1 ≠ lit_Undef → ∀ v ∈ active_heap s, v ∈ active_heap r.2
        ∨ v = r.1.var ∨ v = var_Undef ∨ s.assigns v ≠ l_Undef) := by
  obtain ⟨h1, h2, _, h4⟩ := pick_var_vsids_maple_spec s hs
  have hr : r = (if (pick_var_vsids_maple s).1 ≠ var_Undef then
        (Lit.mkLit (pick_var_vsids_maple s).1
          (!c.pick_polarity (pick_var_vsids_maple s).2 (pick_var_vsids_maple s).1),
          (pick_var_vsids_maple s).2)
      else (lit_Undef, (pick_var_vsids_maple s).2)) := by
    unfold pickBranchLit at h
    simp only at h
    cases hb : s.branch_strategy with
    | vsids =>
      rw [hb] at h
      simp only [Option.map_some', Option.some.injEq] at h
      exact h.symm
    | maple =>
      rw [hb] at h
      simp only [Option.map_some', Option.some.injEq] at h
      exact h.symm
    | rand => exact absurd hb hs
  generalize pick_var_vsids_maple s = p at h1 h2 h4 hr
  by_cases hp : p.1 ≠ var_Undef
  · rw [if_pos hp] at hr
    rw [hr]
    refine ⟨h1, ?_, ?_⟩
    · intro hu
      exact absurd (mkLit_eq_lit_Undef _ _ hu) hp
    · intro _ v hv
      simp only [mkLit_var]
      exact h4 v hv
  · rw [if_neg hp] at hr
    rw [hr]
    refine ⟨h1, ?_, ?_⟩
    · intro _
      exact h2 (by_contra hp)
    · intro hne
      exact absurd rfl hne

theorem new_decision_assumptions_score :
    ∀ (fuel : Nat) (s : Searcher) (p : Lit) (s1 : Searcher),
      new_decision_assumptions fuel s = some (.next p s1) → search_core s1 = search_core s
  | 0, _, _, _, h => by simp [new_decision_assumptions] at h
  | fuel + 1, s, p, s1, h => by
    unfold new_decision_assumptions at h
    split at h
    · simp only at h
      split at h
      · exact (new_decision_assumptions_score fuel (new_decision_level s) p s1 h).trans rfl
      · split at h
        · cases ha : analyze_final_confl_with_assumptions s
            (s.assumptions.getD s.decisionLevel lit_Undef).neg with
          | none => rw [ha] at h; cases h
          | some t =>
            rw [ha] at h
            simp only [Option.map_some', Option.some.injEq] at h
            cases h
        · simp only [Option.some.injEq, AssumptionStep.next.injEq] at h
          rw [← h.2]
    · simp only [Option.some.injEq, AssumptionStep.next.injEq] at h
      rw [← h.2]

theorem lbool_xor_true (x : lbool) (b : Bool) (h1 : x ≠ l_Undef) (h2 : x.xor b ≠ l_False) :
    x.xor b = l_True := by
  cases x <;> cases b <;> simp_all [lbool.xor]

/-- In a state in which no original clause is falsified and every active variable is assigned,
the assignment satisfies every original clause. -/
theorem satisfies_of_full {s : Searcher} (hi : search_inv s) (hn : no_falsified s)
    (hfull : ∀ v, is_active s v → s.assigns v ≠ l_Undef) : satisfies s s.assigns := by
  refine ⟨?_, ?_⟩
  · intro C hC
    obtain ⟨l, hl, hv⟩ := hn.1 C hC
    exact ⟨l, hl, lbool_xor_true _ _ (hfull _ (hi.clause_vars C hC l hl)) hv⟩
  · intro x hx
    have ha : ∀ v ∈ x.1, s.assigns v ≠ l_Undef := fun v hv => hfull v (hi.xor_vars x hx v hv)
    exact ⟨ha, hn.2 x hx ha⟩

theorem all_assigned_of_exhausted {s : Searcher} (hi : search_inv s)
    (h : ∀ v ∈ active_heap s, v = var_Undef ∨ s.assigns v ≠ l_Undef) :
    ∀ v, is_active s v → s.assigns v ≠ l_Undef := by
  intro v hv hu
  rcases h v (hi.heap v hv hu) with e | e
  · have h1 := hv.1
    have h2 := hi.nVars_le
    omega
  · exact e hu

/-- A decision keeps the heap discipline; when `new_decision` finds nothing left to branch on
in a state without falsified original clause, the assignment satisfies every original
clause. -/
theorem new_decision_inv (c : Collab) (s : Searcher) (r : lbool × Searcher)
    (hi : search_inv s) (h : new_decision c s = some r) :
    (r.1 = l_Undef → search_inv r.2)
    ∧ (r.1 = l_True → no_falsified s → satisfies r.2 r.2.assigns) := by
  unfold new_decision at h
  split at h
  · cases h
  · simp only [Option.some.injEq] at h
    rw [← h]
    exact ⟨fun e => (by cases e), fun e => (by cases e)⟩
  · rename_i nx s1 ha
    have e1 := new_decision_assumptions_score _ _ _ _ ha
    have hi1 : search_inv s1 := search_inv_of_keeps hi (keeps_of_core e1)
    split at h
    · split at h
      · cases h
      · rename_i next1 s2 hp
        obtain ⟨⟨hv, hm, hs2⟩, hA, hB⟩ := pickBranchLit_spec c s1 _ hi1.heap_strategy hp
        simp only at hs2 hA hB
        split at h
        · rename_i hu
          simp only [Option.some.injEq] at h
          rw [← h]
          refine ⟨fun e => (by cases e), fun _ hn => ?_⟩
          have hn1 : no_falsified s1 := no_falsified_of_core e1 hn
          have hfull := all_assigned_of_exhausted hi1 (hA hu)
          have hsat := satisfies_of_full hi1 hn1 hfull
          show satisfies s2 s2.assigns
          rw [hs2]
          exact satisfies_congr (s := s1) s1.assigns rfl rfl (fun _ => rfl) rfl rfl hsat
        · rename_i hu
          simp only [Option.some.injEq] at h
          rw [← h]
          refine ⟨fun _ => ?_, fun e => (by cases e)⟩
          apply search_inv_of_keeps hi1
          have hB1 := hB hu
          have hheap : active_heap (enqueue (new_decision_level s2) next1
              (new_decision_level s2).decisionLevel .null_clause_t) = active_heap s2 := rfl
          have hass := enqueue_assigned (new_decision_level s2) next1
              (new_decision_level s2).decisionLevel .null_clause_t
          have hk := keeps_enqueue (new_decision_level s2) next1
              (new_decision_level s2).decisionLevel .null_clause_t
          generalize enqueue (new_decision_level s2) next1
              (new_decision_level s2).decisionLevel .null_clause_t = s3 at hheap hass hk ⊢
          have hk2 : keeps s2 s3 := keeps_trans (@keeps_of_core s2 (new_decision_level s2) rfl) hk
          rw [hs2] at hk2
          refine ⟨hk2.nVars, hk2.var_removed, hk2.fast_backw_on, hk2.branch_strategy,
            hk2.longIrredCls, hk2.xorclauses, hk2.cl_alloc_size, hk2.lits, hk2.bins, ?_⟩
          intro v hv hc
          rcases hc with hc | hc
          · rcases hB1 v hc with h1 | h1 | h1 | h1
            · left
              rw [hheap]
              exact h1
            · right
              rw [h1]
              exact hass
            · exact absurd h1 hv
            · exact hk2.covered v hv (Or.inr h1)
          · exact hk2.covered v hv (Or.inr hc)
    · simp only [Option.some.injEq] at h
      rw [← h]
      refine ⟨fun _ => ?_, fun e => (by cases e)⟩
      exact search_inv_of_keeps hi1
        (keeps_trans (@keeps_of_core s1 (new_decision_level s1) rfl) (keeps_enqueue _ _ _ _))

end Searcher
end CMSat

namespace CMSat
namespace Searcher

/-! ### The search loop keeps the heap discipline -/

theorem search_inv_of_core {s s1 : Searcher} (h : search_core s1 = search_core s)
    (hi : search_inv s) : search_inv s1 :=
  search_inv_of_keeps hi (keeps_of_core h)

theorem rebuildOrderHeap_inv (s : Searcher) (hi : search_inv s) :
    search_inv (rebuildOrderHeap s) := by
  have hirr : ∀ C, irred_clause (rebuildOrderHeap s) C ↔ irred_clause s C :=
    irred_clause_congr rfl rfl (fun _ => rfl) rfl
  refine ⟨hi.fast_backw_off, hi.heap_strategy, hi.nVars_le, ?_, ?_, hi.xor_vars, hi.offsets⟩
  · intro v hv hu
    have hv1 : v < s.nVars := hv.1
    have hv2 : s.var_removed v = false := hv.2
    have hu1 : s.assigns v = l_Undef := hu
    have hmem : v ∈ (List.range s.nVars).filter (fun v =>
        !(s.var_removed v || (s.assigns v != l_Undef && (s.varData v).level == 0))) := by
      rw [List.mem_filter]
      refine ⟨List.mem_range.2 hv1, ?_⟩
      simp [hv2, hu1]
    unfold active_heap rebuildOrderHeap
    cases hb : s.branch_strategy <;> simp only [hb] <;> exact hmem
  · intro C hC l hl
    exact hi.clause_vars C ((hirr C).1 hC) l hl

theorem rebuildOrderHeap_no_falsified (s : Searcher) (hn : no_falsified s) :
    no_falsified (rebuildOrderHeap s) :=
  no_falsified_congr rfl rfl rfl (fun _ => rfl) rfl rfl hn

theorem clean_clauses_if_needed_inv (c : Collab) (hc : Collab.sound c) (s : Searcher)
    (hi : search_inv s) (hn : no_falsified s) :
    search_inv (clean_clauses_if_needed c s) ∧ no_falsified (clean_clauses_if_needed c s) := by
  unfold clean_clauses_if_needed
  simp only
  split
  · have h1 : search_inv { s with lastCleanZeroDepthAssigns := s.trail.length } :=
      @search_inv_of_core s { s with lastCleanZeroDepthAssigns := s.trail.length } rfl hi
    have n1 : no_falsified { s with lastCleanZeroDepthAssigns := s.trail.length } :=
      @no_falsified_of_core s { s with lastCleanZeroDepthAssigns := s.trail.length } rfl hn
    obtain ⟨h2, n2⟩ := hc.remove_and_clean_all _ h1 n1
    obtain ⟨h3, n3⟩ := hc.consolidate _ h2 n2
    have h4 := rebuildOrderHeap_inv _ h3
    have n4 := rebuildOrderHeap_no_falsified _ n3
    generalize rebuildOrderHeap (c.consolidate (c.remove_and_clean_all
      { s with lastCleanZeroDepthAssigns := s.trail.length })) = t at h4 n4 ⊢
    exact ⟨@search_inv_of_core t { t with simpDB_props := (t.litStats_lits : Int) * 32 } rfl h4,
      @no_falsified_of_core t { t with simpDB_props := (t.litStats_lits : Int) * 32 } rfl n4⟩
  · exact ⟨hi, hn⟩

theorem set_cur_max_score (t : Searcher) (x : Nat) :
    search_core { t with cur_max_temp_red_lev2_cls := x } = search_core t := rfl

theorem reduce_db_if_needed_inv (c : Collab) (hc : Collab.sound c) (s : Searcher)
    (hi : search_inv s) (hn : no_falsified s) :
    search_inv (reduce_db_if_needed c s) ∧ no_falsified (reduce_db_if_needed c s) := by
  unfold reduce_db_if_needed
  simp only
  have hstep1 : search_inv (if s.conf.every_lev1_reduce ≠ 0 ∧ s.sumConflicts ≥ s.next_lev1_reduce
      then { c.handle_lev1 s with
        next_lev1_reduce := (c.handle_lev1 s).sumConflicts + (c.handle_lev1 s).conf.every_lev1_reduce }
      else s)
      ∧ no_falsified (if s.conf.every_lev1_reduce ≠ 0 ∧ s.sumConflicts ≥ s.next_lev1_reduce
      then { c.handle_lev1 s with
        next_lev1_reduce := (c.handle_lev1 s).sumConflicts + (c.handle_lev1 s).conf.every_lev1_reduce }
      else s) := by
    split
    · obtain ⟨h1, n1⟩ := hc.handle_lev1 s hi hn
      generalize c.handle_lev1 s = t at h1 n1 ⊢
      exact ⟨@search_inv_of_core t
          { t with next_lev1_reduce := t.sumConflicts + t.conf.every_lev1_reduce } rfl h1,
        @no_falsified_of_core t
          { t with next_lev1_reduce := t.sumConflicts + t.conf.every_lev1_reduce } rfl n1⟩
    · exact ⟨hi, hn⟩
  generalize (if s.conf.every_lev1_reduce ≠ 0 ∧ s.sumConflicts ≥ s.next_lev1_reduce
      then { c.handle_lev1 s with
        next_lev1_reduce := (c.handle_lev1 s).sumConflicts + (c.handle_lev1 s).conf.every_lev1_reduce }
      else s) = s1 at hstep1 ⊢
  obtain ⟨hi1, hn1⟩ := hstep1
  split
  · split
    · obtain ⟨h2, n2⟩ := hc.handle_lev2 s1 hi1 hn1
      obtain ⟨h3, n3⟩ := hc.consolidate _ h2 n2
      generalize c.consolidate (c.handle_lev2 s1) = t at h3 n3 ⊢
      exact ⟨@search_inv_of_core t
          { t with next_lev2_reduce := t.sumConflicts + t.conf.every_lev2_reduce } rfl h3,
        @no_falsified_of_core t
          { t with next_lev2_reduce := t.sumConflicts + t.conf.every_lev2_reduce } rfl n3⟩
    · exact ⟨hi1, hn1⟩
  · split
    · obtain ⟨h2, n2⟩ := hc.handle_lev2 s1 hi1 hn1
      generalize c.handle_lev2 s1 = t at h2 n2 ⊢
      exact hc.consolidate _ (search_inv_of_core (set_cur_max_score t _) h2)
        (no_falsified_of_core (set_cur_max_score t _) n2)
    · exact ⟨hi1, hn1⟩

theorem ite_score (p : Prop) [Decidable p] (a b s : Searcher)
    (ha : search_core a = search_core s) (hb : search_core b = search_core s) :
    search_core (if p then a else b) = search_core s := by
  split <;> assumption

theorem stop_search_score (s : Searcher) : search_core (stop_search s) = search_core s := rfl

theorem read_cpuTime_score (env : Env) (s : Searcher) :
    search_core (read_cpuTime env s).2 = search_core s := rfl

theorem read_must_interrupt_asap_score (env : Env) (s : Searcher) :
    search_core (read_must_interrupt_asap env s).2 = search_core s := rfl

theorem check_need_restart_limits_score (env : Env) (s : Searcher) :
    search_core (check_need_restart_limits env s) = search_core s := by
  unfold check_need_restart_limits
  split
  · simp only
    have e0 := read_cpuTime_score env s
    generalize read_cpuTime env s = t at e0 ⊢
    have e1 : search_core (if t.1 > t.2.conf.maxTime then stop_search t.2 else t.2)
        = search_core s :=
      ite_score _ _ _ _ ((stop_search_score t.2).trans e0) e0
    generalize (if t.1 > t.2.conf.maxTime then stop_search t.2 else t.2) = s1 at e1 ⊢
    have e2 := (read_must_interrupt_asap_score env s1).trans e1
    generalize read_must_interrupt_asap env s1 = i at e2 ⊢
    exact ite_score _ _ _ _ ((stop_search_score i.2).trans e2) e2
  · rfl

theorem check_blocking_restart_score (c : Collab) (s : Searcher) :
    search_core (check_blocking_restart c s) = search_core s := by
  unfold check_blocking_restart
  split <;> rfl

theorem check_need_restart_score (c : Collab) (env : Env) (s : Searcher) :
    search_core (check_need_restart c env s) = search_core s := by
  unfold check_need_restart
  simp only
  have e1 := check_need_restart_limits_score env s
  generalize check_need_restart_limits env s = s1 at e1 ⊢
  have e2 : search_core (if s1.params.rest_type = Restart.glue then
      if c.glue_restart (check_blocking_restart c s1) = true then
        stop_search (check_blocking_restart c s1)
      else check_blocking_restart c s1
    else s1) = search_core s := by
    apply ite_score
    · apply ite_score
      · exact (check_blocking_restart_score c s1).trans e1
      · exact (check_blocking_restart_score c s1).trans e1
    · exact e1
  generalize (if s1.params.rest_type = Restart.glue then
      if c.glue_restart (check_blocking_restart c s1) = true then
        stop_search (check_blocking_restart c s1)
      else check_blocking_restart c s1
    else s1) = s2 at e2 ⊢
  have e3 : search_core (if (s2.params.conflictsDoneThisRestart : Int) > s2.max_confl_this_restart
      then stop_search s2 else s2) = search_core s := ite_score _ _ _ _ e2 e2
  generalize (if (s2.params.conflictsDoneThisRestart : Int) > s2.max_confl_this_restart
      then stop_search s2 else s2) = s3 at e3 ⊢
  exact ite_score _ _ _ _ e3 e3

theorem search_finish_inv (c : Collab) (hc : Collab.sound c) (s : Searcher)
    (hi : search_inv s) : search_inv (search_finish c s).2 := by
  have h1 : search_inv (cancelUntil (charge_restart_budget s) 0) :=
    search_inv_of_keeps (@search_inv_of_core s (charge_restart_budget s) rfl hi)
      (keeps_cancelUntil _ _)
  have h2 := hc.propagate_inv _ h1
  unfold search_finish propagate
  simp only
  generalize c.propagate_any_order (cancelUntil (charge_restart_budget s) 0) = r at h2 ⊢
  split
  · exact @search_inv_of_core r.2 { r.2 with ok := false } rfl h2
  · have h3 := hc.syncData_inv _ h2
    split <;> exact h3

theorem search_finish_ne_true (c : Collab) (s : Searcher) : (search_finish c s).1 ≠ l_True := by
  unfold search_finish
  simp only
  split
  · simp
  · split <;> simp

/-- Through the loop of `search` the heap discipline is kept; when the loop ends with
`l_True`, the assignment satisfies every original clause. -/
theorem search_loop_inv (c : Collab) (env : Env) (hc : Collab.sound c) :
    ∀ (fuel : Nat) (s : Searcher) (confl : PropBy) (r : Option lbool × Searcher),
      search_inv s → search_loop c env fuel s confl = some r →
      (r.1 = some l_True → satisfies r.2 r.2.assigns) ∧ (r.1 = none → search_inv r.2)
  | 0, _, _, _, _, h => by simp [search_loop] at h
  | fuel + 1, s, confl, r, hi, h => by
    unfold search_loop at h
    split at h
    · split at h
      · simp only [Option.some.injEq] at h
        rw [← h]
        exact ⟨fun e => (by cases e), fun e => (by cases e)⟩
      · simp only at h
        have hp := hc.propagate_fast_inv s hi
        have hcon := hc.propagate_fast_contract s
        generalize c.propagate_any_order_fast s = p at h hp hcon
        split at h
        · have hi1 : search_inv
              { p.2 with trailDepthHistLonger := p.2.trailDepthHistLonger ++ [p.2.trail.length] } :=
            @search_inv_of_core p.2
              { p.2 with trailDepthHistLonger := p.2.trailDepthHistLonger ++ [p.2.trail.length] }
              rfl hp
          split at h
          · cases h
          · simp only [Option.some.injEq] at h
            rw [← h]
            exact ⟨fun e => (by cases e), fun e => (by cases e)⟩
          · rename_i s2 hh
            have hi2 : search_inv s2 := search_inv_of_keeps hi1 (keeps_handle_conflict _ _ _ hh)
            exact search_loop_inv c env hc fuel _ _ r
              (search_inv_of_core (check_need_restart_score c env s2) hi2) h
        · rename_i hnull
          have hnull1 : p.1.isNULL = true := by
            cases hq : p.1.isNULL
            · rw [hq] at hnull; simp at hnull
            · rfl
          have hn := hcon hnull1
          have hs1 : search_inv (if p.2.decisionLevel = 0 then clean_clauses_if_needed c p.2
              else p.2)
              ∧ no_falsified (if p.2.decisionLevel = 0 then clean_clauses_if_needed c p.2
              else p.2) := by
            split
            · exact clean_clauses_if_needed_inv c hc _ hp hn
            · exact ⟨hp, hn⟩
          generalize (if p.2.decisionLevel = 0 then clean_clauses_if_needed c p.2 else p.2) = s1
            at h hs1
          obtain ⟨hi2, hn2⟩ := reduce_db_if_needed_inv c hc s1 hs1.1 hs1.2
          generalize reduce_db_if_needed c s1 = s2 at h hi2 hn2
          have hdec : search_decide c s2 = new_decision c s2 := by
            unfold search_decide
            rw [hi2.fast_backw_off]
            rfl
          rw [hdec] at h
          split at h
          · cases h
          · rename_i dec_ret s3 hd
            obtain ⟨d1, d2⟩ := new_decision_inv c s2 _ hi2 hd
            split at h
            · simp only [Option.some.injEq] at h
              rw [← h]
              refine ⟨fun e => ?_, fun e => (by cases e)⟩
              simp only [Option.some.injEq] at e
              exact d2 e hn2
            · rename_i hu
              have hu1 : dec_ret = l_Undef := by
                by_contra hne
                exact hu hne
              exact search_loop_inv c env hc fuel _ _ r (d1 hu1) h
    · simp only [Option.some.injEq] at h
      rw [← h]
      exact ⟨fun e => (by cases e), fun _ => hi⟩

/-- A `search` that returns `l_True` leaves an assignment that satisfies every original clause;
one that returns `l_Undef` leaves the heap discipline intact. -/
theorem search_inv_result (c : Collab) (env : Env) (hc : Collab.sound c) (fuel : Nat)
    (s : Searcher) (r : lbool × Searcher) (hi : search_inv s)
    (h : search c env fuel s = some r) :
    (r.1 = l_True → satisfies r.2 r.2.assigns) ∧ (r.1 = l_Undef → search_inv r.2) := by
  unfold search at h
  have hi0 : search_inv { s with glueHist := [], trailDepthHistLonger := [] } :=
    @search_inv_of_core s { s with glueHist := [], trailDepthHistLonger := [] } rfl hi
  split at h
  · cases h
  · rename_i sr s1 hl
    simp only [Option.some.injEq] at h
    rw [← h]
    obtain ⟨a1, _⟩ := search_loop_inv c env hc fuel _ _ _ hi0 hl
    refine ⟨fun e => a1 (congrArg some e), fun e => ?_⟩
    exact absurd e (search_loop_goto_ne_undef c env fuel _ _ sr s1 hl)
  · rename_i s1 hl
    simp only [Option.some.injEq] at h
    rw [← h]
    obtain ⟨_, a2⟩ := search_loop_inv c env hc fuel _ _ _ hi0 hl
    exact ⟨fun e => absurd e (search_finish_ne_true c s1),
      fun _ => search_finish_inv c hc s1 (a2 rfl)⟩

end Searcher
end CMSat

namespace CMSat
namespace Searcher

/-! ### The branching strategy chosen by `set_branch_strategy` -/

theorem str_find_none_of_zero (hay pat : List Char) (start : Nat)
    (h : str_find hay pat 0 = none) : str_find hay pat start = none := by
  unfold str_find at h ⊢
  rw [List.find?_eq_none] at h ⊢
  intro x hx
  apply h x
  have := List.mem_range'_1.1 hx
  apply List.mem_range'_1.2
  omega

theorem npos_min_none_left (b : Option Nat) : npos_min none b = b := by
  cases b <;> rfl

theorem mem_append_singleton_ne {b x : branch_type_total} {select : List branch_type_total}
    (hsel : ∀ b ∈ select, b.branch ≠ branch.rand) (hx : x.branch ≠ branch.rand)
    (hb : b ∈ select ++ [x]) : b.branch ≠ branch.rand := by
  rcases List.mem_append.1 hb with h | h
  · exact hsel b h
  · rw [List.mem_singleton.1 h]
    exact hx

/-- Without the name `rand` in the set-up string no random entry is selected. -/
theorem set_branch_strategy_select_no_rand (setup : List Char)
    (hr : str_find setup "rand".data 0 = none) :
    ∀ (fuel start : Nat) (select sel : List branch_type_total),
      (∀ b ∈ select, b.branch ≠ branch.rand) →
      set_branch_strategy_select setup fuel start select = some sel →
      ∀ b ∈ sel, b.branch ≠ branch.rand
  | 0, _, _, _, _, h => by simp [set_branch_strategy_select] at h
  | fuel + 1, start, select, sel, hsel, h => by
    unfold set_branch_strategy_select at h
    simp only [str_find_none_of_zero setup "rand".data start hr, npos_min_none_left] at h
    split at h
    · simp only [Option.some.injEq] at h
      rw [← h]
      exact hsel
    · rename_i pos hpos
      split at h
      · cases h
      · rename_i b hb
        have hbr : b.branch ≠ branch.rand := by
          split_ifs at hb <;> simp only [Option.some.injEq] at hb <;>
            first
              | (rw [← hb]; simp; done)
              | (cases hb; done)
              | (exfalso; simp_all)
        exact set_branch_strategy_select_no_rand setup hr fuel _ _ sel
          (fun b1 hb1 => mem_append_singleton_ne hsel hbr hb1) h

theorem drop_once_fold_mem (P : branch_type_total → Prop) :
    ∀ (sel : List branch_type_total) (st : List branch_type_total × Nat),
      (∀ b ∈ st.1, P b) → (∀ b ∈ sel, P b) → ∀ b ∈ (sel.foldl drop_once st).1, P b
  | [], _, h1, _ => h1
  | x :: sel, st, h1, h2 => by
    simp only [List.foldl_cons]
    apply drop_once_fold_mem P sel
    · unfold drop_once
      split
      · intro b hb
        rcases List.mem_append.1 hb with h | h
        · exact h1 b h
        · rw [List.mem_singleton.1 h]
          exact h2 x (List.mem_cons_self _ _)
      · exact h1
    · intro b hb
      exact h2 b (List.mem_cons_of_mem _ hb)

theorem set_branch_strategy_spec (s : Searcher) (n : Nat) (s1 : Searcher)
    (hr : str_find s.conf.branch_strategy_setup.data "rand".data 0 = none)
    (h : set_branch_strategy s n = some s1) :
    ∃ b, b ≠ branch.rand
      ∧ s1 = { s with branch_strategy := b
                      cur_rest_type := if b = .maple then .luby else s.conf.restartType } := by
  unfold set_branch_strategy at h
  split at h
  · exact absurd h (by simp)
  · rename_i select hsel
    have hno := set_branch_strategy_select_no_rand _ hr _ _ _ _ (fun _ hb => (by cases hb)) hsel
    simp only at h
    have hr1 : ∀ b ∈ (if n ≥ select.length then select.foldl drop_once ([], n)
        else (select, n)).1, b.branch ≠ branch.rand := by
      split
      · exact drop_once_fold_mem _ select _ (fun _ hb => (by cases hb)) hno
      · exact hno
    generalize (if n ≥ select.length then select.foldl drop_once ([], n) else (select, n)) = r
      at h hr1
    by_cases hl : r.1.length = 0
    · rw [if_pos hl] at h
      exact absurd h (by simp)
    · rw [if_neg hl] at h
      cases hb : r.1[r.2 % r.1.length]? with
      | none => rw [hb] at h; exact absurd h (by simp)
      | some b =>
        rw [hb] at h
        simp only [Option.some.injEq] at h
        exact ⟨b.branch, hr1 b (List.getElem?_mem hb), h.symm⟩

/-! ### `solve` -/

theorem adjust_restart_strategy_score (s s1 : Searcher)
    (h : adjust_restart_strategy s = some s1) : search_core s1 = search_core s := by
  unfold adjust_restart_strategy at h
  split at h
  · cases h; rfl
  · simp only at h
    split at h
    · cases hl : luby 2 (s.luby_loop_num : Int) with
      | none => rw [hl] at h; cases h
      | some l =>
        rw [hl] at h
        simp only [Option.map_some', Option.some.injEq] at h
        rw [← h]
    · cases h; rfl
    · cases h; rfl
    · cases h; rfl
    · cases h

theorem must_abort_score (env : Env) (status : lbool) (s : Searcher) :
    search_core (must_abort env status s).2 = search_core s := by
  unfold must_abort
  split
  · rfl
  · split
    · rfl
    · simp only
      split
      · exact read_cpuTime_score env s
      · exact (read_must_interrupt_asap_score env _).trans (read_cpuTime_score env s)

theorem must_abort_of_status (env : Env) (status : lbool) (s : Searcher)
    (h : status ≠ l_Undef) : must_abort env status s = (true, s) := by
  unfold must_abort
  rw [if_pos h]

theorem set_next_distill_score (t : Searcher) (x : Nat) :
    search_core { t with next_distill := x } = search_core t := rfl

theorem distill_clauses_if_needed_inv (c : Collab) (hc : Collab.sound c) (s : Searcher)
    (hi : search_inv s) : search_inv (distill_clauses_if_needed c s).2 := by
  unfold distill_clauses_if_needed
  split
  · simp only
    have h1 := hc.distill_inv s hi
    split
    · exact h1
    · exact search_inv_of_core (set_next_distill_score _ _) h1
  · exact hi

/-- When the loop of `solve` ends with `l_True`, the assignment satisfies every original
clause. -/
theorem solve_loop_inv (c : Collab) (env : Env) (hc : Collab.sound c) (sfuel : Nat) :
    ∀ (fuel : Nat) (s : Searcher) (status : lbool) (r : lbool × Searcher),
      search_inv s → status ≠ l_True → solve_loop c env sfuel fuel s status = some r →
      r.1 = l_True → satisfies r.2 r.2.assigns
  | 0, _, _, _, _, _, h, _ => by simp [solve_loop] at h
  | fuel + 1, s, status, r, hi, hst, h, hr => by
    unfold solve_loop at h
    split at h
    · split at h
      · cases h
      · rename_i status1 s2 hs
        obtain ⟨a1, a2⟩ := search_inv_result c env hc sfuel (params_clear s) _
          (@search_inv_of_core s (params_clear s) rfl hi) hs
        simp only at a1 a2
        by_cases hu : status1 = l_Undef
        · have hi2 := a2 hu
          rw [if_pos hu] at h
          split at h
          · cases h
          · rename_i s3 had
            have hi3 : search_inv s3 :=
              search_inv_of_core (adjust_restart_strategy_score _ _ had) hi2
            simp only at h
            have hi4 : search_inv (must_abort env status1 s3).2 :=
              search_inv_of_core (must_abort_score env status1 s3) hi3
            generalize must_abort env status1 s3 = a at h hi4
            split at h
            · simp only [Option.some.injEq] at h
              rw [← h] at hr
              simp only at hr
              rw [hu] at hr
              cases hr
            · have hi5 := distill_clauses_if_needed_inv c hc a.2 hi4
              generalize distill_clauses_if_needed c a.2 = d at h hi5
              split at h
              · simp only [Option.some.injEq] at h
                rw [← h] at hr
                cases hr
              · exact solve_loop_inv c env hc sfuel fuel d.2 status1 r hi5
                  (by rw [hu]; simp) h hr
        · rw [if_neg hu] at h
          simp only at h
          rw [must_abort_of_status env status1 s2 hu] at h
          simp only [if_true, Option.some.injEq] at h
          rw [← h] at hr ⊢
          exact a1 hr
    · simp only [Option.some.injEq] at h
      rw [← h] at hr
      exact absurd hr hst

theorem search_inv_of_solve_pre (s : Searcher) (hs : solve_pre s) (b : branch)
    (hb : b ≠ branch.rand) (t : Searcher)
    (h1 : t.nVars = s.nVars) (h2 : t.var_removed = s.var_removed)
    (h3 : t.fast_backw_on = s.fast_backw_on) (h4 : t.branch_strategy = b)
    (h5 : t.longIrredCls = s.longIrredCls) (h6 : t.xorclauses = s.xorclauses)
    (h7 : t.cl_alloc_size = s.cl_alloc_size) (h8 : t.order_heap_vsids = s.order_heap_vsids)
    (h9 : t.order_heap_maple = s.order_heap_maple) (h10 : t.assigns = s.assigns)
    (h11 : t.cl_alloc = s.cl_alloc) (h12 : t.watches = s.watches) : search_inv t := by
  have hact : ∀ v, is_active t v ↔ is_active s v := by
    intro v
    unfold is_active
    rw [h1, h2]
  have hirr : ∀ C, irred_clause t C ↔ irred_clause s C :=
    irred_clause_congr h1 h12 (fun o => by rw [h11]) h5
  refine ⟨h3.trans hs.fast_backw_off, ?_, ?_, ?_, ?_, ?_, ?_⟩
  · rw [h4]; exact hb
  · rw [h1]; exact hs.nVars_le
  · intro v hv hu
    rw [h10] at hu
    unfold active_heap
    rw [h4]
    cases b with
    | vsids => simp only; rw [h8]; exact hs.heap_vsids v ((hact v).1 hv) hu
    | maple => simp only; rw [h9]; exact hs.heap_maple v ((hact v).1 hv) hu
    | rand => exact absurd rfl hb
  · intro C hC l hl
    exact (hact _).2 (hs.clause_vars C ((hirr C).1 hC) l hl)
  · intro x hx v hv
    rw [h6] at hx
    exact (hact _).2 (hs.xor_vars x hx v hv)
  · intro o ho
    rw [h5] at ho
    rw [h7]
    exact hs.offsets o ho

theorem finish_up_solve_model (c : Collab) (hc : Collab.sound c) (t : Searcher)
    (hsat : satisfies t t.assigns) : model_sat (finish_up_solve c l_True t) := by
  show model_sat (propagate c (cancelUntil { t with model := t.assigns } 0)).2
  apply hc.propagate_model
  have hcore := cancelUntil_core { t with model := t.assigns } 0
  generalize cancelUntil { t with model := t.assigns } 0 = u at hcore ⊢
  have e1 : u.nVars = t.nVars := by have e := congrArg Searcher.nVars hcore; exact e
  have e2 : u.watches = t.watches := by have e := congrArg Searcher.watches hcore; exact e
  have e3 : u.cl_alloc = t.cl_alloc := by have e := congrArg Searcher.cl_alloc hcore; exact e
  have e4 : u.longIrredCls = t.longIrredCls := by
    have e := congrArg Searcher.longIrredCls hcore; exact e
  have e5 : u.xorclauses = t.xorclauses := by
    have e := congrArg Searcher.xorclauses hcore; exact e
  have e6 : u.model = t.assigns := by have e := congrArg Searcher.model hcore; exact e
  unfold model_sat
  rw [e6]
  exact satisfies_congr t.assigns e1 e2 (fun o => by rw [e3]) e4 e5 hsat

/-- A `solve` that returns `l_True` was left by its loop in a state `t` whose assignment
satisfies every original clause; `finish_up_solve` recorded that assignment as the model. -/
theorem solve_true_model (c : Collab) (env : Env) (sfuel fuel : Nat) (s : Searcher) (m : Nat)
    (r : Searcher) (hc : Collab.sound c) (hs : solve_pre s)
    (h : solve c env sfuel fuel s m = some (l_True, r)) :
    ∃ t, satisfies t t.assigns
      ∧ r = (propagate c (cancelUntil { t with model := t.assigns } 0)).2
      ∧ model_sat r := by
  unfold solve at h
  by_cases hok : s.ok = true ∧ s.qhead = s.trail.length
  swap
  · rw [if_neg hok] at h
    cases h
  rw [if_pos hok] at h
  simp only at h
  have hne : ¬ (({ s with max_confl_per_search_solve_call := m } : Searcher).fast_backw_on = true
      ∧ ({ s with max_confl_per_search_solve_call := m } : Searcher).fast_backw_cur_max_confl
          = 0) := by
    intro hh
    have h1 : s.fast_backw_on = true := hh.1
    rw [hs.fast_backw_off] at h1
    cases h1
  rw [if_neg hne] at h
  split at h
  · cases h
  · rename_i s4 hb
    obtain ⟨b, hbr, hs4⟩ := set_branch_strategy_spec
      (resetStats { s with max_confl_per_search_solve_call := m }) _ _ hs.no_rand hb
    have hi : search_inv (setup_restart_strategy s4) := by
      apply search_inv_of_solve_pre s hs b hbr <;> rw [hs4] <;> rfl
    split at h
    · cases h
    · rename_i status s6 hl
      simp only [Option.some.injEq, Prod.mk.injEq] at h
      obtain ⟨hst, hres⟩ := h
      subst hst
      have hsat := solve_loop_inv c env hc sfuel fuel _ _ _ hi (by simp) hl rfl
      simp only at hsat
      rw [if_neg (by simp)] at hres
      refine ⟨s6, hsat, hres.symm, ?_⟩
      rw [← hres]
      exact finish_up_solve_model c hc s6 hsat

end Searcher
end CMSat

namespace CMSat
namespace Searcher

/-! ### The checking propagator keeps the contracts; the example formula -/

theorem lit_x_lt_of_var_lt (l : Lit) (n : Nat) (h : l.var < n) : l.x < 2 * n := by
  unfold Lit.var at h
  omega

theorem no_falsified_of_checks (s : Searcher) (h1 : falsified_bin s = false)
    (h2 : falsified_long s = false) (h3 : falsified_xor s = false) : no_falsified s := by
  refine ⟨?_, ?_⟩
  · intro C hC
    rcases hC with ⟨l, l2, hl, hw, rfl⟩ | ⟨o, ho, rfl⟩
    · by_contra hno
      have hf1 : s.value l = l_False := by
        by_contra hne
        exact hno ⟨l, List.mem_cons_self _ _, hne⟩
      have hf2 : s.value l2 = l_False := by
        by_contra hne
        exact hno ⟨l2, List.mem_cons_of_mem _ (List.mem_cons_self _ _), hne⟩
      have : falsified_bin s = true := by
        unfold falsified_bin
        rw [List.any_eq_true]
        refine ⟨l.x, List.mem_range.2 (lit_x_lt_of_var_lt l _ hl), ?_⟩
        rw [Bool.and_eq_true]
        refine ⟨by simpa using hf1, ?_⟩
        rw [List.any_eq_true]
        exact ⟨Watched.bin l2 false, hw, by simpa using hf2⟩
      rw [h1] at this
      cases this
    · by_contra hno
      have : falsified_long s = true := by
        unfold falsified_long
        rw [List.any_eq_true]
        refine ⟨o, ho, ?_⟩
        rw [List.all_eq_true]
        intro l hl
        have hf : s.value l = l_False := by
          by_contra hne
          exact hno ⟨l, hl, hne⟩
        simpa using hf
      rw [h2] at this
      cases this
  · intro x hx ha
    by_contra hne
    have : falsified_xor s = true := by
      unfold falsified_xor
      rw [List.any_eq_true]
      refine ⟨x, hx, ?_⟩
      rw [Bool.and_eq_true]
      refine ⟨?_, by simpa using hne⟩
      rw [List.all_eq_true]
      intro v hv
      simpa using ha v hv
    rw [h3] at this
    cases this

theorem facts_hold_of_check (s : Searcher) (h : untrue_fact s = false) :
    facts_hold s s.assigns := by
  intro e he h0
  unfold untrue_fact at h
  rw [List.any_eq_false] at h
  have := h e he
  rw [h0] at this
  show s.value e.lit = l_True
  cases hv : s.value e.lit with
  | l_True => rfl
  | l_False => rw [hv] at this; exact absurd rfl this
  | l_Undef => rw [hv] at this; exact absurd rfl this

theorem checker_sound : Collab.sound Collab.checker := by
  have hcheck : ∀ s, (Collab.checker.propagate_any_order_fast s).1.isNULL = true →
      falsified_bin s = false ∧ falsified_long s = false ∧ falsified_xor s = false
        ∧ untrue_fact s = false := by
    intro s hn
    have hn1 : (if (falsified_bin s || falsified_long s || falsified_xor s || untrue_fact s)
        = true then PropBy.clause_t 0 else PropBy.null_clause_t).isNULL = true := hn
    cases hb : falsified_bin s
    · cases hl : falsified_long s
      · cases hx : falsified_xor s
        · cases hu : untrue_fact s
          · exact ⟨rfl, rfl, rfl, rfl⟩
          · rw [hb, hl, hx, hu] at hn1
            cases hn1
        · rw [hb, hl, hx] at hn1
          cases hn1
      · rw [hb, hl] at hn1
        cases hn1
    · rw [hb] at hn1
      cases hn1
  exact ⟨fun s hn => no_falsified_of_checks s (hcheck s hn).1 (hcheck s hn).2.1
      (hcheck s hn).2.2.1,
    fun s hn => facts_hold_of_check s (hcheck s hn).2.2.2,
    fun _ h => h, fun _ _ h => h, fun _ h => h, fun _ _ h => h, fun _ h => h, fun _ => rfl,
    fun _ h => h, fun _ _ h => h, fun _ h => h, fun _ _ h => h,
    fun _ h1 h2 => ⟨h1, h2⟩, fun _ h => ⟨fun _ h1 => h1, h⟩,
    fun _ h1 h2 => ⟨h1, h2⟩, fun _ h => ⟨fun _ h1 => h1, h⟩,
    fun _ h1 h2 => ⟨h1, h2⟩, fun _ h => ⟨fun _ h1 => h1, h⟩,
    fun _ h1 h2 => ⟨h1, h2⟩, fun _ h => ⟨fun _ h1 => h1, h⟩⟩

theorem ex_sat_watches (l l2 : Lit) (h : Watched.bin l2 false ∈ ex_sat.watches l) :
    (l = ⟨1⟩ ∧ l2 = ⟨2⟩) ∨ (l = ⟨2⟩ ∧ l2 = ⟨1⟩) := by
  have hw : ex_sat.watches l =
      if l = ⟨1⟩ then [.bin ⟨2⟩ false]
      else if l = ⟨2⟩ then [.bin ⟨1⟩ false, .long 0 ⟨4⟩]
      else if l = ⟨0⟩ then [.long 0 ⟨4⟩]
      else [] := rfl
  rw [hw] at h
  split at h
  · rename_i h1
    simp at h
    exact Or.inl ⟨h1, h⟩
  · split at h
    · rename_i h2
      simp at h
      exact Or.inr ⟨h2, h⟩
    · split at h <;> simp at h

theorem ex_sat_pre : solve_pre ex_sat := by
  have hact : ∀ v, v < 3 → is_active ex_sat v := fun v hv => ⟨hv, rfl⟩
  have hheap : ∀ v, is_active ex_sat v → v ∈ [0, 1, 2] := by
    intro v hv
    have h3 : v < 3 := hv.1
    interval_cases v <;> simp
  refine ⟨rfl, by decide, by decide, fun v hv _ => hheap v hv, fun v hv _ => hheap v hv,
    ?_, ?_, ?_⟩
  · intro C hC l hl
    rcases hC with ⟨l1, l2, _, hw, rfl⟩ | ⟨o, ho, rfl⟩
    · rcases ex_sat_watches l1 l2 hw with ⟨rfl, rfl⟩ | ⟨rfl, rfl⟩
      · simp at hl
        rcases hl with rfl | rfl <;> exact hact _ (by decide)
      · simp at hl
        rcases hl with rfl | rfl <;> exact hact _ (by decide)
    · have ho0 : o = 0 := by
        have : o ∈ [0] := ho
        simpa using this
      subst ho0
      have hl1 : l ∈ [(⟨0⟩ : Lit), ⟨2⟩, ⟨4⟩] := hl
      simp at hl1
      rcases hl1 with rfl | rfl | rfl <;> exact hact _ (by decide)
  · intro x hx v hv
    have hx1 : x ∈ [(([1, 2], true) : List Nat × Bool)] := hx
    simp at hx1
    subst hx1
    simp at hv
    rcases hv with rfl | rfl <;> exact hact _ (by decide)
  · intro o ho
    have : o ∈ [0] := ho
    simp at this
    subst this
    show 0 < 1
    decide

end Searcher
end CMSat

namespace CMSat
namespace Searcher

/-! ## The level `handle_conflict` backtracks to -/

/-- For a conflict above level 0, the state `handle_conflict` hands on is the state `s4` it
reached before the backtrack (same trail, levels and configuration as at the conflict), taken
through `backtrack_after_conflict`. -/
theorem handle_conflict_backtrack_chrono {s : Searcher} {confl : PropBy}
    (h : conflict_state s confl) :
    ∃ o s4, handle_conflict_backtrack s confl = some (.inr o)
      ∧ 0 < o.nHighestLevel
      ∧ (∀ q ∈ confl_lits s confl, s.level q ≤ o.nHighestLevel)
      ∧ (∃ q ∈ confl_lits s confl, s.level q = o.nHighestLevel)
      ∧ o.backtrack_level < o.nHighestLevel
      ∧ o.nHighestLevel ≤ s.decisionLevel
      ∧ s4.trail = s.trail ∧ s4.trail_lim = s.trail_lim ∧ s4.conf = s.conf
      ∧ s4.assigns = s.assigns
      ∧ o.st = backtrack_after_conflict s4 o.nHighestLevel o.backtrack_level := by
  obtain ⟨h0, hc, ⟨qpos, hqm, hqpos⟩, hseen, hperm, hlim⟩ := note_conflict_ok h
  obtain ⟨nH, confl1, s1, hfc, hcf⟩ := find_conflict_level_spec h0 hc
  have hs1 := hcf.same
  have hvd1 : s1.varData = (note_conflict s).varData := by
    have := congrArg Searcher.varData hs1; exact this
  have hseen1 : ∀ v, s1.seen v = false := by
    have := congrArg Searcher.seen hs1
    intro v; rw [this]; exact hseen v
  have hperm1 : ∀ v, s1.permDiff v ≤ s1.MYFLAG := by
    have e1 := congrArg Searcher.permDiff hs1
    have e2 := congrArg Searcher.MYFLAG hs1
    intro v; rw [e1, e2]; exact hperm v
  have htr1 : s1.trail = s.trail := by
    have := congrArg Searcher.trail hs1; exact this
  have htl1 : s1.trail_lim = s.trail_lim := by
    have := congrArg Searcher.trail_lim hs1; exact this
  have has1 : s1.assigns = s.assigns := by
    have := congrArg Searcher.assigns hs1; exact this
  have hlev1 : ∀ q, s1.level q = s.level q := by
    intro q; simp only [Searcher.level, hvd1]; rfl
  have hqpos1 : 0 < s.level qpos := hqpos
  have hnH : 0 < nH := by
    have := hcf.max qpos (hcf.perm.symm.subset hqm)
    rw [hlev1] at this
    omega
  have hmaxs : ∀ q ∈ confl_lits s confl, s.level q ≤ nH := by
    intro q hq
    have := hcf.max q (hcf.perm.symm.subset hq)
    rw [hlev1] at this
    exact this
  have hexs : ∃ q ∈ confl_lits s confl, s.level q = nH := by
    have hne := hcf.still.1
    cases hL : confl_lits s1 confl1 with
    | nil => exact absurd hL hne
    | cons a L =>
      have hh := hcf.head
      rw [hL] at hh
      simp only [List.headD_cons] at hh
      refine ⟨a, hcf.perm.subset (by rw [hL]; simp), ?_⟩
      rw [← hlev1]; exact hh
  have hcat : is_conflict_at s1 confl1 nH := ⟨hcf.still, hnH, hcf.head, hcf.max⟩
  obtain ⟨s2, β, glue, han, hand⟩ := analyze_conflict_spec false hcf.ok hcat hseen1 hperm1
  obtain ⟨p, rest, hL2, ⟨tp, htp, htpl, htplev⟩, hrest, hβ0, hβ1⟩ := hand.shape
  have hf2 := hand.frame
  have htr2 : s2.trail = s.trail := hf2.trail.trans htr1
  have htl2 : s2.trail_lim = s.trail_lim := hf2.trail_lim.trans htl1
  obtain ⟨s4, hdc, hcore4⟩ := collect_decision_clause_spec
    { s2 with glueHist := s2.glueHist ++ [glue] }
    (by show ∀ lim ∈ s2.trail_lim, lim < s2.trail.length
        rw [htr2, htl2]; exact hlim)
  have htr4 : s4.trail = s.trail := by
    have := congrArg Searcher.trail hcore4; exact this.trans htr2
  have htl4 : s4.trail_lim = s.trail_lim := by
    have := congrArg Searcher.trail_lim hcore4; exact this.trans htl2
  have hvd4 : s4.varData = s1.varData := by
    have := congrArg Searcher.varData hcore4; exact this.trans hf2.varData
  have has4 : s4.assigns = s1.assigns := by
    have := congrArg Searcher.assigns hcore4; exact this.trans hf2.assigns
  have hL4 : s4.learnt_clause = p.neg :: rest := by
    have := congrArg Searcher.learnt_clause hcore4; exact this.trans hL2
  have hca4 : ∀ o, (s4.cl_alloc o).lits = (s1.cl_alloc o).lits := by
    intro o
    have := congrArg Searcher.cl_alloc hcore4
    simp only [decision_core] at this
    rw [this]
    exact hf2.2 o
  have h04 : trail_ok s4 := trail_ok_congr hcf.ok (htr4.trans htr1.symm) hvd4 has4
    (htl4.trans htl1.symm) (fun _ _ o _ => hca4 o)
  have hdl : nH ≤ s4.decisionLevel := by
    have := (hcf.ok.entry htp).2.2.2
    simp only [Searcher.decisionLevel, htl4, htl1] at this ⊢
    omega
  have hβlt : β < nH := by
    cases hr : rest with
    | nil => rw [hβ0 hr]; exact hnH
    | cons q0 r =>
      rw [(hβ1 q0 r hr).1]
      exact (hrest q0 (by rw [hr]; simp)).2.1
  have hconf4 : s4.conf = s.conf := by
    have e0 := congrArg Searcher.conf hcore4
    have e1 := congrArg Searcher.conf hs1
    exact e0.trans (hf2.conf.trans e1)
  have hdls : nH ≤ s.decisionLevel := by
    simp only [Searcher.decisionLevel, htl4] at hdl
    exact hdl
  refine ⟨⟨backtrack_after_conflict s4 nH β, nH, β, glue, s2.decisionLevel⟩, s4, ?_, hnH, hmaxs,
    hexs, hβlt, hdls, htr4, htl4, hconf4, has4.trans has1, rfl⟩
  unfold handle_conflict_backtrack
  rw [hfc]
  simp only
  rw [if_neg (by omega), han]
  simp only
  rw [update_history_stats, if_pos (by
    simp only [Searcher.decisionLevel, htl4, htl2] at hdl ⊢; omega)]
  simp only
  rw [hdc]
  rfl

/-! ## The trail after `cancelUntil` -/

/-- When level `b` starts inside the trail and the entries before its start have level at most
`b`, the trail after `cancelUntil(b)` is the old trail without the entries above level `b`. -/
theorem cancelUntil_trail (s : Searcher) (b : Nat) (hb : b < s.decisionLevel)
    (hlen : s.trail_lim.getD b 0 ≤ s.trail.length)
    (hpre : ∀ u ∈ s.trail.take (s.trail_lim.getD b 0), u.lev ≤ b) :
    (cancelUntil s b).trail = s.trail.filter (fun e => decide (e.lev ≤ b))
      ∧ (cancelUntil s b).qhead = s.trail_lim.getD b 0 := by
  obtain ⟨_, _, h3⟩ := cancelUntil_fold_spec b
    (s.trail.drop (s.trail_lim.getD b 0)).reverse s []
  unfold cancelUntil
  rw [if_pos hb]
  refine ⟨?_, rfl⟩
  show resize s.trail (s.trail_lim.getD b 0) ⟨lit_Undef, 0⟩ ++ _ = _
  rw [h3]
  have hres : resize s.trail (s.trail_lim.getD b 0) ⟨lit_Undef, 0⟩
      = s.trail.take (s.trail_lim.getD b 0) := by
    unfold resize
    rw [Nat.sub_eq_zero_of_le hlen]
    simp
  have htake : (s.trail.take (s.trail_lim.getD b 0)).filter (fun e => decide (e.lev ≤ b))
      = s.trail.take (s.trail_lim.getD b 0) :=
    List.filter_eq_self.2 (fun u hu => decide_eq_true (hpre u hu))
  rw [hres, List.nil_append, List.filter_reverse, List.reverse_reverse]
  conv_rhs => rw [← List.take_append_drop (s.trail_lim.getD b 0) s.trail]
  rw [List.filter_append, htake]

/-- After `cancelUntil(b)` a variable is unassigned when it stands on a trail entry above level
`b` from the start of level `b` on, and keeps its value otherwise. -/
theorem cancelUntil_assigns_at (s : Searcher) (b : Nat) (hb : b < s.decisionLevel) (v : Nat) :
    (cancelUntil s b).assigns v
      = if (∃ e ∈ s.trail.drop (s.trail_lim.getD b 0), b < e.lev ∧ e.lit.var = v) then l_Undef
        else s.assigns v := by
  obtain ⟨_, h2, _⟩ := cancelUntil_fold_spec b
    (s.trail.drop (s.trail_lim.getD b 0)).reverse s []
  have hassign : (cancelUntil s b).assigns
      = ((s.trail.drop (s.trail_lim.getD b 0)).reverse.foldl
          (cancelUntil_step b) (s, [])).1.assigns := by
    unfold cancelUntil
    rw [if_pos hb]
  rw [hassign, h2]
  simp only [List.mem_reverse]

end Searcher
end CMSat

namespace CMSat
namespace ClauseCleaner

/-! ## The clause cleaner: ordinary clauses -/

theorem satisfied_iff (s : Solver) (c : Clause) :
    satisfied s c = true ↔ ∃ l ∈ c.lits, value s l = l_True := by
  simp [satisfied, List.any_eq_true]

theorem satisfied_congr {s1 s : Solver} (h : s1.assigns = s.assigns) (c : Clause) :
    satisfied s1 c = satisfied s c := by
  simp [satisfied, value, h]

theorem dropped_false_congr {s1 s : Solver} (h : s1.assigns = s.assigns) (c : Clause) :
    dropped_false s1 c = dropped_false s c := by
  simp [dropped_false, value, h]

/-- The loop of `cleanClause` stops with true exactly when a literal is True; when none is, it
leaves the unassigned literals behind what was kept before. -/
theorem cleanClause_loop_spec (s : Solver) :
    ∀ (lits kept : List Lit),
      (cleanClause_loop s kept lits).1 = lits.any (fun l => decide (value s l = l_True))
      ∧ (lits.any (fun l => decide (value s l = l_True)) = false →
          (cleanClause_loop s kept lits).2
            = kept ++ lits.filter (fun l => decide (value s l = l_Undef)))
      ∧ (cleanClause_loop s kept lits).2.length ≤ kept.length + lits.length
  | [], kept => by simp [cleanClause_loop]
  | l :: rest, kept => by
    obtain ⟨h1, h2, h3⟩ := cleanClause_loop_spec s rest (kept ++ [l])
    obtain ⟨g1, g2, g3⟩ := cleanClause_loop_spec s rest kept
    by_cases hu : value s l = l_Undef
    · have e : cleanClause_loop s kept (l :: rest) = cleanClause_loop s (kept ++ [l]) rest := by
        simp [cleanClause_loop, hu]
      rw [e]
      refine ⟨?_, ?_, ?_⟩
      · rw [h1]; simp [hu]
      · intro hn
        have hn2 : rest.any (fun l => decide (value s l = l_True)) = false := by
          simpa [hu] using hn
        rw [h2 hn2]
        simp [List.filter_cons, hu]
      · simp only [List.length_append, List.length_cons, List.length_nil] at h3 ⊢
        omega
    · by_cases ht : value s l = l_True
      · have e : cleanClause_loop s kept (l :: rest) = (true, kept) := by
          simp [cleanClause_loop, ht]
        rw [e]
        refine ⟨?_, ?_, ?_⟩
        · simp [ht]
        · intro hn
          simp [ht] at hn
        · simp
      · have e : cleanClause_loop s kept (l :: rest) = cleanClause_loop s kept rest := by
          simp [cleanClause_loop, hu, ht]
        rw [e]
        refine ⟨?_, ?_, ?_⟩
        · rw [g1]; simp [ht]
        · intro hn
          have hn2 : rest.any (fun l => decide (value s l = l_True)) = false := by
            simpa [ht] using hn
          rw [g2 hn2]
          simp [List.filter_cons, hu]
        · simp only [List.length_cons]
          omega

theorem overwritten_length (c : Clause) (kept : List Lit) (h : kept.length ≤ c.lits.length) :
    (overwritten c kept).lits.length = c.lits.length := by
  simp only [overwritten, List.length_append, List.length_drop]
  omega

/-- On a satisfied clause `cleanClause` returns true after one call of `detachModifiedClause`
with the first two literals and the size the clause had. -/
theorem cleanClause_sat (f : Collab) (s : Solver) (c : Clause) (h2 : 2 ≤ c.lits.length)
    (hsat : satisfied s c = true) :
    ∃ c1, c1.lits.length = c.lits.length ∧ c1.learnt = c.learnt
      ∧ cleanClause f s c = some (true,
          f.detachModifiedClause s (c.lits.getD 0 lit_Undef) (c.lits.getD 1 lit_Undef)
            c.lits.length c1, c1) := by
  obtain ⟨h1, _, h3⟩ := cleanClause_loop_spec s c.lits []
  have hb : (cleanClause_loop s [] c.lits).1 = true := by
    rw [h1]; exact hsat
  refine ⟨overwritten c (cleanClause_loop s [] c.lits).2,
    overwritten_length c _ (by simpa using h3), rfl, ?_⟩
  unfold cleanClause
  rcases hc : c.lits with _ | ⟨a, _ | ⟨b, t⟩⟩
  · rw [hc] at h2; simp at h2
  · rw [hc] at h2; simp at h2
  · simp only [← hc, hb, if_true]
    simp [hc]

/-- On a clause without True literal `cleanClause` returns false and leaves the clause that
`dropped_false` describes; the solver is untouched when no literal is assigned. -/
theorem cleanClause_unsat (f : Collab) (s : Solver) (c : Clause) (h2 : 2 ≤ c.lits.length)
    (hsat : satisfied s c = false) :
    ∃ s1, cleanClause f s c = some (false, s1, dropped_false s c)
      ∧ ((∀ l ∈ c.lits, value s l = l_Undef) → s1 = s)
      ∧ (f.frame → s1.assigns = s.assigns ∧ s1.binaryClauses = s.binaryClauses
          ∧ s1.becameBinary = s.becameBinary
          ∧ s1.unitary_learnts_num = s.unitary_learnts_num) := by
  obtain ⟨h1, hk, _⟩ := cleanClause_loop_spec s c.lits []
  have hb : (cleanClause_loop s [] c.lits).1 = false := by
    rw [h1]; exact hsat
  have hkept : (cleanClause_loop s [] c.lits).2
      = c.lits.filter (fun l => decide (value s l = l_Undef)) := by
    rw [hk hsat]; rfl
  have hfl : (c.lits.filter (fun l => decide (value s l = l_Undef))).length ≤ c.lits.length :=
    List.length_filter_le _ _
  have hall : c.lits.all (fun l => decide (value s l = l_Undef)) = true
      ↔ (c.lits.filter (fun l => decide (value s l = l_Undef))).length = c.lits.length := by
    rw [List.filter_length_eq_length, List.all_eq_true]
  unfold cleanClause
  rcases hc : c.lits with _ | ⟨a, _ | ⟨b, t⟩⟩
  · rw [hc] at h2; simp at h2
  · rw [hc] at h2; simp at h2
  · simp only [← hc, hb, hkept, Bool.false_eq_true, if_false]
    by_cases hA : c.lits.all (fun l => decide (value s l = l_Undef)) = true
    · have hlen := hall.1 hA
      have hd : dropped_false s c = c := by simp [dropped_false, hA]
      refine ⟨s, ?_, fun _ => rfl, fun _ => ⟨rfl, rfl, rfl, rfl⟩⟩
      rw [hd, hlen]
      rw [if_neg (by omega), if_neg (by omega)]
    · have hlen : (c.lits.filter (fun l => decide (value s l = l_Undef))).length
          ≠ c.lits.length := fun h => hA (hall.2 h)
      have hd : dropped_false s c
          = { c with lits := c.lits.filter (fun l => decide (value s l = l_Undef))
                     strenghtened := true } := by
        simp [dropped_false, hA]
      have hnot : ¬ ∀ l ∈ c.lits, value s l = l_Undef := by
        intro h
        apply hA
        rw [List.all_eq_true]
        intro l hl
        exact decide_eq_true (h l hl)
      rw [hd]
      split
      · refine ⟨_, rfl, fun h => absurd h hnot, fun hf => ?_⟩
        obtain ⟨a1, a2, a3, a4⟩ := hf.attachClause
          (f.detachModifiedClause s a b c.lits.length
            (overwritten c (c.lits.filter (fun l => decide (value s l = l_Undef)))))
          { c with lits := c.lits.filter (fun l => decide (value s l = l_Undef))
                   strenghtened := true }
        obtain ⟨b1, b2, b3, b4⟩ := hf.detachModifiedClause s a b c.lits.length
          (overwritten c (c.lits.filter (fun l => decide (value s l = l_Undef))))
        exact ⟨a1.trans b1, a2.trans b2, a3.trans b3, a4.trans b4⟩
      · rw [if_pos (by omega)]
        refine ⟨_, rfl, fun h => absurd h hnot, fun _ => ?_⟩
        split <;> exact ⟨rfl, rfl, rfl, rfl⟩

end ClauseCleaner
end CMSat

namespace CMSat
namespace ClauseCleaner

/-! ## The clause cleaner: a clause set -/

theorem cleaned_set_cons_sat (s : Solver) (c : Clause) (cs : List Clause)
    (h : satisfied s c = true) : cleaned_set s (c :: cs) = cleaned_set s cs := by
  simp [cleaned_set, List.filter_cons, h]

theorem cleaned_set_cons_unsat (s : Solver) (c : Clause) (cs : List Clause)
    (h : satisfied s c = false) :
    cleaned_set s (c :: cs) = dropped_false s c :: cleaned_set s cs := by
  simp [cleaned_set, List.filter_cons, h]

/-- The loop of `cleanClauses` on a set that is not the binary one: the clauses left are the
cleaned clauses of a size other than 2, those of size 2 are appended to `binaryClauses` and
counted in `becameBinary`. -/
theorem cleanClauses_loop_spec (f : Collab) (hf : f.frame) (type : ClauseSetType)
    (htype : type ≠ .binaryClauses) (s0 : Solver) :
    ∀ (cs : List Clause) (s : Solver), s.assigns = s0.assigns →
      (∀ c ∈ cs, 2 ≤ c.lits.length) →
      ∃ s1, cleanClauses_loop f type s cs
          = some (s1, (cleaned_set s0 cs).filter (fun c => decide (c.lits.length ≠ 2)))
        ∧ s1.assigns = s0.assigns
        ∧ s1.unitary_learnts_num = s.unitary_learnts_num
        ∧ s1.binaryClauses
            = s.binaryClauses ++ (cleaned_set s0 cs).filter (fun c => decide (c.lits.length = 2))
        ∧ s1.becameBinary
            = s.becameBinary
              + ((cleaned_set s0 cs).filter (fun c => decide (c.lits.length = 2))).length
  | [], s, ha, _ => ⟨s, by simp [cleanClauses_loop, cleaned_set], ha, rfl,
      by simp [cleaned_set], by simp [cleaned_set]⟩
  | c :: rest, s, ha, hsz => by
    have h2 : 2 ≤ c.lits.length := hsz c (List.mem_cons_self _ _)
    have hrest : ∀ c ∈ rest, 2 ≤ c.lits.length := fun c hc => hsz c (List.mem_cons_of_mem _ hc)
    cases hsat : satisfied s c
    · have hsat0 : satisfied s0 c = false := by rw [← satisfied_congr ha c]; exact hsat
      obtain ⟨s1, hcl, _, hfr⟩ := cleanClause_unsat f s c h2 hsat
      obtain ⟨a1, a2, a3, a4⟩ := hfr hf
      rw [dropped_false_congr ha c] at hcl
      rw [cleaned_set_cons_unsat s0 c rest hsat0]
      by_cases hlen : (dropped_false s0 c).lits.length = 2
      · obtain ⟨s2, e, b1, b2, b3, b4⟩ := cleanClauses_loop_spec f hf type htype s0 rest
          { s1 with binaryClauses := s1.binaryClauses ++ [dropped_false s0 c]
                    becameBinary := s1.becameBinary + 1 } (a1.trans ha) hrest
        refine ⟨s2, ?_, b1, b2.trans a4, ?_, ?_⟩
        · simp only [cleanClauses_loop, hcl]
          rw [if_pos ⟨htype, hlen⟩, e]
          simp [List.filter_cons, hlen]
        · rw [b3]
          simp [List.filter_cons, hlen, a2]
        · rw [b4]
          simp only [List.filter_cons, hlen, decide_True, if_true, List.length_cons, a3]
          omega
      · obtain ⟨s2, e, b1, b2, b3, b4⟩ := cleanClauses_loop_spec f hf type htype s0 rest
          s1 (a1.trans ha) hrest
        refine ⟨s2, ?_, b1, b2.trans a4, ?_, ?_⟩
        · simp only [cleanClauses_loop, hcl]
          rw [if_neg (fun h => hlen h.2), e]
          simp [List.filter_cons, hlen]
        · rw [b3]
          simp [List.filter_cons, hlen, a2]
        · rw [b4]
          simp [List.filter_cons, hlen, a3]
    · have hsat0 : satisfied s0 c = true := by rw [← satisfied_congr ha c]; exact hsat
      obtain ⟨c1, _, _, hcl⟩ := cleanClause_sat f s c h2 hsat
      obtain ⟨a1, a2, a3, a4⟩ := hf.detachModifiedClause s (c.lits.getD 0 lit_Undef)
        (c.lits.getD 1 lit_Undef) c.lits.length c1
      rw [cleaned_set_cons_sat s0 c rest hsat0]
      obtain ⟨s2, e, b1, b2, b3, b4⟩ := cleanClauses_loop_spec f hf type htype s0 rest
        _ (a1.trans ha) hrest
      refine ⟨s2, ?_, b1, b2.trans a4, ?_, ?_⟩
      · simp only [cleanClauses_loop, hcl]
        exact e
      · rw [b3, a2]
      · rw [b4, a3]

/-! ## The clause cleaner: XOR clauses -/

theorem odd_true_nil (s : Solver) : odd_true s [] = false := by
  simp [odd_true]

theorem odd_true_cons (s : Solver) (l : Lit) (rest : List Lit) :
    odd_true s (l :: rest) = xor (getBool (s.assigns l.var)) (odd_true s rest) := by
  unfold odd_true getBool
  by_cases h : s.assigns l.var = l_True
  · simp only [List.filter_cons, h, decide_True, if_true, List.length_cons, beq_self_eq_true,
      Bool.true_xor]
    rcases Nat.mod_two_eq_zero_or_one
      (rest.filter (fun l => decide (s.assigns l.var = l_True))).length with h0 | h0
    · simp [Nat.add_mod, h0]
    · simp [Nat.add_mod, h0]
  · have hb : (s.assigns l.var == l_True) = false := by simpa using h
    simp [List.filter_cons, h, hb]

/-- The loop of `cleanClause(XorClause&)`: the unassigned variables are kept in their order and
the parity bit is flipped once for each variable that is True. -/
theorem cleanClause_xor_fold (s : Solver) :
    ∀ (lits kept : List Lit) (inv : Bool),
      lits.foldl (cleanClause_xor_step s) (kept, inv)
        = (kept ++ lits.filter (fun l => decide (s.assigns l.var = l_Undef)),
            xor inv (odd_true s lits))
  | [], kept, inv => by simp [odd_true_nil]
  | l :: rest, kept, inv => by
    rw [List.foldl_cons]
    by_cases hu : s.assigns l.var = l_Undef
    · have e : cleanClause_xor_step s (kept, inv) l = (kept ++ [l], inv) := by
        simp [cleanClause_xor_step, hu]
      have hg : getBool (s.assigns l.var) = false := by rw [hu]; rfl
      rw [e, cleanClause_xor_fold s rest, odd_true_cons, hg]
      simp [List.filter_cons, hu]
    · have e : cleanClause_xor_step s (kept, inv) l
          = (kept, xor inv (getBool (s.assigns l.var))) := by
        simp [cleanClause_xor_step, hu]
      rw [e, cleanClause_xor_fold s rest, odd_true_cons]
      simp [List.filter_cons, hu, Bool.xor_assoc]

/-- Under an assignment that extends the one the clause was cleaned with, the check of the
cleaned XOR clause gives what the check of the original gives. -/
theorem satisfied_xor_loop_clean (s s2 : Solver) (hext : extends_assigns s.assigns s2.assigns) :
    ∀ (lits : List Lit) (b : Bool),
      satisfied_xor_loop s2 (xor b (odd_true s lits))
          (lits.filter (fun l => decide (s.assigns l.var = l_Undef)))
        = satisfied_xor_loop s2 b lits
  | [], b => by simp [odd_true_nil, satisfied_xor_loop]
  | l :: rest, b => by
    by_cases hu : s.assigns l.var = l_Undef
    · have hg : getBool (s.assigns l.var) = false := by simp [getBool, hu]
      simp only [List.filter_cons, hu, decide_True, if_true, satisfied_xor_loop, odd_true_cons,
        hg, Bool.false_xor]
      by_cases hu2 : s2.assigns l.var = l_Undef
      · simp [hu2]
      · simp only [hu2, if_false]
        rw [← satisfied_xor_loop_clean s s2 hext rest]
        congr 1
        cases b <;> cases odd_true s rest <;> cases getBool (s2.assigns l.var) <;> rfl
    · have h2 : s2.assigns l.var = s.assigns l.var := hext _ hu
      have hu2 : s2.assigns l.var ≠ l_Undef := by rw [h2]; exact hu
      simp only [List.filter_cons, hu, decide_False, Bool.false_eq_true, if_false,
        satisfied_xor_loop, odd_true_cons, hu2, h2]
      rw [← satisfied_xor_loop_clean s s2 hext rest]
      congr 1
      cases b <;> cases odd_true s rest <;> cases getBool (s.assigns l.var) <;> rfl

/-- What `cleanClause(XorClause&)` returns: the clause with the unassigned variables and the
flipped parity bit; true exactly when 0 or 2 variables are left. -/
theorem cleanClause_xor_spec (f : Collab) (s : Solver) (c : XorClause)
    (h2 : 2 ≤ c.lits.length) :
    ∃ b s1 c1, cleanClause_xor f s c = some (b, s1, c1)
      ∧ c1.lits = c.lits.filter (fun l => decide (s.assigns l.var = l_Undef))
      ∧ c1.xor_clause_inverted = xor c.xor_clause_inverted (odd_true s c.lits)
      ∧ c1.group = c.group
      ∧ (b = true ↔ c1.lits.length = 0 ∨ c1.lits.length = 2) := by
  have hf := cleanClause_xor_fold s c.lits [] c.xor_clause_inverted
  rw [List.nil_append] at hf
  unfold cleanClause_xor
  rcases hc : c.lits with _ | ⟨a, _ | ⟨b, t⟩⟩
  · rw [hc] at h2; simp at h2
  · rw [hc] at h2; simp at h2
  · simp only [← hc, hf]
    split
    · rename_i heq
      exact ⟨true, _, _, rfl, rfl, rfl, rfl, by simp [heq]⟩
    · rename_i heq
      exact ⟨true, _, _, rfl, rfl, rfl, rfl, by simp [heq]⟩
    · rename_i hne0 hne2
      have hiff : (false = true) ↔
          (c.lits.filter (fun l => decide (s.assigns l.var = l_Undef))).length = 0
            ∨ (c.lits.filter (fun l => decide (s.assigns l.var = l_Undef))).length = 2 := by
        constructor
        · intro h; cases h
        · rintro (h | h)
          · exact absurd (List.length_eq_zero.1 h) hne0
          · obtain ⟨x, y, hxy⟩ := List.length_eq_two.1 h
            exact absurd hxy (hne2 x y)
      split
      · exact ⟨false, _, _, rfl, rfl, rfl, rfl, hiff⟩
      · exact ⟨false, _, _, rfl, rfl, rfl, rfl, hiff⟩

/-- When every variable of an XOR clause is assigned, `cleanClause` leaves it empty, calls
`detachModifiedClause` and returns true, whatever the parity. -/
theorem cleanClause_xor_assigned (f : Collab) (s : Solver) (c : XorClause)
    (h2 : 2 ≤ c.lits.length) (hall : ∀ l ∈ c.lits, s.assigns l.var ≠ l_Undef) :
    cleanClause_xor f s c
      = some (true,
          f.detachModifiedXorClause s (c.lits.getD 0 lit_Undef).var (c.lits.getD 1 lit_Undef).var
            c.lits.length
            { c with lits := [], xor_clause_inverted := xor c.xor_clause_inverted
                                                          (odd_true s c.lits) },
          { c with lits := [], xor_clause_inverted := xor c.xor_clause_inverted
                                                        (odd_true s c.lits) }) := by
  have hf := cleanClause_xor_fold s c.lits [] c.xor_clause_inverted
  rw [List.nil_append] at hf
  have hk : c.lits.filter (fun l => decide (s.assigns l.var = l_Undef)) = [] := by
    rw [List.filter_eq_nil_iff]
    intro l hl
    simpa using hall l hl
  rw [hk] at hf
  unfold cleanClause_xor
  rcases hc : c.lits with _ | ⟨a, _ | ⟨b, t⟩⟩
  · rw [hc] at h2; simp at h2
  · rw [hc] at h2; simp at h2
  · simp only [← hc, hf]
    simp [hc]

/-- When every variable is assigned, the check of an XOR clause is its parity bit flipped once
for each variable that is True. -/
theorem satisfied_xor_loop_assigned (s : Solver) :
    ∀ (lits : List Lit) (b : Bool), (∀ l ∈ lits, s.assigns l.var ≠ l_Undef) →
      satisfied_xor_loop s b lits = xor b (odd_true s lits)
  | [], b, _ => by simp [satisfied_xor_loop, odd_true_nil]
  | l :: rest, b, h => by
    have hu : s.assigns l.var ≠ l_Undef := h l (List.mem_cons_self _ _)
    simp only [satisfied_xor_loop, hu, if_false, odd_true_cons]
    rw [satisfied_xor_loop_assigned s rest _ (fun l hl => h l (List.mem_cons_of_mem _ hl))]
    cases b <;> cases odd_true s rest <;> cases getBool (s.assigns l.var) <;> rfl

end ClauseCleaner
end CMSat

namespace CMSat
namespace Main

/-! ## The model line of `printResultFunc` -/

theorem concat_all_cons (a : String) (l : List String) :
    concat_all (a :: l) = a ++ concat_all l := rfl

/-- The printing loop appends, for each variable with a value, its signed number and a blank. -/
theorem print_model_fold (render : Nat → String) (model : Nat → lbool) :
    ∀ (vars : List Nat) (acc : String),
      vars.foldl
          (fun acc var =>
            if model var ≠ l_Undef then
              acc ++ (if model var = l_True then "" else "-") ++ render (var + 1) ++ " "
            else acc)
          acc
        = acc ++ concat_all
            (((vars.filter (fun var => decide (model var ≠ l_Undef))).map
                (fun var => (decide (model var ≠ l_True), var + 1))).map (show_number render))
  | [], acc => by simp [concat_all]
  | var :: vars, acc => by
    rw [List.foldl_cons, print_model_fold render model vars]
    by_cases hu : model var = l_Undef
    · simp [hu, List.filter_cons]
    · have hfil : (var :: vars).filter (fun var => decide (model var ≠ l_Undef))
          = var :: vars.filter (fun var => decide (model var ≠ l_Undef)) := by
        simp [List.filter_cons, hu]
      rw [if_pos hu, hfil, List.map_cons, List.map_cons, concat_all_cons]
      generalize concat_all
        (((vars.filter (fun var => decide (model var ≠ l_Undef))).map
          (fun var => (decide (model var ≠ l_True), var + 1))).map (show_number render)) = T
      by_cases ht : model var = l_True
      · simp [show_number, ht, String.append_assoc]
      · simp [show_number, ht, String.append_assoc]

theorem print_model_eq (render : Nat → String) (S : MTSolver) (acc : String) :
    print_model render S acc = acc ++ concat_all ((v_numbers S).map (show_number render)) :=
  print_model_fold render S.model (List.range S.nVars) acc

theorem v_numbers_total (S : MTSolver) (h : ∀ var, var < S.nVars → S.model var ≠ l_Undef) :
    v_numbers S = (List.range S.nVars).map (fun var => (decide (S.model var ≠ l_True), var + 1))
      ∧ (v_numbers S).length = S.nVars := by
  have hf : (List.range S.nVars).filter (fun var => decide (S.model var ≠ l_Undef))
      = List.range S.nVars :=
    List.filter_eq_self.2 (fun var hv => decide_eq_true (h var (List.mem_range.1 hv)))
  unfold v_numbers
  rw [hf]
  exact ⟨rfl, by simp⟩

theorem show_signed_eq (n : Nat) (h : n < 2 ^ 31) : show_signed n = toString n := by
  have h1 : n % 2 ^ 32 = n := Nat.mod_eq_of_lt (by omega)
  unfold show_signed
  rw [h1, if_pos h]

theorem show_unsigned_eq (n : Nat) (h : n < 2 ^ 32) : show_unsigned n = toString n := by
  unfold show_unsigned
  rw [Nat.mod_eq_of_lt h]

end Main

namespace Searcher

/-! ## The glue update on an antecedent -/

/-- When the fresh glue is smaller, `update_glue_from_analysis` rewrites the statistics of the
clause at `offset` only: the glue becomes the fresh one and the tier follows the thresholds. -/
theorem update_glue_stats (s : Searcher) (offset : Nat)
    (hlock : (s.cl_alloc offset).stats.locked_for_data_gen = false)
    (ht : (s.cl_alloc offset).stats.is_ternary_resolvent = false)
    (hlt : calc_glue s (s.cl_alloc offset).lits < (s.cl_alloc offset).stats.glue) :
    ∃ st : ClauseStats,
      update_glue_from_analysis s offset
          = { s with cl_alloc := upd s.cl_alloc offset { s.cl_alloc offset with stats := st } }
        ∧ st.glue = calc_glue s (s.cl_alloc offset).lits
        ∧ st.which_red_array
            = (if calc_glue s (s.cl_alloc offset).lits ≤ s.conf.glue_put_lev0_if_below_or_eq then 0
               else if calc_glue s (s.cl_alloc offset).lits ≤ s.conf.glue_put_lev1_if_below_or_eq
                  ∧ s.conf.glue_put_lev1_if_below_or_eq ≠ 0 then 1
               else (s.cl_alloc offset).stats.which_red_array) := by
  unfold update_glue_from_analysis
  simp only [ht, hlt, Bool.false_eq_true, if_false, if_true]
  refine ⟨_, rfl, ?_, ?_⟩
  · split_ifs <;> simp_all
  · split_ifs <;> simp_all

theorem update_glue_same (s : Searcher) (offset : Nat)
    (h : (s.cl_alloc offset).stats.is_ternary_resolvent = true
      ∨ ¬ calc_glue s (s.cl_alloc offset).lits < (s.cl_alloc offset).stats.glue) :
    update_glue_from_analysis s offset = s := by
  unfold update_glue_from_analysis
  rcases h with h | h
  · simp [h]
  · simp only [h, if_false]
    split <;> rfl

end Searcher

namespace ClauseCleaner

/-! ## The check of an XOR clause -/

/-- With an unassigned variable the check of an XOR clause gives false. -/
theorem satisfied_xor_loop_unassigned (s : Solver) :
    ∀ (lits : List Lit) (b : Bool), (∃ l ∈ lits, s.assigns l.var = l_Undef) →
      satisfied_xor_loop s b lits = false
  | [], _, h => by simp at h
  | l :: rest, b, h => by
    by_cases hu : s.assigns l.var = l_Undef
    · simp [satisfied_xor_loop, hu]
    · simp only [satisfied_xor_loop, hu, if_false]
      apply satisfied_xor_loop_unassigned s rest
      obtain ⟨x, hx, hxu⟩ := h
      rcases List.mem_cons.1 hx with rfl | hx
      · exact absurd hxu hu
      · exact ⟨x, hx, hxu⟩

end ClauseCleaner
end CMSat

namespace CMSat
namespace Searcher

/-! ## The Luby sequence -/

theorem luby_term_at_succ (K i : Nat) (h : i < 2 ^ K) :
    luby_term_at (K + 1) i = luby_term_at K i := by
  have h2 : 2 ^ (K + 1) = 2 * 2 ^ K := by rw [pow_succ]; omega
  rw [luby_term_at, if_neg (by omega), if_neg (by omega)]

theorem luby_term_at_add (K i : Nat) (h : i < 2 ^ K) :
    ∀ n, luby_term_at (K + n) i = luby_term_at K i
  | 0 => rfl
  | n + 1 => by
    have hlt : i < 2 ^ (K + n) :=
      lt_of_lt_of_le h (Nat.pow_le_pow_right (by decide) (Nat.le_add_right K n))
    rw [← Nat.add_assoc, luby_term_at_succ (K + n) i hlt, luby_term_at_add K i h n]

/-- The lookup does not depend on the exponent it starts from, once it is large enough. -/
theorem luby_term_eq_at (K i : Nat) (h : i < 2 ^ K) : luby_term i = luby_term_at K i := by
  have hi : i < 2 ^ i := Nat.lt_two_pow i
  unfold luby_term
  rcases Nat.le_total K i with hle | hle
  · obtain ⟨n, hn⟩ := Nat.exists_eq_add_of_le hle
    have e := luby_term_at_add K i h n
    rw [← hn] at e
    exact e
  · obtain ⟨n, hn⟩ := Nat.exists_eq_add_of_le hle
    have e := luby_term_at_add i i hi n
    rw [← hn] at e
    exact e.symm

/-- Term `2^(k+1) - 1` of the Luby sequence is `2^k`. -/
theorem luby_term_pow (k : Nat) : luby_term (2 ^ (k + 1) - 1) = 2 ^ k := by
  have hp : 0 < 2 ^ (k + 1) := Nat.two_pow_pos _
  rw [luby_term_eq_at (k + 1) _ (by omega), luby_term_at, if_pos (by omega)]

/-- For `2^k <= i < 2^(k+1) - 1`, term `i` of the Luby sequence is term `i - 2^k + 1`. -/
theorem luby_term_step (k i : Nat) (h1 : 2 ^ k ≤ i) (h2 : i + 1 < 2 ^ (k + 1)) :
    luby_term i = luby_term (i + 1 - 2 ^ k) := by
  have hp : 2 ^ (k + 1) = 2 * 2 ^ k := by rw [pow_succ]; omega
  rw [luby_term_eq_at (k + 1) i (by omega), luby_term_at, if_neg (by omega), if_pos h1,
    luby_term_eq_at k (i + 1 - 2 ^ k) (by omega)]

/-- The first loop of `luby` from a size `2^(seq+1) - 1`: it ends, with enough fuel, at the first
such size that is at least `x + 1`; the size it reaches is 1 or at most `2 * x + 1`. -/
theorem luby_grow_spec (x : Nat) :
    ∀ (fuel S q : Nat), S + 1 = 2 ^ (q + 1) → (q = 0 ∨ S ≤ 2 * x + 1) → x + 2 ≤ fuel + q + 1 →
      ∃ S1 q1 : Nat, luby_grow (x : Int) fuel ((S : Int), (q : Int)) = some ((S1 : Int), (q1 : Int))
        ∧ S1 + 1 = 2 ^ (q1 + 1) ∧ x + 1 ≤ S1 ∧ (q1 = 0 ∨ S1 ≤ 2 * x + 1)
  | 0, S, q, hS, hC, hf => by
    exfalso
    have hq : q < 2 ^ q := Nat.lt_two_pow q
    have hp : 2 ^ (q + 1) = 2 * 2 ^ q := by rw [pow_succ]; omega
    rcases hC with h | h <;> omega
  | fuel + 1, S, q, hS, hC, hf => by
    unfold luby_grow
    by_cases hlt : (S : Int) < (x : Int) + 1
    · rw [if_pos hlt]
      have hSx : S ≤ x := by omega
      have hp : 2 ^ (q + 1 + 1) = 2 * 2 ^ (q + 1) := by rw [pow_succ]; omega
      have e1 : (2 * (S : Int) + 1, (q : Int) + 1) = (((2 * S + 1 : Nat) : Int), ((q + 1 : Nat) : Int)) := by
        push_cast; rfl
      rw [e1]
      exact luby_grow_spec x fuel (2 * S + 1) (q + 1) (by omega) (Or.inr (by omega)) (by omega)
    · rw [if_neg hlt]
      exact ⟨S, q, rfl, hS, by omega, hC⟩

/-- The second loop of `luby` from a size `2^(seq+1) - 1` that is at least `x + 1`: it ends, with
enough fuel, at the exponent of term `x + 1` of the Luby sequence. -/
theorem luby_shrink_spec :
    ∀ (q x fuel S : Nat), S + 1 = 2 ^ (q + 1) → x + 1 ≤ S → q + 1 ≤ fuel →
      ∃ r : Nat, luby_shrink fuel ((S : Int), (q : Int), (x : Int)) = some (r : Int)
        ∧ 2 ^ r = luby_term (x + 1)
  | q, x, 0, S, _, _, hf => by omega
  | 0, x, fuel + 1, S, hS, hx, _ => by
    have hS1 : S = 1 := by simpa using hS
    have hx0 : x = 0 := by omega
    subst hS1 hx0
    refine ⟨0, ?_, ?_⟩
    · unfold luby_shrink
      simp
    · exact (luby_term_pow 0).symm
  | q + 1, x, fuel + 1, S, hS, hx, hf => by
    have hp : 2 ^ (q + 1 + 1) = 2 * 2 ^ (q + 1) := by rw [pow_succ]; omega
    have hpos : 0 < 2 ^ (q + 1) := Nat.two_pow_pos _
    have hp1 : 2 ^ (q + 1) = 2 * 2 ^ q := by rw [pow_succ]; omega
    have hpos0 : 0 < 2 ^ q := Nat.two_pow_pos _
    unfold luby_shrink
    by_cases hne : (S : Int) - 1 ≠ (x : Int)
    · rw [if_pos hne]
      have hxS : x + 1 < S := by omega
      -- the next size
      obtain ⟨S1, hS1⟩ : ∃ S1 : Nat, S1 + 1 = 2 ^ (q + 1) := ⟨2 ^ (q + 1) - 1, by omega⟩
      have hS2 : S = 2 * S1 + 1 := by omega
      have hdiv : ((S : Int) - 1) / 2 = (S1 : Int) := by omega
      have hS1pos : 0 < S1 := by omega
      have hz : ¬ ((S1 : Int) = 0) := by omega
      simp only [hdiv, hz, if_false]
      have hmod : Int.tmod (x : Int) (S1 : Int) = ((x % S1 : Nat) : Int) := by
        rw [Int.tmod_eq_emod (by omega) (by omega)]
        norm_cast
      have hseq : ((q + 1 : Nat) : Int) - 1 = (q : Int) := by push_cast; omega
      rw [hmod, hseq]
      by_cases hlt : x < S1
      · rw [Nat.mod_eq_of_lt hlt]
        exact luby_shrink_spec q x fuel S1 hS1 (by omega) (by omega)
      · have hx2 : x < 2 * S1 := by omega
        have hmod2 : x % S1 = x - S1 := by
          rw [Nat.mod_eq_sub_mod (by omega), Nat.mod_eq_of_lt (by omega)]
        rw [hmod2]
        obtain ⟨r, h1, h2⟩ := luby_shrink_spec q (x - S1) fuel S1 hS1 (by omega) (by omega)
        refine ⟨r, h1, ?_⟩
        rw [h2, luby_term_step (q + 1) (x + 1) (by omega) (by omega)]
        congr 1
        omega
    · rw [if_neg hne]
      have hxS : x + 1 = S := by omega
      refine ⟨q + 1, rfl, ?_⟩
      have : x + 1 = 2 ^ (q + 1 + 1) - 1 := by omega
      rw [this, luby_term_pow]

/-- About `luby(2, x)` returns term `x + 1` of the Luby sequence. -/
theorem luby_two (x : Nat) : luby 2 (x : Int) = some (luby_term (x + 1)) := by
  obtain ⟨S1, q1, hg, hS, hx, hC⟩ := luby_grow_spec x (x + 2) 1 0 rfl (Or.inl rfl) (by omega)
  have hq : q1 < 2 ^ q1 := Nat.lt_two_pow q1
  have hp : 2 ^ (q1 + 1) = 2 * 2 ^ q1 := by rw [pow_succ]; omega
  obtain ⟨r, hr, hterm⟩ := luby_shrink_spec q1 x (x + 2) S1 hS hx
    (by rcases hC with h | h <;> omega)
  unfold luby
  have e0 : ((1 : Int), (0 : Int)) = (((1 : Nat) : Int), ((0 : Nat) : Int)) := rfl
  simp only [Int.toNat_ofNat]
  rw [e0, hg]
  simp only [hr, Option.map_some', Int.toNat_ofNat, hterm]

end Searcher
end CMSat

namespace CMSat
namespace Searcher

/-! ## Parsing the set-up string of the branching strategies -/

theorem find_range'_some (f : Nat → Bool) :
    ∀ (n a p : Nat), a ≤ p → p < a + n → f p = true → (∀ i, a ≤ i → i < p → f i = false) →
      (List.range' a n).find? f = some p
  | 0, a, p, h1, h2, _, _ => by omega
  | n + 1, a, p, h1, h2, hp, hq => by
    rw [List.range'_succ, List.find?_cons]
    by_cases hap : a = p
    · subst hap
      rw [hp]
    · rw [hq a (le_refl _) (by omega)]
      exact find_range'_some f n (a + 1) p (by omega) (by omega) hp
        (fun i hi1 hi2 => hq i (by omega) hi2)

theorem find_range'_sound (f : Nat → Bool) (n a q : Nat)
    (h : (List.range' a n).find? f = some q) : a ≤ q ∧ q < a + n ∧ f q = true := by
  have hm := List.mem_of_find?_eq_some h
  have hf := List.find?_some h
  have := List.mem_range'_1.1 hm
  exact ⟨this.1, this.2, hf⟩

theorem find_range'_none (f : Nat → Bool) (n a : Nat)
    (h : ∀ i, a ≤ i → i < a + n → f i = false) : (List.range' a n).find? f = none := by
  rw [List.find?_eq_none]
  intro x hx
  have := List.mem_range'_1.1 hx
  simp [h x this.1 this.2]

/-- The pattern is found at `p` when it starts there and nowhere from `start` up to `p`. -/
theorem str_find_some (hay pat : List Char) (start p : Nat) (h1 : start ≤ p)
    (h2 : p ≤ hay.length) (hp : pat.isPrefixOf (hay.drop p) = true)
    (hq : ∀ i, start ≤ i → i < p → pat.isPrefixOf (hay.drop i) = false) :
    str_find hay pat start = some p :=
  find_range'_some _ _ _ _ h1 (by omega) hp hq

/-- A pattern that starts nowhere from `start` up to `p`, `p` included, is found behind `p`. -/
theorem str_find_behind (hay pat : List Char) (start p : Nat)
    (hq : ∀ i, start ≤ i → i ≤ p → pat.isPrefixOf (hay.drop i) = false) :
    behind p (str_find hay pat start) := by
  intro q hfind
  obtain ⟨h1, _, h3⟩ := find_range'_sound _ _ _ _ hfind
  by_contra hle
  have := hq q h1 (by omega)
  rw [this] at h3
  cases h3

theorem str_find_none (hay pat : List Char) (start : Nat)
    (hq : ∀ i, start ≤ i → i ≤ hay.length → pat.isPrefixOf (hay.drop i) = false) :
    str_find hay pat start = none :=
  find_range'_none _ _ _ (fun i h1 h2 => hq i h1 (by omega))

theorem npos_min_behind (p : Nat) (a b : Option Nat) (ha : behind p a) (hb : behind p b) :
    behind p (npos_min a b) := by
  cases a with
  | none => rw [npos_min_none_left]; exact hb
  | some x =>
    cases b with
    | none => exact ha
    | some y =>
      intro q hq
      simp only [npos_min, Option.some.injEq] at hq
      have := ha x rfl
      have := hb y rfl
      omega

theorem npos_min_here_left (p : Nat) (b : Option Nat) (hb : behind p b ∨ b = some p) :
    npos_min (some p) b = some p := by
  cases b with
  | none => rfl
  | some y =>
    simp only [npos_min, Option.some.injEq]
    rcases hb with h | h
    · have := h y rfl
      omega
    · simp only [Option.some.injEq] at h
      omega

theorem npos_min_here_right (p : Nat) (a : Option Nat) (ha : behind p a) :
    npos_min a (some p) = some p := by
  cases a with
  | none => rfl
  | some x =>
    simp only [npos_min, Option.some.injEq]
    have := ha x rfl
    omega

theorem behind_ne (p : Nat) (a : Option Nat) (ha : behind p a) : some p ≠ a := by
  intro h
  have := ha p h.symm
  omega

theorem behind_none (p : Nat) : behind p none := by
  intro q h; cases h

theorem text_mem (n : BranchName) : n.text ∈ branch_patterns := by
  cases n <;> decide

theorem text_length (n : BranchName) : 4 ≤ n.text.length := by
  cases n <;> decide

/-- At the start of a name, followed by the end or by `+`, that name matches and no other. -/
theorem name_starts (n : BranchName) (tail : List Char)
    (htail : tail = [] ∨ ∃ m, tail = '+' :: m) :
    ∀ pat ∈ branch_patterns, pat.isPrefixOf (n.text ++ tail) = decide (pat = n.text) := by
  intro pat hpat
  simp only [branch_patterns, List.mem_cons, List.mem_singleton, List.not_mem_nil, or_false]
    at hpat
  rcases htail with rfl | ⟨m, rfl⟩ <;> cases n <;>
    rcases hpat with rfl | rfl | rfl | rfl | rfl | rfl | rfl <;>
      simp [BranchName.text, List.isPrefixOf]

/-- Behind the third character of a name, up to the `+` or the end after it, no name starts. -/
theorem name_quiet (n : BranchName) (tail : List Char)
    (htail : tail = [] ∨ ∃ m, tail = '+' :: m) (j : Nat) (h3 : 3 ≤ j)
    (hj : j ≤ n.text.length) : no_name_starts ((n.text ++ tail).drop j) := by
  intro pat hpat
  simp only [branch_patterns, List.mem_cons, List.mem_singleton, List.not_mem_nil, or_false]
    at hpat
  have hj6 : j ≤ 6 := by
    have : n.text.length ≤ 6 := by cases n <;> decide
    omega
  rcases htail with rfl | ⟨m, rfl⟩ <;> cases n <;>
    rcases hpat with rfl | rfl | rfl | rfl | rfl | rfl | rfl <;>
      interval_cases j <;>
        first
          | (simp [BranchName.text] at hj; done)
          | simp [BranchName.text, List.isPrefixOf]

theorem foldr_npos_min_behind (p : Nat) :
    ∀ (l : List (Option Nat)), (∀ o ∈ l, behind p o) → behind p (l.foldr npos_min none)
  | [], _ => behind_none p
  | a :: l, h =>
    npos_min_behind p a _ (h a (List.mem_cons_self _ _))
      (foldr_npos_min_behind p l (fun o ho => h o (List.mem_cons_of_mem _ ho)))

/-- The smallest of positions that are `p` or behind `p`, one of them being `p`, is `p`. -/
theorem foldr_npos_min_here (p : Nat) :
    ∀ (l : List (Option Nat)), (∀ o ∈ l, behind p o ∨ o = some p) → (∃ o ∈ l, o = some p) →
      l.foldr npos_min none = some p
  | [], _, h => by
    obtain ⟨o, ho, _⟩ := h
    cases ho
  | a :: l, hall, hex => by
    rw [List.foldr_cons]
    rcases hall a (List.mem_cons_self _ _) with ha | ha
    · have hex2 : ∃ o ∈ l, o = some p := by
        obtain ⟨o, ho, hop⟩ := hex
        rcases List.mem_cons.1 ho with rfl | ho
        · exact absurd hop.symm (behind_ne p _ ha)
        · exact ⟨o, ho, hop⟩
      rw [foldr_npos_min_here p l (fun o ho => hall o (List.mem_cons_of_mem _ ho)) hex2]
      exact npos_min_here_right p a ha
    · rw [ha]
      apply npos_min_here_left
      by_cases hex2 : ∃ o ∈ l, o = some p
      · exact Or.inr
          (foldr_npos_min_here p l (fun o ho => hall o (List.mem_cons_of_mem _ ho)) hex2)
      · refine Or.inl (foldr_npos_min_behind p l (fun o ho => ?_))
        rcases hall o (List.mem_cons_of_mem _ ho) with h | h
        · exact h
        · exact absurd ⟨o, ho, h⟩ hex2

/-- What the searches of one round of the parsing loop find when the next name starts at `p`
and no name starts between `start` and `p`. -/
theorem str_find_round (hay : List Char) (start p : Nat) (n : BranchName) (tail : List Char)
    (hdrop : hay.drop p = n.text ++ tail) (htail : tail = [] ∨ ∃ m, tail = '+' :: m)
    (hsp : start ≤ p) (hquiet : ∀ i, start ≤ i → i < p → no_name_starts (hay.drop i)) :
    ∀ pat ∈ branch_patterns,
      (pat = n.text → str_find hay pat start = some p)
      ∧ (pat ≠ n.text → behind p (str_find hay pat start)) := by
  intro pat hpat
  have hp : p ≤ hay.length := by
    by_contra hlt
    have : hay.drop p = [] := List.drop_eq_nil_of_le (by omega)
    rw [this] at hdrop
    have := text_length n
    have hl := congrArg List.length hdrop
    simp at hl
    omega
  have hm := name_starts n tail htail pat hpat
  rw [← hdrop] at hm
  constructor
  · intro he
    apply str_find_some hay pat start p hsp hp
    · rw [hm]; exact decide_eq_true he
    · intro i h1 h2
      exact hquiet i h1 h2 pat hpat
  · intro hne
    apply str_find_behind
    intro i h1 h2
    by_cases hip : i = p
    · rw [hip, hm]; exact decide_eq_false hne
    · exact hquiet i h1 (by omega) pat hpat

/-- One round of the parsing loop at the start of a name: the entry of the name is pushed and
the search goes on three characters further. -/
theorem select_round (hay : List Char) (fuel start p : Nat) (select : List branch_type_total)
    (n : BranchName) (tail : List Char)
    (hdrop : hay.drop p = n.text ++ tail) (htail : tail = [] ∨ ∃ m, tail = '+' :: m)
    (hsp : start ≤ p) (hquiet : ∀ i, start ≤ i → i < p → no_name_starts (hay.drop i)) :
    set_branch_strategy_select hay (fuel + 1) start select
      = set_branch_strategy_select hay fuel (p + 3) (select ++ [n.entry]) := by
  have hF := str_find_round hay start p n tail hdrop htail hsp hquiet
  have hsmall : npos_min (str_find hay "rand".data start)
      (npos_min (str_find hay "maple2".data start)
        (npos_min (str_find hay "maple1".data start)
          (npos_min (str_find hay "vsids2".data start)
            (npos_min (str_find hay "vsids1".data start)
              (npos_min (str_find hay "vsidsx".data start)
                (npos_min (str_find hay "vsidsx_once".data start) none)))))) = some p := by
    have := foldr_npos_min_here p
      (branch_patterns.reverse.map (fun pat => str_find hay pat start))
      (by
        intro o ho
        obtain ⟨pat, hpat, rfl⟩ := List.mem_map.1 ho
        have hpat2 : pat ∈ branch_patterns := List.mem_reverse.1 hpat
        by_cases he : pat = n.text
        · exact Or.inr ((hF pat hpat2).1 he)
        · exact Or.inl ((hF pat hpat2).2 he))
      ⟨str_find hay n.text start,
        List.mem_map.2 ⟨n.text, List.mem_reverse.2 (text_mem n), rfl⟩,
        (hF n.text (text_mem n)).1 rfl⟩
    exact this
  have hc : ∀ pat ∈ branch_patterns, (some p = str_find hay pat start) ↔ pat = n.text := by
    intro pat hpat
    constructor
    · intro h
      by_contra hne
      exact behind_ne p _ ((hF pat hpat).2 hne) h
    · intro h
      exact ((hF pat hpat).1 h).symm
  have h0 := hc "vsidsx_once".data (by decide)
  have h1 := hc "vsidsx".data (by decide)
  have h2 := hc "vsids1".data (by decide)
  have h3 := hc "vsids2".data (by decide)
  have h4 := hc "maple1".data (by decide)
  have h5 := hc "maple2".data (by decide)
  have h6 := hc "rand".data (by decide)
  rw [set_branch_strategy_select]
  simp only [hsmall]
  cases n <;> simp [h0, h1, h2, h3, h4, h5, h6, BranchName.text, BranchName.entry]

/-- When no name starts from `start` on, the parsing loop ends with what it has selected. -/
theorem select_end (hay : List Char) (fuel start : Nat) (select : List branch_type_total)
    (hquiet : ∀ i, start ≤ i → i ≤ hay.length → no_name_starts (hay.drop i)) :
    set_branch_strategy_select hay (fuel + 1) start select = some select := by
  have hn : ∀ pat ∈ branch_patterns, str_find hay pat start = none :=
    fun pat hpat => str_find_none hay pat start (fun i h1 h2 => hquiet i h1 h2 pat hpat)
  rw [set_branch_strategy_select]
  simp only [hn "vsidsx_once".data (by decide), hn "vsidsx".data (by decide),
    hn "vsids1".data (by decide), hn "vsids2".data (by decide), hn "maple1".data (by decide),
    hn "maple2".data (by decide), hn "rand".data (by decide), npos_min]

theorem drop_add_of_drop (hay w : List Char) (p j : Nat) (h : hay.drop p = w) :
    hay.drop (p + j) = w.drop j := by
  rw [← h, List.drop_drop, Nat.add_comm]

/-- The parsing loop on a set-up string of names joined by `+`: it selects the entries of the
names, in their order. -/
theorem select_parse (hay : List Char) :
    ∀ (names : List BranchName) (fuel start p : Nat) (select : List branch_type_total),
      names ≠ [] → hay.drop p = branch_setup_text names → start ≤ p →
      (∀ i, start ≤ i → i < p → no_name_starts (hay.drop i)) → names.length + 1 ≤ fuel →
      set_branch_strategy_select hay fuel start select
        = some (select ++ names.map BranchName.entry)
  | [], _, _, _, _, h, _, _, _, _ => absurd rfl h
  | [n], fuel, start, p, select, _, hdrop, hsp, hquiet, hfuel => by
    obtain ⟨f, rfl⟩ : ∃ f, fuel = f + 1 + 1 := ⟨fuel - 2, by simp at hfuel; omega⟩
    have hdrop1 : hay.drop p = n.text ++ [] := by simpa [branch_setup_text] using hdrop
    rw [select_round hay (f + 1) start p select n [] hdrop1 (Or.inl rfl) hsp hquiet]
    have hlen : hay.length - p = n.text.length := by
      have := congrArg List.length hdrop1
      simpa using this
    apply select_end
    intro i h1 h2
    have e : hay.drop (p + (i - p)) = (n.text ++ []).drop (i - p) :=
      drop_add_of_drop hay _ p (i - p) hdrop1
    have hi : p + (i - p) = i := by omega
    rw [hi] at e
    rw [e]
    exact name_quiet n [] (Or.inl rfl) (i - p) (by omega) (by omega)
  | n :: m :: rest, fuel, start, p, select, _, hdrop, hsp, hquiet, hfuel => by
    obtain ⟨f, rfl⟩ : ∃ f, fuel = f + 1 := ⟨fuel - 1, by simp at hfuel; omega⟩
    have hdrop1 : hay.drop p = n.text ++ '+' :: branch_setup_text (m :: rest) := hdrop
    have htail : ('+' :: branch_setup_text (m :: rest)) = []
        ∨ ∃ w, ('+' :: branch_setup_text (m :: rest)) = '+' :: w := Or.inr ⟨_, rfl⟩
    rw [select_round hay f start p select n _ hdrop1 htail hsp hquiet]
    have h4 := text_length n
    have hnext : hay.drop (p + (n.text.length + 1)) = branch_setup_text (m :: rest) := by
      rw [drop_add_of_drop hay _ p (n.text.length + 1) hdrop1]
      simp
    have := select_parse hay (m :: rest) f (p + 3) (p + (n.text.length + 1))
      (select ++ [n.entry]) (by simp) hnext (by omega)
      (by
        intro i h1 h2
        have e : hay.drop (p + (i - p)) = (n.text ++ '+' :: branch_setup_text (m :: rest)).drop (i - p) :=
          drop_add_of_drop hay _ p (i - p) hdrop1
        have hi : p + (i - p) = i := by omega
        rw [hi] at e
        rw [e]
        exact name_quiet n _ htail (i - p) (by omega) (by omega))
      (by simp at hfuel ⊢; omega)
    rw [this]
    simp

theorem entry_not_once (n : BranchName) : n.entry.descr ≠ "VSIDSXONCE" := by
  cases n <;> decide

theorem drop_once_keeps :
    ∀ (l : List branch_type_total) (st : List branch_type_total × Nat),
      (∀ b ∈ l, b.descr ≠ "VSIDSXONCE") → l.foldl drop_once st = (st.1 ++ l, st.2)
  | [], st, _ => by simp
  | b :: l, st, h => by
    rw [List.foldl_cons]
    have hb : drop_once st b = (st.1 ++ [b], st.2) := by
      unfold drop_once
      rw [if_pos (h b (List.mem_cons_self _ _))]
    rw [hb, drop_once_keeps l _ (fun x hx => h x (List.mem_cons_of_mem _ hx))]
    simp

end Searcher
end CMSat

namespace CMSat
namespace Searcher

/-! ## Minimisation of the learnt clause: every literal dropped is redundant -/

theorem reason_other_lits_frame {s0 s : Searcher} (hf : analysis_frame s0 s) (r : PropBy) :
    reason_other_lits s r = reason_other_lits s0 r := by
  cases r with
  | null_clause_t => rfl
  | binary_t l b => rfl
  | clause_t o =>
    simp only [reason_other_lits, hf.2 o]

/-- On a well-formed trail, the other literals of the reason of the entry at position `i` are
False by earlier entries, and the reason clause is the literal of the entry followed by them. -/
theorem reason_others_before {s0 : Searcher} (h0 : trail_ok s0) {i : Nat} {t : Trail}
    (ht : s0.trail[i]? = some t) {lits : List Lit}
    (hl : reason_other_lits s0 (s0.varData t.lit.var).reason = some lits) :
    (∀ y ∈ lits, false_before s0 i y) ∧ reason_lits s0 t.lit = some (t.lit :: lits) := by
  obtain ⟨hi, hget⟩ := List.getElem?_eq_some_iff.1 ht
  have hro := h0.reason hi
  have hgetD : s0.trail.getD i ⟨lit_Undef, 0⟩ = t := by
    simp [List.getD_eq_getElem?_getD, ht]
  rw [hgetD] at hro
  unfold reason_ok at hro
  unfold reason_lits
  cases hre : (s0.varData t.lit.var).reason with
  | null_clause_t => rw [hre] at hl; cases hl
  | binary_t l r =>
    rw [hre] at hro hl
    simp only [reason_other_lits, Option.some.injEq] at hl
    subst hl
    refine ⟨?_, rfl⟩
    intro y hy
    have : y = l := by simpa using hy
    rw [this]
    exact hro.1
  | clause_t o =>
    rw [hre] at hro hl
    dsimp only at hro
    cases hlits : (s0.cl_alloc o).lits with
    | nil => rw [hlits] at hro; simp at hro
    | cons x0 rest =>
      rw [hlits] at hro
      simp only [reason_other_lits, hlits, Option.some.injEq] at hl
      subst hl
      have hx0 : x0 = t.lit := by simpa using hro.1
      refine ⟨fun y hy => (hro.2 y (by simpa using hy)).1, ?_⟩
      show some (s0.cl_alloc o).lits = _
      rw [hlits, hx0]

theorem clear_seen_vars_apply (ls : List Lit) :
    ∀ (seen : Nat → Bool) (v : Nat),
      clear_seen_vars seen ls v = if (∃ x ∈ ls, x.var = v) then false else seen v := by
  induction ls with
  | nil => intro seen v; simp [clear_seen_vars]
  | cons l ls ih =>
    intro seen v
    have e : clear_seen_vars seen (l :: ls) = clear_seen_vars (upd seen l.var false) ls := rfl
    rw [e, ih]
    by_cases h1 : ∃ x ∈ ls, x.var = v
    · have h2 : ∃ x ∈ l :: ls, x.var = v := by
        obtain ⟨x, hx, hxv⟩ := h1
        exact ⟨x, List.mem_cons_of_mem _ hx, hxv⟩
      rw [if_pos h1, if_pos h2]
    · rw [if_neg h1]
      by_cases hl : l.var = v
      · rw [if_pos ⟨l, List.mem_cons_self _ _, hl⟩]
        simp [upd, hl]
      · have h2 : ¬ ∃ x ∈ l :: ls, x.var = v := by
          rintro ⟨x, hx, hxv⟩
          rcases List.mem_cons.1 hx with rfl | hx
          · exact hl hxv
          · exact h1 ⟨x, hx, hxv⟩
        rw [if_neg h2]
        simp [upd, Ne.symm hl]

/-- Undoing the marks of one call of `litRedundant` gives back the marks of its start. -/
theorem lr_marks_undo {seenS : Nat → Bool} {tc0 : List Lit} {s : Searcher} {new : List Lit}
    (h : lr_marks seenS tc0 s new) :
    clear_seen_vars s.seen (s.toClear.drop tc0.length) = seenS
      ∧ s.toClear.take tc0.length = tc0 := by
  constructor
  · funext v
    rw [clear_seen_vars_apply, h.toClear]
    simp only [List.drop_left]
    by_cases hv : ∃ x ∈ new, x.var = v
    · rw [if_pos hv]
      obtain ⟨x, hx, hxv⟩ := hv
      rw [← hxv, h.unmarked x hx]
    · rw [if_neg hv]
      have := h.seen v
      cases hs : s.seen v with
      | true =>
        rcases this.1 hs with h1 | h1
        · exact h1.symm
        · exact absurd h1 hv
      | false =>
        cases hS : seenS v with
        | false => rfl
        | true => rw [this.2 (Or.inl hS)] at hs; cases hs
  · rw [h.toClear]
    simp

theorem lr_marks_mono {seenS : Nat → Bool} {tc0 : List Lit} {s s1 : Searcher}
    {new added : List Lit} (h : lr_marks seenS tc0 s new)
    (h1 : lr_marks seenS tc0 s1 (new ++ added)) {v : Nat} (hv : s.seen v = true) :
    s1.seen v = true := by
  rcases (h.seen v).1 hv with a | ⟨x, hx, hxv⟩
  · exact (h1.seen v).2 (Or.inl a)
  · exact (h1.seen v).2 (Or.inr ⟨x, List.mem_append_left _ hx, hxv⟩)

theorem lr_marks_push {seenS : Nat → Bool} {tc0 : List Lit} {s : Searcher} {new : List Lit}
    (h : lr_marks seenS tc0 s new) {p2 : Lit} (hp : s.seen p2.var = false) :
    lr_marks seenS tc0
      { s with seen := upd s.seen p2.var true, toClear := s.toClear ++ [p2] } (new ++ [p2]) := by
  refine ⟨?_, ?_, ?_⟩
  · show s.toClear ++ [p2] = tc0 ++ (new ++ [p2])
    rw [h.toClear, List.append_assoc]
  · intro v
    show upd s.seen p2.var true v = true ↔ _
    by_cases hv : v = p2.var
    · subst hv
      simp only [upd, if_true, true_iff]
      exact Or.inr ⟨p2, List.mem_append_right _ (List.mem_singleton_self _), rfl⟩
    · have hne : ¬ p2.var = v := fun e => hv e.symm
      simp only [upd, if_neg hv, h.seen v, List.mem_append, List.mem_singleton]
      constructor
      · rintro (a | ⟨x, hx, hxv⟩)
        · exact Or.inl a
        · exact Or.inr ⟨x, Or.inl hx, hxv⟩
      · rintro (a | ⟨x, hx | hx, hxv⟩)
        · exact Or.inl a
        · exact Or.inr ⟨x, hx, hxv⟩
        · rw [hx] at hxv
          exact absurd hxv hne
  · intro x hx
    rcases List.mem_append.1 hx with hx | hx
    · exact h.unmarked x hx
    · have : x = p2 := by simpa using hx
      rw [this]
      cases hS : seenS p2.var with
      | false => rfl
      | true => rw [(h.seen _).2 (Or.inl hS)] at hp; cases hp

end Searcher
end CMSat

namespace CMSat
namespace Searcher

/-- One pass of `litRedundant` over the other literals of a reason: a bail-out restores the marks
of the start of the call; otherwise every literal of the reason is at level 0 or marked, and the
newly marked ones are propagated literals that were pushed on the stack. -/
theorem litRedundant_lits_marks {s0 : Searcher} (al : Nat) (seenS : Nat → Bool)
    (tc0 : List Lit) :
    ∀ (lits stack : List Lit) (s : Searcher) (new : List Lit), analysis_frame s0 s →
      lr_marks seenS tc0 s new →
      (∀ x ∈ lits, ∃ t ∈ s0.trail, t.lit = x.neg) →
      ((litRedundant_lits al tc0.length lits stack s).1 = false →
          (litRedundant_lits al tc0.length lits stack s).2.2.seen = seenS
            ∧ (litRedundant_lits al tc0.length lits stack s).2.2.toClear = tc0)
      ∧ ((litRedundant_lits al tc0.length lits stack s).1 = true →
          ∃ added,
            lr_marks seenS tc0 (litRedundant_lits al tc0.length lits stack s).2.2 (new ++ added)
            ∧ (∀ x ∈ added,
                x ∈ (litRedundant_lits al tc0.length lits stack s).2.1 ∧ lr_valid s0 x)
            ∧ (∀ x ∈ stack, x ∈ (litRedundant_lits al tc0.length lits stack s).2.1)
            ∧ (∀ y ∈ lits, (s0.varData y.var).level = 0
                ∨ (litRedundant_lits al tc0.length lits stack s).2.2.seen y.var = true))
  | [], stack, s, new, _, hm, _ => by
    simp only [litRedundant_lits]
    refine ⟨fun hb => by simp at hb, fun _ => ⟨[], ?_, ?_, fun x hx => hx, ?_⟩⟩
    · rw [List.append_nil]; exact hm
    · intro x hx; simp at hx
    · intro y hy; simp at hy
  | p2 :: rest, stack, s, new, hf, hm, hl => by
    have hrest : ∀ x ∈ rest, ∃ t ∈ s0.trail, t.lit = x.neg :=
      fun x hx => hl x (List.mem_cons_of_mem _ hx)
    unfold litRedundant_lits
    split
    · rename_i hc1
      simp only [Bool.and_eq_true, Bool.not_eq_true', decide_eq_true_eq] at hc1
      split
      · rename_i hc2
        simp only [Bool.and_eq_true] at hc2
        have hf1 : analysis_frame s0
            { s with seen := upd s.seen p2.var true, toClear := s.toClear ++ [p2] } :=
          frame_step hf rfl
        have hv : lr_valid s0 p2 := by
          refine ⟨hl p2 (List.mem_cons_self _ _), ?_⟩
          intro hnull
          have := hc2.1
          rw [hf.varData, hnull] at this
          simp [PropBy.isNULL] at this
        obtain ⟨i1, i2⟩ := litRedundant_lits_marks al seenS tc0 rest (p2 :: stack) _
          (new ++ [p2]) hf1 (lr_marks_push hm hc1.1) hrest
        refine ⟨i1, fun hb => ?_⟩
        obtain ⟨added, m, a, st, ly⟩ := i2 hb
        refine ⟨p2 :: added, ?_, ?_, ?_, ?_⟩
        · have e : new ++ p2 :: added = (new ++ [p2]) ++ added := by simp
          rw [e]; exact m
        · intro x hx
          rcases List.mem_cons.1 hx with rfl | hx
          · exact ⟨st _ (List.mem_cons_self _ _), hv⟩
          · exact a x hx
        · intro x hx
          exact st x (List.mem_cons_of_mem _ hx)
        · intro y hy
          rcases List.mem_cons.1 hy with rfl | hy
          · right
            exact (m.seen _).2
              (Or.inr ⟨y, List.mem_append_left _
                (List.mem_append_right _ (List.mem_singleton_self _)), rfl⟩)
          · exact ly y hy
      · refine ⟨fun _ => ?_, fun hb => by simp at hb⟩
        exact lr_marks_undo hm
    · rename_i hc1
      obtain ⟨i1, i2⟩ := litRedundant_lits_marks al seenS tc0 rest stack s new hf hm hrest
      refine ⟨i1, fun hb => ?_⟩
      obtain ⟨added, m, a, st, ly⟩ := i2 hb
      refine ⟨added, m, a, st, ?_⟩
      intro y hy
      rcases List.mem_cons.1 hy with rfl | hy
      · simp only [Bool.and_eq_true, Bool.not_eq_true', decide_eq_true_eq, not_and,
          not_lt, Nat.le_zero_eq] at hc1
        cases hs : s.seen y.var with
        | true => exact Or.inr (lr_marks_mono hm m hs)
        | false =>
          left
          have := hc1 hs
          rw [hf.varData] at this
          exact this
      · exact ly y hy

theorem lr_done_mono {s0 : Searcher} {seen seen1 : Nat → Bool} {x : Lit}
    (h : lr_done s0 seen x) (hmono : ∀ v, seen v = true → seen1 v = true) :
    lr_done s0 seen1 x := by
  obtain ⟨lits, hl, hy⟩ := h
  refine ⟨lits, hl, fun y hy1 => ?_⟩
  rcases hy y hy1 with a | a
  · exact Or.inl a
  · exact Or.inr (hmono _ a)

/-- The stack loop of `litRedundant`: a bail-out restores the marks of the start of the call; on
success the reason of every newly marked literal and of the literal asked about has been walked
through. -/
theorem litRedundant_loop_marks {s0 : Searcher} (h0 : trail_ok s0) (al : Nat)
    (seenS : Nat → Bool) (tc0 : List Lit) (p : Lit) :
    ∀ (fuel : Nat) (stack : List Lit) (s : Searcher) (new : List Lit) (b : Bool)
      (s1 : Searcher), analysis_frame s0 s → lr_marks seenS tc0 s new →
      (∀ q ∈ stack, lr_valid s0 q) → (∀ x ∈ new, lr_valid s0 x) →
      (∀ x, (x ∈ new ∨ x = p) → x ∈ stack ∨ lr_done s0 s.seen x) →
      litRedundant_loop al tc0.length fuel stack s = some (b, s1) →
      (b = false → s1.seen = seenS ∧ s1.toClear = tc0)
      ∧ (b = true → ∃ new1, lr_marks seenS tc0 s1 new1 ∧ (∀ x ∈ new1, lr_valid s0 x)
          ∧ ∀ x, (x ∈ new1 ∨ x = p) → lr_done s0 s1.seen x)
  | 0, _, _, _, _, _, _, _, _, _, _, h => by simp [litRedundant_loop] at h
  | fuel + 1, [], s, new, b, s1, _, hm, _, hnew, hpend, h => by
    simp only [litRedundant_loop, Option.some.injEq, Prod.mk.injEq] at h
    obtain ⟨rfl, rfl⟩ := h
    refine ⟨fun hb => by simp at hb, fun _ => ⟨new, hm, hnew, fun x hx => ?_⟩⟩
    rcases hpend x hx with a | a
    · simp at a
    · exact a
  | fuel + 1, q :: stack, s, new, b, s1, hf, hm, hst, hnew, hpend, h => by
    obtain ⟨lits, hlits, hfalse⟩ :=
      reason_other_lits_of_valid h0 hf (hst q (List.mem_cons_self _ _))
    obtain ⟨i1, i2⟩ := litRedundant_lits_spec al tc0.length lits stack s hf hfalse
      (fun x hx => hst x (List.mem_cons_of_mem _ hx))
    obtain ⟨k1, k2⟩ := litRedundant_lits_marks al seenS tc0 lits stack s new hf hm hfalse
    unfold litRedundant_loop at h
    rw [hlits] at h
    simp only at h
    rcases hr : litRedundant_lits al tc0.length lits stack s with ⟨b1, stack1, s2⟩
    rw [hr] at i1 i2 k1 k2 h
    cases b1 with
    | false =>
      simp only [Option.some.injEq, Prod.mk.injEq] at h
      obtain ⟨rfl, rfl⟩ := h
      exact ⟨fun _ => k1 rfl, fun hb => by simp at hb⟩
    | true =>
      simp only at h
      obtain ⟨_, j2⟩ := i2 rfl
      obtain ⟨added, m, a, st, ly⟩ := k2 rfl
      simp only at m a st ly j2 i1
      have hq : lr_done s0 s2.seen q := by
        refine ⟨lits, ?_, ly⟩
        rw [← reason_other_lits_frame hf, ← hf.varData]
        exact hlits
      refine litRedundant_loop_marks h0 al seenS tc0 p fuel stack1 s2 (new ++ added) b s1 i1 m
        j2 ?_ ?_ h
      · intro x hx
        rcases List.mem_append.1 hx with hx | hx
        · exact hnew x hx
        · exact (a x hx).2
      · intro x hx
        have hold : x ∈ new ∨ x = p → x ∈ stack1 ∨ lr_done s0 s2.seen x := by
          intro hx1
          rcases hpend x hx1 with c | c
          · rcases List.mem_cons.1 c with rfl | c
            · exact Or.inr hq
            · exact Or.inl (st x c)
          · exact Or.inr (lr_done_mono c (fun v hv => lr_marks_mono hm m hv))
        rcases hx with hx | hx
        · rcases List.mem_append.1 hx with hx | hx
          · exact hold (Or.inl hx)
          · exact Or.inl (a x hx).1
        · exact hold (Or.inr hx)

/-- The outcome of `litRedundant` on the marks: `false` leaves them as they were, `true` adds
literals whose reasons have all been walked through, like that of the literal asked about. -/
theorem litRedundant_marks {s0 s : Searcher} (h0 : trail_ok s0) (hf : analysis_frame s0 s)
    {p : Lit} (hp : lr_valid s0 p) (al : Nat) {b : Bool} {s1 : Searcher}
    (h : litRedundant s p al = some (b, s1)) :
    (b = false → s1.seen = s.seen ∧ s1.toClear = s.toClear)
      ∧ (b = true → ∃ new1, lr_marks s.seen s.toClear s1 new1 ∧ (∀ x ∈ new1, lr_valid s0 x)
          ∧ ∀ x, (x ∈ new1 ∨ x = p) → lr_done s0 s1.seen x) := by
  unfold litRedundant at h
  refine litRedundant_loop_marks h0 al s.seen s.toClear p _ [p] s [] b s1 hf ?_ ?_ ?_ ?_ h
  · exact ⟨by simp, fun v => by simp, fun x hx => by simp at hx⟩
  · intro q hq
    have : q = p := by simpa using hq
    rw [this]; exact hp
  · intro x hx; simp at hx
  · intro x hx
    rcases hx with hx | hx
    · simp at hx
    · left; simp [hx]

end Searcher
end CMSat

namespace CMSat
namespace Searcher

theorem mem_take_succ {α : Type} {l : List α} {i : Nat} {t : α} (h : t ∈ l.take (i + 1)) :
    t ∈ l.take i ∨ l[i]? = some t := by
  rw [List.take_succ] at h
  rcases List.mem_append.1 h with a | a
  · exact Or.inl a
  · right
    cases hi : l[i]? with
    | none => rw [hi] at a; simp at a
    | some u =>
      rw [hi] at a
      have : t = u := by simpa using a
      rw [this]

/-- Literals whose reasons have all been walked through, down to marks that stand for literals of
the clause or for redundant ones, are redundant; by induction along the trail. -/
theorem redundant_of_done {s0 : Searcher} (h0 : trail_ok s0) (seen0 seenS seenF : Nat → Bool)
    (D : List Lit)
    (hS : ∀ v, seenS v = true → seen0 v = true ∨ redundant s0 seen0 v)
    (hF : ∀ v, seenF v = true → seenS v = true ∨ ∃ x ∈ D, x.var = v)
    (hD : ∀ x ∈ D, lr_valid s0 x ∧ lr_done s0 seenF x) :
    ∀ (i : Nat), ∀ x ∈ D, (∃ t ∈ s0.trail.take i, t.lit = x.neg) →
      redundant s0 seen0 x.var
  | 0, _, _, h => by simp at h
  | i + 1, x, hx, ⟨t, ht, htx⟩ => by
    rcases mem_take_succ ht with ht | ht
    · exact redundant_of_done h0 seen0 seenS seenF D hS hF hD i x hx ⟨t, ht, htx⟩
    · obtain ⟨lits, hl, hly⟩ := (hD x hx).2
      have hl1 : reason_other_lits s0 (s0.varData t.lit.var).reason = some lits := by
        rw [htx, Lit.var_neg]; exact hl
      obtain ⟨hbefore, _⟩ := reason_others_before h0 ht hl1
      refine redundant.intro x.var lits hl ?_
      intro y hy hlev hs0
      rcases hly y hy with c | c
      · omega
      · rcases hF _ c with a | ⟨x1, hx1, hv⟩
        · rcases hS _ a with b | b
          · rw [b] at hs0; cases hs0
          · exact b
        · obtain ⟨u, hu, huy⟩ := hbefore y hy
          obtain ⟨⟨t1, ht1, htx1⟩, _⟩ := (hD x1 hx1).1
          obtain ⟨e, _⟩ := h0.false_unique ht1 (List.mem_of_mem_take hu) htx1 huy hv
          have := redundant_of_done h0 seen0 seenS seenF D hS hF hD i x1 hx1
            ⟨u, hu, by rw [huy, e]⟩
          rw [hv] at this
          exact this

/-- What the compaction loop of `recursiveConfClauseMin` drops is redundant with respect to the
marks `seen0` of the clause, and it never drops a literal without a reason. -/
theorem recursiveConfClauseMin_loop_redundant {s0 : Searcher} (h0 : trail_ok s0)
    (seen0 : Nat → Bool) (al : Nat) :
    ∀ (rest : List Lit) (s : Searcher) (kept : List Lit) (s1 : Searcher),
      analysis_frame s0 s →
      (∀ v, s.seen v = true → seen0 v = true ∨ redundant s0 seen0 v) →
      (∀ q ∈ rest, ∃ t ∈ s0.trail, t.lit = q.neg) →
      recursiveConfClauseMin_loop al rest s = some (kept, s1) →
      (∀ q ∈ rest, q ∈ kept ∨ redundant s0 seen0 q.var)
        ∧ (∀ q ∈ rest, (s0.varData q.var).reason = PropBy.null_clause_t → q ∈ kept)
  | [], s, kept, s1, _, _, _, _ => ⟨fun q hq => by simp at hq, fun q hq => by simp at hq⟩
  | l :: rest, s, kept, s1, hf, hinv, hfalse, h => by
    have hrest : ∀ q ∈ rest, ∃ t ∈ s0.trail, t.lit = q.neg :=
      fun q hq => hfalse q (List.mem_cons_of_mem _ hq)
    unfold recursiveConfClauseMin_loop at h
    split at h
    · rename_i hnull
      cases hrec : recursiveConfClauseMin_loop al rest s with
      | none => rw [hrec] at h; cases h
      | some r =>
        obtain ⟨kept1, s2⟩ := r
        rw [hrec] at h
        simp only [Option.some.injEq, Prod.mk.injEq] at h
        obtain ⟨rfl, rfl⟩ := h
        obtain ⟨a, b⟩ := recursiveConfClauseMin_loop_redundant h0 seen0 al rest s kept1 s2 hf
          hinv hrest hrec
        constructor
        · intro q hq
          rcases List.mem_cons.1 hq with rfl | hq
          · exact Or.inl (List.mem_cons_self _ _)
          · rcases a q hq with c | c
            · exact Or.inl (List.mem_cons_of_mem _ c)
            · exact Or.inr c
        · intro q hq hn
          rcases List.mem_cons.1 hq with rfl | hq
          · exact List.mem_cons_self _ _
          · exact List.mem_cons_of_mem _ (b q hq hn)
    · rename_i hnn
      have hnn0 : (s0.varData l.var).reason ≠ PropBy.null_clause_t := by
        intro hnull
        rw [hf.varData, hnull] at hnn
        simp [PropBy.isNULL] at hnn
      have hv : lr_valid s0 l := ⟨hfalse l (List.mem_cons_self _ _), hnn0⟩
      obtain ⟨b0, s2, hb, hf2⟩ := litRedundant_spec h0 hf hv al
      obtain ⟨m1, m2⟩ := litRedundant_marks h0 hf hv al hb
      rw [hb] at h
      simp only at h
      cases hrec : recursiveConfClauseMin_loop al rest s2 with
      | none => rw [hrec] at h; cases h
      | some r =>
        obtain ⟨kept1, s3⟩ := r
        rw [hrec] at h
        simp only [Option.some.injEq, Prod.mk.injEq] at h
        obtain ⟨rfl, rfl⟩ := h
        cases b0 with
        | false =>
          have hinv2 : ∀ v, s2.seen v = true → seen0 v = true ∨ redundant s0 seen0 v := by
            rw [(m1 rfl).1]; exact hinv
          obtain ⟨a, b⟩ := recursiveConfClauseMin_loop_redundant h0 seen0 al rest s2 kept1 s3
            hf2 hinv2 hrest hrec
          simp only [Bool.false_eq_true, if_false]
          constructor
          · intro q hq
            rcases List.mem_cons.1 hq with rfl | hq
            · exact Or.inl (List.mem_cons_self _ _)
            · rcases a q hq with c | c
              · exact Or.inl (List.mem_cons_of_mem _ c)
              · exact Or.inr c
          · intro q hq hn
            rcases List.mem_cons.1 hq with rfl | hq
            · exact List.mem_cons_self _ _
            · exact List.mem_cons_of_mem _ (b q hq hn)
        | true =>
          obtain ⟨new1, mk, hval, hdone⟩ := m2 rfl
          have hred : ∀ x ∈ l :: new1, redundant s0 seen0 x.var := by
            intro x hx
            have hxv : lr_valid s0 x := by
              rcases List.mem_cons.1 hx with rfl | hx
              · exact hv
              · exact hval x hx
            obtain ⟨t, ht, htx⟩ := hxv.1
            refine redundant_of_done h0 seen0 s.seen s2.seen (l :: new1) hinv ?_ ?_
              s0.trail.length x hx ⟨t, by rw [List.take_length]; exact ht, htx⟩
            · intro v hv1
              rcases (mk.seen v).1 hv1 with c | ⟨y, hy, hyv⟩
              · exact Or.inl c
              · exact Or.inr ⟨y, List.mem_cons_of_mem _ hy, hyv⟩
            · intro y hy
              rcases List.mem_cons.1 hy with rfl | hy
              · exact ⟨hv, hdone _ (Or.inr rfl)⟩
              · exact ⟨hval y hy, hdone _ (Or.inl hy)⟩
          have hinv2 : ∀ v, s2.seen v = true → seen0 v = true ∨ redundant s0 seen0 v := by
            intro v hv1
            rcases (mk.seen v).1 hv1 with c | ⟨y, hy, hyv⟩
            · exact hinv v c
            · right
              rw [← hyv]
              exact hred y (List.mem_cons_of_mem _ hy)
          obtain ⟨a, b⟩ := recursiveConfClauseMin_loop_redundant h0 seen0 al rest s2 kept1 s3
            hf2 hinv2 hrest hrec
          simp only [if_true]
          constructor
          · intro q hq
            rcases List.mem_cons.1 hq with rfl | hq
            · exact Or.inr (hred _ (List.mem_cons_self _ _))
            · exact a q hq
          · intro q hq hn
            rcases List.mem_cons.1 hq with rfl | hq
            · exact absurd hn hnn0
            · exact b q hq hn

end Searcher
end CMSat

namespace CMSat
namespace Searcher

/-- What the compaction loop of `normalClMinim` drops is redundant in one step with respect to
the marks of the state, and it never drops a literal without a reason. -/
theorem normalClMinim_loop_redundant {s0 s : Searcher} (hf : analysis_frame s0 s) :
    ∀ (rest kept : List Lit), normalClMinim_loop s rest = some kept →
      (∀ q ∈ rest, q ∈ kept ∨ redundant s0 s.seen q.var)
        ∧ (∀ q ∈ rest, (s0.varData q.var).reason = PropBy.null_clause_t → q ∈ kept)
  | [], _, _ => ⟨fun q hq => by simp at hq, fun q hq => by simp at hq⟩
  | l :: rest, kept, h => by
    unfold normalClMinim_loop at h
    cases hk : normalClMinim_keep s l with
    | none => rw [hk] at h; simp at h
    | some k =>
      cases hrec : normalClMinim_loop s rest with
      | none => rw [hk, hrec] at h; simp at h
      | some kept1 =>
        rw [hk, hrec] at h
        simp only [Option.some.injEq] at h
        obtain ⟨a, b⟩ := normalClMinim_loop_redundant hf rest kept1 hrec
        have hkeep : k = true → (∀ q ∈ l :: rest, q ∈ kept ∨ redundant s0 s.seen q.var)
            ∧ (∀ q ∈ l :: rest, (s0.varData q.var).reason = PropBy.null_clause_t → q ∈ kept) := by
          intro hkt
          rw [hkt] at h
          simp only [if_true] at h
          subst h
          constructor
          · intro q hq
            rcases List.mem_cons.1 hq with rfl | hq
            · exact Or.inl (List.mem_cons_self _ _)
            · rcases a q hq with c | c
              · exact Or.inl (List.mem_cons_of_mem _ c)
              · exact Or.inr c
          · intro q hq hn
            rcases List.mem_cons.1 hq with rfl | hq
            · exact List.mem_cons_self _ _
            · exact List.mem_cons_of_mem _ (b q hq hn)
        have hdrop : ∀ lits, reason_other_lits s (s.varData l.var).reason = some lits →
            (s.varData l.var).reason ≠ PropBy.null_clause_t →
            k = lits.any (fun p => !s.seen p.var && decide ((s.varData p.var).level > 0)) →
            k = false → (∀ q ∈ l :: rest, q ∈ kept ∨ redundant s0 s.seen q.var)
            ∧ (∀ q ∈ l :: rest, (s0.varData q.var).reason = PropBy.null_clause_t → q ∈ kept) := by
          intro lits hl hnn hany hkf
          rw [hkf] at h hany
          simp only [Bool.false_eq_true, if_false] at h
          subst h
          have hall := List.any_eq_false.1 hany.symm
          constructor
          · intro q hq
            rcases List.mem_cons.1 hq with rfl | hq
            · right
              refine redundant.intro q.var lits ?_ ?_
              · rw [← reason_other_lits_frame hf, ← hf.varData]; exact hl
              · intro y hy hlev hs
                have := hall y hy
                rw [hf.varData] at this
                simp [hs, hlev] at this
            · exact a q hq
          · intro q hq hn
            rcases List.mem_cons.1 hq with rfl | hq
            · rw [hf.varData] at hnn
              exact absurd hn hnn
            · exact b q hq hn
        cases k with
        | true => exact hkeep rfl
        | false =>
          unfold normalClMinim_keep at hk
          cases hr : (s.varData l.var).reason with
          | null_clause_t => rw [hr] at hk; simp at hk
          | binary_t x y =>
            rw [hr] at hk
            simp only [reason_other_lits, Option.some.injEq] at hk
            exact hdrop [x] (by rw [hr]; rfl) (by rw [hr]; simp) hk.symm rfl
          | clause_t o =>
            rw [hr] at hk
            simp only at hk
            cases hro : reason_other_lits s (PropBy.clause_t o) with
            | none => rw [hro] at hk; simp at hk
            | some lits =>
              rw [hro] at hk
              simp only [Option.some.injEq] at hk
              exact hdrop lits (by rw [hr]; exact hro) (by rw [hr]; simp) hk.symm rfl

/-- The literals dropped hold under no model of the reason clauses and of the facts of level 0
in which the kept literals are all False: by induction along the trail. -/
theorem redundant_entailed {s0 : Searcher} (h0 : trail_ok s0) (seen0 : Nat → Bool)
    {rest kept : List Lit} (hfalse : ∀ q ∈ rest, ∃ t ∈ s0.trail, t.lit = q.neg)
    (hseen : ∀ v, seen0 v = true → ∃ q ∈ rest, q.var = v)
    (hred : ∀ q ∈ rest, q ∈ kept ∨ redundant s0 seen0 q.var)
    (M : Nat → Bool) (hR : ∀ t ∈ s0.trail, ∀ c ∈ reason_lits s0 t.lit, clause_sat M c)
    (hZ : ∀ t ∈ s0.trail, t.lev = 0 → lit_true M t.lit = true) :
    ∀ (i : Nat) (q : Lit), (q ∈ rest ∨ redundant s0 seen0 q.var) →
      (∃ t ∈ s0.trail.take i, t.lit = q.neg) → lit_true M q = true →
      ∃ k ∈ kept, lit_true M k = true
  | 0, _, _, h, _ => by simp at h
  | i + 1, q, hq, ⟨t, ht, htq⟩, hM => by
    rcases mem_take_succ ht with ht | ht
    · exact redundant_entailed h0 seen0 hfalse hseen hred M hR hZ i q hq ⟨t, ht, htq⟩ hM
    · have hqr : q ∈ kept ∨ redundant s0 seen0 q.var := by
        rcases hq with a | a
        · exact hred q a
        · exact Or.inr a
      rcases hqr with a | a
      · exact ⟨q, a, hM⟩
      · cases a with
        | intro v lits hl hsub =>
          have hl1 : reason_other_lits s0 (s0.varData t.lit.var).reason = some lits := by
            rw [htq, Lit.var_neg]; exact hl
          obtain ⟨hbefore, hreason⟩ := reason_others_before h0 ht hl1
          obtain ⟨y, hy, hyM⟩ := hR t (mem_of_getElem? ht) _ hreason
          rcases List.mem_cons.1 hy with rfl | hy
          · rw [htq, lit_true_neg, hM] at hyM
            cases hyM
          · obtain ⟨u, hu, huy⟩ := hbefore y hy
            have hum : u ∈ s0.trail := List.mem_of_mem_take hu
            have hlevu : (s0.varData y.var).level = u.lev := by
              have := (h0.entry hum).1
              rw [huy, Lit.var_neg] at this
              exact this
            by_cases hlev : (s0.varData y.var).level = 0
            · have := hZ u hum (by rw [← hlevu]; exact hlev)
              rw [huy, lit_true_neg, hyM] at this
              cases this
            · have hpos : 0 < (s0.varData y.var).level := Nat.pos_of_ne_zero hlev
              cases hs : seen0 y.var with
              | true =>
                obtain ⟨q1, hq1, hv⟩ := hseen _ hs
                obtain ⟨t1, ht1, htq1⟩ := hfalse q1 hq1
                obtain ⟨e, _⟩ := h0.false_unique ht1 hum htq1 huy hv
                rw [e] at hq1
                exact redundant_entailed h0 seen0 hfalse hseen hred M hR hZ i y (Or.inl hq1)
                  ⟨u, hu, huy⟩ hyM
              | false =>
                exact redundant_entailed h0 seen0 hfalse hseen hred M hR hZ i y
                  (Or.inr (hsub y hy hpos hs)) ⟨u, hu, huy⟩ hyM

theorem recursiveConfClauseMin_redundant {s0 s : Searcher} (h0 : trail_ok s0)
    (hf : analysis_frame s0 s) {l0 : Lit} {rest : List Lit} (hL : s.learnt_clause = l0 :: rest)
    (hfalse : ∀ q ∈ rest, ∃ t ∈ s0.trail, t.lit = q.neg) :
    ∃ s1 kept, recursiveConfClauseMin s = some s1 ∧ s1.learnt_clause = l0 :: kept
      ∧ kept.Sublist rest
      ∧ (∀ q ∈ rest, q ∈ kept ∨ redundant s0 s.seen q.var)
      ∧ (∀ q ∈ rest, (s0.varData q.var).reason = PropBy.null_clause_t → q ∈ kept) := by
  unfold recursiveConfClauseMin
  rw [hL]
  simp only
  obtain ⟨kept, s1, h1, _, h3⟩ := recursiveConfClauseMin_loop_spec h0
    (rest.foldl (fun a l => a ||| abstractLevel s l.var) 0) rest s hf hfalse
  obtain ⟨a, b⟩ := recursiveConfClauseMin_loop_redundant h0 s.seen _ rest s kept s1 hf
    (fun v hv => Or.inl hv) hfalse h1
  rw [h1]
  exact ⟨_, kept, rfl, rfl, h3, a, b⟩

theorem normalClMinim_redundant {s0 s : Searcher} (h0 : trail_ok s0)
    (hf : analysis_frame s0 s) {l0 : Lit} {rest : List Lit} (hL : s.learnt_clause = l0 :: rest)
    (hfalse : ∀ q ∈ rest, ∃ t ∈ s0.trail, t.lit = q.neg) :
    ∃ s1 kept, normalClMinim s = some s1 ∧ s1.learnt_clause = l0 :: kept
      ∧ kept.Sublist rest
      ∧ (∀ q ∈ rest, q ∈ kept ∨ redundant s0 s.seen q.var)
      ∧ (∀ q ∈ rest, (s0.varData q.var).reason = PropBy.null_clause_t → q ∈ kept) := by
  unfold normalClMinim
  rw [hL]
  simp only
  obtain ⟨kept, h1, h3⟩ := normalClMinim_loop_spec h0 hf rest hfalse
  obtain ⟨a, b⟩ := normalClMinim_loop_redundant hf rest kept h1
  rw [h1]
  exact ⟨_, kept, rfl, rfl, h3, a, b⟩

/-- About `minimize_learnt_clause` returns, keeps the first literal and a sublist of the others, keeps
every literal without a reason, and what it drops is redundant with respect to the marks at the
call. -/
theorem minimize_learnt_clause_redundant {s : Searcher} (h0 : trail_ok s) {l0 : Lit}
    {rest : List Lit} (hL : s.learnt_clause = l0 :: rest)
    (hfalse : ∀ q ∈ rest, ∃ t ∈ s.trail, t.lit = q.neg) :
    ∃ s1 kept, minimize_learnt_clause s = some s1 ∧ s1.learnt_clause = l0 :: kept
      ∧ kept.Sublist rest
      ∧ (∀ q ∈ rest, q ∈ kept ∨ redundant s s.seen q.var)
      ∧ (∀ q ∈ rest, (s.varData q.var).reason = PropBy.null_clause_t → q ∈ kept) := by
  have hf1 : analysis_frame s { s with toClear := s.learnt_clause } := ⟨rfl, fun _ => rfl⟩
  have hL1 : ({ s with toClear := s.learnt_clause } : Searcher).learnt_clause = l0 :: rest := hL
  have hmin : ∃ s1 kept,
      (if ({ s with toClear := s.learnt_clause } : Searcher).conf.doRecursiveMinim
        then recursiveConfClauseMin { s with toClear := s.learnt_clause }
        else normalClMinim { s with toClear := s.learnt_clause }) = some s1
      ∧ s1.learnt_clause = l0 :: kept ∧ kept.Sublist rest
      ∧ (∀ q ∈ rest, q ∈ kept ∨ redundant s s.seen q.var)
      ∧ (∀ q ∈ rest, (s.varData q.var).reason = PropBy.null_clause_t → q ∈ kept) := by
    split
    · exact recursiveConfClauseMin_redundant h0 hf1 hL1 hfalse
    · exact normalClMinim_redundant h0 hf1 hL1 hfalse
  obtain ⟨s1, kept, h1, h2, h3, h4, h5⟩ := hmin
  unfold minimize_learnt_clause
  simp only
  rw [h1]
  exact ⟨_, kept, rfl, h2, h3, h4, h5⟩

end Searcher
end CMSat

namespace CMSat
namespace Searcher

/-! ## `params.rest_type` is never `glue_geom` -/

theorem setup_restart_strategy_rest_type (s : Searcher) :
    (setup_restart_strategy s).params.rest_type ≠ Restart.glue_geom := by
  unfold setup_restart_strategy
  cases h : s.cur_rest_type <;> simp [h]

theorem next_rest_type_ne (c r : Restart) : next_rest_type c r ≠ Restart.glue_geom := by
  unfold next_rest_type
  cases c <;> simp
  split <;> simp

/-- About `adjust_restart_strategy` returns on every state; the second `switch` sees the type written
by the first one, which is never `glue_geom`, and a call made while budget remains leaves the
type as it is. -/
theorem adjust_restart_strategy_total (s : Searcher) :
    ∃ s1, adjust_restart_strategy s = some s1
      ∧ (s.max_confl_this_restart > 0 → s1 = s)
      ∧ (¬ s.max_confl_this_restart > 0 →
          s1.params.rest_type = next_rest_type s.cur_rest_type s.params.rest_type) := by
  unfold adjust_restart_strategy
  by_cases hpos : s.max_confl_this_restart > 0
  · rw [if_pos hpos]
    exact ⟨s, rfl, fun _ => rfl, fun h => absurd hpos h⟩
  · rw [if_neg hpos]
    simp only
    have hne := next_rest_type_ne s.cur_rest_type s.params.rest_type
    cases hn : next_rest_type s.cur_rest_type s.params.rest_type with
    | glue_geom => exact absurd hn hne
    | luby =>
      simp only [luby_two, Option.map_some']
      exact ⟨_, rfl, fun h => absurd h hpos, fun _ => rfl⟩
    | geom => exact ⟨_, rfl, fun h => absurd h hpos, fun _ => rfl⟩
    | glue => exact ⟨_, rfl, fun h => absurd h hpos, fun _ => rfl⟩
    | never => exact ⟨_, rfl, fun h => absurd h hpos, fun _ => rfl⟩

theorem adjust_restart_strategy_rest_type {s s1 : Searcher}
    (h : adjust_restart_strategy s = some s1) (hs : s.params.rest_type ≠ Restart.glue_geom) :
    s1.params.rest_type ≠ Restart.glue_geom := by
  obtain ⟨s2, h2, a, b⟩ := adjust_restart_strategy_total s
  rw [h2] at h
  simp only [Option.some.injEq] at h
  subst h
  by_cases hpos : s.max_confl_this_restart > 0
  · rw [a hpos]; exact hs
  · rw [b hpos]; exact next_rest_type_ne _ _

theorem restart_reachable_rest_type {s : Searcher} (h : restart_reachable s) :
    s.params.rest_type ≠ Restart.glue_geom := by
  induction h with
  | setup s => exact setup_restart_strategy_rest_type s
  | adjust s s1 _ h1 ih => exact adjust_restart_strategy_rest_type h1 ih
  | other s s1 _ h1 ih => rw [h1]; exact ih

end Searcher
end CMSat

namespace CMSat
namespace Searcher

/-! ## `litRedundant`: effect on the marks on every input, and the number of rounds -/

theorem lr_marks_fresh {seenS : Nat → Bool} {tc0 : List Lit} {s : Searcher} {new : List Lit}
    (h : lr_marks seenS tc0 s new) (hnd : (new.map Lit.var).Nodup) {p2 : Lit}
    (hp : s.seen p2.var = false) : ((new ++ [p2]).map Lit.var).Nodup := by
  rw [List.map_append, List.map_singleton]
  refine List.Nodup.append hnd (List.nodup_singleton _) ?_
  intro v hv hv2
  have e : v = p2.var := by simpa using hv2
  obtain ⟨x, hx, hxv⟩ := List.mem_map.1 hv
  have := (h.seen v).2 (Or.inr ⟨x, hx, hxv⟩)
  rw [e, hp] at this
  cases this

/-- One pass of `litRedundant` over the other literals of a reason, on any state: a bail-out
restores the marks of the start of the call; otherwise the marks grow by literals of distinct
variables that were unmarked. -/
theorem litRedundant_lits_effect (al : Nat) (seenS : Nat → Bool) (tc0 : List Lit) :
    ∀ (lits stack : List Lit) (s : Searcher) (new : List Lit),
      lr_marks seenS tc0 s new → (new.map Lit.var).Nodup →
      ((litRedundant_lits al tc0.length lits stack s).1 = false →
          (litRedundant_lits al tc0.length lits stack s).2.2.seen = seenS
            ∧ (litRedundant_lits al tc0.length lits stack s).2.2.toClear = tc0)
      ∧ ((litRedundant_lits al tc0.length lits stack s).1 = true →
          ∃ added,
            lr_marks seenS tc0 (litRedundant_lits al tc0.length lits stack s).2.2 (new ++ added)
            ∧ ((new ++ added).map Lit.var).Nodup)
  | [], stack, s, new, hm, hnd => by
    simp only [litRedundant_lits]
    refine ⟨fun hb => by simp at hb, fun _ => ⟨[], ?_, ?_⟩⟩
    · rw [List.append_nil]; exact hm
    · rw [List.append_nil]; exact hnd
  | p2 :: rest, stack, s, new, hm, hnd => by
    unfold litRedundant_lits
    split
    · rename_i hc1
      simp only [Bool.and_eq_true, Bool.not_eq_true', decide_eq_true_eq] at hc1
      split
      · obtain ⟨i1, i2⟩ := litRedundant_lits_effect al seenS tc0 rest (p2 :: stack) _
          (new ++ [p2]) (lr_marks_push hm hc1.1) (lr_marks_fresh hm hnd hc1.1)
        refine ⟨i1, fun hb => ?_⟩
        obtain ⟨added, m, nd⟩ := i2 hb
        have e : new ++ p2 :: added = (new ++ [p2]) ++ added := by simp
        exact ⟨p2 :: added, by rw [e]; exact m, by rw [e]; exact nd⟩
      · refine ⟨fun _ => ?_, fun hb => by simp at hb⟩
        exact lr_marks_undo hm
    · exact litRedundant_lits_effect al seenS tc0 rest stack s new hm hnd

/-- The stack loop of `litRedundant` on any state, whenever it returns. -/
theorem litRedundant_loop_effect (al : Nat) (seenS : Nat → Bool) (tc0 : List Lit) :
    ∀ (fuel : Nat) (stack : List Lit) (s : Searcher) (new : List Lit) (b : Bool)
      (s1 : Searcher), lr_marks seenS tc0 s new → (new.map Lit.var).Nodup →
      litRedundant_loop al tc0.length fuel stack s = some (b, s1) →
      (b = false → s1.seen = seenS ∧ s1.toClear = tc0)
      ∧ (b = true → ∃ new1, lr_marks seenS tc0 s1 new1 ∧ (new1.map Lit.var).Nodup)
  | 0, _, _, _, _, _, _, _, h => by simp [litRedundant_loop] at h
  | fuel + 1, [], s, new, b, s1, hm, hnd, h => by
    simp only [litRedundant_loop, Option.some.injEq, Prod.mk.injEq] at h
    obtain ⟨rfl, rfl⟩ := h
    exact ⟨fun hb => by simp at hb, fun _ => ⟨new, hm, hnd⟩⟩
  | fuel + 1, q :: stack, s, new, b, s1, hm, hnd, h => by
    unfold litRedundant_loop at h
    cases hlits : reason_other_lits s (s.varData q.var).reason with
    | none => rw [hlits] at h; simp at h
    | some lits =>
      rw [hlits] at h
      simp only at h
      obtain ⟨k1, k2⟩ := litRedundant_lits_effect al seenS tc0 lits stack s new hm hnd
      rcases hr : litRedundant_lits al tc0.length lits stack s with ⟨b1, stack1, s2⟩
      rw [hr] at k1 k2 h
      cases b1 with
      | false =>
        simp only [Option.some.injEq, Prod.mk.injEq] at h
        obtain ⟨rfl, rfl⟩ := h
        exact ⟨fun _ => k1 rfl, fun hb => by simp at hb⟩
      | true =>
        simp only at h
        obtain ⟨added, m, nd⟩ := k2 rfl
        exact litRedundant_loop_effect al seenS tc0 fuel stack1 s2 (new ++ added) b s1 m nd h

/-- More fuel does not change what the stack loop of `litRedundant` returns. -/
theorem litRedundant_loop_fuel (al top : Nat) :
    ∀ (fuel : Nat) (stack : List Lit) (s : Searcher) (r : Bool × Searcher) (k : Nat),
      litRedundant_loop al top fuel stack s = some r →
      litRedundant_loop al top (fuel + k) stack s = some r
  | 0, _, _, _, _, h => by simp [litRedundant_loop] at h
  | fuel + 1, [], s, r, k, h => by
    have e : fuel + 1 + k = (fuel + k) + 1 := by omega
    rw [e]
    simp only [litRedundant_loop] at h ⊢
    exact h
  | fuel + 1, q :: stack, s, r, k, h => by
    have e : fuel + 1 + k = (fuel + k) + 1 := by omega
    rw [e]
    unfold litRedundant_loop at h ⊢
    cases hlits : reason_other_lits s (s.varData q.var).reason with
    | none => rw [hlits] at h; simp at h
    | some lits =>
      rw [hlits] at h
      simp only at h ⊢
      rcases hr : litRedundant_lits al top lits stack s with ⟨b1, stack1, s2⟩
      rw [hr] at h
      cases b1 with
      | false => exact h
      | true => exact litRedundant_loop_fuel al top fuel stack1 s2 r k h

/-- A list of distinct numbers below `n` has at most `n` entries. -/
theorem nodup_length_le {l : List Nat} {n : Nat} (hnd : l.Nodup) (hlt : ∀ x ∈ l, x < n) :
    l.length ≤ n := by
  have h1 : l.toFinset.card = l.length := List.toFinset_card_of_nodup hnd
  have h2 : l.toFinset ⊆ Finset.range n := by
    intro x hx
    exact Finset.mem_range.2 (hlt x (List.mem_toFinset.1 hx))
  have h3 := Finset.card_le_card h2
  rw [Finset.card_range] at h3
  omega

end Searcher
end CMSat

namespace CMSat
namespace Searcher

/-! ## `find_conflict_level` on constraints whose levels are at most the decision level -/

theorem swapAt_zero_zero (L : List Lit) : swapAt L 0 0 = L := by
  cases L <;> simp [swapAt]

theorem find_conflict_level_binary_levels (s : Searcher) (lit2 : Lit) (red : Bool)
    (hlev : ∀ q ∈ confl_lits s (.binary_t lit2 red), s.level q ≤ s.decisionLevel) :
    ∃ nH confl1 s1, find_conflict_level s (.binary_t lit2 red) = some (nH, confl1, s1)
      ∧ s1 = { s with failBinLit := s1.failBinLit }
      ∧ (∀ q ∈ confl_lits s (.binary_t lit2 red), s.level q ≤ nH)
      ∧ (∃ q ∈ confl_lits s (.binary_t lit2 red), s.level q = nH)
      ∧ s1.level ((confl_lits s1 confl1).headD lit_Undef) = nH
      ∧ (confl_lits s1 confl1).Perm (confl_lits s (.binary_t lit2 red)) := by
  have hle1 : s.level s.failBinLit ≤ s.decisionLevel := hlev _ (by simp [confl_lits])
  have hle2 : s.level lit2 ≤ s.decisionLevel := hlev _ (by simp [confl_lits])
  simp only [Searcher.level] at hle1 hle2
  have hall : ∀ n, (s.varData s.failBinLit.var).level ≤ n → (s.varData lit2.var).level ≤ n →
      ∀ q ∈ confl_lits s (.binary_t lit2 red), s.level q ≤ n := by
    intro n a b q hq
    simp only [confl_lits, List.mem_cons, List.mem_singleton, List.not_mem_nil, or_false] at hq
    rcases hq with rfl | rfl
    · exact a
    · exact b
  unfold find_conflict_level
  simp only
  split
  · rename_i h
    refine ⟨_, _, _, rfl, rfl, hall _ (le_refl _) (by omega),
      ⟨s.failBinLit, by simp [confl_lits], rfl⟩, rfl, List.Perm.refl _⟩
  · split
    · rename_i h1 h2
      refine ⟨_, _, _, rfl, rfl, hall _ (by omega) (le_refl _),
        ⟨lit2, by simp [confl_lits], rfl⟩, rfl, ?_⟩
      simp only [confl_lits]
      exact List.Perm.swap _ _ _
    · rename_i h1 h2
      refine ⟨_, _, _, rfl, rfl, hall _ (le_refl _) (by omega),
        ⟨s.failBinLit, by simp [confl_lits], rfl⟩, rfl, List.Perm.refl _⟩

/-- The long case of `find_conflict_level`: the literal of index `h` with the highest level
comes to the front; the watch lists change only when `h > 1`. -/
theorem find_conflict_level_long_levels (s : Searcher) (offs : Nat)
    (hlen : 2 ≤ (s.cl_alloc offs).lits.length)
    (hlev : ∀ q ∈ (s.cl_alloc offs).lits, s.level q ≤ s.decisionLevel) :
    ∃ nH s1 h, find_conflict_level s (.clause_t offs) = some (nH, .clause_t offs, s1)
      ∧ h < (s.cl_alloc offs).lits.length
      ∧ s1 = { s with cl_alloc := s1.cl_alloc, watches := s1.watches }
      ∧ (s1.cl_alloc offs).lits = swapAt (s.cl_alloc offs).lits 0 h
      ∧ nH = s.level ((s.cl_alloc offs).lits.getD h lit_Undef)
      ∧ (∀ q ∈ (s.cl_alloc offs).lits, s.level q ≤ nH)
      ∧ (h ≤ 1 → s1.watches = s.watches)
      ∧ (1 < h → s1.watches = (find_conflict_level_swap s offs h).watches
          ∧ s.level ((s.cl_alloc offs).lits.getD 0 lit_Undef)
              < s.level ((s.cl_alloc offs).lits.getD h lit_Undef)) := by
  have hall : ∀ q ∈ (s.cl_alloc offs).lits, ∃ i, i < (s.cl_alloc offs).lits.length
      ∧ (s.cl_alloc offs).lits.getD i lit_Undef = q := by
    intro q hq
    obtain ⟨i, hi, rfl⟩ := List.getElem_of_mem hq
    exact ⟨i, hi, by simp [List.getD_eq_getElem?_getD, hi]⟩
  unfold find_conflict_level
  simp only
  split
  · rename_i h
    refine ⟨_, s, 0, rfl, by omega, rfl, (swapAt_zero_zero _).symm, rfl, ?_,
      fun _ => rfl, fun h1 => absurd h1 (by omega)⟩
    intro q hq
    rw [h.1]
    exact hlev q hq
  · obtain ⟨h1, h2, h3, h4⟩ := find_conflict_level_scan_spec s (s.cl_alloc offs).lits
      (List.range' 1 ((s.cl_alloc offs).lits.length - 1)) 0
      (s.varData ((s.cl_alloc offs).lits.getD 0 lit_Undef).var).level rfl
    set r := find_conflict_level_scan s (s.cl_alloc offs).lits
      (List.range' 1 ((s.cl_alloc offs).lits.length - 1))
      (0, (s.varData ((s.cl_alloc offs).lits.getD 0 lit_Undef).var).level) with hr
    have hmax : ∀ q ∈ (s.cl_alloc offs).lits, s.level q ≤ r.2 := by
      intro q hq
      obtain ⟨i, hi, rfl⟩ := hall q hq
      by_cases hi0 : i = 0
      · subst hi0; exact h3
      · exact h4 i (List.mem_range'_1.2 (by omega))
    by_cases hid : r.1 = 0
    · rw [if_neg (by simpa using hid)]
      refine ⟨_, s, 0, rfl, by omega, rfl, (swapAt_zero_zero _).symm, ?_, hmax,
        fun _ => rfl, fun h1 => absurd h1 (by omega)⟩
      rw [h2, hid]; rfl
    · rw [if_pos hid]
      have hrange : r.1 < (s.cl_alloc offs).lits.length := by
        rcases h1 with ⟨h1, _⟩ | ⟨h1, _⟩
        · exact absurd h1 hid
        · have := List.mem_range'_1.1 h1
          omega
      have hgt : (s.varData ((s.cl_alloc offs).lits.getD 0 lit_Undef).var).level < r.2 := by
        rcases h1 with ⟨h1, _⟩ | ⟨_, h1⟩
        · exact absurd h1 hid
        · exact h1
      obtain ⟨hs1, hca⟩ := find_conflict_level_swap_eq s offs r.1
      refine ⟨r.2, find_conflict_level_swap s offs r.1, r.1, rfl, hrange, ?_, ?_, h2, hmax,
        ?_, ?_⟩
      · have e : (find_conflict_level_swap s offs r.1).failBinLit = s.failBinLit := by
          unfold find_conflict_level_swap
          simp only
          split <;> rfl
        rw [e] at hs1
        exact hs1
      · rw [hca]
        simp [upd]
      · intro hle
        unfold find_conflict_level_swap
        simp only
        rw [if_neg (by omega)]
      · intro _
        refine ⟨rfl, ?_⟩
        simp only [Searcher.level]
        rw [← h2]
        exact hgt

/-- The hand-over of the watch in `find_conflict_level`, for `h > 1`: the old first literal
loses the watch of the clause, the new first literal `lits[h]` gains one with the blocker
`lits[1]`, and no other watch list changes. -/
theorem find_conflict_level_swap_watches (s : Searcher) (offs h : Nat) (hh : 1 < h)
    (hlt : h < (s.cl_alloc offs).lits.length)
    (hne : (s.cl_alloc offs).lits.getD 0 lit_Undef ≠ (s.cl_alloc offs).lits.getD h lit_Undef) :
    (find_conflict_level_swap s offs h).watches ((s.cl_alloc offs).lits.getD 0 lit_Undef)
        = removeWCl (s.watches ((s.cl_alloc offs).lits.getD 0 lit_Undef)) offs
      ∧ (find_conflict_level_swap s offs h).watches ((s.cl_alloc offs).lits.getD h lit_Undef)
        = s.watches ((s.cl_alloc offs).lits.getD h lit_Undef)
            ++ [Watched.long offs ((s.cl_alloc offs).lits.getD 1 lit_Undef)]
      ∧ ∀ l, l ≠ (s.cl_alloc offs).lits.getD 0 lit_Undef →
          l ≠ (s.cl_alloc offs).lits.getD h lit_Undef →
          (find_conflict_level_swap s offs h).watches l = s.watches l := by
  have e0 : (swapAt (s.cl_alloc offs).lits 0 h).getD 0 lit_Undef
      = (s.cl_alloc offs).lits.getD h lit_Undef := swapAt_getD_left _ _ _ (by omega)
  have eh : (swapAt (s.cl_alloc offs).lits 0 h).getD h lit_Undef
      = (s.cl_alloc offs).lits.getD 0 lit_Undef := swapAt_getD_right _ _ _ hlt
  have e1 : (swapAt (s.cl_alloc offs).lits 0 h).getD 1 lit_Undef
      = (s.cl_alloc offs).lits.getD 1 lit_Undef :=
    swapAt_getD_other _ _ _ _ (by omega) (by omega)
  unfold find_conflict_level_swap
  simp only [if_pos hh, e0, eh, e1]
  clear e0 eh e1
  generalize (s.cl_alloc offs).lits.getD 0 lit_Undef = c0 at hne ⊢
  generalize (s.cl_alloc offs).lits.getD h lit_Undef = ch at hne ⊢
  generalize (s.cl_alloc offs).lits.getD 1 lit_Undef = c1
  refine ⟨?_, ?_, ?_⟩
  · simp only [updW, if_neg hne, if_true]
  · simp only [updW, if_neg (Ne.symm hne), if_true]
  · intro l hl0 hlh
    simp only [updW, if_neg hl0, if_neg hlh]

end Searcher
end CMSat

namespace CMSat
namespace Searcher

/-! ## `new_decision`: the assumptions come first, in their order -/

theorem open_levels_eq (s : Searcher) :
    ∀ (k : Nat), open_levels s k
      = { s with trail_lim := s.trail_lim ++ List.replicate k s.trail.length }
  | 0 => by simp [open_levels]
  | k + 1 => by
    have ih := open_levels_eq (new_decision_level s) k
    simp only [open_levels]
    rw [ih]
    simp only [new_decision_level, List.append_assoc, List.singleton_append]
    have : s.trail.length :: List.replicate k s.trail.length
        = List.replicate (k + 1) s.trail.length := rfl
    rw [this]

theorem open_levels_succ (s : Searcher) (k : Nat) :
    open_levels s (k + 1) = new_decision_level (open_levels s k) := by
  rw [open_levels_eq, open_levels_eq]
  simp only [new_decision_level, List.append_assoc]
  have : List.replicate (k + 1) s.trail.length
      = List.replicate k s.trail.length ++ [s.trail.length] := by
    rw [List.replicate_succ']
  rw [this]

theorem open_levels_decisionLevel (s : Searcher) (k : Nat) :
    (open_levels s k).decisionLevel = s.decisionLevel + k := by
  rw [open_levels_eq]
  simp [Searcher.decisionLevel]

theorem heaps_only_refl (s : Searcher) : heaps_only s s := rfl

theorem heaps_only_trans {a b c : Searcher} (h1 : heaps_only a b) (h2 : heaps_only b c) :
    heaps_only a c := by
  unfold heaps_only at *
  rw [h2]
  conv => lhs; rw [h1]

theorem get_random_element_heaps (c : Collab) (s : Searcher) :
    heaps_only s (get_random_element c s).2 := by
  unfold get_random_element
  split <;> rfl

theorem pick_var_rand_heaps (c : Collab) :
    ∀ (fuel : Nat) (vs r : Nat × Searcher), pick_var_rand c fuel vs = some r →
      heaps_only vs.2 r.2
  | 0, _, _, h => by simp [pick_var_rand] at h
  | fuel + 1, (v, s), r, h => by
    unfold pick_var_rand at h
    split at h
    · exact heaps_only_trans (get_random_element_heaps c s) (pick_var_rand_heaps c fuel _ r h)
    · simp only [Option.some.injEq] at h
      rw [← h]
      exact heaps_only_refl s

theorem pickBranchLit_heaps (c : Collab) (s : Searcher) (r : Lit × Searcher)
    (h : pickBranchLit c s = some r) : heaps_only s r.2 := by
  unfold pickBranchLit at h
  simp only at h
  have hv : heaps_only s (pick_var_vsids_maple s).2 := by
    unfold pick_var_vsids_maple
    split <;> rfl
  have key : ∀ vs : Nat × Searcher, heaps_only s vs.2 →
      heaps_only s (if vs.1 ≠ var_Undef then
          (Lit.mkLit vs.1 (!c.pick_polarity vs.2 vs.1), vs.2)
        else (lit_Undef, vs.2)).2 := by
    intro vs hvs
    split <;> exact hvs
  cases hb : s.branch_strategy with
  | vsids =>
    rw [hb] at h
    simp only [Option.map_some', Option.some.injEq] at h
    rw [← h]
    exact key _ hv
  | maple =>
    rw [hb] at h
    simp only [Option.map_some', Option.some.injEq] at h
    rw [← h]
    exact key _ hv
  | rand =>
    rw [hb] at h
    simp only at h
    cases hp : pick_var_rand c (s.order_heap_rand.length + 1) (get_random_element c s) with
    | none => rw [hp] at h; simp at h
    | some vs =>
      rw [hp] at h
      simp only [Option.map_some', Option.some.injEq] at h
      rw [← h]
      exact key _ (heaps_only_trans (get_random_element_heaps c s)
        (pick_var_rand_heaps c _ _ vs hp))

theorem analyze_final_step_trail (s : Searcher) (e : Trail) :
    (analyze_final_step s e).trail = s.trail := by
  unfold analyze_final_step
  simp only
  split
  · cases (s.varData e.lit.var).reason <;> rfl
  · rfl

theorem analyze_final_foldl_trail :
    ∀ (es : List Trail) (t : Searcher), (es.foldl analyze_final_step t).trail = t.trail
  | [], _ => rfl
  | e :: es, t => by
    simp only [List.foldl_cons]
    rw [analyze_final_foldl_trail es, analyze_final_step_trail]

/-- The final conflict is computed without touching the trail. -/
theorem analyze_final_trail (s : Searcher) (p : Lit) (hperm : ∀ v, s.permDiff v ≤ s.MYFLAG)
    {s1 : Searcher} (h : analyze_final_confl_with_assumptions s p = some s1) :
    s1.trail = s.trail := by
  unfold analyze_final_confl_with_assumptions at h
  simp only at h
  split at h
  · simp only [Option.some.injEq] at h
    rw [← h]
  · split at h
    · simp only [Option.some.injEq] at h
      rw [← h]
    · have hsw : (analyze_final_sweep { s with conflict := [p] } p).trail = s.trail := by
        unfold analyze_final_sweep
        simp only
        rw [analyze_final_foldl_trail]
      have hpm : (analyze_final_sweep { s with conflict := [p] } p).permDiff = s.permDiff
          ∧ (analyze_final_sweep { s with conflict := [p] } p).MYFLAG = s.MYFLAG := by
        have key : ∀ (es : List Trail) (t : Searcher),
            (es.foldl analyze_final_step t).permDiff = t.permDiff
              ∧ (es.foldl analyze_final_step t).MYFLAG = t.MYFLAG := by
          intro es
          induction es with
          | nil => intro t; exact ⟨rfl, rfl⟩
          | cons e es ih =>
            intro t
            simp only [List.foldl_cons]
            obtain ⟨a, b⟩ := ih (analyze_final_step t e)
            have hstep : (analyze_final_step t e).permDiff = t.permDiff
                ∧ (analyze_final_step t e).MYFLAG = t.MYFLAG := by
              unfold analyze_final_step
              simp only
              split
              · cases (t.varData e.lit.var).reason <;> exact ⟨rfl, rfl⟩
              · exact ⟨rfl, rfl⟩
            exact ⟨a.trans hstep.1, b.trans hstep.2⟩
        unfold analyze_final_sweep
        simp only
        exact key _ _
      generalize analyze_final_sweep { s with conflict := [p] } p = s4 at h hsw hpm
      obtain ⟨s6, h6, hs6, _⟩ := minimize_using_bins_spec { s4 with learnt_clause := s4.conflict }
        (by
          intro v
          show s4.permDiff v ≤ s4.MYFLAG
          rw [hpm.1, hpm.2]
          exact hperm v)
      rw [h6] at h
      simp only [Option.map_some', Option.some.injEq] at h
      rw [← h]
      show s6.trail = s.trail
      rw [hs6]
      exact hsw

end Searcher
end CMSat

namespace CMSat
namespace Searcher

/-- The assumption loop of `new_decision`: it passes the assumptions that are True, `k` of them,
opening a level for each, and stops at the first one that is not, or when they are used up. -/
theorem new_decision_assumptions_order :
    ∀ (fuel : Nat) (s : Searcher), 0 < fuel → s.assumptions.length < fuel + s.decisionLevel →
      ∃ k, (∀ i < k, s.decisionLevel + i < s.assumptions.length
              ∧ s.value (s.assumptions.getD (s.decisionLevel + i) lit_Undef) = l_True)
        ∧ (s.decisionLevel + k < s.assumptions.length →
            s.value (s.assumptions.getD (s.decisionLevel + k) lit_Undef) ≠ l_True
            ∧ (s.value (s.assumptions.getD (s.decisionLevel + k) lit_Undef) = l_False →
                new_decision_assumptions fuel s
                  = (analyze_final_confl_with_assumptions (open_levels s k)
                      (s.assumptions.getD (s.decisionLevel + k) lit_Undef).neg).map
                      AssumptionStep.failed)
            ∧ (s.value (s.assumptions.getD (s.decisionLevel + k) lit_Undef) ≠ l_False →
                new_decision_assumptions fuel s
                  = some (.next (s.assumptions.getD (s.decisionLevel + k) lit_Undef)
                      (open_levels s k))))
        ∧ (s.assumptions.length ≤ s.decisionLevel + k →
            new_decision_assumptions fuel s = some (.next lit_Undef (open_levels s k)))
  | 0, _, h, _ => by omega
  | fuel + 1, s, _, hf => by
    unfold new_decision_assumptions
    by_cases hlt : s.decisionLevel < s.assumptions.length
    · rw [if_pos hlt]
      simp only
      by_cases ht : s.value (s.assumptions.getD s.decisionLevel lit_Undef) = l_True
      · rw [if_pos ht]
        have hd1 : (new_decision_level s).decisionLevel = s.decisionLevel + 1 := by
          simp [new_decision_level, Searcher.decisionLevel]
        obtain ⟨k, a, b, c⟩ := new_decision_assumptions_order fuel (new_decision_level s)
          (by omega) (by rw [hd1]; show s.assumptions.length < _; omega)
        have hA : (new_decision_level s).assumptions = s.assumptions := rfl
        have hV : ∀ l, (new_decision_level s).value l = s.value l := fun _ => rfl
        rw [hd1, hA] at a b c
        simp only [hV] at a b c
        have e : ∀ j, s.decisionLevel + 1 + j = s.decisionLevel + (j + 1) := by
          intro j; omega
        simp only [e] at a b c
        refine ⟨k + 1, ?_, ?_, ?_⟩
        · intro i hi
          cases i with
          | zero => exact ⟨by simpa using hlt, by simpa using ht⟩
          | succ j => exact a j (by omega)
        · exact b
        · exact c
      · rw [if_neg ht]
        refine ⟨0, fun i hi => absurd hi (by omega), fun _ => ⟨by simpa using ht, ?_, ?_⟩,
          fun h => absurd h (by omega)⟩
        · intro hfl
          simp only [Nat.add_zero] at hfl ⊢
          rw [if_pos hfl]
          rfl
        · intro hfl
          simp only [Nat.add_zero] at hfl ⊢
          rw [if_neg hfl]
          rfl
    · rw [if_neg hlt]
      refine ⟨0, fun i hi => absurd hi (by omega), fun h => absurd h (by omega), fun _ => rfl⟩

theorem lbool_undef_of_ne {v : lbool} (h1 : v ≠ l_True) (h2 : v ≠ l_False) : v = l_Undef := by
  cases v
  · exact absurd rfl h1
  · exact absurd rfl h2
  · rfl

/-- The decision of a new level on top of `k` empty levels: the trail grows by one literal. -/
theorem enqueue_decision_facts (s y : Searcher) (k : Nat) (p : Lit) (L : Nat)
    (ht : y.trail = s.trail)
    (hl : y.trail_lim = s.trail_lim ++ List.replicate k s.trail.length)
    (ha : y.assigns = s.assigns) :
    (enqueue (new_decision_level y) p L PropBy.null_clause_t).trail = s.trail ++ [⟨p, L⟩]
      ∧ (enqueue (new_decision_level y) p L PropBy.null_clause_t).trail_lim
          = s.trail_lim ++ List.replicate (k + 1) s.trail.length
      ∧ (enqueue (new_decision_level y) p L PropBy.null_clause_t).decisionLevel
          = s.decisionLevel + k + 1
      ∧ ((enqueue (new_decision_level y) p L PropBy.null_clause_t).varData p.var).level = L
      ∧ (enqueue (new_decision_level y) p L PropBy.null_clause_t).assigns
          = upd s.assigns p.var (if p.sign then l_False else l_True) := by
  have hrep : List.replicate (k + 1) s.trail.length
      = List.replicate k s.trail.length ++ [s.trail.length] := by
    rw [List.replicate_succ']
  refine ⟨?_, ?_, ?_, ?_, ?_⟩
  · show y.trail ++ [⟨p, L⟩] = _
    rw [ht]
  · show y.trail_lim ++ [y.trail.length] = _
    rw [hl, ht, hrep, List.append_assoc]
  · show (y.trail_lim ++ [y.trail.length]).length = _
    rw [hl]
    simp [Searcher.decisionLevel]
    omega
  · show (upd y.varData p.var ⟨L, PropBy.null_clause_t⟩ p.var).level = L
    simp [upd]
  · show upd y.assigns p.var _ = _
    rw [ha]

end Searcher
end CMSat

namespace CMSat
namespace Searcher

/-! ## What conflict analysis does to `toClear` and to the marks -/

theorem add_lit_to_learnt_toClear (s : Searcher) (lit : Lit) (d : Nat) :
    (add_lit_to_learnt s lit d).toClear = s.toClear := by
  unfold add_lit_to_learnt
  split
  · rfl
  · simp only
    split <;> rfl

theorem foldl_toClear {α : Type} (f : Searcher → α → Searcher)
    (hf : ∀ t x, (f t x).toClear = t.toClear) :
    ∀ (X : List α) (s : Searcher), (X.foldl f s).toClear = s.toClear
  | [], _ => rfl
  | x :: X, s => by
    simp only [List.foldl_cons]
    rw [foldl_toClear f hf X, hf]

theorem touch_antecedent_toClear (ub : Bool) (s : Searcher) (offset : Nat) :
    (touch_antecedent ub s offset).toClear = s.toClear := by
  obtain ⟨ca, h, _⟩ := touch_antecedent_eq ub s offset
  rw [h]

theorem add_literals_toClear (ub : Bool) (s : Searcher) (confl : PropBy) (p : Lit) (d : Nat)
    (s1 : Searcher) (h : add_literals_from_confl_to_learnt ub s confl p d = some s1) :
    s1.toClear = s.toClear := by
  unfold add_literals_from_confl_to_learnt at h
  cases confl with
  | null_clause_t => cases h
  | binary_t lit2 red =>
    simp only [Option.some.injEq] at h
    rw [← h, add_lit_to_learnt_toClear]
    split
    · exact add_lit_to_learnt_toClear _ _ _
    · rfl
  | clause_t offset =>
    simp only at h
    split at h
    · cases h
    · simp only [Option.some.injEq] at h
      rw [← h, foldl_toClear _ (fun t x => add_lit_to_learnt_toClear t x d)]
      split
      · rw [add_lit_to_learnt_toClear, touch_antecedent_toClear]
      · exact touch_antecedent_toClear _ _ _

theorem create_learnt_clause_loop_toClear (ub : Bool) (d : Nat) :
    ∀ (fuel : Nat) (s : Searcher) (confl : PropBy) (p : Lit) (index1 : Nat)
      (r : Searcher × Lit),
      create_learnt_clause_loop ub d fuel s confl p index1 = some r → r.1.toClear = s.toClear
  | 0, _, _, _, _, _, h => by simp [create_learnt_clause_loop] at h
  | fuel + 1, s, confl, p, index1, r, h => by
    unfold create_learnt_clause_loop at h
    split at h
    · cases h
    · rename_i s1 h1
      have e1 := add_literals_toClear ub s confl p d s1 h1
      split at h
      · cases h
      · simp only at h
        split at h
        · cases h
        · split at h
          · have := create_learnt_clause_loop_toClear ub d fuel _ _ _ _ r h
            rw [this]; exact e1
          · simp only [Option.some.injEq] at h
            rw [← h]; exact e1

theorem create_learnt_clause_toClear (ub : Bool) (s : Searcher) (confl : PropBy) (s1 : Searcher)
    (h : create_learnt_clause ub s confl = some s1) : s1.toClear = s.toClear := by
  unfold create_learnt_clause at h
  split at h
  · cases h
  · simp only at h
    split at h
    · cases h
    · rename_i s2 p hl
      simp only [Option.some.injEq] at h
      rw [← h]
      exact create_learnt_clause_loop_toClear ub _ _ _ _ _ _ _ hl

theorem minimize_using_bins_mark_toClear (s : Searcher) :
    ∀ (ws : List Watched) (nb : Nat) (t : Searcher),
      (minimize_using_bins_mark s ws nb t).2.toClear = t.toClear
  | [], _, _ => rfl
  | .long _ _ :: _, _, _ => rfl
  | .bin imp _ :: ws, nb, t => by
    unfold minimize_using_bins_mark
    split
    · rw [minimize_using_bins_mark_toClear s ws]
    · exact minimize_using_bins_mark_toClear s ws nb t

theorem minimize_using_bins_toClear (s s1 : Searcher) (h : minimize_using_bins s = some s1) :
    s1.toClear = s.toClear := by
  unfold minimize_using_bins at h
  split at h
  · simp only at h
    have e := minimize_using_bins_mark_toClear { s with MYFLAG := s.MYFLAG + 1 }
      (s.watches (s.learnt_clause.getD 0 lit_Undef).neg) 0 { s with MYFLAG := s.MYFLAG + 1 }
    split at h
    · split at h
      · cases h
      · split at h
        · cases h
        · simp only [Option.some.injEq] at h
          rw [← h]; exact e
    · simp only [Option.some.injEq] at h
      rw [← h]; exact e
  · simp only [Option.some.injEq] at h
    rw [← h]

theorem find_backtrack_level_of_learnt_toClear (s : Searcher) :
    (find_backtrack_level_of_learnt s).2.toClear = s.toClear := by
  unfold find_backtrack_level_of_learnt
  split <;> rfl

theorem minimize_using_bins_mark_seen (s : Searcher) :
    ∀ (ws : List Watched) (nb : Nat) (t : Searcher),
      (minimize_using_bins_mark s ws nb t).2.seen = t.seen
  | [], _, _ => rfl
  | .long _ _ :: _, _, _ => rfl
  | .bin imp _ :: ws, nb, t => by
    unfold minimize_using_bins_mark
    split
    · rw [minimize_using_bins_mark_seen s ws]
    · exact minimize_using_bins_mark_seen s ws nb t

theorem minimize_using_bins_seen (s s1 : Searcher) (h : minimize_using_bins s = some s1) :
    s1.seen = s.seen := by
  unfold minimize_using_bins at h
  split at h
  · simp only at h
    have e := minimize_using_bins_mark_seen { s with MYFLAG := s.MYFLAG + 1 }
      (s.watches (s.learnt_clause.getD 0 lit_Undef).neg) 0 { s with MYFLAG := s.MYFLAG + 1 }
    split at h
    · split at h
      · cases h
      · split at h
        · cases h
        · simp only [Option.some.injEq] at h
          rw [← h]; exact e
    · simp only [Option.some.injEq] at h
      rw [← h]; exact e
  · simp only [Option.some.injEq] at h
    rw [← h]

theorem find_backtrack_level_of_learnt_seen (s : Searcher) :
    (find_backtrack_level_of_learnt s).2.seen = s.seen := by
  unfold find_backtrack_level_of_learnt
  split <;> rfl

end Searcher
end CMSat

namespace CMSat
namespace Searcher

/-! ## The marks are cleared again by the end of `analyze_conflict` -/

theorem clear_seen_vars_listed (seen : Nat → Bool) (ls : List Lit)
    (h : ∀ v, seen v = true → ∃ x ∈ ls, x.var = v) (v : Nat) :
    clear_seen_vars seen ls v = false := by
  rw [clear_seen_vars_apply]
  split
  · rfl
  · rename_i hn
    cases hs : seen v with
    | false => rfl
    | true => exact absurd (h v hs) hn

/-- Whatever `litRedundant` returns, the marked variables stay listed in `toClear`. -/
theorem litRedundant_listed (s : Searcher) (p : Lit) (al : Nat) (b : Bool) (s1 : Searcher)
    (h : litRedundant s p al = some (b, s1))
    (hI : ∀ v, s.seen v = true → ∃ x ∈ s.toClear, x.var = v) :
    ∀ v, s1.seen v = true → ∃ x ∈ s1.toClear, x.var = v := by
  unfold litRedundant at h
  have hm : lr_marks s.seen s.toClear s [] :=
    ⟨by simp, fun v => by simp, fun x hx => by simp at hx⟩
  obtain ⟨a1, a2⟩ := litRedundant_loop_effect al s.seen s.toClear _ [p] s [] b s1 hm
    (by simp) h
  cases b with
  | false =>
    obtain ⟨e1, e2⟩ := a1 rfl
    rw [e1, e2]
    exact hI
  | true =>
    obtain ⟨new1, m, _⟩ := a2 rfl
    intro v hv
    rw [m.toClear]
    rcases (m.seen v).1 hv with c | ⟨x, hx, hxv⟩
    · obtain ⟨x, hx, hxv⟩ := hI v c
      exact ⟨x, List.mem_append_left _ hx, hxv⟩
    · exact ⟨x, List.mem_append_right _ hx, hxv⟩

theorem recursiveConfClauseMin_loop_listed (al : Nat) :
    ∀ (rest : List Lit) (s : Searcher) (r : List Lit × Searcher),
      recursiveConfClauseMin_loop al rest s = some r →
      (∀ v, s.seen v = true → ∃ x ∈ s.toClear, x.var = v) →
      ∀ v, r.2.seen v = true → ∃ x ∈ r.2.toClear, x.var = v
  | [], s, r, h, hI => by
    simp only [recursiveConfClauseMin_loop, Option.some.injEq] at h
    rw [← h]
    exact hI
  | l :: rest, s, r, h, hI => by
    unfold recursiveConfClauseMin_loop at h
    split at h
    · split at h
      · cases h
      · rename_i kept s1 hl
        simp only [Option.some.injEq] at h
        rw [← h]
        exact recursiveConfClauseMin_loop_listed al rest s (kept, s1) hl hI
    · split at h
      · cases h
      · rename_i red s1 hl
        have e1 := litRedundant_listed s l al red s1 hl hI
        split at h
        · cases h
        · rename_i kept s2 hl2
          simp only [Option.some.injEq] at h
          rw [← h]
          exact recursiveConfClauseMin_loop_listed al rest s1 (kept, s2) hl2 e1

/-- After `minimize_learnt_clause` no mark is left and `toClear` is empty, when the marks at the
call stand on variables of the learnt clause only. -/
theorem minimize_learnt_clause_clean (s s1 : Searcher) (h : minimize_learnt_clause s = some s1)
    (hI : ∀ v, s.seen v = true → ∃ x ∈ s.learnt_clause, x.var = v) :
    (∀ v, s1.seen v = false) ∧ s1.toClear = [] := by
  unfold minimize_learnt_clause at h
  simp only at h
  split at h
  · cases h
  · rename_i s2 hm
    simp only [Option.some.injEq] at h
    rw [← h]
    refine ⟨?_, rfl⟩
    show ∀ v, clear_seen_vars s2.seen s2.toClear v = false
    apply clear_seen_vars_listed
    split at hm
    · unfold recursiveConfClauseMin at hm
      split at hm
      · rename_i hnil
        simp only [Option.some.injEq] at hm
        rw [← hm]
        exact hI
      · simp only at hm
        split at hm
        · cases hm
        · rename_i kept s3 hl
          simp only [Option.some.injEq] at hm
          rw [← hm]
          exact recursiveConfClauseMin_loop_listed _ _ _ _ hl hI
    · unfold normalClMinim at hm
      split at hm
      · simp only [Option.some.injEq] at hm
        rw [← hm]
        exact hI
      · split at hm
        · cases hm
        · simp only [Option.some.injEq] at hm
          rw [← hm]
          exact hI

theorem maple_mark_listed (s : Searcher) (l : Lit)
    (hI : ∀ v, s.seen v = true → ∃ x ∈ s.toClear, x.var = v) :
    ∀ v, (maple_mark s l).seen v = true → ∃ x ∈ (maple_mark s l).toClear, x.var = v := by
  unfold maple_mark
  split
  · intro v hv
    show ∃ x ∈ s.toClear ++ [l], x.var = v
    have hv1 : upd s.seen l.var true v = true := hv
    by_cases e : v = l.var
    · exact ⟨l, List.mem_append_right _ (List.mem_singleton_self _), e.symm⟩
    · rw [upd_other _ _ _ _ e] at hv1
      obtain ⟨x, hx, hxv⟩ := hI v hv1
      exact ⟨x, List.mem_append_left _ hx, hxv⟩
  · exact hI

theorem foldl_listed {α : Type} (f : Searcher → α → Searcher)
    (hf : ∀ t x, (∀ v, t.seen v = true → ∃ y ∈ t.toClear, y.var = v) →
      ∀ v, (f t x).seen v = true → ∃ y ∈ (f t x).toClear, y.var = v) :
    ∀ (X : List α) (s : Searcher), (∀ v, s.seen v = true → ∃ y ∈ s.toClear, y.var = v) →
      ∀ v, (X.foldl f s).seen v = true → ∃ y ∈ (X.foldl f s).toClear, y.var = v
  | [], _, h => h
  | x :: X, s, h => by
    simp only [List.foldl_cons]
    exact foldl_listed f hf X (f s x) (hf s x h)

/-- The Maple bump of `analyze_conflict` leaves no mark and an empty `toClear`, when it starts
without marks. -/
theorem analyze_conflict_maple_clean (s : Searcher) (hseen : ∀ v, s.seen v = false) :
    (∀ v, (analyze_conflict_maple s).seen v = false) ∧ (analyze_conflict_maple s).toClear = [] := by
  unfold analyze_conflict_maple
  simp only [and_true]
  apply clear_seen_vars_listed
  apply foldl_listed
  · intro t li hI
    split
    · exact foldl_listed _ maple_mark_listed _ _ hI
    · exact maple_mark_listed _ _ (maple_mark_listed _ _ hI)
    · exact hI
  · intro v hv
    have hv1 : upd s.seen (s.learnt_clause.getD 0 lit_Undef).var true v = true := hv
    show ∃ x ∈ s.toClear ++ [s.learnt_clause.getD 0 lit_Undef], x.var = v
    by_cases e : v = (s.learnt_clause.getD 0 lit_Undef).var
    · exact ⟨_, List.mem_append_right _ (List.mem_singleton_self _), e.symm⟩
    · rw [upd_other _ _ _ _ e, hseen] at hv1
      cases hv1

end Searcher
end CMSat

namespace CMSat
namespace Searcher

/-! ## `minimise_redundant_more_more`: what is removed, and the marks left -/

theorem Lit.toInt_inj {a b : Lit} (h : a.toInt = b.toInt) : a = b := by
  cases a; cases b
  simp only [Lit.toInt] at h
  rw [h]

theorem more_more_filter_mem :
    ∀ (L : List Lit) (seen : Nat → Bool) (x : Lit),
      x ∈ (minimise_redundant_more_more_filter L seen).1 ↔ x ∈ L ∧ seen x.toInt = true
  | [], _, _ => by simp [minimise_redundant_more_more_filter]
  | l :: ls, seen, x => by
    unfold minimise_redundant_more_more_filter
    simp only
    have ih := more_more_filter_mem ls (upd seen l.toInt false) x
    by_cases hxl : x = l
    · subst hxl
      have hno : ¬ x ∈ (minimise_redundant_more_more_filter ls (upd seen x.toInt false)).1 := by
        rw [ih]
        simp [upd]
      cases hs : seen x.toInt with
      | true => simp
      | false => simp [hno]
    · have hne : x.toInt ≠ l.toInt := fun e => hxl (Lit.toInt_inj e)
      have hu : upd seen l.toInt false x.toInt = seen x.toInt := upd_other _ _ _ _ hne
      rw [hu] at ih
      split
      · simp only [List.mem_cons, hxl, false_or]
        exact ih
      · simp only [List.mem_cons, hxl, false_or]
        exact ih

theorem more_more_filter_marks :
    ∀ (L : List Lit) (seen : Nat → Bool) (i : Nat),
      (minimise_redundant_more_more_filter L seen).2 i = true
        ↔ seen i = true ∧ ∀ l ∈ L, l.toInt ≠ i
  | [], _, _ => by simp [minimise_redundant_more_more_filter]
  | l :: ls, seen, i => by
    unfold minimise_redundant_more_more_filter
    simp only
    rw [more_more_filter_marks ls (upd seen l.toInt false) i]
    by_cases e : i = l.toInt
    · subst e
      simp [upd]
    · have hu : upd seen l.toInt false i = seen i := upd_other _ _ _ _ e
      rw [hu]
      simp only [List.mem_cons, forall_eq_or_imp]
      constructor
      · rintro ⟨a, b⟩
        exact ⟨a, fun h => e h.symm, b⟩
      · rintro ⟨a, _, b⟩
        exact ⟨a, b⟩

theorem foldl_mark_true :
    ∀ (cl : List Lit) (seen : Nat → Bool) (i : Nat),
      (cl.foldl (fun sn l => upd sn l.toInt true) seen) i = true
        ↔ seen i = true ∨ ∃ l ∈ cl, l.toInt = i
  | [], _, _ => by simp
  | l :: ls, seen, i => by
    simp only [List.foldl_cons]
    rw [foldl_mark_true ls]
    by_cases e : i = l.toInt
    · subst e
      simp [upd]
    · have hu : upd seen l.toInt true i = seen i := upd_other _ _ _ _ e
      rw [hu]
      simp only [List.mem_cons, exists_eq_or_imp]
      constructor
      · rintro (a | a)
        · exact Or.inl a
        · exact Or.inr (Or.inr a)
      · rintro (a | a | a)
        · exact Or.inl a
        · exact absurd a.symm e
        · exact Or.inr a

/-- The scan of one watch list in `binary_based_morem_minim`, for a marked literal `l` of the
clause: the invariant is kept, and `l` stays marked when its binary watches are proper. -/
theorem binary_based_morem_minim_ws_inv (W : Lit → List Watched) (cl : List Lit)
    (seen1 : Nat → Bool) (l : Lit) (hl : l ∈ cl) :
    ∀ (ws : List Watched) (sn : Nat → Bool) (limit : Int), (∀ w ∈ ws, w ∈ W l) →
      ((∀ lit2 red, Watched.bin lit2 red ∈ W l → lit2 ≠ l.neg) → sn l.toInt = true) →
      morem_inv W cl seen1 sn →
      morem_inv W cl seen1 (binary_based_morem_minim_ws ws sn limit).1
  | [], sn, limit, _, hm, hinv => by
    simp only [binary_based_morem_minim_ws]
    exact hinv
  | w :: ws, sn, limit, hws, hm, hinv => by
    unfold binary_based_morem_minim_ws
    split
    · cases w with
      | long o b => exact hinv
      | bin lit2 red =>
        simp only
        have hw : Watched.bin lit2 red ∈ W l := hws _ (List.mem_cons_self _ _)
        have hnei : (∀ lit2 red, Watched.bin lit2 red ∈ W l → lit2 ≠ l.neg) →
            l.toInt ≠ lit2.neg.toInt := by
          intro hbin e
          apply hbin lit2 red hw
          rw [Lit.toInt_inj e, Lit.neg_neg]
        apply binary_based_morem_minim_ws_inv W cl seen1 l hl ws _ _
          (fun w hw => hws w (List.mem_cons_of_mem _ hw))
        · intro hbin
          split
          · rw [upd_other _ _ _ _ (hnei hbin)]; exact hm hbin
          · exact hm hbin
        · split
          · rename_i hs
            refine ⟨?_, ?_, ?_⟩
            · intro i hi
              by_cases e : i = lit2.neg.toInt
              · rw [e, upd_same] at hi; cases hi
              · rw [upd_other _ _ _ _ e] at hi
                exact hinv.only_cleared i hi
            · intro r hr hrs
              by_cases e : r.toInt = lit2.neg.toInt
              · exact ⟨l, hl, lit2, red, hw, Lit.toInt_inj e⟩
              · rw [upd_other _ _ _ _ e] at hrs
                exact hinv.justified r hr hrs
            · intro M hM hx
              have hbin : ∀ lit2 red, Watched.bin lit2 red ∈ W l → lit2 ≠ l.neg :=
                fun a b hab => (hM l hl a b hab).1
              obtain ⟨y, hy, hys, hyM⟩ := hinv.entailed M hM hx
              by_cases e : y.toInt = lit2.neg.toInt
              · have hy2 : y = lit2.neg := Lit.toInt_inj e
                refine ⟨l, hl, by rw [upd_other _ _ _ _ (hnei hbin)]; exact hm hbin, ?_⟩
                obtain ⟨z, hz, hzM⟩ := (hM l hl lit2 red hw).2
                simp only [List.mem_cons, List.mem_singleton, List.not_mem_nil, or_false] at hz
                rcases hz with rfl | rfl
                · exact hzM
                · rw [hy2, lit_true_neg, hzM] at hyM
                  cases hyM
              · exact ⟨y, hy, by rw [upd_other _ _ _ _ e]; exact hys, hyM⟩
          · exact hinv
    · exact hinv

/-- The loop of `binary_based_morem_minim` over literals of the clause keeps the invariant. -/
theorem binary_based_morem_minim_fold_inv (W : Lit → List Watched) (cl : List Lit)
    (seen1 : Nat → Bool) :
    ∀ (ls : List Lit) (st : (Nat → Bool) × Int), (∀ l ∈ ls, l ∈ cl) →
      morem_inv W cl seen1 st.1 →
      morem_inv W cl seen1 (ls.foldl
        (fun (st : (Nat → Bool) × Int) lit =>
          if st.1 lit.toInt = false then st
          else binary_based_morem_minim_ws (W lit) st.1 st.2) st).1
  | [], _, _, h => h
  | l :: ls, st, hls, h => by
    simp only [List.foldl_cons]
    apply binary_based_morem_minim_fold_inv W cl seen1 ls _
      (fun x hx => hls x (List.mem_cons_of_mem _ hx))
    split
    · exact h
    · rename_i hm
      have hm1 : st.1 l.toInt = true := by
        cases hs : st.1 l.toInt with
        | true => rfl
        | false => exact absurd hs hm
      exact binary_based_morem_minim_ws_inv W cl seen1 l (hls l (List.mem_cons_self _ _))
        (W l) st.1 st.2 (fun _ hw => hw) (fun _ => hm1) h

theorem binary_based_morem_minim_ws_clears :
    ∀ (ws : List Watched) (sn : Nat → Bool) (limit : Int) (i : Nat),
      (binary_based_morem_minim_ws ws sn limit).1 i = true → sn i = true
  | [], _, _, _, h => by simpa [binary_based_morem_minim_ws] using h
  | w :: ws, sn, limit, i, h => by
    unfold binary_based_morem_minim_ws at h
    split at h
    · cases w with
      | long o b => exact h
      | bin lit2 red =>
        simp only at h
        have := binary_based_morem_minim_ws_clears ws _ _ i h
        split at this
        · by_cases e : i = lit2.neg.toInt
          · rw [e, upd_same] at this; cases this
          · rw [upd_other _ _ _ _ e] at this
            exact this
        · exact this
    · exact h

/-- On any state `binary_based_morem_minim` only clears marks. -/
theorem binary_based_morem_minim_clears (s : Searcher) (cl : List Lit) (i : Nat)
    (h : binary_based_morem_minim s cl i = true) : s.seen i = true := by
  unfold binary_based_morem_minim at h
  have key : ∀ (ls : List Lit) (st : (Nat → Bool) × Int),
      (ls.foldl (fun (st : (Nat → Bool) × Int) lit =>
          if st.1 lit.toInt = false then st
          else binary_based_morem_minim_ws (s.watches lit) st.1 st.2) st).1 i = true →
      st.1 i = true := by
    intro ls
    induction ls with
    | nil => intro st h; exact h
    | cons l ls ih =>
      intro st h
      simp only [List.foldl_cons] at h
      have := ih _ h
      split at this
      · exact this
      · exact binary_based_morem_minim_ws_clears _ _ _ i this
  exact key _ _ h

/-- What `minimise_redundant_more_more` does to the marks on any state: no literal of the clause
is marked afterwards, no other mark is set, `toClear` is not touched. -/
theorem minimise_redundant_more_more_marks (s s1 : Searcher)
    (h : minimise_redundant_more_more s = some s1) :
    (∀ l ∈ s.learnt_clause, s1.seen l.toInt = false)
      ∧ (∀ i, s1.seen i = true → s.seen i = true) ∧ s1.toClear = s.toClear := by
  unfold minimise_redundant_more_more at h
  split at h
  · cases h
  · rename_i l0 rest hL
    simp only [Option.some.injEq] at h
    have hs1 : s1.seen = (minimise_redundant_more_more_filter (l0 :: rest)
        (upd (binary_based_morem_minim
          { s with seen := (l0 :: rest).foldl (fun sn l => upd sn l.toInt true) s.seen }
          (l0 :: rest)) l0.toInt true)).2 := by rw [← h]
    have htc : s1.toClear = s.toClear := by rw [← h]
    rw [hL, hs1]
    refine ⟨?_, ?_, htc⟩
    · intro l hl
      cases hs : (minimise_redundant_more_more_filter (l0 :: rest)
        (upd (binary_based_morem_minim
          { s with seen := (l0 :: rest).foldl (fun sn l => upd sn l.toInt true) s.seen }
          (l0 :: rest)) l0.toInt true)).2 l.toInt with
      | false => rfl
      | true =>
        have := ((more_more_filter_marks (l0 :: rest) _ _).1 hs).2 l hl
        exact absurd rfl this
    · intro i hi
      obtain ⟨h3, hno⟩ := (more_more_filter_marks (l0 :: rest) _ _).1 hi
      have hne : i ≠ l0.toInt := fun e => hno l0 (List.mem_cons_self _ _) e.symm
      rw [upd_other _ _ _ _ hne] at h3
      have h1 := binary_based_morem_minim_clears _ _ _ h3
      rcases (foldl_mark_true _ _ _).1 h1 with a | ⟨l, hl, hli⟩
      · exact a
      · exact absurd hli (hno l hl)

end Searcher
end CMSat

namespace CMSat
namespace Searcher

theorem ite_some_cases {c : Prop} [Decidable c] (f : Option Searcher) (s3 s4 : Searcher)
    (h : (if c then f else some s3) = some s4) : f = some s4 ∨ s4 = s3 := by
  split at h
  · exact Or.inl h
  · simp only [Option.some.injEq] at h
    exact Or.inr h.symm

/-- Whenever `analyze_conflict` returns, it returns without marks and with an empty `toClear`,
provided `create_learnt_clause` leaves marks on variables of the learnt clause only. -/
theorem analyze_conflict_marks (ub : Bool) (s : Searcher) (confl : PropBy)
    (r : Searcher × Nat × Nat) (h : analyze_conflict ub s confl = some r)
    (hcl : ∀ s1, create_learnt_clause ub { s with learnt_clause := [] } confl = some s1 →
      ∀ v, s1.seen v = true → ∃ x ∈ s1.learnt_clause, x.var = v) :
    (∀ v, r.1.seen v = false) ∧ r.1.toClear = [] := by
  unfold analyze_conflict at h
  simp only at h
  split at h
  · cases h
  · rename_i s1 h1
    split at h
    · cases h
    · rename_i s2 h2
      obtain ⟨c2, t2⟩ := minimize_learnt_clause_clean s1 s2 h2 (hcl s1 h1)
      split at h
      · cases h
      · rename_i s3 glue1 h3
        have e3 : s3.seen = s2.seen ∧ s3.toClear = s2.toClear := by
          split at h3
          · split at h3
            · cases hb : minimize_using_bins s2 with
              | none => rw [hb] at h3; cases h3
              | some t =>
                rw [hb] at h3
                simp only [Option.map_some', Option.some.injEq, Prod.mk.injEq] at h3
                rw [← h3.1]
                exact ⟨minimize_using_bins_seen s2 t hb, minimize_using_bins_toClear s2 t hb⟩
            · simp only [Option.some.injEq, Prod.mk.injEq] at h3
              rw [← h3.1]; exact ⟨rfl, rfl⟩
          · simp only [Option.some.injEq, Prod.mk.injEq] at h3
            rw [← h3.1]; exact ⟨rfl, rfl⟩
        have c3 : ∀ v, s3.seen v = false := by rw [e3.1]; exact c2
        have t3 : s3.toClear = [] := by rw [e3.2]; exact t2
        split at h
        · cases h
        · rename_i s4 h4
          have c4 : (∀ v, s4.seen v = false) ∧ s4.toClear = [] := by
            rcases ite_some_cases _ s3 s4 h4 with h5 | h5
            · obtain ⟨_, a, b⟩ := minimise_redundant_more_more_marks s3 s4 h5
              refine ⟨fun v => ?_, by rw [b]; exact t3⟩
              cases hs : s4.seen v with
              | false => rfl
              | true =>
                have := a v hs
                rw [c3 v] at this
                cases this
            · rw [h5]; exact ⟨c3, t3⟩
          have e5 := find_backtrack_level_of_learnt_seen s4
          have f5 := find_backtrack_level_of_learnt_toClear s4
          cases hfb : find_backtrack_level_of_learnt s4 with
          | mk out s5 =>
            rw [hfb] at h e5 f5
            simp only at e5 f5
            simp only [Option.some.injEq] at h
            rw [← h]
            simp only
            have c5 : ∀ v, s5.seen v = false := by rw [e5]; exact c4.1
            split
            · exact analyze_conflict_maple_clean s5 c5
            · exact ⟨c5, by rw [f5]; exact c4.2⟩

/-- The resolution loop of `create_learnt_clause` on a conflict of level `d > 0` of a
well-formed trail, started without marks: it returns within `trail.size() + 1` rounds. -/
theorem create_learnt_clause_loop_start (ub : Bool) {s : Searcher} {confl : PropBy} {d : Nat}
    (h0 : trail_ok s) (hc : is_conflict_at s confl d) (hseen : ∀ v, s.seen v = false)
    (hl : s.learnt_clause = []) :
    ∃ s2 p, create_learnt_clause_loop ub d (s.trail.length + 1)
        { s with pathC := 0, learnt_clause := s.learnt_clause ++ [lit_Undef] } confl lit_Undef
        s.trail.length = some (s2, p)
      ∧ cl_post s d (premises0 s confl) s2 p
      ∧ create_learnt_clause ub s confl
          = some { s2 with learnt_clause := s2.learnt_clause.set 0 p.neg } := by
  obtain ⟨⟨hne, hfalse⟩, hd, hlev0, hlevs⟩ := hc
  obtain ⟨hlit0, hadd⟩ := confl_lit0_eq hne
  set s1 : Searcher := { s with pathC := 0, learnt_clause := s.learnt_clause ++ [lit_Undef] }
    with hs1
  have hinv : cl_inv s d s1 s.trail.length := by
    refine ⟨⟨rfl, fun _ => rfl⟩, ?_, ?_, ?_, ?_, ?_⟩
    · show (s.learnt_clause ++ [lit_Undef]).head? = _
      rw [hl]; rfl
    · intro q hq
      change q ∈ (s.learnt_clause ++ [lit_Undef]).tail at hq
      rw [hl] at hq
      simp at hq
    · intro v hv
      change s.seen v = true at hv
      rw [hseen v] at hv
      exact absurd hv (by simp)
    · show 0 = _
      symm
      apply List.countP_eq_zero.2
      intro t _
      show ¬ pend s.seen d t = true
      simp [pend, hseen]
    · intro t _ hst
      change s.seen t.lit.var = true at hst
      rw [hseen] at hst
      exact absurd hst (by simp)
  have hadd1 : lits_to_add s1 confl lit_Undef = some (confl_lits s confl) := by
    rw [← hadd]
    cases confl <;> rfl
  have hX : ∀ x ∈ confl_lits s confl,
      (∃ t ∈ s.trail.take s.trail.length, t.lit = x.neg) ∧ s.level x ≤ d := by
    intro x hx
    rw [List.take_length]
    exact ⟨hfalse x hx, hlevs x hx⟩
  have hhead : (confl_lits s confl).headD lit_Undef ∈ confl_lits s confl := by
    cases hcl : confl_lits s confl with
    | nil => exact absurd hcl hne
    | cons a l => simp
  obtain ⟨s2, p, hloop, hpost⟩ := create_learnt_clause_loop_spec ub h0 hd (premises0 s confl)
    (fun M hM => hM.2) (fun M hM => hM.1.2) (s.trail.length + 1) s1 confl lit_Undef
    s.trail.length (confl_lits s confl) (by omega) (le_refl _) hinv hadd1 hX
    (Or.inr ⟨_, hhead, by rw [hlev0], by rw [hlev0]; exact hd⟩)
    (fun M hM => Or.inr hM.1.1)
  refine ⟨s2, p, hloop, hpost, ?_⟩
  unfold create_learnt_clause
  rw [hlit0]
  simp only
  have hd1 : (s.varData ((confl_lits s confl).headD lit_Undef).var).level = d := hlev0
  rw [hd1]
  have : create_learnt_clause_loop ub d (s1.trail.length + 1) s1 confl lit_Undef s1.trail.length
      = some (s2, p) := hloop
  rw [this]

/-- The inner loops of `create_learnt_clause` run below index 0 exactly when no entry below the
start is marked and of the conflict level; otherwise they stop at such an entry. -/
theorem select_next_implication_none (s : Searcher) (nDL : Nat) :
    ∀ (k : Nat), k ≤ s.trail.length →
      ((select_next_implication s nDL k = none ↔
          ∀ i < k, ∀ e, s.trail[i]? = some e → ¬ (s.seen e.lit.var = true ∧ nDL ≤ e.lev))
        ∧ ∀ n, select_next_implication s nDL k = some n →
            n < k ∧ ∃ e, s.trail[n]? = some e ∧ s.seen e.lit.var = true ∧ nDL ≤ e.lev)
  | 0, _ => by
    simp [select_next_implication]
  | k + 1, hk => by
    have hk1 : k < s.trail.length := hk
    have hget : s.trail[k]? = some s.trail[k] := List.getElem?_eq_getElem hk1
    obtain ⟨ih1, ih2⟩ := select_next_implication_none s nDL k (by omega)
    unfold select_next_implication
    rw [hget]
    simp only
    by_cases hs : s.seen s.trail[k].lit.var = true
    · have h1 : (!s.seen s.trail[k].lit.var) = false := by simp [hs]
      rw [h1]
      simp only [Bool.false_eq_true, if_false]
      by_cases hlev : s.trail[k].lev < nDL
      · rw [if_pos hlev]
        refine ⟨?_, ?_⟩
        · rw [ih1]
          constructor
          · intro h i hi e he
            by_cases hik : i = k
            · subst hik
              rw [hget] at he
              simp only [Option.some.injEq] at he
              rw [← he]
              intro hc
              omega
            · exact h i (by omega) e he
          · intro h i hi e he
            exact h i (by omega) e he
        · intro n hn
          obtain ⟨a, b⟩ := ih2 n hn
          exact ⟨by omega, b⟩
      · rw [if_neg hlev]
        refine ⟨?_, ?_⟩
        · constructor
          · intro h; cases h
          · intro h
            exact absurd ⟨hs, by omega⟩ (h k (by omega) _ hget)
        · intro n hn
          simp only [Option.some.injEq] at hn
          subst hn
          exact ⟨by omega, _, hget, hs, by omega⟩
    · have h1 : (!s.seen s.trail[k].lit.var) = true := by simp [hs]
      rw [h1]
      simp only [if_true]
      refine ⟨?_, ?_⟩
      · rw [ih1]
        constructor
        · intro h i hi e he
          by_cases hik : i = k
          · subst hik
            rw [hget] at he
            simp only [Option.some.injEq] at he
            rw [← he]
            intro hc
            exact hs hc.1
          · exact h i (by omega) e he
        · intro h i hi e he
          exact h i (by omega) e he
      · intro n hn
        obtain ⟨a, b⟩ := ih2 n hn
        exact ⟨by omega, b⟩

end Searcher
end CMSat

namespace CMSat
namespace Searcher

/-! ## The decision-based clause of `handle_conflict` -/

theorem build_decision_clause_mem (s : Searcher) :
    ∀ (lims : List Nat) (t t1 : Searcher), build_decision_clause s lims t = some t1 →
      (∀ l, t.seen l.toInt = true → l ∈ t.decision_clause) →
      (∀ l ∈ t.decision_clause, l ∈ t1.decision_clause)
        ∧ (∀ lim ∈ lims, ∀ e, s.trail[lim]? = some e → e.lit.neg ∈ t1.decision_clause)
        ∧ (∀ l ∈ t1.decision_clause, l ∈ t.decision_clause
            ∨ ∃ lim ∈ lims, ∃ e, s.trail[lim]? = some e ∧ l = e.lit.neg)
  | [], t, t1, h, _ => by
    simp only [build_decision_clause, Option.some.injEq] at h
    subst h
    exact ⟨fun l hl => hl, fun lim hlim => absurd hlim (List.not_mem_nil _),
      fun l hl => Or.inl hl⟩
  | lim :: lims, t, t1, h, hinv => by
    unfold build_decision_clause at h
    cases he : s.trail[lim]? with
    | none => rw [he] at h; cases h
    | some e =>
      rw [he] at h
      simp only at h
      by_cases hs : t.seen e.lit.neg.toInt = true
      · rw [if_neg (by rw [hs]; decide)] at h
        obtain ⟨a, b, c⟩ := build_decision_clause_mem s lims t t1 h hinv
        refine ⟨a, ?_, ?_⟩
        · intro lim1 hl1 e1 he1
          rcases List.mem_cons.1 hl1 with heq | hl1
          · rw [heq, he] at he1
            cases he1
            exact a _ (hinv _ hs)
          · exact b lim1 hl1 e1 he1
        · intro l hl
          rcases c l hl with h1 | ⟨lim1, hl1, e1, he1, hle⟩
          · exact Or.inl h1
          · exact Or.inr ⟨lim1, List.mem_cons_of_mem _ hl1, e1, he1, hle⟩
      · have hs0 : t.seen e.lit.neg.toInt = false := by
          cases hx : t.seen e.lit.neg.toInt with
          | true => exact absurd hx hs
          | false => rfl
        rw [if_pos (by rw [hs0]; decide)] at h
        obtain ⟨a, b, c⟩ := build_decision_clause_mem s lims _ t1 h (by
          intro l hl
          show l ∈ t.decision_clause ++ [e.lit.neg]
          have hl1 : upd t.seen e.lit.neg.toInt true l.toInt = true := hl
          simp only [upd] at hl1
          by_cases hleq : l.toInt = e.lit.neg.toInt
          · rw [Lit.toInt_inj hleq]
            exact List.mem_append_right _ (List.mem_singleton_self _)
          · rw [if_neg hleq] at hl1
            exact List.mem_append_left _ (hinv l hl1))
        have a1 : ∀ l ∈ t.decision_clause ++ [e.lit.neg], l ∈ t1.decision_clause := a
        refine ⟨fun l hl => a1 l (List.mem_append_left _ hl), ?_, ?_⟩
        · intro lim1 hl1 e1 he1
          rcases List.mem_cons.1 hl1 with heq | hl1
          · rw [heq, he] at he1
            cases he1
            exact a1 _ (List.mem_append_right _ (List.mem_singleton_self _))
          · exact b lim1 hl1 e1 he1
        · intro l hl
          rcases c l hl with h1 | ⟨lim1, hl1, e1, he1, hle⟩
          · have h2 : l ∈ t.decision_clause ++ [e.lit.neg] := h1
            rcases List.mem_append.1 h2 with h3 | h3
            · exact Or.inl h3
            · exact Or.inr ⟨lim, List.mem_cons_self _ _, e, he,
                List.mem_singleton.1 h3⟩
          · exact Or.inr ⟨lim1, List.mem_cons_of_mem _ hl1, e1, he1, hle⟩

/-- The decision-based clause that `handle_conflict` collects on a state without marks: when it
is not empty it consists of the negated first literals of the decision levels. -/
theorem collect_decision_clause_mem (s s4 : Searcher) (h : collect_decision_clause s = some s4)
    (hseen : ∀ v, s.seen v = false) (hne : s4.decision_clause ≠ []) :
    (∀ lim ∈ s.trail_lim, ∀ e, s.trail[lim]? = some e → e.lit.neg ∈ s4.decision_clause)
      ∧ (∀ l ∈ s4.decision_clause, ∃ lim ∈ s.trail_lim, ∃ e, s.trail[lim]? = some e
          ∧ l = e.lit.neg) := by
  unfold collect_decision_clause at h
  simp only at h
  split at h
  · cases hb : build_decision_clause { s with decision_clause := [] } s.trail_lim.reverse
        { s with decision_clause := [] } with
    | none => rw [hb] at h; cases h
    | some t =>
      rw [hb] at h
      simp only [Option.map_some', Option.some.injEq] at h
      have hd : s4.decision_clause = t.decision_clause := by rw [← h]
      obtain ⟨_, b, c⟩ := build_decision_clause_mem _ _ _ _ hb (by
        intro l hl
        have : s.seen l.toInt = true := hl
        rw [hseen] at this
        cases this)
      rw [hd]
      refine ⟨fun lim hl e he => b lim (List.mem_reverse.2 hl) e he, ?_⟩
      intro l hl
      rcases c l hl with h1 | ⟨lim, hlim, e, he, hle⟩
      · exact absurd h1 (List.not_mem_nil _)
      · exact ⟨lim, List.mem_reverse.1 hlim, e, he, hle⟩
  · simp only [Option.some.injEq] at h
    exact absurd (by rw [← h]) hne

/-- The backward scan over `decision_clause`: it passes index 0 exactly when no literal below its
start is True or unassigned, and otherwise stops at the last such literal. -/
theorem decision_clause_scan_spec (s : Searcher) : ∀ n : Nat,
    (decision_clause_scan s n = none ↔
        ∀ i < n, ¬ (s.value (s.decision_clause.getD i lit_Undef) = l_True
          ∨ s.value (s.decision_clause.getD i lit_Undef) = l_Undef))
      ∧ ∀ i, decision_clause_scan s n = some i →
          i < n ∧ (s.value (s.decision_clause.getD i lit_Undef) = l_True
            ∨ s.value (s.decision_clause.getD i lit_Undef) = l_Undef)
  | 0 => by
    refine ⟨⟨fun _ i hi => absurd hi (Nat.not_lt_zero _), fun _ => rfl⟩, ?_⟩
    intro i h
    simp only [decision_clause_scan] at h
    cases h
  | n + 1 => by
    obtain ⟨ih1, ih2⟩ := decision_clause_scan_spec s n
    unfold decision_clause_scan
    by_cases hv : s.value (s.decision_clause.getD n lit_Undef) = l_True
        ∨ s.value (s.decision_clause.getD n lit_Undef) = l_Undef
    · rw [if_pos hv]
      refine ⟨Iff.intro (fun h => by cases h) (fun h => absurd hv (h n (Nat.lt_succ_self _))), ?_⟩
      intro i hi
      simp only [Option.some.injEq] at hi
      rw [← hi]
      exact ⟨Nat.lt_succ_self _, hv⟩
    · rw [if_neg hv]
      refine ⟨⟨?_, ?_⟩, ?_⟩
      · intro h i hi
        rcases Nat.lt_succ_iff_lt_or_eq.1 hi with h1 | h1
        · exact ih1.1 h i h1
        · rw [h1]; exact hv
      · intro h
        exact ih1.2 (fun i hi => h i (Nat.lt_succ_of_lt hi))
      · intro i hi
        obtain ⟨a, b⟩ := ih2 i hi
        exact ⟨Nat.lt_succ_of_lt a, b⟩

theorem decision_clause_scan_finds (s : Searcher) (l : Lit) (hl : l ∈ s.decision_clause)
    (hv : s.value l = l_True ∨ s.value l = l_Undef) :
    ∃ i, decision_clause_scan s s.decision_clause.length = some i
      ∧ i < s.decision_clause.length
      ∧ (s.value (s.decision_clause.getD i lit_Undef) = l_True
          ∨ s.value (s.decision_clause.getD i lit_Undef) = l_Undef) := by
  obtain ⟨h1, h2⟩ := decision_clause_scan_spec s s.decision_clause.length
  cases hsc : decision_clause_scan s s.decision_clause.length with
  | none =>
    obtain ⟨n, hn, hnl⟩ := List.getElem_of_mem hl
    have := h1.1 hsc n hn
    rw [List.getD_eq_getElem _ _ hn, hnl] at this
    exact absurd hv this
  | some i =>
    obtain ⟨a, b⟩ := h2 i hsc
    exact ⟨i, rfl, a, b⟩

theorem handle_last_confl_assigns (s : Searcher) (glue : Nat) (is_decision : Bool) :
    (handle_last_confl s glue is_decision).2.assigns = s.assigns := by
  unfold handle_last_confl
  by_cases h : s.learnt_clause.length ≤ 2
  · rw [if_pos h]
  · rw [if_neg h]
    rfl

theorem attach_and_enqueue_assigns (s : Searcher) (cl : Option Nat) (level : Nat)
    (l0 : Lit) (rest : List Lit) (hL : s.learnt_clause = l0 :: rest) (s1 : Searcher)
    (h : attach_and_enqueue_learnt_clause s cl level true = some s1) :
    s1.assigns = upd s.assigns l0.var (if l0.sign then l_False else l_True) := by
  unfold attach_and_enqueue_learnt_clause at h
  rw [hL] at h
  cases rest with
  | nil =>
    simp only [if_true, Option.some.injEq] at h
    rw [← h]; rfl
  | cons l1 r =>
    cases r with
    | nil =>
      simp only [if_true, Option.some.injEq] at h
      rw [← h]; rfl
    | cons l2 r =>
      simp only at h
      cases cl with
      | none => cases h
      | some offset =>
        simp only [if_true, Option.some.injEq] at h
        rw [← h]; rfl

/-- The literal that has just been enqueued is True. -/
theorem value_upd_self (s : Searcher) (a : Nat → lbool) (l0 : Lit)
    (ha : s.assigns = upd a l0.var (if l0.sign then l_False else l_True)) :
    s.value l0 = l_True := by
  simp only [Searcher.value, ha, upd, if_true]
  cases l0.sign <;> rfl

theorem value_upd_other (s : Searcher) (a : Nat → lbool) (l0 l : Lit) (x : lbool)
    (ha : s.assigns = upd a l0.var x) (hne : l.var ≠ l0.var) :
    s.value l = (a l.var).xor l.sign := by
  simp only [Searcher.value, ha, upd, if_neg hne]

/-- The marks after `analyze_conflict` on a conflict of a well-formed trail. -/
theorem analyze_conflict_unmarked (ub : Bool) {s : Searcher} {confl : PropBy} {d : Nat}
    (h0 : trail_ok s) (hc : is_conflict_at s confl d) (hseen : ∀ v, s.seen v = false)
    (r : Searcher × Nat × Nat) (h : analyze_conflict ub s confl = some r) :
    ∀ v, r.1.seen v = false := by
  refine (analyze_conflict_marks ub s confl r h ?_).1
  intro t ht v hv
  obtain ⟨t1, p, rest, hcl, _, _, hL, _, _, hs, _, _⟩ :=
    @create_learnt_clause_result ub { s with learnt_clause := [] } confl d h0 hc
      hseen rfl
  rw [hcl] at ht
  simp only [Option.some.injEq] at ht
  subst ht
  obtain ⟨q, hq, hqv⟩ := hs v hv
  exact ⟨q, by rw [hL]; exact List.mem_cons_of_mem _ hq, hqv⟩

end Searcher
end CMSat

namespace CMSat
namespace Searcher

/-! ## The decision-based clause after the backtrack -/

/-- After the backtrack of `handle_conflict` on a trail whose levels start with a literal of
their own, a non-empty decision-based clause holds an unassigned literal, which is the first
literal of the learnt clause if it is over the same variable. -/
theorem handle_conflict_backtrack_rooted {s : Searcher} {confl : PropBy}
    (h : conflict_state s confl) (hroot : levels_rooted s) :
    ∃ o l0 rest, handle_conflict_backtrack s confl = some (.inr o)
      ∧ o.st.learnt_clause = l0 :: rest
      ∧ (o.st.decision_clause ≠ [] →
          ∃ l ∈ o.st.decision_clause, o.st.value l = l_Undef ∧ (l.var = l0.var → l = l0)) := by
  obtain ⟨h0, hc, ⟨qpos, hqm, hqpos⟩, hseen, hperm, hlim⟩ := note_conflict_ok h
  obtain ⟨nH, confl1, s1, hfc, hcf⟩ := find_conflict_level_spec h0 hc
  have hs1 := hcf.same
  have hvd1 : s1.varData = (note_conflict s).varData := by
    have := congrArg Searcher.varData hs1; exact this
  have hseen1 : ∀ v, s1.seen v = false := by
    have := congrArg Searcher.seen hs1
    intro v; rw [this]; exact hseen v
  have hperm1 : ∀ v, s1.permDiff v ≤ s1.MYFLAG := by
    have e1 := congrArg Searcher.permDiff hs1
    have e2 := congrArg Searcher.MYFLAG hs1
    intro v; rw [e1, e2]; exact hperm v
  have htr1 : s1.trail = s.trail := by
    have := congrArg Searcher.trail hs1; exact this
  have htl1 : s1.trail_lim = s.trail_lim := by
    have := congrArg Searcher.trail_lim hs1; exact this
  have has1 : s1.assigns = s.assigns := by
    have := congrArg Searcher.assigns hs1; exact this
  have hlev1 : ∀ q, s1.level q = s.level q := by
    intro q; simp only [Searcher.level, hvd1]; rfl
  have hqpos1 : 0 < s.level qpos := hqpos
  have hnH : 0 < nH := by
    have := hcf.max qpos (hcf.perm.symm.subset hqm)
    rw [hlev1] at this
    omega
  have hmaxs : ∀ q ∈ confl_lits s confl, s.level q ≤ nH := by
    intro q hq
    have := hcf.max q (hcf.perm.symm.subset hq)
    rw [hlev1] at this
    exact this
  have hexs : ∃ q ∈ confl_lits s confl, s.level q = nH := by
    have hne := hcf.still.1
    cases hL : confl_lits s1 confl1 with
    | nil => exact absurd hL hne
    | cons a L =>
      have hh := hcf.head
      rw [hL] at hh
      simp only [List.headD_cons] at hh
      refine ⟨a, hcf.perm.subset (by rw [hL]; simp), ?_⟩
      rw [← hlev1]; exact hh
  have hcat : is_conflict_at s1 confl1 nH := ⟨hcf.still, hnH, hcf.head, hcf.max⟩
  obtain ⟨s2, β, glue, han, hand⟩ := analyze_conflict_spec false hcf.ok hcat hseen1 hperm1
  obtain ⟨p, rest, hL2, ⟨tp, htp, htpl, htplev⟩, hrest, hβ0, hβ1⟩ := hand.shape
  have hf2 := hand.frame
  have htr2 : s2.trail = s.trail := hf2.trail.trans htr1
  have htl2 : s2.trail_lim = s.trail_lim := hf2.trail_lim.trans htl1
  obtain ⟨s4, hdc, hcore4⟩ := collect_decision_clause_spec
    { s2 with glueHist := s2.glueHist ++ [glue] }
    (by show ∀ lim ∈ s2.trail_lim, lim < s2.trail.length
        rw [htr2, htl2]; exact hlim)
  have htr4 : s4.trail = s.trail := by
    have := congrArg Searcher.trail hcore4; exact this.trans htr2
  have htl4 : s4.trail_lim = s.trail_lim := by
    have := congrArg Searcher.trail_lim hcore4; exact this.trans htl2
  have hvd4 : s4.varData = s1.varData := by
    have := congrArg Searcher.varData hcore4; exact this.trans hf2.varData
  have has4 : s4.assigns = s1.assigns := by
    have := congrArg Searcher.assigns hcore4; exact this.trans hf2.assigns
  have hL4 : s4.learnt_clause = p.neg :: rest := by
    have := congrArg Searcher.learnt_clause hcore4; exact this.trans hL2
  have hca4 : ∀ o, (s4.cl_alloc o).lits = (s1.cl_alloc o).lits := by
    intro o
    have := congrArg Searcher.cl_alloc hcore4
    simp only [decision_core] at this
    rw [this]
    exact hf2.2 o
  have h04 : trail_ok s4 := trail_ok_congr hcf.ok (htr4.trans htr1.symm) hvd4 has4
    (htl4.trans htl1.symm) (fun _ _ o _ => hca4 o)
  have hdl : nH ≤ s4.decisionLevel := by
    have := (hcf.ok.entry htp).2.2.2
    simp only [Searcher.decisionLevel, htl4, htl1] at this ⊢
    omega
  have hβlt : β < nH := by
    cases hr : rest with
    | nil => rw [hβ0 hr]; exact hnH
    | cons q0 r =>
      rw [(hβ1 q0 r hr).1]
      exact (hrest q0 (by rw [hr]; simp)).2.1
  obtain ⟨b, hbt, hβb, hbd⟩ := backtrack_after_conflict_spec s4 hnH hβlt
  have hbdl : b < s4.decisionLevel := by omega
  have hcore5 := cancelUntil_core s4 b
  have hL5 : (cancelUntil s4 b).learnt_clause = p.neg :: rest := by
    have := congrArg Searcher.learnt_clause hcore5; exact this.trans hL4
  have hvd5 : (cancelUntil s4 b).varData = s4.varData := by
    have := congrArg Searcher.varData hcore5; exact this
  have htp4 : tp ∈ s4.trail := by rw [htr4, ← htr1]; exact htp
  have hm2 : ∀ v, s2.seen v = false :=
    analyze_conflict_unmarked false hcf.ok hcat hseen1 (s2, β, glue) han
  have hdc5 : (cancelUntil s4 b).decision_clause = s4.decision_clause := by
    have := congrArg Searcher.decision_clause hcore5; exact this
  refine ⟨⟨backtrack_after_conflict s4 nH β, nH, β, glue, s2.decisionLevel⟩, p.neg, rest,
    ?_, ?_, ?_⟩
  · unfold handle_conflict_backtrack
    rw [hfc]
    simp only
    rw [if_neg (by omega), han]
    simp only
    rw [update_history_stats, if_pos (by
      simp only [Searcher.decisionLevel, htl4, htl2] at hdl ⊢; omega)]
    simp only
    rw [hdc]
    rfl
  · show (backtrack_after_conflict s4 nH β).learnt_clause = _
    rw [hbt]; exact hL5
  · intro hne
    have hne4 : s4.decision_clause ≠ [] := by
      have h1 : (backtrack_after_conflict s4 nH β).decision_clause ≠ [] := hne
      rw [hbt, hdc5] at h1
      exact h1
    obtain ⟨hmem, _⟩ := collect_decision_clause_mem _ s4 hdc hm2 hne4
    -- the first literal of the conflict level
    obtain ⟨q, hq, hql⟩ := hexs
    obtain ⟨t, ht, htq⟩ := hc.2 q hq
    have htlev : t.lev = nH := by
      have := h0.level_of_false ht htq
      exact this.symm.trans hql
    have hroot1 := hroot t ht (by omega)
    rw [htlev] at hroot1
    have hlt : nH - 1 < s.trail_lim.length := by
      have h1 : t.lev ≤ s.trail_lim.length := (h0.entry ht).2.2.2
      omega
    cases he : s.trail[s.trail_lim.getD (nH - 1) 0]? with
    | none => rw [he] at hroot1; cases hroot1
    | some e =>
      rw [he] at hroot1
      simp only [Option.map_some', Option.some.injEq] at hroot1
      have hlimm : s.trail_lim.getD (nH - 1) 0 ∈ s.trail_lim := by
        rw [List.getD_eq_getElem _ _ hlt]
        exact List.getElem_mem hlt
      have hes : e ∈ s.trail := List.mem_iff_getElem?.2 ⟨_, he⟩
      have he4 : e ∈ s4.trail := by rw [htr4]; exact hes
      have hin : e.lit.neg ∈ s4.decision_clause :=
        hmem (s.trail_lim.getD (nH - 1) 0)
          (by show s.trail_lim.getD (nH - 1) 0 ∈ s2.trail_lim
              rw [htl2]; exact hlimm) e
          (by show s2.trail[s.trail_lim.getD (nH - 1) 0]? = some e
              rw [htr2]; exact he)
      refine ⟨e.lit.neg, ?_, ?_, ?_⟩
      · show e.lit.neg ∈ (backtrack_after_conflict s4 nH β).decision_clause
        rw [hbt, hdc5]; exact hin
      · show (backtrack_after_conflict s4 nH β).value e.lit.neg = l_Undef
        rw [hbt]
        have := (cancelUntil_assigns h04 hbdl he4).2 (by omega)
        simp only [Searcher.value, Lit.var_neg]
        rw [this]
        cases e.lit.neg.sign <;> rfl
      · intro hv
        rw [Lit.var_neg, Lit.var_neg, ← htpl] at hv
        have htps : tp ∈ s.trail := by rw [← htr1]; exact htp
        have := h0.same_var hes htps hv
        rw [this, htpl]

/-- The hypothesis on the starts of the levels cannot be dropped: on the well-formed trail of
`ex_unrooted` the decision-based clause is `(¬x2 ∨ ¬x1)`, both literals are False after the
backtrack to level 1, the scan passes index 0 and `handle_conflict` has no result. -/
theorem handle_conflict_unrooted_no_result :
    trail_ok ex_unrooted ∧ is_conflict ex_unrooted (.binary_t ⟨5⟩ false)
      ∧ ¬ levels_rooted ex_unrooted
      ∧ (handle_conflict_backtrack ex_unrooted (.binary_t ⟨5⟩ false)).map
          (fun r => r.elim (fun _ => ([], []))
            (fun o => (o.st.decision_clause, o.st.learnt_clause)))
          = some ([⟨5⟩, ⟨3⟩], [⟨7⟩, ⟨5⟩])
      ∧ handle_conflict ex_unrooted (.binary_t ⟨5⟩ false) = none := by
  refine ⟨by decide, by decide, by decide, by decide!, ?_⟩
  have h : (handle_conflict ex_unrooted (.binary_t ⟨5⟩ false)).isNone = true := by decide!
  exact Option.isNone_iff_eq_none.1 h

end Searcher
end CMSat

namespace CMSat
namespace Searcher

/-! ## `handle_conflict` with the decision-based clauses on -/

/-- On a conflict above level 0 of a trail whose levels start with a literal of their own,
`handle_conflict` returns true, whether or not a decision-based clause is built. -/
theorem handle_conflict_returns_rooted {s : Searcher} {confl : PropBy}
    (h : conflict_state s confl) (hroot : levels_rooted s) :
    ∃ s1, handle_conflict s confl = some (true, s1) := by
  obtain ⟨o, l0, rest, h1, hL, hdec⟩ := handle_conflict_backtrack_rooted h hroot
  obtain ⟨f1, f2, f3⟩ := handle_last_confl_facts o.st (min o.glue uint32_max) false
  have fa := handle_last_confl_assigns o.st (min o.glue uint32_max) false
  obtain ⟨s6, h6, h6d⟩ := attach_and_enqueue_total
    (handle_last_confl o.st (min o.glue uint32_max) false).2
    (handle_last_confl o.st (min o.glue uint32_max) false).1 o.backtrack_level true
    (by rw [f1, hL]; simp) (by rw [f1]; exact f3)
  have ha6 := attach_and_enqueue_assigns _ _ _ l0 rest (f1.trans hL) s6 h6
  rw [fa] at ha6
  have hd6 : s6.decision_clause = o.st.decision_clause := h6d.trans f2
  have hscan : 0 < s6.decision_clause.length →
      ∃ i, decision_clause_scan s6 s6.decision_clause.length = some i
        ∧ i < s6.decision_clause.length
        ∧ (s6.value (s6.decision_clause.getD i lit_Undef) = l_True
            ∨ s6.value (s6.decision_clause.getD i lit_Undef) = l_Undef) := by
    intro hpos
    have hne : o.st.decision_clause ≠ [] := by
      rw [← hd6]
      exact List.ne_nil_of_length_pos hpos
    obtain ⟨l, hl, hlu, hlv⟩ := hdec hne
    apply decision_clause_scan_finds s6 l (by rw [hd6]; exact hl)
    by_cases hv : l.var = l0.var
    · left
      rw [hlv hv]
      exact value_upd_self s6 _ l0 ha6
    · right
      rw [value_upd_other s6 _ l0 l _ ha6 hv]
      exact hlu
  have hadd : ∃ s7, add_decision_clause s6 o.backtrack_level = some s7 := by
    unfold add_decision_clause
    by_cases hpos : s6.decision_clause.length > 0
    · rw [if_pos hpos]
      obtain ⟨i, hi, _, _⟩ := hscan hpos
      rw [hi]
      simp only
      obtain ⟨g1, _, g3⟩ := handle_last_confl_facts
        { s6 with decision_clause := swapAt s6.decision_clause 0 i,
                  learnt_clause := swapAt s6.decision_clause 0 i }
        (swapAt s6.decision_clause 0 i).length true
      have hlen : 0 < (swapAt s6.decision_clause 0 i).length := by
        rw [swapAt_length]; exact hpos
      obtain ⟨s7, h7, _⟩ := attach_and_enqueue_total _ _ o.backtrack_level false
        (by rw [g1]; exact List.ne_nil_of_length_pos hlen) (by rw [g1]; exact g3)
      exact ⟨s7, h7⟩
    · rw [if_neg hpos]
      exact ⟨s6, rfl⟩
  obtain ⟨s7, h7⟩ := hadd
  refine ⟨s7, ?_⟩
  unfold handle_conflict
  rw [h1]
  simp only
  rw [h6]
  simp only
  rw [h7]
  rfl

end Searcher
end CMSat

namespace CMSat
namespace Searcher

/-! ## Conflict analysis never writes the trail -/

theorem add_lit_to_learnt_trail (s : Searcher) (lit : Lit) (d : Nat) :
    (add_lit_to_learnt s lit d).trail = s.trail := by
  unfold add_lit_to_learnt
  split
  · rfl
  · simp only
    split <;> rfl

theorem foldl_trail {α : Type} (f : Searcher → α → Searcher)
    (hf : ∀ t x, (f t x).trail = t.trail) :
    ∀ (X : List α) (s : Searcher), (X.foldl f s).trail = s.trail
  | [], _ => rfl
  | x :: X, s => by
    simp only [List.foldl_cons]
    rw [foldl_trail f hf X, hf]

theorem touch_antecedent_trail (ub : Bool) (s : Searcher) (offset : Nat) :
    (touch_antecedent ub s offset).trail = s.trail := by
  obtain ⟨ca, h, _⟩ := touch_antecedent_eq ub s offset
  rw [h]

theorem add_literals_trail (ub : Bool) (s : Searcher) (confl : PropBy) (p : Lit) (d : Nat)
    (s1 : Searcher) (h : add_literals_from_confl_to_learnt ub s confl p d = some s1) :
    s1.trail = s.trail := by
  unfold add_literals_from_confl_to_learnt at h
  cases confl with
  | null_clause_t => cases h
  | binary_t lit2 red =>
    simp only [Option.some.injEq] at h
    rw [← h, add_lit_to_learnt_trail]
    split
    · exact add_lit_to_learnt_trail _ _ _
    · rfl
  | clause_t offset =>
    simp only at h
    split at h
    · cases h
    · simp only [Option.some.injEq] at h
      rw [← h, foldl_trail _ (fun t x => add_lit_to_learnt_trail t x d)]
      split
      · rw [add_lit_to_learnt_trail, touch_antecedent_trail]
      · exact touch_antecedent_trail _ _ _

theorem create_learnt_clause_loop_trail (ub : Bool) (d : Nat) :
    ∀ (fuel : Nat) (s : Searcher) (confl : PropBy) (p : Lit) (index1 : Nat)
      (r : Searcher × Lit),
      create_learnt_clause_loop ub d fuel s confl p index1 = some r → r.1.trail = s.trail
  | 0, _, _, _, _, _, h => by simp [create_learnt_clause_loop] at h
  | fuel + 1, s, confl, p, index1, r, h => by
    unfold create_learnt_clause_loop at h
    split at h
    · cases h
    · rename_i s1 h1
      have e1 := add_literals_trail ub s confl p d s1 h1
      split at h
      · cases h
      · simp only at h
        split at h
        · cases h
        · split at h
          · have := create_learnt_clause_loop_trail ub d fuel _ _ _ _ r h
            rw [this]; exact e1
          · simp only [Option.some.injEq] at h
            rw [← h]; exact e1

theorem create_learnt_clause_trail (ub : Bool) (s : Searcher) (confl : PropBy) (s1 : Searcher)
    (h : create_learnt_clause ub s confl = some s1) : s1.trail = s.trail := by
  unfold create_learnt_clause at h
  split at h
  · cases h
  · simp only at h
    split at h
    · cases h
    · rename_i s2 p hl
      simp only [Option.some.injEq] at h
      rw [← h]
      exact create_learnt_clause_loop_trail ub _ _ _ _ _ _ _ hl

theorem litRedundant_lits_trail (al top : Nat) :
    ∀ (lits stack : List Lit) (s : Searcher),
      (litRedundant_lits al top lits stack s).2.2.trail = s.trail
  | [], _, _ => rfl
  | p2 :: rest, stack, s => by
    unfold litRedundant_lits
    split
    · split
      · rw [litRedundant_lits_trail al top rest]
      · rfl
    · exact litRedundant_lits_trail al top rest stack s

theorem litRedundant_loop_trail (al top : Nat) :
    ∀ (fuel : Nat) (stack : List Lit) (s : Searcher) (r : Bool × Searcher),
      litRedundant_loop al top fuel stack s = some r → r.2.trail = s.trail
  | 0, _, _, _, h => by simp [litRedundant_loop] at h
  | _ + 1, [], s, r, h => by
    simp only [litRedundant_loop, Option.some.injEq] at h
    rw [← h]
  | fuel + 1, q :: stack, s, r, h => by
    unfold litRedundant_loop at h
    split at h
    · cases h
    · rename_i lits _
      have e := litRedundant_lits_trail al top lits stack s
      split at h
      · rename_i st1 s1 hl
        simp only [Option.some.injEq] at h
        rw [← h]
        rw [hl] at e
        exact e
      · rename_i st1 s1 hl
        rw [hl] at e
        have := litRedundant_loop_trail al top fuel st1 s1 r h
        rw [this]; exact e

theorem litRedundant_trail (s : Searcher) (p : Lit) (al : Nat) (r : Bool × Searcher)
    (h : litRedundant s p al = some r) : r.2.trail = s.trail :=
  litRedundant_loop_trail al _ _ _ _ r h

theorem recursiveConfClauseMin_loop_trail (al : Nat) :
    ∀ (rest : List Lit) (s : Searcher) (r : List Lit × Searcher),
      recursiveConfClauseMin_loop al rest s = some r → r.2.trail = s.trail
  | [], s, r, h => by
    simp only [recursiveConfClauseMin_loop, Option.some.injEq] at h
    rw [← h]
  | l :: rest, s, r, h => by
    unfold recursiveConfClauseMin_loop at h
    split at h
    · split at h
      · cases h
      · rename_i kept s1 hl
        simp only [Option.some.injEq] at h
        rw [← h]
        exact recursiveConfClauseMin_loop_trail al rest s (kept, s1) hl
    · split at h
      · cases h
      · rename_i red s1 hl
        have e1 := litRedundant_trail s l al _ hl
        split at h
        · cases h
        · rename_i kept s2 hl2
          simp only [Option.some.injEq] at h
          rw [← h]
          have := recursiveConfClauseMin_loop_trail al rest s1 (kept, s2) hl2
          exact this.trans e1

theorem minimize_learnt_clause_trail (s s1 : Searcher) (h : minimize_learnt_clause s = some s1) :
    s1.trail = s.trail := by
  unfold minimize_learnt_clause at h
  simp only at h
  split at h
  · cases h
  · rename_i s2 hm
    simp only [Option.some.injEq] at h
    rw [← h]
    show s2.trail = s.trail
    split at hm
    · unfold recursiveConfClauseMin at hm
      split at hm
      · simp only [Option.some.injEq] at hm
        rw [← hm]
      · simp only at hm
        split at hm
        · cases hm
        · rename_i kept s3 hl
          simp only [Option.some.injEq] at hm
          rw [← hm]
          exact recursiveConfClauseMin_loop_trail _ _ _ _ hl
    · unfold normalClMinim at hm
      split at hm
      · simp only [Option.some.injEq] at hm
        rw [← hm]
      · split at hm
        · cases hm
        · simp only [Option.some.injEq] at hm
          rw [← hm]

theorem minimize_using_bins_mark_trail (s : Searcher) :
    ∀ (ws : List Watched) (nb : Nat) (t : Searcher),
      (minimize_using_bins_mark s ws nb t).2.trail = t.trail
  | [], _, _ => rfl
  | .long _ _ :: _, _, _ => rfl
  | .bin imp _ :: ws, nb, t => by
    unfold minimize_using_bins_mark
    split
    · rw [minimize_using_bins_mark_trail s ws]
    · exact minimize_using_bins_mark_trail s ws nb t

theorem minimize_using_bins_trail (s s1 : Searcher) (h : minimize_using_bins s = some s1) :
    s1.trail = s.trail := by
  unfold minimize_using_bins at h
  split at h
  · simp only at h
    have e := minimize_using_bins_mark_trail { s with MYFLAG := s.MYFLAG + 1 }
      (s.watches (s.learnt_clause.getD 0 lit_Undef).neg) 0 { s with MYFLAG := s.MYFLAG + 1 }
    split at h
    · split at h
      · cases h
      · split at h
        · cases h
        · simp only [Option.some.injEq] at h
          rw [← h]; exact e
    · simp only [Option.some.injEq] at h
      rw [← h]; exact e
  · simp only [Option.some.injEq] at h
    rw [← h]

theorem minimise_redundant_more_more_trail (s s1 : Searcher)
    (h : minimise_redundant_more_more s = some s1) : s1.trail = s.trail := by
  unfold minimise_redundant_more_more at h
  split at h
  · cases h
  · simp only [Option.some.injEq] at h
    rw [← h]

theorem find_backtrack_level_of_learnt_trail (s : Searcher) :
    (find_backtrack_level_of_learnt s).2.trail = s.trail := by
  unfold find_backtrack_level_of_learnt
  split <;> rfl

theorem maple_mark_trail (s : Searcher) (l : Lit) : (maple_mark s l).trail = s.trail := by
  unfold maple_mark
  split <;> rfl

theorem analyze_conflict_maple_trail (s : Searcher) : (analyze_conflict_maple s).trail = s.trail := by
  unfold analyze_conflict_maple
  simp only
  rw [foldl_trail]
  intro t li
  split
  · exact foldl_trail _ maple_mark_trail _ _
  · rw [maple_mark_trail, maple_mark_trail]
  · rfl

theorem ite_some_trail {c : Prop} [Decidable c] (f : Option Searcher) (s3 s4 : Searcher)
    (h : (if c then f else some s3) = some s4) (hf : ∀ t, f = some t → t.trail = s3.trail) :
    s4.trail = s3.trail := by
  split at h
  · exact hf s4 h
  · simp only [Option.some.injEq] at h
    rw [← h]

theorem analyze_conflict_trail (ub : Bool) (s : Searcher) (confl : PropBy)
    (r : Searcher × Nat × Nat) (h : analyze_conflict ub s confl = some r) : r.1.trail = s.trail := by
  unfold analyze_conflict at h
  simp only at h
  split at h
  · cases h
  · rename_i s1 h1
    have e1 : s1.trail = s.trail :=
      create_learnt_clause_trail ub { s with learnt_clause := [] } confl s1 h1
    split at h
    · cases h
    · rename_i s2 h2
      have e2 : s2.trail = s.trail := (minimize_learnt_clause_trail s1 s2 h2).trans e1
      split at h
      · cases h
      · rename_i s3 glue1 h3
        have e3 : s3.trail = s.trail := by
          split at h3
          · split at h3
            · cases hb : minimize_using_bins s2 with
              | none => rw [hb] at h3; cases h3
              | some t =>
                rw [hb] at h3
                simp only [Option.map_some', Option.some.injEq, Prod.mk.injEq] at h3
                rw [← h3.1]
                exact (minimize_using_bins_trail s2 t hb).trans e2
            · simp only [Option.some.injEq, Prod.mk.injEq] at h3
              rw [← h3.1]; exact e2
          · simp only [Option.some.injEq, Prod.mk.injEq] at h3
            rw [← h3.1]; exact e2
        split at h
        · cases h
        · rename_i s4 h4
          have e4 : s4.trail = s.trail :=
            (ite_some_trail _ s3 s4 h4 (minimise_redundant_more_more_trail s3)).trans e3
          have e5 := find_backtrack_level_of_learnt_trail s4
          cases hfb : find_backtrack_level_of_learnt s4 with
          | mk out s5 =>
            rw [hfb] at h e5
            simp only [Option.some.injEq] at h
            rw [← h]
            simp only
            split
            · rw [analyze_conflict_maple_trail]; exact e5.trans e4
            · exact e5.trans e4

theorem find_conflict_level_trail (s : Searcher) (pb : PropBy) (r : Nat × PropBy × Searcher)
    (h : find_conflict_level s pb = some r) : r.2.2.trail = s.trail := by
  unfold find_conflict_level at h
  cases pb with
  | null_clause_t => cases h
  | binary_t lit2 red =>
    simp only at h
    split at h
    · simp only [Option.some.injEq] at h; rw [← h]
    · split at h
      · simp only [Option.some.injEq] at h; rw [← h]
      · simp only [Option.some.injEq] at h; rw [← h]
  | clause_t offs =>
    simp only at h
    split at h
    · simp only [Option.some.injEq] at h; rw [← h]
    · split at h
      · simp only [Option.some.injEq] at h
        rw [← h]
        show (find_conflict_level_swap s offs _).trail = s.trail
        unfold find_conflict_level_swap
        simp only
        split <;> rfl
      · simp only [Option.some.injEq] at h; rw [← h]

end Searcher
end CMSat

namespace CMSat
namespace Searcher

/-! ## The facts stay on the trail -/

theorem facts_kept_refl (s : Searcher) : facts_kept s s := fun _ h _ => h

theorem facts_kept_trans {s s1 s2 : Searcher} (h1 : facts_kept s s1) (h2 : facts_kept s1 s2) :
    facts_kept s s2 := fun e he h0 => h2 e (h1 e he h0) h0

theorem facts_kept_of_trail {s s1 : Searcher} (h : s1.trail = s.trail) : facts_kept s s1 := by
  intro e he _
  rw [h]
  exact he

theorem facts_kept_enqueue (s : Searcher) (p : Lit) (level : Nat) (fromWhom : PropBy) :
    facts_kept s (enqueue s p level fromWhom) := by
  intro e he _
  show e ∈ s.trail ++ [⟨p, level⟩]
  exact List.mem_append_left _ he

/-- Backtracking keeps every trail entry of level 0. -/
theorem facts_kept_cancelUntil (s : Searcher) (b : Nat) : facts_kept s (cancelUntil s b) := by
  intro e he h0
  unfold cancelUntil
  split
  · obtain ⟨_, _, h3⟩ := cancelUntil_fold_spec b
      (s.trail.drop (s.trail_lim.getD b 0)).reverse s []
    show e ∈ resize s.trail (s.trail_lim.getD b 0) ⟨lit_Undef, 0⟩ ++ _
    rw [h3]
    rw [← List.take_append_drop (s.trail_lim.getD b 0) s.trail] at he
    rcases List.mem_append.1 he with h1 | h1
    · apply List.mem_append_left
      unfold resize
      exact List.mem_append_left _ h1
    · apply List.mem_append_right
      rw [List.nil_append, List.mem_reverse, List.mem_filter]
      refine ⟨List.mem_reverse.2 h1, ?_⟩
      rw [h0]
      exact decide_eq_true (Nat.zero_le _)
  · exact he

theorem facts_kept_backtrack_after_conflict (s : Searcher) (nH b : Nat) :
    facts_kept s (backtrack_after_conflict s nH b) := by
  unfold backtrack_after_conflict
  split <;> exact facts_kept_cancelUntil _ _

theorem build_decision_clause_trail (s : Searcher) :
    ∀ (lims : List Nat) (t t1 : Searcher), build_decision_clause s lims t = some t1 →
      t1.trail = t.trail
  | [], t, t1, h => by
    simp only [build_decision_clause, Option.some.injEq] at h
    rw [← h]
  | lim :: lims, t, t1, h => by
    unfold build_decision_clause at h
    split at h
    · cases h
    · simp only at h
      split at h
      · exact (build_decision_clause_trail s lims _ t1 h).trans rfl
      · exact build_decision_clause_trail s lims t t1 h

theorem collect_decision_clause_trail (s s1 : Searcher) (h : collect_decision_clause s = some s1) :
    s1.trail = s.trail := by
  unfold collect_decision_clause at h
  simp only at h
  split at h
  · cases hb : build_decision_clause { s with decision_clause := [] } s.trail_lim.reverse
        { s with decision_clause := [] } with
    | none => rw [hb] at h; cases h
    | some t =>
      rw [hb] at h
      simp only [Option.map_some', Option.some.injEq] at h
      rw [← h]
      exact (build_decision_clause_trail _ _ _ _ hb).trans rfl
  · simp only [Option.some.injEq] at h
    rw [← h]

theorem update_history_stats_trail (s s1 : Searcher) (b g : Nat)
    (h : update_history_stats s b g = some s1) : s1.trail = s.trail := by
  unfold update_history_stats at h
  split at h
  · simp only [Option.some.injEq] at h
    rw [← h]
  · cases h

theorem facts_kept_handle_conflict_backtrack (s : Searcher) (confl : PropBy)
    (r : Searcher ⊕ ConflictOutcome) (h : handle_conflict_backtrack s confl = some r) :
    (∀ s1, r = .inl s1 → facts_kept s s1) ∧ (∀ o, r = .inr o → facts_kept s o.st) := by
  unfold handle_conflict_backtrack at h
  split at h
  · cases h
  · rename_i nH confl1 s1 h1
    have k1 : s1.trail = s.trail := find_conflict_level_trail _ _ _ h1
    split at h
    · simp only [Option.some.injEq] at h
      rw [← h]
      refine ⟨?_, fun o ho => (by cases ho)⟩
      intro t ht
      simp only [Sum.inl.injEq] at ht
      rw [← ht]
      exact facts_kept_of_trail k1
    · split at h
      · cases h
      · rename_i s2 bl glue h2
        have k2 : s2.trail = s.trail :=
          (analyze_conflict_trail false s1 confl1 _ h2).trans k1
        split at h
        · cases h
        · rename_i s3 h3
          have k3 : s3.trail = s.trail :=
            (update_history_stats_trail _ _ _ _ h3).trans k2
          split at h
          · cases h
          · rename_i s4 h4
            have k4 : s4.trail = s.trail :=
              (collect_decision_clause_trail _ _ h4).trans k3
            simp only [Option.some.injEq] at h
            rw [← h]
            refine ⟨fun t ht => (by cases ht), ?_⟩
            intro o ho
            simp only [Sum.inr.injEq] at ho
            rw [← ho]
            exact facts_kept_trans (facts_kept_of_trail k4)
              (facts_kept_backtrack_after_conflict _ _ _)

theorem handle_last_confl_trail (s : Searcher) (glue : Nat) (is_decision : Bool) :
    (handle_last_confl s glue is_decision).2.trail = s.trail := by
  unfold handle_last_confl
  split <;> rfl

theorem facts_kept_ite_enqueue (s : Searcher) (enq : Bool) (p : Lit) (level : Nat) (w : PropBy) :
    facts_kept s (if enq then enqueue s p level w else s) := by
  split
  · exact facts_kept_enqueue _ _ _ _
  · exact facts_kept_refl s

theorem facts_kept_attach_and_enqueue (s : Searcher) (cl : Option Nat) (level : Nat) (enq : Bool)
    (s1 : Searcher) (h : attach_and_enqueue_learnt_clause s cl level enq = some s1) :
    facts_kept s s1 := by
  unfold attach_and_enqueue_learnt_clause at h
  split at h
  · cases h
  · simp only [Option.some.injEq] at h
    rw [← h]
    exact facts_kept_ite_enqueue _ _ _ _ _
  · simp only [Option.some.injEq] at h
    rw [← h]
    exact facts_kept_trans (@facts_kept_of_trail s (attach_bin_clause s _ _ true) rfl)
      (facts_kept_ite_enqueue _ _ _ _ _)
  · split at h
    · cases h
    · simp only [Option.some.injEq] at h
      rw [← h]
      exact facts_kept_trans (@facts_kept_of_trail s (attachClause s _) rfl)
        (facts_kept_ite_enqueue _ _ _ _ _)

theorem facts_kept_add_decision_clause (s : Searcher) (b : Nat) (s1 : Searcher)
    (h : add_decision_clause s b = some s1) : facts_kept s s1 := by
  unfold add_decision_clause at h
  split at h
  · split at h
    · cases h
    · simp only at h
      refine facts_kept_trans (facts_kept_of_trail ?_)
        (facts_kept_trans (facts_kept_of_trail (handle_last_confl_trail _ _ _))
          (facts_kept_attach_and_enqueue _ _ _ _ _ h))
      rfl
  · simp only [Option.some.injEq] at h
    rw [← h]
    exact facts_kept_refl s

/-- Handling a conflict keeps every trail entry of level 0. -/
theorem facts_kept_handle_conflict (s : Searcher) (confl : PropBy) (r : Bool × Searcher)
    (h : handle_conflict s confl = some r) : facts_kept s r.2 := by
  unfold handle_conflict at h
  split at h
  · cases h
  · rename_i s1 hb
    simp only [Option.some.injEq] at h
    rw [← h]
    exact (facts_kept_handle_conflict_backtrack s confl _ hb).1 s1 rfl
  · rename_i o hb
    have k1 := (facts_kept_handle_conflict_backtrack s confl _ hb).2 o rfl
    simp only at h
    split at h
    · cases h
    · rename_i s6 h6
      have k2 : facts_kept s s6 :=
        facts_kept_trans k1 (facts_kept_trans
          (facts_kept_of_trail (handle_last_confl_trail _ _ _))
          (facts_kept_attach_and_enqueue _ _ _ _ _ h6))
      cases h7 : add_decision_clause s6 o.backtrack_level with
      | none => rw [h7] at h; cases h
      | some s7 =>
        rw [h7] at h
        simp only [Option.map_some', Option.some.injEq] at h
        rw [← h]
        exact facts_kept_trans k2 (facts_kept_add_decision_clause _ _ _ h7)

theorem new_decision_assumptions_trail :
    ∀ (fuel : Nat) (s : Searcher) (p : Lit) (s1 : Searcher),
      new_decision_assumptions fuel s = some (.next p s1) →
      s1.trail = s.trail ∧ s1.assigns = s.assigns
  | 0, _, _, _, h => by simp [new_decision_assumptions] at h
  | fuel + 1, s, p, s1, h => by
    unfold new_decision_assumptions at h
    split at h
    · simp only at h
      split at h
      · exact new_decision_assumptions_trail fuel (new_decision_level s) p s1 h
      · split at h
        · cases ha : analyze_final_confl_with_assumptions s
            (s.assumptions.getD s.decisionLevel lit_Undef).neg with
          | none => rw [ha] at h; cases h
          | some t =>
            rw [ha] at h
            simp only [Option.map_some', Option.some.injEq] at h
            cases h
        · simp only [Option.some.injEq, AssumptionStep.next.injEq] at h
          rw [← h.2]
          exact ⟨rfl, rfl⟩
    · simp only [Option.some.injEq, AssumptionStep.next.injEq] at h
      rw [← h.2]
      exact ⟨rfl, rfl⟩

/-- A decision keeps every trail entry; when nothing is left to branch on, trail and assignment
are as before. -/
theorem facts_kept_new_decision (c : Collab) (s : Searcher) (r : lbool × Searcher)
    (h : new_decision c s = some r) :
    (r.1 = l_Undef → facts_kept s r.2)
    ∧ (r.1 = l_True → r.2.trail = s.trail ∧ r.2.assigns = s.assigns) := by
  unfold new_decision at h
  split at h
  · cases h
  · simp only [Option.some.injEq] at h
    rw [← h]
    exact ⟨fun e => (by cases e), fun e => (by cases e)⟩
  · rename_i nx s1 ha
    obtain ⟨t1, a1⟩ := new_decision_assumptions_trail _ _ _ _ ha
    split at h
    · split at h
      · cases h
      · rename_i next1 s2 hp
        have hh := pickBranchLit_heaps c s1 _ hp
        have t2 : s2.trail = s1.trail := by
          have e : heaps_only s1 s2 := hh
          unfold heaps_only at e
          rw [e]
        have a2 : s2.assigns = s1.assigns := by
          have e : heaps_only s1 s2 := hh
          unfold heaps_only at e
          rw [e]
        split at h
        · simp only [Option.some.injEq] at h
          rw [← h]
          exact ⟨fun e => (by cases e), fun _ => ⟨t2.trans t1, a2.trans a1⟩⟩
        · simp only [Option.some.injEq] at h
          rw [← h]
          refine ⟨fun _ => ?_, fun e => (by cases e)⟩
          exact facts_kept_trans (facts_kept_of_trail (t2.trans t1))
            (facts_kept_trans (@facts_kept_of_trail s2 (new_decision_level s2) rfl)
              (facts_kept_enqueue _ _ _ _))
    · simp only [Option.some.injEq] at h
      rw [← h]
      refine ⟨fun _ => ?_, fun e => (by cases e)⟩
      exact facts_kept_trans (facts_kept_of_trail t1)
        (facts_kept_trans (@facts_kept_of_trail s1 (new_decision_level s1) rfl)
          (facts_kept_enqueue _ _ _ _))

end Searcher
end CMSat

namespace CMSat
namespace Searcher

/-! ## The propagator for binary clauses leaves the configuration alone -/

theorem propagate_bin_ws_conf (p : Lit) (lev : Nat) :
    ∀ (ws : List Watched) (s : Searcher), (propagate_bin_ws p lev ws s).2.conf = s.conf
  | [], _ => rfl
  | .bin lit2 red :: ws, s => by
    unfold propagate_bin_ws
    by_cases h1 : s.value lit2 = l_Undef
    · rw [if_pos h1, propagate_bin_ws_conf p lev ws]
      rfl
    · rw [if_neg h1]
      by_cases h2 : s.value lit2 = l_False
      · rw [if_pos h2]
      · rw [if_neg h2, propagate_bin_ws_conf p lev ws]
  | .long _ _ :: ws, s => by
    unfold propagate_bin_ws
    exact propagate_bin_ws_conf p lev ws s

theorem propagate_bin_conf : ∀ (fuel : Nat) (s : Searcher), (propagate_bin fuel s).2.conf = s.conf
  | 0, _ => rfl
  | fuel + 1, s => by
    unfold propagate_bin
    cases he : s.trail[s.qhead]? with
    | none => rfl
    | some e =>
      simp only
      split
      · rw [propagate_bin_conf fuel, propagate_bin_ws_conf]
      · rw [propagate_bin_ws_conf]

theorem binary_keeps_conf : Collab.binary.keeps_conf :=
  ⟨fun s => propagate_bin_conf _ s, fun s => propagate_bin_conf _ s, fun _ => rfl, fun _ => rfl,
    fun _ => rfl, fun _ => rfl, fun _ => rfl, fun _ => rfl, fun _ r h => by cases h⟩

end Searcher
end CMSat

namespace CMSat
namespace Searcher

/-! ## The formula that the solver holds is never weakened -/

theorem upholds_refl (s : Searcher) : upholds s s := fun _ h => h

theorem upholds_trans {s s1 s2 : Searcher} (h1 : upholds s s1) (h2 : upholds s1 s2) :
    upholds s s2 := fun a h => h1 a (h2 a h)

/-- A step that keeps the original clauses, up to the order of the literals of the long ones,
and the facts, holds at least the formula it started from. -/
theorem upholds_of_clauses {s s1 : Searcher} (hn : s1.nVars = s.nVars)
    (hb : ∀ l l2, Watched.bin l2 false ∈ s1.watches l ↔ Watched.bin l2 false ∈ s.watches l)
    (hl : s1.longIrredCls = s.longIrredCls)
    (hlits : ∀ o ∈ s.longIrredCls, ∀ l, l ∈ (s1.cl_alloc o).lits ↔ l ∈ (s.cl_alloc o).lits)
    (hx : s1.xorclauses = s.xorclauses) (hf : facts_kept s s1) : upholds s s1 := by
  intro a h
  obtain ⟨⟨h1, h2⟩, h3⟩ := h
  refine ⟨⟨?_, ?_⟩, ?_⟩
  · intro C hC
    rcases hC with ⟨l, l2, hv, hw, hC⟩ | ⟨o, ho, hC⟩
    · exact h1 C (Or.inl ⟨l, l2, by rw [hn]; exact hv, (hb l l2).2 hw, hC⟩)
    · obtain ⟨l, hl1, hv⟩ := h1 _ (Or.inr ⟨o, by rw [hl]; exact ho, rfl⟩)
      exact ⟨l, by rw [hC]; exact (hlits o ho l).1 hl1, hv⟩
  · intro x hx1
    exact h2 x (by rw [hx]; exact hx1)
  · intro e he h0
    exact h3 e (hf e he h0) h0

theorem upholds_of_keeps {s s1 : Searcher} (hi : search_inv s) (hk : keeps s s1)
    (hf : facts_kept s s1) : upholds s s1 :=
  upholds_of_clauses hk.nVars hk.bins hk.longIrredCls
    (fun o ho => hk.lits o (hi.offsets o ho)) hk.xorclauses hf

theorem upholds_of_core {s s1 : Searcher} (h : search_core s1 = search_core s)
    (ht : s1.trail = s.trail) : upholds s s1 :=
  upholds_of_clauses (core_nVars h) (fun l l2 => by rw [core_watches h]) (core_longIrredCls h)
    (fun o _ l => by rw [core_lits h o]) (core_xorclauses h) (facts_kept_of_trail ht)

theorem facts_hold_of_trail {s s1 : Searcher} (ht : s1.trail = s.trail)
    (ha : s1.assigns = s.assigns) (h : facts_hold s s.assigns) : facts_hold s1 s1.assigns := by
  intro e he h0
  rw [ht] at he
  rw [ha]
  exact h e he h0

/-! ### The book-keeping of the restarts leaves the trail alone -/

theorem ite_trail (p : Prop) [Decidable p] (a b s : Searcher)
    (ha : a.trail = s.trail) (hb : b.trail = s.trail) :
    (if p then a else b).trail = s.trail := by
  split <;> assumption

theorem stop_search_trail (s : Searcher) : (stop_search s).trail = s.trail := rfl

theorem read_cpuTime_trail (env : Env) (s : Searcher) :
    (read_cpuTime env s).2.trail = s.trail := rfl

theorem read_must_interrupt_asap_trail (env : Env) (s : Searcher) :
    (read_must_interrupt_asap env s).2.trail = s.trail := rfl

theorem check_need_restart_limits_trail (env : Env) (s : Searcher) :
    (check_need_restart_limits env s).trail = s.trail := by
  unfold check_need_restart_limits
  split
  · simp only
    have e0 := read_cpuTime_trail env s
    generalize read_cpuTime env s = t at e0 ⊢
    have e1 : (if t.1 > t.2.conf.maxTime then stop_search t.2 else t.2).trail = s.trail :=
      ite_trail _ _ _ _ ((stop_search_trail t.2).trans e0) e0
    generalize (if t.1 > t.2.conf.maxTime then stop_search t.2 else t.2) = s1 at e1 ⊢
    have e2 := (read_must_interrupt_asap_trail env s1).trans e1
    generalize read_must_interrupt_asap env s1 = i at e2 ⊢
    exact ite_trail _ _ _ _ ((stop_search_trail i.2).trans e2) e2
  · rfl

theorem check_blocking_restart_trail (c : Collab) (s : Searcher) :
    (check_blocking_restart c s).trail = s.trail := by
  unfold check_blocking_restart
  split <;> rfl

theorem check_need_restart_trail (c : Collab) (env : Env) (s : Searcher) :
    (check_need_restart c env s).trail = s.trail := by
  unfold check_need_restart
  simp only
  have e1 := check_need_restart_limits_trail env s
  generalize check_need_restart_limits env s = s1 at e1 ⊢
  have e2 : (if s1.params.rest_type = Restart.glue then
      if c.glue_restart (check_blocking_restart c s1) = true then
        stop_search (check_blocking_restart c s1)
      else check_blocking_restart c s1
    else s1).trail = s.trail := by
    apply ite_trail
    · apply ite_trail
      · exact (check_blocking_restart_trail c s1).trans e1
      · exact (check_blocking_restart_trail c s1).trans e1
    · exact e1
  generalize (if s1.params.rest_type = Restart.glue then
      if c.glue_restart (check_blocking_restart c s1) = true then
        stop_search (check_blocking_restart c s1)
      else check_blocking_restart c s1
    else s1) = s2 at e2 ⊢
  have e3 : (if (s2.params.conflictsDoneThisRestart : Int) > s2.max_confl_this_restart
      then stop_search s2 else s2).trail = s.trail := ite_trail _ _ _ _ e2 e2
  generalize (if (s2.params.conflictsDoneThisRestart : Int) > s2.max_confl_this_restart
      then stop_search s2 else s2) = s3 at e3 ⊢
  exact ite_trail _ _ _ _ e3 e3

theorem adjust_restart_strategy_trail (s s1 : Searcher)
    (h : adjust_restart_strategy s = some s1) : s1.trail = s.trail := by
  unfold adjust_restart_strategy at h
  split at h
  · cases h; rfl
  · simp only at h
    split at h
    · cases hl : luby 2 (s.luby_loop_num : Int) with
      | none => rw [hl] at h; cases h
      | some l =>
        rw [hl] at h
        simp only [Option.map_some', Option.some.injEq] at h
        rw [← h]
    · cases h; rfl
    · cases h; rfl
    · cases h; rfl
    · cases h

theorem must_abort_trail (env : Env) (status : lbool) (s : Searcher) :
    (must_abort env status s).2.trail = s.trail := by
  unfold must_abort
  split
  · rfl
  · split
    · rfl
    · simp only
      split
      · exact read_cpuTime_trail env s
      · exact (read_must_interrupt_asap_trail env _).trans (read_cpuTime_trail env s)

/-! ### Clause cleaning, database reduction, the end of `search`, the distiller -/

theorem clean_clauses_if_needed_formula (c : Collab) (hc : Collab.sound c) (s : Searcher)
    (hf : facts_hold s s.assigns) :
    upholds s (clean_clauses_if_needed c s)
      ∧ facts_hold (clean_clauses_if_needed c s) (clean_clauses_if_needed c s).assigns := by
  unfold clean_clauses_if_needed
  simp only
  split
  · have f1 : facts_hold { s with lastCleanZeroDepthAssigns := s.trail.length }
        ({ s with lastCleanZeroDepthAssigns := s.trail.length } : Searcher).assigns := hf
    have u1 : upholds s { s with lastCleanZeroDepthAssigns := s.trail.length } :=
      fun _ h => h
    generalize ({ s with lastCleanZeroDepthAssigns := s.trail.length } : Searcher) = s1
      at f1 u1 ⊢
    obtain ⟨u2, f2⟩ := hc.remove_and_clean_all_formula s1 f1
    have u12 := upholds_trans u1 u2
    generalize c.remove_and_clean_all s1 = s2 at f2 u12 ⊢
    obtain ⟨u3, f3⟩ := hc.consolidate_formula s2 f2
    have u13 := upholds_trans u12 u3
    generalize c.consolidate s2 = t at f3 u13 ⊢
    refine ⟨upholds_trans u13 ?_, ?_⟩
    · exact upholds_of_clauses rfl (fun _ _ => Iff.rfl) rfl (fun _ _ _ => Iff.rfl) rfl
        (facts_kept_of_trail rfl)
    · exact f3
  · exact ⟨upholds_refl s, hf⟩

theorem reduce_db_if_needed_formula (c : Collab) (hc : Collab.sound c) (s : Searcher)
    (hf : facts_hold s s.assigns) :
    upholds s (reduce_db_if_needed c s)
      ∧ facts_hold (reduce_db_if_needed c s) (reduce_db_if_needed c s).assigns := by
  unfold reduce_db_if_needed
  simp only
  have hstep1 : upholds s (if s.conf.every_lev1_reduce ≠ 0 ∧ s.sumConflicts ≥ s.next_lev1_reduce
      then { c.handle_lev1 s with
        next_lev1_reduce := (c.handle_lev1 s).sumConflicts + (c.handle_lev1 s).conf.every_lev1_reduce }
      else s)
      ∧ facts_hold (if s.conf.every_lev1_reduce ≠ 0 ∧ s.sumConflicts ≥ s.next_lev1_reduce
      then { c.handle_lev1 s with
        next_lev1_reduce := (c.handle_lev1 s).sumConflicts + (c.handle_lev1 s).conf.every_lev1_reduce }
      else s) (if s.conf.every_lev1_reduce ≠ 0 ∧ s.sumConflicts ≥ s.next_lev1_reduce
      then { c.handle_lev1 s with
        next_lev1_reduce := (c.handle_lev1 s).sumConflicts + (c.handle_lev1 s).conf.every_lev1_reduce }
      else s).assigns := by
    split
    · obtain ⟨u1, f1⟩ := hc.handle_lev1_formula s hf
      generalize c.handle_lev1 s = t at u1 f1 ⊢
      exact ⟨u1, f1⟩
    · exact ⟨upholds_refl s, hf⟩
  generalize (if s.conf.every_lev1_reduce ≠ 0 ∧ s.sumConflicts ≥ s.next_lev1_reduce
      then { c.handle_lev1 s with
        next_lev1_reduce := (c.handle_lev1 s).sumConflicts + (c.handle_lev1 s).conf.every_lev1_reduce }
      else s) = s1 at hstep1 ⊢
  obtain ⟨u1, f1⟩ := hstep1
  split
  · split
    · obtain ⟨u2, f2⟩ := hc.handle_lev2_formula s1 f1
      obtain ⟨u3, f3⟩ := hc.consolidate_formula _ f2
      have u := upholds_trans u1 (upholds_trans u2 u3)
      generalize c.consolidate (c.handle_lev2 s1) = t at u f3 ⊢
      exact ⟨u, f3⟩
    · exact ⟨u1, f1⟩
  · split
    · obtain ⟨u2, f2⟩ := hc.handle_lev2_formula s1 f1
      have u12 := upholds_trans u1 u2
      generalize c.handle_lev2 s1 = t at u12 f2 ⊢
      obtain ⟨u3, f3⟩ := hc.consolidate_formula
        { t with cur_max_temp_red_lev2_cls :=
                   (Frac.scale t.cur_max_temp_red_lev2_cls t.conf.inc_max_temp_lev2_red_cls) }
        f2
      exact ⟨upholds_trans u12 u3, f3⟩
    · exact ⟨u1, f1⟩

theorem search_finish_upholds (c : Collab) (hc : Collab.sound c) (s : Searcher)
    (hi : search_inv s) : upholds s (search_finish c s).2 := by
  have hi1 : search_inv (charge_restart_budget s) :=
    @search_inv_of_core s (charge_restart_budget s) rfl hi
  have u1 : upholds s (cancelUntil (charge_restart_budget s) 0) :=
    upholds_trans (show upholds s (charge_restart_budget s) from fun _ h => h)
      (upholds_of_keeps hi1 (keeps_cancelUntil _ _) (facts_kept_cancelUntil _ _))
  have u2 := upholds_trans u1 (hc.propagate_upholds _)
  unfold search_finish propagate
  simp only
  generalize c.propagate_any_order (cancelUntil (charge_restart_budget s) 0) = r at u2 ⊢
  split
  · exact upholds_trans u2 (fun _ h => h)
  · have u3 := upholds_trans u2 (hc.syncData_upholds r.2)
    split <;> exact u3

theorem distill_clauses_if_needed_upholds (c : Collab) (hc : Collab.sound c) (s : Searcher) :
    upholds s (distill_clauses_if_needed c s).2 := by
  unfold distill_clauses_if_needed
  split
  · simp only
    have h1 := hc.distill_upholds s
    split
    · exact h1
    · exact upholds_trans h1 (fun _ h => h)
  · exact upholds_refl s

/-! ### Decisions -/

/-- A decision, or the finding that nothing is left to branch on, keeps the original clauses
and the facts. -/
theorem new_decision_upholds (c : Collab) (s : Searcher) (r : lbool × Searcher)
    (hi : search_inv s) (h : new_decision c s = some r) (hne : r.1 ≠ l_False) :
    upholds s r.2 := by
  have hfk : facts_kept s r.2 := by
    obtain ⟨f1, f2⟩ := facts_kept_new_decision c s r h
    cases hr : r.1 with
    | l_True => exact facts_kept_of_trail (f2 hr).1
    | l_False => exact absurd hr hne
    | l_Undef => exact f1 hr
  unfold new_decision at h
  split at h
  · cases h
  · simp only [Option.some.injEq] at h
    rw [← h] at hne
    exact absurd rfl hne
  · rename_i nx s1 ha
    have e1 := new_decision_assumptions_score _ _ _ _ ha
    have hi1 : search_inv s1 := search_inv_of_keeps hi (keeps_of_core e1)
    have key : ∀ t : Searcher, t.nVars = s1.nVars → t.watches = s1.watches →
        t.cl_alloc = s1.cl_alloc → t.longIrredCls = s1.longIrredCls →
        t.xorclauses = s1.xorclauses → facts_kept s t → upholds s t := by
      intro t h1 h2 h3 h4 h5 h6
      exact upholds_of_clauses (h1.trans (core_nVars e1))
        (fun l l2 => by rw [h2, core_watches e1]) (h4.trans (core_longIrredCls e1))
        (fun o _ l => by rw [h3, core_lits e1 o]) (h5.trans (core_xorclauses e1)) h6
    split at h
    · split at h
      · cases h
      · rename_i next1 s2 hp
        obtain ⟨⟨hv, hm, hs2⟩, _, _⟩ := pickBranchLit_spec c s1 _ hi1.heap_strategy hp
        simp only at hs2
        split at h
        · simp only [Option.some.injEq] at h
          rw [← h] at hfk ⊢
          apply key _ _ _ _ _ _ hfk <;> rw [hs2]
        · simp only [Option.some.injEq] at h
          rw [← h] at hfk ⊢
          apply key _ _ _ _ _ _ hfk <;> rw [hs2] <;> rfl
    · simp only [Option.some.injEq] at h
      rw [← h] at hfk ⊢
      apply key _ _ _ _ _ _ hfk <;> rfl

end Searcher
end CMSat

namespace CMSat
namespace Searcher

/-! ## The model satisfies the formula that `solve` was called with -/

/-- Through the loop of `search` the formula is never weakened; when the loop ends with
`l_True`, the assignment satisfies the original clauses and the facts of the state in which
the loop was entered. -/
theorem search_loop_holds (c : Collab) (env : Env) (hc : Collab.sound c) :
    ∀ (fuel : Nat) (s : Searcher) (confl : PropBy) (r : Option lbool × Searcher),
      search_inv s → search_loop c env fuel s confl = some r →
      (r.1 = some l_True → holds s r.2.assigns) ∧ (r.1 = none → upholds s r.2)
  | 0, _, _, _, _, h => by simp [search_loop] at h
  | fuel + 1, s, confl, r, hi, h => by
    unfold search_loop at h
    split at h
    · split at h
      · simp only [Option.some.injEq] at h
        rw [← h]
        exact ⟨fun e => (by cases e), fun e => (by cases e)⟩
      · simp only at h
        have hp := hc.propagate_fast_inv s hi
        have hcon := hc.propagate_fast_contract s
        have hfac := hc.propagate_fast_facts s
        have up := hc.propagate_fast_upholds s
        generalize c.propagate_any_order_fast s = p at h hp hcon hfac up
        split at h
        · have hi1 : search_inv
              { p.2 with trailDepthHistLonger := p.2.trailDepthHistLonger ++ [p.2.trail.length] } :=
            @search_inv_of_core p.2
              { p.2 with trailDepthHistLonger := p.2.trailDepthHistLonger ++ [p.2.trail.length] }
              rfl hp
          have u1 : upholds s
              { p.2 with trailDepthHistLonger := p.2.trailDepthHistLonger ++ [p.2.trail.length] } :=
            up
          split at h
          · cases h
          · simp only [Option.some.injEq] at h
            rw [← h]
            exact ⟨fun e => (by cases e), fun e => (by cases e)⟩
          · rename_i s2 hh
            have hk := keeps_handle_conflict _ _ _ hh
            have hi2 : search_inv s2 := search_inv_of_keeps hi1 hk
            have u2 : upholds s s2 :=
              upholds_trans u1 (upholds_of_keeps hi1 hk (facts_kept_handle_conflict _ _ _ hh))
            have u3 : upholds s (check_need_restart c env s2) :=
              upholds_trans u2 (upholds_of_core (check_need_restart_score c env s2)
                (check_need_restart_trail c env s2))
            obtain ⟨a1, a2⟩ := search_loop_holds c env hc fuel _ _ r
              (search_inv_of_core (check_need_restart_score c env s2) hi2) h
            exact ⟨fun e => u3 _ (a1 e), fun e => upholds_trans u3 (a2 e)⟩
        · rename_i hnull
          have hnull1 : p.1.isNULL = true := by
            cases hq : p.1.isNULL
            · rw [hq] at hnull; simp at hnull
            · rfl
          have hn := hcon hnull1
          have hf := hfac hnull1
          have hs1 : (search_inv (if p.2.decisionLevel = 0 then clean_clauses_if_needed c p.2
              else p.2)
              ∧ no_falsified (if p.2.decisionLevel = 0 then clean_clauses_if_needed c p.2
              else p.2))
              ∧ upholds p.2 (if p.2.decisionLevel = 0 then clean_clauses_if_needed c p.2
              else p.2)
              ∧ facts_hold (if p.2.decisionLevel = 0 then clean_clauses_if_needed c p.2
              else p.2) (if p.2.decisionLevel = 0 then clean_clauses_if_needed c p.2
              else p.2).assigns := by
            split
            · exact ⟨clean_clauses_if_needed_inv c hc _ hp hn,
                clean_clauses_if_needed_formula c hc _ hf⟩
            · exact ⟨⟨hp, hn⟩, upholds_refl _, hf⟩
          generalize (if p.2.decisionLevel = 0 then clean_clauses_if_needed c p.2 else p.2) = s1
            at h hs1
          obtain ⟨⟨hi1, hn1⟩, u1, f1⟩ := hs1
          obtain ⟨hi2, hn2⟩ := reduce_db_if_needed_inv c hc s1 hi1 hn1
          obtain ⟨u2, f2⟩ := reduce_db_if_needed_formula c hc s1 f1
          have u02 : upholds s (reduce_db_if_needed c s1) :=
            upholds_trans up (upholds_trans u1 u2)
          generalize reduce_db_if_needed c s1 = s2 at h hi2 hn2 f2 u02
          have hdec : search_decide c s2 = new_decision c s2 := by
            unfold search_decide
            rw [hi2.fast_backw_off]
            rfl
          rw [hdec] at h
          split at h
          · cases h
          · rename_i dec_ret s3 hd
            obtain ⟨d1, d2⟩ := new_decision_inv c s2 _ hi2 hd
            obtain ⟨_, k2⟩ := facts_kept_new_decision c s2 _ hd
            simp only at d1 d2 k2
            split at h
            · simp only [Option.some.injEq] at h
              rw [← h]
              refine ⟨fun e => ?_, fun e => (by cases e)⟩
              simp only [Option.some.injEq] at e
              have u3 : upholds s2 s3 := new_decision_upholds c s2 _ hi2 hd (by
                show dec_ret ≠ l_False
                rw [e]
                simp)
              obtain ⟨kt, ka⟩ := k2 e
              exact u02 _ (u3 _ ⟨d2 e hn2, facts_hold_of_trail kt ka f2⟩)
            · rename_i hu
              have hu1 : dec_ret = l_Undef := by
                by_contra hne
                exact hu hne
              have u3 : upholds s2 s3 := new_decision_upholds c s2 _ hi2 hd (by
                show dec_ret ≠ l_False
                rw [hu1]
                simp)
              have u03 := upholds_trans u02 u3
              obtain ⟨a1, a2⟩ := search_loop_holds c env hc fuel _ _ r (d1 hu1) h
              exact ⟨fun e => u03 _ (a1 e), fun e => upholds_trans u03 (a2 e)⟩
    · simp only [Option.some.injEq] at h
      rw [← h]
      exact ⟨fun e => (by cases e), fun _ => upholds_refl s⟩

/-- A `search` that returns `l_True` leaves an assignment that satisfies the original clauses
and the facts of the state it was called in; one that returns `l_Undef` has not weakened the
formula. -/
theorem search_holds (c : Collab) (env : Env) (hc : Collab.sound c) (fuel : Nat)
    (s : Searcher) (r : lbool × Searcher) (hi : search_inv s)
    (h : search c env fuel s = some r) :
    (r.1 = l_True → holds s r.2.assigns) ∧ (r.1 = l_Undef → upholds s r.2) := by
  unfold search at h
  have hi0 : search_inv { s with glueHist := [], trailDepthHistLonger := [] } :=
    @search_inv_of_core s { s with glueHist := [], trailDepthHistLonger := [] } rfl hi
  split at h
  · cases h
  · rename_i sr s1 hl
    simp only [Option.some.injEq] at h
    rw [← h]
    obtain ⟨a1, _⟩ := search_loop_holds c env hc fuel _ _ _ hi0 hl
    refine ⟨fun e => a1 (congrArg some e), fun e => ?_⟩
    exact absurd e (search_loop_goto_ne_undef c env fuel _ _ sr s1 hl)
  · rename_i s1 hl
    simp only [Option.some.injEq] at h
    rw [← h]
    obtain ⟨_, a2⟩ := search_loop_holds c env hc fuel _ _ _ hi0 hl
    obtain ⟨_, b2⟩ := search_loop_inv c env hc fuel _ _ _ hi0 hl
    exact ⟨fun e => absurd e (search_finish_ne_true c s1),
      fun _ => upholds_trans (a2 rfl) (search_finish_upholds c hc s1 (b2 rfl))⟩

/-- When the loop of `solve` ends with `l_True`, the assignment satisfies the original clauses
and the facts of the state in which the loop was entered. -/
theorem solve_loop_holds (c : Collab) (env : Env) (hc : Collab.sound c) (sfuel : Nat) :
    ∀ (fuel : Nat) (s : Searcher) (status : lbool) (r : lbool × Searcher),
      search_inv s → status ≠ l_True → solve_loop c env sfuel fuel s status = some r →
      r.1 = l_True → holds s r.2.assigns
  | 0, _, _, _, _, _, h, _ => by simp [solve_loop] at h
  | fuel + 1, s, status, r, hi, hst, h, hr => by
    unfold solve_loop at h
    split at h
    · split at h
      · cases h
      · rename_i status1 s2 hs
        have hipc : search_inv (params_clear s) := @search_inv_of_core s (params_clear s) rfl hi
        obtain ⟨a1, a2⟩ := search_inv_result c env hc sfuel (params_clear s) _ hipc hs
        obtain ⟨b1, b2⟩ := search_holds c env hc sfuel (params_clear s) _ hipc hs
        simp only at a1 a2 b1 b2
        by_cases hu : status1 = l_Undef
        · have hi2 := a2 hu
          have u2 : upholds s s2 := b2 hu
          rw [if_pos hu] at h
          split at h
          · cases h
          · rename_i s3 had
            have hi3 : search_inv s3 :=
              search_inv_of_core (adjust_restart_strategy_score _ _ had) hi2
            have u3 : upholds s s3 :=
              upholds_trans u2 (upholds_of_core (adjust_restart_strategy_score _ _ had)
                (adjust_restart_strategy_trail _ _ had))
            simp only at h
            have hi4 : search_inv (must_abort env status1 s3).2 :=
              search_inv_of_core (must_abort_score env status1 s3) hi3
            have u4 : upholds s (must_abort env status1 s3).2 :=
              upholds_trans u3 (upholds_of_core (must_abort_score env status1 s3)
                (must_abort_trail env status1 s3))
            generalize must_abort env status1 s3 = a at h hi4 u4
            split at h
            · simp only [Option.some.injEq] at h
              rw [← h] at hr
              simp only at hr
              rw [hu] at hr
              cases hr
            · have hi5 := distill_clauses_if_needed_inv c hc a.2 hi4
              have u5 := upholds_trans u4 (distill_clauses_if_needed_upholds c hc a.2)
              generalize distill_clauses_if_needed c a.2 = d at h hi5 u5
              split at h
              · simp only [Option.some.injEq] at h
                rw [← h] at hr
                cases hr
              · exact u5 _ (solve_loop_holds c env hc sfuel fuel d.2 status1 r hi5
                  (by rw [hu]; simp) h hr)
        · rw [if_neg hu] at h
          simp only at h
          rw [must_abort_of_status env status1 s2 hu] at h
          simp only [if_true, Option.some.injEq] at h
          rw [← h] at hr ⊢
          exact b1 hr
    · simp only [Option.some.injEq] at h
      rw [← h] at hr
      exact absurd hr hst

/-- A `solve` that returns `l_True` was left by its loop in a state `t` whose assignment
satisfies every original clause of `t`; `finish_up_solve` recorded that assignment as the
model, and the model satisfies the original clauses and the facts of the state that `solve`
was called in. -/
theorem solve_true_holds (c : Collab) (env : Env) (sfuel fuel : Nat) (s : Searcher) (m : Nat)
    (r : Searcher) (hc : Collab.sound c) (hs : solve_pre s)
    (h : solve c env sfuel fuel s m = some (l_True, r)) :
    (s.ok = true ∧ s.qhead = s.trail.length)
      ∧ (∃ t, satisfies t t.assigns
          ∧ r = (propagate c (cancelUntil { t with model := t.assigns } 0)).2
          ∧ r.model = t.assigns)
      ∧ model_sat r ∧ holds s r.model := by
  unfold solve at h
  by_cases hok : s.ok = true ∧ s.qhead = s.trail.length
  swap
  · rw [if_neg hok] at h
    cases h
  rw [if_pos hok] at h
  simp only at h
  have hne : ¬ (({ s with max_confl_per_search_solve_call := m } : Searcher).fast_backw_on = true
      ∧ ({ s with max_confl_per_search_solve_call := m } : Searcher).fast_backw_cur_max_confl
          = 0) := by
    intro hh
    have h1 : s.fast_backw_on = true := hh.1
    rw [hs.fast_backw_off] at h1
    cases h1
  rw [if_neg hne] at h
  split at h
  · cases h
  · rename_i s4 hb
    obtain ⟨b, hbr, hs4⟩ := set_branch_strategy_spec
      (resetStats { s with max_confl_per_search_solve_call := m }) _ _ hs.no_rand hb
    have hi : search_inv (setup_restart_strategy s4) := by
      apply search_inv_of_solve_pre s hs b hbr <;> rw [hs4] <;> rfl
    have u0 : upholds s (setup_restart_strategy s4) := by
      rw [hs4]
      exact fun _ hh => hh
    split at h
    · cases h
    · rename_i status s6 hl
      simp only [Option.some.injEq, Prod.mk.injEq] at h
      obtain ⟨hst, hres⟩ := h
      subst hst
      have hsat := solve_loop_inv c env hc sfuel fuel _ _ _ hi (by simp) hl rfl
      have hh := u0 _ (solve_loop_holds c env hc sfuel fuel _ _ _ hi (by simp) hl rfl)
      simp only at hsat hh
      rw [if_neg (by simp)] at hres
      have hm : r.model = s6.assigns := by
        rw [← hres]
        show (propagate c (cancelUntil { s6 with model := s6.assigns } 0)).2.model = s6.assigns
        unfold propagate
        rw [hc.propagate_keeps_model]
        have e := congrArg Searcher.model (cancelUntil_core { s6 with model := s6.assigns } 0)
        exact e
      refine ⟨hok, ⟨s6, hsat, hres.symm, hm⟩, ?_, ?_⟩
      · rw [← hres]
        exact finish_up_solve_model c hc s6 hsat
      · rw [hm]
        exact hh

end Searcher
end CMSat

namespace CMSat
namespace Searcher

/-! ## Claims on the learnt clause -/

/-- C1, as the claim states it, fails: on `ex_unit` the trail is well-formed and the clause is a
conflict of level 1, `create_learnt_clause` learns `(¬x1)`, and the assignment `ex_unit_model`
satisfies the conflicting clause and every reason clause of the trail but not the learnt
clause (the fact `x0` of level 0 was dropped from it). -/
theorem create_learnt_clause_needs_level0 :
    trail_ok ex_unit ∧ is_conflict_at ex_unit (.clause_t 0) 1
      ∧ (create_learnt_clause false ex_unit (.clause_t 0)).map (fun s => s.learnt_clause)
          = some [⟨3⟩]
      ∧ premises ex_unit (.clause_t 0) ex_unit_model
      ∧ ¬ clause_sat ex_unit_model [⟨3⟩] := by
  decide

/-- C1 (amended): on a well-formed trail, for a conflict whose first literal has the highest
level `d > 0`, with `seen` clear and `learnt_clause` empty at the call, `create_learnt_clause`
returns and the learnt clause holds under every total assignment that satisfies the conflicting
constraint, the reason clauses of the trail literals and the trail literals of level 0. -/
theorem create_learnt_clause_sound (update_bogoprops : Bool) (s : Searcher) (confl : PropBy)
    (d : Nat) (h0 : trail_ok s) (hc : is_conflict_at s confl d)
    (hseen : ∀ v, s.seen v = false) (hl : s.learnt_clause = []) :
    ∃ s1, create_learnt_clause update_bogoprops s confl = some s1
      ∧ ∀ M, premises0 s confl M → clause_sat M s1.learnt_clause := by
  obtain ⟨s1, _, _, h1, _, _, _, _, _, _, _, h2⟩ :=
    create_learnt_clause_result update_bogoprops h0 hc hseen hl
  exact ⟨s1, h1, h2⟩

/-- Witness for C1 (amended) on `ex_unit`. -/
theorem create_learnt_clause_sound_witness :
    ∃ s1, create_learnt_clause false ex_unit (.clause_t 0) = some s1
      ∧ ∀ M, premises0 ex_unit (.clause_t 0) M → clause_sat M s1.learnt_clause :=
  create_learnt_clause_sound false ex_unit (.clause_t 0) 1 (by decide) (by decide)
    (fun _ => rfl) rfl

/-- C2: on a well-formed trail, for a conflict whose first literal has the highest level `d > 0`
of the constraint, with `seen` clear and `learnt_clause` empty at the call,
`create_learnt_clause` ends with `pathC == 0`; the first literal of the learnt clause is the
negation of a trail literal of level `d`, every other literal has a level strictly between 0 and
`d`, and so exactly one literal of the clause has level `d`. -/
theorem create_learnt_clause_first_uip (update_bogoprops : Bool) (s : Searcher) (confl : PropBy)
    (d : Nat) (h0 : trail_ok s) (hc : is_conflict_at s confl d)
    (hseen : ∀ v, s.seen v = false) (hl : s.learnt_clause = []) :
    ∃ s1 p rest, create_learnt_clause update_bogoprops s confl = some s1
      ∧ s1.pathC = 0 ∧ s1.learnt_clause = p.neg :: rest
      ∧ (∃ t ∈ s.trail, t.lit = p ∧ t.lev = d)
      ∧ (∀ q ∈ rest, 0 < s1.level q ∧ s1.level q < d)
      ∧ s1.learnt_clause.countP (fun q => s1.level q = d) = 1 := by
  obtain ⟨s1, p, rest, h1, hf, hz, hL, hpiv, hadd, _, _, _⟩ :=
    create_learnt_clause_result update_bogoprops h0 hc hseen hl
  have hrest : ∀ q ∈ rest, 0 < s1.level q ∧ s1.level q < d := by
    intro q hq
    rw [hf.level]
    exact ⟨(hadd q hq).2.1, (hadd q hq).2.2.1⟩
  refine ⟨s1, p, rest, h1, hz, hL, hpiv, hrest, ?_⟩
  obtain ⟨t, ht, htp, htl⟩ := hpiv
  have hp : s1.level p.neg = d := by
    rw [hf.level]
    have := h0.level_eq ht
    simp only [Searcher.level, Lit.var_neg] at this ⊢
    rw [← htp, this, htl]
  have h0c : rest.countP (fun q => decide (s1.level q = d)) = 0 := by
    apply List.countP_eq_zero.2
    intro q hq
    have := hrest q hq
    simp only [decide_eq_true_eq]
    omega
  rw [hL, List.countP_cons_of_pos _ _ (by simpa using hp), h0c]

/-- Witness for C2 on `ex_unit`. -/
theorem create_learnt_clause_first_uip_witness :
    ∃ s1 p rest, create_learnt_clause false ex_unit (.clause_t 0) = some s1
      ∧ s1.pathC = 0 ∧ s1.learnt_clause = p.neg :: rest
      ∧ (∃ t ∈ ex_unit.trail, t.lit = p ∧ t.lev = 1)
      ∧ (∀ q ∈ rest, 0 < s1.level q ∧ s1.level q < 1)
      ∧ s1.learnt_clause.countP (fun q => s1.level q = 1) = 1 :=
  create_learnt_clause_first_uip false ex_unit (.clause_t 0) 1 (by decide) (by decide)
    (fun _ => rfl) rfl

/-- C3: `find_backtrack_level_of_learnt` returns 0 and changes nothing when the learnt clause
has at most one literal; otherwise it returns the greatest level over `L[1..]`, and afterwards
`L[1]` has that level, `L[0]` is unchanged and the clause is a permutation of the old one. -/
theorem find_backtrack_level_of_learnt_spec (s : Searcher) :
    (s.learnt_clause.length ≤ 1 → find_backtrack_level_of_learnt s = (0, s))
    ∧ (1 < s.learnt_clause.length →
        (∀ l ∈ s.learnt_clause.tail, s.level l ≤ (find_backtrack_level_of_learnt s).1)
        ∧ (∃ l ∈ s.learnt_clause.tail, s.level l = (find_backtrack_level_of_learnt s).1)
        ∧ (find_backtrack_level_of_learnt s).2.level
            ((find_backtrack_level_of_learnt s).2.learnt_clause.getD 1 lit_Undef)
            = (find_backtrack_level_of_learnt s).1
        ∧ (find_backtrack_level_of_learnt s).2.learnt_clause.head? = s.learnt_clause.head?
        ∧ (find_backtrack_level_of_learnt s).2.learnt_clause.Perm s.learnt_clause) := by
  refine ⟨?_, ?_⟩
  · intro h
    simp [find_backtrack_level_of_learnt, h]
  · intro h
    obtain ⟨h1, h2, h3, h4, h5, _⟩ := find_backtrack_level_of_learnt_facts s h
    exact ⟨h1, h2, h3, h4, h5⟩

/-- Witness for C3: on `ex_learnt` (levels 3, 1, 2, 1) the result is level 2 and the clause
`[¬x0, ¬x2, ¬x1, ¬x3]`; on a unit clause the result is 0. -/
theorem find_backtrack_level_of_learnt_spec_witness :
    (find_backtrack_level_of_learnt ex_learnt).1 = 2
      ∧ (find_backtrack_level_of_learnt ex_learnt).2.learnt_clause = [⟨1⟩, ⟨5⟩, ⟨3⟩, ⟨7⟩]
      ∧ (find_backtrack_level_of_learnt ex_learnt).2.learnt_clause.Perm ex_learnt.learnt_clause
      ∧ find_backtrack_level_of_learnt { ex_learnt with learnt_clause := [⟨1⟩] }
          = (0, { ex_learnt with learnt_clause := [⟨1⟩] }) :=
  ⟨by decide, by decide,
    ((find_backtrack_level_of_learnt_spec ex_learnt).2 (by decide)).2.2.2.2,
    (find_backtrack_level_of_learnt_spec { ex_learnt with learnt_clause := [⟨1⟩] }).1
      (by decide)⟩

end Searcher
end CMSat

namespace CMSat
namespace Searcher

/-! ## Claims on the backtrack and the glue -/

/-- C4: in `handle_conflict`, for a conflict at a level above 0 on a well-formed trail (marks
clear, as they are between conflicts), right after the backtrack, whichever `cancelUntil` branch
was taken, and before the learnt clause is enqueued: the first literal of the learnt clause is
unassigned, every other literal is False, and the backtrack level handed on is the level of
`L[1]`, or 0 for a unit clause. -/
theorem handle_conflict_backtrack_learnt (s : Searcher) (confl : PropBy)
    (h : conflict_state s confl) :
    ∃ o, handle_conflict_backtrack s confl = some (.inr o)
      ∧ ∃ l0 rest, o.st.learnt_clause = l0 :: rest
        ∧ o.st.value l0 = l_Undef
        ∧ (∀ q ∈ rest, o.st.value q = l_False)
        ∧ (rest = [] → o.backtrack_level = 0)
        ∧ (∀ q0 r, rest = q0 :: r → o.backtrack_level = o.st.level q0) := by
  obtain ⟨o, h1, _, _, _, l0, rest, h2, h3, h4, h5, h6, _⟩ := handle_conflict_backtrack_spec h
  exact ⟨o, h1, l0, rest, h2, h3, h4, h5, h6⟩

/-- Witness for C4 on `ex_glue`, without and with chronological backtracking. -/
theorem handle_conflict_backtrack_learnt_witness :
    (∃ o, handle_conflict_backtrack ex_glue (.clause_t 0) = some (.inr o)
      ∧ ∃ l0 rest, o.st.learnt_clause = l0 :: rest
        ∧ o.st.value l0 = l_Undef
        ∧ (∀ q ∈ rest, o.st.value q = l_False)
        ∧ (rest = [] → o.backtrack_level = 0)
        ∧ (∀ q0 r, rest = q0 :: r → o.backtrack_level = o.st.level q0))
    ∧ (∃ o, handle_conflict_backtrack
          { ex_glue with conf := { ex_glue.conf with diff_declev_for_chrono := 0 } }
          (.clause_t 0) = some (.inr o)
      ∧ ∃ l0 rest, o.st.learnt_clause = l0 :: rest
        ∧ o.st.value l0 = l_Undef
        ∧ (∀ q ∈ rest, o.st.value q = l_False)
        ∧ (rest = [] → o.backtrack_level = 0)
        ∧ (∀ q0 r, rest = q0 :: r → o.backtrack_level = o.st.level q0)) :=
  ⟨handle_conflict_backtrack_learnt ex_glue (.clause_t 0)
      ⟨by decide, by decide, by decide, fun _ => rfl, fun _ => Nat.le_refl _, by decide⟩,
   handle_conflict_backtrack_learnt
      { ex_glue with conf := { ex_glue.conf with diff_declev_for_chrono := 0 } } (.clause_t 0)
      ⟨by decide, by decide, by decide, fun _ => rfl, fun _ => Nat.le_refl _, by decide⟩⟩

/-- C5, as the claim states it, fails: on `ex_glue` the trail is well-formed and the clause at
offset 0 is a conflict of level 3; `analyze_conflict` counts the glue 3 on the clause
`(¬x2 ∨ ¬x1 ∨ ¬x0)` and then `minimise_redundant_more_more` drops `¬x1` through the binary clause
`(¬x2 ∨ x1)`, so the clause returned has 2 literals and the glue returned is 3. -/
theorem analyze_conflict_glue_exceeds :
    trail_ok ex_glue ∧ is_conflict_at ex_glue (.clause_t 0) 3
      ∧ (analyze_conflict false ex_glue (.clause_t 0)).map
          (fun r => (r.1.learnt_clause, r.2.2)) = some ([⟨5⟩, ⟨1⟩], 3) :=
  ⟨by decide, by decide, by decide!⟩

/-- C5 (amended): on a well-formed trail, for a conflict whose first literal has the highest
level `d > 0` (marks clear), when the last minimisation is off (`doMinimRedMoreMore = 0`),
`analyze_conflict` returns a glue that is at most the number of literals of the learnt clause it
returns. -/
theorem analyze_conflict_glue_le (update_bogoprops : Bool) (s : Searcher) (confl : PropBy)
    (d : Nat) (h0 : trail_ok s) (hc : is_conflict_at s confl d)
    (hseen : ∀ v, s.seen v = false) (hperm : ∀ v, s.permDiff v ≤ s.MYFLAG)
    (hoff : s.conf.doMinimRedMoreMore = 0) :
    ∃ s1 out_btlevel glue, analyze_conflict update_bogoprops s confl = some (s1, out_btlevel, glue)
      ∧ glue ≤ s1.learnt_clause.length := by
  obtain ⟨s1, b, g, h1, h2⟩ := analyze_conflict_spec update_bogoprops h0 hc hseen hperm
  exact ⟨s1, b, g, h1, h2.glue_le hoff⟩

/-- Witness for C5 (amended) on `ex_unit`. -/
theorem analyze_conflict_glue_le_witness :
    ∃ s1 out_btlevel glue, analyze_conflict false ex_unit (.clause_t 0)
        = some (s1, out_btlevel, glue)
      ∧ glue ≤ s1.learnt_clause.length :=
  analyze_conflict_glue_le false ex_unit (.clause_t 0) 1 (by decide) (by decide)
    (fun _ => rfl) (fun _ => Nat.le_refl _) rfl

end Searcher
end CMSat

namespace CMSat
namespace Searcher

/-! ## Claim on the final conflict -/

/-- C6: between conflicts (marks clear) and with every decision of the trail an assumption
literal, `new_decision` returns, and when it returns `l_False` it has found an assumption `p`
that is False and left in `conflict` the negation of `p` followed by negations of decision
literals of the trail; so every literal of `conflict` is the negation of an assumption literal.
When the decision level is 0 or `p` was falsified at level 0, `conflict` is that single
literal. -/
theorem new_decision_final_conflict (c : Collab) (s : Searcher)
    (hseen : ∀ v, s.seen v = false) (hperm : ∀ v, s.permDiff v ≤ s.MYFLAG)
    (hdec : decisions_assumed s) :
    ∃ st s1, new_decision c s = some (st, s1)
      ∧ (st = l_False →
          ∃ p ∈ s.assumptions, s.value p = l_False
            ∧ ∃ rest, s1.conflict = p.neg :: rest
              ∧ (∀ q ∈ rest, ∃ e ∈ s.trail, q = e.lit.neg
                  ∧ (s.varData e.lit.var).reason = .null_clause_t
                  ∧ 0 < (s.varData e.lit.var).level ∧ e.lit ∈ s.assumptions)
              ∧ (∀ q ∈ s1.conflict, ∃ a ∈ s.assumptions, q = a.neg)
              ∧ (s1.decisionLevel = 0 ∨ (s.varData p.var).level = 0 → s1.conflict = [p.neg])) := by
  obtain ⟨st, s1, h1, h2⟩ := new_decision_spec c s hseen hperm
  refine ⟨st, s1, h1, ?_⟩
  intro hst
  obtain ⟨p, hlt, hp, hval, rest, hc, hrest, hz⟩ := h2 hst
  have hpm : p ∈ s.assumptions := by
    rw [hp, List.getD_eq_getElem _ _ hlt]
    exact List.getElem_mem _
  have hrest1 : ∀ q ∈ rest, ∃ e ∈ s.trail, q = e.lit.neg
      ∧ (s.varData e.lit.var).reason = .null_clause_t
      ∧ 0 < (s.varData e.lit.var).level ∧ e.lit ∈ s.assumptions := by
    intro q hq
    obtain ⟨e, he, hqe, hr, hl⟩ := hrest q hq
    exact ⟨e, he, hqe, hr, hl, hdec e he hr hl⟩
  refine ⟨p, hpm, hval, rest, hc, hrest1, ?_, ?_⟩
  · intro q hq
    rw [hc] at hq
    rcases List.mem_cons.1 hq with hq | hq
    · exact ⟨p, hpm, hq⟩
    · obtain ⟨e, _, hqe, _, _, hea⟩ := hrest1 q hq
      exact ⟨e.lit, hea, hqe⟩
  · intro h
    rw [hc, hz h]

/-- Witness for C6: on `ex_assump` the False assumption `x1` gives the conflict `(¬x1, ¬x0)`; on
`ex_assump0` (scenario 5 of the spec, decision level 0) the conflict is the single literal
`x1`. -/
theorem new_decision_final_conflict_witness :
    (∃ st s1, new_decision Collab.idle ex_assump = some (st, s1)
      ∧ (st = l_False →
          ∃ p ∈ ex_assump.assumptions, ex_assump.value p = l_False
            ∧ ∃ rest, s1.conflict = p.neg :: rest
              ∧ (∀ q ∈ rest, ∃ e ∈ ex_assump.trail, q = e.lit.neg
                  ∧ (ex_assump.varData e.lit.var).reason = .null_clause_t
                  ∧ 0 < (ex_assump.varData e.lit.var).level ∧ e.lit ∈ ex_assump.assumptions)
              ∧ (∀ q ∈ s1.conflict, ∃ a ∈ ex_assump.assumptions, q = a.neg)
              ∧ (s1.decisionLevel = 0 ∨ (ex_assump.varData p.var).level = 0 →
                  s1.conflict = [p.neg])))
    ∧ (new_decision Collab.idle ex_assump).map (fun r => (r.1, r.2.conflict))
        = some (l_False, [⟨3⟩, ⟨1⟩])
    ∧ (new_decision Collab.idle ex_assump0).map (fun r => (r.1, r.2.conflict))
        = some (l_False, [⟨2⟩]) :=
  ⟨new_decision_final_conflict Collab.idle ex_assump (fun _ => rfl) (fun _ => Nat.le_refl _)
      (by decide),
    by decide, by decide⟩

end Searcher
end CMSat

namespace CMSat
namespace Searcher

/-! ## Claims on the conflict at level 0 and on the restart -/

/-- C7: for a conflicting constraint on a well-formed trail (marks clear), `handle_conflict`
returns false exactly when every literal of the constraint has level 0.  In that case it has only
advanced the conflict counters and cleared `ok`: nothing is backtracked and no clause is learnt,
and a `search` whose propagation reported this conflict returns `l_False`.  When some literal has
a level above 0 the result is never false, and the call returns true: with the decision-based
clauses off, and with them on when every level that a trail literal carries starts with a
literal of that level (the invariant of the trail under which the backward scan over
`decision_clause` stays in bounds). -/
theorem handle_conflict_false_iff_level0 (c : Collab) (env : Env) (s : Searcher) (confl : PropBy)
    (h0 : trail_ok s) (hc : is_conflict s confl)
    (hseen : ∀ v, s.seen v = false) (hperm : ∀ v, s.permDiff v ≤ s.MYFLAG)
    (hlim : ∀ lim ∈ s.trail_lim, lim < s.trail.length) :
    (∀ r, handle_conflict s confl = some r →
        (r.1 = false ↔ ∀ q ∈ confl_lits s confl, s.level q = 0))
    ∧ ((∀ q ∈ confl_lits s confl, s.level q = 0) →
        handle_conflict s confl = some (false, { note_conflict s with ok := false })
        ∧ ∀ (fuel : Nat) (t : Searcher), t.ok = true → t.params.needToStopSearch = false →
            c.propagate_any_order_fast { t with glueHist := [], trailDepthHistLonger := [] }
              = (confl, s) →
            ∃ s1, search c env (fuel + 1) t = some (l_False, s1) ∧ s1.ok = false
              ∧ s1.trail = s.trail ∧ s1.trail_lim = s.trail_lim ∧ s1.assigns = s.assigns
              ∧ s1.longRedCls = s.longRedCls ∧ s1.watches = s.watches)
    ∧ ((∃ q ∈ confl_lits s confl, 0 < s.level q) →
        s.conf.do_decision_based_cl = false ∨ levels_rooted s →
        ∃ s1, handle_conflict s confl = some (true, s1)) := by
  refine ⟨?_, ?_, ?_⟩
  · intro r hr
    constructor
    · intro hf
      by_contra hne
      have hex : ∃ q ∈ confl_lits s confl, 0 < s.level q := by
        by_contra hno
        apply hne
        intro q hq
        by_contra hq0
        exact hno ⟨q, hq, Nat.pos_of_ne_zero hq0⟩
      have := handle_conflict_not_false ⟨h0, hc, hex, hseen, hperm, hlim⟩ r hr
      rw [hf] at this
      cases this
    · intro hz
      rw [handle_conflict_level0 h0 hc hz] at hr
      cases hr
      rfl
  · intro hz
    refine ⟨handle_conflict_level0 h0 hc hz, ?_⟩
    intro fuel t hok hgo hp
    exact ⟨_, search_conflict_level0 c env fuel t s confl hok hgo hp h0 hc hz,
      rfl, rfl, rfl, rfl, rfl, rfl⟩
  · intro hex hor
    rcases hor with hoff | hroot
    · exact handle_conflict_returns ⟨h0, hc, hex, hseen, hperm, hlim⟩ hoff
    · exact handle_conflict_returns_rooted ⟨h0, hc, hex, hseen, hperm, hlim⟩ hroot

/-- Witness for C7: on `ex_level0` (conflict of level 0) `handle_conflict` returns false and the
`search` that meets this conflict returns `l_False` with `ok` cleared; on `ex_glue` (conflict of
level 3, decision-based clauses off) and on `ex_decision` (conflict of level 2, decision-based
clauses on, levels rooted) `handle_conflict` returns true. -/
theorem handle_conflict_false_iff_level0_witness :
    handle_conflict ex_level0 (.clause_t 0)
        = some (false, { note_conflict ex_level0 with ok := false })
    ∧ (∃ s1, search Collab.script Env.calm 1 ex_level0 = some (l_False, s1) ∧ s1.ok = false
        ∧ s1.trail = ex_level0.trail ∧ s1.trail_lim = ex_level0.trail_lim
        ∧ s1.assigns = ex_level0.assigns ∧ s1.longRedCls = ex_level0.longRedCls
        ∧ s1.watches = ex_level0.watches)
    ∧ (∃ s1, handle_conflict ex_glue (.clause_t 0) = some (true, s1))
    ∧ (∃ s1, handle_conflict ex_decision (.clause_t 0) = some (true, s1)) :=
  ⟨((handle_conflict_false_iff_level0 Collab.script Env.calm ex_level0 (.clause_t 0)
      (by decide) (by decide) (fun _ => rfl) (fun _ => Nat.le_refl _) (by decide)).2.1
      (by decide)).1,
   ((handle_conflict_false_iff_level0 Collab.script Env.calm ex_level0 (.clause_t 0)
      (by decide) (by decide) (fun _ => rfl) (fun _ => Nat.le_refl _) (by decide)).2.1
      (by decide)).2 0 ex_level0 rfl rfl rfl,
   (handle_conflict_false_iff_level0 Collab.script Env.calm ex_glue (.clause_t 0)
      (by decide) (by decide) (fun _ => rfl) (fun _ => Nat.le_refl _) (by decide)).2.2
      (by decide) (Or.inl rfl),
   (handle_conflict_false_iff_level0 Collab.script Env.calm ex_decision (.clause_t 0)
      (by decide) (by decide) (fun _ => rfl) (fun _ => Nat.le_refl _) (by decide)).2.2
      (by decide) (Or.inr (by decide))⟩

/-- C8: whenever `search` returns `l_Undef`, it has charged the restart budget, cancelled to
level 0, the propagation that followed found no conflict, and the synchronisation succeeded;
the returned state is the one the synchronisation left, at decision level 0 when propagation
and synchronisation leave the decision levels alone.  Had that propagation found a conflict, the
end of `search` would have cleared `ok` and returned `l_False`. -/
theorem search_undef_level0 (c : Collab) (env : Env) (fuel : Nat) (s s1 : Searcher)
    (h : search c env fuel s = some (l_Undef, s1)) :
    (∃ t, (cancelUntil t 0).decisionLevel = 0
      ∧ (propagate c (cancelUntil t 0)).1.isNULL = true
      ∧ c.syncData (propagate c (cancelUntil t 0)).2 = (true, s1)
      ∧ ((∀ u, (c.propagate_any_order u).2.trail_lim = u.trail_lim) →
          (∀ u, (c.syncData u).2.trail_lim = u.trail_lim) → s1.decisionLevel = 0))
    ∧ ∀ t, (propagate c (cancelUntil (charge_restart_budget t) 0)).1.isNULL = false →
        search_finish c t
          = (l_False, { (propagate c (cancelUntil (charge_restart_budget t) 0)).2 with
                          ok := false }) := by
  constructor
  · unfold search at h
    split at h
    · cases h
    · rename_i r t hl
      simp only [Option.some.injEq, Prod.mk.injEq] at h
      have := search_loop_goto_ne_undef c env fuel _ _ r t hl
      exact absurd h.1 this
    · rename_i t hl
      simp only [Option.some.injEq] at h
      obtain ⟨hd, hn, hsync⟩ := search_finish_undef c t s1 h
      refine ⟨charge_restart_budget t, hd, hn, hsync, ?_⟩
      intro hp hs
      have e1 := hs (propagate c (cancelUntil (charge_restart_budget t) 0)).2
      rw [hsync] at e1
      have e2 := hp (cancelUntil (charge_restart_budget t) 0)
      have e3 : s1.trail_lim = (cancelUntil (charge_restart_budget t) 0).trail_lim :=
        e1.trans e2
      simp only [Searcher.decisionLevel] at hd ⊢
      rw [e3]; exact hd
  · intro t hn
    unfold search_finish
    simp only [hn, Bool.not_false, if_true]

/-- Witness for C8: from `ex_run` the search meets a conflict at level 3, learns a clause,
restarts, and returns `l_Undef` at decision level 0. -/
theorem search_undef_level0_witness :
    ∃ s1, search Collab.script Env.calm 10 ex_run = some (l_Undef, s1)
      ∧ s1.decisionLevel = 0 := by
  have hm : (search Collab.script Env.calm 10 ex_run).map Prod.fst = some l_Undef := by decide!
  cases hs : search Collab.script Env.calm 10 ex_run with
  | none => rw [hs] at hm; cases hm
  | some r =>
    obtain ⟨st, s1⟩ := r
    rw [hs] at hm
    simp only [Option.map_some', Option.some.injEq] at hm
    subst hm
    obtain ⟨⟨t, _, _, _, hd⟩, _⟩ := search_undef_level0 Collab.script Env.calm 10 ex_run s1 hs
    exact ⟨s1, rfl, hd (fun _ => rfl) (fun _ => rfl)⟩

end Searcher
end CMSat

namespace CMSat
namespace Searcher

/-! ## Claim on the model returned on SAT -/

/-- C9: whenever `solve` returns `l_True` on the state `s` (fast-backward mode off, a heap
strategy configured, the heaps holding every unassigned active variable, the collaborators
keeping their contracts, of which none weakens the formula), its loop ended in a state `t` left
by `new_decision` with nothing to branch on after a conflict-free propagation; the model
recorded is the copy of the assignment of `t` taken in `finish_up_solve`, and it satisfies every
original clause of the formula that `solve` was called with: every ordinary clause of `s` has a
literal that is True in the model, every XOR clause of `s` has all its variables assigned and
the required parity, and every fact of `s` (trail literal of level 0) is True in the model.  The
same holds of the original clauses that the solver holds when it returns. -/
theorem solve_true_model_sat (c : Collab) (env : Env) (sfuel fuel : Nat) (s : Searcher)
    (m : Nat) (r : Searcher) (hc : Collab.sound c) (hs : solve_pre s)
    (h : solve c env sfuel fuel s m = some (l_True, r)) :
    (∃ t, satisfies t t.assigns
        ∧ r = (propagate c (cancelUntil { t with model := t.assigns } 0)).2
        ∧ r.model = t.assigns)
    ∧ (∀ C, irred_clause s C → ∃ l ∈ C, (r.model l.var).xor l.sign = l_True)
    ∧ (∀ x ∈ s.xorclauses, (∀ v ∈ x.1, r.model v ≠ l_Undef) ∧ xor_parity r.model x.1 = x.2)
    ∧ (∀ e ∈ s.trail, e.lev = 0 → (r.model e.lit.var).xor e.lit.sign = l_True)
    ∧ (∀ C, irred_clause r C → ∃ l ∈ C, (r.model l.var).xor l.sign = l_True)
    ∧ (∀ x ∈ r.xorclauses, (∀ v ∈ x.1, r.model v ≠ l_Undef) ∧ xor_parity r.model x.1 = x.2) := by
  obtain ⟨_, h1, h2, h3⟩ := solve_true_holds c env sfuel fuel s m r hc hs h
  exact ⟨h1, h3.1.1, h3.1.2, h3.2, h2.1, h2.2⟩

/-- Witness for C9: on the formula `(x0 ∨ x1 ∨ x2) ∧ (¬x0 ∨ x1) ∧ (x1 ⊕ x2)` of `ex_sat`, with
the checking propagator, `solve` returns `l_True` with the model `x0 = x1 = True`,
`x2 = False`, which satisfies the three clauses of `ex_sat`. -/
theorem solve_true_model_sat_witness :
    ∃ r, solve Collab.checker Env.calm 10 3 ex_sat 100 = some (l_True, r)
      ∧ r.model 0 = l_True ∧ r.model 1 = l_True ∧ r.model 2 = l_False
      ∧ (∀ C, irred_clause ex_sat C → ∃ l ∈ C, (r.model l.var).xor l.sign = l_True)
      ∧ (∀ x ∈ ex_sat.xorclauses,
          (∀ v ∈ x.1, r.model v ≠ l_Undef) ∧ xor_parity r.model x.1 = x.2)
      ∧ (∀ e ∈ ex_sat.trail, e.lev = 0 → (r.model e.lit.var).xor e.lit.sign = l_True)
      ∧ (∀ C, irred_clause r C → ∃ l ∈ C, (r.model l.var).xor l.sign = l_True)
      ∧ (∀ x ∈ r.xorclauses,
          (∀ v ∈ x.1, r.model v ≠ l_Undef) ∧ xor_parity r.model x.1 = x.2) := by
  have hm : (solve Collab.checker Env.calm 10 3 ex_sat 100).map
      (fun r => (r.1, r.2.model 0, r.2.model 1, r.2.model 2))
      = some (l_True, l_True, l_True, l_False) := by decide!
  cases hs : solve Collab.checker Env.calm 10 3 ex_sat 100 with
  | none => rw [hs] at hm; cases hm
  | some q =>
    obtain ⟨st, r⟩ := q
    rw [hs] at hm
    simp only [Option.map_some', Option.some.injEq, Prod.mk.injEq] at hm
    obtain ⟨e0, e1, e2, e3⟩ := hm
    subst e0
    have hw := solve_true_model_sat Collab.checker Env.calm 10 3 ex_sat 100 r checker_sound
      ex_sat_pre hs
    exact ⟨r, rfl, e1, e2, e3, hw.2⟩

end Searcher
end CMSat

namespace CMSat
namespace Searcher

/-! ## Claim on determinism -/

/-- C10, as the claim states it, fails: `ex_entry` is a state that `solve` accepts (`ok` is set
and `qhead == trail.size()`), and from it, with the same collaborators (unit propagation over the
binary clauses) and the same conflict limit 100, `solve` returns `l_True` under a clock that
stands at 0 and `l_Undef` under a clock that is past `maxTime`.  The decision `x0` propagates
`x1` and meets the conflict `(¬x1 ∨ ¬x0)`; the unit `¬x0` is learnt and the search restarts; then
`must_abort` reads the clock and either gives up or lets the next search find the model. -/
theorem solve_depends_on_clock :
    (ex_entry.ok = true ∧ ex_entry.qhead = ex_entry.trail.length)
      ∧ (solve Collab.binary Env.calm 10 10 ex_entry 100).map
          (fun r => (r.1, r.2.model 0, r.2.model 1)) = some (l_True, l_False, l_True)
      ∧ (solve Collab.binary Env.late 10 10 ex_entry 100).map Prod.fst = some l_Undef :=
  ⟨by decide, by decide!, by decide!⟩

/-- C10 (amended): two runs of `solve` from the same state, with the same collaborators (which
leave the configuration alone) and the same conflict limit, return the same status and the same
state whenever in both runs the clock stays below `maxTime` and the interrupt flag is never
set. -/
theorem solve_deterministic_when_quiet (c : Collab) (hc : c.keeps_conf) (env1 env2 : Env)
    (sfuel fuel : Nat) (s : Searcher) (_max_confls : Nat)
    (h1 : env1.quiet s.conf.maxTime) (h2 : env2.quiet s.conf.maxTime) :
    solve c env1 sfuel fuel s _max_confls = solve c env2 sfuel fuel s _max_confls :=
  solve_quiet c hc env1 env2 sfuel fuel s _max_confls h1 h2

/-- Witness for C10 (amended): from `ex_entry` the runs under the clocks `Env.calm` and
`Env.busy` agree, and both return `l_True`. -/
theorem solve_deterministic_when_quiet_witness :
    solve Collab.binary Env.calm 10 10 ex_entry 100
        = solve Collab.binary Env.busy 10 10 ex_entry 100
      ∧ (solve Collab.binary Env.busy 10 10 ex_entry 100).map Prod.fst = some l_True :=
  ⟨solve_deterministic_when_quiet Collab.binary binary_keeps_conf Env.calm Env.busy 10 10
      ex_entry 100 (fun _ => ⟨(by decide : (0 : Nat) < 1000000), rfl⟩)
      (fun _ => ⟨(by decide : (999999 : Nat) < 1000000), rfl⟩),
    by decide!⟩

end Searcher
end CMSat

namespace CMSat
namespace Searcher

/-! ## Claims on the backtrack level and on `cancelUntil` -/

/-- C11, as the claim states it, fails: `ex_chrono` is a conflict state of decision level 3 with
`diff_declev_for_chrono = 2`; the backtrack level computed is 1, so the current level minus the
backtrack level is 2 and does not exceed the threshold, and yet `handle_conflict` backtracks to
level 2, the highest level of the conflict clause (3) minus one, not to level 1: the test in the
code is `>=`. -/
theorem handle_conflict_chrono_at_threshold :
    conflict_state ex_chrono (.clause_t 0)
      ∧ ex_chrono.conf.diff_declev_for_chrono = 2
      ∧ ex_chrono.decisionLevel = 3
      ∧ (handle_conflict_backtrack ex_chrono (.clause_t 0)).map
          (Sum.elim (fun _ => none)
            (fun o => some (o.backtrack_level, o.nHighestLevel, o.st.decisionLevel)))
        = some (some (1, 3, 2)) :=
  ⟨⟨by decide, by decide, by decide, fun _ => rfl, fun _ => Nat.le_refl _, by decide⟩,
    rfl, rfl, by decide!⟩

/-- C11 (amended): for every conflict at a level above 0 (well-formed trail, marks clear) with
computed backtrack level `o.backtrack_level`, `handle_conflict` backtracks, from a state `s4`
with the trail, the levels and the assignment of the conflict, to the highest level of the
conflict clause minus one exactly when chronological backtracking is enabled
(`diff_declev_for_chrono > -1`) and the current decision level minus the backtrack level is at
least `diff_declev_for_chrono`; in every other case, in particular always when
`diff_declev_for_chrono` is -1, it backtracks to the backtrack level. -/
theorem handle_conflict_chrono_level (s : Searcher) (confl : PropBy)
    (h : conflict_state s confl) :
    ∃ o s4, handle_conflict_backtrack s confl = some (.inr o)
      ∧ s4.trail = s.trail ∧ s4.trail_lim = s.trail_lim ∧ s4.assigns = s.assigns
      ∧ (∀ q ∈ confl_lits s confl, s.level q ≤ o.nHighestLevel)
      ∧ (∃ q ∈ confl_lits s confl, s.level q = o.nHighestLevel)
      ∧ ((s.conf.diff_declev_for_chrono > -1
            ∧ (s.decisionLevel : Int) - (o.backtrack_level : Int)
                ≥ s.conf.diff_declev_for_chrono)
          → o.st = cancelUntil s4 (o.nHighestLevel - 1)
            ∧ o.st.decisionLevel = o.nHighestLevel - 1)
      ∧ (¬ (s.conf.diff_declev_for_chrono > -1
            ∧ (s.decisionLevel : Int) - (o.backtrack_level : Int)
                ≥ s.conf.diff_declev_for_chrono)
          → o.st = cancelUntil s4 o.backtrack_level
            ∧ o.st.decisionLevel = o.backtrack_level)
      ∧ (s.conf.diff_declev_for_chrono = -1 → o.st.decisionLevel = o.backtrack_level) := by
  obtain ⟨o, s4, h1, hpos, hle, hex, hlt, hdl, htr, hlim, hconf, hasg, hst⟩ :=
    handle_conflict_backtrack_chrono h
  have hd4 : s4.decisionLevel = s.decisionLevel := by
    simp only [Searcher.decisionLevel, hlim]
  have hyes : (s.conf.diff_declev_for_chrono > -1
      ∧ (s.decisionLevel : Int) - (o.backtrack_level : Int) ≥ s.conf.diff_declev_for_chrono)
      → o.st = cancelUntil s4 (o.nHighestLevel - 1)
        ∧ o.st.decisionLevel = o.nHighestLevel - 1 := by
    intro hc
    have e : o.st = cancelUntil s4 (o.nHighestLevel - 1) := by
      rw [hst]
      unfold backtrack_after_conflict
      rw [hconf, hd4, if_pos hc]
    refine ⟨e, ?_⟩
    rw [e]
    exact cancelUntil_decisionLevel s4 _ (by rw [hd4]; omega)
  have hno : ¬ (s.conf.diff_declev_for_chrono > -1
      ∧ (s.decisionLevel : Int) - (o.backtrack_level : Int) ≥ s.conf.diff_declev_for_chrono)
      → o.st = cancelUntil s4 o.backtrack_level
        ∧ o.st.decisionLevel = o.backtrack_level := by
    intro hc
    have e : o.st = cancelUntil s4 o.backtrack_level := by
      rw [hst]
      unfold backtrack_after_conflict
      rw [hconf, hd4, if_neg hc]
    refine ⟨e, ?_⟩
    rw [e]
    exact cancelUntil_decisionLevel s4 _ (by rw [hd4]; omega)
  refine ⟨o, s4, h1, htr, hlim, hasg, hle, hex, hyes, hno, ?_⟩
  intro hm
  exact (hno (by rw [hm]; rintro ⟨h', _⟩; exact absurd h' (by decide))).2

/-- Witness for C11 (amended) on `ex_chrono`. -/
theorem handle_conflict_chrono_level_witness :
    conflict_state ex_chrono (.clause_t 0)
    ∧ ∃ o s4, handle_conflict_backtrack ex_chrono (.clause_t 0) = some (.inr o)
      ∧ s4.trail = ex_chrono.trail ∧ s4.trail_lim = ex_chrono.trail_lim
      ∧ s4.assigns = ex_chrono.assigns
      ∧ (∀ q ∈ confl_lits ex_chrono (.clause_t 0), ex_chrono.level q ≤ o.nHighestLevel)
      ∧ (∃ q ∈ confl_lits ex_chrono (.clause_t 0), ex_chrono.level q = o.nHighestLevel)
      ∧ ((ex_chrono.conf.diff_declev_for_chrono > -1
            ∧ (ex_chrono.decisionLevel : Int) - (o.backtrack_level : Int)
                ≥ ex_chrono.conf.diff_declev_for_chrono)
          → o.st = cancelUntil s4 (o.nHighestLevel - 1)
            ∧ o.st.decisionLevel = o.nHighestLevel - 1)
      ∧ (¬ (ex_chrono.conf.diff_declev_for_chrono > -1
            ∧ (ex_chrono.decisionLevel : Int) - (o.backtrack_level : Int)
                ≥ ex_chrono.conf.diff_declev_for_chrono)
          → o.st = cancelUntil s4 o.backtrack_level
            ∧ o.st.decisionLevel = o.backtrack_level)
      ∧ (ex_chrono.conf.diff_declev_for_chrono = -1
          → o.st.decisionLevel = o.backtrack_level) :=
  ⟨⟨by decide, by decide, by decide, fun _ => rfl, fun _ => Nat.le_refl _, by decide⟩,
   handle_conflict_chrono_level ex_chrono (.clause_t 0)
    ⟨by decide, by decide, by decide, fun _ => rfl, fun _ => Nat.le_refl _, by decide⟩⟩

/-- C12: for every state with `decisionLevel() > b` in which level `b` starts inside the trail,
all trail entries before position `trail_lim[b]` have level at most `b`, and no variable stands
twice on the trail, after `cancelUntil(b)` the decision level is `b`, the trail consists of
exactly the old trail entries whose recorded level is at most `b`, in their old order, every
variable of a removed entry is unassigned, every variable of a kept entry keeps its value, and
`qhead` is the old `trail_lim[b]`. -/
theorem cancelUntil_keeps_levels_upto (s : Searcher) (b : Nat) (hb : b < s.decisionLevel)
    (hlen : s.trail_lim.getD b 0 ≤ s.trail.length)
    (hpre : ∀ u ∈ s.trail.take (s.trail_lim.getD b 0), u.lev ≤ b)
    (hnodup : (s.trail.map (fun t => t.lit.var)).Nodup) :
    (cancelUntil s b).decisionLevel = b
      ∧ (cancelUntil s b).trail = s.trail.filter (fun e => decide (e.lev ≤ b))
      ∧ (∀ e ∈ s.trail, b < e.lev → (cancelUntil s b).assigns e.lit.var = l_Undef)
      ∧ (∀ e ∈ s.trail, e.lev ≤ b → (cancelUntil s b).assigns e.lit.var = s.assigns e.lit.var)
      ∧ (cancelUntil s b).qhead = s.trail_lim.getD b 0 := by
  obtain ⟨htr, hq⟩ := cancelUntil_trail s b hb hlen hpre
  refine ⟨cancelUntil_decisionLevel s b hb, htr, ?_, ?_, hq⟩
  · intro e he hlt
    rw [cancelUntil_assigns_at s b hb, if_pos]
    refine ⟨e, ?_, hlt, rfl⟩
    have hsplit := List.take_append_drop (s.trail_lim.getD b 0) s.trail
    rw [← hsplit] at he
    rcases List.mem_append.1 he with h | h
    · have := hpre e h
      omega
    · exact h
  · intro e he hle
    rw [cancelUntil_assigns_at s b hb, if_neg]
    rintro ⟨e2, he2, hlt, hv⟩
    have hem : e2 ∈ s.trail := List.mem_of_mem_drop he2
    have := List.inj_on_of_nodup_map hnodup hem he hv
    rw [this] at hlt
    omega

/-- Witness for C12 on `ex_glue` (levels 1, 2, 3, 3 on the trail) with `b = 1`. -/
theorem cancelUntil_keeps_levels_upto_witness :
    (cancelUntil ex_glue 1).decisionLevel = 1
      ∧ (cancelUntil ex_glue 1).trail = ex_glue.trail.filter (fun e => decide (e.lev ≤ 1))
      ∧ (∀ e ∈ ex_glue.trail, 1 < e.lev → (cancelUntil ex_glue 1).assigns e.lit.var = l_Undef)
      ∧ (∀ e ∈ ex_glue.trail, e.lev ≤ 1
          → (cancelUntil ex_glue 1).assigns e.lit.var = ex_glue.assigns e.lit.var)
      ∧ (cancelUntil ex_glue 1).qhead = ex_glue.trail_lim.getD 1 0 :=
  cancelUntil_keeps_levels_upto ex_glue 1 (by decide) (by decide) (by decide) (by decide)

end Searcher
end CMSat

namespace CMSat
namespace Searcher

/-! ## Claims on the learnt-clause tiers -/

/-- C13: for a learnt clause of more than two literals, `handle_last_confl` with glue `g` creates
the clause object at the next free offset, not locked for data generation, with the tier
`which_red_array` 0 if `g <= glue_put_lev0_if_below_or_eq`, 1 if
`glue_put_lev0_if_below_or_eq < g <= glue_put_lev1_if_below_or_eq`, and 2 otherwise, and the
offset is appended to the list `longRedCls[tier]` and to no other; for a learnt clause of one or
two literals no clause object is created and the state, with every list, is unchanged. -/
theorem handle_last_confl_tier (s : Searcher) (g : Nat) (is_decision : Bool) :
    (2 < s.learnt_clause.length →
      ∃ tier,
        (handle_last_confl s g is_decision).1 = some s.cl_alloc_size
        ∧ ((handle_last_confl s g is_decision).2.cl_alloc s.cl_alloc_size).lits = s.learnt_clause
        ∧ ((handle_last_confl s g is_decision).2.cl_alloc s.cl_alloc_size).isRed = true
        ∧ ((handle_last_confl s g is_decision).2.cl_alloc
            s.cl_alloc_size).stats.locked_for_data_gen = false
        ∧ ((handle_last_confl s g is_decision).2.cl_alloc s.cl_alloc_size).stats.glue = g
        ∧ ((handle_last_confl s g is_decision).2.cl_alloc
            s.cl_alloc_size).stats.which_red_array = tier
        ∧ (g ≤ s.conf.glue_put_lev0_if_below_or_eq → tier = 0)
        ∧ (s.conf.glue_put_lev0_if_below_or_eq < g ∧ g ≤ s.conf.glue_put_lev1_if_below_or_eq
            → tier = 1)
        ∧ (s.conf.glue_put_lev0_if_below_or_eq < g ∧ s.conf.glue_put_lev1_if_below_or_eq < g
            → tier = 2)
        ∧ (handle_last_confl s g is_decision).2.longRedCls tier
            = s.longRedCls tier ++ [s.cl_alloc_size]
        ∧ (∀ k, k ≠ tier → (handle_last_confl s g is_decision).2.longRedCls k = s.longRedCls k))
    ∧ (s.learnt_clause.length ≤ 2 → handle_last_confl s g is_decision = (none, s)) := by
  constructor
  · intro hlen
    have hn : ¬ s.learnt_clause.length ≤ 2 := by omega
    refine ⟨which_arr s.conf false g, ?_⟩
    unfold handle_last_confl
    rw [if_neg hn]
    have hd : (default : ClauseStats).locked_for_data_gen = false := rfl
    refine ⟨by simp [Clause_new, upd], by simp [Clause_new, upd], by simp [Clause_new, upd],
      by simp [Clause_new, upd, hd], by simp [Clause_new, upd], by simp [Clause_new, upd, hd],
      ?_, ?_, ?_, by simp [Clause_new, upd, hd], ?_⟩
    · intro h0
      simp [which_arr, h0]
    · rintro ⟨h0, h1⟩
      have : ¬ g ≤ s.conf.glue_put_lev0_if_below_or_eq := by omega
      have h2 : s.conf.glue_put_lev1_if_below_or_eq ≠ 0 := by omega
      simp [which_arr, this, h1, h2]
    · rintro ⟨h0, h1⟩
      have : ¬ g ≤ s.conf.glue_put_lev0_if_below_or_eq := by omega
      have h2 : ¬ g ≤ s.conf.glue_put_lev1_if_below_or_eq := by omega
      simp [which_arr, this, h2]
    · intro k hk
      simp [Clause_new, upd, hd, hk]
  · intro hlen
    unfold handle_last_confl
    rw [if_pos hlen]

/-- Witness for C13 on `ex_learnt`, a learnt clause of four literals, with glue 4. -/
theorem handle_last_confl_tier_witness :
    2 < ex_learnt.learnt_clause.length
      ∧ (handle_last_confl ex_learnt 4 false).1 = some ex_learnt.cl_alloc_size :=
  ⟨by decide, by
    obtain ⟨_, h, _⟩ := (handle_last_confl_tier ex_learnt 4 false).1 (by decide)
    exact h⟩

/-- C14, as the claim states it, fails: in `ex_tier2` tier 2 holds three clauses, more than
`cur_max_temp_red_lev2_cls = 2`, and `reduce_db_if_needed` does not run the tier-2 reduction
(which would leave one clause): `every_lev2_reduce` is not 0, so only the conflict count is
looked at, and it has not reached `next_lev2_reduce`. -/
theorem reduce_db_if_needed_skips_size_test :
    ex_tier2.conf.every_lev2_reduce = 15000
      ∧ ex_tier2.sumConflicts < ex_tier2.next_lev2_reduce
      ∧ (ex_tier2.longRedCls 2).length > ex_tier2.cur_max_temp_red_lev2_cls
      ∧ (Collab.halver.handle_lev2 ex_tier2).longRedCls 2 = [0]
      ∧ (reduce_db_if_needed Collab.halver ex_tier2).longRedCls 2 = [0, 1, 2] :=
  ⟨rfl, by decide, by decide, by decide, by decide⟩

/-- C14 (amended): after the tier-1 block (`reduce_db_lev1`), `reduce_db_if_needed` runs the
tier-2 reduction `handle_lev2` whenever `every_lev2_reduce` is not 0 and the conflict count has
reached `next_lev2_reduce`, or `every_lev2_reduce` is 0 and the number of tier-2 clauses exceeds
`cur_max_temp_red_lev2_cls`, and does not run it when neither holds. -/
theorem reduce_db_if_needed_lev2 (c : Collab) (s : Searcher) :
    ((reduce_db_lev1 c s).conf.every_lev2_reduce ≠ 0
        ∧ (reduce_db_lev1 c s).sumConflicts ≥ (reduce_db_lev1 c s).next_lev2_reduce
      → reduce_db_if_needed c s
          = { c.consolidate (c.handle_lev2 (reduce_db_lev1 c s)) with
              next_lev2_reduce :=
                (c.consolidate (c.handle_lev2 (reduce_db_lev1 c s))).sumConflicts
                  + (c.consolidate (c.handle_lev2 (reduce_db_lev1 c s))).conf.every_lev2_reduce })
    ∧ ((reduce_db_lev1 c s).conf.every_lev2_reduce = 0
        ∧ ((reduce_db_lev1 c s).longRedCls 2).length
            > (reduce_db_lev1 c s).cur_max_temp_red_lev2_cls
      → reduce_db_if_needed c s
          = c.consolidate
              { c.handle_lev2 (reduce_db_lev1 c s) with
                cur_max_temp_red_lev2_cls :=
                  Frac.scale (c.handle_lev2 (reduce_db_lev1 c s)).cur_max_temp_red_lev2_cls
                    (c.handle_lev2 (reduce_db_lev1 c s)).conf.inc_max_temp_lev2_red_cls })
    ∧ (¬ ((reduce_db_lev1 c s).conf.every_lev2_reduce ≠ 0
          ∧ (reduce_db_lev1 c s).sumConflicts ≥ (reduce_db_lev1 c s).next_lev2_reduce)
        ∧ ¬ ((reduce_db_lev1 c s).conf.every_lev2_reduce = 0
          ∧ ((reduce_db_lev1 c s).longRedCls 2).length
              > (reduce_db_lev1 c s).cur_max_temp_red_lev2_cls)
      → reduce_db_if_needed c s = reduce_db_lev1 c s) := by
  have hdef : reduce_db_if_needed c s
      = if (reduce_db_lev1 c s).conf.every_lev2_reduce ≠ 0 then
          if (reduce_db_lev1 c s).sumConflicts ≥ (reduce_db_lev1 c s).next_lev2_reduce then
            { c.consolidate (c.handle_lev2 (reduce_db_lev1 c s)) with
              next_lev2_reduce :=
                (c.consolidate (c.handle_lev2 (reduce_db_lev1 c s))).sumConflicts
                  + (c.consolidate (c.handle_lev2 (reduce_db_lev1 c s))).conf.every_lev2_reduce }
          else reduce_db_lev1 c s
        else
          if ((reduce_db_lev1 c s).longRedCls 2).length
              > (reduce_db_lev1 c s).cur_max_temp_red_lev2_cls then
            c.consolidate
              { c.handle_lev2 (reduce_db_lev1 c s) with
                cur_max_temp_red_lev2_cls :=
                  Frac.scale (c.handle_lev2 (reduce_db_lev1 c s)).cur_max_temp_red_lev2_cls
                    (c.handle_lev2 (reduce_db_lev1 c s)).conf.inc_max_temp_lev2_red_cls }
          else reduce_db_lev1 c s := rfl
  refine ⟨?_, ?_, ?_⟩
  · rintro ⟨h1, h2⟩
    rw [hdef, if_pos h1, if_pos h2]
  · rintro ⟨h1, h2⟩
    rw [hdef, if_neg (not_not.2 h1), if_pos h2]
  · rintro ⟨h1, h2⟩
    rw [hdef]
    by_cases he : (reduce_db_lev1 c s).conf.every_lev2_reduce ≠ 0
    · rw [if_pos he, if_neg (fun h => h1 ⟨he, h⟩)]
    · rw [if_neg he, if_neg (fun h => h2 ⟨not_not.1 he, h⟩)]

/-- Witness for C14 (amended) on `ex_tier2`: neither test holds and nothing is reduced. -/
theorem reduce_db_if_needed_lev2_witness :
    reduce_db_if_needed Collab.halver ex_tier2 = reduce_db_lev1 Collab.halver ex_tier2 :=
  (reduce_db_if_needed_lev2 Collab.halver ex_tier2).2.2 ⟨by decide, by decide⟩

end Searcher
end CMSat

namespace CMSat
namespace ClauseCleaner

/-! ## Claims on the clause cleaner: ordinary clauses -/

/-- C15, as the claim states it, fails: in `ex_cleaner` two units are known and one was known at
the last run for the set, so with `limit = 1` the number of units has grown by `limit`; yet
`cleanClauses` and `removeSatisfied` return without touching the set, although its first clause
is satisfied (with `limit = 0` both remove it): the guard returns when
`last + limit >= units`. -/
theorem cleanClauses_skips_at_limit :
    ex_cleaner.solver.unitary_learnts_num - ex_cleaner.lastNumUnitaryClean (.other 0) = 1
      ∧ ex_cleaner.solver.unitary_learnts_num - ex_cleaner.lastNumUnitarySat (.other 0) = 1
      ∧ (cleanClauses Collab.idle ex_cleaner ex_clauses (.other 0) 1).map
          (fun r => (r.2, r.1.lastNumUnitaryClean (.other 0))) = some (ex_clauses, 1)
      ∧ (removeSatisfied Collab.idle ex_cleaner ex_clauses (.other 0) 1).2 = ex_clauses
      ∧ satisfied ex_cleaner.solver ex_clause_sat = true
      ∧ (cleanClauses Collab.idle ex_cleaner ex_clauses (.other 0) 0).map
          (fun r => (r.2.length, r.1.lastNumUnitaryClean (.other 0))) = some (2, 2)
      ∧ (removeSatisfied Collab.idle ex_cleaner ex_clauses (.other 0) 0).2.length = 3 :=
  ⟨by decide, by decide, by decide, by decide, by decide, by decide, by decide⟩

/-- C15 (amended): at decision level 0 with the trail propagated, `cleanClauses` on a clause set
does its work (the loop over the set) exactly when the number of level-0 unit assignments
exceeds the number recorded at the last run for that set plus `limit`, the sum taken in 32 bits;
otherwise it returns leaving the clause list, the clauses and the recorded count unchanged.  The
same holds for `removeSatisfied` with its own record.  When it does run, the recorded count
becomes the current number of units.  Without overflow of the sum the test says that the number
of units has grown by more than `limit`. -/
theorem cleanClauses_runs_iff (f : Collab) (cc : ClauseCleaner) (cs : List Clause)
    (type : ClauseSetType) (limit : Nat) (hlev : cc.solver.decisionLevel = 0)
    (hq : cc.solver.qhead = cc.solver.trail.length) :
    ((cc.lastNumUnitaryClean type + limit) % 2 ^ 32 < cc.solver.unitary_learnts_num →
      cleanClauses f cc cs type limit
        = (cleanClauses_loop f type cc.solver cs).map (fun r =>
            ({ cc with solver := r.1
                       lastNumUnitaryClean :=
                         setAt cc.lastNumUnitaryClean type r.1.unitary_learnts_num }, r.2)))
    ∧ (¬ (cc.lastNumUnitaryClean type + limit) % 2 ^ 32 < cc.solver.unitary_learnts_num →
        cleanClauses f cc cs type limit = some (cc, cs))
    ∧ (∀ cc1 cs1, cleanClauses f cc cs type limit = some (cc1, cs1) →
        (cc.lastNumUnitaryClean type + limit) % 2 ^ 32 < cc.solver.unitary_learnts_num →
        cc1.lastNumUnitaryClean type = cc1.solver.unitary_learnts_num)
    ∧ ((cc.lastNumUnitarySat type + limit) % 2 ^ 32 < cc.solver.unitary_learnts_num →
        removeSatisfied f cc cs type limit
          = ({ cc with solver := (removeSatisfied_loop f cc.solver cs).1
                       lastNumUnitarySat :=
                         setAt cc.lastNumUnitarySat type
                           (removeSatisfied_loop f cc.solver cs).1.unitary_learnts_num },
              (removeSatisfied_loop f cc.solver cs).2)
          ∧ (removeSatisfied f cc cs type limit).1.lastNumUnitarySat type
              = (removeSatisfied f cc cs type limit).1.solver.unitary_learnts_num)
    ∧ (¬ (cc.lastNumUnitarySat type + limit) % 2 ^ 32 < cc.solver.unitary_learnts_num →
        removeSatisfied f cc cs type limit = (cc, cs))
    ∧ (∀ last, last + limit < 2 ^ 32 →
        ((last + limit) % 2 ^ 32 < cc.solver.unitary_learnts_num
          ↔ limit < cc.solver.unitary_learnts_num - last)) := by
  have hrun : (cc.lastNumUnitaryClean type + limit) % 2 ^ 32 < cc.solver.unitary_learnts_num →
      cleanClauses f cc cs type limit
        = (cleanClauses_loop f type cc.solver cs).map (fun r =>
            ({ cc with solver := r.1
                       lastNumUnitaryClean :=
                         setAt cc.lastNumUnitaryClean type r.1.unitary_learnts_num }, r.2)) := by
    intro h
    unfold cleanClauses
    rw [if_pos ⟨hlev, hq⟩, if_neg (by omega)]
    cases cleanClauses_loop f type cc.solver cs <;> rfl
  refine ⟨hrun, ?_, ?_, ?_, ?_, ?_⟩
  · intro h
    unfold cleanClauses
    rw [if_pos ⟨hlev, hq⟩, if_pos (by omega)]
  · intro cc1 cs1 he h
    rw [hrun h] at he
    cases hl : cleanClauses_loop f type cc.solver cs with
    | none => rw [hl] at he; cases he
    | some r =>
      rw [hl] at he
      simp only [Option.map_some', Option.some.injEq, Prod.mk.injEq] at he
      rw [← he.1]
      simp [setAt]
  · intro h
    have e : removeSatisfied f cc cs type limit
        = ({ cc with solver := (removeSatisfied_loop f cc.solver cs).1
                     lastNumUnitarySat :=
                       setAt cc.lastNumUnitarySat type
                         (removeSatisfied_loop f cc.solver cs).1.unitary_learnts_num },
            (removeSatisfied_loop f cc.solver cs).2) := by
      unfold removeSatisfied
      rw [if_neg (by omega)]
    refine ⟨e, ?_⟩
    rw [e]
    simp [setAt]
  · intro h
    unfold removeSatisfied
    rw [if_pos (by omega)]
  · intro last hlast
    rw [Nat.mod_eq_of_lt hlast]
    omega

/-- Witness for C15 (amended) on `ex_cleaner` and `ex_clauses` with `limit = 0`. -/
theorem cleanClauses_runs_iff_witness :
    (ex_cleaner.solver.decisionLevel = 0 ∧ ex_cleaner.solver.qhead = ex_cleaner.solver.trail.length)
      ∧ (ex_cleaner.lastNumUnitaryClean (.other 0) + 0) % 2 ^ 32
          < ex_cleaner.solver.unitary_learnts_num
      ∧ cleanClauses Collab.idle ex_cleaner ex_clauses (.other 0) 0
        = (cleanClauses_loop Collab.idle (.other 0) ex_cleaner.solver ex_clauses).map (fun r =>
            ({ ex_cleaner with
                solver := r.1
                lastNumUnitaryClean :=
                  setAt ex_cleaner.lastNumUnitaryClean (.other 0) r.1.unitary_learnts_num },
              r.2)) :=
  ⟨⟨rfl, rfl⟩, by decide,
    (cleanClauses_runs_iff Collab.idle ex_cleaner ex_clauses (.other 0) 0 rfl rfl).1
      (by decide)⟩

/-- C16: for every ordinary clause (of at least two literals, as `cleanClause` reads `c[0]` and
`c[1]`) and every assignment, `cleanClause` returns what `satisfied` returns, which is true if
and only if at least one literal of the clause is True; when it returns true, the clause keeps
its size and the one call made is `detachModifiedClause` with the original first two literals
and the original size. -/
theorem cleanClause_true_iff_satisfied (f : Collab) (s : Solver) (c : Clause)
    (h2 : 2 ≤ c.lits.length) :
    ∃ s1 c1, cleanClause f s c = some (satisfied s c, s1, c1)
      ∧ (satisfied s c = true ↔ ∃ l ∈ c.lits, value s l = l_True)
      ∧ (satisfied s c = true →
          c1.lits.length = c.lits.length
          ∧ s1 = f.detachModifiedClause s (c.lits.getD 0 lit_Undef) (c.lits.getD 1 lit_Undef)
                  c.lits.length c1) := by
  cases hsat : satisfied s c
  · obtain ⟨s1, h, _⟩ := cleanClause_unsat f s c h2 hsat
    refine ⟨s1, _, h, ?_, fun h => by cases h⟩
    rw [← hsat]
    exact satisfied_iff s c
  · obtain ⟨c1, hlen, _, h⟩ := cleanClause_sat f s c h2 hsat
    exact ⟨_, c1, h, ⟨fun _ => (satisfied_iff s c).1 hsat, fun _ => rfl⟩, fun _ => ⟨hlen, rfl⟩⟩

/-- Witness for C16 on `ex_clause_sat` under `ex_solver`. -/
theorem cleanClause_true_iff_satisfied_witness :
    2 ≤ ex_clause_sat.lits.length
    ∧ ∃ s1 c1, cleanClause Collab.idle ex_solver ex_clause_sat
          = some (satisfied ex_solver ex_clause_sat, s1, c1)
      ∧ (satisfied ex_solver ex_clause_sat = true
          ↔ ∃ l ∈ ex_clause_sat.lits, value ex_solver l = l_True)
      ∧ (satisfied ex_solver ex_clause_sat = true →
          c1.lits.length = ex_clause_sat.lits.length
          ∧ s1 = Collab.idle.detachModifiedClause ex_solver
                  (ex_clause_sat.lits.getD 0 lit_Undef) (ex_clause_sat.lits.getD 1 lit_Undef)
                  ex_clause_sat.lits.length c1) :=
  ⟨by decide, cleanClause_true_iff_satisfied Collab.idle ex_solver ex_clause_sat (by decide)⟩

/-- C17: for every ordinary clause (of at least two literals) with no True literal, after
`cleanClause` the clause consists of exactly its originally unassigned literals, in their
original order, and is learnt as before; a clause with no assigned literal is left completely
unchanged, strengthened flag included, and so is the solver, with its literal counters. -/
theorem cleanClause_keeps_unassigned (f : Collab) (s : Solver) (c : Clause)
    (h2 : 2 ≤ c.lits.length) (hno : ∀ l ∈ c.lits, value s l ≠ l_True) :
    ∃ s1 c1, cleanClause f s c = some (false, s1, c1)
      ∧ c1.lits = c.lits.filter (fun l => decide (value s l = l_Undef))
      ∧ c1.learnt = c.learnt
      ∧ ((∀ l ∈ c.lits, value s l = l_Undef) → c1 = c ∧ s1 = s) := by
  have hsat : satisfied s c = false := by
    cases h : satisfied s c
    · rfl
    · obtain ⟨l, hl, ht⟩ := (satisfied_iff s c).1 h
      exact absurd ht (hno l hl)
  obtain ⟨s1, h, hsame, _⟩ := cleanClause_unsat f s c h2 hsat
  have hall : (c.lits.all (fun l => decide (value s l = l_Undef)) = true)
      ↔ ∀ l ∈ c.lits, value s l = l_Undef := by
    simp [List.all_eq_true]
  refine ⟨s1, dropped_false s c, h, ?_, ?_, ?_⟩
  · unfold dropped_false
    split
    · rename_i ha
      exact (List.filter_eq_self.2 (fun l hl => decide_eq_true (hall.1 ha l hl))).symm
    · rfl
  · unfold dropped_false
    split <;> rfl
  · intro ha
    refine ⟨?_, hsame ha⟩
    unfold dropped_false
    rw [if_pos (hall.2 ha)]

/-- Witness for C17 on `ex_clause_long` under `ex_solver`. -/
theorem cleanClause_keeps_unassigned_witness :
    2 ≤ ex_clause_long.lits.length
    ∧ (∀ l ∈ ex_clause_long.lits, value ex_solver l ≠ l_True)
    ∧ ∃ s1 c1, cleanClause Collab.idle ex_solver ex_clause_long = some (false, s1, c1)
      ∧ c1.lits = ex_clause_long.lits.filter (fun l => decide (value ex_solver l = l_Undef))
      ∧ c1.learnt = ex_clause_long.learnt
      ∧ ((∀ l ∈ ex_clause_long.lits, value ex_solver l = l_Undef)
          → c1 = ex_clause_long ∧ s1 = ex_solver) :=
  ⟨by decide, by decide,
    cleanClause_keeps_unassigned Collab.idle ex_solver ex_clause_long (by decide) (by decide)⟩

end ClauseCleaner
end CMSat

namespace CMSat
namespace ClauseCleaner

/-! ## Claims on the clause cleaner: clause sets and XOR clauses -/

/-- C18: when `cleanClauses` runs on a non-binary clause set at level 0 with the trail
propagated (every clause has at least two literals, and a clause without True literal has at
least two unassigned ones), with collaborators that leave the assignment, `binaryClauses`,
`becameBinary` and the number of units alone, then afterwards the set contains exactly the
clauses that had no True literal and still have more than two literals after dropping the False
ones, in their original order; every clause without True literal whose size became 2 has been
appended to `binaryClauses`, `becameBinary` counting each; a clause with a True literal is in
neither. -/
theorem cleanClauses_keeps_long (f : Collab) (hf : f.frame) (cc : ClauseCleaner)
    (cs : List Clause) (type : ClauseSetType) (limit : Nat)
    (hlev : cc.solver.decisionLevel = 0) (hq : cc.solver.qhead = cc.solver.trail.length)
    (hrun : (cc.lastNumUnitaryClean type + limit) % 2 ^ 32 < cc.solver.unitary_learnts_num)
    (htype : type ≠ .binaryClauses) (hsize : ∀ c ∈ cs, 2 ≤ c.lits.length)
    (hprop : ∀ c ∈ cs, satisfied cc.solver c = false →
      2 ≤ (c.lits.filter (fun l => decide (value cc.solver l = l_Undef))).length) :
    ∃ cc1 cs1, cleanClauses f cc cs type limit = some (cc1, cs1)
      ∧ cs1 = ((cs.filter (fun c => !satisfied cc.solver c)).map (dropped_false cc.solver)).filter
                (fun c => decide (2 < c.lits.length))
      ∧ cc1.solver.binaryClauses
          = cc.solver.binaryClauses
            ++ ((cs.filter (fun c => !satisfied cc.solver c)).map
                  (dropped_false cc.solver)).filter (fun c => decide (c.lits.length = 2))
      ∧ cc1.solver.becameBinary
          = cc.solver.becameBinary
            + (((cs.filter (fun c => !satisfied cc.solver c)).map
                  (dropped_false cc.solver)).filter (fun c => decide (c.lits.length = 2))).length
      ∧ cc1.solver.assigns = cc.solver.assigns := by
  obtain ⟨s1, e, b1, _, b3, b4⟩ :=
    cleanClauses_loop_spec f hf type htype cc.solver cs cc.solver rfl hsize
  have hge : ∀ c ∈ cleaned_set cc.solver cs, 2 ≤ c.lits.length := by
    intro c hc
    simp only [cleaned_set, List.mem_map, List.mem_filter] at hc
    obtain ⟨c0, ⟨hc0, hs0⟩, rfl⟩ := hc
    have hs : satisfied cc.solver c0 = false := by simpa using hs0
    have := hprop c0 hc0 hs
    unfold dropped_false
    split
    · exact hsize c0 hc0
    · exact this
  have hfilter : (cleaned_set cc.solver cs).filter (fun c => decide (c.lits.length ≠ 2))
      = (cleaned_set cc.solver cs).filter (fun c => decide (2 < c.lits.length)) := by
    apply List.filter_congr
    intro c hc
    have := hge c hc
    by_cases h : c.lits.length = 2
    · simp [h]
    · have h3 : 2 < c.lits.length := by omega
      simp [h, h3]
  refine ⟨{ cc with solver := s1
                    lastNumUnitaryClean :=
                      setAt cc.lastNumUnitaryClean type s1.unitary_learnts_num },
    _, ?_, rfl, b3, b4, b1⟩
  unfold cleanClauses
  rw [if_pos ⟨hlev, hq⟩, if_neg (by omega), e, hfilter]
  rfl

/-- Witness for C18 on `ex_cleaner` and `ex_clauses` with `limit = 0`. -/
theorem cleanClauses_keeps_long_witness :
    ∃ cc1 cs1, cleanClauses Collab.idle ex_cleaner ex_clauses (.other 0) 0 = some (cc1, cs1)
      ∧ cs1 = ((ex_clauses.filter (fun c => !satisfied ex_cleaner.solver c)).map
                (dropped_false ex_cleaner.solver)).filter (fun c => decide (2 < c.lits.length))
      ∧ cc1.solver.binaryClauses
          = ex_cleaner.solver.binaryClauses
            ++ ((ex_clauses.filter (fun c => !satisfied ex_cleaner.solver c)).map
                  (dropped_false ex_cleaner.solver)).filter
                  (fun c => decide (c.lits.length = 2))
      ∧ cc1.solver.becameBinary
          = ex_cleaner.solver.becameBinary
            + (((ex_clauses.filter (fun c => !satisfied ex_cleaner.solver c)).map
                  (dropped_false ex_cleaner.solver)).filter
                  (fun c => decide (c.lits.length = 2))).length
      ∧ cc1.solver.assigns = ex_cleaner.solver.assigns :=
  cleanClauses_keeps_long Collab.idle
    ⟨fun _ _ _ _ _ => ⟨rfl, rfl, rfl, rfl⟩, fun _ _ => ⟨rfl, rfl, rfl, rfl⟩⟩
    ex_cleaner ex_clauses (.other 0) 0 rfl rfl (by decide) (by decide) (by decide) (by decide)

/-- C19: for every XOR clause (of at least two literals, as `cleanClause` reads `c[0]` and
`c[1]`) and every partial assignment, `cleanClause(XorClause&)` keeps exactly the unassigned
variables in their original order and flips the inverted flag once for each dropped variable
whose value is True, so that under every assignment that extends the given one the cleaned XOR
clause is satisfied if and only if the original one is. -/
theorem cleanClause_xor_equivalent (f : Collab) (s : Solver) (c : XorClause)
    (h2 : 2 ≤ c.lits.length) :
    ∃ b s1 c1, cleanClause_xor f s c = some (b, s1, c1)
      ∧ c1.lits = c.lits.filter (fun l => decide (s.assigns l.var = l_Undef))
      ∧ c1.xor_clause_inverted = xor c.xor_clause_inverted (odd_true s c.lits)
      ∧ ∀ a2, extends_assigns s.assigns a2 →
          satisfied_xor { s with assigns := a2 } c1 = satisfied_xor { s with assigns := a2 } c := by
  obtain ⟨b, s1, c1, h, hl, hi, _, _⟩ := cleanClause_xor_spec f s c h2
  refine ⟨b, s1, c1, h, hl, hi, ?_⟩
  intro a2 hext
  unfold satisfied_xor
  rw [hl, hi]
  exact satisfied_xor_loop_clean s { s with assigns := a2 } hext c.lits c.xor_clause_inverted

/-- Witness for C19 on `ex_xor` under `ex_solver`. -/
theorem cleanClause_xor_equivalent_witness :
    2 ≤ ex_xor.lits.length
    ∧ ∃ b s1 c1, cleanClause_xor Collab.idle ex_solver ex_xor = some (b, s1, c1)
      ∧ c1.lits = ex_xor.lits.filter (fun l => decide (ex_solver.assigns l.var = l_Undef))
      ∧ c1.xor_clause_inverted = xor ex_xor.xor_clause_inverted (odd_true ex_solver ex_xor.lits)
      ∧ ∀ a2, extends_assigns ex_solver.assigns a2 →
          satisfied_xor { ex_solver with assigns := a2 } c1
            = satisfied_xor { ex_solver with assigns := a2 } ex_xor :=
  ⟨by decide, cleanClause_xor_equivalent Collab.idle ex_solver ex_xor (by decide)⟩

/-- C20, as the claim states it, fails: under `ex_solver` every variable of `ex_xor_false` is
assigned and the clause is not satisfied, and cleaning the set that holds it leaves `ok` true:
the clause is emptied, detached and pushed to `freeLater` like a satisfied one. -/
theorem cleanClauses_xor_falsified_keeps_ok :
    (∀ l ∈ ex_xor_false.lits, ex_solver.assigns l.var ≠ l_Undef)
      ∧ satisfied_xor ex_solver ex_xor_false = false
      ∧ ex_cleaner.solver.ok = true
      ∧ (cleanClauses_xor Collab.idle ex_cleaner [ex_xor_false] (.other 1) 0).map
          (fun r => (r.1.solver.ok, r.2, r.1.solver.freeLater))
        = some (true, [], [⟨[], false, false, 0⟩]) :=
  ⟨by decide, by decide, rfl, by decide⟩

/-- C20 (amended): when cleaning an XOR clause (of at least two literals) leaves it with size 0,
all its variables being assigned, `cleanClause` returns true after the one call of
`detachModifiedClause`, and the loop of `cleanClauses` pushes the clause to `freeLater` and
drops it from the set, whether the parity constraint is satisfied or falsified (the parity bit
left is the outcome of `satisfied`); the cleaner does not write `ok`: it is unchanged whenever
`detachModifiedClause` leaves it alone. -/
theorem cleanClause_xor_empty_detaches (f : Collab) (s : Solver) (c : XorClause)
    (rest : List XorClause) (h2 : 2 ≤ c.lits.length)
    (hall : ∀ l ∈ c.lits, s.assigns l.var ≠ l_Undef) :
    ∃ s1 c1, cleanClause_xor f s c = some (true, s1, c1)
      ∧ c1.lits = []
      ∧ c1.xor_clause_inverted = satisfied_xor s c
      ∧ s1 = f.detachModifiedXorClause s (c.lits.getD 0 lit_Undef).var
              (c.lits.getD 1 lit_Undef).var c.lits.length c1
      ∧ cleanClauses_xor_loop f s (c :: rest)
          = cleanClauses_xor_loop f { s1 with freeLater := s1.freeLater ++ [c1] } rest
      ∧ ((∀ t v1 v2 n x, (f.detachModifiedXorClause t v1 v2 n x).ok = t.ok) → s1.ok = s.ok) := by
  have h := cleanClause_xor_assigned f s c h2 hall
  refine ⟨_, _, h, rfl, ?_, rfl, ?_, fun hok => hok _ _ _ _ _⟩
  · unfold satisfied_xor
    rw [satisfied_xor_loop_assigned s c.lits c.xor_clause_inverted hall]
  · simp only [cleanClauses_xor_loop, h]

/-- Witness for C20 (amended) on `ex_xor_false` under `ex_solver`. -/
theorem cleanClause_xor_empty_detaches_witness :
    2 ≤ ex_xor_false.lits.length
    ∧ (∀ l ∈ ex_xor_false.lits, ex_solver.assigns l.var ≠ l_Undef)
    ∧ ∃ s1 c1, cleanClause_xor Collab.idle ex_solver ex_xor_false = some (true, s1, c1)
      ∧ c1.lits = []
      ∧ c1.xor_clause_inverted = satisfied_xor ex_solver ex_xor_false
      ∧ s1 = Collab.idle.detachModifiedXorClause ex_solver (ex_xor_false.lits.getD 0 lit_Undef).var
              (ex_xor_false.lits.getD 1 lit_Undef).var ex_xor_false.lits.length c1
      ∧ cleanClauses_xor_loop Collab.idle ex_solver (ex_xor_false :: [])
          = cleanClauses_xor_loop Collab.idle { s1 with freeLater := s1.freeLater ++ [c1] } []
      ∧ ((∀ t v1 v2 n x, (Collab.idle.detachModifiedXorClause t v1 v2 n x).ok = t.ok)
          → s1.ok = ex_solver.ok) :=
  ⟨by decide, by decide,
    cleanClause_xor_empty_detaches Collab.idle ex_solver ex_xor_false [] (by decide)
      (by decide)⟩

end ClauseCleaner
end CMSat

namespace CMSat
namespace ClauseCleaner

/-! ## Claim on the check of an XOR clause -/

/-- C21, as the claim states it, fails: under `ex_solver` both variables of `ex_xor_false` are
assigned and the XOR of their values (True, False) is true, which equals the inverted flag, and
`satisfied` returns false; on the same variables with the flag clear, the XOR differs from the
flag and `satisfied` returns true. -/
theorem satisfied_xor_equal_flag_false :
    (∀ l ∈ ex_xor_false.lits, ex_solver.assigns l.var ≠ l_Undef)
      ∧ odd_true ex_solver ex_xor_false.lits = ex_xor_false.xor_clause_inverted
      ∧ satisfied_xor ex_solver ex_xor_false = false
      ∧ odd_true ex_solver [⟨0⟩, ⟨2⟩] ≠ false
      ∧ satisfied_xor ex_solver ⟨[⟨0⟩, ⟨2⟩], false, false, 0⟩ = true :=
  ⟨by decide, by decide, by decide, by decide, by decide⟩

/-- C21 (amended): for every XOR clause, `satisfied` returns true exactly when all of the
clause's variables are assigned and the XOR of their values differs from the clause's inverted
flag (`x1 ⊕ x2 ⊕ … = ¬inverted`); it returns false whenever some variable is unassigned. -/
theorem satisfied_xor_iff_parity (s : Solver) (c : XorClause) :
    (satisfied_xor s c = true
      ↔ (∀ l ∈ c.lits, s.assigns l.var ≠ l_Undef)
        ∧ odd_true s c.lits = !c.xor_clause_inverted)
    ∧ ((∃ l ∈ c.lits, s.assigns l.var = l_Undef) → satisfied_xor s c = false) := by
  have hun : (∃ l ∈ c.lits, s.assigns l.var = l_Undef) → satisfied_xor s c = false :=
    fun h => satisfied_xor_loop_unassigned s c.lits c.xor_clause_inverted h
  refine ⟨?_, hun⟩
  by_cases hall : ∀ l ∈ c.lits, s.assigns l.var ≠ l_Undef
  · have e : satisfied_xor s c = xor c.xor_clause_inverted (odd_true s c.lits) :=
      satisfied_xor_loop_assigned s c.lits c.xor_clause_inverted hall
    rw [e]
    constructor
    · intro h
      refine ⟨hall, ?_⟩
      cases hi : c.xor_clause_inverted <;> cases ho : odd_true s c.lits <;> simp_all
    · rintro ⟨_, h⟩
      rw [h]
      cases c.xor_clause_inverted <;> rfl
  · have hex : ∃ l ∈ c.lits, s.assigns l.var = l_Undef := by
      by_contra hne
      apply hall
      intro l hl hu
      exact hne ⟨l, hl, hu⟩
    rw [hun hex]
    constructor
    · intro h; cases h
    · rintro ⟨h, _⟩; exact absurd h hall

end ClauseCleaner

namespace Main

/-! ## Claims on the exit code and the result output -/

/-- C25: `correctReturnValue` maps the solver result to the exit code 10 for `l_True`, 20 for
`l_False` and 15 for `l_Undef`, and to nothing else; with `NDEBUG` it ends by `exit` with that
code, without it returns the code. -/
theorem correctReturnValue_codes (NDEBUG : Bool) (ret : lbool) :
    (ret = l_True → (correctReturnValue NDEBUG ret).code = 10)
      ∧ (ret = l_False → (correctReturnValue NDEBUG ret).code = 20)
      ∧ (ret = l_Undef → (correctReturnValue NDEBUG ret).code = 15)
      ∧ ((correctReturnValue NDEBUG ret).code = 10 ∨ (correctReturnValue NDEBUG ret).code = 20
          ∨ (correctReturnValue NDEBUG ret).code = 15)
      ∧ correctReturnValue NDEBUG ret
          = if NDEBUG then .exit (correctReturnValue NDEBUG ret).code
            else .ret (correctReturnValue NDEBUG ret).code := by
  cases ret <;> cases NDEBUG <;> simp [correctReturnValue, Outcome.code]

/-- C26 at its failing input: for an undetermined result and no result file `printResultFunc`
writes nothing at all, whatever the model and the printing flag, while with a result file it
writes `INCONCLUSIVE`; for SAT and UNSAT the status line is as the claim says. -/
theorem printResultFunc_status_lines (printResult : Bool) (S : MTSolver) :
    printResultFunc printResult S l_Undef false = ⟨"", "", false⟩
      ∧ (printResultFunc printResult S l_Undef true).file = "INCONCLUSIVE\n"
      ∧ (printResultFunc printResult S l_False false).stdout = "s UNSATISFIABLE\n"
      ∧ (printResultFunc printResult S l_True false).stdout
          = "s SATISFIABLE\n"
            ++ (if printResult then print_model show_unsigned S "v " ++ "0" ++ "\n" else "") := by
  refine ⟨by simp [printResultFunc], by simp [printResultFunc], ?_, ?_⟩
  · simp [printResultFunc]
  · cases printResult
    · simp [printResultFunc]
    · simp [printResultFunc]

/-- C27, as the claim states it, fails: `ex_partial` has two variables, the second without a
value in the model, and the `v` line written on SAT is `v 1 0`, with one integer before the
terminating 0. -/
theorem printResultFunc_skips_undef :
    ex_partial.nVars = 2
      ∧ (printResultFunc true ex_partial l_True false).stdout = "s SATISFIABLE\nv 1 0\n"
      ∧ (printResultFunc true ex_partial l_True true).file = "SAT\n1 0\n" :=
  ⟨rfl, by decide, by decide⟩

/-- C27 (amended): on SAT with solution printing enabled, the `v` line written by
`printResultFunc` (and the line after `SAT` in the result file) lists the variables among
`0..nVars-1` whose model value is not undefined, in increasing order, each as the 1-based integer
`var+1` preceded by `-` exactly when its model value is not True, and ends with 0; when no model
value is undefined these are all the variables, so the line has exactly `nVars` signed integers
before the terminating 0.  The numbers are written in decimal (below `2^31` in the file). -/
theorem printResultFunc_v_line (S : MTSolver) :
    (printResultFunc true S l_True false).stdout
        = "s SATISFIABLE" ++ "\n"
          ++ ("v " ++ concat_all ((v_numbers S).map (show_number show_unsigned)) ++ "0" ++ "\n")
      ∧ (printResultFunc true S l_True true).file
        = "SAT\n" ++ concat_all ((v_numbers S).map (show_number show_signed)) ++ "0\n"
      ∧ (∀ n, n < 2 ^ 32 → show_unsigned n = toString n)
      ∧ (∀ n, n < 2 ^ 31 → show_signed n = toString n)
      ∧ ((∀ var, var < S.nVars → S.model var ≠ l_Undef) →
          v_numbers S
              = (List.range S.nVars).map (fun var => (decide (S.model var ≠ l_True), var + 1))
            ∧ (v_numbers S).length = S.nVars) := by
  refine ⟨?_, ?_, show_unsigned_eq, show_signed_eq, v_numbers_total S⟩
  · simp only [printResultFunc, Bool.false_eq_true, if_false, if_true, and_self,
      print_model_eq]
  · simp only [printResultFunc, if_true, print_model_eq]

end Main
end CMSat

namespace CMSat
namespace Searcher

/-! ## Claims on the restart phases, the binary minimisation and the glue update -/

/-- C22: with the configured restart type `glue_geom`, `setup_restart_strategy` starts in the
glue phase, and every call of `adjust_restart_strategy` made with the phase budget used up
(`max_confl_this_restart <= 0`) switches `params.rest_type` to the other of glue and geom (to
glue from anything else), leaving the configured type alone, so phases alternate; a call made
while budget remains changes nothing. -/
theorem adjust_restart_strategy_glue_geom (s : Searcher) (h : s.cur_rest_type = .glue_geom) :
    (setup_restart_strategy s).params.rest_type = .glue
      ∧ (setup_restart_strategy s).cur_rest_type = .glue_geom
      ∧ (s.max_confl_this_restart > 0 → adjust_restart_strategy s = some s)
      ∧ (s.max_confl_this_restart ≤ 0 →
          ∃ s1, adjust_restart_strategy s = some s1
            ∧ s1.cur_rest_type = .glue_geom
            ∧ (s.params.rest_type = .glue → s1.params.rest_type = .geom)
            ∧ (s.params.rest_type = .geom → s1.params.rest_type = .glue)
            ∧ (s1.params.rest_type = .glue ∨ s1.params.rest_type = .geom)) := by
  refine ⟨?_, h, ?_, ?_⟩
  · simp [setup_restart_strategy, h]
  · intro hpos
    unfold adjust_restart_strategy
    rw [if_pos hpos]
  · intro hle
    have hn : ¬ s.max_confl_this_restart > 0 := by omega
    unfold adjust_restart_strategy
    rw [if_neg hn]
    have hnext : next_rest_type s.cur_rest_type s.params.rest_type
        = if s.params.rest_type = .glue then .geom else .glue := by
      rw [h]; rfl
    by_cases hg : s.params.rest_type = .glue
    · have hn1 : next_rest_type s.cur_rest_type s.params.rest_type = .geom := by
        rw [hnext, if_pos hg]
      simp only [hn1]
      exact ⟨_, rfl, h, fun _ => rfl, fun hc => absurd (hg.symm.trans hc) (by decide),
        Or.inr rfl⟩
    · have hn1 : next_rest_type s.cur_rest_type s.params.rest_type = .glue := by
        rw [hnext, if_neg hg]
      simp only [hn1]
      exact ⟨_, rfl, h, fun hc => absurd hc hg, fun _ => rfl, Or.inl rfl⟩

/-- Witness for C22 on `ex_glue_geom`: after the setup and with the budget used up, the phase
becomes geom. -/
theorem adjust_restart_strategy_glue_geom_witness :
    ∃ s1, adjust_restart_strategy
          { setup_restart_strategy ex_glue_geom with max_confl_this_restart := 0 } = some s1
        ∧ s1.params.rest_type = .geom := by
  obtain ⟨_, _, _, h⟩ := adjust_restart_strategy_glue_geom
    { setup_restart_strategy ex_glue_geom with max_confl_this_restart := 0 } rfl
  obtain ⟨s1, h1, _, h2, _⟩ := h (by decide)
  exact ⟨s1, h1, h2 rfl⟩

/-- C29 at its failing input: in `ex_bins` the minimisation is enabled, the learnt clause has
three literals, the watch list of `~L[0]` holds a binary watch whose other literal `x1` is True
and has the variable of `L[1]`, and `minimize_using_bins` returns the learnt clause as it was:
it raises `MYFLAG` and then finds no `permDiff` entry equal to it, as nothing has marked the
literals of the clause. -/
theorem minimize_using_bins_removes_nothing :
    ex_bins.conf.doMinimRedMore = true
      ∧ ex_bins.learnt_clause = [⟨5⟩, ⟨3⟩, ⟨1⟩]
      ∧ ex_bins.watches (ex_bins.learnt_clause.getD 0 lit_Undef).neg = [.bin ⟨2⟩ false]
      ∧ ex_bins.value ⟨2⟩ = l_True
      ∧ (⟨2⟩ : Lit).var = (ex_bins.learnt_clause.getD 1 lit_Undef).var
      ∧ (minimize_using_bins ex_bins).map (fun s => (s.learnt_clause, s.MYFLAG))
          = some ([⟨5⟩, ⟨3⟩, ⟨1⟩], ex_bins.MYFLAG + 1) :=
  ⟨rfl, rfl, by decide, by decide, by decide, by decide⟩

/-- C30: during conflict analysis, `update_glue_from_analysis` on a redundant antecedent clause
of tier 1 or 2 (not locked for data generation) never increases its stored glue and never moves
it to a worse tier: the new glue is the minimum of the old glue and the freshly computed one,
and only when the glue strictly improved the tier becomes 0 if the new glue is at most
`glue_put_lev0_if_below_or_eq`, else 1 if it is at most `glue_put_lev1_if_below_or_eq`, else
stays as it was; a clause marked as ternary resolvent is left untouched, and so is every other
clause. -/
theorem update_glue_from_analysis_improves (s : Searcher) (offset : Nat)
    (hlock : (s.cl_alloc offset).stats.locked_for_data_gen = false)
    (htier : (s.cl_alloc offset).stats.which_red_array = 1
      ∨ (s.cl_alloc offset).stats.which_red_array = 2) :
    ((s.cl_alloc offset).stats.is_ternary_resolvent = true →
        update_glue_from_analysis s offset = s)
    ∧ ((s.cl_alloc offset).stats.is_ternary_resolvent = false →
        ((update_glue_from_analysis s offset).cl_alloc offset).stats.glue
            = min (s.cl_alloc offset).stats.glue (calc_glue s (s.cl_alloc offset).lits)
        ∧ ((update_glue_from_analysis s offset).cl_alloc offset).stats.which_red_array
            ≤ (s.cl_alloc offset).stats.which_red_array
        ∧ (¬ calc_glue s (s.cl_alloc offset).lits < (s.cl_alloc offset).stats.glue →
            update_glue_from_analysis s offset = s)
        ∧ (calc_glue s (s.cl_alloc offset).lits < (s.cl_alloc offset).stats.glue →
            (calc_glue s (s.cl_alloc offset).lits ≤ s.conf.glue_put_lev0_if_below_or_eq →
              ((update_glue_from_analysis s offset).cl_alloc offset).stats.which_red_array = 0)
            ∧ (s.conf.glue_put_lev0_if_below_or_eq < calc_glue s (s.cl_alloc offset).lits
                ∧ calc_glue s (s.cl_alloc offset).lits ≤ s.conf.glue_put_lev1_if_below_or_eq →
              ((update_glue_from_analysis s offset).cl_alloc offset).stats.which_red_array = 1)
            ∧ (s.conf.glue_put_lev0_if_below_or_eq < calc_glue s (s.cl_alloc offset).lits
                ∧ s.conf.glue_put_lev1_if_below_or_eq < calc_glue s (s.cl_alloc offset).lits →
              ((update_glue_from_analysis s offset).cl_alloc offset).stats.which_red_array
                = (s.cl_alloc offset).stats.which_red_array)))
    ∧ ((update_glue_from_analysis s offset).cl_alloc offset).lits = (s.cl_alloc offset).lits
    ∧ (∀ o, o ≠ offset → (update_glue_from_analysis s offset).cl_alloc o = s.cl_alloc o) := by
  by_cases ht : (s.cl_alloc offset).stats.is_ternary_resolvent = true
  · have e := update_glue_same s offset (Or.inl ht)
    rw [e]
    refine ⟨fun _ => rfl, fun hf => ?_, rfl, fun _ _ => rfl⟩
    rw [hf] at ht
    cases ht
  · have htf : (s.cl_alloc offset).stats.is_ternary_resolvent = false := by simpa using ht
    by_cases hlt : calc_glue s (s.cl_alloc offset).lits < (s.cl_alloc offset).stats.glue
    · obtain ⟨st, e, hglue, hwhich⟩ := update_glue_stats s offset hlock htf hlt
      rw [e]
      simp only [upd, if_true]
      refine ⟨fun h => absurd h ht, fun _ => ⟨?_, ?_, fun h => absurd hlt h, fun _ => ⟨?_, ?_, ?_⟩⟩,
        trivial, fun o ho => by simp [ho]⟩
      · rw [hglue, Nat.min_eq_right (Nat.le_of_lt hlt)]
      · rw [hwhich]
        split
        · exact Nat.zero_le _
        · split
          · rcases htier with h | h <;> omega
          · exact le_refl _
      · intro h0
        rw [hwhich, if_pos h0]
      · rintro ⟨h0, h1⟩
        rw [hwhich, if_neg (by omega), if_pos ⟨h1, by omega⟩]
      · rintro ⟨h0, h1⟩
        rw [hwhich, if_neg (by omega), if_neg (fun h => by omega)]
    · have e := update_glue_same s offset (Or.inr hlt)
      rw [e]
      exact ⟨fun h => absurd h ht,
        fun _ => ⟨(Nat.min_eq_left (Nat.le_of_not_lt hlt)).symm, le_refl _, fun _ => rfl,
          fun h => absurd h hlt⟩,
        rfl, fun _ _ => rfl⟩

/-- Witness for C30 on `ex_red`: the clause at offset 1 has the stored glue 5 and the fresh
glue 2, below `glue_put_lev0_if_below_or_eq = 3`, and moves from tier 2 to tier 0. -/
theorem update_glue_from_analysis_improves_witness :
    ((update_glue_from_analysis ex_red 1).cl_alloc 1).stats.glue = 2
      ∧ ((update_glue_from_analysis ex_red 1).cl_alloc 1).stats.which_red_array = 0 := by
  obtain ⟨_, h, _⟩ := update_glue_from_analysis_improves ex_red 1 rfl (Or.inr rfl)
  obtain ⟨h1, _, _, h2⟩ := h rfl
  exact ⟨h1.trans (by decide), (h2 (by decide)).1 (by decide)⟩

end Searcher
end CMSat

namespace CMSat
namespace Searcher

/-! ## Claim on the Luby restarts -/

/-- C23: for every `x >= 0`, both loops of `luby` terminate (the first at a size
`2^(seq+1) - 1` that is at most `2 * x + 1`, so nothing overflows for `x < 2^30`), and
`luby(2, x)` is term `x + 1` of the Luby sequence 1, 1, 2, 1, 1, 2, 4, 1, 1, 2, 1, 1, 2, 4, 8,
..., where term `2^(k+1) - 1` is `2^k` and term `i` with `2^k <= i < 2^(k+1) - 1` is term
`i - 2^k + 1`; in the Luby restart mode a call of `adjust_restart_strategy` with the budget
used up sets the phase budget to that term, for `x = luby_loop_num`, times `restart_first`. -/
theorem luby_is_luby_sequence (x : Nat) :
    (∃ size seq : Nat,
        luby_grow (x : Int) (x + 2) (1, 0) = some ((size : Int), (seq : Int))
        ∧ size + 1 = 2 ^ (seq + 1) ∧ x + 1 ≤ size ∧ size ≤ 2 * x + 1
        ∧ ∃ r : Nat, luby_shrink (x + 2) ((size : Int), (seq : Int), (x : Int)) = some (r : Int))
    ∧ luby 2 (x : Int) = some (luby_term (x + 1))
    ∧ (∀ k, luby_term (2 ^ (k + 1) - 1) = 2 ^ k)
    ∧ (∀ k i, 2 ^ k ≤ i → i + 1 < 2 ^ (k + 1) → luby_term i = luby_term (i + 1 - 2 ^ k))
    ∧ (List.range 15).map (fun i => luby_term (i + 1))
        = [1, 1, 2, 1, 1, 2, 4, 1, 1, 2, 1, 1, 2, 4, 8]
    ∧ (∀ s : Searcher, s.cur_rest_type = .luby → s.max_confl_this_restart ≤ 0 →
        s.luby_loop_num = x →
        ∃ s1, adjust_restart_strategy s = some s1
          ∧ s1.params.rest_type = .luby
          ∧ s1.max_confl_this_restart = ((luby_term (x + 1) * s.conf.restart_first : Nat) : Int)
          ∧ s1.luby_loop_num = x + 1) := by
  refine ⟨?_, luby_two x, luby_term_pow, luby_term_step, by decide, ?_⟩
  · obtain ⟨S1, q1, hg, hS, hx, hC⟩ :=
      luby_grow_spec x (x + 2) 1 0 rfl (Or.inl rfl) (by omega)
    have hq : q1 < 2 ^ q1 := Nat.lt_two_pow q1
    have hp : 2 ^ (q1 + 1) = 2 * 2 ^ q1 := by rw [pow_succ]; omega
    obtain ⟨r, hr, _⟩ := luby_shrink_spec q1 x (x + 2) S1 hS hx
      (by rcases hC with h | h <;> omega)
    refine ⟨S1, q1, hg, hS, hx, ?_, r, hr⟩
    rcases hC with h | h
    · subst h
      have : S1 = 1 := by simpa using hS
      omega
    · exact h
  · intro s hcur hle hn
    have hneg : ¬ s.max_confl_this_restart > 0 := by omega
    have hnext : next_rest_type s.cur_rest_type s.params.rest_type = .luby := by
      rw [hcur]; rfl
    unfold adjust_restart_strategy
    rw [if_neg hneg]
    simp only [hnext, hn, luby_two x, Option.map_some']
    exact ⟨_, rfl, rfl, rfl, rfl⟩

end Searcher
end CMSat

namespace CMSat
namespace Searcher

/-! ## Claim on the rotation of the branching strategies -/

/-- C24: for a `branch_strategy_setup` string made of `k >= 1` of the names `vsidsx`, `vsids1`,
`vsids2`, `maple1`, `maple2`, `rand` joined by `+`, `set_branch_strategy(n)` parses the names in
their written order (`select` holds their entries) and, for every `n`, activates the strategy of
the name at index `n mod k`, with the Luby restarts for a Maple strategy and the configured
restart type otherwise. -/
theorem set_branch_strategy_rotates (s : Searcher) (names : List BranchName) (n : Nat)
    (hk : names ≠ [])
    (hsetup : s.conf.branch_strategy_setup.data = branch_setup_text names) :
    set_branch_strategy_select s.conf.branch_strategy_setup.data
        (s.conf.branch_strategy_setup.data.length + 1) 0 [] = some (names.map BranchName.entry)
    ∧ ∃ b, names[n % names.length]? = some b
        ∧ set_branch_strategy s n
            = some { s with branch_strategy := b.entry.branch
                            cur_rest_type :=
                              if b.entry.branch = .maple then .luby else s.conf.restartType } := by
  have hlen : ∀ l : List BranchName, l.length ≤ (branch_setup_text l).length := by
    intro l
    induction l with
    | nil => simp
    | cons a l ih =>
      cases l with
      | nil =>
        have := text_length a
        simp only [branch_setup_text, List.length_singleton]
        omega
      | cons b l =>
        have := text_length a
        simp only [branch_setup_text, List.length_append, List.length_cons] at ih ⊢
        omega
  have hparse : set_branch_strategy_select s.conf.branch_strategy_setup.data
      (s.conf.branch_strategy_setup.data.length + 1) 0 [] = some (names.map BranchName.entry) := by
    have := select_parse s.conf.branch_strategy_setup.data names
      (s.conf.branch_strategy_setup.data.length + 1) 0 0 [] hk (by simpa using hsetup)
      (le_refl _) (fun i _ h => absurd h (by omega))
      (by rw [hsetup]; have := hlen names; omega)
    simpa using this
  refine ⟨hparse, ?_⟩
  have hpos : 0 < names.length := List.length_pos.2 hk
  have hidx : n % names.length < names.length := Nat.mod_lt _ hpos
  refine ⟨names[n % names.length], by simp [hidx], ?_⟩
  have hr : (if n ≥ (names.map BranchName.entry).length
        then (names.map BranchName.entry).foldl drop_once ([], n)
        else (names.map BranchName.entry, n)) = (names.map BranchName.entry, n) := by
    split
    · rw [drop_once_keeps _ _ (by
        intro b hb
        obtain ⟨x, _, rfl⟩ := List.mem_map.1 hb
        exact entry_not_once x)]
      simp
    · rfl
  unfold set_branch_strategy
  rw [hparse]
  simp only [hr]
  rw [if_neg (by rw [List.length_map]; omega)]
  simp [hidx]

/-- Witness for C24 on `ex_rotate` (`vsids1+maple2+rand`) with `n = 4`: the name at index 1 is
`maple2`. -/
theorem set_branch_strategy_rotates_witness :
    ∃ b, [BranchName.vsids1, .maple2, .rand][4 % 3]? = some b
      ∧ set_branch_strategy ex_rotate 4
          = some { ex_rotate with
                    branch_strategy := b.entry.branch
                    cur_rest_type :=
                      if b.entry.branch = .maple then .luby else ex_rotate.conf.restartType } :=
  (set_branch_strategy_rotates ex_rotate [.vsids1, .maple2, .rand] 4 (by decide)
    (by decide)).2

end Searcher
end CMSat

namespace CMSat
namespace Searcher

/-- C28 (as stated, refuted): on `ex_min` the trail is well formed and the learnt clause
`¬x3 ∨ ¬x2 ∨ ¬x1` is minimised to `¬x3 ∨ ¬x1`, in the recursive and in the non-recursive mode,
because the reason `x2 ∨ ¬x1 ∨ ¬x0` of `x2` has only a marked literal and one of level 0; the
assignment `ex_min_model` satisfies every reason clause and the unminimised clause, and not the
minimised one. -/
theorem minimize_learnt_clause_not_entailed :
    trail_ok ex_min
      ∧ ex_min.learnt_clause = [⟨7⟩, ⟨5⟩, ⟨3⟩]
      ∧ (minimize_learnt_clause ex_min).map (fun s => s.learnt_clause) = some [⟨7⟩, ⟨3⟩]
      ∧ (minimize_learnt_clause
            { ex_min with conf := { ex_min.conf with doRecursiveMinim := false } }).map
          (fun s => s.learnt_clause) = some [⟨7⟩, ⟨3⟩]
      ∧ (∀ t ∈ ex_min.trail, ∀ c ∈ reason_lits ex_min t.lit, clause_sat ex_min_model c)
      ∧ clause_sat ex_min_model [⟨7⟩, ⟨5⟩, ⟨3⟩]
      ∧ ¬ clause_sat ex_min_model [⟨7⟩, ⟨3⟩] := by
  refine ⟨by decide, rfl, by decide, by decide, by decide, by decide, by decide⟩

/-- C28 (amended): on a well-formed trail, with a learnt clause `l0 :: rest` whose literals after
the first are False on the trail and with marks only on variables of those literals,
`minimize_learnt_clause` (in either mode) returns; it keeps `l0` and a sublist of `rest` in
order, keeps every literal without a reason, and every literal it drops is redundant: it has a
reason whose other literals above level 0 are marked or redundant themselves.  The minimised
clause holds in every model of the unminimised clause, of the reason clauses and of the trail
literals of level 0. -/
theorem minimize_learnt_clause_sound (s : Searcher) (l0 : Lit) (rest : List Lit)
    (h0 : trail_ok s) (hL : s.learnt_clause = l0 :: rest)
    (hfalse : ∀ q ∈ rest, ∃ t ∈ s.trail, t.lit = q.neg)
    (hseen : ∀ v, s.seen v = true → ∃ q ∈ rest, q.var = v) :
    ∃ s1 kept, minimize_learnt_clause s = some s1 ∧ s1.learnt_clause = l0 :: kept
      ∧ kept.Sublist rest
      ∧ (∀ q ∈ rest, (s.varData q.var).reason = PropBy.null_clause_t → q ∈ kept)
      ∧ (∀ q ∈ rest, q ∉ kept → redundant s s.seen q.var)
      ∧ (∀ M : Nat → Bool, (∀ t ∈ s.trail, ∀ c ∈ reason_lits s t.lit, clause_sat M c) →
          (∀ t ∈ s.trail, t.lev = 0 → lit_true M t.lit = true) →
          clause_sat M (l0 :: rest) → clause_sat M (l0 :: kept)) := by
  obtain ⟨s1, kept, h1, h2, h3, h4, h5⟩ := minimize_learnt_clause_redundant h0 hL hfalse
  refine ⟨s1, kept, h1, h2, h3, h5, ?_, ?_⟩
  · intro q hq hnk
    rcases h4 q hq with a | a
    · exact absurd a hnk
    · exact a
  · intro M hR hZ hC
    obtain ⟨l, hl, hlM⟩ := hC
    rcases List.mem_cons.1 hl with rfl | hl
    · exact ⟨l, List.mem_cons_self _ _, hlM⟩
    · obtain ⟨t, ht, htl⟩ := hfalse l hl
      obtain ⟨k, hk, hkM⟩ := redundant_entailed h0 s.seen hfalse hseen h4 M hR hZ
        s.trail.length l (Or.inl hl) ⟨t, by rw [List.take_length]; exact ht, htl⟩ hlM
      exact ⟨k, List.mem_cons_of_mem _ hk, hkM⟩

theorem minimize_learnt_clause_sound_witness :
    trail_ok ex_min ∧ ex_min.learnt_clause = ⟨7⟩ :: [⟨5⟩, ⟨3⟩]
      ∧ ∃ s1 kept, minimize_learnt_clause ex_min = some s1 ∧ s1.learnt_clause = ⟨7⟩ :: kept
        ∧ kept.Sublist [⟨5⟩, ⟨3⟩]
        ∧ (∀ q ∈ [(⟨5⟩ : Lit), ⟨3⟩],
            (ex_min.varData q.var).reason = PropBy.null_clause_t → q ∈ kept)
        ∧ (∀ q ∈ [(⟨5⟩ : Lit), ⟨3⟩], q ∉ kept → redundant ex_min ex_min.seen q.var)
        ∧ (∀ M : Nat → Bool,
            (∀ t ∈ ex_min.trail, ∀ c ∈ reason_lits ex_min t.lit, clause_sat M c) →
            (∀ t ∈ ex_min.trail, t.lev = 0 → lit_true M t.lit = true) →
            clause_sat M (⟨7⟩ :: [⟨5⟩, ⟨3⟩]) → clause_sat M (⟨7⟩ :: kept)) :=
  ⟨by decide, rfl,
    minimize_learnt_clause_sound ex_min ⟨7⟩ [⟨5⟩, ⟨3⟩] (by decide) rfl (by decide)
      (by
        intro v hv
        have hv1 : v = 1 ∨ v = 2 := by simpa [ex_min] using hv
        rcases hv1 with rfl | rfl
        · exact ⟨⟨3⟩, by simp, rfl⟩
        · exact ⟨⟨5⟩, by simp, rfl⟩)⟩

end Searcher
end CMSat

namespace CMSat
namespace Searcher

/-! ## Claims on the marks after `analyze_conflict` and on the walk of `create_learnt_clause` -/

/-- C31: on a conflict of level `d > 0` of a well-formed trail, called without marks (no
`permDiff` entry above `MYFLAG`, so that `minimize_using_bins` returns), `analyze_conflict`
returns, and when it returns no variable is marked and `toClear` is empty; for either value of
`update_bogoprops`, every branching strategy and every minimisation setting of the
configuration. -/
theorem analyze_conflict_clears_marks (update_bogoprops : Bool) (s : Searcher)
    (confl : PropBy) (d : Nat) (h0 : trail_ok s) (hc : is_conflict_at s confl d)
    (hseen : ∀ v, s.seen v = false) (hperm : ∀ v, s.permDiff v ≤ s.MYFLAG) :
    ∃ s1 out_btlevel glue,
      analyze_conflict update_bogoprops s confl = some (s1, out_btlevel, glue)
        ∧ (∀ v, s1.seen v = false) ∧ s1.toClear = [] := by
  obtain ⟨s1, bt, glue, h, _⟩ := analyze_conflict_spec update_bogoprops h0 hc hseen hperm
  refine ⟨s1, bt, glue, h, ?_⟩
  apply analyze_conflict_marks update_bogoprops s confl (s1, bt, glue) h
  intro t ht v hv
  obtain ⟨t1, p, rest, hcl, _, _, hL, _, _, hs, _, _⟩ :=
    @create_learnt_clause_result update_bogoprops { s with learnt_clause := [] } confl d h0 hc
      hseen rfl
  rw [hcl] at ht
  simp only [Option.some.injEq] at ht
  subst ht
  obtain ⟨q, hq, hqv⟩ := hs v hv
  exact ⟨q, by rw [hL]; exact List.mem_cons_of_mem _ hq, hqv⟩

theorem analyze_conflict_clears_marks_witness :
    trail_ok ex_unit ∧ is_conflict_at ex_unit (.clause_t 0) 1
      ∧ (∃ s1 out_btlevel glue,
          analyze_conflict false ex_unit (.clause_t 0) = some (s1, out_btlevel, glue)
            ∧ (∀ v, s1.seen v = false) ∧ s1.toClear = [])
      ∧ (analyze_conflict false { ex_unit with branch_strategy := branch.maple }
            (.clause_t 0)).map (fun r => (r.1.learnt_clause, r.1.toClear))
          = some ([⟨3⟩], []) :=
  ⟨by decide, by decide,
    analyze_conflict_clears_marks false ex_unit (.clause_t 0) 1 (by decide) (by decide)
      (fun _ => rfl) (fun _ => Nat.le_refl _),
    by decide⟩

/-- C32: on a conflict of level `d > 0` of a well-formed trail, called without marks and with
an empty `learnt_clause`, the resolution loop of `create_learnt_clause` returns within
`trail.size() + 1` rounds, with `pathC` equal to 0 and a pivot that stands on the trail at an
index `n >= 0` with level `d`; so no search of the inner loops ran below index 0 and `pathC`
was never decremented at 0, the two events for which the loop has no result.  For the inner
loops on any state: they run below index 0 exactly when no entry below their start is marked
and of a level of at least `d`, and otherwise stop at the index of such an entry. -/
theorem create_learnt_clause_walk_in_bounds (update_bogoprops : Bool) (s : Searcher)
    (confl : PropBy) (d : Nat) (h0 : trail_ok s) (hc : is_conflict_at s confl d)
    (hseen : ∀ v, s.seen v = false) (hl : s.learnt_clause = []) :
    (∃ s2 p, create_learnt_clause_loop update_bogoprops d (s.trail.length + 1)
          { s with pathC := 0, learnt_clause := s.learnt_clause ++ [lit_Undef] } confl lit_Undef
          s.trail.length = some (s2, p)
        ∧ s2.pathC = 0
        ∧ (∃ n t, n < s.trail.length ∧ s.trail[n]? = some t ∧ t.lit = p ∧ t.lev = d)
        ∧ create_learnt_clause update_bogoprops s confl
            = some { s2 with learnt_clause := s2.learnt_clause.set 0 p.neg })
      ∧ ∀ (t : Searcher) (k : Nat), k ≤ t.trail.length →
          (select_next_implication t d k = none ↔
              ∀ i < k, ∀ e, t.trail[i]? = some e → ¬ (t.seen e.lit.var = true ∧ d ≤ e.lev))
            ∧ ∀ n, select_next_implication t d k = some n →
                n < k ∧ ∃ e, t.trail[n]? = some e ∧ t.seen e.lit.var = true ∧ d ≤ e.lev := by
  refine ⟨?_, fun t k hk => select_next_implication_none t d k hk⟩
  obtain ⟨s2, p, hloop, hpost, hcl⟩ := create_learnt_clause_loop_start update_bogoprops h0 hc
    hseen hl
  obtain ⟨t, ht, htp, htl⟩ := hpost.pivot
  obtain ⟨n, hn, hnt⟩ := List.getElem_of_mem ht
  exact ⟨s2, p, hloop, hpost.pathC_zero,
    ⟨n, t, hn, by rw [List.getElem?_eq_getElem hn, hnt], htp, htl⟩, hcl⟩

theorem create_learnt_clause_walk_in_bounds_witness :
    trail_ok ex_unit ∧ is_conflict_at ex_unit (.clause_t 0) 1
      ∧ ((∃ s2 p, create_learnt_clause_loop false 1 (ex_unit.trail.length + 1)
            { ex_unit with pathC := 0, learnt_clause := ex_unit.learnt_clause ++ [lit_Undef] }
            (.clause_t 0) lit_Undef ex_unit.trail.length = some (s2, p)
          ∧ s2.pathC = 0
          ∧ (∃ n t, n < ex_unit.trail.length ∧ ex_unit.trail[n]? = some t ∧ t.lit = p
              ∧ t.lev = 1)
          ∧ create_learnt_clause false ex_unit (.clause_t 0)
              = some { s2 with learnt_clause := s2.learnt_clause.set 0 p.neg })
        ∧ ∀ (t : Searcher) (k : Nat), k ≤ t.trail.length →
            (select_next_implication t 1 k = none ↔
                ∀ i < k, ∀ e, t.trail[i]? = some e → ¬ (t.seen e.lit.var = true ∧ 1 ≤ e.lev))
              ∧ ∀ n, select_next_implication t 1 k = some n →
                  n < k ∧ ∃ e, t.trail[n]? = some e ∧ t.seen e.lit.var = true ∧ 1 ≤ e.lev) :=
  ⟨by decide, by decide,
    create_learnt_clause_walk_in_bounds false ex_unit (.clause_t 0) 1 (by decide) (by decide)
      (fun _ => rfl) rfl⟩

end Searcher
end CMSat

namespace CMSat
namespace Searcher

/-! ## Claims on `litRedundant`: effect on the marks, termination -/

/-- C33: for every state, literal `p` and `abstract_levels`, whenever `litRedundant` returns:
on `false` it leaves `seen` and `toClear` exactly as they were at the call; on `true`, `toClear`
is the old one extended by the literals it marked, which were unmarked, and `seen` is the old
one except that it is set on the variables of those literals.  On a well-formed trail it returns
for every `p` that is False on the trail and has a reason. -/
theorem litRedundant_restores_or_extends (s : Searcher) (p : Lit) (al : Nat) :
    (∀ b s1, litRedundant s p al = some (b, s1) →
      (b = false → s1.seen = s.seen ∧ s1.toClear = s.toClear)
      ∧ (b = true → ∃ added, s1.toClear = s.toClear ++ added
          ∧ (∀ x ∈ added, s.seen x.var = false)
          ∧ ∀ v, s1.seen v = (s.seen v || added.any (fun x => x.var == v))))
    ∧ (trail_ok s → lr_valid s p → ∃ b s1, litRedundant s p al = some (b, s1)) := by
  constructor
  · intro b s1 h
    unfold litRedundant at h
    have hm : lr_marks s.seen s.toClear s [] :=
      ⟨by simp, fun v => by simp, fun x hx => by simp at hx⟩
    obtain ⟨a1, a2⟩ := litRedundant_loop_effect al s.seen s.toClear _ [p] s [] b s1 hm
      (by simp) h
    refine ⟨a1, fun hb => ?_⟩
    obtain ⟨new1, m, _⟩ := a2 hb
    refine ⟨new1, m.toClear, m.unmarked, fun v => ?_⟩
    rw [Bool.eq_iff_iff, m.seen v]
    simp [List.any_eq_true]
  · intro h0 hp
    obtain ⟨b, s1, h, _⟩ := litRedundant_spec h0 (analysis_frame.frame_refl s) hp al
    exact ⟨b, s1, h⟩

/-- C34: on a well-formed trail whose variables are below `nVars`, `litRedundant` returns for
every literal `p` that is False on the trail and has a reason, and its loop needs no more than
`nVars + 1` rounds: it returns the same result when it is cut off after `nVars + 2` tests of the
stack, and already after as many as there are unmarked trail variables plus 2.  The literals it
pushes were unmarked and are marked at the push, so on `true` the pushed literals, which are
what `toClear` has gained, have pairwise distinct variables. -/
theorem litRedundant_terminates (s : Searcher) (p : Lit) (al : Nat) (h0 : trail_ok s)
    (hp : lr_valid s p) (hn : ∀ t ∈ s.trail, t.lit.var < s.nVars) :
    ∃ b s1, litRedundant s p al = some (b, s1)
      ∧ litRedundant_loop al s.toClear.length (s.nVars + 2) [p] s = some (b, s1)
      ∧ litRedundant_loop al s.toClear.length (unseen_count s s.seen + 2) [p] s = some (b, s1)
      ∧ unseen_count s s.seen ≤ s.nVars
      ∧ (b = true → ∃ added, s1.toClear = s.toClear ++ added
          ∧ (added.map Lit.var).Nodup
          ∧ ∀ x ∈ added, s.seen x.var = false ∧ s1.seen x.var = true) := by
  have hlen : s.trail.length ≤ s.nVars := by
    have := nodup_length_le h0.nodup (n := s.nVars) (by
      intro x hx
      obtain ⟨t, ht, rfl⟩ := List.mem_map.1 hx
      exact hn t ht)
    simpa using this
  have hcount : unseen_count s s.seen ≤ s.trail.length := List.countP_le_length _
  obtain ⟨b, s1, h, _⟩ := litRedundant_loop_spec h0 al s.toClear.length
    (unseen_count s s.seen + 2) [p] s (analysis_frame.frame_refl s)
    (by
      intro q hq
      have : q = p := by simpa using hq
      rw [this]; exact hp)
    (by simp only [List.length_singleton]; omega)
  have h1 := litRedundant_loop_fuel al s.toClear.length _ [p] s (b, s1)
    (s.trail.length - unseen_count s s.seen) h
  have h2 := litRedundant_loop_fuel al s.toClear.length _ [p] s (b, s1)
    (s.nVars - unseen_count s s.seen) h
  have e1 : unseen_count s s.seen + 2 + (s.trail.length - unseen_count s s.seen)
      = s.trail.length + 2 := by omega
  have e2 : unseen_count s s.seen + 2 + (s.nVars - unseen_count s s.seen) = s.nVars + 2 := by
    omega
  rw [e1] at h1
  rw [e2] at h2
  refine ⟨b, s1, h1, h2, h, by omega, fun hb => ?_⟩
  have hm : lr_marks s.seen s.toClear s [] :=
    ⟨by simp, fun v => by simp, fun x hx => by simp at hx⟩
  obtain ⟨_, a2⟩ := litRedundant_loop_effect al s.seen s.toClear _ [p] s [] b s1 hm
    (by simp) h
  obtain ⟨new1, m, nd⟩ := a2 hb
  refine ⟨new1, m.toClear, by simpa using nd, fun x hx => ⟨m.unmarked x hx, ?_⟩⟩
  exact (m.seen _).2 (Or.inr ⟨x, hx, rfl⟩)

theorem litRedundant_terminates_witness :
    trail_ok ex_min_vars ∧ lr_valid ex_min_vars ⟨5⟩
      ∧ ∃ b s1, litRedundant ex_min_vars ⟨5⟩ 6 = some (b, s1)
        ∧ litRedundant_loop 6 ex_min_vars.toClear.length (ex_min_vars.nVars + 2) [⟨5⟩]
            ex_min_vars = some (b, s1)
        ∧ litRedundant_loop 6 ex_min_vars.toClear.length
            (unseen_count ex_min_vars ex_min_vars.seen + 2) [⟨5⟩] ex_min_vars = some (b, s1)
        ∧ unseen_count ex_min_vars ex_min_vars.seen ≤ ex_min_vars.nVars
        ∧ (b = true → ∃ added, s1.toClear = ex_min_vars.toClear ++ added
            ∧ (added.map Lit.var).Nodup
            ∧ ∀ x ∈ added, ex_min_vars.seen x.var = false ∧ s1.seen x.var = true) :=
  ⟨by decide, ⟨⟨⟨⟨4⟩, 1⟩, by decide, by decide⟩, by decide⟩,
    litRedundant_terminates ex_min_vars ⟨5⟩ 6 (by decide)
      ⟨⟨⟨⟨4⟩, 1⟩, by decide, by decide⟩, by decide⟩ (by decide)⟩

end Searcher
end CMSat

namespace CMSat
namespace Searcher

/-! ## Claim on `minimise_redundant_more_more` -/

/-- C35: on every non-empty clause `l0 :: rest` (kept in `learnt_clause`)
`minimise_redundant_more_more` returns a clause `l0 :: kept` with `kept` a subsequence of
`rest`; a literal `r` of the clause that is no longer in the result is the negation of the other
literal of a binary watch on the list of a literal `l` of the clause, that is, the watch stands
for the binary clause `(l ∨ ¬r)`; so every model of the binary clauses on those watch lists
(proper ones, whose two literals are not each other's negation) that satisfies the clause
satisfies the result; and afterwards no literal of the clause is marked and no mark has been
added, so marks that were all clear are all clear again. -/
theorem minimise_redundant_more_more_sound (s : Searcher) (l0 : Lit) (rest : List Lit)
    (hL : s.learnt_clause = l0 :: rest) :
    ∃ s1 kept, minimise_redundant_more_more s = some s1
      ∧ s1.learnt_clause = l0 :: kept ∧ kept.Sublist rest
      ∧ (∀ r ∈ l0 :: rest, r ∉ l0 :: kept →
          ∃ l ∈ l0 :: rest, ∃ lit2 red, Watched.bin lit2 red ∈ s.watches l ∧ r = lit2.neg)
      ∧ (∀ M : Nat → Bool,
          (∀ l ∈ l0 :: rest, ∀ lit2 red, Watched.bin lit2 red ∈ s.watches l →
            lit2 ≠ l.neg ∧ clause_sat M [l, lit2]) →
          clause_sat M (l0 :: rest) → clause_sat M (l0 :: kept))
      ∧ (∀ l ∈ l0 :: rest, s1.seen l.toInt = false)
      ∧ (∀ i, s1.seen i = true → s.seen i = true)
      ∧ ((∀ i, s.seen i = false) → ∀ i, s1.seen i = false) := by
  have hmark : ∀ x ∈ l0 :: rest,
      ((l0 :: rest).foldl (fun sn l => upd sn l.toInt true) s.seen) x.toInt = true :=
    fun x hx => (foldl_mark_true _ _ _).2 (Or.inr ⟨x, hx, rfl⟩)
  have hstart : morem_inv s.watches (l0 :: rest)
      ((l0 :: rest).foldl (fun sn l => upd sn l.toInt true) s.seen)
      ((l0 :: rest).foldl (fun sn l => upd sn l.toInt true) s.seen) := by
    refine ⟨fun _ h => h, ?_, ?_⟩
    · intro r hr hrs
      rw [hmark r hr] at hrs
      cases hrs
    · intro M _ hx
      obtain ⟨x, hx, hxM⟩ := hx
      exact ⟨x, hx, hmark x hx, hxM⟩
  have hinv : morem_inv s.watches (l0 :: rest)
      ((l0 :: rest).foldl (fun sn l => upd sn l.toInt true) s.seen)
      (binary_based_morem_minim
        { s with seen := (l0 :: rest).foldl (fun sn l => upd sn l.toInt true) s.seen }
        (l0 :: rest)) := by
    unfold binary_based_morem_minim
    exact binary_based_morem_minim_fold_inv s.watches (l0 :: rest) _ _ _
      (fun l hl => List.mem_of_mem_take hl) hstart
  have hres : minimise_redundant_more_more s
      = some { s with
          seen := (minimise_redundant_more_more_filter (l0 :: rest)
            (upd (binary_based_morem_minim
              { s with seen := (l0 :: rest).foldl (fun sn l => upd sn l.toInt true) s.seen }
              (l0 :: rest)) l0.toInt true)).2
          learnt_clause := (minimise_redundant_more_more_filter (l0 :: rest)
            (upd (binary_based_morem_minim
              { s with seen := (l0 :: rest).foldl (fun sn l => upd sn l.toInt true) s.seen }
              (l0 :: rest)) l0.toInt true)).1 } := by
    unfold minimise_redundant_more_more
    split
    · rename_i hnil
      rw [hL] at hnil
      cases hnil
    · rename_i a b hab
      rw [hL] at hab
      simp only [List.cons.injEq] at hab
      obtain ⟨rfl, rfl⟩ := hab
      rfl
  generalize binary_based_morem_minim
      { s with seen := (l0 :: rest).foldl (fun sn l => upd sn l.toInt true) s.seen }
      (l0 :: rest) = seen2 at hinv hres
  obtain ⟨kept, hk1, hk2⟩ := minimise_redundant_more_more_filter_head l0 rest
    (upd seen2 l0.toInt true) (by simp [upd])
  obtain ⟨m1, m2, _⟩ := minimise_redundant_more_more_marks s _ hres
  rw [hL] at m1
  refine ⟨_, kept, hres, hk1, hk2, ?_, ?_, m1, m2, ?_⟩
  · intro r hr hnr
    rw [← hk1] at hnr
    have h3 : (upd seen2 l0.toInt true) r.toInt = false := by
      cases hs : (upd seen2 l0.toInt true) r.toInt with
      | false => rfl
      | true => exact absurd ((more_more_filter_mem _ _ _).2 ⟨hr, hs⟩) hnr
    have hne : r.toInt ≠ l0.toInt := by
      intro e
      rw [e, upd_same] at h3
      cases h3
    rw [upd_other _ _ _ _ hne] at h3
    exact hinv.justified r hr h3
  · intro M hM hC
    obtain ⟨y, hy, hys, hyM⟩ := hinv.entailed M hM hC
    have h3 : (upd seen2 l0.toInt true) y.toInt = true := by
      by_cases e : y.toInt = l0.toInt
      · rw [e, upd_same]
      · rw [upd_other _ _ _ _ e]; exact hys
    refine ⟨y, ?_, hyM⟩
    rw [← hk1]
    exact (more_more_filter_mem _ _ _).2 ⟨hy, h3⟩
  · intro hz i
    cases hs : (minimise_redundant_more_more_filter (l0 :: rest)
        (upd seen2 l0.toInt true)).2 i with
    | false => exact hs
    | true =>
      have := m2 i hs
      rw [hz i] at this
      cases this

/-- Witness for C35: on `ex_more` the binary clause `(¬x3 ∨ x2)` on the watch list of `¬x3`
removes `¬x2` from `(¬x3 ∨ ¬x2 ∨ ¬x1)`. -/
theorem minimise_redundant_more_more_sound_witness :
    ex_more.learnt_clause = ⟨7⟩ :: [⟨5⟩, ⟨3⟩]
      ∧ (∃ s1 kept, minimise_redundant_more_more ex_more = some s1
        ∧ s1.learnt_clause = ⟨7⟩ :: kept ∧ kept.Sublist [⟨5⟩, ⟨3⟩]
        ∧ (∀ r ∈ (⟨7⟩ : Lit) :: [⟨5⟩, ⟨3⟩], r ∉ (⟨7⟩ : Lit) :: kept →
            ∃ l ∈ (⟨7⟩ : Lit) :: [⟨5⟩, ⟨3⟩], ∃ lit2 red,
              Watched.bin lit2 red ∈ ex_more.watches l ∧ r = lit2.neg)
        ∧ (∀ M : Nat → Bool,
            (∀ l ∈ (⟨7⟩ : Lit) :: [⟨5⟩, ⟨3⟩], ∀ lit2 red,
              Watched.bin lit2 red ∈ ex_more.watches l →
              lit2 ≠ l.neg ∧ clause_sat M [l, lit2]) →
            clause_sat M (⟨7⟩ :: [⟨5⟩, ⟨3⟩]) → clause_sat M (⟨7⟩ :: kept))
        ∧ (∀ l ∈ (⟨7⟩ : Lit) :: [⟨5⟩, ⟨3⟩], s1.seen l.toInt = false)
        ∧ (∀ i, s1.seen i = true → ex_more.seen i = true)
        ∧ ((∀ i, ex_more.seen i = false) → ∀ i, s1.seen i = false))
      ∧ (minimise_redundant_more_more ex_more).map (fun t => t.learnt_clause)
          = some [⟨7⟩, ⟨3⟩] :=
  ⟨rfl, minimise_redundant_more_more_sound ex_more ⟨7⟩ [⟨5⟩, ⟨3⟩] rfl, by decide⟩

end Searcher
end CMSat

namespace CMSat
namespace Searcher

/-! ## Claim on `find_conflict_level` -/

/-- C36: on every conflicting constraint (binary or long, so with at least two literals) whose
literals all have a level of at most `decisionLevel()`, `find_conflict_level` returns, and
`nHighestLevel` is the greatest level among the literals of the constraint; afterwards the first
literal of the constraint (`failBinLit` for a binary one) has that level and the constraint
holds the same literals in another order; for a long clause whose literal of index `h > 1` was
swapped to the front, the watch of the clause is taken off the list of the old first literal
and put on the list of the new one, so a clause watched by its first two literals stays so. -/
theorem find_conflict_level_highest (s : Searcher) (confl : PropBy)
    (hlen : 2 ≤ (confl_lits s confl).length)
    (hlev : ∀ q ∈ confl_lits s confl, s.level q ≤ s.decisionLevel) :
    ∃ nH confl1 s1, find_conflict_level s confl = some (nH, confl1, s1)
      ∧ highest_found s confl nH confl1 s1 := by
  cases confl with
  | null_clause_t => simp [confl_lits] at hlen
  | binary_t lit2 red =>
    obtain ⟨nH, confl1, s1, h1, hs, hb, ha, hh, hp⟩ :=
      find_conflict_level_binary_levels s lit2 red hlev
    refine ⟨nH, confl1, s1, h1, ⟨hb, ha, ?_, hh, hp, ?_, ?_⟩⟩
    · rw [hs]
    · intro l r _
      refine ⟨?_, by rw [hs], by rw [hs]⟩
      have hlen1 := hp.length_eq
      cases confl1 with
      | null_clause_t => simp [confl_lits] at hlen1
      | binary_t a b => rfl
      | clause_t o =>
        exfalso
        unfold find_conflict_level at h1
        simp only at h1
        split at h1
        · simp at h1
        · split at h1 <;> simp at h1
    · intro offs h
      cases h
  | clause_t offs =>
    have hlits : confl_lits s (.clause_t offs) = (s.cl_alloc offs).lits := rfl
    rw [hlits] at hlen hlev
    obtain ⟨nH, s1, h, h1, hlt, hs, hl, hn, hb, hw0, hw1⟩ :=
      find_conflict_level_long_levels s offs hlen hlev
    have hvd : s1.varData = s.varData := by rw [hs]
    have hl1 : confl_lits s1 (.clause_t offs) = swapAt (s.cl_alloc offs).lits 0 h := hl
    have hget : ∀ i, i < (s.cl_alloc offs).lits.length →
        (s.cl_alloc offs).lits.getD i lit_Undef ∈ (s.cl_alloc offs).lits := by
      intro i hi
      rw [List.getD_eq_getElem?_getD, List.getElem?_eq_getElem hi]
      exact List.getElem_mem hi
    refine ⟨nH, .clause_t offs, s1, h1, ⟨hb, ⟨_, hget h hlt, hn.symm⟩, hvd, ?_, ?_, ?_, ?_⟩⟩
    · rw [hl1, headD_eq_getD, swapAt_getD_left _ _ _ (by omega)]
      simp only [Searcher.level, hvd]
      simp only [Searcher.level] at hn
      exact hn.symm
    · rw [hl1]
      exact swapAt_perm _ _ _ (by omega) hlt
    · intro l r h2
      cases h2
    · intro o ho
      cases ho
      refine ⟨rfl, h, hlt, hl, hw0, ?_, ?_⟩
      · intro hh
        obtain ⟨e, hlv⟩ := hw1 hh
        have hne : (s.cl_alloc offs).lits.getD 0 lit_Undef
            ≠ (s.cl_alloc offs).lits.getD h lit_Undef := by
          intro hc
          rw [hc] at hlv
          exact absurd hlv (lt_irrefl _)
        rw [e]
        exact find_conflict_level_swap_watches s offs h hh hlt hne
      · intro h01 hwa hwb
        rw [hl]
        by_cases hh : 1 < h
        · obtain ⟨e, hlv⟩ := hw1 hh
          have hne : (s.cl_alloc offs).lits.getD 0 lit_Undef
              ≠ (s.cl_alloc offs).lits.getD h lit_Undef := by
            intro hc
            rw [hc] at hlv
            exact absurd hlv (lt_irrefl _)
          obtain ⟨w0, wh, wo⟩ := find_conflict_level_swap_watches s offs h hh hlt hne
          rw [← e] at w0 wh wo
          rw [swapAt_getD_left _ _ _ (by omega),
            swapAt_getD_other _ _ _ _ (by omega) (by omega)]
          have hnew : watched_by s1 offs ((s.cl_alloc offs).lits.getD h lit_Undef) := by
            refine ⟨(s.cl_alloc offs).lits.getD 1 lit_Undef, ?_⟩
            rw [wh]
            exact List.mem_append_right _ (List.mem_singleton_self _)
          constructor
          · exact hnew
          · by_cases h1h : (s.cl_alloc offs).lits.getD 1 lit_Undef
                = (s.cl_alloc offs).lits.getD h lit_Undef
            · rw [h1h]
              exact hnew
            · obtain ⟨b, hbm⟩ := hwb
              exact ⟨b, by rw [wo _ (Ne.symm h01) h1h]; exact hbm⟩
        · have hle : h ≤ 1 := by omega
          have hws := hw0 hle
          by_cases h0 : h = 0
          · subst h0
            rw [swapAt_zero_zero]
            exact ⟨by obtain ⟨b, hbm⟩ := hwa; exact ⟨b, by rw [hws]; exact hbm⟩,
              by obtain ⟨b, hbm⟩ := hwb; exact ⟨b, by rw [hws]; exact hbm⟩⟩
          · have h1e : h = 1 := by omega
            subst h1e
            rw [swapAt_getD_left _ _ _ (by omega), swapAt_getD_right _ _ _ hlt]
            exact ⟨by obtain ⟨b, hbm⟩ := hwb; exact ⟨b, by rw [hws]; exact hbm⟩,
              by obtain ⟨b, hbm⟩ := hwa; exact ⟨b, by rw [hws]; exact hbm⟩⟩

theorem find_conflict_level_highest_witness :
    2 ≤ (confl_lits ex_confl (.clause_t 0)).length
      ∧ (∀ q ∈ confl_lits ex_confl (.clause_t 0), ex_confl.level q ≤ ex_confl.decisionLevel)
      ∧ ∃ nH confl1 s1, find_conflict_level ex_confl (.clause_t 0) = some (nH, confl1, s1)
          ∧ highest_found ex_confl (.clause_t 0) nH confl1 s1 :=
  ⟨by decide, by decide,
    find_conflict_level_highest ex_confl (.clause_t 0) (by decide) (by decide)⟩

end Searcher
end CMSat

namespace CMSat
namespace Searcher

/-! ## Claim on the order of the assumptions in `new_decision` -/

/-- C37: between conflicts (marks clear) and with proper literals as assumptions,
`new_decision` returns, and it has handled the assumptions from index `decisionLevel()` on in
their order: each of the `k` ones found True opened an empty decision level; if the next one is
False the result is `l_False` with the final conflict computed and the trail and the levels
left as they were; if it is unassigned it is the decision; `pickBranchLit` is called only when
the assumptions are used up (before that the result does not depend on it), and `l_True` is
returned only then and only when `pickBranchLit` gives `lit_Undef`.  On `l_Undef` exactly one
literal has been enqueued, at a new highest decision level. -/
theorem new_decision_assumptions_first (c : Collab) (s : Searcher)
    (hseen : ∀ v, s.seen v = false) (hperm : ∀ v, s.permDiff v ≤ s.MYFLAG)
    (hA : ∀ a ∈ s.assumptions, a ≠ lit_Undef) :
    ∃ k st s1, new_decision c s = some (st, s1) ∧ decision_made c s k st s1 := by
  obtain ⟨k, hopen, hbelow, hdone⟩ :=
    new_decision_assumptions_order (s.assumptions.length + 1) s (by omega) (by omega)
  have hX := open_levels_eq s k
  have hXt : (open_levels s k).trail = s.trail := by rw [hX]
  have hXl : (open_levels s k).trail_lim
      = s.trail_lim ++ List.replicate k s.trail.length := by rw [hX]
  have hXa : (open_levels s k).assigns = s.assigns := by rw [hX]
  have hXd := open_levels_decisionLevel s k
  by_cases hlt : s.decisionLevel + k < s.assumptions.length
  · obtain ⟨hnt, hF, hU⟩ := hbelow hlt
    have hge : ¬ s.assumptions.length ≤ s.decisionLevel + k := by omega
    by_cases hfl : s.value (s.assumptions.getD (s.decisionLevel + k) lit_Undef) = l_False
    · obtain ⟨s1, h1, htl, has, _⟩ := analyze_final_spec (open_levels s k)
        (s.assumptions.getD (s.decisionLevel + k) lit_Undef).neg
        (by rw [hX]; exact hseen) (by rw [hX]; exact hperm)
      have htr := analyze_final_trail (open_levels s k) _
        (by rw [hX]; exact hperm) h1
      have hnd : ∀ c1 : Collab, new_decision c1 s = some (l_False, s1) := by
        intro c1
        unfold new_decision
        rw [hF hfl, h1]
        rfl
      refine ⟨k, l_False, s1, hnd c, ⟨hopen, fun _ => hnt, ?_, ?_, fun _ => hnd, ?_, ?_, ?_⟩⟩
      · intro _ _
        exact ⟨rfl, h1, htr.trans hXt, htl, has.trans hXa⟩
      · intro _ hu
        rw [hu] at hfl
        cases hfl
      · intro h; exact absurd h hge
      · intro h; cases h
      · intro h; cases h
    · have hund := lbool_undef_of_ne hnt hfl
      have hne : s.assumptions.getD (s.decisionLevel + k) lit_Undef ≠ lit_Undef := by
        apply hA
        rw [List.getD_eq_getElem _ _ hlt]
        exact List.getElem_mem _
      have hdl : (new_decision_level (open_levels s k)).decisionLevel
          = s.decisionLevel + k + 1 := by
        show ((open_levels s k).trail_lim ++ [(open_levels s k).trail.length]).length = _
        rw [hXl]
        simp [Searcher.decisionLevel]
        omega
      have hnd : ∀ c1 : Collab, new_decision c1 s = some (l_Undef,
          enqueue (new_decision_level (open_levels s k))
            (s.assumptions.getD (s.decisionLevel + k) lit_Undef) (s.decisionLevel + k + 1)
            PropBy.null_clause_t) := by
        intro c1
        unfold new_decision
        rw [hU hfl]
        simp only
        rw [if_neg hne, hdl]
      refine ⟨k, l_Undef, _, hnd c, ⟨hopen, fun _ => hnt, ?_, ?_, fun _ => hnd, ?_, ?_, ?_⟩⟩
      · intro _ hf; exact absurd hf hfl
      · intro _ _; exact ⟨rfl, rfl⟩
      · intro h; exact absurd h hge
      · intro h; cases h
      · intro _
        exact ⟨_, enqueue_decision_facts s (open_levels s k) k _ _ hXt hXl hXa⟩
  · have hge : s.assumptions.length ≤ s.decisionLevel + k := by omega
    obtain ⟨⟨next, s2⟩, hp⟩ := pickBranchLit_total c (open_levels s k)
    have hh := pickBranchLit_heaps c _ _ hp
    have h2t : s2.trail = s.trail := by
      have := congrArg Searcher.trail hh
      exact this.trans hXt
    have h2l : s2.trail_lim = s.trail_lim ++ List.replicate k s.trail.length := by
      have := congrArg Searcher.trail_lim hh
      exact this.trans hXl
    have h2a : s2.assigns = s.assigns := by
      have := congrArg Searcher.assigns hh
      exact this.trans hXa
    have hdl : (new_decision_level s2).decisionLevel = s.decisionLevel + k + 1 := by
      show (s2.trail_lim ++ [s2.trail.length]).length = _
      rw [h2l]
      simp [Searcher.decisionLevel]
      omega
    by_cases hn : next = lit_Undef
    · have hnd : new_decision c s = some (l_True, s2) := by
        unfold new_decision
        rw [hdone hge]
        simp only [if_true, hp, if_pos hn]
      refine ⟨k, l_True, s2, hnd, ⟨hopen, fun h => absurd h hlt, fun h => absurd h hlt,
        fun h => absurd h hlt, fun h => absurd h hlt, ?_, ?_, ?_⟩⟩
      · intro _
        exact ⟨next, s2, hp, hh, fun _ => ⟨rfl, rfl⟩, fun h => absurd hn h⟩
      · intro _
        rw [← hn]
        exact ⟨hge, hp⟩
      · intro h; cases h
    · have hnd : new_decision c s = some (l_Undef,
          enqueue (new_decision_level s2) next (s.decisionLevel + k + 1)
            PropBy.null_clause_t) := by
        unfold new_decision
        rw [hdone hge]
        simp only [if_true, hp, if_neg hn, hdl]
      refine ⟨k, l_Undef, _, hnd, ⟨hopen, fun h => absurd h hlt, fun h => absurd h hlt,
        fun h => absurd h hlt, fun h => absurd h hlt, ?_, ?_, ?_⟩⟩
      · intro _
        exact ⟨next, s2, hp, hh, fun h => absurd h hn, fun _ => ⟨rfl, rfl⟩⟩
      · intro h; cases h
      · intro _
        exact ⟨_, enqueue_decision_facts s s2 k _ _ h2t h2l h2a⟩

theorem new_decision_assumptions_first_witness :
    (∀ v, ex_assume_order.seen v = false)
      ∧ (∀ v, ex_assume_order.permDiff v ≤ ex_assume_order.MYFLAG)
      ∧ (∀ a ∈ ex_assume_order.assumptions, a ≠ lit_Undef)
      ∧ (∃ k st s1, new_decision Collab.idle ex_assume_order = some (st, s1)
          ∧ decision_made Collab.idle ex_assume_order k st s1)
      ∧ (new_decision Collab.idle ex_assume_order).map
            (fun r => (r.1, r.2.trail, r.2.trail_lim))
          = some (l_Undef, [⟨⟨0⟩, 0⟩, ⟨⟨2⟩, 2⟩], [1, 1]) :=
  ⟨fun _ => rfl, fun _ => Nat.le_refl _, by decide,
    new_decision_assumptions_first Collab.idle ex_assume_order (fun _ => rfl)
      (fun _ => Nat.le_refl _) (by decide),
    by decide⟩

end Searcher
end CMSat

namespace CMSat
namespace Searcher

/-! ## Claims on the restart type of the phase and on the once-only strategy -/

/-- C38: in every state reached from `setup_restart_strategy` (for any configured restart type)
by any number of calls of `adjust_restart_strategy`, with other code in between that does not
write it, `params.rest_type` is not `glue_geom` but one of `never`, `geom`, `luby`, `glue`, which
is what the assertion of `check_need_restart` tests; and the next `adjust_restart_strategy`
returns, its second `switch` not reaching the `default` branch, again with such a type. -/
theorem rest_type_never_glue_geom (s : Searcher) (h : restart_reachable s) :
    s.params.rest_type ≠ Restart.glue_geom
      ∧ (s.params.rest_type = Restart.never ∨ s.params.rest_type = Restart.geom
          ∨ s.params.rest_type = Restart.luby ∨ s.params.rest_type = Restart.glue)
      ∧ ∃ s1, adjust_restart_strategy s = some s1
          ∧ s1.params.rest_type ≠ Restart.glue_geom := by
  have hne := restart_reachable_rest_type h
  refine ⟨hne, ?_, ?_⟩
  · cases hr : s.params.rest_type with
    | glue_geom => exact absurd hr hne
    | never => exact Or.inl rfl
    | geom => exact Or.inr (Or.inl rfl)
    | luby => exact Or.inr (Or.inr (Or.inl rfl))
    | glue => exact Or.inr (Or.inr (Or.inr rfl))
  · obtain ⟨s1, h1, _, _⟩ := adjust_restart_strategy_total s
    exact ⟨s1, h1, adjust_restart_strategy_rest_type h1 hne⟩

theorem rest_type_never_glue_geom_witness :
    restart_reachable ex_phase_over
      ∧ (ex_phase_over.params.rest_type ≠ Restart.glue_geom
        ∧ (ex_phase_over.params.rest_type = Restart.never
            ∨ ex_phase_over.params.rest_type = Restart.geom
            ∨ ex_phase_over.params.rest_type = Restart.luby
            ∨ ex_phase_over.params.rest_type = Restart.glue)
        ∧ ∃ s1, adjust_restart_strategy ex_phase_over = some s1
            ∧ s1.params.rest_type ≠ Restart.glue_geom) :=
  ⟨restart_reachable.other _ _ (restart_reachable.setup ex_glue_geom) rfl,
    rest_type_never_glue_geom ex_phase_over
      (restart_reachable.other _ _ (restart_reachable.setup ex_glue_geom) rfl)⟩

/-- C39 (the code at the failing input): the set-up string `vsidsx_once` holds one recognised
name, so `select` is the single entry `VSIDSXONCE` and `set_branch_strategy(0)` selects it; for
every `iteration_num >= 1` the once-only entry is dropped, `select` is left empty and
`iteration_num % select.size()` divides by zero (`none`). -/
theorem set_branch_strategy_once_only_empty :
    set_branch_strategy_select ex_once.conf.branch_strategy_setup.data
        (ex_once.conf.branch_strategy_setup.data.length + 1) 0 []
      = some [⟨branch.vsids, "VSIDSXONCE"⟩]
    ∧ (set_branch_strategy ex_once 0).isSome = true
    ∧ set_branch_strategy ex_once 1 = none
    ∧ ∀ n, 1 ≤ n → set_branch_strategy ex_once n = none := by
  have hparse : set_branch_strategy_select ex_once.conf.branch_strategy_setup.data
      (ex_once.conf.branch_strategy_setup.data.length + 1) 0 []
      = some [⟨branch.vsids, "VSIDSXONCE"⟩] := by decide
  refine ⟨hparse, ?_, ?_, ?_⟩
  · unfold set_branch_strategy
    rw [hparse]
    rfl
  · unfold set_branch_strategy
    rw [hparse]
    rfl
  · intro n hn
    unfold set_branch_strategy
    rw [hparse]
    have hge : n ≥ [(⟨branch.vsids, "VSIDSXONCE"⟩ : branch_type_total)].length := hn
    simp only [if_pos hge]
    rfl

end Searcher
end CMSat

namespace CMSat
namespace Searcher

/-! ## Claim on the backward scan over the decision-based clause -/

/-- C40: in `handle_conflict` on a conflict above level 0 of a well-formed trail, called without
marks, where every level that a trail literal carries starts with a literal of that level: the
backtrack and the enqueue of the learnt clause return, and when `decision_clause` is not empty
then, the backward scan stops at an index `i` with `0 <= i < decision_clause.size()` whose
literal is True or unassigned, the decision-based clause is added and `handle_conflict` returns
true; for chronological and non-chronological backtracking alike.  The literal found is the
negated first literal of the level of the conflict: the backtrack goes below that level and
unassigns it, and the enqueue of the learnt clause can only make it True.  For the scan on any
state: it passes index 0 (the case in which the swap would use index -1, for which the model
has no result) exactly when no literal below its start is True or unassigned. -/
theorem handle_conflict_decision_scan_in_bounds (s : Searcher) (confl : PropBy)
    (h : conflict_state s confl) (hroot : levels_rooted s) :
    (∃ o s6 s7, handle_conflict_backtrack s confl = some (.inr o)
        ∧ attach_and_enqueue_learnt_clause
            (handle_last_confl o.st (min o.glue uint32_max) false).2
            (handle_last_confl o.st (min o.glue uint32_max) false).1 o.backtrack_level true
          = some s6
        ∧ (0 < s6.decision_clause.length →
            ∃ i, decision_clause_scan s6 s6.decision_clause.length = some i
              ∧ i < s6.decision_clause.length
              ∧ (s6.value (s6.decision_clause.getD i lit_Undef) = l_True
                  ∨ s6.value (s6.decision_clause.getD i lit_Undef) = l_Undef))
        ∧ add_decision_clause s6 o.backtrack_level = some s7
        ∧ handle_conflict s confl = some (true, s7))
      ∧ ∀ (t : Searcher) (n : Nat), decision_clause_scan t n = none ↔
          ∀ i < n, ¬ (t.value (t.decision_clause.getD i lit_Undef) = l_True
            ∨ t.value (t.decision_clause.getD i lit_Undef) = l_Undef) := by
  refine ⟨?_, fun t n => (decision_clause_scan_spec t n).1⟩
  obtain ⟨o, l0, rest, h1, hL, hdec⟩ := handle_conflict_backtrack_rooted h hroot
  obtain ⟨f1, f2, f3⟩ := handle_last_confl_facts o.st (min o.glue uint32_max) false
  have fa := handle_last_confl_assigns o.st (min o.glue uint32_max) false
  obtain ⟨s6, h6, h6d⟩ := attach_and_enqueue_total
    (handle_last_confl o.st (min o.glue uint32_max) false).2
    (handle_last_confl o.st (min o.glue uint32_max) false).1 o.backtrack_level true
    (by rw [f1, hL]; simp) (by rw [f1]; exact f3)
  have ha6 := attach_and_enqueue_assigns _ _ _ l0 rest (f1.trans hL) s6 h6
  rw [fa] at ha6
  have hd6 : s6.decision_clause = o.st.decision_clause := h6d.trans f2
  have hscan : 0 < s6.decision_clause.length →
      ∃ i, decision_clause_scan s6 s6.decision_clause.length = some i
        ∧ i < s6.decision_clause.length
        ∧ (s6.value (s6.decision_clause.getD i lit_Undef) = l_True
            ∨ s6.value (s6.decision_clause.getD i lit_Undef) = l_Undef) := by
    intro hpos
    have hne : o.st.decision_clause ≠ [] := by
      rw [← hd6]
      exact List.ne_nil_of_length_pos hpos
    obtain ⟨l, hl, hlu, hlv⟩ := hdec hne
    apply decision_clause_scan_finds s6 l (by rw [hd6]; exact hl)
    by_cases hv : l.var = l0.var
    · left
      rw [hlv hv]
      exact value_upd_self s6 _ l0 ha6
    · right
      rw [value_upd_other s6 _ l0 l _ ha6 hv]
      exact hlu
  have hadd : ∃ s7, add_decision_clause s6 o.backtrack_level = some s7 := by
    unfold add_decision_clause
    by_cases hpos : s6.decision_clause.length > 0
    · rw [if_pos hpos]
      obtain ⟨i, hi, _, _⟩ := hscan hpos
      rw [hi]
      simp only
      obtain ⟨g1, _, g3⟩ := handle_last_confl_facts
        { s6 with decision_clause := swapAt s6.decision_clause 0 i,
                  learnt_clause := swapAt s6.decision_clause 0 i }
        (swapAt s6.decision_clause 0 i).length true
      have hlen : 0 < (swapAt s6.decision_clause 0 i).length := by
        rw [swapAt_length]; exact hpos
      obtain ⟨s7, h7, _⟩ := attach_and_enqueue_total _ _ o.backtrack_level false
        (by rw [g1]; exact List.ne_nil_of_length_pos hlen) (by rw [g1]; exact g3)
      exact ⟨s7, h7⟩
    · rw [if_neg hpos]
      exact ⟨s6, rfl⟩
  obtain ⟨s7, h7⟩ := hadd
  refine ⟨o, s6, s7, h1, h6, hscan, h7, ?_⟩
  unfold handle_conflict
  rw [h1]
  simp only
  rw [h6]
  simp only
  rw [h7]
  rfl

theorem handle_conflict_decision_scan_in_bounds_witness :
    levels_rooted ex_decision
      ∧ ((∃ o s6 s7, handle_conflict_backtrack ex_decision (.clause_t 0) = some (.inr o)
          ∧ attach_and_enqueue_learnt_clause
              (handle_last_confl o.st (min o.glue uint32_max) false).2
              (handle_last_confl o.st (min o.glue uint32_max) false).1 o.backtrack_level true
            = some s6
          ∧ (0 < s6.decision_clause.length →
              ∃ i, decision_clause_scan s6 s6.decision_clause.length = some i
                ∧ i < s6.decision_clause.length
                ∧ (s6.value (s6.decision_clause.getD i lit_Undef) = l_True
                    ∨ s6.value (s6.decision_clause.getD i lit_Undef) = l_Undef))
          ∧ add_decision_clause s6 o.backtrack_level = some s7
          ∧ handle_conflict ex_decision (.clause_t 0) = some (true, s7))
        ∧ ∀ (t : Searcher) (n : Nat), decision_clause_scan t n = none ↔
            ∀ i < n, ¬ (t.value (t.decision_clause.getD i lit_Undef) = l_True
              ∨ t.value (t.decision_clause.getD i lit_Undef) = l_Undef))
      ∧ (handle_conflict_backtrack ex_decision (.clause_t 0)).map
          (fun r => r.elim (fun _ => []) (fun o => o.st.decision_clause))
          = some [⟨7⟩, ⟨3⟩] :=
  ⟨by decide,
    handle_conflict_decision_scan_in_bounds ex_decision (.clause_t 0)
      ⟨by decide, by decide, ⟨⟨7⟩, by decide, by decide⟩, fun _ => rfl,
        fun _ => Nat.le_refl _, by decide⟩
      (by decide),
    by decide!⟩

end Searcher
end CMSat
